import Mathlib

/-!
# LevelDB core structures: write-ahead log, skip list, memtable, filter block, sstable

A shallow embedding of the C++ sources (`db/log_writer.cc`, `db/log_reader.cc`,
`db/skiplist.h`, `db/memtable.cc`, `table/filter_block.cc`, `table/table_builder.cc`,
`table/table.cc`) together with theorems about them.

Conventions of the embedding:

* a byte is a natural number; byte strings, slices and files are `List Nat`;
* pointers into the arena are indices into a list of nodes;
* `while (true)` loops are functions with a fuel argument; the entry points
  compute the fuel from the state and the theorems show that it is never
  exhausted on the inputs they speak about;
* unsigned 64-bit arithmetic that can wrap is written with `sub64` / `% 2^64`;
* collaborators whose code is outside the modelled sources (CRC32C, the
  random generator, the user comparator, the filter policy, the compression port, the
  block reader) are parameters.
-/

namespace leveldb

/-! ## Status -/

/-- The status codes of `leveldb::Status`. -/
inductive Status where
  | OK
  | NotFound (msg : String)
  | Corruption (msg : String)
  | NotSupported (msg : String)
  | InvalidArgument (msg : String)
  | IOError (msg : String)
deriving DecidableEq, Repr

/-- The method `Status::ok()`. -/
def Status.ok : Status → Bool
  | .OK => true
  | _ => false

/-! ## Fixed-width coding and wrap-around arithmetic -/

/-- Modelled from the spec: `EncodeFixed32` of `util/coding.h`, the little-endian
`u32_le` encoding of §6 (the value is truncated to 32 bits as the C++ parameter type does). -/
def EncodeFixed32 (v : Nat) : List Nat :=
  [v % 256, v / 256 % 256, v / 65536 % 256, v / 16777216 % 256]

/-- Modelled from the spec: `DecodeFixed32` of `util/coding.h`, reading four bytes
little-endian (`u32_le`); a byte that is missing reads as `0`. -/
def DecodeFixed32 (p : List Nat) : Nat :=
  p.getD 0 0 % 256 + p.getD 1 0 % 256 * 256 + p.getD 2 0 % 256 * 65536
    + p.getD 3 0 % 256 * 16777216

/-- Subtraction of unsigned 64-bit integers (wraps around on underflow). -/
def sub64 (a b : Nat) : Nat := (a % 2 ^ 64 + (2 ^ 64 - b % 2 ^ 64)) % 2 ^ 64

/-- Addition of unsigned 64-bit integers (wraps around on overflow). -/
def add64 (a b : Nat) : Nat := (a + b) % 2 ^ 64

/-! ## CRC32C (external collaborator) -/

/-- The functions of `util/crc32c.h` used by the log: they are outside the
modelled sources and are taken as parameters. -/
structure Crc32c where
  /-- The function `crc32c::Value(data, n)`. -/
  Value : List Nat → Nat
  /-- The function `crc32c::Extend(init_crc, data, n)`. -/
  Extend : Nat → List Nat → Nat
  /-- The function `crc32c::Mask(crc)`. -/
  Mask : Nat → Nat
  /-- The function `crc32c::Unmask(masked_crc)`. -/
  Unmask : Nat → Nat

/-- The contract of the CRC32C collaborator: values are 32-bit, `Extend` continues a
checksum, and `Unmask` undoes `Mask`. -/
structure Crc32c.Lawful (crc : Crc32c) : Prop where
  value_lt : ∀ d, crc.Value d < 2 ^ 32
  extend_value : ∀ a b, crc.Extend (crc.Value a) b = crc.Value (a ++ b)
  mask_lt : ∀ x, crc.Mask x < 2 ^ 32
  unmask_mask : ∀ x, x < 2 ^ 32 → crc.Unmask (crc.Mask x) = x

/-- Modelled from the spec: the CRC mask of §6,
`((crc >> 15) | (crc << 17)) + 0xa282ead8` in 32-bit arithmetic. -/
def crcMask (c : Nat) : Nat :=
  (((c % 2 ^ 32) >>> 15 ||| ((c % 2 ^ 32) <<< 17) % 2 ^ 32) + 0xa282ead8) % 2 ^ 32

/-- Modelled from the spec: the inverse of the CRC mask (the `unmask` of the
`mask`/`unmask` pair of §6): subtract the constant and rotate back. -/
def crcUnmask (m : Nat) : Nat :=
  let rot := (m % 2 ^ 32 + (2 ^ 32 - 0xa282ead8)) % 2 ^ 32
  (rot >>> 17 ||| (rot <<< 15) % 2 ^ 32) % 2 ^ 32

/-- A concrete checksum used to instantiate the parameter: a 32-bit polynomial
hash of the bytes, masked as §6 prescribes. -/
def sampleCrc : Crc32c where
  Value := fun d => d.foldl (fun acc b => (acc * 31 + b + 1) % 2 ^ 32) 0
  Extend := fun init d => d.foldl (fun acc b => (acc * 31 + b + 1) % 2 ^ 32) init
  Mask := crcMask
  Unmask := crcUnmask

/-! ## Log format constants -/

namespace log

/-- Modelled from the spec: `kBlockSize` of `db/log_format.h` (32 KiB blocks, §3). -/
def kBlockSize : Nat := 32768

/-- Modelled from the spec: `kHeaderSize` of `db/log_format.h`
(checksum 4 bytes, length 2 bytes, type 1 byte, §3). -/
def kHeaderSize : Nat := 4 + 2 + 1

/-- Modelled from the spec: record type `ZERO = 0` (§3). -/
def kZeroType : Nat := 0
/-- Modelled from the spec: record type `FULL = 1` (§3). -/
def kFullType : Nat := 1
/-- Modelled from the spec: record type `FIRST = 2` (§3). -/
def kFirstType : Nat := 2
/-- Modelled from the spec: record type `MIDDLE = 3` (§3). -/
def kMiddleType : Nat := 3
/-- Modelled from the spec: record type `LAST = 4` (§3). -/
def kLastType : Nat := 4
/-- Modelled from the spec: `kMaxRecordType = kLastType` of `db/log_format.h`. -/
def kMaxRecordType : Nat := kLastType

/-- The special value `Reader::kEof`. -/
def kEof : Nat := kMaxRecordType + 1
/-- The special value `Reader::kBadRecord`. -/
def kBadRecord : Nat := kMaxRecordType + 2

/-! ## Files -/

/-- A `WritableFile`: the bytes appended so far, and whether its operations
succeed (`healthy = false` makes every `Append` and `Flush` fail). -/
structure WritableFile where
  contents : List Nat
  healthy : Bool
deriving DecidableEq, Repr

/-- The method `WritableFile::Append`. -/
def WritableFile.Append (f : WritableFile) (data : List Nat) : Status × WritableFile :=
  if f.healthy then (Status.OK, { f with contents := f.contents ++ data })
  else (Status.IOError "append", f)

/-- The method `WritableFile::Flush`. -/
def WritableFile.Flush (f : WritableFile) : Status × WritableFile :=
  if f.healthy then (Status.OK, f) else (Status.IOError "flush", f)

/-- A `SequentialFile`: the bytes not yet read, and whether its operations succeed. -/
structure SequentialFile where
  data : List Nat
  healthy : Bool
deriving DecidableEq, Repr

/-- The method `SequentialFile::Read(n, result, scratch)`: up to `n` bytes. -/
def SequentialFile.Read (f : SequentialFile) (n : Nat) : Status × List Nat × SequentialFile :=
  if f.healthy then (Status.OK, f.data.take n, { f with data := f.data.drop n })
  else (Status.IOError "read", [], f)

/-- The method `SequentialFile::Skip(n)`. -/
def SequentialFile.Skip (f : SequentialFile) (n : Nat) : Status × SequentialFile :=
  if f.healthy then (Status.OK, { f with data := f.data.drop n })
  else (Status.IOError "skip", f)

/-! ## log::Writer (db/log_writer.cc) -/

/-- The function `InitTypeCrc`: the checksum of each record type byte. -/
def InitTypeCrc (crc : Crc32c) : List Nat :=
  (List.range (kMaxRecordType + 1)).map (fun i => crc.Value [i])

/-- The state of a `log::Writer`. -/
structure Writer where
  dest_ : WritableFile
  block_offset_ : Nat
  type_crc_ : List Nat
deriving DecidableEq, Repr

/-- The constructor `Writer::Writer(WritableFile* dest)`. -/
def Writer.mk0 (crc : Crc32c) (dest : WritableFile) : Writer :=
  { dest_ := dest, block_offset_ := 0, type_crc_ := InitTypeCrc crc }

/-- The constructor `Writer::Writer(WritableFile* dest, uint64_t dest_length)`. -/
def Writer.mkAt (crc : Crc32c) (dest : WritableFile) (dest_length : Nat) : Writer :=
  { dest_ := dest, block_offset_ := dest_length % kBlockSize, type_crc_ := InitTypeCrc crc }

/-- The method `Writer::EmitPhysicalRecord(t, ptr, length)`; the slice `ptr` carries
its length. -/
def Writer.EmitPhysicalRecord (crc : Crc32c) (w : Writer) (t : Nat) (ptr : List Nat) :
    Status × Writer :=
  let length := ptr.length
  -- Format the header
  let buf4 := length % 256
  let buf5 := length / 256 % 256
  let buf6 := t
  -- Compute the crc of the record type and the payload.
  let c := crc.Extend (w.type_crc_.getD t 0) ptr
  let c := crc.Mask c
  let buf := EncodeFixed32 c ++ [buf4, buf5, buf6]
  -- Write the header and the payload
  let r1 := w.dest_.Append buf
  let r2 :=
    if r1.1.ok then
      let r := r1.2.Append ptr
      if r.1.ok then r.2.Flush else r
    else r1
  (r2.1, { w with dest_ := r2.2, block_offset_ := w.block_offset_ + kHeaderSize + length })

/-- The `do { ... } while (s.ok() && left > 0)` loop of `Writer::AddRecord`.
The list `left` is the part of the slice not yet written (`ptr`, `left`). -/
def Writer.AddRecordLoop (crc : Crc32c) : Nat → Writer → List Nat → Bool → Option (Status × Writer)
  | 0, _, _, _ => none
  | fuel + 1, w, left, begin =>
    let leftover := kBlockSize - w.block_offset_
    let w1 : Writer :=
      if leftover < kHeaderSize then
        -- Switch to a new block
        let d :=
          if leftover > 0 then (w.dest_.Append ((List.replicate 6 0).take leftover)).2
          else w.dest_
        { w with dest_ := d, block_offset_ := 0 }
      else w
    let avail := kBlockSize - w1.block_offset_ - kHeaderSize
    let fragment_length := if left.length < avail then left.length else avail
    let is_end := left.length == fragment_length
    let type :=
      if begin && is_end then kFullType
      else if begin then kFirstType
      else if is_end then kLastType
      else kMiddleType
    let r := w1.EmitPhysicalRecord crc type (left.take fragment_length)
    let left1 := left.drop fragment_length
    if r.1.ok && left1.length > 0 then Writer.AddRecordLoop crc fuel r.2 left1 false
    else some r

/-- The method `Writer::AddRecord(slice)`. Every iteration after the first writes at
least one byte of the slice, so `slice.length + 1` iterations are enough. -/
def Writer.AddRecord (crc : Crc32c) (w : Writer) (slice : List Nat) : Option (Status × Writer) :=
  Writer.AddRecordLoop crc (slice.length + 1) w slice true

/-- A sequence of `AddRecord` calls, stopping with `none` if a call does not
return or returns a non-ok status. -/
def Writer.AddRecords (crc : Crc32c) : Writer → List (List Nat) → Option Writer
  | w, [] => some w
  | w, p :: ps =>
    match w.AddRecord crc p with
    | some (s, w1) => if s.ok then Writer.AddRecords crc w1 ps else none
    | none => none

/-! ## log::Reader (db/log_reader.cc) -/

/-- The conversion `const unsigned int type = header[6]` of a `char` holding the byte `b`
to `unsigned int`, `char` being signed: a byte from 128 on is a negative value and
converts to `2^32 - 256 + b`. -/
def charToUnsigned (b : Nat) : Nat := if b < 128 then b else b + (2 ^ 32 - 256)

/-- The state of a `log::Reader`. The reporter is `none` for a null pointer and
otherwise the list of `Corruption(bytes, status)` calls it has received. -/
structure Reader where
  file_ : SequentialFile
  reporter_ : Option (List (Nat × Status))
  checksum_ : Bool
  buffer_ : List Nat
  eof_ : Bool
  last_record_offset_ : Nat
  end_of_buffer_offset_ : Nat
  initial_offset_ : Nat
  resyncing_ : Bool
deriving DecidableEq, Repr

/-- The constructor `Reader::Reader(file, reporter, checksum, initial_offset)`. -/
def Reader.mk0 (file : SequentialFile) (reporter : Option (List (Nat × Status)))
    (checksum : Bool) (initial_offset : Nat) : Reader :=
  { file_ := file, reporter_ := reporter, checksum_ := checksum, buffer_ := [],
    eof_ := false, last_record_offset_ := 0, end_of_buffer_offset_ := 0,
    initial_offset_ := initial_offset, resyncing_ := decide (initial_offset > 0) }

/-- The method `Reader::ReportDrop(bytes, reason)`. -/
def Reader.ReportDrop (r : Reader) (bytes : Nat) (reason : Status) : Reader :=
  match r.reporter_ with
  | some calls =>
    if sub64 (sub64 r.end_of_buffer_offset_ r.buffer_.length) bytes ≥ r.initial_offset_ then
      { r with reporter_ := some (calls ++ [(bytes, reason)]) }
    else r
  | none => r

/-- The method `Reader::ReportCorruption(bytes, reason)`. -/
def Reader.ReportCorruption (r : Reader) (bytes : Nat) (reason : String) : Reader :=
  r.ReportDrop bytes (Status.Corruption reason)

/-- The method `Reader::SkipToInitialBlock()`. -/
def Reader.SkipToInitialBlock (r : Reader) : Bool × Reader :=
  let offset_in_block := r.initial_offset_ % kBlockSize
  let block_start_location := r.initial_offset_ - offset_in_block
  -- Don't search a block if we'd be in the trailer
  let block_start_location :=
    if offset_in_block > kBlockSize - 6 then add64 block_start_location kBlockSize
    else block_start_location
  let r := { r with end_of_buffer_offset_ := block_start_location }
  -- Skip to start of first block that can contain the initial record
  if block_start_location > 0 then
    let sk := r.file_.Skip block_start_location
    let r := { r with file_ := sk.2 }
    if !sk.1.ok then (false, r.ReportDrop block_start_location sk.1)
    else (true, r)
  else (true, r)

/-- The `while (true)` loop of `Reader::ReadPhysicalRecord(result)`. The result is
the returned type, the slice `*result` (unchanged when the code does not assign it)
and the new state. -/
def Reader.ReadPhysicalRecordLoop (crc : Crc32c) :
    Nat → Reader → List Nat → Option (Nat × List Nat × Reader)
  | 0, _, _ => none
  | fuel + 1, r, result =>
    if r.buffer_.length < kHeaderSize then
      if !r.eof_ then
        -- Last read was a full read, so this is a trailer to skip
        let rd := r.file_.Read kBlockSize
        let r := { r with file_ := rd.2.2, buffer_ := rd.2.1,
                          end_of_buffer_offset_ := add64 r.end_of_buffer_offset_ rd.2.1.length }
        if !rd.1.ok then
          let r := { r with buffer_ := [] }
          let r := r.ReportDrop kBlockSize rd.1
          some (kEof, result, { r with eof_ := true })
        else if r.buffer_.length < kBlockSize then
          Reader.ReadPhysicalRecordLoop crc fuel { r with eof_ := true } result
        else
          Reader.ReadPhysicalRecordLoop crc fuel r result
      else
        -- A truncated header at the end of the file: just report EOF.
        some (kEof, result, { r with buffer_ := [] })
    else
      -- Parse the header
      let header := r.buffer_
      let a := header.getD 4 0 % 256
      let b := header.getD 5 0 % 256
      let type := charToUnsigned (header.getD 6 0)
      let length := a ||| (b <<< 8)
      if kHeaderSize + length > r.buffer_.length then
        let drop_size := r.buffer_.length
        let r := { r with buffer_ := [] }
        if !r.eof_ then
          some (kBadRecord, result, r.ReportCorruption drop_size "bad record length")
        else
          -- The writer died in the middle of writing the record: no report.
          some (kEof, result, r)
      else if type == kZeroType && length == 0 then
        -- Skip zero length record without reporting any drops
        some (kBadRecord, result, { r with buffer_ := [] })
      else if r.checksum_ &&
          (crc.Value ((header.drop 6).take (1 + length)) != crc.Unmask (DecodeFixed32 header)) then
        -- Drop the rest of the buffer since "length" itself may have been corrupted
        let drop_size := r.buffer_.length
        let r := { r with buffer_ := [] }
        some (kBadRecord, result, r.ReportCorruption drop_size "checksum mismatch")
      else
        let r := { r with buffer_ := r.buffer_.drop (kHeaderSize + length) }
        -- Skip physical record that started before initial_offset_
        if sub64 (sub64 (sub64 r.end_of_buffer_offset_ r.buffer_.length) kHeaderSize) length
            < r.initial_offset_ then
          some (kBadRecord, [], r)
        else
          some (type, (header.drop kHeaderSize).take length, r)

/-- The method `Reader::ReadPhysicalRecord(result)`: the loop body runs at most
twice (one refill of the buffer, then a header or the end of the file). -/
def Reader.ReadPhysicalRecord (crc : Crc32c) (r : Reader) (result : List Nat) :
    Option (Nat × List Nat × Reader) :=
  Reader.ReadPhysicalRecordLoop crc 2 r result

/-- What `Reader::ReadRecord` hands back: the returned flag, `*record`, `*scratch`
and the new state. -/
structure ReadResult where
  ok : Bool
  record : List Nat
  scratch : List Nat
  reader : Reader
deriving DecidableEq, Repr

/-- The `while (true)` loop of `Reader::ReadRecord`, with its local variables
`scratch`, `in_fragmented_record`, `prospective_record_offset` and `fragment`. -/
def Reader.ReadRecordLoop (crc : Crc32c) :
    Nat → Reader → List Nat → Bool → Nat → List Nat → Option ReadResult
  | 0, _, _, _, _, _ => none
  | fuel + 1, r, scratch, in_fragmented_record, prospective_record_offset, fragment =>
    match r.ReadPhysicalRecord crc fragment with
    | none => none
    | some (record_type, fragment, r) =>
      let physical_record_offset :=
        sub64 (sub64 (sub64 r.end_of_buffer_offset_ r.buffer_.length) kHeaderSize) fragment.length
      if r.resyncing_ && record_type == kMiddleType then
        Reader.ReadRecordLoop crc fuel r scratch in_fragmented_record prospective_record_offset
          fragment
      else if r.resyncing_ && record_type == kLastType then
        Reader.ReadRecordLoop crc fuel { r with resyncing_ := false } scratch in_fragmented_record
          prospective_record_offset fragment
      else
        let r := { r with resyncing_ := false }
        if record_type == kFullType then
          let r :=
            if in_fragmented_record && !scratch.isEmpty then
              r.ReportCorruption scratch.length "partial record without end(1)"
            else r
          some { ok := true, record := fragment, scratch := [],
                 reader := { r with last_record_offset_ := physical_record_offset } }
        else if record_type == kFirstType then
          let r :=
            if in_fragmented_record && !scratch.isEmpty then
              r.ReportCorruption scratch.length "partial record without end(2)"
            else r
          Reader.ReadRecordLoop crc fuel r fragment true physical_record_offset fragment
        else if record_type == kMiddleType then
          if !in_fragmented_record then
            Reader.ReadRecordLoop crc fuel
              (r.ReportCorruption fragment.length "missing start of fragmented record(1)")
              scratch in_fragmented_record prospective_record_offset fragment
          else
            Reader.ReadRecordLoop crc fuel r (scratch ++ fragment) in_fragmented_record
              prospective_record_offset fragment
        else if record_type == kLastType then
          if !in_fragmented_record then
            Reader.ReadRecordLoop crc fuel
              (r.ReportCorruption fragment.length "missing start of fragmented record(2)")
              scratch in_fragmented_record prospective_record_offset fragment
          else
            some { ok := true, record := scratch ++ fragment, scratch := scratch ++ fragment,
                   reader := { r with last_record_offset_ := prospective_record_offset } }
        else if record_type == kEof then
          -- A writer that died in the middle of a record: ignore the logical record.
          some { ok := false, record := [],
                 scratch := if in_fragmented_record then [] else scratch, reader := r }
        else if record_type == kBadRecord then
          if in_fragmented_record then
            Reader.ReadRecordLoop crc fuel
              (r.ReportCorruption scratch.length "error in middle of record")
              [] false prospective_record_offset fragment
          else
            Reader.ReadRecordLoop crc fuel r scratch in_fragmented_record
              prospective_record_offset fragment
        else
          Reader.ReadRecordLoop crc fuel
            (r.ReportCorruption
              (fragment.length + (if in_fragmented_record then scratch.length else 0))
              ("unknown record type " ++ toString record_type))
            [] false prospective_record_offset fragment

/-- The method `Reader::ReadRecord(record, scratch)`. Every iteration of its loop
that does not return takes at least one byte out of the buffer or the file, which
bounds the number of iterations. -/
def Reader.ReadRecord (crc : Crc32c) (r : Reader) : Option ReadResult :=
  let sk : Bool × Reader :=
    if r.last_record_offset_ < r.initial_offset_ then r.SkipToInitialBlock else (true, r)
  if !sk.1 then some { ok := false, record := [], scratch := [], reader := sk.2 }
  else
    Reader.ReadRecordLoop crc (sk.2.file_.data.length + sk.2.buffer_.length + 1) sk.2 [] false 0 []

/-- Call `ReadRecord` until it returns false, at most `n` times: the records
returned, whether the last call made returned false, and the final state. -/
def Reader.ReadRecords (crc : Crc32c) : Nat → Reader → Option (List (List Nat) × Bool × Reader)
  | 0, r => some ([], false, r)
  | n + 1, r =>
    match r.ReadRecord crc with
    | none => none
    | some res =>
      if res.ok then
        match Reader.ReadRecords crc n res.reader with
        | none => none
        | some (recs, done, r1) => some (res.record :: recs, done, r1)
      else some ([], true, res.reader)

end log

end leveldb

namespace leveldb
namespace log

/-! ## Notions used to state and prove the log theorems -/

/-- The seven header bytes the writer puts in front of a fragment of type `t`. -/
def recordHeader (crc : Crc32c) (t : Nat) (frag : List Nat) : List Nat :=
  EncodeFixed32 (crc.Mask (crc.Extend (crc.Value [t]) frag))
    ++ [frag.length % 256, frag.length / 256 % 256, t]

/-- The least multiple of the block size that is at least `o`. -/
def roundUp (o : Nat) : Nat := (o + (kBlockSize - 1)) / kBlockSize * kBlockSize

/-- A physical record of a log file: the offset of its header, its type and its fragment. -/
structure PhysRec where
  offset : Nat
  type : Nat
  payload : List Nat
deriving DecidableEq, Repr

/-- The bytes `X`, lying at file offset `o`, consist exactly of the physical records
`items`, each inside one block and each preceded by zero padding only where fewer than
seven bytes were left in the block. -/
inductive Layout (crc : Crc32c) : Nat → List Nat → List PhysRec → Prop
  | nil (o : Nat) : Layout crc o [] []
  | cons (o p t : Nat) (frag X : List Nat) (items : List PhysRec) :
      (p = 0 ∨ (p < 7 ∧ (o + p) % kBlockSize = 0)) →
      1 ≤ t → t ≤ 4 →
      (o + p) % kBlockSize + 7 + frag.length ≤ kBlockSize →
      Layout crc (o + p + 7 + frag.length) X items →
      Layout crc o (List.replicate p 0 ++ (recordHeader crc t frag ++ (frag ++ X)))
        (⟨o + p, t, frag⟩ :: items)

/-- The reader's buffer and file position are consistent with an unread position `o`:
the buffer holds the bytes from `o` to the end of the block read last. -/
structure AlignedAt (file : SequentialFile) (buffer : List Nat) (eof : Bool) (eob : Nat)
    (o : Nat) : Prop where
  healthy : file.healthy = true
  eob_eq : eob = (o + buffer.length) % 2 ^ 64
  at_eof : eof = true → file.data = [] ∧ o + buffer.length ≤ roundUp o
  not_eof : eof = false → o + buffer.length = roundUp o

/-- See `AlignedAt`. -/
def Aligned (r : Reader) (o : Nat) : Prop :=
  AlignedAt r.file_ r.buffer_ r.eof_ r.end_of_buffer_offset_ o

/-- The fields of the reader that `ReadPhysicalRecord` leaves alone on a well-formed log. -/
def SameControl (r r1 : Reader) : Prop :=
  r1.reporter_ = r.reporter_ ∧ r1.checksum_ = r.checksum_ ∧
  r1.last_record_offset_ = r.last_record_offset_ ∧ r1.initial_offset_ = r.initial_offset_ ∧
  r1.resyncing_ = r.resyncing_

/-- The physical records `g` are the fragments of one logical record with payload `P`;
the flag tells whether `g` starts at the beginning of the record. -/
inductive Frag : Bool → List PhysRec → List Nat → Prop
  | full (o : Nat) (P : List Nat) : Frag true [⟨o, kFullType, P⟩] P
  | last (o : Nat) (P : List Nat) : Frag false [⟨o, kLastType, P⟩] P
  | first (o : Nat) (f : List Nat) (rest : List PhysRec) (P : List Nat) :
      Frag false rest P → Frag true (⟨o, kFirstType, f⟩ :: rest) (f ++ P)
  | middle (o : Nat) (f : List Nat) (rest : List PhysRec) (P : List Nat) :
      Frag false rest P → Frag false (⟨o, kMiddleType, f⟩ :: rest) (f ++ P)

/-- The invariant of a `log::Writer` whose file operations succeed. -/
structure WriterInv (crc : Crc32c) (w : Writer) : Prop where
  healthy : w.dest_.healthy = true
  type_crc : w.type_crc_ = InitTypeCrc crc
  le_block : w.block_offset_ ≤ kBlockSize
  congr_len : w.block_offset_ % kBlockSize = w.dest_.contents.length % kBlockSize

/-- The record type `Writer::AddRecord` gives to a fragment, from the flags `begin`
and `end` of its loop. -/
@[reducible] def recType (begin is_end : Bool) : Nat :=
  if begin && is_end then kFullType
  else if begin then kFirstType
  else if is_end then kLastType
  else kMiddleType

/-- The physical records `items` are the fragments of the logical records `ps`,
record after record. -/
inductive Groups : List PhysRec → List (List Nat) → Prop
  | nil : Groups [] []
  | cons (g rest : List PhysRec) (P : List Nat) (ps : List (List Nat)) :
      Frag true g P → Groups rest ps → Groups (g ++ rest) (P :: ps)

/-- The file offset at which a writer in state `w` puts the header of the next
record: the current length of the file plus the padding `AddRecord` adds first. -/
def Writer.recordStart (w : Writer) : Nat :=
  w.dest_.contents.length +
    (if kBlockSize - w.block_offset_ < kHeaderSize then kBlockSize - w.block_offset_ else 0)

/-- For each payload written by `AddRecord`, in order: the file offset of the header
of its first physical record, the length of the file after the record, and the payload. -/
def Writer.recordExtents (crc : Crc32c) : Writer → List (List Nat) → List (Nat × Nat × List Nat)
  | _, [] => []
  | w, p :: ps =>
    match w.AddRecord crc p with
    | some (_, w1) =>
      (w.recordStart, w1.dest_.contents.length, p) :: Writer.recordExtents crc w1 ps
    | none => []

/-- The bytes `X` at file offset `o` are the logical records `exts` (start offset, end
offset, payload), one after the other, and `items` are their physical records. -/
inductive Records (crc : Crc32c) :
    Nat → List Nat → List PhysRec → List (Nat × Nat × List Nat) → Prop
  | nil (o : Nat) : Records crc o [] [] []
  | cons (o : Nat) (X1 : List Nat) (g : List PhysRec) (s : Nat) (P : List Nat) (X2 : List Nat)
      (items : List PhysRec) (exts : List (Nat × Nat × List Nat)) :
      Layout crc o X1 g → Frag true g P → g.head?.map (fun it => it.offset) = some s →
      Records crc (o + X1.length) X2 items exts →
      Records crc o (X1 ++ X2) (g ++ items) ((s, o + X1.length, P) :: exts)

/-- The block start `Reader::SkipToInitialBlock` computes from `initial_offset`. -/
def initialBlockStart (initial_offset : Nat) : Nat :=
  if initial_offset % kBlockSize > kBlockSize - 6 then
    add64 (initial_offset - initial_offset % kBlockSize) kBlockSize
  else initial_offset - initial_offset % kBlockSize

end log
end leveldb

namespace leveldb
namespace log

/-! ## The calls of `EmitPhysicalRecord` made by `AddRecord` -/

/-- A call `EmitPhysicalRecord(t, ptr, length)`: the value of `block_offset_` at the call,
the type and the length. -/
structure EmitCall where
  block_offset : Nat
  type : Nat
  length : Nat
deriving DecidableEq, Repr

/-- The calls of `EmitPhysicalRecord` that the loop of `Writer::AddRecord` makes, in
order. The control flow is the one of `Writer.AddRecordLoop`. -/
def Writer.AddRecordLoopCalls (crc : Crc32c) : Nat → Writer → List Nat → Bool → List EmitCall
  | 0, _, _, _ => []
  | fuel + 1, w, left, begin =>
    let leftover := kBlockSize - w.block_offset_
    let w1 : Writer :=
      if leftover < kHeaderSize then
        let d :=
          if leftover > 0 then (w.dest_.Append ((List.replicate 6 0).take leftover)).2
          else w.dest_
        { w with dest_ := d, block_offset_ := 0 }
      else w
    let avail := kBlockSize - w1.block_offset_ - kHeaderSize
    let fragment_length := if left.length < avail then left.length else avail
    let is_end := left.length == fragment_length
    let type :=
      if begin && is_end then kFullType
      else if begin then kFirstType
      else if is_end then kLastType
      else kMiddleType
    let call : EmitCall :=
      { block_offset := w1.block_offset_, type := type,
        length := (left.take fragment_length).length }
    let r := w1.EmitPhysicalRecord crc type (left.take fragment_length)
    let left1 := left.drop fragment_length
    if r.1.ok && left1.length > 0 then call :: Writer.AddRecordLoopCalls crc fuel r.2 left1 false
    else [call]

/-- The calls of `EmitPhysicalRecord` made by `AddRecord(slice)`. -/
def Writer.AddRecordCalls (crc : Crc32c) (w : Writer) (slice : List Nat) : List EmitCall :=
  Writer.AddRecordLoopCalls crc (slice.length + 1) w slice true

/-- The calls of `EmitPhysicalRecord` made by a sequence of `AddRecord` calls, whatever
status they return. -/
def Writer.AddRecordsCalls (crc : Crc32c) : Writer → List (List Nat) → List EmitCall
  | _, [] => []
  | w, p :: ps =>
    w.AddRecordCalls crc p ++
      (match w.AddRecord crc p with
       | some (_, w1) => Writer.AddRecordsCalls crc w1 ps
       | none => [])

/-- The assertions at the head of `EmitPhysicalRecord` hold at a call. -/
def EmitCall.Asserted (c : EmitCall) : Prop :=
  c.length ≤ 0xffff ∧ c.block_offset + kHeaderSize + c.length ≤ kBlockSize

end log
end leveldb

namespace leveldb
namespace log

/-! ## Truncated logs -/

/-- The physical records `g` are the first fragments of a logical record of which more
fragments follow: `FIRST`, `MIDDLE`s when the flag is set, `MIDDLE`s otherwise. -/
inductive FragPre : Bool → List PhysRec → Prop
  | nil (b : Bool) : FragPre b []
  | first (o : Nat) (f : List Nat) (rest : List PhysRec) :
      FragPre false rest → FragPre true (⟨o, kFirstType, f⟩ :: rest)
  | middle (o : Nat) (f : List Nat) (rest : List PhysRec) :
      FragPre false rest → FragPre false (⟨o, kMiddleType, f⟩ :: rest)

end log
end leveldb

namespace leveldb
namespace log

/-! ## Further notions for the log theorems -/

/-- The states of a `log::Writer`: after construction and after every `AddRecord` call
that returned, whatever its status. -/
inductive Writer.Reachable (crc : Crc32c) : Writer → Prop
  | mk0 (dest : WritableFile) : Writer.Reachable crc (Writer.mk0 crc dest)
  | mkAt (dest : WritableFile) (dest_length : Nat) :
      Writer.Reachable crc (Writer.mkAt crc dest dest_length)
  | addRecord (w : Writer) (slice : List Nat) (s : Status) (w1 : Writer) :
      Writer.Reachable crc w → w.AddRecord crc slice = some (s, w1) →
      Writer.Reachable crc w1

/-- The method `Reader::LastRecordOffset()`. -/
def Reader.LastRecordOffset (r : Reader) : Nat := r.last_record_offset_

/-- Call `ReadRecord` until it returns false, at most `n` times: for every call that
returned true the record and the value of `LastRecordOffset()` after the call, whether
the last call made returned false, and the final state. -/
def Reader.ReadRecordsWithOffsets (crc : Crc32c) :
    Nat → Reader → Option (List (List Nat × Nat) × Bool × Reader)
  | 0, r => some ([], false, r)
  | n + 1, r =>
    match r.ReadRecord crc with
    | none => none
    | some res =>
      if res.ok then
        match Reader.ReadRecordsWithOffsets crc n res.reader with
        | none => none
        | some (recs, done, r1) =>
          some ((res.record, res.reader.LastRecordOffset) :: recs, done, r1)
      else some ([], true, res.reader)

/-- The physical records `items` are the fragments of the logical records `ps`, record
after record; each logical record is given with the offset of the header of its first
physical record. -/
inductive GroupsAt : List PhysRec → List (Nat × List Nat) → Prop
  | nil : GroupsAt [] []
  | cons (g rest : List PhysRec) (s : Nat) (P : List Nat) (ps : List (Nat × List Nat)) :
      Frag true g P → g.head?.map (fun it => it.offset) = some s → GroupsAt rest ps →
      GroupsAt (g ++ rest) ((s, P) :: ps)

/-- The file `data` in which the four checksum bytes of the header at offset `h` are
replaced by the little-endian encoding of `c`. -/
def corruptCrc (data : List Nat) (h c : Nat) : List Nat :=
  data.take h ++ (EncodeFixed32 c ++ data.drop (h + 4))

/-- The start of the block after the one that holds offset `h`. -/
def nextBlock (h : Nat) : Nat := h - h % kBlockSize + kBlockSize

/-- The bytes `U` at file offset `o` consist of the physical records `items`, laid out as
in `Layout` and ending at offset `e`, followed by the bytes `T`, whatever they are. -/
inductive LayoutThen (crc : Crc32c) (T : List Nat) (e : Nat) :
    Nat → List Nat → List PhysRec → Prop
  | nil : LayoutThen crc T e e T []
  | cons (o p t : Nat) (frag X : List Nat) (items : List PhysRec) :
      (p = 0 ∨ (p < 7 ∧ (o + p) % kBlockSize = 0)) →
      1 ≤ t → t ≤ 4 →
      (o + p) % kBlockSize + 7 + frag.length ≤ kBlockSize →
      LayoutThen crc T e (o + p + 7 + frag.length) X items →
      LayoutThen crc T e o (List.replicate p 0 ++ (recordHeader crc t frag ++ (frag ++ X)))
        (⟨o + p, t, frag⟩ :: items)

end log
end leveldb

namespace leveldb

/-! ## SkipList (db/skiplist.h) -/

/-- The class `Random` of `util/random.h`, which is outside the modelled sources:
its constructor and its method `OneIn` are parameters. A generator state is a
natural number. -/
structure Random where
  /-- The constructor `Random(s)`: the state made from the seed `s`. -/
  init : Nat → Nat
  /-- The method `OneIn(n)` run on a state: its result and the next state. -/
  OneIn : Nat → Nat → Bool × Nat

/-- A concrete generator used to instantiate the parameter: the Lehmer generator
`seed * 16807 mod (2^31 - 1)`, `OneIn(n)` being `Next() % n == 0`. -/
def sampleRandom : Random where
  init := fun s =>
    let seed := s % 2147483648
    if seed = 0 ∨ seed = 2147483647 then 1 else seed
  OneIn := fun st n =>
    let seed := st * 16807 % 2147483647
    (seed % n == 0, seed)

/-- The constant `kMaxHeight` of `SkipList`. -/
def kMaxHeight : Nat := 12

/-- The constant `kBranching` of `SkipList::RandomHeight`. -/
def kBranching : Nat := 4

/-- A `SkipList::Node`: its key and its array of links, one per level of its height.
A link is the index of a node in the arena, or `none` for `nullptr`. -/
structure SkipNode (K : Type) where
  key : K
  next_ : List (Option Nat)
deriving DecidableEq, Repr

/-- The state of a `SkipList`: the nodes allocated in the arena (`head_` is node `0`),
`max_height_` and the state of `rnd_`. The comparator `compare_` is passed to the
operations that use it. -/
structure SkipList (K : Type) where
  nodes : List (SkipNode K)
  max_height_ : Nat
  rnd_ : Nat
deriving DecidableEq, Repr

namespace SkipList

variable {K : Type} [Inhabited K]

/-- The node a pointer refers to. -/
def node (s : SkipList K) (x : Nat) : SkipNode K := s.nodes.getD x ⟨default, []⟩

/-- The method `Node::Next(n)` (and `NoBarrier_Next`) of node `x`. -/
def Next (s : SkipList K) (x n : Nat) : Option Nat := (s.node x).next_.getD n none

/-- The method `Node::SetNext(n, v)` (and `NoBarrier_SetNext`) of node `x`. -/
def SetNext (s : SkipList K) (x n : Nat) (v : Option Nat) : SkipList K :=
  { s with nodes := s.nodes.set x { s.node x with next_ := (s.node x).next_.set n v } }

/-- The method `SkipList::NewNode(key, height)`: the new node is put at the end of
the arena. -/
def NewNode (s : SkipList K) (key : K) (height : Nat) : Nat × SkipList K :=
  (s.nodes.length, { s with nodes := s.nodes ++ [⟨key, List.replicate height none⟩] })

/-- The constructor `SkipList(cmp, arena)`: the head node has `kMaxHeight` null links,
`max_height_` is 1 and the generator is seeded with `0xdeadbeef`. -/
def mk0 (rnd : Random) : SkipList K :=
  let s : SkipList K := { nodes := [], max_height_ := 1, rnd_ := rnd.init 0xdeadbeef }
  let s := (s.NewNode default kMaxHeight).2
  (List.range kMaxHeight).foldl (fun s i => s.SetNext 0 i none) s

/-- The method `GetMaxHeight()`. -/
def GetMaxHeight (s : SkipList K) : Nat := s.max_height_

/-- The loop of `RandomHeight`: `while (height < kMaxHeight && rnd_.OneIn(kBranching))
height++`, on the current height and generator state. -/
def RandomHeightLoop (rnd : Random) : Nat → Nat → Nat → Nat × Nat
  | 0, height, st => (height, st)
  | fuel + 1, height, st =>
    if height < kMaxHeight then
      let o := rnd.OneIn st kBranching
      if o.1 then RandomHeightLoop rnd fuel (height + 1) o.2 else (height, o.2)
    else (height, st)

/-- The method `RandomHeight()`: the height and the list with the generator advanced.
The loop increases the height at most `kMaxHeight - 1` times. -/
def RandomHeight (rnd : Random) (s : SkipList K) : Nat × SkipList K :=
  let r := RandomHeightLoop rnd kMaxHeight 1 s.rnd_
  (r.1, { s with rnd_ := r.2 })

/-- The method `Equal(a, b)`. -/
def Equal (cmp : K → K → Int) (a b : K) : Bool := cmp a b == 0

/-- The method `KeyIsAfterNode(key, n)`: a null `n` is considered infinite. -/
def KeyIsAfterNode (cmp : K → K → Int) (s : SkipList K) (key : K) (n : Option Nat) : Bool :=
  match n with
  | none => false
  | some x => decide (cmp (s.node x).key key < 0)

/-- The loop of `FindGreaterOrEqual(key, prev)` on the variables `x` and `level`;
`prev` is `none` for a null pointer and otherwise the array being filled. -/
def FindGreaterOrEqualLoop (cmp : K → K → Int) (s : SkipList K) (key : K) :
    Nat → Nat → Nat → Option (List (Option Nat)) → Option (Option Nat × Option (List (Option Nat)))
  | 0, _, _, _ => none
  | fuel + 1, x, level, prev =>
    let next := s.Next x level
    match next, KeyIsAfterNode cmp s key next with
    | some y, true =>
      -- Keep searching in this list
      FindGreaterOrEqualLoop cmp s key fuel y level prev
    | _, _ =>
      let prev := prev.map (fun p => p.set level (some x))
      if level = 0 then some (next, prev)
      else
        -- Switch to next list
        FindGreaterOrEqualLoop cmp s key fuel x (level - 1) prev

/-- The method `FindGreaterOrEqual(key, prev)`. Each iteration moves to another node
or goes down one level, so `nodes.length + max_height_` iterations are enough. -/
def FindGreaterOrEqual (cmp : K → K → Int) (s : SkipList K) (key : K)
    (prev : Option (List (Option Nat))) : Option (Option Nat × Option (List (Option Nat))) :=
  FindGreaterOrEqualLoop cmp s key (s.nodes.length + s.max_height_) 0 (s.GetMaxHeight - 1) prev

/-- The loop of `FindLessThan(key)`. -/
def FindLessThanLoop (cmp : K → K → Int) (s : SkipList K) (key : K) :
    Nat → Nat → Nat → Option Nat
  | 0, _, _ => none
  | fuel + 1, x, level =>
    let next := s.Next x level
    match next with
    | some y =>
      if cmp (s.node y).key key ≥ 0 then
        if level = 0 then some x else FindLessThanLoop cmp s key fuel x (level - 1)
      else FindLessThanLoop cmp s key fuel y level
    | none =>
      if level = 0 then some x else FindLessThanLoop cmp s key fuel x (level - 1)

/-- The method `FindLessThan(key)`: the last node with a key `< key`, or `head_`. -/
def FindLessThan (cmp : K → K → Int) (s : SkipList K) (key : K) : Option Nat :=
  FindLessThanLoop cmp s key (s.nodes.length + s.max_height_) 0 (s.GetMaxHeight - 1)

/-- The loop of `FindLast()`. -/
def FindLastLoop (s : SkipList K) : Nat → Nat → Nat → Option Nat
  | 0, _, _ => none
  | fuel + 1, x, level =>
    match s.Next x level with
    | none => if level = 0 then some x else FindLastLoop s fuel x (level - 1)
    | some y => FindLastLoop s fuel y level

/-- The method `FindLast()`: the last node of the list, or `head_`. -/
def FindLast (s : SkipList K) : Option Nat :=
  FindLastLoop s (s.nodes.length + s.max_height_) 0 (s.GetMaxHeight - 1)

/-- The last loop of `Insert`: for each level `i` of the new node `x`, in order,
`x->SetNext(i, prev[i]->Next(i)); prev[i]->SetNext(i, x)`. Reading an entry of `prev`
that was never written gives `none`. -/
def linkLevels (s : SkipList K) (x : Nat) (prev : List (Option Nat)) :
    List Nat → Option (SkipList K)
  | [] => some s
  | i :: rest =>
    match prev.getD i none with
    | none => none
    | some p =>
      let s := s.SetNext x i (s.Next p i)
      let s := s.SetNext p i (some x)
      linkLevels s x prev rest

/-- The method `Insert(key)`. The result is `none` if a search does not return or an
entry of `prev` is read before it is written. The method requires that nothing that
compares equal to `key` is in the list, and asserts
`assert(x == nullptr || !Equal(key, x->key))` for the node `x` that the search returns;
the assertion is not part of this function, `InsertAssert` is its condition. -/
def Insert (cmp : K → K → Int) (rnd : Random) (s : SkipList K) (key : K) :
    Option (SkipList K) :=
  match s.FindGreaterOrEqual cmp key (some (List.replicate kMaxHeight none)) with
  | some (_, some prev) =>
    let rh := s.RandomHeight rnd
    let height := rh.1
    let s := rh.2
    let prev :=
      if height > s.GetMaxHeight then
        (List.range' s.GetMaxHeight (height - s.GetMaxHeight)).foldl
          (fun p i => p.set i (some 0)) prev
      else prev
    let s := if height > s.GetMaxHeight then { s with max_height_ := height } else s
    let nn := s.NewNode key height
    linkLevels nn.2 nn.1 prev (List.range height)
  | _ => none

/-- A sequence of `Insert` calls. -/
def InsertAll (cmp : K → K → Int) (rnd : Random) : SkipList K → List K → Option (SkipList K)
  | s, [] => some s
  | s, k :: ks =>
    match s.Insert cmp rnd k with
    | some s1 => InsertAll cmp rnd s1 ks
    | none => none

/-- The method `Contains(key)`. -/
def Contains (cmp : K → K → Int) (s : SkipList K) (key : K) : Option Bool :=
  match s.FindGreaterOrEqual cmp key none with
  | some (some x, _) => some (Equal cmp key (s.node x).key)
  | some (none, _) => some false
  | none => none

end SkipList

/-- A `SkipList::Iterator`: the pointer `node_` (the list is passed to the methods). -/
structure SkipIterator where
  node_ : Option Nat
deriving DecidableEq, Repr

namespace SkipIterator

variable {K : Type} [Inhabited K]

/-- The constructor `Iterator(list)`: the iterator is not valid. -/
def mk0 : SkipIterator := { node_ := none }

/-- The method `Valid()`. -/
def Valid (it : SkipIterator) : Bool := it.node_.isSome

/-- The method `key()`; requires `Valid()`. -/
def key (s : SkipList K) (it : SkipIterator) : K :=
  match it.node_ with
  | some x => (s.node x).key
  | none => default

/-- The method `Next()`; requires `Valid()`. -/
def Next (s : SkipList K) (it : SkipIterator) : SkipIterator :=
  match it.node_ with
  | some x => { node_ := s.Next x 0 }
  | none => it

/-- The method `Prev()`; requires `Valid()`. -/
def Prev (cmp : K → K → Int) (s : SkipList K) (it : SkipIterator) : Option SkipIterator :=
  match it.node_ with
  | some x =>
    match s.FindLessThan cmp (s.node x).key with
    | some y => some { node_ := if y = 0 then none else some y }
    | none => none
  | none => some it

/-- The method `Seek(target)`. -/
def Seek (cmp : K → K → Int) (s : SkipList K) (target : K) : Option SkipIterator :=
  match s.FindGreaterOrEqual cmp target none with
  | some (x, _) => some { node_ := x }
  | none => none

/-- The method `SeekToFirst()`. -/
def SeekToFirst (s : SkipList K) : SkipIterator := { node_ := s.Next 0 0 }

/-- The method `SeekToLast()`. -/
def SeekToLast (s : SkipList K) : Option SkipIterator :=
  match s.FindLast with
  | some y => some { node_ := if y = 0 then none else some y }
  | none => none

/-- The keys visited by calling `Next()` from the iterator `it` while it is valid,
at most `fuel` times, and the iterator reached. -/
def collect (s : SkipList K) : Nat → SkipIterator → List K × SkipIterator
  | 0, it => ([], it)
  | fuel + 1, it =>
    if it.Valid then
      let r := collect s fuel (it.Next s)
      (it.key s :: r.1, r.2)
    else ([], it)

end SkipIterator

end leveldb

namespace leveldb

/-! ## Notions used to state and prove the skip list theorems -/

/-- The contract of a three-way comparator: it is antisymmetric and transitive, and
keys that compare equal compare alike with every other key. A strict total order
(where only identical keys compare equal) satisfies it. -/
structure CmpLawful {K : Type} (cmp : K → K → Int) : Prop where
  antisymm : ∀ a b, cmp a b < 0 ↔ cmp b a > 0
  trans : ∀ a b c, cmp a b < 0 → cmp b c < 0 → cmp a c < 0
  eq_left : ∀ a b c, cmp a b = 0 → (cmp a c < 0 ↔ cmp b c < 0)
  eq_right : ∀ a b c, cmp a b = 0 → (cmp c a < 0 ↔ cmp c b < 0)

/-- The three-way comparison of natural numbers, used to instantiate the comparator. -/
def natCompare (a b : Nat) : Int := (a : Int) - (b : Int)

namespace SkipList

variable {K : Type} [Inhabited K]

/-- The key stored in node `x`. -/
def keyOf (s : SkipList K) (x : Nat) : K := (s.node x).key

/-- The height of node `x`: the number of its links. -/
def height (s : SkipList K) (x : Nat) : Nat := (s.node x).next_.length

/-- The links of level `l` lead from node `x` through exactly the nodes `ids`, in
order, and then to `nullptr`. -/
def Chain (s : SkipList K) (l : Nat) : Nat → List Nat → Prop
  | x, [] => s.Next x l = none
  | x, y :: ys => s.Next x l = some y ∧ Chain s l y ys

/-- The structural invariant of a skip list, for the list `order` of its nodes other
than the head in non-decreasing key order: the level-`l` links lead from the head through
the nodes of height above `l`, in that order. -/
structure Inv (cmp : K → K → Int) (s : SkipList K) (order : List Nat) : Prop where
  head_height : s.height 0 = kMaxHeight
  nodes_pos : 0 < s.nodes.length
  mh_pos : 1 ≤ s.max_height_
  mh_le : s.max_height_ ≤ kMaxHeight
  mem_order : ∀ y, y ∈ order ↔ 1 ≤ y ∧ y < s.nodes.length
  nodup : order.Nodup
  sorted : order.Pairwise (fun a b => ¬ cmp (s.keyOf b) (s.keyOf a) < 0)
  height_ok : ∀ y ∈ order, 1 ≤ s.height y ∧ s.height y ≤ s.max_height_
  chain : ∀ l, l < kMaxHeight → Chain s l 0 (order.filter (fun y => decide (l < s.height y)))

/-- The nodes of `order` whose key is before `k`. -/
def before (cmp : K → K → Int) (s : SkipList K) (k : K) (order : List Nat) : List Nat :=
  order.takeWhile (fun y => decide (cmp (s.keyOf y) k < 0))

/-- The nodes of `order` from the first one whose key is not before `k`. -/
def notBefore (cmp : K → K → Int) (s : SkipList K) (k : K) (order : List Nat) : List Nat :=
  order.dropWhile (fun y => decide (cmp (s.keyOf y) k < 0))

/-- The last node of `ids` of height above `l`, or the head. -/
def predAt (s : SkipList K) (ids : List Nat) (l : Nat) : Nat :=
  ((ids.filter (fun y => decide (l < s.height y))).getLast?).getD 0

/-- The array `prev` after `FindGreaterOrEqual` has stored `pred i` at every level
`i ≤ level`, highest level first. -/
def fillPrev (pred : Nat → Nat) : List (Option Nat) → Nat → List (Option Nat)
  | p, 0 => p.set 0 (some (pred 0))
  | p, l + 1 => fillPrev pred (p.set (l + 1) (some (pred (l + 1)))) l

end SkipList

end leveldb

namespace leveldb

/-! ## Coding primitives used by the memtable (`util/coding`) -/

/-- Modelled from the spec: `EncodeFixed64` of `util/coding.h`, the little-endian encoding
of a 64-bit value (`pack64` of §3); the value is truncated to 64 bits. -/
def EncodeFixed64 (v : Nat) : List Nat :=
  [v % 256, v / 2 ^ 8 % 256, v / 2 ^ 16 % 256, v / 2 ^ 24 % 256,
   v / 2 ^ 32 % 256, v / 2 ^ 40 % 256, v / 2 ^ 48 % 256, v / 2 ^ 56 % 256]

/-- Modelled from the spec: `DecodeFixed64` of `util/coding.h`, reading eight bytes
little-endian; a byte that is missing reads as `0`. -/
def DecodeFixed64 (p : List Nat) : Nat :=
  p.getD 0 0 % 256 + p.getD 1 0 % 256 * 2 ^ 8 + p.getD 2 0 % 256 * 2 ^ 16
    + p.getD 3 0 % 256 * 2 ^ 24 + p.getD 4 0 % 256 * 2 ^ 32 + p.getD 5 0 % 256 * 2 ^ 40
    + p.getD 6 0 % 256 * 2 ^ 48 + p.getD 7 0 % 256 * 2 ^ 56

/-- Modelled from the spec: `EncodeVarint32` of `util/coding`, the varint32 encode
primitive of §6: seven bits per byte, least significant group first, the high bit of a
byte set when another byte follows. The argument is a 32-bit value. -/
def EncodeVarint32 (v : Nat) : List Nat :=
  if v < 2 ^ 7 then [v]
  else if v < 2 ^ 14 then [v % 128 + 128, v / 2 ^ 7]
  else if v < 2 ^ 21 then [v % 128 + 128, v / 2 ^ 7 % 128 + 128, v / 2 ^ 14]
  else if v < 2 ^ 28 then
    [v % 128 + 128, v / 2 ^ 7 % 128 + 128, v / 2 ^ 14 % 128 + 128, v / 2 ^ 21]
  else
    [v % 128 + 128, v / 2 ^ 7 % 128 + 128, v / 2 ^ 14 % 128 + 128,
     v / 2 ^ 21 % 128 + 128, v / 2 ^ 28 % 256]

/-- The loop of `VarintLength`: one more byte for every seven bits beyond the first. -/
def VarintLengthLoop : Nat → Nat → Nat → Nat
  | 0, _, len => len
  | fuel + 1, v, len => if v ≥ 128 then VarintLengthLoop fuel (v / 2 ^ 7) (len + 1) else len

/-- Modelled from the spec: `VarintLength` of `util/coding`, the length of the varint
encoding of a 64-bit value (at most ten bytes, so ten rounds of the loop suffice). -/
def VarintLength (v : Nat) : Nat := VarintLengthLoop 10 (v % 2 ^ 64) 1

/-- The loop of the varint32 decode primitive: `limit` bytes may still be read from `p`,
`shift` is the position of the next group and `result` the value read so far. The
result is the pointer behind the varint and the value, or `none` for `nullptr`. -/
def GetVarint32PtrLoop : Nat → List Nat → Nat → Nat → Option (List Nat × Nat)
  | 0, _, _, _ => none
  | limit + 1, p, shift, result =>
    if shift ≤ 28 then
      let byte := p.headD 0 % 256
      if byte ≥ 128 then
        GetVarint32PtrLoop limit p.tail (shift + 7) ((result + byte % 128 * 2 ^ shift) % 2 ^ 32)
      else some (p.tail, (result + byte * 2 ^ shift) % 2 ^ 32)
    else none

/-- Modelled from the spec: `GetVarint32Ptr(p, limit, &value)` of `util/coding`, the
varint32 decode primitive of §6. A pointer is modelled by the bytes from it on, and
`limit` by the number of bytes up to the limit. -/
def GetVarint32Ptr (p : List Nat) (limit : Nat) : Option (List Nat × Nat) :=
  GetVarint32PtrLoop limit p 0 0

/-! ## Internal keys (`db/dbformat`) -/

/-- Modelled from the spec: the value type of §3, one of `DELETE` and `PUT` (one byte). -/
inductive ValueType where
  | kTypeDeletion
  | kTypeValue
deriving DecidableEq, Repr

/-- The byte of a value type. -/
def ValueType.toNat : ValueType → Nat
  | .kTypeDeletion => 0
  | .kTypeValue => 1

/-- Modelled from the spec: `kValueTypeForSeek` of `db/dbformat.h`, the type used in the
tag of a lookup key. Tags are ordered descending, so it is the highest type. -/
def kValueTypeForSeek : ValueType := ValueType.kTypeValue

/-- Modelled from the spec: `kMaxSequenceNumber`; sequence numbers have 56 bits (§3). -/
def kMaxSequenceNumber : Nat := 2 ^ 56 - 1

/-- Modelled from the spec: `PackSequenceAndType`, the tag `(sequence << 8) | type` as an
unsigned 64-bit integer. -/
def PackSequenceAndType (seq : Nat) (t : ValueType) : Nat :=
  ((seq <<< 8) % 2 ^ 64) ||| t.toNat

/-- Modelled from the spec: `ExtractUserKey`, an internal key without its eight tag bytes. -/
def ExtractUserKey (internal_key : List Nat) : List Nat :=
  internal_key.take (internal_key.length - 8)

/-- Modelled from the spec: `InternalKeyComparator::Compare` of `db/dbformat.cc`. The
order of internal keys (§3) is: user key ascending under the user comparator `ucmp`,
then the tag `(sequence << 8) | type` descending. -/
def InternalKeyComparator.Compare (ucmp : List Nat → List Nat → Int) (akey bkey : List Nat) :
    Int :=
  let r := ucmp (ExtractUserKey akey) (ExtractUserKey bkey)
  if r = 0 then
    let anum := DecodeFixed64 (akey.drop (akey.length - 8))
    let bnum := DecodeFixed64 (bkey.drop (bkey.length - 8))
    if anum > bnum then -1
    else if anum < bnum then 1
    else r
  else r

/-- Modelled from the spec: `LookupKey` of `db/dbformat.h`, built from a user key and a
snapshot sequence number. -/
structure LookupKey where
  user_key_ : List Nat
  sequence_ : Nat
deriving DecidableEq, Repr

/-- The method `LookupKey::user_key()`. -/
def LookupKey.user_key (k : LookupKey) : List Nat := k.user_key_

/-- Modelled from the spec: `LookupKey::memtable_key()`, the lookup key in the format of
a memtable entry: `varint32(|user_key| + 8) || user_key || fixed64(tag)` where the tag
packs the snapshot sequence with `kValueTypeForSeek`. -/
def LookupKey.memtable_key (k : LookupKey) : List Nat :=
  EncodeVarint32 ((k.user_key_.length + 8) % 2 ^ 32) ++ k.user_key_
    ++ EncodeFixed64 (PackSequenceAndType k.sequence_ kValueTypeForSeek)

/-! ## The memtable (`db/memtable.cc`) -/

/-- A `Slice` into memory: `data_` holds the bytes from the pointer `data()` on, `size_` is
`size()`. -/
structure Slice where
  data_ : List Nat
  size_ : Nat
deriving DecidableEq, Repr

/-- The bytes of a slice. -/
def Slice.bytes (s : Slice) : List Nat := s.data_.take s.size_

/-- The function `GetLengthPrefixedSlice(data)`. The source assumes that the varint is not
corrupted; where the decoder returns `nullptr` the model gives the empty slice. -/
def GetLengthPrefixedSlice (data : List Nat) : Slice :=
  match GetVarint32Ptr data 5 with
  | some (p, len) => { data_ := p, size_ := len }
  | none => { data_ := [], size_ := 0 }

/-- The comparator `MemTable::KeyComparator::operator()` on two entries. -/
def KeyComparator (ucmp : List Nat → List Nat → Int) (aptr bptr : List Nat) : Int :=
  let a := GetLengthPrefixedSlice aptr
  let b := GetLengthPrefixedSlice bptr
  InternalKeyComparator.Compare ucmp a.bytes b.bytes

/-- A `MemTable`: the skip list `table_` of entries. An entry pointer into the arena is
modelled by the bytes of the entry. -/
structure MemTable where
  table_ : SkipList (List Nat)
deriving Repr

namespace MemTable

/-- The constructor `MemTable(comparator)`. -/
def mk0 (rnd : Random) : MemTable := { table_ := SkipList.mk0 rnd }

/-- The first part of `MemTable::Add`: the length `encoded_len` that is allocated and
the bytes written to the buffer, in the order of the writes. -/
def AddBuffer (s : Nat) (type : ValueType) (key value : List Nat) : Nat × List Nat :=
  let key_size := key.length
  let val_size := value.length
  let internal_key_size := key_size + 8
  let encoded_len :=
    VarintLength internal_key_size + internal_key_size + VarintLength val_size + val_size
  let buf :=
    EncodeVarint32 (internal_key_size % 2 ^ 32) ++ key
      ++ EncodeFixed64 (((s <<< 8) % 2 ^ 64) ||| type.toNat)
      ++ EncodeVarint32 (val_size % 2 ^ 32) ++ value
  (encoded_len, buf)

/-- The method `MemTable::Add(s, type, key, value)`. The result is `none` if the assertion
`p + val_size == buf + encoded_len` fails or `Insert` does not return. -/
def Add (ucmp : List Nat → List Nat → Int) (rnd : Random) (m : MemTable)
    (s : Nat) (type : ValueType) (key value : List Nat) : Option MemTable :=
  let e := AddBuffer s type key value
  if e.2.length = e.1 then
    match m.table_.Insert (KeyComparator ucmp) rnd e.2 with
    | some t => some { table_ := t }
    | none => none
  else none

/-- One call of `Add`: sequence number, type, user key and value. -/
structure AddCall where
  seq : Nat
  type : ValueType
  key : List Nat
  value : List Nat
deriving DecidableEq, Repr

/-- A sequence of `Add` calls. -/
def AddAll (ucmp : List Nat → List Nat → Int) (rnd : Random) :
    MemTable → List AddCall → Option MemTable
  | m, [] => some m
  | m, a :: rest =>
    match m.Add ucmp rnd a.seq a.type a.key a.value with
    | some m1 => AddAll ucmp rnd m1 rest
    | none => none

/-- The method `MemTable::Get(key, value, s)`: the returned flag with the contents of
`*value` and `*s` after the call. The result is `none` if `Seek` does not return or the
entry found has no length. -/
def Get (ucmp : List Nat → List Nat → Int) (m : MemTable) (key : LookupKey)
    (value : List Nat) (s : Status) : Option (Bool × List Nat × Status) :=
  let memkey := key.memtable_key
  match SkipIterator.Seek (KeyComparator ucmp) m.table_ memkey with
  | none => none
  | some iter =>
    if iter.Valid then
      let entry := iter.key m.table_
      match GetVarint32Ptr entry 5 with
      | none => none
      | some (key_ptr, key_length) =>
        if ucmp (key_ptr.take (key_length - 8)) key.user_key = 0 then
          let tag := DecodeFixed64 (key_ptr.drop (key_length - 8))
          if tag % 256 = ValueType.kTypeValue.toNat then
            let v := GetLengthPrefixedSlice (key_ptr.drop key_length)
            some (true, v.bytes, s)
          else if tag % 256 = ValueType.kTypeDeletion.toNat then
            some (true, value, Status.NotFound "")
          else some (false, value, s)
        else some (false, value, s)
    else some (false, value, s)

end MemTable

/-- A `MemTableIterator`: the skip list iterator `iter_`. -/
structure MemTableIterator where
  iter_ : SkipIterator
deriving DecidableEq, Repr

namespace MemTableIterator

/-- The method `MemTable::NewIterator()`. -/
def mk0 : MemTableIterator := { iter_ := SkipIterator.mk0 }

/-- The method `Valid()`. -/
def Valid (it : MemTableIterator) : Bool := it.iter_.Valid

/-- The method `SeekToFirst()`. -/
def SeekToFirst (m : MemTable) : MemTableIterator :=
  { iter_ := SkipIterator.SeekToFirst m.table_ }

/-- The method `Next()`. -/
def Next (m : MemTable) (it : MemTableIterator) : MemTableIterator :=
  { iter_ := it.iter_.Next m.table_ }

/-- The method `key()`. -/
def key (m : MemTable) (it : MemTableIterator) : List Nat :=
  (GetLengthPrefixedSlice (it.iter_.key m.table_)).bytes

/-- The method `value()`. -/
def value (m : MemTable) (it : MemTableIterator) : List Nat :=
  let key_slice := GetLengthPrefixedSlice (it.iter_.key m.table_)
  (GetLengthPrefixedSlice (key_slice.data_.drop key_slice.size_)).bytes

/-- The pairs of `key()` and `value()` visited by calling `Next()` from the iterator `it`
while it is valid, at most `fuel` times, and the iterator reached. -/
def collect (m : MemTable) : Nat → MemTableIterator → List (List Nat × List Nat) × MemTableIterator
  | 0, it => ([], it)
  | fuel + 1, it =>
    if it.Valid then
      let r := collect m fuel (it.Next m)
      ((it.key m, it.value m) :: r.1, r.2)
    else ([], it)

end MemTableIterator

/-- The comparison of byte strings by their bytes, used to instantiate the user
comparator. -/
def bytewiseCompare : List Nat → List Nat → Int
  | [], [] => 0
  | [], _ :: _ => -1
  | _ :: _, [] => 1
  | a :: as, b :: bs => if a < b then -1 else if b < a then 1 else bytewiseCompare as bs

end leveldb

namespace leveldb

/-! ## Notions used to state and prove the memtable theorems -/

namespace MemTable

/-- The bytes of the entry that `Add` writes for a call. -/
def entryOf (a : AddCall) : List Nat := (AddBuffer a.seq a.type a.key a.value).2

/-- The internal key of a call: `user_key || fixed64_le((sequence << 8) | type)`. -/
def internalKey (a : AddCall) : List Nat :=
  a.key ++ EncodeFixed64 (a.seq * 256 + a.type.toNat)

/-- The arguments of a call are in range: the sequence number has 56 bits and the lengths
of the internal key and of the value are 32-bit values, as `varint32` requires. -/
def InRange (a : AddCall) : Prop :=
  a.seq < 2 ^ 56 ∧ a.key.length + 8 < 2 ^ 32 ∧ a.value.length < 2 ^ 32

/-- The call of a lookup: its internal key is the one of the lookup key. -/
def lookupCall (k : LookupKey) : AddCall :=
  { seq := k.sequence_, type := kValueTypeForSeek, key := k.user_key_, value := [] }

/-- The call `a` is before the lookup key `k` in the order of the table. -/
def beforeLookup (ucmp : List Nat → List Nat → Int) (k : LookupKey) (a : AddCall) : Bool :=
  decide (KeyComparator ucmp (entryOf a) k.memtable_key < 0)

/-- What `Get` returns when its seek stops at the entry of the call `found` (or finds
nothing): the flag, `*value` and `*s`. -/
def resultFor (ucmp : List Nat → List Nat → Int) (k : LookupKey) (value : List Nat) (s : Status) :
    Option AddCall → Bool × List Nat × Status
  | none => (false, value, s)
  | some a =>
    if ucmp a.key k.user_key_ = 0 then
      match a.type with
      | ValueType.kTypeValue => (true, a.value, s)
      | ValueType.kTypeDeletion => (true, value, Status.NotFound "")
    else (false, value, s)

end MemTable

end leveldb

namespace leveldb

/-! ## The filter block (`table/filter_block.cc`) -/

/-- A `FilterPolicy` (external collaborator, §6): its `Name()`, `CreateFilter(keys, n, dst)` appends the
filter of the `n` keys to `dst` (the model gives the bytes appended, `n` being the number
of keys of the list), and `KeyMayMatch(key, filter)`. -/
structure FilterPolicy where
  Name : List Nat
  CreateFilter : List (List Nat) → List Nat
  KeyMayMatch : List Nat → List Nat → Bool

/-- The contract of a filter policy: no false negatives. -/
def FilterPolicy.Sound (policy : FilterPolicy) : Prop :=
  ∀ (keys : List (List Nat)) (k : List Nat), k ∈ keys →
    policy.KeyMayMatch k (policy.CreateFilter keys) = true

/-- A policy whose filter lists the first byte of every key (`0` for the empty key); a
key may match if the filter holds its first byte. -/
def sampleFilterPolicy : FilterPolicy where
  Name := [115]
  CreateFilter := fun keys => keys.map (fun k => k.headD 0)
  KeyMayMatch := fun key filter => decide (key.headD 0 ∈ filter)

/-- The constant `kFilterBaseLg`: a new filter every 2KB of data. -/
def kFilterBaseLg : Nat := 11

/-- The constant `kFilterBase`. -/
def kFilterBase : Nat := 1 <<< kFilterBaseLg

/-- The fields of a `FilterBlockBuilder`. The entries of `filter_offsets_` are 32-bit. -/
structure FilterBlockBuilder where
  keys_ : List Nat
  start_ : List Nat
  result_ : List Nat
  tmp_keys_ : List (List Nat)
  filter_offsets_ : List Nat
deriving DecidableEq, Repr

namespace FilterBlockBuilder

/-- The constructor `FilterBlockBuilder(policy)`. -/
def mk0 : FilterBlockBuilder :=
  { keys_ := [], start_ := [], result_ := [], tmp_keys_ := [], filter_offsets_ := [] }

/-- The method `GenerateFilter()`. -/
def GenerateFilter (policy : FilterPolicy) (b : FilterBlockBuilder) : FilterBlockBuilder :=
  let num_keys := b.start_.length
  if num_keys = 0 then
    { b with filter_offsets_ := b.filter_offsets_ ++ [b.result_.length % 2 ^ 32] }
  else
    let start := b.start_ ++ [b.keys_.length]
    let tmp_keys := (List.range num_keys).map (fun i =>
      let base := b.keys_.drop (start.getD i 0)
      let length := start.getD (i + 1) 0 - start.getD i 0
      base.take length)
    let filter_offsets := b.filter_offsets_ ++ [b.result_.length % 2 ^ 32]
    let result := b.result_ ++ policy.CreateFilter tmp_keys
    { keys_ := [], start_ := [], result_ := result, tmp_keys_ := [],
      filter_offsets_ := filter_offsets }

/-- The loop of `StartBlock`: `while (filter_index > filter_offsets_.size())`. The result
is `none` if the fuel runs out before the loop ends. -/
def StartBlockLoop (policy : FilterPolicy) (filter_index : Nat) :
    Nat → FilterBlockBuilder → Option FilterBlockBuilder
  | 0, b => if filter_index > b.filter_offsets_.length then none else some b
  | fuel + 1, b =>
    if filter_index > b.filter_offsets_.length then
      StartBlockLoop policy filter_index fuel (GenerateFilter policy b)
    else some b

/-- The method `StartBlock(block_offset)`. The result is `none` if the assertion
`filter_index >= filter_offsets_.size()` fails. -/
def StartBlock (policy : FilterPolicy) (b : FilterBlockBuilder) (block_offset : Nat) :
    Option FilterBlockBuilder :=
  let filter_index := block_offset / kFilterBase
  if filter_index ≥ b.filter_offsets_.length then
    StartBlockLoop policy filter_index (filter_index - b.filter_offsets_.length) b
  else none

/-- The method `AddKey(key)`. -/
def AddKey (b : FilterBlockBuilder) (key : List Nat) : FilterBlockBuilder :=
  { b with start_ := b.start_ ++ [b.keys_.length], keys_ := b.keys_ ++ key }

/-- The method `Finish()`: the builder afterwards and the slice returned. -/
def Finish (policy : FilterPolicy) (b : FilterBlockBuilder) : FilterBlockBuilder × List Nat :=
  let b := if b.start_ ≠ [] then GenerateFilter policy b else b
  let array_offset := b.result_.length % 2 ^ 32
  let result := b.filter_offsets_.foldl (fun r off => r ++ EncodeFixed32 off) b.result_
  let result := result ++ EncodeFixed32 array_offset
  let result := result ++ [kFilterBaseLg]
  ({ b with result_ := result }, result)

/-- A call on a filter block builder before `Finish`. -/
inductive Call where
  | StartBlock (block_offset : Nat)
  | AddKey (key : List Nat)
deriving DecidableEq, Repr

/-- A sequence of `StartBlock` and `AddKey` calls. -/
def run (policy : FilterPolicy) : FilterBlockBuilder → List Call → Option FilterBlockBuilder
  | b, [] => some b
  | b, Call.StartBlock o :: rest =>
    match b.StartBlock policy o with
    | some b1 => run policy b1 rest
    | none => none
  | b, Call.AddKey k :: rest => run policy (b.AddKey k) rest

/-- The block offsets of the `StartBlock` calls of a sequence, in order. -/
def offsets : List Call → List Nat
  | [] => []
  | Call.StartBlock o :: rest => o :: offsets rest
  | Call.AddKey _ :: rest => offsets rest

end FilterBlockBuilder

/-- The fields of a `FilterBlockReader`: `data_` holds the bytes from the pointer `data_`
on (empty for `nullptr`), `offset_` is the distance of the pointer `offset_` from `data_`. -/
structure FilterBlockReader where
  data_ : List Nat
  offset_ : Nat
  num_ : Nat
  base_lg_ : Nat
deriving DecidableEq, Repr

namespace FilterBlockReader

/-- The constructor `FilterBlockReader(policy, contents)`. -/
def mk0 (contents : List Nat) : FilterBlockReader :=
  let n := contents.length
  if n < 5 then { data_ := [], offset_ := 0, num_ := 0, base_lg_ := 0 }
  else
    let base_lg := contents.getD (n - 1) 0
    let last_word := DecodeFixed32 (contents.drop (n - 5))
    if last_word > n - 5 then { data_ := [], offset_ := 0, num_ := 0, base_lg_ := base_lg }
    else
      { data_ := contents, offset_ := last_word, num_ := (n - 5 - last_word) / 4,
        base_lg_ := base_lg }

/-- The method `KeyMayMatch(block_offset, key)`. The count of the shift
`block_offset >> base_lg_` is taken modulo 64, as the 64-bit shift instructions take it
(in C++ a count of 64 or more is undefined); the field `base_lg_` holds the byte that the
constructor read, and the `size_t` value that a signed `char` converts to is the same
modulo 64. -/
def KeyMayMatch (policy : FilterPolicy) (r : FilterBlockReader) (block_offset : Nat)
    (key : List Nat) : Bool :=
  let index := (block_offset % 2 ^ 64) >>> (r.base_lg_ % 64)
  if index < r.num_ then
    let start := DecodeFixed32 (r.data_.drop (r.offset_ + index * 4))
    let limit := DecodeFixed32 (r.data_.drop (r.offset_ + index * 4 + 4))
    if start ≤ limit ∧ limit ≤ r.offset_ then
      let filter := (r.data_.drop start).take (limit - start)
      policy.KeyMayMatch key filter
    else if start = limit then false
    else true
  else true

end FilterBlockReader

end leveldb

namespace leveldb

namespace FilterBlockBuilder

/-! ## The filters generated by a filter block builder -/

end FilterBlockBuilder

end leveldb

namespace leveldb

/-! ## Files and ports used by tables (external collaborators, §6) -/

/-- A `WritableFile` whose operations succeed or fail one by one: `script` lists the
outcome of the next operations (`true` for success; operations beyond the script
succeed). A failed `Append` appends nothing. -/
structure AppendFile where
  contents : List Nat
  script : List Bool
deriving DecidableEq, Repr

/-- The method `WritableFile::Append`. -/
def AppendFile.Append (f : AppendFile) (data : List Nat) : Status × AppendFile :=
  match f.script with
  | [] => (Status.OK, { f with contents := f.contents ++ data })
  | true :: rest => (Status.OK, { contents := f.contents ++ data, script := rest })
  | false :: rest => (Status.IOError "append", { f with script := rest })

/-- The method `WritableFile::Flush`. -/
def AppendFile.Flush (f : AppendFile) : Status × AppendFile :=
  match f.script with
  | [] => (Status.OK, f)
  | true :: rest => (Status.OK, { f with script := rest })
  | false :: rest => (Status.IOError "flush", { f with script := rest })

/-- A `RandomAccessFile`: its bytes, the reads `(offset, n)` that fail, and the log of
the `Read` calls made on it so far. -/
structure RandomAccessFile where
  data : List Nat
  fails : Nat → Nat → Bool
  reads : List (Nat × Nat)

/-- The method `RandomAccessFile::Read(offset, n, result, scratch)`: up to `n` bytes from
`offset`. The call is logged in the file. -/
def RandomAccessFile.Read (f : RandomAccessFile) (offset n : Nat) :
    Status × List Nat × RandomAccessFile :=
  let f1 := { f with reads := f.reads ++ [(offset, n)] }
  if f.fails offset n then (Status.IOError "read", [], f1)
  else (Status.OK, (f.data.drop offset).take n, f1)

/-- The compression functions of `port` (external): each gives the output, or `none`
when it fails or is not supported. -/
structure Port where
  Snappy_Compress : List Nat → Option (List Nat)
  Snappy_Uncompress : List Nat → Option (List Nat)
  Zstd_Compress : Int → List Nat → Option (List Nat)
  Zstd_Uncompress : List Nat → Option (List Nat)

/-- A port without compression support. -/
def samplePort : Port where
  Snappy_Compress := fun _ => none
  Snappy_Uncompress := fun _ => none
  Zstd_Compress := fun _ _ => none
  Zstd_Uncompress := fun _ => none

/-- Modelled from the spec: `CompressionType` of `leveldb/options.h`; the raw form has
`type = 0` (§4.6). -/
inductive CompressionType where
  | kNoCompression
  | kSnappyCompression
  | kZstdCompression
deriving DecidableEq, Repr

/-- The byte of a compression type. -/
def CompressionType.toNat : CompressionType → Nat
  | .kNoCompression => 0
  | .kSnappyCompression => 1
  | .kZstdCompression => 2

/-! ## Block handles and the footer (`table/format`) -/

/-- The loop of the varint64 encoder: seven bits per byte, low groups first. -/
def EncodeVarint64Loop : Nat → Nat → List Nat
  | 0, v => [v % 128]
  | fuel + 1, v => if v ≥ 128 then (v % 128 + 128) :: EncodeVarint64Loop fuel (v / 128) else [v]

/-- Modelled from the spec: `PutVarint64` of `util/coding`, the varint64 encode primitive
of §6 (at most ten bytes for a 64-bit value). -/
def EncodeVarint64 (v : Nat) : List Nat := EncodeVarint64Loop 9 (v % 2 ^ 64)

/-- The loop of the varint64 decoder: `limit` bytes may still be read from `p`. -/
def GetVarint64Loop : Nat → List Nat → Nat → Nat → Option (List Nat × Nat)
  | 0, _, _, _ => none
  | limit + 1, p, shift, result =>
    if shift ≤ 63 then
      match p with
      | [] => none
      | b :: rest =>
        let byte := b % 256
        if byte ≥ 128 then
          GetVarint64Loop limit rest (shift + 7) ((result + byte % 128 * 2 ^ shift) % 2 ^ 64)
        else some (rest, (result + byte * 2 ^ shift) % 2 ^ 64)
    else none

/-- Modelled from the spec: `GetVarint64(input, value)` of `util/coding`, the varint64
decode primitive of §6: the rest of the input and the value, or `none` on a malformed or
truncated varint. -/
def GetVarint64 (input : List Nat) : Option (List Nat × Nat) :=
  GetVarint64Loop 10 input 0 0

/-- Modelled from the spec: a `BlockHandle` of `table/format.h`, the offset and the
size of a block (the size excludes the trailer). -/
structure BlockHandle where
  offset_ : Nat
  size_ : Nat
deriving DecidableEq, Repr

/-- Modelled from the spec: the default `BlockHandle()`, with both fields unset (all
bits one). -/
def BlockHandle.mk0 : BlockHandle := { offset_ := 2 ^ 64 - 1, size_ := 2 ^ 64 - 1 }

/-- Modelled from the spec: `BlockHandle::EncodeTo`, `varint64(offset) || varint64(size)`
(§3). -/
def BlockHandle.EncodeTo (h : BlockHandle) : List Nat :=
  EncodeVarint64 h.offset_ ++ EncodeVarint64 h.size_

/-- Modelled from the spec: `BlockHandle::DecodeFrom(input)`: the status, the handle and
the rest of the input. -/
def BlockHandle.DecodeFrom (input : List Nat) : Status × BlockHandle × List Nat :=
  match GetVarint64 input with
  | some (rest, offset) =>
    match GetVarint64 rest with
    | some (rest2, size) => (Status.OK, { offset_ := offset, size_ := size }, rest2)
    | none => (Status.Corruption "bad block handle", BlockHandle.mk0, input)
  | none => (Status.Corruption "bad block handle", BlockHandle.mk0, input)

/-- Modelled from the spec: `kBlockTrailerSize`, one type byte and a 32-bit checksum. -/
def kBlockTrailerSize : Nat := 5

/-- Modelled from the spec: `kTableMagicNumber` of `table/format.h`. -/
def kTableMagicNumber : Nat := 0xdb4775248b80fb57

/-- Modelled from the spec: `BlockHandle::kMaxEncodedLength`, two varint64s. -/
def BlockHandle.kMaxEncodedLength : Nat := 10 + 10

/-- Modelled from the spec: `Footer::kEncodedLength`, 48 bytes (§4.7). -/
def Footer.kEncodedLength : Nat := 2 * BlockHandle.kMaxEncodedLength + 8

/-- Modelled from the spec: the `Footer` of `table/format.h`. -/
structure Footer where
  metaindex_handle_ : BlockHandle
  index_handle_ : BlockHandle
deriving DecidableEq, Repr

/-- Modelled from the spec: `Footer::EncodeTo`: the two handles, zero padding to 40
bytes, and the magic number as a little-endian 64-bit value (§4.6). -/
def Footer.EncodeTo (f : Footer) : List Nat :=
  let handles := f.metaindex_handle_.EncodeTo ++ f.index_handle_.EncodeTo
  handles ++ List.replicate (2 * BlockHandle.kMaxEncodedLength - handles.length) 0
    ++ EncodeFixed32 (kTableMagicNumber % 2 ^ 32) ++ EncodeFixed32 (kTableMagicNumber / 2 ^ 32)

/-- Modelled from the spec: `Footer::DecodeFrom(input)`: checks the magic number in the
last eight of the 48 bytes and decodes the two handles. -/
def Footer.DecodeFrom (input : List Nat) : Status × Footer :=
  if input.length < Footer.kEncodedLength then
    (Status.Corruption "not an sstable (footer too short)", ⟨BlockHandle.mk0, BlockHandle.mk0⟩)
  else
    let magic_ptr := input.drop (Footer.kEncodedLength - 8)
    let magic_lo := DecodeFixed32 magic_ptr
    let magic_hi := DecodeFixed32 (magic_ptr.drop 4)
    let magic := magic_hi * 2 ^ 32 + magic_lo
    if magic ≠ kTableMagicNumber then
      (Status.Corruption "not an sstable (bad magic number)", ⟨BlockHandle.mk0, BlockHandle.mk0⟩)
    else
      let r1 := BlockHandle.DecodeFrom input
      if r1.1.ok then
        let r2 := BlockHandle.DecodeFrom r1.2.2
        (r2.1, ⟨r1.2.1, r2.2.1⟩)
      else (r1.1, ⟨r1.2.1, BlockHandle.mk0⟩)

/-- Modelled from the spec: `ReadOptions`, of which the tables use `verify_checksums`
and `fill_cache`. -/
structure ReadOptions where
  verify_checksums : Bool
  fill_cache : Bool
deriving DecidableEq, Repr

/-- The default `ReadOptions()`. -/
def ReadOptions.mk0 : ReadOptions := { verify_checksums := false, fill_cache := true }

/-- Modelled from the spec: `ReadBlock(file, options, handle, result)` of
`table/format.cc`: reads the block contents and the five-byte trailer
`type || mask(crc32c(contents || type))`, verifies the checksum on request and undoes the
compression. The result is the status, the block contents and the file. -/
def ReadBlock (crc : Crc32c) (port : Port) (file : RandomAccessFile) (options : ReadOptions)
    (handle : BlockHandle) : Status × List Nat × RandomAccessFile :=
  let n := handle.size_
  let rd := file.Read handle.offset_ (n + kBlockTrailerSize)
  let data := rd.2.1
  if !rd.1.ok then (rd.1, [], rd.2.2)
  else if data.length ≠ n + kBlockTrailerSize then
    (Status.Corruption "truncated block read", [], rd.2.2)
  else if options.verify_checksums &&
      (crc.Unmask (DecodeFixed32 (data.drop (n + 1))) != crc.Value (data.take (n + 1))) then
    (Status.Corruption "block checksum mismatch", [], rd.2.2)
  else
    let t := data.getD n 0
    if t = CompressionType.kNoCompression.toNat then (Status.OK, data.take n, rd.2.2)
    else if t = CompressionType.kSnappyCompression.toNat then
      match port.Snappy_Uncompress (data.take n) with
      | some out => (Status.OK, out, rd.2.2)
      | none => (Status.Corruption "corrupted snappy compressed block contents", [], rd.2.2)
    else if t = CompressionType.kZstdCompression.toNat then
      match port.Zstd_Uncompress (data.take n) with
      | some out => (Status.OK, out, rd.2.2)
      | none => (Status.Corruption "corrupted zstd compressed block contents", [], rd.2.2)
    else (Status.Corruption "bad block type", [], rd.2.2)

end leveldb

namespace leveldb

/-! ## Comparator and options (external, `leveldb/comparator.h`, `leveldb/options.h`) -/

/-- A `Comparator` (external collaborator, §6). Options hold a pointer to the comparator
and `ChangeOptions` compares pointers: `id` stands for the address of the object.
`FindShortestSeparator(start, limit)` gives the new contents of `*start` and
`FindShortSuccessor(key)` the new contents of `*key`. -/
structure Comparator where
  id : Nat
  Compare : List Nat → List Nat → Int
  FindShortestSeparator : List Nat → List Nat → List Nat
  FindShortSuccessor : List Nat → List Nat

/-- Modelled from the spec: the fields of `Options` that the table code reads. The block
cache is not modelled: `block_cache` is `nullptr` throughout. -/
structure Options where
  comparator : Comparator
  paranoid_checks : Bool
  block_size : Nat
  block_restart_interval : Int
  compression : CompressionType
  zstd_compression_level : Int
  filter_policy : Option FilterPolicy

/-! ## The block builder (`table/block_builder`) -/

/-- The fields of `BlockBuilder` (`table/block_builder.h`); `options_` is a pointer into
the table builder, so the methods receive the options it points to. -/
structure BlockBuilder where
  buffer_ : List Nat
  restarts_ : List Nat
  counter_ : Int
  finished_ : Bool
  last_key_ : List Nat
deriving DecidableEq, Repr

/-- Modelled from the spec: the constructor, with the first restart point at offset 0. -/
def BlockBuilder.mk0 : BlockBuilder :=
  { buffer_ := [], restarts_ := [0], counter_ := 0, finished_ := false, last_key_ := [] }

/-- Modelled from the spec: `BlockBuilder::Reset`, as if the builder was just constructed. -/
def BlockBuilder.Reset (_b : BlockBuilder) : BlockBuilder := BlockBuilder.mk0

/-- The method `BlockBuilder::empty()`. -/
def BlockBuilder.empty (b : BlockBuilder) : Bool := b.buffer_.isEmpty

/-- Modelled from the spec: `CurrentSizeEstimate`, all pending bytes plus
`(restarts.size + 1) * 4` (§4.4). -/
def BlockBuilder.CurrentSizeEstimate (b : BlockBuilder) : Nat :=
  b.buffer_.length + (b.restarts_.length + 1) * 4

/-- The number of leading bytes that two keys share. -/
def common_prefix_len : List Nat → List Nat → Nat
  | a :: as, b :: bs => if a = b then common_prefix_len as bs + 1 else 0
  | _, _ => 0

/-- Modelled from the spec: `BlockBuilder::Add(key, value)` (§4.4). Within a restart
interval the key is stored without the prefix it shares with the previous key; when the
interval is full a restart point is recorded at the offset of the new entry and the key
is stored whole. Sizes are written as 32-bit varints and restart offsets are 32-bit. -/
def BlockBuilder.Add (options : Options) (b : BlockBuilder) (key value : List Nat) :
    BlockBuilder :=
  let restart := ¬ (b.counter_ < options.block_restart_interval)
  let shared := if restart then 0 else common_prefix_len b.last_key_ key
  let restarts := if restart then b.restarts_ ++ [b.buffer_.length % 2 ^ 32] else b.restarts_
  let counter := if restart then 0 else b.counter_
  let non_shared := key.length - shared
  { b with
    buffer_ := b.buffer_ ++ EncodeVarint32 (shared % 2 ^ 32) ++ EncodeVarint32 (non_shared % 2 ^ 32)
      ++ EncodeVarint32 (value.length % 2 ^ 32) ++ key.drop shared ++ value
    restarts_ := restarts
    counter_ := counter + 1
    last_key_ := b.last_key_.take shared ++ key.drop shared }

/-- Modelled from the spec: `BlockBuilder::Finish`, appending each restart offset and
then the number of restarts as fixed 32-bit values; the result is the builder and the
block contents. -/
def BlockBuilder.Finish (b : BlockBuilder) : BlockBuilder × List Nat :=
  let buffer := b.restarts_.foldl (fun buf r => buf ++ EncodeFixed32 r) b.buffer_
    ++ EncodeFixed32 (b.restarts_.length % 2 ^ 32)
  ({ b with buffer_ := buffer, finished_ := true }, buffer)

/-! ## Block iterators (`table/block`, external to the modelled sources) -/

/-- What the table reader observes of an iterator after `Seek(target)`: `Valid()`,
`key()`, `value()` and `status()`. -/
structure IterState where
  valid : Bool
  key : List Nat
  value : List Nat
  status : Status
deriving DecidableEq, Repr

/-- The iterator returned by `NewErrorIterator(status)`: never valid. -/
def NewErrorIterator (s : Status) : IterState :=
  { valid := false, key := [], value := [], status := s }

/-- The block reader, a parameter of the table: `seek cmp contents target` is the state
of `Block(contents).NewIterator(cmp)` after `Seek(target)`. -/
abbrev BlockSeek := (List Nat → List Nat → Int) → List Nat → List Nat → IterState

end leveldb

namespace leveldb

/-! ## The table builder (`table/table_builder.cc`) -/

/-- The fields of `TableBuilder::Rep`. The file is the one `file` points to; the filter
block builder is kept with the policy it was constructed with. The method `status()`
reads the field `status`. -/
structure TableBuilder where
  options : Options
  index_block_options : Options
  file : AppendFile
  offset : Nat
  status : Status
  data_block : BlockBuilder
  index_block : BlockBuilder
  last_key : List Nat
  num_entries : Nat
  closed : Bool
  filter_block : Option (FilterPolicy × FilterBlockBuilder)
  pending_index_entry : Bool
  pending_handle : BlockHandle
  compressed_output : List Nat

namespace TableBuilder

/-- The call `filter_block->StartBlock(block_offset)` when there is a filter block; the
result is `none` if the assertion of `StartBlock` fails. -/
def StartFilterBlock (r : TableBuilder) (block_offset : Nat) : Option TableBuilder :=
  match r.filter_block with
  | none => some r
  | some (policy, fb) =>
    match fb.StartBlock policy block_offset with
    | some fb1 => some { r with filter_block := some (policy, fb1) }
    | none => none

/-- The constructor `Rep(opt, f)`. -/
def Rep (opt : Options) (f : AppendFile) : TableBuilder :=
  { options := opt
    index_block_options := { opt with block_restart_interval := 1 }
    file := f
    offset := 0
    status := Status.OK
    data_block := BlockBuilder.mk0
    index_block := BlockBuilder.mk0
    last_key := []
    num_entries := 0
    closed := false
    filter_block := opt.filter_policy.map (fun policy => (policy, FilterBlockBuilder.mk0))
    pending_index_entry := false
    pending_handle := BlockHandle.mk0
    compressed_output := [] }

/-- The constructor `TableBuilder(options, file)`; `none` if the assertion of
`StartBlock` fails. -/
def mk0 (options : Options) (file : AppendFile) : Option TableBuilder :=
  StartFilterBlock (Rep options file) 0

/-- The method `ok()`. -/
def ok (r : TableBuilder) : Bool := r.status.ok

/-- The method `ChangeOptions(options)`: the status returned and the builder. -/
def ChangeOptions (r : TableBuilder) (options : Options) : Status × TableBuilder :=
  if options.comparator.id ≠ r.options.comparator.id then
    (Status.InvalidArgument "changing comparator while building table", r)
  else
    (Status.OK, { r with options := options
                         index_block_options := { options with block_restart_interval := 1 } })

/-- The method `WriteRawBlock(block_contents, type, handle)`: the builder and the value
stored in `*handle`. -/
def WriteRawBlock (crc : Crc32c) (r : TableBuilder) (block_contents : List Nat)
    (type : CompressionType) : TableBuilder × BlockHandle :=
  let handle : BlockHandle := { offset_ := r.offset, size_ := block_contents.length % 2 ^ 64 }
  let a := r.file.Append block_contents
  let r1 := { r with status := a.1, file := a.2 }
  if r1.status.ok then
    let trailer := type.toNat
      :: EncodeFixed32 (crc.Mask (crc.Extend (crc.Value block_contents) [type.toNat]))
    let a2 := r1.file.Append trailer
    let r2 := { r1 with status := a2.1, file := a2.2 }
    if r2.status.ok then
      ({ r2 with offset := (r2.offset + block_contents.length + kBlockTrailerSize) % 2 ^ 64 },
        handle)
    else (r2, handle)
  else (r1, handle)

/-- The choice of `WriteBlock` between the raw and the compressed form of a block. -/
def chooseContents (port : Port) (options : Options) (raw : List Nat) :
    List Nat × CompressionType :=
  match options.compression with
  | CompressionType.kNoCompression => (raw, CompressionType.kNoCompression)
  | CompressionType.kSnappyCompression =>
    match port.Snappy_Compress raw with
    | some compressed =>
      if compressed.length < raw.length - raw.length / 8 then
        (compressed, CompressionType.kSnappyCompression)
      else (raw, CompressionType.kNoCompression)
    | none => (raw, CompressionType.kNoCompression)
  | CompressionType.kZstdCompression =>
    match port.Zstd_Compress options.zstd_compression_level raw with
    | some compressed =>
      if compressed.length < raw.length - raw.length / 8 then
        (compressed, CompressionType.kZstdCompression)
      else (raw, CompressionType.kNoCompression)
    | none => (raw, CompressionType.kNoCompression)

/-- The method `WriteBlock(block, handle)`: the builder, the block builder `*block` after
its `Reset` and the value stored in `*handle`; `none` if the assertion `ok()` fails. -/
def WriteBlock (crc : Crc32c) (port : Port) (r : TableBuilder) (block : BlockBuilder) :
    Option (TableBuilder × BlockBuilder × BlockHandle) :=
  if !r.ok then none
  else
    let fin := block.Finish
    let c := chooseContents port r.options fin.2
    let w := WriteRawBlock crc r c.1 c.2
    some ({ w.1 with compressed_output := [] }, fin.1.Reset, w.2)

/-- The method `Flush()`; `none` if an assertion fails. -/
def Flush (crc : Crc32c) (port : Port) (r : TableBuilder) : Option TableBuilder :=
  if r.closed then none
  else if !r.ok then some r
  else if r.data_block.empty then some r
  else if r.pending_index_entry then none
  else
    match WriteBlock crc port r r.data_block with
    | none => none
    | some (r1, block, handle) =>
      let r2 := { r1 with data_block := block, pending_handle := handle }
      let r3 :=
        if r2.ok then
          let f := r2.file.Flush
          { r2 with pending_index_entry := true, status := f.1, file := f.2 }
        else r2
      StartFilterBlock r3 r3.offset

/-- The part of `Add` that emits the index entry of the block written last; `none` if
the assertion `data_block.empty()` fails. -/
def AddPendingIndexEntry (r : TableBuilder) (key : List Nat) : Option TableBuilder :=
  if r.pending_index_entry then
    if !r.data_block.empty then none
    else
      let last_key := r.options.comparator.FindShortestSeparator r.last_key key
      let handle_encoding := r.pending_handle.EncodeTo
      some { r with last_key := last_key
                    index_block := r.index_block.Add r.index_block_options last_key handle_encoding
                    pending_index_entry := false }
  else some r

/-- The call `filter_block->AddKey(key)` when there is a filter block. -/
def AddFilterKey (r : TableBuilder) (key : List Nat) : TableBuilder :=
  { r with filter_block := r.filter_block.map (fun pf => (pf.1, pf.2.AddKey key)) }

/-- The method `Add(key, value)`; `none` if an assertion fails. -/
def Add (crc : Crc32c) (port : Port) (r : TableBuilder) (key value : List Nat) :
    Option TableBuilder :=
  if r.closed then none
  else if !r.ok then some r
  else if r.num_entries > 0 ∧ ¬ (r.options.comparator.Compare key r.last_key > 0) then none
  else
    match AddPendingIndexEntry r key with
    | none => none
    | some r1 =>
      let r2 := AddFilterKey r1 key
      let r3 := { r2 with last_key := key
                          num_entries := r2.num_entries + 1
                          data_block := r2.data_block.Add r2.options key value }
      let estimated_block_size := r3.data_block.CurrentSizeEstimate
      if estimated_block_size ≥ r3.options.block_size then Flush crc port r3 else some r3

/-- The bytes of the string `"filter."`. -/
def filterPrefix : List Nat := [102, 105, 108, 116, 101, 114, 46]

/-- The step of `Finish` that writes the filter block: the builder and
`filter_block_handle`. -/
def FinishFilter (crc : Crc32c) (r : TableBuilder) : TableBuilder × BlockHandle :=
  match r.filter_block with
  | some (policy, fb) =>
    if r.ok then
      let fin := fb.Finish policy
      WriteRawBlock crc { r with filter_block := some (policy, fin.1) } fin.2
        CompressionType.kNoCompression
    else (r, BlockHandle.mk0)
  | none => (r, BlockHandle.mk0)

/-- The metaindex block built in `Finish`: with a filter block, the entry from
`"filter." ++ Name()` to the handle of the filter block; `none` where the code
dereferences a null filter policy. -/
def metaIndexBlock (r : TableBuilder) (filter_block_handle : BlockHandle) :
    Option BlockBuilder :=
  match r.filter_block with
  | some _ =>
    match r.options.filter_policy with
    | some policy =>
      some (BlockBuilder.mk0.Add r.options (filterPrefix ++ policy.Name)
        filter_block_handle.EncodeTo)
    | none => none
  | none => some BlockBuilder.mk0

/-- The step of `Finish` that writes the metaindex block: the builder and
`metaindex_block_handle`; `none` where the code dereferences a null filter policy. -/
def FinishMetaindex (crc : Crc32c) (port : Port) (r : TableBuilder)
    (filter_block_handle : BlockHandle) : Option (TableBuilder × BlockHandle) :=
  if r.ok then
    match metaIndexBlock r filter_block_handle with
    | none => none
    | some block =>
      match WriteBlock crc port r block with
      | some (r1, _, handle) => some (r1, handle)
      | none => none
  else some (r, BlockHandle.mk0)

/-- The part of `Finish` that emits the index entry of the last block. -/
def AddLastIndexEntry (r : TableBuilder) : TableBuilder :=
  if r.pending_index_entry then
    let last_key := r.options.comparator.FindShortSuccessor r.last_key
    let handle_encoding := r.pending_handle.EncodeTo
    { r with last_key := last_key
             index_block := r.index_block.Add r.index_block_options last_key handle_encoding
             pending_index_entry := false }
  else r

/-- The step of `Finish` that writes the index block: the builder and
`index_block_handle`. -/
def FinishIndex (crc : Crc32c) (port : Port) (r : TableBuilder) :
    Option (TableBuilder × BlockHandle) :=
  if r.ok then
    let r1 := AddLastIndexEntry r
    match WriteBlock crc port r1 r1.index_block with
    | some (r2, block, handle) => some ({ r2 with index_block := block }, handle)
    | none => none
  else some (r, BlockHandle.mk0)

/-- The step of `Finish` that writes the footer. -/
def FinishFooter (r : TableBuilder) (metaindex_block_handle index_block_handle : BlockHandle) :
    TableBuilder :=
  if r.ok then
    let footer : Footer :=
      { metaindex_handle_ := metaindex_block_handle, index_handle_ := index_block_handle }
    let footer_encoding := footer.EncodeTo
    let a := r.file.Append footer_encoding
    let r1 := { r with status := a.1, file := a.2 }
    if r1.status.ok then { r1 with offset := (r1.offset + footer_encoding.length) % 2 ^ 64 }
    else r1
  else r

/-- The method `Finish()`: the status returned and the builder; `none` if an assertion
fails. -/
def Finish (crc : Crc32c) (port : Port) (r : TableBuilder) : Option (Status × TableBuilder) :=
  match Flush crc port r with
  | none => none
  | some r1 =>
    if r1.closed then none
    else
      let r2 := { r1 with closed := true }
      let f := FinishFilter crc r2
      match FinishMetaindex crc port f.1 f.2 with
      | none => none
      | some m =>
        match FinishIndex crc port m.1 with
        | none => none
        | some i =>
          let r3 := FinishFooter i.1 m.2 i.2
          some (r3.status, r3)

/-- The method `Abandon()`; `none` if the assertion fails. -/
def Abandon (r : TableBuilder) : Option TableBuilder :=
  if r.closed then none else some { r with closed := true }

/-- The method `NumEntries()`. -/
def NumEntries (r : TableBuilder) : Nat := r.num_entries

/-- The method `FileSize()`. -/
def FileSize (r : TableBuilder) : Nat := r.offset

/-- A call on a table builder. -/
inductive Op where
  | Add (key value : List Nat)
  | Flush
  | ChangeOptions (options : Options)
  | Finish
  | Abandon

/-- One call on a table builder; `none` if an assertion of the call fails. -/
def step (crc : Crc32c) (port : Port) (r : TableBuilder) : Op → Option TableBuilder
  | Op.Add key value => r.Add crc port key value
  | Op.Flush => r.Flush crc port
  | Op.ChangeOptions options => some (r.ChangeOptions options).2
  | Op.Finish => (r.Finish crc port).map (fun x => x.2)
  | Op.Abandon => r.Abandon

/-- A sequence of calls on a table builder. -/
def run (crc : Crc32c) (port : Port) : TableBuilder → List Op → Option TableBuilder
  | r, [] => some r
  | r, op :: rest =>
    match step crc port r op with
    | some r1 => run crc port r1 rest
    | none => none

/-- The calls `Add(key, value)` for the pairs of a list, in order. -/
def AddAll (crc : Crc32c) (port : Port) : TableBuilder → List (List Nat × List Nat) →
    Option TableBuilder
  | r, [] => some r
  | r, e :: rest =>
    match r.Add crc port e.1 e.2 with
    | some r1 => AddAll crc port r1 rest
    | none => none

end TableBuilder

end leveldb

namespace leveldb

/-! ## Notions used to state and prove the filter block theorems -/

namespace FilterBlockBuilder

/-- The bytes that `GenerateFilter` appends for a set of keys: nothing for no keys. -/
def filterBytes (policy : FilterPolicy) (keys : List (List Nat)) : List Nat :=
  if keys = [] then [] else policy.CreateFilter keys

/-- The filter data of the key sets `done`, one filter after the other. -/
def resultOf (policy : FilterPolicy) : List (List (List Nat)) → List Nat
  | [] => []
  | keys :: rest => filterBytes policy keys ++ resultOf policy rest

/-- The offsets of the filters of `done` in the filter data, from the offset `base`. -/
def offsetsOf (policy : FilterPolicy) : Nat → List (List (List Nat)) → List Nat
  | _, [] => []
  | base, keys :: rest =>
    base % 2 ^ 32 :: offsetsOf policy (base + (filterBytes policy keys).length) rest

/-- The keys `pending`, one after the other. -/
def flat : List (List Nat) → List Nat
  | [] => []
  | k :: rest => k ++ flat rest

/-- The start indexes of the keys `pending` in `flat pending`, from the index `base`. -/
def startsOf : Nat → List (List Nat) → List Nat
  | _, [] => []
  | base, k :: rest => base :: startsOf (base + k.length) rest

/-- The builder `b` has generated the filters of the key sets `done` and holds the keys
`pending` for the next filter. -/
structure Rel (policy : FilterPolicy) (b : FilterBlockBuilder) (done : List (List (List Nat)))
    (pending : List (List Nat)) : Prop where
  keys_eq : b.keys_ = flat pending
  start_eq : b.start_ = startsOf 0 pending
  result_eq : b.result_ = resultOf policy done
  offsets_eq : b.filter_offsets_ = offsetsOf policy 0 done
  tmp_eq : b.tmp_keys_ = []

/-- The key `k` is pending for the filter of index `i`, or is in the filter of index `i`. -/
def Holds (done : List (List (List Nat))) (pending : List (List Nat)) (i : Nat)
    (k : List Nat) : Prop :=
  (done.length = i ∧ k ∈ pending) ∨ k ∈ done.getD i []

/-- The four-byte words `ws`, one after the other. -/
def encodeWords : List Nat → List Nat
  | [] => []
  | w :: rest => EncodeFixed32 w ++ encodeWords rest

end FilterBlockBuilder

end leveldb

namespace leveldb

/-! ## The table reader (`table/table.cc`) -/

/-- The fields of `Table::Rep`. The index block is kept as its contents; the filter is
kept with the policy it was constructed with. Ownership of the filter data
(`filter_data`) is not modelled. -/
structure Table where
  options : Options
  status : Status
  file : RandomAccessFile
  cache_id : Nat
  filter : Option (FilterPolicy × FilterBlockReader)
  metaindex_handle : BlockHandle
  index_block : List Nat

namespace Table

/-- The read options built in `Open`, `ReadMeta` and `ReadFilter`: checksums are
verified under `paranoid_checks`. -/
def metaReadOptions (options : Options) : ReadOptions :=
  if options.paranoid_checks then { ReadOptions.mk0 with verify_checksums := true }
  else ReadOptions.mk0

/-- The method `ReadFilter(filter_handle_value)`. -/
def ReadFilter (crc : Crc32c) (port : Port) (t : Table) (filter_handle_value : List Nat) :
    Table :=
  let d := BlockHandle.DecodeFrom filter_handle_value
  if !d.1.ok then t
  else
    let rb := ReadBlock crc port t.file (metaReadOptions t.options) d.2.1
    let t1 := { t with file := rb.2.2 }
    if !rb.1.ok then t1
    else
      match t1.options.filter_policy with
      | some policy => { t1 with filter := some (policy, FilterBlockReader.mk0 rb.2.1) }
      | none => t1

/-- The method `ReadMeta(footer)`. -/
def ReadMeta (crc : Crc32c) (port : Port) (seek : BlockSeek) (t : Table) (footer : Footer) :
    Table :=
  match t.options.filter_policy with
  | none => t
  | some policy =>
    let rb := ReadBlock crc port t.file (metaReadOptions t.options) footer.metaindex_handle_
    let t1 := { t with file := rb.2.2 }
    if !rb.1.ok then t1
    else
      let key := TableBuilder.filterPrefix ++ policy.Name
      let iter := seek bytewiseCompare rb.2.1 key
      if iter.valid && iter.key == key then ReadFilter crc port t1 iter.value
      else t1

/-- The function `Table::Open(options, file, size, table)`: the status, `*table`
(`none` for `nullptr`) and the file. -/
def Open (crc : Crc32c) (port : Port) (seek : BlockSeek) (options : Options)
    (file : RandomAccessFile) (size : Nat) : Status × Option Table × RandomAccessFile :=
  if size < Footer.kEncodedLength then
    (Status.Corruption "file is too short to be an sstable", none, file)
  else
    let rd := file.Read (size - Footer.kEncodedLength) Footer.kEncodedLength
    if !rd.1.ok then (rd.1, none, rd.2.2)
    else
      let fd := Footer.DecodeFrom rd.2.1
      if !fd.1.ok then (fd.1, none, rd.2.2)
      else
        let rb := ReadBlock crc port rd.2.2 (metaReadOptions options) fd.2.index_handle_
        if rb.1.ok then
          let rep : Table :=
            { options := options
              status := Status.OK
              file := rb.2.2
              cache_id := 0
              filter := none
              metaindex_handle := fd.2.metaindex_handle_
              index_block := rb.2.1 }
          let t := ReadMeta crc port seek rep fd.2
          (rb.1, some t, t.file)
        else (rb.1, none, rb.2.2)

/-- The function `Table::BlockReader(arg, options, index_value)` without a block cache:
the iterator over the block, given by its state after `Seek(target)`, and the table. -/
def BlockReader (crc : Crc32c) (port : Port) (seek : BlockSeek) (t : Table)
    (options : ReadOptions) (index_value : List Nat) : (List Nat → IterState) × Table :=
  let d := BlockHandle.DecodeFrom index_value
  if d.1.ok then
    let rb := ReadBlock crc port t.file options d.2.1
    let t1 := { t with file := rb.2.2 }
    if rb.1.ok then (fun target => seek t.options.comparator.Compare rb.2.1 target, t1)
    else (fun _ => NewErrorIterator rb.1, t1)
  else (fun _ => NewErrorIterator d.1, t)

/-- The test of `InternalGet` that the filter excludes the key:
`filter != nullptr && handle.DecodeFrom(&handle_value).ok() &&
!filter->KeyMayMatch(handle.offset(), k)`. -/
def filterExcludes (t : Table) (handle_value k : List Nat) : Bool :=
  match t.filter with
  | some (policy, filter) =>
    let d := BlockHandle.DecodeFrom handle_value
    d.1.ok && !filter.KeyMayMatch policy d.2.1.offset_ k
  | none => false

/-- The method `InternalGet(options, k, arg, handle_result)`: the status, the calls
`(*handle_result)(arg, key, value)` made, and the table. -/
def InternalGet (crc : Crc32c) (port : Port) (seek : BlockSeek) (t : Table)
    (options : ReadOptions) (k : List Nat) : Status × List (List Nat × List Nat) × Table :=
  let iiter := seek t.options.comparator.Compare t.index_block k
  let r : Status × List (List Nat × List Nat) × Table :=
    if iiter.valid then
      let handle_value := iiter.value
      if filterExcludes t handle_value k then (Status.OK, [], t)
      else
        let br := BlockReader crc port seek t options iiter.value
        let block_iter := br.1 k
        (block_iter.status,
          if block_iter.valid then [(block_iter.key, block_iter.value)] else [], br.2)
    else (Status.OK, [], t)
  (if r.1.ok then iiter.status else r.1, r.2.1, r.2.2)

end Table

/-! ## Sample collaborators -/

/-- The loop of `linearBlockSeek`: decodes the entries of `p` one after the other,
rebuilding each key from the previous one, up to the first key not below `target`. -/
def linearBlockSeekLoop (cmp : List Nat → List Nat → Int) (target : List Nat) :
    Nat → List Nat → List Nat → IterState
  | 0, _, _ => { valid := false, key := [], value := [], status := Status.OK }
  | fuel + 1, p, last_key =>
    if p = [] then { valid := false, key := [], value := [], status := Status.OK }
    else
      match GetVarint32Ptr p p.length with
      | none => NewErrorIterator (Status.Corruption "bad entry in block")
      | some (p1, shared) =>
        match GetVarint32Ptr p1 p1.length with
        | none => NewErrorIterator (Status.Corruption "bad entry in block")
        | some (p2, non_shared) =>
          match GetVarint32Ptr p2 p2.length with
          | none => NewErrorIterator (Status.Corruption "bad entry in block")
          | some (p3, value_length) =>
            if last_key.length < shared ∨ p3.length < non_shared + value_length then
              NewErrorIterator (Status.Corruption "bad entry in block")
            else
              let key := last_key.take shared ++ p3.take non_shared
              let value := (p3.drop non_shared).take value_length
              if cmp key target < 0 then
                linearBlockSeekLoop cmp target fuel (p3.drop (non_shared + value_length)) key
              else { valid := true, key := key, value := value, status := Status.OK }

/-- A block reader that scans the entries of a block (§3) from its start: the entries
end where the restart array `u32_le[num_restarts] || u32_le(num_restarts)` begins. -/
def linearBlockSeek : BlockSeek := fun cmp contents target =>
  if contents.length < 4 then NewErrorIterator (Status.Corruption "bad block contents")
  else
    let num_restarts := DecodeFixed32 (contents.drop (contents.length - 4))
    if contents.length < (1 + num_restarts) * 4 then
      NewErrorIterator (Status.Corruption "bad block contents")
    else
      let restart_offset := contents.length - (1 + num_restarts) * 4
      linearBlockSeekLoop cmp target restart_offset (contents.take restart_offset) []

/-- The separator of the bytewise comparator: the first byte where `start` and `limit`
differ is incremented, and `start` cut behind it, if the result stays below `limit`. -/
def bytewiseSeparator : List Nat → List Nat → List Nat
  | a :: as, b :: bs =>
    if a = b then a :: bytewiseSeparator as bs
    else if a < 255 ∧ a + 1 < b then [a + 1]
    else a :: as
  | start, _ => start

/-- The short successor of the bytewise comparator: the first byte that is not `0xff`
is incremented and the key cut behind it. -/
def bytewiseSuccessor : List Nat → List Nat
  | [] => []
  | a :: as => if a = 255 then a :: bytewiseSuccessor as else [a + 1]

/-- The bytewise comparator. -/
def sampleComparator : Comparator where
  id := 1
  Compare := bytewiseCompare
  FindShortestSeparator := bytewiseSeparator
  FindShortSuccessor := bytewiseSuccessor

/-- Sample entries: the table `a -> 1, b -> 2, c -> 3`. -/
def sampleEntries : List (List Nat × List Nat) := [([97], [49]), ([98], [50]), ([99], [51])]

/-- Sample options: bytewise comparator, no compression, no filter. -/
def sampleOptions (block_size : Nat) : Options where
  comparator := sampleComparator
  paranoid_checks := true
  block_size := block_size
  block_restart_interval := 16
  compression := CompressionType.kNoCompression
  zstd_compression_level := 1
  filter_policy := none

/-- Sample options with the sample filter policy. -/
def sampleFilterOptions (block_size : Nat) : Options :=
  { sampleOptions block_size with filter_policy := some sampleFilterPolicy }

/-- The builder after `Finish` of the table with the entries `es`, built with the sample
checksum and port over an empty file without failures. -/
def sampleBuild (options : Options) (es : List (List Nat × List Nat)) :
    Option (Status × TableBuilder) :=
  (TableBuilder.mk0 options ⟨[], []⟩).bind (fun b =>
    (TableBuilder.AddAll sampleCrc samplePort b es).bind (fun r =>
      r.Finish sampleCrc samplePort))

end leveldb

namespace leveldb

/-! ## Notions used to state the table builder theorems -/

/-- Every scripted operation of the file succeeds. -/
def AppendFile.Reliable (f : AppendFile) : Prop := ∀ x ∈ f.script, x = true

namespace TableBuilder

/-- No file operation of the builder has failed or will fail: the status is `OK`, and the
file holds `c0` followed by `offset` more bytes (the offset is a 64-bit counter). -/
structure Good (c0 : List Nat) (r : TableBuilder) : Prop where
  reliable : r.file.Reliable
  status_eq : r.status = Status.OK
  sized : ∃ out, r.file.contents = c0 ++ out ∧ r.offset = out.length % 2 ^ 64

/-- The number of `Add` calls of a sequence of calls. -/
def addCalls : List Op → Nat
  | [] => 0
  | Op.Add _ _ :: rest => addCalls rest + 1
  | _ :: rest => addCalls rest

/-- The number of `Add` calls of a sequence of calls that were made while `ok()` held. -/
def okAdds (crc : Crc32c) (port : Port) : TableBuilder → List Op → Nat
  | _, [] => 0
  | r, op :: rest =>
    (match op with
      | Op.Add _ _ => if r.ok then 1 else 0
      | _ => 0) +
    (match step crc port r op with
      | some r1 => okAdds crc port r1 rest
      | none => 0)

/-- The call is `Add` or `Flush`. -/
def Op.isAddOrFlush : Op → Bool
  | Op.Add _ _ => true
  | Op.Flush => true
  | _ => false

/-- A builder that failed on its first file operation: constructed over a file whose
first operation fails, after `Add("a", "1")` with `block_size = 1`. -/
def failedBuilder : TableBuilder :=
  ((mk0 (sampleOptions 1) ⟨[], [false]⟩).bind
    (fun b => b.Add sampleCrc samplePort [97] [49])).getD (Rep (sampleOptions 1) ⟨[], []⟩)

/-- The builder `r1` has the status, the file, the entry count, the offset, the last key,
the index block and the pending index entry of the builder `r`. -/
structure Frozen (r r1 : TableBuilder) : Prop where
  status_eq : r1.status = r.status
  file_eq : r1.file = r.file
  num_entries_eq : r1.num_entries = r.num_entries
  offset_eq : r1.offset = r.offset
  last_key_eq : r1.last_key = r.last_key
  index_block_eq : r1.index_block = r.index_block
  pending_eq : r1.pending_index_entry = r.pending_index_entry
  pending_handle_eq : r1.pending_handle = r.pending_handle

end TableBuilder

end leveldb

namespace leveldb

/-! ## Contracts of the collaborators of a table, and the layout of a table file -/

/-- An entry of a table: a key and its value. -/
abbrev Entry := List Nat × List Nat

/-- The calls `Add(key, value)` on a block builder for the entries of a list, in order. -/
def BlockBuilder.addAll (options : Options) (b : BlockBuilder) (es : List Entry) :
    BlockBuilder :=
  es.foldl (fun b e => b.Add options e.1 e.2) b

/-- The contents of the block that a new block builder returns from `Finish` after the
entries `es`. -/
def BlockBuilder.build (options : Options) (es : List Entry) : List Nat :=
  (BlockBuilder.addAll options BlockBuilder.mk0 es).Finish.2

/-- The contract of the compression functions: what was compressed uncompresses to the
original. -/
structure Port.Lawful (port : Port) : Prop where
  snappy : ∀ raw c, port.Snappy_Compress raw = some c → port.Snappy_Uncompress c = some raw
  zstd : ∀ level raw c, port.Zstd_Compress level raw = some c →
    port.Zstd_Uncompress c = some raw

/-- The contract of a comparator (§6): `Compare` is a three-way comparison of a total
order, `FindShortestSeparator(start, limit)` with `start < limit` shortens `start` to a
key in `[start, limit)`, and `FindShortSuccessor(key)` shortens `key` to a key not below
`key`; neither makes its argument longer. -/
structure Comparator.Lawful (c : Comparator) : Prop where
  cmp : CmpLawful c.Compare
  separator : ∀ start limit, c.Compare start limit < 0 →
    c.Compare start (c.FindShortestSeparator start limit) ≤ 0 ∧
    c.Compare (c.FindShortestSeparator start limit) limit < 0
  successor : ∀ key, c.Compare key (c.FindShortSuccessor key) ≤ 0
  separator_length : ∀ start limit, (c.FindShortestSeparator start limit).length ≤ start.length
  successor_length : ∀ key, (c.FindShortSuccessor key).length ≤ key.length

namespace TableBuilder

/-- The trailer of a block: `type || fixed32(mask(crc32c(contents || type)))`. -/
def trailerOf (crc : Crc32c) (c : List Nat) (t : CompressionType) : List Nat :=
  t.toNat :: EncodeFixed32 (crc.Mask (crc.Extend (crc.Value c) [t.toNat]))

/-- The bytes that `WriteBlock` appends for a block with the contents `raw`: the stored
form and its trailer. -/
def rawImage (crc : Crc32c) (port : Port) (options : Options) (raw : List Nat) : List Nat :=
  (chooseContents port options raw).1
    ++ trailerOf crc (chooseContents port options raw).1 (chooseContents port options raw).2

/-- The bytes that the data blocks with the entries `gs` occupy in the file. -/
def dataImage (crc : Crc32c) (port : Port) (options : Options) : List (List Entry) → List Nat
  | [] => []
  | g :: rest => rawImage crc port options (BlockBuilder.build options g)
      ++ dataImage crc port options rest

/-- The last key of a list of entries (empty for no entry). -/
def lastKeyOf (g : List Entry) : List Nat := (g.getLast?.map Prod.fst).getD []

/-- The first key of a list of entries (empty for no entry). -/
def firstKeyOf (g : List Entry) : List Nat := (g.head?.map Prod.fst).getD []

/-- The handle of the data block with the entries `g` written at the offset `off`. -/
def handleAt (port : Port) (options : Options) (off : Nat) (g : List Entry) : BlockHandle :=
  ⟨off % 2 ^ 64, (chooseContents port options (BlockBuilder.build options g)).1.length % 2 ^ 64⟩

/-- The index entries of the data blocks `gs`, the first written at the offset `off`: one
for every block that another block follows, with the separator of the last key of the
block and the first key of the next block. -/
def indexEntries (crc : Crc32c) (port : Port) (options : Options) :
    Nat → List (List Entry) → List Entry
  | _, [] => []
  | off, g :: rest =>
    (rest.head?.map (fun g' =>
      (options.comparator.FindShortestSeparator (lastKeyOf g) (firstKeyOf g'),
        (handleAt port options off g).EncodeTo))).toList
    ++ indexEntries crc port options
        (off + (rawImage crc port options (BlockBuilder.build options g)).length) rest

/-- The index entry of the last data block `g`, written at the offset `off`. -/
def lastIndexEntry (port : Port) (options : Options) (off : Nat) (g : List Entry) : Entry :=
  (options.comparator.FindShortSuccessor (lastKeyOf g), (handleAt port options off g).EncodeTo)

/-- The calls on the filter block builder for the data blocks `gs`, the first written at
the offset `off`: the keys of a block, then `StartBlock` with the offset behind it. -/
def filterCalls (crc : Crc32c) (port : Port) (options : Options) :
    Nat → List (List Entry) → List FilterBlockBuilder.Call
  | _, [] => []
  | off, g :: rest =>
    g.map (fun e => FilterBlockBuilder.Call.AddKey e.1)
      ++ FilterBlockBuilder.Call.StartBlock
          ((off + (rawImage crc port options (BlockBuilder.build options g)).length) % 2 ^ 64)
      :: filterCalls crc port options
          (off + (rawImage crc port options (BlockBuilder.build options g)).length) rest

/-- The index options of a builder with the options `options`. -/
def indexOptions (options : Options) : Options := { options with block_restart_interval := 1 }

/-- The groups of entries that have an index entry or wait for one: the blocks written
and, if it is not empty, the block under construction. -/
def groupsOf (gs : List (List Entry)) (cur : List Entry) : List (List Entry) :=
  if cur = [] then gs else gs ++ [cur]

/-- The state of the filter block builder of a table builder that has written the data
blocks `gs` and holds the entries `cur`: it was made by the policy of the options and has
received `StartBlock(0)`, the calls for the blocks written and the keys of `cur`. -/
def FilterOk (crc : Crc32c) (port : Port) (options : Options) (gs : List (List Entry))
    (cur : List Entry) (filter_block : Option (FilterPolicy × FilterBlockBuilder)) : Prop :=
  match options.filter_policy with
  | none => filter_block = none
  | some policy => ∃ fb, filter_block = some (policy, fb) ∧
    FilterBlockBuilder.run policy FilterBlockBuilder.mk0
      (FilterBlockBuilder.Call.StartBlock 0 :: (filterCalls crc port options 0 gs
        ++ cur.map (fun e => FilterBlockBuilder.Call.AddKey e.1))) = some fb

/-- The state of a builder with the options `options` over an empty reliable file that
has written the data blocks `gs` and holds the entries `cur` in its data block: all
fields but the filter block. -/
structure BuiltCore (crc : Crc32c) (port : Port) (options : Options)
    (gs : List (List Entry)) (cur : List Entry) (r : TableBuilder) : Prop where
  options_eq : r.options = options
  index_options_eq : r.index_block_options = indexOptions options
  reliable : r.file.Reliable
  status_eq : r.status = Status.OK
  closed_eq : r.closed = false
  contents_eq : r.file.contents = dataImage crc port options gs
  offset_eq : r.offset = (dataImage crc port options gs).length % 2 ^ 64
  data_eq : r.data_block = BlockBuilder.addAll options BlockBuilder.mk0 cur
  index_eq : r.index_block = BlockBuilder.addAll (indexOptions options) BlockBuilder.mk0
    (indexEntries crc port options 0 (groupsOf gs cur))
  pending_eq : r.pending_index_entry = decide (cur = [] ∧ gs ≠ [])
  handle_eq : ∀ gs0 g, cur = [] → gs = gs0 ++ [g] →
    r.pending_handle = handleAt port options (dataImage crc port options gs0).length g
  last_key_eq : gs.flatten ++ cur ≠ [] → r.last_key = lastKeyOf (gs.flatten ++ cur)
  num_eq : r.num_entries = (gs.flatten ++ cur).length
  nonempty : ∀ g ∈ gs, g ≠ []

/-- The state of a builder with the options `options` over an empty reliable file that
has written the data blocks `gs` and holds the entries `cur` in its data block. -/
structure Built (crc : Crc32c) (port : Port) (options : Options) (gs : List (List Entry))
    (cur : List Entry) (r : TableBuilder) : Prop where
  core : BuiltCore crc port options gs cur r
  filter_eq : FilterOk crc port options gs cur r.filter_block

/-- The state of a builder inside `Finish`, after the data blocks `gs`, when the file
holds the bytes `c`: the fields that the steps of `Finish` read. -/
structure Closing (crc : Crc32c) (port : Port) (options : Options) (gs : List (List Entry))
    (c : List Nat) (r : TableBuilder) : Prop where
  options_eq : r.options = options
  index_options_eq : r.index_block_options = indexOptions options
  reliable : r.file.Reliable
  status_eq : r.status = Status.OK
  contents_eq : r.file.contents = c
  offset_eq : r.offset = c.length % 2 ^ 64
  index_eq : r.index_block = BlockBuilder.addAll (indexOptions options) BlockBuilder.mk0
    (indexEntries crc port options 0 gs)
  pending_eq : r.pending_index_entry = decide (gs ≠ [])
  handle_eq : ∀ gs0 g, gs = gs0 ++ [g] →
    r.pending_handle = handleAt port options (dataImage crc port options gs0).length g
  last_key_eq : gs.flatten ≠ [] → r.last_key = lastKeyOf gs.flatten

/-- The entries of the index block of a finished table with the data blocks `gs`. -/
def finalIndex (crc : Crc32c) (port : Port) (options : Options) (gs : List (List Entry)) :
    List Entry :=
  match gs.getLast? with
  | none => indexEntries crc port options 0 gs
  | some g =>
    indexEntries crc port options 0 gs
      ++ [lastIndexEntry port options (dataImage crc port options gs.dropLast).length g]

/-- The entries of the index block of a finished table whose data blocks `gs` start at the
offset `off`, block by block. -/
def finalIndexFrom (crc : Crc32c) (port : Port) (options : Options) :
    Nat → List (List Entry) → List Entry
  | _, [] => []
  | off, g :: rest =>
    (match rest.head? with
      | some g' =>
        (options.comparator.FindShortestSeparator (lastKeyOf g) (firstKeyOf g'),
          (handleAt port options off g).EncodeTo)
      | none => lastIndexEntry port options off g)
    :: finalIndexFrom crc port options
        (off + (rawImage crc port options (BlockBuilder.build options g)).length) rest

/-- The length of the stored form of a block with the contents `raw`. -/
def storedLength (port : Port) (options : Options) (raw : List Nat) : Nat :=
  (chooseContents port options raw).1.length

/-- The bytes of the filter block with the contents `fbytes` and its trailer; nothing
without a filter. -/
def filterImage (crc : Crc32c) : Option (List Nat) → List Nat
  | none => []
  | some c => c ++ trailerOf crc c CompressionType.kNoCompression

/-- The entries of the metaindex block: the handle of the filter block, written at the
offset `off` with the contents `fbytes`, under the key `"filter." ++ Name()`. -/
def metaEntries (options : Options) (off : Nat) (fbytes : Option (List Nat)) : List Entry :=
  match options.filter_policy, fbytes with
  | some policy, some c =>
    [(filterPrefix ++ policy.Name,
      (⟨off % 2 ^ 64, c.length % 2 ^ 64⟩ : BlockHandle).EncodeTo)]
  | _, _ => []

/-- The contents of the metaindex block of a finished table. -/
def metaRaw (crc : Crc32c) (port : Port) (options : Options) (gs : List (List Entry))
    (fbytes : Option (List Nat)) : List Nat :=
  BlockBuilder.build options
    (metaEntries options (dataImage crc port options gs).length fbytes)

/-- The contents of the index block of a finished table. -/
def indexRaw (crc : Crc32c) (port : Port) (options : Options) (gs : List (List Entry)) :
    List Nat :=
  BlockBuilder.build (indexOptions options) (finalIndex crc port options gs)

/-- The offset of the metaindex block of a finished table. -/
def metaOffset (crc : Crc32c) (port : Port) (options : Options) (gs : List (List Entry))
    (fbytes : Option (List Nat)) : Nat :=
  (dataImage crc port options gs).length + (filterImage crc fbytes).length

/-- The offset of the index block of a finished table. -/
def indexOffset (crc : Crc32c) (port : Port) (options : Options) (gs : List (List Entry))
    (fbytes : Option (List Nat)) : Nat :=
  metaOffset crc port options gs fbytes
    + (rawImage crc port options (metaRaw crc port options gs fbytes)).length

/-- The footer of a finished table. -/
def footerOf (crc : Crc32c) (port : Port) (options : Options) (gs : List (List Entry))
    (fbytes : Option (List Nat)) : Footer :=
  { metaindex_handle_ :=
      ⟨metaOffset crc port options gs fbytes % 2 ^ 64,
        storedLength port options (metaRaw crc port options gs fbytes) % 2 ^ 64⟩
    index_handle_ :=
      ⟨indexOffset crc port options gs fbytes % 2 ^ 64,
        storedLength port options (indexRaw crc port options gs) % 2 ^ 64⟩ }

/-- The file of a finished table with the data blocks `gs` and the filter block
contents `fbytes`: data blocks, filter block, metaindex block, index block, footer. -/
def tableImage (crc : Crc32c) (port : Port) (options : Options) (gs : List (List Entry))
    (fbytes : Option (List Nat)) : List Nat :=
  dataImage crc port options gs ++ filterImage crc fbytes
    ++ rawImage crc port options (metaRaw crc port options gs fbytes)
    ++ rawImage crc port options (indexRaw crc port options gs)
    ++ (footerOf crc port options gs fbytes).EncodeTo

/-- The contents `fbytes` of the filter block of a finished table with the data blocks
`gs`: what `Finish` returns after the calls for these blocks. -/
def FilterDone (crc : Crc32c) (port : Port) (options : Options) (gs : List (List Entry))
    (fbytes : Option (List Nat)) : Prop :=
  match options.filter_policy with
  | none => fbytes = none
  | some policy => ∃ fb,
    FilterBlockBuilder.run policy FilterBlockBuilder.mk0
      (FilterBlockBuilder.Call.StartBlock 0 :: filterCalls crc port options 0 gs) = some fb ∧
    fbytes = some (fb.Finish policy).2

end TableBuilder

end leveldb

namespace leveldb

/-! ## Further sample collaborators -/

/-- A policy that keeps no filter data and lets every key pass; it has no false
negatives. -/
def permissivePolicy : FilterPolicy where
  Name := [112]
  CreateFilter := fun _ => []
  KeyMayMatch := fun _ _ => true

/-- A table without file, filter and index entries. -/
def emptyTable : Table :=
  { options := sampleOptions 1
    status := Status.OK
    file := ⟨[], fun _ _ => false, []⟩
    cache_id := 0
    filter := none
    metaindex_handle := BlockHandle.mk0
    index_block := [] }

/-- The table `a -> 1, b -> 2, c -> 3`, built with `block_size = 1` and the sample filter
policy as in `sampleBuild` and opened over its file with the linear block reader. -/
def sampleTable : Table :=
  match sampleBuild (sampleFilterOptions 1) sampleEntries with
  | some x =>
    ((Table.Open sampleCrc samplePort linearBlockSeek (sampleFilterOptions 1)
        ⟨x.2.file.contents, fun _ _ => false, []⟩ x.2.file.contents.length).2.1).getD emptyTable
  | none => emptyTable

end leveldb

namespace leveldb

/-- The contract of a comparator as far as the index of a table needs it: `Compare` is a
three-way comparison of a total order, `FindShortestSeparator(start, limit)` with
`start < limit` yields a key in `[start, limit)`, and `FindShortSuccessor(key)` yields a
key not below `key`. -/
structure Comparator.Separating (c : Comparator) : Prop where
  cmp : CmpLawful c.Compare
  separator : ∀ start limit, c.Compare start limit < 0 →
    c.Compare start (c.FindShortestSeparator start limit) ≤ 0 ∧
    c.Compare (c.FindShortestSeparator start limit) limit < 0
  successor : ∀ key, c.Compare key (c.FindShortSuccessor key) ≤ 0

end leveldb

namespace leveldb

/-! ## Further sample collaborators and notions -/

/-- A port whose compression functions return the first `n` bytes of their input: it
serves to choose the size of the compressed form, and nothing can be uncompressed. -/
def truncPort (n : Nat) : Port where
  Snappy_Compress := fun raw => some (raw.take n)
  Snappy_Uncompress := fun _ => none
  Zstd_Compress := fun _ raw => some (raw.take n)
  Zstd_Uncompress := fun _ => none

end leveldb

namespace leveldb
namespace SkipList

variable {K : Type} [Inhabited K]

/-- The level structure of a skip list holding the keys `keys`, with `chains i` the
nodes met on the level-`i` links from the head: every chain ends in `nullptr`, its keys
are strictly increasing, the chain of level `i + 1` is a subsequence of the chain of
level `i`, the chain of level 0 holds exactly the keys `keys`, and the head's links at
the levels from `max_height_` on are null. -/
structure LevelInv (cmp : K → K → Int) (s : SkipList K) (keys : List K)
    (chains : Nat → List Nat) : Prop where
  chain : ∀ i, i < kMaxHeight → Chain s i 0 (chains i)
  increasing : ∀ i, i < kMaxHeight →
    ((chains i).map s.keyOf).Pairwise (fun a b => cmp a b < 0)
  sub : ∀ i, i + 1 < kMaxHeight → (chains (i + 1)).Sublist (chains i)
  keys_eq : ((chains 0).map s.keyOf).Perm keys
  above : ∀ i, s.max_height_ ≤ i → i < kMaxHeight → s.Next 0 i = none

end SkipList
end leveldb

namespace leveldb
namespace TableBuilder

/-- The call is `Finish`. -/
def Op.isFinish : Op → Bool
  | Op.Finish => true
  | _ => false

/-- The call is `ChangeOptions`. -/
def Op.isChangeOptions : Op → Bool
  | Op.ChangeOptions _ => true
  | _ => false

/-- The state of a builder between `Add` and `Flush` calls, whether or not file writes
succeeded: it is not closed, `offset` is at most the number of bytes of the file, a
pending index entry comes with an empty data block, and the filter block builder has
`offset / kFilterBase` filter offsets. -/
structure FInv (r : TableBuilder) : Prop where
  closed_eq : r.closed = false
  offset_le : r.offset ≤ r.file.contents.length
  pending_empty : r.pending_index_entry = true → r.data_block.empty = true
  filter_eq : ∀ policy fb, r.filter_block = some (policy, fb) →
    fb.filter_offsets_.length = r.offset / kFilterBase

end TableBuilder
end leveldb

namespace leveldb

namespace SkipList

variable {K : Type} [Inhabited K]

/-- The condition of the assertion `assert(x == nullptr || !Equal(key, x->key))` of
`Insert`, for the node `x` that `FindGreaterOrEqual(key, prev)` returned. -/
def InsertAssert (cmp : K → K → Int) (s : SkipList K) (key : K) (x : Option Nat) : Bool :=
  match x with
  | none => true
  | some y => !Equal cmp key (s.node y).key

end SkipList

namespace log

/-- The reader `r` reads the file with the bytes `D` and its buffer starts at the file
offset `o`: the buffer holds bytes of `D` from `o` on, the file has been read up to the
end of the buffer, and `end_of_buffer_offset_` is the offset of the end of the buffer as
a 64-bit value. -/
structure Reader.TracksAt (D : List Nat) (r : Reader) (o : Nat) : Prop where
  buffer_eq : r.buffer_ = (D.drop o).take r.buffer_.length
  rest_eq : r.file_.data = D.drop (o + r.buffer_.length)
  eob_eq : r.end_of_buffer_offset_ = (o + r.buffer_.length) % 2 ^ 64

/-- In the file with the bytes `D`, the seven bytes at the offset `s` are a record header
with the type byte `b` whose length field is the length of `F`, and the bytes `F` follow
it inside the file. -/
structure PhysAt (D : List Nat) (s b : Nat) (F : List Nat) : Prop where
  inside : s + kHeaderSize + F.length ≤ D.length
  length_eq : (D.getD (s + 4) 0 % 256) ||| ((D.getD (s + 5) 0 % 256) <<< 8) = F.length
  type_eq : D.getD (s + 6) 0 = b
  payload_eq : (D.drop (s + kHeaderSize)).take F.length = F

/-- What one call of `ReadPhysicalRecord` on the file with the bytes `D` does: it takes
the reader from `r` to `r1` and returns the type `t` and the fragment `frag`. It returns
`kEof`, or `kBadRecord` with at least seven bytes consumed, or the physical record found
at an offset `s` not below `initial_offset`, with at least seven bytes consumed. -/
structure Reader.PhysStep (D : List Nat) (r r1 : Reader) (t : Nat) (frag : List Nat) :
    Prop where
  tracks : ∃ o1, Reader.TracksAt D r1 o1
  init_eq : r1.initial_offset_ = r.initial_offset_
  last_eq : r1.last_record_offset_ = r.last_record_offset_
  resync_eq : r1.resyncing_ = r.resyncing_
  measure_le : r1.buffer_.length + r1.file_.data.length
    ≤ r.buffer_.length + r.file_.data.length
  kind : t = kEof ∨
    (t = kBadRecord ∧
      r1.buffer_.length + r1.file_.data.length + 7
        ≤ r.buffer_.length + r.file_.data.length) ∨
    (∃ s b, PhysAt D s b frag ∧ t = charToUnsigned b ∧
      r1.buffer_.length + r1.file_.data.length + 7
        ≤ r.buffer_.length + r.file_.data.length ∧
      sub64 (sub64 (sub64 r1.end_of_buffer_offset_ r1.buffer_.length) kHeaderSize)
        frag.length = s % 2 ^ 64 ∧
      ¬ s % 2 ^ 64 < r.initial_offset_)

/-- The state of a reader of the file with the bytes `D` between `ReadRecord` calls: as
long as `last_record_offset_ < initial_offset_` (the next call runs
`SkipToInitialBlock`) nothing has been read, and afterwards the reader tracks its
position in the file. -/
structure Reader.Reads (D : List Nat) (r : Reader) : Prop where
  fresh : r.last_record_offset_ < r.initial_offset_ → r.buffer_ = [] ∧ r.file_.data = D
  tracked : ¬ r.last_record_offset_ < r.initial_offset_ → ∃ o, Reader.TracksAt D r o

/-- The local variables of the loop of `ReadRecord` inside a fragmented record: `scratch`
starts with the fragment of the `FIRST` record found at the offset
`prospective_record_offset`. -/
def FragState (D : List Nat) (initial_offset : Nat) (in_fragmented_record : Bool)
    (scratch : List Nat) (prospective_record_offset : Nat) : Prop :=
  in_fragmented_record = true →
    ∃ F rest, PhysAt D prospective_record_offset kFirstType F ∧ scratch = F ++ rest ∧
      ¬ prospective_record_offset < initial_offset

/-- What a `ReadRecord` call on a reader of the file with the bytes `D` leaves, for the
values `initial_offset` and `last` of `initial_offset_` and `last_record_offset_` before
the call: the reader tracks its position; when the call returned true,
`last_record_offset_` is an offset `s` not below `initial_offset` at which a physical
record of type `FULL` holding the record returned, or of type `FIRST` holding the
beginning of the record returned, stands in the file; when it returned false,
`last_record_offset_` is unchanged. -/
structure Reader.Outcome (D : List Nat) (initial_offset last : Nat) (res : ReadResult) :
    Prop where
  tracks : ∃ o, Reader.TracksAt D res.reader o
  init_eq : res.reader.initial_offset_ = initial_offset
  found : res.ok = true →
    ∃ s b F, res.reader.last_record_offset_ = s ∧ PhysAt D s b F ∧ ¬ s < initial_offset ∧
      ((b = kFullType ∧ res.record = F) ∨ (b = kFirstType ∧ ∃ rest, res.record = F ++ rest))
  kept : res.ok = false → res.reader.last_record_offset_ = last

end log

end leveldb

namespace leveldb
namespace log

/-! ## Theorems about the log -/



theorem sub64_add_cancel (x y : Nat) : sub64 ((x + y) % 2 ^ 64) y = x % 2 ^ 64 := by
  unfold sub64
  omega

theorem or_shift8 (a b : Nat) (ha : a < 256) : a ||| (b <<< 8) = a + b * 256 := by
  rw [Nat.shiftLeft_eq, Nat.lor_comm, Nat.mul_comm b]
  have h := Nat.mul_add_lt_is_or (i := 8) (b := a) (by simpa using ha) b
  rw [← h]
  omega

theorem DecodeFixed32_EncodeFixed32 (c : Nat) (rest : List Nat) :
    DecodeFixed32 (EncodeFixed32 c ++ rest) = c % 2 ^ 32 := by
  simp [DecodeFixed32, EncodeFixed32, List.getD]
  omega

theorem recordHeader_length (crc : Crc32c) (t : Nat) (frag : List Nat) :
    (recordHeader crc t frag).length = 7 := by
  simp [recordHeader, EncodeFixed32]

theorem charToUnsigned_of_lt (t : Nat) (h : t < 128) : charToUnsigned t = t := by
  unfold charToUnsigned
  rw [if_pos h]

theorem charToUnsigned_eq_zero (t : Nat) : charToUnsigned t = 0 ↔ t = 0 := by
  unfold charToUnsigned
  split <;> omega

theorem rpr_parse (crc : Crc32c) (hc : crc.Lawful) (fuel : Nat) (r : Reader) (result : List Nat)
    (t : Nat) (frag rest : List Nat) (ht1 : 1 ≤ t) (ht4 : t ≤ 4) (hlen : frag.length < 65536)
    (hbuf : r.buffer_ = recordHeader crc t frag ++ (frag ++ rest)) :
    Reader.ReadPhysicalRecordLoop crc (fuel + 1) r result =
      some (if sub64 (sub64 (sub64 r.end_of_buffer_offset_ rest.length) kHeaderSize) frag.length
                < r.initial_offset_
            then (kBadRecord, [], { r with buffer_ := rest })
            else (t, frag, { r with buffer_ := rest })) := by
  have h7 : (recordHeader crc t frag).length = 7 := recordHeader_length crc t frag
  have hblen : r.buffer_.length = 7 + frag.length + rest.length := by
    rw [hbuf]; simp [h7]; omega
  have hg4 : r.buffer_.getD 4 0 = frag.length % 256 := by
    rw [hbuf]; simp [recordHeader, EncodeFixed32, List.getD]
  have hg5 : r.buffer_.getD 5 0 = frag.length / 256 % 256 := by
    rw [hbuf]; simp [recordHeader, EncodeFixed32, List.getD]
  have hg6 : charToUnsigned (r.buffer_.getD 6 0) = t := by
    rw [hbuf]; simp [recordHeader, EncodeFixed32, List.getD]
    exact charToUnsigned_of_lt t (by omega)
  have hlenEq : (frag.length % 256 % 256) ||| ((frag.length / 256 % 256 % 256) <<< 8)
      = frag.length := by
    rw [or_shift8 _ _ (by omega)]; omega
  have hdrop6 : (r.buffer_.drop 6).take (1 + frag.length) = t :: frag := by
    rw [hbuf]
    simp [recordHeader, EncodeFixed32, Nat.add_comm 1]
  have hdec : DecodeFixed32 r.buffer_ = crc.Mask (crc.Value (t :: frag)) := by
    rw [hbuf, recordHeader, List.append_assoc, DecodeFixed32_EncodeFixed32]
    rw [hc.extend_value]
    exact Nat.mod_eq_of_lt (hc.mask_lt _)
  have hcrc : crc.Value (t :: frag) = crc.Unmask (DecodeFixed32 r.buffer_) := by
    rw [hdec, hc.unmask_mask _ (hc.value_lt _)]
  have hdrop : r.buffer_.drop (kHeaderSize + frag.length) = rest := by
    rw [hbuf]
    simp [kHeaderSize, List.drop_append_eq_append_drop, h7]
  have htake : (r.buffer_.drop kHeaderSize).take frag.length = frag := by
    rw [hbuf]
    simp [kHeaderSize, List.drop_append_eq_append_drop, h7]
  have hnlt : ¬ r.buffer_.length < kHeaderSize := by rw [hblen, kHeaderSize]; omega
  have hngt : ¬ kHeaderSize + frag.length > r.buffer_.length := by rw [hblen, kHeaderSize]; omega
  have htz : (t == kZeroType) = false := by
    simp [kZeroType]; omega
  unfold Reader.ReadPhysicalRecordLoop
  simp only [hg4, hg5, hg6, hlenEq, hdrop6, hdrop, htake, ← hcrc, if_neg hnlt, if_neg hngt, htz]
  simp
  split <;> rfl

theorem roundUp_of_pad (o p : Nat) (hp : p < 7) (h0 : (o + p) % kBlockSize = 0) :
    roundUp o = o + p := by
  simp only [roundUp, kBlockSize] at *
  omega

theorem roundUp_next (o n : Nat) (h0 : o % kBlockSize = 0) (hn : 0 < n) (hn2 : n ≤ kBlockSize) :
    roundUp (o + n) = o + kBlockSize := by
  simp only [roundUp, kBlockSize] at *
  omega

theorem roundUp_within (o n : Nat) (hn : o % kBlockSize + n ≤ kBlockSize)
    (h0 : o % kBlockSize ≠ 0) :
    roundUp (o + n) = roundUp o := by
  simp only [roundUp, kBlockSize] at *
  omega

theorem roundUp_sub (o : Nat) (h0 : o % kBlockSize ≠ 0) :
    roundUp o = o + (kBlockSize - o % kBlockSize) := by
  simp only [roundUp, kBlockSize] at *
  omega

theorem roundUp_self (o : Nat) (h0 : o % kBlockSize = 0) : roundUp o = o := by
  simp only [roundUp, kBlockSize] at *
  omega

theorem sub64_chain (x a b c : Nat) :
    sub64 (sub64 (sub64 ((x + (a + (b + c))) % 2 ^ 64) c) a) b = x % 2 ^ 64 := by
  unfold sub64
  omega

theorem Read_of_healthy (f : SequentialFile) (n : Nat) (h : f.healthy = true) :
    f.Read n = (Status.OK, f.data.take n, { f with data := f.data.drop n }) := by
  simp [SequentialFile.Read, h]

/-- Reading one physical record that lies at the head of the unread bytes, whatever
follows it. -/
theorem rpr_step_raw (crc : Crc32c) (hc : crc.Lawful) (r : Reader) (result : List Nat)
    (o p t : Nat) (frag X : List Nat) (hal : Aligned r o)
    (hU : r.buffer_ ++ r.file_.data
      = List.replicate p 0 ++ (recordHeader crc t frag ++ (frag ++ X)))
    (hp : p = 0 ∨ (p < 7 ∧ (o + p) % kBlockSize = 0)) (ht1 : 1 ≤ t) (ht4 : t ≤ 4)
    (hfit : (o + p) % kBlockSize + 7 + frag.length ≤ kBlockSize) :
    ∃ r1, r.ReadPhysicalRecord crc result =
        some (if (o + p) % 2 ^ 64 < r.initial_offset_ then (kBadRecord, [], r1)
              else (t, frag, r1)) ∧
      Aligned r1 (o + p + 7 + frag.length) ∧
      r1.buffer_ ++ r1.file_.data = X ∧
      SameControl r r1 := by
  have h7 : (recordHeader crc t frag).length = 7 := recordHeader_length crc t frag
  have hflen : frag.length < 65536 := by simp only [kBlockSize] at hfit; omega
  have hUlen : r.buffer_.length + r.file_.data.length = p + (7 + (frag.length + X.length)) := by
    have := congrArg List.length hU
    simpa [h7] using this
  by_cases hb : r.buffer_.length < kHeaderSize
  · -- the buffer holds only padding: refill from the file
    have hne : r.eof_ = false := by
      cases he : r.eof_ with
      | false => rfl
      | true =>
        have := (hal.at_eof he).1
        rw [this] at hUlen
        simp only [kHeaderSize, List.length_nil] at hb hUlen
        omega
    have hblen : r.buffer_.length = p := by
      have h1 := hal.not_eof hne
      rcases hp with hp0 | ⟨hp7, hp0⟩
      · subst hp0
        by_cases hz : o % kBlockSize = 0
        · rw [roundUp_self o hz] at h1; omega
        · rw [roundUp_sub o hz] at h1
          simp only [kHeaderSize, kBlockSize] at *
          omega
      · rw [roundUp_of_pad o p hp7 hp0] at h1; omega
    have hsplit := List.append_inj hU (by simpa using hblen)
    have hfile : r.file_.data = recordHeader crc t frag ++ (frag ++ X) := hsplit.2
    have hzero : (o + p) % kBlockSize = 0 := by
      rcases hp with hp0 | ⟨_, hp0⟩
      · subst hp0
        by_contra hz
        have h1 := hal.not_eof hne
        rw [roundUp_sub o hz] at h1
        simp only [kHeaderSize, kBlockSize] at *
        omega
      · exact hp0
    have hfitB : 7 + frag.length ≤ kBlockSize := by omega
    have htakeB : r.file_.data.take kBlockSize
        = recordHeader crc t frag ++ (frag ++ X.take (kBlockSize - 7 - frag.length)) := by
      rw [hfile, List.take_append_eq_append_take, List.take_append_eq_append_take, h7]
      rw [List.take_of_length_le (by omega), List.take_of_length_le (by omega)]
    have hdropB : r.file_.data.drop kBlockSize = X.drop (kBlockSize - 7 - frag.length) := by
      rw [hfile, List.drop_append_eq_append_drop, List.drop_append_eq_append_drop, h7]
      rw [List.drop_of_length_le (by omega), List.drop_of_length_le (by omega)]
      simp only [List.nil_append]
    let rest := X.take (kBlockSize - 7 - frag.length)
    let r2 : Reader :=
      { r with file_ := { r.file_ with data := r.file_.data.drop kBlockSize },
               buffer_ := r.file_.data.take kBlockSize,
               end_of_buffer_offset_ :=
                 add64 r.end_of_buffer_offset_ (r.file_.data.take kBlockSize).length,
               eof_ := decide ((r.file_.data.take kBlockSize).length < kBlockSize) }
    have hloop : r.ReadPhysicalRecord crc result
        = Reader.ReadPhysicalRecordLoop crc 1 r2 result := by
      unfold Reader.ReadPhysicalRecord
      rw [Reader.ReadPhysicalRecordLoop]
      simp only [if_pos hb, hne, Read_of_healthy _ _ hal.healthy, Status.ok]
      simp only [Bool.not_false, if_true, Bool.not_true, Bool.false_eq_true, if_false]
      by_cases hl : (r.file_.data.take kBlockSize).length < kBlockSize
      · simp only [r2, hl, decide_True, if_true]
      · simp only [r2, hl, decide_False, if_false]
    have hparse := rpr_parse crc hc 0 r2 result t frag rest ht1 ht4 hflen htakeB
    have htl : (r.file_.data.take kBlockSize).length = 7 + (frag.length + rest.length) := by
      rw [htakeB]; simp [h7, rest]
    have hrl : rest.length = min (kBlockSize - 7 - frag.length) X.length := by
      simp [rest]
    have heob2 : r2.end_of_buffer_offset_ = (o + p + (7 + (frag.length + rest.length))) % 2 ^ 64 := by
      show add64 r.end_of_buffer_offset_ (r.file_.data.take kBlockSize).length = _
      rw [htl, hal.eob_eq, hblen, add64]
      omega
    refine ⟨{ r2 with buffer_ := rest }, ?_, ?_, ?_, ?_⟩
    · rw [hloop, hparse, heob2, kHeaderSize, sub64_chain]
    · refine AlignedAt.mk hal.healthy ?_ ?_ ?_
      · show r2.end_of_buffer_offset_ = (o + p + 7 + frag.length + rest.length) % 2 ^ 64
        rw [heob2]
        congr 1
        omega
      · intro he
        have he2 : (r.file_.data.take kBlockSize).length < kBlockSize := by
          simpa [r2] using he
        have hshort : r.file_.data.length < kBlockSize := by
          rw [List.length_take] at he2
          omega
        refine ⟨?_, ?_⟩
        · show r.file_.data.drop kBlockSize = []
          exact List.drop_of_length_le (by omega)
        · show o + p + 7 + frag.length + rest.length ≤ roundUp (o + p + 7 + frag.length)
          have := roundUp_next (o + p) (7 + frag.length) hzero (by omega) hfitB
          rw [show o + p + 7 + frag.length = o + p + (7 + frag.length) by omega, this]
          omega
      · intro he
        have he2 : ¬ (r.file_.data.take kBlockSize).length < kBlockSize := by
          simpa [r2] using he
        show o + p + 7 + frag.length + rest.length = roundUp (o + p + 7 + frag.length)
        have := roundUp_next (o + p) (7 + frag.length) hzero (by omega) hfitB
        rw [show o + p + 7 + frag.length = o + p + (7 + frag.length) by omega, this]
        omega
    · show rest ++ r.file_.data.drop kBlockSize = X
      rw [hdropB]
      simp only [rest, List.take_append_drop]
    · exact ⟨rfl, rfl, rfl, rfl, rfl⟩
  · -- the buffer already holds the header
    have hp0 : p = 0 := by
      rcases hp with hp0 | ⟨hp7, hp0⟩
      · exact hp0
      · exfalso
        have h1 := roundUp_of_pad o p hp7 hp0
        cases he : r.eof_ with
        | false =>
          have := hal.not_eof he
          simp only [kHeaderSize] at hb
          omega
        | true =>
          have := (hal.at_eof he).2
          simp only [kHeaderSize] at hb
          omega
    subst hp0
    have hbl : 7 + frag.length ≤ r.buffer_.length := by
      cases he : r.eof_ with
      | false =>
        have h1 := hal.not_eof he
        have hz : o % kBlockSize ≠ 0 := by
          intro hz
          rw [roundUp_self o hz] at h1
          simp only [kHeaderSize] at hb
          omega
        rw [roundUp_sub o hz] at h1
        simp only [Nat.add_zero] at hfit
        omega
      | true =>
        have := (hal.at_eof he).1
        rw [this] at hUlen
        simp only [List.length_nil] at hUlen
        omega
    simp only [List.replicate_zero, List.nil_append, Nat.add_zero] at hU hfit ⊢
    let rest := r.buffer_.drop (7 + frag.length)
    have hU2 : r.buffer_.take (7 + frag.length) ++ (rest ++ r.file_.data)
        = (recordHeader crc t frag ++ frag) ++ X := by
      rw [← List.append_assoc, List.take_append_drop, hU, List.append_assoc]
    have hinj := List.append_inj hU2 (by rw [List.length_take]; simp [h7]; omega)
    have hbuf : r.buffer_ = recordHeader crc t frag ++ (frag ++ rest) := by
      rw [← List.append_assoc, ← hinj.1]
      exact (List.take_append_drop _ _).symm
    have hX : X = rest ++ r.file_.data := hinj.2.symm
    have hblen : r.buffer_.length = 7 + (frag.length + rest.length) := by
      rw [hbuf]; simp [h7]
    have hparse := rpr_parse crc hc 1 r result t frag rest ht1 ht4 hflen hbuf
    have hz : o % kBlockSize ≠ 0 := by
      intro hz
      cases he : r.eof_ with
      | false =>
        have h1 := hal.not_eof he
        rw [roundUp_self o hz] at h1
        omega
      | true =>
        have h1 := (hal.at_eof he).2
        rw [roundUp_self o hz] at h1
        omega
    have hru : roundUp (o + 7 + frag.length) = roundUp o := by
      rw [show o + 7 + frag.length = o + (7 + frag.length) by omega]
      exact roundUp_within o _ (by omega) hz
    refine ⟨{ r with buffer_ := rest }, ?_, ?_, ?_, ?_⟩
    · unfold Reader.ReadPhysicalRecord
      rw [hparse, hal.eob_eq, hblen, kHeaderSize, sub64_chain]
    · refine AlignedAt.mk hal.healthy ?_ ?_ ?_
      · show r.end_of_buffer_offset_ = (o + 7 + frag.length + rest.length) % 2 ^ 64
        rw [hal.eob_eq, hblen]
        congr 1
        omega
      · intro he
        have h1 := hal.at_eof he
        refine ⟨h1.1, ?_⟩
        show o + 7 + frag.length + rest.length ≤ roundUp (o + 7 + frag.length)
        rw [hru]
        omega
      · intro he
        have h1 := hal.not_eof he
        show o + 7 + frag.length + rest.length = roundUp (o + 7 + frag.length)
        rw [hru]
        omega
    · show rest ++ r.file_.data = X
      exact hX.symm
    · exact ⟨rfl, rfl, rfl, rfl, rfl⟩

theorem rpr_step (crc : Crc32c) (hc : crc.Lawful) (r : Reader) (result : List Nat) (o : Nat)
    (it : PhysRec) (items : List PhysRec) (U : List Nat) (hal : Aligned r o)
    (hU : r.buffer_ ++ r.file_.data = U)
    (hlay : Layout crc o U (it :: items)) :
    ∃ r1, r.ReadPhysicalRecord crc result =
        some (if it.offset % 2 ^ 64 < r.initial_offset_ then (kBadRecord, [], r1)
              else (it.type, it.payload, r1)) ∧
      Aligned r1 (it.offset + 7 + it.payload.length) ∧
      Layout crc (it.offset + 7 + it.payload.length) (r1.buffer_ ++ r1.file_.data) items ∧
      SameControl r r1 := by
  cases hlay with
  | cons _ p t frag X _ hp ht1 ht4 hfit hrest =>
    obtain ⟨r1, h1, h2, h3, h4⟩ :=
      rpr_step_raw crc hc r result o p t frag X hal hU hp ht1 ht4 hfit
    exact ⟨r1, h1, h2, by rw [h3]; exact hrest, h4⟩

theorem rpr_eof (crc : Crc32c) (r : Reader) (result : List Nat) (o : Nat)
    (hal : Aligned r o) (hU : r.buffer_ ++ r.file_.data = []) :
    ∃ r1, r.ReadPhysicalRecord crc result = some (kEof, result, r1) ∧
      Aligned r1 o ∧ r1.buffer_ ++ r1.file_.data = [] ∧ SameControl r r1 := by
  have hb : r.buffer_ = [] := (List.append_eq_nil.mp hU).1
  have hf : r.file_.data = [] := (List.append_eq_nil.mp hU).2
  have hlt : r.buffer_.length < kHeaderSize := by rw [hb]; simp [kHeaderSize]
  cases he : r.eof_ with
  | true =>
    refine ⟨{ r with buffer_ := [] }, ?_, ?_, ?_, ?_⟩
    · unfold Reader.ReadPhysicalRecord
      rw [Reader.ReadPhysicalRecordLoop]
      simp only [if_pos hlt, he, Bool.not_true, Bool.false_eq_true, if_false]
    · have h1 := hal.at_eof he
      rw [hb] at h1
      refine AlignedAt.mk hal.healthy ?_ ?_ ?_
      · show r.end_of_buffer_offset_ = _
        rw [hal.eob_eq, hb]
      · intro _
        exact h1
      · intro h2
        rw [he] at h2
        exact absurd h2 (by simp)
    · show [] ++ r.file_.data = []
      rw [hf]; rfl
    · exact ⟨rfl, rfl, rfl, rfl, rfl⟩
  | false =>
    have h1 := hal.not_eof he
    rw [hb] at h1
    refine ⟨{ r with file_ := { r.file_ with data := [] }, buffer_ := [], eof_ := true,
                     end_of_buffer_offset_ := add64 r.end_of_buffer_offset_ 0 }, ?_, ?_, ?_, ?_⟩
    · unfold Reader.ReadPhysicalRecord
      rw [Reader.ReadPhysicalRecordLoop]
      simp only [if_pos hlt, he, Read_of_healthy _ _ hal.healthy, Status.ok, hf]
      simp only [Bool.not_false, if_true, Bool.not_true, Bool.false_eq_true, if_false,
        List.take_nil, List.drop_nil, List.length_nil]
      rw [if_pos (by simp [kBlockSize])]
      rw [Reader.ReadPhysicalRecordLoop]
      simp [kHeaderSize]
    · refine AlignedAt.mk hal.healthy ?_ ?_ ?_
      · show add64 r.end_of_buffer_offset_ 0 = _
        rw [hal.eob_eq, hb, add64]
        simp
      · intro _
        exact ⟨rfl, by simpa using h1.le⟩
      · intro h2
        exact absurd h2 (by simp)
    · rfl
    · exact ⟨rfl, rfl, rfl, rfl, rfl⟩

theorem sub64_chain2 (x b c : Nat) :
    sub64 (sub64 (sub64 ((x + 7 + b + c) % 2 ^ 64) c) kHeaderSize) b = x % 2 ^ 64 := by
  unfold sub64 kHeaderSize
  omega

theorem rrl_full (crc : Crc32c) (fuel : Nat) (r r1 : Reader) (scratch fragment frag : List Nat)
    (pro : Nat) (hstep : r.ReadPhysicalRecord crc fragment = some (kFullType, frag, r1)) :
    Reader.ReadRecordLoop crc (fuel + 1) r scratch false pro fragment =
      some { ok := true, record := frag, scratch := [],
             reader :=
               { r1 with
                 resyncing_ := false
                 last_record_offset_ :=
                   sub64 (sub64 (sub64 r1.end_of_buffer_offset_ r1.buffer_.length) kHeaderSize)
                     frag.length } } := by
  rw [Reader.ReadRecordLoop, hstep]
  simp [kFullType, kMiddleType, kLastType]

theorem rrl_first (crc : Crc32c) (fuel : Nat) (r r1 : Reader) (scratch fragment frag : List Nat)
    (pro : Nat) (hstep : r.ReadPhysicalRecord crc fragment = some (kFirstType, frag, r1)) :
    Reader.ReadRecordLoop crc (fuel + 1) r scratch false pro fragment =
      Reader.ReadRecordLoop crc fuel { r1 with resyncing_ := false } frag true
        (sub64 (sub64 (sub64 r1.end_of_buffer_offset_ r1.buffer_.length) kHeaderSize) frag.length)
        frag := by
  rw [Reader.ReadRecordLoop, hstep]
  simp [kFirstType, kFullType, kMiddleType, kLastType]

theorem rrl_middle (crc : Crc32c) (fuel : Nat) (r r1 : Reader) (scratch fragment frag : List Nat)
    (pro : Nat) (hstep : r.ReadPhysicalRecord crc fragment = some (kMiddleType, frag, r1))
    (hrs : r1.resyncing_ = false) :
    Reader.ReadRecordLoop crc (fuel + 1) r scratch true pro fragment =
      Reader.ReadRecordLoop crc fuel { r1 with resyncing_ := false } (scratch ++ frag) true pro
        frag := by
  rw [Reader.ReadRecordLoop, hstep]
  simp only [hrs, Bool.false_and, Bool.false_eq_true, if_false]
  simp only [kFirstType, kFullType, kMiddleType, beq_self_eq_true, if_true]
  simp

theorem rrl_last (crc : Crc32c) (fuel : Nat) (r r1 : Reader) (scratch fragment frag : List Nat)
    (pro : Nat) (hstep : r.ReadPhysicalRecord crc fragment = some (kLastType, frag, r1))
    (hrs : r1.resyncing_ = false) :
    Reader.ReadRecordLoop crc (fuel + 1) r scratch true pro fragment =
      some { ok := true, record := scratch ++ frag, scratch := scratch ++ frag,
             reader := { r1 with resyncing_ := false, last_record_offset_ := pro } } := by
  rw [Reader.ReadRecordLoop, hstep]
  simp only [hrs, Bool.false_and, Bool.false_eq_true, if_false]
  simp only [kFirstType, kFullType, kMiddleType, kLastType, beq_self_eq_true, if_true]
  simp

theorem rrl_group (crc : Crc32c) (hc : crc.Lawful) (begin : Bool) (g : List PhysRec)
    (P : List Nat) (hg : Frag begin g P) :
    ∀ (fuel : Nat) (r : Reader) (o : Nat) (rest : List PhysRec) (scratch : List Nat) (pro : Nat)
      (fragment : List Nat),
      Aligned r o → Layout crc o (r.buffer_ ++ r.file_.data) (g ++ rest) →
      (begin = false → r.resyncing_ = false) →
      (∀ it ∈ g, ¬ it.offset % 2 ^ 64 < r.initial_offset_) →
      g.length ≤ fuel →
      ∃ res o1, Reader.ReadRecordLoop crc fuel r scratch (!begin) pro fragment = some res ∧
        res.ok = true ∧
        res.record = (if begin then P else scratch ++ P) ∧
        Aligned res.reader o1 ∧
        Layout crc o1 (res.reader.buffer_ ++ res.reader.file_.data) rest ∧
        res.reader.reporter_ = r.reporter_ ∧
        res.reader.checksum_ = r.checksum_ ∧
        res.reader.initial_offset_ = r.initial_offset_ ∧
        res.reader.resyncing_ = false ∧
        res.reader.last_record_offset_
          = (if begin then (g.head?.map (fun it => it.offset % 2 ^ 64)).getD 0 else pro) := by
  induction hg with
  | full o0 P =>
    intro fuel r o rest scratch pro fragment hal hlay hres hoff hfuel
    obtain ⟨r1, hstep, hal1, hlay1, hsc⟩ :=
      rpr_step crc hc r fragment o _ _ _ hal rfl hlay
    rw [if_neg (hoff _ (List.mem_singleton.mpr rfl))] at hstep
    obtain ⟨fuel1, rfl⟩ : ∃ k, fuel = k + 1 := ⟨fuel - 1, by simp at hfuel; omega⟩
    obtain ⟨hrep, hck, hlro, hio, hrs⟩ := hsc
    refine ⟨_, _, rrl_full crc fuel1 r r1 scratch fragment P pro hstep,
      rfl, rfl, hal1, hlay1, hrep, hck, hio, rfl, ?_⟩
    show sub64 (sub64 (sub64 r1.end_of_buffer_offset_ r1.buffer_.length) kHeaderSize) P.length
      = o0 % 2 ^ 64
    rw [hal1.eob_eq]
    exact sub64_chain2 _ _ _
  | last o0 P =>
    intro fuel r o rest scratch pro fragment hal hlay hres hoff hfuel
    obtain ⟨r1, hstep, hal1, hlay1, hsc⟩ :=
      rpr_step crc hc r fragment o _ _ _ hal rfl hlay
    rw [if_neg (hoff _ (List.mem_singleton.mpr rfl))] at hstep
    obtain ⟨fuel1, rfl⟩ : ∃ k, fuel = k + 1 := ⟨fuel - 1, by simp at hfuel; omega⟩
    obtain ⟨hrep, hck, hlro, hio, hrs⟩ := hsc
    exact ⟨_, _, rrl_last crc fuel1 r r1 scratch fragment P pro hstep (hrs.trans (hres rfl)),
      rfl, rfl, hal1, hlay1, hrep, hck, hio, rfl, rfl⟩
  | first o0 f g1 P hg1 ih =>
    intro fuel r o rest scratch pro fragment hal hlay hres hoff hfuel
    obtain ⟨r1, hstep, hal1, hlay1, hsc⟩ :=
      rpr_step crc hc r fragment o _ _ _ hal rfl hlay
    rw [if_neg (hoff _ (List.mem_cons_self _ _))] at hstep
    obtain ⟨fuel1, rfl⟩ : ∃ k, fuel = k + 1 := ⟨fuel - 1, by simp at hfuel; omega⟩
    obtain ⟨hrep, hck, hlro, hio, hrs⟩ := hsc
    have hoff1 : ∀ it ∈ g1, ¬ it.offset % 2 ^ 64 < r1.initial_offset_ := by
      intro it hit
      rw [hio]
      exact hoff it (List.mem_cons_of_mem _ hit)
    obtain ⟨res, o1, hloop, hok, hrec, hal2, hlay2, hrep2, hck2, hio2, hrs2, hlro2⟩ :=
      ih fuel1 { r1 with resyncing_ := false } _ rest f
        (sub64 (sub64 (sub64 r1.end_of_buffer_offset_ r1.buffer_.length) kHeaderSize) f.length)
        f hal1 hlay1 (fun _ => rfl) hoff1 (by simp at hfuel; omega)
    refine ⟨res, o1, ?_, hok, ?_, hal2, hlay2, hrep2.trans hrep, hck2.trans hck,
      hio2.trans hio, hrs2, ?_⟩
    · rw [← hloop]
      exact rrl_first crc fuel1 r r1 scratch fragment f pro hstep
    · rw [hrec]; rfl
    · rw [hlro2]
      show sub64 (sub64 (sub64 r1.end_of_buffer_offset_ r1.buffer_.length) kHeaderSize) f.length
        = o0 % 2 ^ 64
      rw [hal1.eob_eq]
      exact sub64_chain2 _ _ _
  | middle o0 f g1 P hg1 ih =>
    intro fuel r o rest scratch pro fragment hal hlay hres hoff hfuel
    obtain ⟨r1, hstep, hal1, hlay1, hsc⟩ :=
      rpr_step crc hc r fragment o _ _ _ hal rfl hlay
    rw [if_neg (hoff _ (List.mem_cons_self _ _))] at hstep
    obtain ⟨fuel1, rfl⟩ : ∃ k, fuel = k + 1 := ⟨fuel - 1, by simp at hfuel; omega⟩
    obtain ⟨hrep, hck, hlro, hio, hrs⟩ := hsc
    have hoff1 : ∀ it ∈ g1, ¬ it.offset % 2 ^ 64 < r1.initial_offset_ := by
      intro it hit
      rw [hio]
      exact hoff it (List.mem_cons_of_mem _ hit)
    obtain ⟨res, o1, hloop, hok, hrec, hal2, hlay2, hrep2, hck2, hio2, hrs2, hlro2⟩ :=
      ih fuel1 { r1 with resyncing_ := false } _ rest (scratch ++ f) pro
        f hal1 hlay1 (fun _ => rfl) hoff1 (by simp at hfuel; omega)
    refine ⟨res, o1, ?_, hok, ?_, hal2, hlay2, hrep2.trans hrep, hck2.trans hck,
      hio2.trans hio, hrs2, ?_⟩
    · rw [← hloop]
      exact rrl_middle crc fuel1 r r1 scratch fragment f pro hstep (hrs.trans (hres rfl))
    · rw [hrec]; simp
    · rw [hlro2]; rfl

/-! ### The writer produces a well-formed layout -/

theorem InitTypeCrc_getD (crc : Crc32c) (t : Nat) (ht : t ≤ 4) :
    (InitTypeCrc crc).getD t 0 = crc.Value [t] := by
  have h : t = 0 ∨ t = 1 ∨ t = 2 ∨ t = 3 ∨ t = 4 := by omega
  rcases h with h | h | h | h | h <;> subst h <;> rfl

theorem Append_of_healthy (f : WritableFile) (d : List Nat) (h : f.healthy = true) :
    f.Append d = (Status.OK, { f with contents := f.contents ++ d }) := by
  simp [WritableFile.Append, h]

theorem Flush_of_healthy (f : WritableFile) (h : f.healthy = true) :
    f.Flush = (Status.OK, f) := by
  simp [WritableFile.Flush, h]

theorem emit_ok (crc : Crc32c) (w : Writer) (t : Nat) (frag : List Nat)
    (hh : w.dest_.healthy = true) (htc : w.type_crc_ = InitTypeCrc crc) (ht : t ≤ 4) :
    w.EmitPhysicalRecord crc t frag =
      (Status.OK,
        { w with
          dest_ := { w.dest_ with contents := w.dest_.contents ++ (recordHeader crc t frag ++ frag) }
          block_offset_ := w.block_offset_ + kHeaderSize + frag.length }) := by
  unfold Writer.EmitPhysicalRecord
  simp only [htc, InitTypeCrc_getD crc t ht, Append_of_healthy _ _ hh, Status.ok, if_true]
  rw [Append_of_healthy _ _ (by exact hh)]
  simp only [Status.ok, if_true]
  rw [Flush_of_healthy _ (by exact hh)]
  simp [recordHeader]


theorem recType_le (b e : Bool) : recType b e ≤ 4 := by
  cases b <;> cases e <;> simp [recType, kFullType, kFirstType, kLastType, kMiddleType]

theorem recType_ge (b e : Bool) : 1 ≤ recType b e := by
  cases b <;> cases e <;> simp [recType, kFullType, kFirstType, kLastType, kMiddleType]

theorem take_replicate_six (n : Nat) (h : n < 7) :
    (List.replicate 6 0).take n = List.replicate n 0 := by
  have : n = 0 ∨ n = 1 ∨ n = 2 ∨ n = 3 ∨ n = 4 ∨ n = 5 ∨ n = 6 := by omega
  rcases this with h | h | h | h | h | h | h <;> subst h <;> rfl

theorem addRecordLoop_unfold (crc : Crc32c) (fuel : Nat) (w : Writer) (left : List Nat)
    (begin : Bool) (hw : WriterInv crc w) :
    Writer.AddRecordLoop crc (fuel + 1) w left begin =
      (let p := if kBlockSize - w.block_offset_ < kHeaderSize then kBlockSize - w.block_offset_ else 0
       let bo1 := if kBlockSize - w.block_offset_ < kHeaderSize then 0 else w.block_offset_
       let fl := if left.length < kBlockSize - bo1 - kHeaderSize then left.length
                 else kBlockSize - bo1 - kHeaderSize
       let t := recType begin (left.length == fl)
       let w2 : Writer :=
         { dest_ := { contents := w.dest_.contents ++
                        (List.replicate p 0 ++ (recordHeader crc t (left.take fl) ++ left.take fl)),
                      healthy := w.dest_.healthy },
           block_offset_ := bo1 + kHeaderSize + (left.take fl).length,
           type_crc_ := w.type_crc_ }
       if (left.drop fl).length > 0 then Writer.AddRecordLoop crc fuel w2 (left.drop fl) false
       else some (Status.OK, w2)) := by
  rw [Writer.AddRecordLoop]
  by_cases h7 : kBlockSize - w.block_offset_ < kHeaderSize
  · simp only [if_pos h7]
    by_cases h0 : kBlockSize - w.block_offset_ > 0
    · simp only [if_pos h0, Append_of_healthy _ _ hw.healthy]
      rw [emit_ok crc _ _ _ (by exact hw.healthy) (by exact hw.type_crc) (recType_le _ _)]
      simp only [Status.ok, Bool.true_and, recType,
        take_replicate_six _ (by simpa [kHeaderSize] using h7), List.append_assoc,
        decide_eq_true_eq]
    · simp only [if_neg h0]
      rw [emit_ok crc _ _ _ (by exact hw.healthy) (by exact hw.type_crc) (recType_le _ _)]
      have : kBlockSize - w.block_offset_ = 0 := by omega
      simp only [Status.ok, Bool.true_and, recType, this, List.replicate_zero, List.nil_append,
        decide_eq_true_eq]
  · simp only [if_neg h7]
    rw [emit_ok crc _ _ _ (by exact hw.healthy) (by exact hw.type_crc) (recType_le _ _)]
    simp only [Status.ok, Bool.true_and, recType, List.replicate_zero, List.nil_append,
      decide_eq_true_eq]


theorem addRecordLoop_ok (crc : Crc32c) :
    ∀ (fuel : Nat) (w : Writer) (left : List Nat) (begin : Bool),
      WriterInv crc w →
      (left.length + 1 ≤ fuel ∨
        (w.block_offset_ = kBlockSize ∧ 0 < left.length ∧ left.length ≤ fuel)) →
      ∃ w1 X items, Writer.AddRecordLoop crc fuel w left begin = some (Status.OK, w1) ∧
        w1.dest_.contents = w.dest_.contents ++ X ∧
        Layout crc w.dest_.contents.length X items ∧
        Frag begin items left ∧ WriterInv crc w1 ∧
        items.head?.map (fun it => it.offset) = some (w.dest_.contents.length +
          (if kBlockSize - w.block_offset_ < kHeaderSize then kBlockSize - w.block_offset_
           else 0)) := by
  intro fuel
  induction fuel with
  | zero =>
    intro w left begin _ h
    exfalso
    omega
  | succ fuel ih =>
    intro w left begin hw hfuel
    rw [addRecordLoop_unfold crc fuel w left begin hw]
    -- name the quantities of one iteration
    generalize hp : (if kBlockSize - w.block_offset_ < kHeaderSize
      then kBlockSize - w.block_offset_ else 0) = p
    generalize hbo1 : (if kBlockSize - w.block_offset_ < kHeaderSize
      then 0 else w.block_offset_) = bo1
    simp only []
    generalize hfl : (if left.length < kBlockSize - bo1 - kHeaderSize then left.length
      else kBlockSize - bo1 - kHeaderSize) = fl
    have hle := hw.le_block
    have hcg := hw.congr_len
    have hfl_le : fl ≤ left.length := by
      rw [← hfl]; split <;> omega
    have hbo1_le : bo1 + kHeaderSize ≤ kBlockSize := by
      rw [← hbo1]; simp only [kHeaderSize, kBlockSize] at *; split <;> omega
    have hfl_av : fl ≤ kBlockSize - bo1 - kHeaderSize := by
      rw [← hfl]; split <;> omega
    have htake_len : (left.take fl).length = fl := by
      rw [List.length_take]; omega
    have hpad : p = 0 ∨ (p < 7 ∧ (w.dest_.contents.length + p) % kBlockSize = 0) := by
      rw [← hp]
      simp only [kHeaderSize, kBlockSize] at *
      split
      · right; omega
      · left; rfl
    have hpos : (w.dest_.contents.length + p) % kBlockSize = bo1 := by
      rw [← hp, ← hbo1]
      simp only [kHeaderSize, kBlockSize] at *
      split <;> omega
    have hfit : (w.dest_.contents.length + p) % kBlockSize + 7 + (left.take fl).length
        ≤ kBlockSize := by
      rw [hpos, htake_len]
      simp only [kHeaderSize] at *
      omega
    have h7 : ∀ t, (recordHeader crc t (left.take fl)).length = 7 :=
      fun t => recordHeader_length crc t _
    by_cases hmore : (left.drop fl).length > 0
    · -- another fragment follows
      rw [if_pos hmore]
      have hlt : fl < left.length := by
        rw [List.length_drop] at hmore; omega
      have hfl_eq : fl = kBlockSize - bo1 - kHeaderSize := by
        rw [← hfl] at hlt ⊢
        split
        · rename_i h; rw [if_pos h] at hlt; omega
        · rfl
      have hend : (left.length == fl) = false := by
        simp; omega
      have hw2 : WriterInv crc
          { dest_ := { contents := w.dest_.contents ++ (List.replicate p 0 ++
                          (recordHeader crc (recType begin (left.length == fl)) (left.take fl)
                            ++ left.take fl)),
                       healthy := w.dest_.healthy },
            block_offset_ := bo1 + kHeaderSize + (left.take fl).length,
            type_crc_ := w.type_crc_ } := by
        refine ⟨hw.healthy, hw.type_crc, ?_, ?_⟩
        · show bo1 + kHeaderSize + (left.take fl).length ≤ kBlockSize
          rw [htake_len]; omega
        · show (bo1 + kHeaderSize + (left.take fl).length) % kBlockSize
            = (w.dest_.contents ++ (List.replicate p 0 ++
                (recordHeader crc (recType begin (left.length == fl)) (left.take fl)
                  ++ left.take fl))).length % kBlockSize
          simp only [List.length_append, List.length_replicate, h7, htake_len]
          simp only [kHeaderSize, kBlockSize] at *
          omega
      have hfuel2 : (left.drop fl).length + 1 ≤ fuel ∨
          (bo1 + kHeaderSize + (left.take fl).length = kBlockSize ∧
            0 < (left.drop fl).length ∧ (left.drop fl).length ≤ fuel) := by
        right
        refine ⟨by rw [htake_len]; omega, hmore, ?_⟩
        rw [List.length_drop]
        rcases hfuel with h | ⟨hb, hl0, hl⟩
        · omega
        · have : bo1 = 0 := by
            rw [← hbo1, hb]; simp [kHeaderSize]
          simp only [kHeaderSize, kBlockSize] at *
          omega
      obtain ⟨w1, X, items, hrun, hcont, hlay, hfrag, hinv, _⟩ :=
        ih _ (left.drop fl) false hw2 hfuel2
      refine ⟨w1, List.replicate p 0 ++ (recordHeader crc (recType begin (left.length == fl))
        (left.take fl) ++ (left.take fl ++ X)),
        ⟨w.dest_.contents.length + p, recType begin (left.length == fl), left.take fl⟩ :: items,
        hrun, ?_, ?_, ?_, hinv, rfl⟩
      · rw [hcont]
        simp only [List.append_assoc]
      · refine Layout.cons _ p _ _ X items hpad (recType_ge _ _) (recType_le _ _) hfit ?_
        have hl : (w.dest_.contents ++ (List.replicate p 0 ++
            (recordHeader crc (recType begin (left.length == fl)) (left.take fl)
              ++ left.take fl))).length
            = w.dest_.contents.length + p + 7 + (left.take fl).length := by
          simp only [List.length_append, List.length_replicate, h7]
          omega
        rw [← hl]
        exact hlay
      · have hsplit : left = left.take fl ++ left.drop fl := (List.take_append_drop fl left).symm
        rw [hend]
        cases begin with
        | true =>
          have := Frag.first (w.dest_.contents.length + p) (left.take fl) items (left.drop fl) hfrag
          rw [← hsplit] at this
          exact this
        | false =>
          have := Frag.middle (w.dest_.contents.length + p) (left.take fl) items (left.drop fl) hfrag
          rw [← hsplit] at this
          exact this
    · -- the last fragment
      rw [if_neg hmore]
      have hfl_eq : fl = left.length := by
        rw [List.length_drop] at hmore; omega
      have hend : (left.length == fl) = true := by
        simp; omega
      have htake : left.take fl = left := by
        rw [hfl_eq]; exact List.take_length left
      refine ⟨_, List.replicate p 0 ++ (recordHeader crc (recType begin (left.length == fl))
        (left.take fl) ++ (left.take fl ++ [])),
        [⟨w.dest_.contents.length + p, recType begin (left.length == fl), left.take fl⟩],
        rfl, ?_, ?_, ?_, ?_, rfl⟩
      · simp only [List.append_nil]
      · exact Layout.cons _ p _ _ [] [] hpad (recType_ge _ _) (recType_le _ _) hfit (Layout.nil _)
      · rw [hend, htake]
        cases begin with
        | true => exact Frag.full _ _
        | false => exact Frag.last _ _
      · refine ⟨hw.healthy, hw.type_crc, ?_, ?_⟩
        · show bo1 + kHeaderSize + (left.take fl).length ≤ kBlockSize
          rw [htake_len]; omega
        · show (bo1 + kHeaderSize + (left.take fl).length) % kBlockSize
            = (w.dest_.contents ++ (List.replicate p 0 ++
                (recordHeader crc (recType begin (left.length == fl)) (left.take fl)
                  ++ left.take fl))).length % kBlockSize
          simp only [List.length_append, List.length_replicate, h7, htake_len]
          simp only [kHeaderSize, kBlockSize] at *
          omega



theorem addRecord_ok (crc : Crc32c) (w : Writer) (P : List Nat) (hw : WriterInv crc w) :
    ∃ w1 X items, w.AddRecord crc P = some (Status.OK, w1) ∧
      w1.dest_.contents = w.dest_.contents ++ X ∧
      Layout crc w.dest_.contents.length X items ∧
      Frag true items P ∧ WriterInv crc w1 ∧
      items.head?.map (fun it => it.offset) = some (Writer.recordStart w) :=
  addRecordLoop_ok crc (P.length + 1) w P true hw (Or.inl (Nat.le_refl _))

theorem Layout_append (crc : Crc32c) {o : Nat} {X : List Nat} {items : List PhysRec}
    (h : Layout crc o X items) {Y : List Nat} {items2 : List PhysRec}
    (h2 : Layout crc (o + X.length) Y items2) :
    Layout crc o (X ++ Y) (items ++ items2) := by
  induction h with
  | nil o => simpa using h2
  | cons o p t frag X items hp ht1 ht4 hfit hrest ih =>
    have hl : o + (List.replicate p 0 ++ (recordHeader crc t frag ++ (frag ++ X))).length
        = o + p + 7 + frag.length + X.length := by
      simp [recordHeader_length]; omega
    rw [hl] at h2
    have := Layout.cons o p t frag (X ++ Y) (items ++ items2) hp ht1 ht4 hfit (ih h2)
    simpa [List.append_assoc] using this

theorem Layout_length_le (crc : Crc32c) {o : Nat} {X : List Nat} {items : List PhysRec}
    (h : Layout crc o X items) : 7 * items.length ≤ X.length := by
  induction h with
  | nil o => simp
  | cons o p t frag X items hp ht1 ht4 hfit hrest ih =>
    simp [recordHeader_length]; omega

theorem Layout_nil_inv (crc : Crc32c) {o : Nat} {X : List Nat} {items : List PhysRec}
    (h : Layout crc o X items) (hi : items = []) : X = [] := by
  cases h with
  | nil => rfl
  | cons => cases hi

theorem addRecords_ok (crc : Crc32c) (ps : List (List Nat)) :
    ∀ (w : Writer), WriterInv crc w →
      ∃ w1 X items, Writer.AddRecords crc w ps = some w1 ∧
        w1.dest_.contents = w.dest_.contents ++ X ∧
        Layout crc w.dest_.contents.length X items ∧
        Groups items ps ∧ WriterInv crc w1 := by
  induction ps with
  | nil =>
    intro w hw
    exact ⟨w, [], [], rfl, by simp, Layout.nil _, Groups.nil, hw⟩
  | cons P ps ih =>
    intro w hw
    obtain ⟨w1, X, g, hrun, hcont, hlay, hfrag, hw1, _⟩ := addRecord_ok crc w P hw
    obtain ⟨w2, Y, items, hrun2, hcont2, hlay2, hgr, hw2⟩ := ih w1 hw1
    refine ⟨w2, X ++ Y, g ++ items, ?_, ?_, ?_, Groups.cons g items P ps hfrag hgr, hw2⟩
    · rw [Writer.AddRecords, hrun]
      simp only [Status.ok, if_true]
      exact hrun2
    · rw [hcont2, hcont, List.append_assoc]
    · apply Layout_append crc hlay
      rw [hcont, List.length_append] at hlay2
      exact hlay2

theorem Frag_length_pos {b : Bool} {g : List PhysRec} {P : List Nat} (h : Frag b g P) :
    0 < g.length := by
  cases h <;> simp

theorem Groups_length_le {items : List PhysRec} {ps : List (List Nat)} (h : Groups items ps) :
    ps.length ≤ items.length := by
  induction h with
  | nil => simp
  | cons g rest P ps hf hg ih =>
    have := Frag_length_pos hf
    simp; omega

/-- Reading a well-formed log whose records all lie at or after the initial offset. -/
theorem readRecords_groups (crc : Crc32c) (hc : crc.Lawful) (items : List PhysRec)
    (ps : List (List Nat)) (hg : Groups items ps) :
    ∀ (r : Reader) (o : Nat),
      Aligned r o → Layout crc o (r.buffer_ ++ r.file_.data) items →
      ¬ r.last_record_offset_ < r.initial_offset_ →
      (∀ it ∈ items, ¬ it.offset % 2 ^ 64 < r.initial_offset_) →
      ∃ r1, Reader.ReadRecords crc (ps.length + 1) r = some (ps, true, r1) ∧
        r1.reporter_ = r.reporter_ := by
  induction hg with
  | nil =>
    intro r o hal hlay hlro hoff
    have hU : r.buffer_ ++ r.file_.data = [] := Layout_nil_inv crc hlay rfl
    obtain ⟨r1, hstep, hal1, hU1, hsc⟩ := rpr_eof crc r [] o hal hU
    refine ⟨{ r1 with resyncing_ := false }, ?_, hsc.1⟩
    rw [Reader.ReadRecords, Reader.ReadRecord]
    simp only [if_neg hlro, Bool.not_true, Bool.false_eq_true, if_false]
    rw [Reader.ReadRecordLoop, hstep]
    simp [kEof, kMaxRecordType, kLastType, kFullType, kFirstType, kMiddleType]
  | cons g rest P ps hf hgr ih =>
    intro r o hal hlay hlro hoff
    have hlen := Layout_length_le crc hlay
    have hfuel : g.length ≤ r.file_.data.length + r.buffer_.length + 1 := by
      simp only [List.length_append] at hlen
      omega
    obtain ⟨res, o1, hloop, hok, hrec, hal1, hlay1, hrep1, hck1, hio1, hrs1, hlro1⟩ :=
      rrl_group crc hc true g P hf _ r o rest [] 0 [] hal hlay (fun h => by cases h)
        (fun it hit => hoff it (List.mem_append_left _ hit)) hfuel
    have hhead : ∃ it, it ∈ g ∧ g.head? = some it := by
      cases hf with
      | full o0 P => exact ⟨_, List.mem_singleton.mpr rfl, rfl⟩
      | first o0 f g1 P1 h1 => exact ⟨_, List.mem_cons_self _ _, rfl⟩
    obtain ⟨it0, hit0, hh0⟩ := hhead
    have hlro2 : ¬ res.reader.last_record_offset_ < res.reader.initial_offset_ := by
      rw [hlro1, hio1, hh0]
      exact hoff it0 (List.mem_append_left _ hit0)
    have hoff2 : ∀ it ∈ rest, ¬ it.offset % 2 ^ 64 < res.reader.initial_offset_ := by
      intro it hit
      rw [hio1]
      exact hoff it (List.mem_append_right _ hit)
    obtain ⟨r2, hrun2, hrep2⟩ := ih res.reader o1 hal1 hlay1 hlro2 hoff2
    refine ⟨r2, ?_, hrep2.trans hrep1⟩
    have hRR : r.ReadRecord crc = some res := by
      rw [Reader.ReadRecord]
      simp only [if_neg hlro, Bool.not_true, Bool.false_eq_true, if_false]
      exact hloop
    rw [List.length_cons, Reader.ReadRecords, hRR]
    simp only [hok, if_true, hrun2, hrec]

end log
end leveldb

namespace leveldb

theorem or_mul_pow (a b i : Nat) (ha : a < 2 ^ i) : a ||| (2 ^ i * b) = 2 ^ i * b + a := by
  rw [Nat.lor_comm]
  exact (Nat.mul_add_lt_is_or ha b).symm

theorem crcUnmask_crcMask (x : Nat) (hx : x < 2 ^ 32) : crcUnmask (crcMask x) = x := by
  have hm : crcMask x = (x / 2 ^ 15 + 2 ^ 17 * (x % 2 ^ 15) + 0xa282ead8) % 2 ^ 32 := by
    unfold crcMask
    rw [Nat.mod_eq_of_lt hx, Nat.shiftRight_eq_div_pow, Nat.shiftLeft_eq]
    have h1 : x * 2 ^ 17 % 2 ^ 32 = 2 ^ 17 * (x % 2 ^ 15) := by omega
    rw [h1, or_mul_pow _ _ _ (by omega)]
    omega
  unfold crcUnmask
  rw [hm]
  simp only []
  have hr : ((x / 2 ^ 15 + 2 ^ 17 * (x % 2 ^ 15) + 0xa282ead8) % 2 ^ 32 % 2 ^ 32
      + (2 ^ 32 - 0xa282ead8)) % 2 ^ 32 = x / 2 ^ 15 + 2 ^ 17 * (x % 2 ^ 15) := by omega
  rw [hr, Nat.shiftRight_eq_div_pow, Nat.shiftLeft_eq]
  have h2 : (x / 2 ^ 15 + 2 ^ 17 * (x % 2 ^ 15)) * 2 ^ 15 % 2 ^ 32 = 2 ^ 15 * (x / 2 ^ 15) := by
    omega
  have h3 : (x / 2 ^ 15 + 2 ^ 17 * (x % 2 ^ 15)) / 2 ^ 17 = x % 2 ^ 15 := by omega
  rw [h2, h3, or_mul_pow _ _ _ (by omega)]
  omega

theorem foldl_crc_lt (d : List Nat) (init : Nat) (h : init < 2 ^ 32) :
    d.foldl (fun acc b => (acc * 31 + b + 1) % 2 ^ 32) init < 2 ^ 32 := by
  induction d generalizing init with
  | nil => simpa using h
  | cons b d ih =>
    simp only [List.foldl_cons]
    exact ih _ (Nat.mod_lt _ (by norm_num))

theorem sampleCrc_lawful : sampleCrc.Lawful where
  value_lt := fun d => foldl_crc_lt d 0 (by norm_num)
  extend_value := fun a b => by simp [sampleCrc, List.foldl_append]
  mask_lt := fun x => Nat.mod_lt _ (by norm_num)
  unmask_mask := fun x hx => crcUnmask_crcMask x hx

namespace log

theorem Aligned_mk0 (data : List Nat) (reporter : Option (List (Nat × Status)))
    (checksum : Bool) (init : Nat) :
    Aligned (Reader.mk0 ⟨data, true⟩ reporter checksum init) 0 := by
  refine AlignedAt.mk rfl ?_ ?_ ?_
  · simp [Reader.mk0]
  · intro h; simp [Reader.mk0] at h
  · intro _; simp [Reader.mk0, roundUp, kBlockSize]

theorem WriterInv_mk0 (crc : Crc32c) : WriterInv crc (Writer.mk0 crc ⟨[], true⟩) :=
  ⟨rfl, rfl, Nat.zero_le _, rfl⟩

/-- C1 (WAL round trip): for every sequence of payloads `ps`, a writer starting at
block offset 0 on an empty file whose operations succeed writes them all with
`AddRecord`, and a reader over the resulting file with `initial_offset = 0` and
checksum verification on returns true from `ReadRecord` exactly `ps.length` times,
yielding the payloads in order, then returns false, and its reporter has received
no call. -/
theorem C1_wal_round_trip (crc : Crc32c) (hc : crc.Lawful) (ps : List (List Nat)) :
    ∃ w r, Writer.AddRecords crc (Writer.mk0 crc ⟨[], true⟩) ps = some w ∧
      Reader.ReadRecords crc (ps.length + 1)
          (Reader.mk0 ⟨w.dest_.contents, true⟩ (some []) true 0) = some (ps, true, r) ∧
      r.reporter_ = some [] := by
  obtain ⟨w, X, items, hrun, hcont, hlay, hgr, _⟩ :=
    addRecords_ok crc ps (Writer.mk0 crc ⟨[], true⟩) (WriterInv_mk0 crc)
  have hX : w.dest_.contents = X := by simpa [Writer.mk0] using hcont
  have hlay0 : Layout crc 0 X items := hlay
  obtain ⟨r, hread, hrep⟩ :=
    readRecords_groups crc hc items ps hgr
      (Reader.mk0 ⟨w.dest_.contents, true⟩ (some []) true 0) 0
      (Aligned_mk0 _ _ _ _) (by rw [hX]; exact hlay0) (Nat.not_lt_zero _)
      (fun _ _ => Nat.not_lt_zero _)
  exact ⟨w, r, hrun, hread, hrep⟩

/-- Witness for C1 with the sample checksum and four payloads, one of them empty. -/
theorem C1_wal_round_trip_witness :
    ∃ w r, Writer.AddRecords sampleCrc (Writer.mk0 sampleCrc ⟨[], true⟩)
        [[97], [98, 98, 98], [], [99, 99]] = some w ∧
      Reader.ReadRecords sampleCrc 5
          (Reader.mk0 ⟨w.dest_.contents, true⟩ (some []) true 0)
        = some ([[97], [98, 98, 98], [], [99, 99]], true, r) ∧
      r.reporter_ = some [] :=
  C1_wal_round_trip sampleCrc sampleCrc_lawful [[97], [98, 98, 98], [], [99, 99]]

end log
end leveldb

namespace leveldb
namespace log

theorem addRecords_records (crc : Crc32c) (ps : List (List Nat)) :
    ∀ (w : Writer), WriterInv crc w →
      ∃ w1 X items, Writer.AddRecords crc w ps = some w1 ∧
        w1.dest_.contents = w.dest_.contents ++ X ∧
        Records crc w.dest_.contents.length X items (Writer.recordExtents crc w ps) ∧
        WriterInv crc w1 := by
  induction ps with
  | nil =>
    intro w hw
    exact ⟨w, [], [], rfl, by simp, Records.nil _, hw⟩
  | cons P ps ih =>
    intro w hw
    obtain ⟨w1, X, g, hrun, hcont, hlay, hfrag, hw1, hhead⟩ := addRecord_ok crc w P hw
    obtain ⟨w2, Y, items, hrun2, hcont2, hrec, hw2⟩ := ih w1 hw1
    refine ⟨w2, X ++ Y, g ++ items, ?_, ?_, ?_, hw2⟩
    · rw [Writer.AddRecords, hrun]
      simp only [Status.ok, if_true]
      exact hrun2
    · rw [hcont2, hcont, List.append_assoc]
    · rw [Writer.recordExtents, hrun]
      simp only []
      rw [hcont, List.length_append] at hrec ⊢
      exact Records.cons _ X g _ P Y items _ hlay hfrag hhead hrec

theorem Records_layout (crc : Crc32c) {o : Nat} {X : List Nat} {items : List PhysRec}
    {exts : List (Nat × Nat × List Nat)} (h : Records crc o X items exts) :
    Layout crc o X items := by
  induction h with
  | nil o => exact Layout.nil o
  | cons o X1 g s P X2 items exts hl hf hh hr ih => exact Layout_append crc hl ih

theorem Records_groups (crc : Crc32c) {o : Nat} {X : List Nat} {items : List PhysRec}
    {exts : List (Nat × Nat × List Nat)} (h : Records crc o X items exts) :
    Groups items (exts.map (fun e => e.2.2)) := by
  induction h with
  | nil o => exact Groups.nil
  | cons o X1 g s P X2 items exts hl hf hh hr ih => exact Groups.cons g items P _ hf ih

theorem Layout_bounds (crc : Crc32c) {o : Nat} {X : List Nat} {items : List PhysRec}
    (h : Layout crc o X items) :
    ∀ it ∈ items, o ≤ it.offset ∧ it.offset + 7 + it.payload.length ≤ o + X.length ∧
      it.offset % kBlockSize + 7 ≤ kBlockSize ∧ 1 ≤ it.type ∧ it.type ≤ 4 := by
  induction h with
  | nil o => intro it hit; cases hit
  | cons o p t frag X items hp ht1 ht4 hfit hrest ih =>
    intro it hit
    have hl : (List.replicate p 0 ++ (recordHeader crc t frag ++ (frag ++ X))).length
        = p + 7 + frag.length + X.length := by
      simp [recordHeader_length]; omega
    rw [hl]
    rcases List.mem_cons.mp hit with h | h
    · subst h
      simp only
      omega
    · have := ih it h
      omega

theorem Frag_tail_types {b : Bool} {g : List PhysRec} {P : List Nat} (h : Frag b g P) :
    (b = false → ∀ it ∈ g, it.type = kMiddleType ∨ it.type = kLastType) ∧
    (∀ it ∈ g.tail, it.type = kMiddleType ∨ it.type = kLastType) := by
  induction h with
  | full o P => exact ⟨fun h => (by cases h), fun it hit => (by cases hit)⟩
  | last o P =>
    refine ⟨fun _ it hit => ?_, fun it hit => (by cases hit)⟩
    rw [List.mem_singleton.mp hit]; exact Or.inr rfl
  | first o f rest P h ih => exact ⟨fun h => (by cases h), fun it hit => ih.1 rfl it hit⟩
  | middle o f rest P h ih =>
    refine ⟨fun _ it hit => ?_, fun it hit => ih.1 rfl it hit⟩
    rcases List.mem_cons.mp hit with h1 | h1
    · rw [h1]; exact Or.inl rfl
    · exact ih.1 rfl it h1

end log
end leveldb

namespace leveldb
namespace log

theorem Layout_drop_block (crc : Crc32c) {o : Nat} {X : List Nat} {items : List PhysRec}
    (h : Layout crc o X items) :
    ∀ c, c % kBlockSize = 0 → o ≤ c →
      Layout crc c (X.drop (c - o)) (items.filter (fun it => decide (c ≤ it.offset))) := by
  induction h with
  | nil o =>
    intro c _ _
    simpa using Layout.nil c
  | cons o p t frag X items hp ht1 ht4 hfit hrest ih =>
    intro c hc hoc
    have h7 : (recordHeader crc t frag).length = 7 := recordHeader_length crc t frag
    have hb := Layout_bounds crc hrest
    by_cases hle : c ≤ o + p
    · -- the boundary lies at the header of this record
      have hcop : c = o + p := by
        rcases hp with hp0 | ⟨hp7, hp0⟩
        · omega
        · simp only [kBlockSize] at *
          omega
      have hkeep : (items.filter (fun it => decide (c ≤ it.offset))) = items := by
        apply List.filter_eq_self.mpr
        intro it hit
        have := (hb it hit).1
        simp only [decide_eq_true_eq]
        omega
      have hdrop : (List.replicate p 0 ++ (recordHeader crc t frag ++ (frag ++ X))).drop (c - o)
          = List.replicate 0 0 ++ (recordHeader crc t frag ++ (frag ++ X)) := by
        rw [show c - o = p by omega]
        simp
      rw [List.filter_cons_of_pos (by simpa using hle), hkeep, hdrop, hcop]
      have := Layout.cons (o + p) 0 t frag X items (Or.inl rfl) ht1 ht4 (by simpa using hfit)
        (by simpa using hrest)
      simpa using this
    · -- the record lies entirely before the boundary
      have hend : o + p + 7 + frag.length ≤ c := by
        simp only [kBlockSize] at *
        omega
      have hdrop : (List.replicate p 0 ++ (recordHeader crc t frag ++ (frag ++ X))).drop (c - o)
          = X.drop (c - (o + p + 7 + frag.length)) := by
        rw [← List.append_assoc, ← List.append_assoc]
        rw [List.drop_append_eq_append_drop]
        have hl : (List.replicate p 0 ++ recordHeader crc t frag ++ frag).length
            = p + 7 + frag.length := by
          simp [h7]; omega
        rw [hl, List.drop_of_length_le (by rw [hl]; omega)]
        simp only [List.nil_append]
        congr 1
        omega
      rw [List.filter_cons_of_neg (by simpa using hle), hdrop]
      exact ih c hc hend

end log
end leveldb

namespace leveldb
namespace log

theorem Layout_head_le (crc : Crc32c) {o : Nat} {X : List Nat} {it : PhysRec}
    {items : List PhysRec} (h : Layout crc o X (it :: items)) :
    ∀ it1 ∈ it :: items, it.offset ≤ it1.offset := by
  cases h with
  | cons _ p t frag X _ hp ht1 ht4 hfit hrest =>
    intro it1 hit1
    rcases List.mem_cons.mp hit1 with h | h
    · rw [h]
    · have := (Layout_bounds crc hrest it1 h).1
      simp only
      omega

theorem Records_starts_ge (crc : Crc32c) {o : Nat} {X : List Nat} {items : List PhysRec}
    {exts : List (Nat × Nat × List Nat)} (h : Records crc o X items exts) :
    ∀ e ∈ exts, o ≤ e.1 := by
  induction h with
  | nil o => intro e he; cases he
  | cons o X1 g s P X2 items exts hl hf hh hr ih =>
    intro e he
    rcases List.mem_cons.mp he with h | h
    · subst h
      cases g with
      | nil => cases hh
      | cons it g1 =>
        simp only [List.head?_cons, Option.map_some', Option.some.injEq] at hh
        have := (Layout_bounds crc hl it (List.mem_cons_self _ _)).1
        simp only
        omega
    · have := ih e h
      omega

theorem Records_split (crc : Crc32c) (init : Nat) {o : Nat} {X : List Nat}
    {items : List PhysRec} {exts : List (Nat × Nat × List Nat)}
    (h : Records crc o X items exts) :
    ∃ itemsA itemsB, items = itemsA ++ itemsB ∧
      (∀ it ∈ itemsA, it.offset < init ∨ it.type = kMiddleType ∨ it.type = kLastType) ∧
      Groups itemsB ((exts.filter (fun e => decide (init ≤ e.1))).map (fun e => e.2.2)) ∧
      (∀ it ∈ itemsB, init ≤ it.offset) ∧
      ((∃ it ∈ itemsA, init ≤ it.offset) → ∃ e ∈ exts, e.1 < init ∧ init < e.2.1) := by
  induction h with
  | nil o =>
    exact ⟨[], [], rfl, fun it hit => (by cases hit), Groups.nil, fun it hit => (by cases hit),
      fun ⟨it, hit, _⟩ => (by cases hit)⟩
  | cons o X1 g s P X2 items exts hl hf hh hr ih =>
    cases g with
    | nil => cases hh
    | cons it0 g1 =>
      simp only [List.head?_cons, Option.map_some', Option.some.injEq] at hh
      have hb0 := Layout_bounds crc hl
      have hhead := Layout_head_le crc hl
      by_cases hs : init ≤ s
      · -- this record and all later ones start at or after `init`
        refine ⟨[], (it0 :: g1) ++ items, rfl, fun it hit => (by cases hit), ?_, ?_,
          fun ⟨it, hit, _⟩ => (by cases hit)⟩
        · have hkeep : (exts.filter (fun e => decide (init ≤ e.1))) = exts := by
            apply List.filter_eq_self.mpr
            intro e he
            have h1 := Records_starts_ge crc hr e he
            have h2 := (hb0 it0 (List.mem_cons_self _ _)).2.1
            simp only [decide_eq_true_eq]
            omega
          rw [List.filter_cons_of_pos (by simpa using hs), hkeep]
          exact Groups.cons _ items P _ hf (Records_groups crc hr)
        · intro it hit
          rcases List.mem_append.mp hit with h1 | h1
          · have := hhead it h1
            omega
          · have h2 := (Layout_bounds crc (Records_layout crc hr) it h1).1
            have h3 := (hb0 it0 (List.mem_cons_self _ _)).2.1
            omega
      · -- this record starts before `init`
        obtain ⟨itemsA, itemsB, hsplit, hA, hB, hBge, hstr⟩ := ih
        refine ⟨(it0 :: g1) ++ itemsA, itemsB, by rw [hsplit, List.append_assoc], ?_, ?_, hBge, ?_⟩
        · intro it hit
          rcases List.mem_append.mp hit with h1 | h1
          · rcases List.mem_cons.mp h1 with h2 | h2
            · left; rw [h2, hh]; omega
            · right
              exact (Frag_tail_types hf).2 it h2
          · exact hA it h1
        · rw [List.filter_cons_of_neg (by simpa using hs)]
          exact hB
        · rintro ⟨it, hit, hge⟩
          rcases List.mem_append.mp hit with h1 | h1
          · refine ⟨_, List.mem_cons_self _ _, by simp only; omega, ?_⟩
            have := (hb0 it h1).2.1
            simp only
            omega
          · obtain ⟨e, he, h2⟩ := hstr ⟨it, h1, hge⟩
            exact ⟨e, List.mem_cons_of_mem _ he, h2⟩

end log
end leveldb

namespace leveldb
namespace log

theorem rrl_bad (crc : Crc32c) (fuel : Nat) (r r1 : Reader) (scratch fragment frag : List Nat)
    (pro : Nat) (hstep : r.ReadPhysicalRecord crc fragment = some (kBadRecord, frag, r1)) :
    Reader.ReadRecordLoop crc (fuel + 1) r scratch false pro fragment =
      Reader.ReadRecordLoop crc fuel { r1 with resyncing_ := false } scratch false pro frag := by
  rw [Reader.ReadRecordLoop, hstep]
  simp [kBadRecord, kEof, kMaxRecordType, kLastType, kFullType, kFirstType, kMiddleType]

theorem rrl_resync_middle (crc : Crc32c) (fuel : Nat) (r r1 : Reader)
    (scratch fragment frag : List Nat) (inf : Bool)
    (pro : Nat) (hstep : r.ReadPhysicalRecord crc fragment = some (kMiddleType, frag, r1))
    (hrs : r1.resyncing_ = true) :
    Reader.ReadRecordLoop crc (fuel + 1) r scratch inf pro fragment =
      Reader.ReadRecordLoop crc fuel r1 scratch inf pro frag := by
  rw [Reader.ReadRecordLoop, hstep]
  simp [hrs]

theorem rrl_resync_last (crc : Crc32c) (fuel : Nat) (r r1 : Reader)
    (scratch fragment frag : List Nat) (inf : Bool)
    (pro : Nat) (hstep : r.ReadPhysicalRecord crc fragment = some (kLastType, frag, r1))
    (hrs : r1.resyncing_ = true) :
    Reader.ReadRecordLoop crc (fuel + 1) r scratch inf pro fragment =
      Reader.ReadRecordLoop crc fuel { r1 with resyncing_ := false } scratch inf pro frag := by
  rw [Reader.ReadRecordLoop, hstep]
  simp [hrs, kLastType, kMiddleType]

theorem rrl_orphan_middle (crc : Crc32c) (fuel : Nat) (r r1 : Reader)
    (scratch fragment frag : List Nat)
    (pro : Nat) (hstep : r.ReadPhysicalRecord crc fragment = some (kMiddleType, frag, r1))
    (hrs : r1.resyncing_ = false) :
    Reader.ReadRecordLoop crc (fuel + 1) r scratch false pro fragment =
      Reader.ReadRecordLoop crc fuel
        (Reader.ReportCorruption { r1 with resyncing_ := false } frag.length
          "missing start of fragmented record(1)") scratch false pro frag := by
  rw [Reader.ReadRecordLoop, hstep]
  simp [hrs, kLastType, kMiddleType, kFullType, kFirstType]

theorem rrl_orphan_last (crc : Crc32c) (fuel : Nat) (r r1 : Reader)
    (scratch fragment frag : List Nat)
    (pro : Nat) (hstep : r.ReadPhysicalRecord crc fragment = some (kLastType, frag, r1))
    (hrs : r1.resyncing_ = false) :
    Reader.ReadRecordLoop crc (fuel + 1) r scratch false pro fragment =
      Reader.ReadRecordLoop crc fuel
        (Reader.ReportCorruption { r1 with resyncing_ := false } frag.length
          "missing start of fragmented record(2)") scratch false pro frag := by
  rw [Reader.ReadRecordLoop, hstep]
  simp [hrs, kLastType, kMiddleType, kFullType, kFirstType]

theorem sub64_chain3 (x b c : Nat) :
    sub64 (sub64 ((x + 7 + b + c) % 2 ^ 64) c) b = (x + 7) % 2 ^ 64 := by
  unfold sub64
  omega

/-- What a report of a dropped fragment does to a reader positioned right after that
fragment, when the fragment starts at or after the initial offset. -/
theorem report_fragment (r : Reader) (off : Nat) (frag : List Nat) (reason : String)
    (hal : Aligned r (off + 7 + frag.length)) (hge : r.initial_offset_ ≤ off)
    (hlt : off + 7 < 2 ^ 64) :
    Reader.ReportCorruption r frag.length reason =
      { r with
        reporter_ :=
          r.reporter_.map (fun calls => calls ++ [(frag.length, Status.Corruption reason)]) } := by
  unfold Reader.ReportCorruption Reader.ReportDrop
  cases hrep : r.reporter_ with
  | none =>
    cases r
    simp only at hrep
    simp [hrep]
  | some calls =>
    have hg : sub64 (sub64 r.end_of_buffer_offset_ r.buffer_.length) frag.length
        ≥ r.initial_offset_ := by
      rw [hal.eob_eq, sub64_chain3, Nat.mod_eq_of_lt hlt]
      omega
    simp only [if_pos hg, Option.map_some']

end log
end leveldb

namespace leveldb
namespace log

theorem rrl_skip_one (crc : Crc32c) (hc : crc.Lawful) (fuel : Nat) (r : Reader) (o : Nat)
    (it : PhysRec) (rest : List PhysRec) (scratch fragment : List Nat) (pro : Nat)
    (hal : Aligned r o) (hlay : Layout crc o (r.buffer_ ++ r.file_.data) (it :: rest))
    (hlt : it.offset + 7 < 2 ^ 64)
    (hit : it.offset < r.initial_offset_ ∨ it.type = kMiddleType ∨ it.type = kLastType) :
    ∃ r1 frag1 calls,
      Reader.ReadRecordLoop crc (fuel + 1) r scratch false pro fragment
        = Reader.ReadRecordLoop crc fuel r1 scratch false pro frag1 ∧
      Aligned r1 (it.offset + 7 + it.payload.length) ∧
      Layout crc (it.offset + 7 + it.payload.length) (r1.buffer_ ++ r1.file_.data) rest ∧
      r1.initial_offset_ = r.initial_offset_ ∧ r1.checksum_ = r.checksum_ ∧
      r1.last_record_offset_ = r.last_record_offset_ ∧
      r1.reporter_ = r.reporter_.map (fun cs => cs ++ calls) ∧
      (∀ c ∈ calls, c.2 = Status.Corruption "missing start of fragmented record(1)" ∨
        c.2 = Status.Corruption "missing start of fragmented record(2)") ∧
      (calls ≠ [] → r.initial_offset_ ≤ it.offset) := by
  obtain ⟨r1, hstep, hal1, hlay1, hrep, hck, hlro, hio, hrs⟩ :=
    rpr_step crc hc r fragment o it rest _ hal rfl hlay
  have hmod : it.offset % 2 ^ 64 = it.offset := Nat.mod_eq_of_lt (by omega)
  rw [hmod] at hstep
  have hmap : ∀ (x : Option (List (Nat × Status))), x = x.map (fun cs => cs ++ []) := by
    intro x; cases x <;> simp
  by_cases hbad : it.offset < r.initial_offset_
  · rw [if_pos hbad] at hstep
    refine ⟨{ r1 with resyncing_ := false }, [], [], rrl_bad crc fuel r r1 scratch fragment [] pro
      hstep, hal1, hlay1, hio, hck, hlro, ?_, fun c hcm => (by cases hcm), fun h => absurd rfl h⟩
    show r1.reporter_ = _
    rw [hrep]; exact hmap _
  · rw [if_neg hbad] at hstep
    have hty : it.type = kMiddleType ∨ it.type = kLastType := by
      rcases hit with h | h
      · exact absurd h hbad
      · exact h
    cases hres : r1.resyncing_ with
    | true =>
      rcases hty with ht | ht
      · rw [ht] at hstep
        refine ⟨r1, it.payload, [], rrl_resync_middle crc fuel r r1 scratch fragment _ false pro
          hstep hres, hal1, hlay1, hio, hck, hlro, ?_, fun c hcm => (by cases hcm),
          fun h => absurd rfl h⟩
        rw [hrep]; exact hmap _
      · rw [ht] at hstep
        refine ⟨{ r1 with resyncing_ := false }, it.payload, [],
          rrl_resync_last crc fuel r r1 scratch fragment _ false pro
          hstep hres, hal1, hlay1, hio, hck, hlro, ?_, fun c hcm => (by cases hcm),
          fun h => absurd rfl h⟩
        show r1.reporter_ = _
        rw [hrep]; exact hmap _
    | false =>
      have hge : r1.initial_offset_ ≤ it.offset := by rw [hio]; omega
      rcases hty with ht | ht
      · rw [ht] at hstep
        have hreport := report_fragment { r1 with resyncing_ := false } it.offset it.payload
          "missing start of fragmented record(1)" hal1 hge hlt
        refine ⟨{ r1 with
                  resyncing_ := false
                  reporter_ := r1.reporter_.map (fun calls => calls ++
                    [(it.payload.length,
                      Status.Corruption "missing start of fragmented record(1)")]) },
          it.payload,
          [(it.payload.length, Status.Corruption "missing start of fragmented record(1)")],
          ?_, ?_, ?_, ?_, ?_, ?_, ?_, ?_, fun _ => Nat.le_of_not_lt hbad⟩
        · rw [rrl_orphan_middle crc fuel r r1 scratch fragment _ pro hstep hres, hreport]
        · exact hal1
        · exact hlay1
        · exact hio
        · exact hck
        · exact hlro
        · show r1.reporter_.map _ = _
          rw [hrep]
        · intro c hcm
          rw [List.mem_singleton.mp hcm]
          exact Or.inl rfl
      · rw [ht] at hstep
        have hreport := report_fragment { r1 with resyncing_ := false } it.offset it.payload
          "missing start of fragmented record(2)" hal1 hge hlt
        refine ⟨{ r1 with
                  resyncing_ := false
                  reporter_ := r1.reporter_.map (fun calls => calls ++
                    [(it.payload.length,
                      Status.Corruption "missing start of fragmented record(2)")]) },
          it.payload,
          [(it.payload.length, Status.Corruption "missing start of fragmented record(2)")],
          ?_, ?_, ?_, ?_, ?_, ?_, ?_, ?_, fun _ => Nat.le_of_not_lt hbad⟩
        · rw [rrl_orphan_last crc fuel r r1 scratch fragment _ pro hstep hres, hreport]
        · exact hal1
        · exact hlay1
        · exact hio
        · exact hck
        · exact hlro
        · show r1.reporter_.map _ = _
          rw [hrep]
        · intro c hcm
          rw [List.mem_singleton.mp hcm]
          exact Or.inr rfl

theorem rrl_skip (crc : Crc32c) (hc : crc.Lawful) :
    ∀ (pre : List PhysRec) (fuel : Nat) (r : Reader) (o : Nat) (rest : List PhysRec)
      (scratch fragment : List Nat) (pro : Nat),
      Aligned r o → Layout crc o (r.buffer_ ++ r.file_.data) (pre ++ rest) →
      (∀ it ∈ pre, it.offset + 7 < 2 ^ 64) →
      (∀ it ∈ pre, it.offset < r.initial_offset_ ∨ it.type = kMiddleType ∨
        it.type = kLastType) →
      ∃ r1 o1 frag1 calls,
        Reader.ReadRecordLoop crc (fuel + pre.length) r scratch false pro fragment
          = Reader.ReadRecordLoop crc fuel r1 scratch false pro frag1 ∧
        Aligned r1 o1 ∧
        Layout crc o1 (r1.buffer_ ++ r1.file_.data) rest ∧
        r1.initial_offset_ = r.initial_offset_ ∧ r1.checksum_ = r.checksum_ ∧
        r1.last_record_offset_ = r.last_record_offset_ ∧
        r1.reporter_ = r.reporter_.map (fun cs => cs ++ calls) ∧
        (∀ c ∈ calls, c.2 = Status.Corruption "missing start of fragmented record(1)" ∨
          c.2 = Status.Corruption "missing start of fragmented record(2)") ∧
        (calls ≠ [] → ∃ it ∈ pre, r.initial_offset_ ≤ it.offset) := by
  intro pre
  induction pre with
  | nil =>
    intro fuel r o rest scratch fragment pro hal hlay _ _
    refine ⟨r, o, fragment, [], rfl, hal, hlay, rfl, rfl, rfl, ?_, fun c hcm => (by cases hcm),
      fun h => absurd rfl h⟩
    cases r.reporter_ <;> simp
  | cons it pre ih =>
    intro fuel r o rest scratch fragment pro hal hlay hlt hit
    obtain ⟨r1, frag1, calls1, hloop1, hal1, hlay1, hio1, hck1, hlro1, hrep1, hc1, hne1⟩ :=
      rrl_skip_one crc hc (fuel + pre.length) r o it (pre ++ rest) scratch fragment pro hal hlay
        (hlt it (List.mem_cons_self _ _)) (hit it (List.mem_cons_self _ _))
    obtain ⟨r2, o2, frag2, calls2, hloop2, hal2, hlay2, hio2, hck2, hlro2, hrep2, hc2, hne2⟩ :=
      ih fuel r1 _ rest scratch frag1 pro hal1 hlay1
        (fun x hx => hlt x (List.mem_cons_of_mem _ hx))
        (fun x hx => by rw [hio1]; exact hit x (List.mem_cons_of_mem _ hx))
    refine ⟨r2, o2, frag2, calls1 ++ calls2, ?_, hal2, hlay2, hio2.trans hio1, hck2.trans hck1,
      hlro2.trans hlro1, ?_, ?_, ?_⟩
    · rw [List.length_cons, ← Nat.add_assoc, hloop1, hloop2]
    · rw [hrep2, hrep1]
      cases r.reporter_ <;> simp
    · intro c hcm
      rcases List.mem_append.mp hcm with h | h
      · exact hc1 c h
      · exact hc2 c h
    · intro hne
      by_cases h1 : calls1 = []
      · have h2 : calls2 ≠ [] := by
          intro h2; apply hne; rw [h1, h2]; rfl
        obtain ⟨x, hx, hxge⟩ := hne2 h2
        exact ⟨x, List.mem_cons_of_mem _ hx, by rw [← hio1]; exact hxge⟩
      · exact ⟨it, List.mem_cons_self _ _, hne1 h1⟩

end log
end leveldb

namespace leveldb
namespace log

theorem initialBlockStart_props (init : Nat) (hinit : init < 2 ^ 64) :
    initialBlockStart init % kBlockSize = 0 ∧ initialBlockStart init < 2 ^ 64 ∧
    (∀ o, o % kBlockSize + 7 ≤ kBlockSize → init ≤ o → o < 2 ^ 64 → initialBlockStart init ≤ o) ∧
    (init = 0 → initialBlockStart init = 0) := by
  unfold initialBlockStart add64
  simp only [kBlockSize]
  refine ⟨?_, ?_, ?_, ?_⟩
  · split <;> omega
  · split <;> omega
  · intro o h1 h2 h3
    split <;> omega
  · intro h
    subst h
    simp

/-- The first `ReadRecord` call on a fresh reader: the loop starts at the block chosen
by `SkipToInitialBlock` (no skip happens when `initial_offset = 0`). -/
theorem readRecord_fresh (crc : Crc32c) (data : List Nat)
    (reporter : Option (List (Nat × Status))) (checksum : Bool) (init : Nat)
    (hinit : init < 2 ^ 64) :
    (Reader.mk0 ⟨data, true⟩ reporter checksum init).ReadRecord crc =
      Reader.ReadRecordLoop crc ((data.drop (initialBlockStart init)).length + 1)
        { Reader.mk0 ⟨data, true⟩ reporter checksum init with
          file_ := ⟨data.drop (initialBlockStart init), true⟩
          end_of_buffer_offset_ := initialBlockStart init } [] false 0 [] := by
  have hprops := initialBlockStart_props init hinit
  by_cases h0 : init = 0
  · subst h0
    rw [hprops.2.2.2 rfl]
    simp [Reader.ReadRecord, Reader.mk0]
  · have hlt : (Reader.mk0 ⟨data, true⟩ reporter checksum init).last_record_offset_
        < (Reader.mk0 ⟨data, true⟩ reporter checksum init).initial_offset_ := by
      show 0 < init
      omega
    rw [Reader.ReadRecord]
    simp only [if_pos hlt]
    unfold Reader.SkipToInitialBlock
    simp only [Reader.mk0, SequentialFile.Skip, Status.ok, if_true]
    by_cases hb : initialBlockStart init > 0
    · have hb' : (if init % kBlockSize > kBlockSize - 6 then
          add64 (init - init % kBlockSize) kBlockSize else init - init % kBlockSize) > 0 := hb
      simp only [if_pos hb']
      simp [initialBlockStart]
    · have hb' : ¬ (if init % kBlockSize > kBlockSize - 6 then
          add64 (init - init % kBlockSize) kBlockSize else init - init % kBlockSize) > 0 := hb
      have hz : initialBlockStart init = 0 := by omega
      simp only [if_neg hb']
      have hz' : (if init % kBlockSize > kBlockSize - 6 then
          add64 (init - init % kBlockSize) kBlockSize else init - init % kBlockSize) = 0 := hz
      simp [hz, hz']

end log
end leveldb

namespace leveldb
namespace log

theorem read_from_offset (crc : Crc32c) (hc : crc.Lawful) (data : List Nat)
    (items : List PhysRec) (exts : List (Nat × Nat × List Nat))
    (hrec : Records crc 0 data items exts) (init : Nat) (checksum : Bool)
    (hinit : init < 2 ^ 64) (hsize : data.length < 2 ^ 64) :
    ∃ r calls,
      Reader.ReadRecords crc
          (((exts.filter (fun e => decide (init ≤ e.1))).map (fun e => e.2.2)).length + 1)
          (Reader.mk0 ⟨data, true⟩ (some []) checksum init)
        = some ((exts.filter (fun e => decide (init ≤ e.1))).map (fun e => e.2.2), true, r) ∧
      r.reporter_ = some calls ∧
      (∀ c ∈ calls, c.2 = Status.Corruption "missing start of fragmented record(1)" ∨
        c.2 = Status.Corruption "missing start of fragmented record(2)") ∧
      (calls ≠ [] → ∃ e ∈ exts, e.1 < init ∧ init < e.2.1) := by
  have hlay0 := Records_layout crc hrec
  have hbnd := Layout_bounds crc hlay0
  obtain ⟨itemsA, itemsB, hsplit, hA, hB, hBge, hstr⟩ := Records_split crc init hrec
  obtain ⟨hB0mod, hB0lt, hB0le, _⟩ := initialBlockStart_props init hinit
  generalize hexp : (exts.filter (fun e => decide (init ≤ e.1))).map (fun e => e.2.2) = expected
    at hB ⊢
  generalize hB0 : initialBlockStart init = B0 at hB0mod hB0lt hB0le
  -- the layout seen from the block start
  have hlayB := Layout_drop_block crc hlay0 B0 hB0mod (Nat.zero_le _)
  have hfiltB : itemsB.filter (fun it => decide (B0 ≤ it.offset)) = itemsB := by
    apply List.filter_eq_self.mpr
    intro it hit
    have h1 := hbnd it (by rw [hsplit]; exact List.mem_append_right _ hit)
    simp only [decide_eq_true_eq]
    exact hB0le it.offset h1.2.2.1 (hBge it hit) (by omega)
  rw [hsplit, List.filter_append, hfiltB, Nat.sub_zero] at hlayB
  generalize hpre : itemsA.filter (fun it => decide (B0 ≤ it.offset)) = pre at hlayB
  have hpreA : ∀ it ∈ pre, it ∈ itemsA := by
    intro it hit
    rw [← hpre] at hit
    exact (List.mem_filter.mp hit).1
  have hlen := Layout_length_le crc hlayB
  -- the reader after `SkipToInitialBlock`
  let r1 : Reader :=
    { Reader.mk0 ⟨data, true⟩ (some []) checksum init with
      file_ := ⟨data.drop B0, true⟩
      end_of_buffer_offset_ := B0 }
  have hal1 : Aligned r1 B0 := by
    refine AlignedAt.mk rfl ?_ ?_ ?_
    · show B0 = (B0 + 0) % 2 ^ 64
      rw [Nat.add_zero, Nat.mod_eq_of_lt hB0lt]
    · intro h; cases h
    · intro _
      show B0 + 0 = roundUp B0
      rw [roundUp_self B0 hB0mod]; rfl
  have hlay1 : Layout crc B0 (r1.buffer_ ++ r1.file_.data) (pre ++ itemsB) := hlayB
  have hfresh := readRecord_fresh crc data (some []) checksum init hinit
  rw [hB0] at hfresh
  obtain ⟨fuel, hfuel⟩ : ∃ fuel, (data.drop B0).length + 1 = fuel + pre.length ∧
      itemsB.length + 1 ≤ fuel := by
    refine ⟨(data.drop B0).length + 1 - pre.length, ?_, ?_⟩
    · simp only [List.length_append] at hlen; omega
    · simp only [List.length_append] at hlen; omega
  rw [hfuel.1] at hfresh
  obtain ⟨r2, o2, frag2, calls, hloop2, hal2, hlay2, hio2, hck2, hlro2, hrep2, hcalls, hne⟩ :=
    rrl_skip crc hc pre fuel r1 B0 itemsB [] [] 0 hal1 hlay1
      (fun it hit => by
        have := hbnd it (by rw [hsplit]; exact List.mem_append_left _ (hpreA it hit))
        omega)
      (fun it hit => hA it (hpreA it hit))
  rw [hloop2] at hfresh
  have hrep2' : r2.reporter_ = some calls := by
    rw [hrep2]; rfl
  have hstr2 : calls ≠ [] → ∃ e ∈ exts, e.1 < init ∧ init < e.2.1 := by
    intro h
    obtain ⟨it, hit, hge⟩ := hne h
    exact hstr ⟨it, hpreA it hit, hge⟩
  have hoffB : ∀ it ∈ itemsB, ¬ it.offset % 2 ^ 64 < r2.initial_offset_ := by
    intro it hit
    have h1 := hbnd it (by rw [hsplit]; exact List.mem_append_right _ hit)
    have h2 := hBge it hit
    rw [hio2, Nat.mod_eq_of_lt (by omega)]
    show ¬ it.offset < init
    omega
  cases hB with
  | nil =>
    -- nothing starts at or after the initial offset
    have hU : r2.buffer_ ++ r2.file_.data = [] := Layout_nil_inv crc hlay2 rfl
    obtain ⟨r3, hstep, hal3, hU3, hsc⟩ := rpr_eof crc r2 frag2 o2 hal2 hU
    obtain ⟨fuel1, rfl⟩ : ∃ k, fuel = k + 1 := ⟨fuel - 1, by omega⟩
    refine ⟨{ r3 with resyncing_ := false }, calls, ?_, hsc.1.trans hrep2', hcalls, hstr2⟩
    rw [List.length_nil, Reader.ReadRecords, hfresh, Reader.ReadRecordLoop, hstep]
    simp [kEof, kMaxRecordType, kLastType, kFullType, kFirstType, kMiddleType]
  | cons g rest P ps hf hgr =>
    obtain ⟨res, o3, hloop3, hok, hrecd, hal3, hlay3, hrep3, hck3, hio3, hrs3, hlro3⟩ :=
      rrl_group crc hc true g P hf fuel r2 o2 rest [] 0 frag2 hal2 hlay2 (fun h => by cases h)
        (fun it hit => hoffB it (List.mem_append_left _ hit))
        (by simp only [List.length_append] at hfuel; omega)
    have hhead : ∃ it, it ∈ g ∧ g.head? = some it := by
      cases hf with
      | full o0 P => exact ⟨_, List.mem_singleton.mpr rfl, rfl⟩
      | first o0 f g1 P1 h1 => exact ⟨_, List.mem_cons_self _ _, rfl⟩
    obtain ⟨it0, hit0, hh0⟩ := hhead
    have hlro4 : ¬ res.reader.last_record_offset_ < res.reader.initial_offset_ := by
      rw [hlro3, hio3, hh0]
      exact hoffB it0 (List.mem_append_left _ hit0)
    obtain ⟨r4, hrun4, hrep4⟩ := readRecords_groups crc hc rest ps hgr res.reader o3 hal3 hlay3
      hlro4 (fun it hit => by rw [hio3]; exact hoffB it (List.mem_append_right _ hit))
    refine ⟨r4, calls, ?_, (hrep4.trans hrep3).trans hrep2', hcalls, hstr2⟩
    have hloop3' : Reader.ReadRecordLoop crc fuel r2 [] false 0 frag2 = some res := hloop3
    rw [List.length_cons, Reader.ReadRecords, hfresh, hloop3']
    simp only [hok, if_true, hrun4, hrecd]

end log
end leveldb

namespace leveldb
namespace log

/-- C2 (WAL read from an offset): for a log `w` produced by `AddRecord` calls from the
payloads `ps` on an empty file (all operations succeeding) and every 64-bit
`initial_offset`, a reader constructed with that offset returns exactly the payloads
whose first physical record starts at a file offset `≥ initial_offset`, in order, and
then returns false. Every call its reporter receives is a "missing start of fragmented
record" report, and there is such a call only if some record starts before
`initial_offset` and ends after it; so no call is made for a record that lies
entirely before `initial_offset`. -/
theorem C2_wal_read_from_offset (crc : Crc32c) (hc : crc.Lawful) (ps : List (List Nat))
    (w : Writer) (initial_offset : Nat) (checksum : Bool)
    (hw : Writer.AddRecords crc (Writer.mk0 crc ⟨[], true⟩) ps = some w)
    (hinit : initial_offset < 2 ^ 64) (hsize : w.dest_.contents.length < 2 ^ 64) :
    ∃ r calls,
      Reader.ReadRecords crc
          ((((Writer.recordExtents crc (Writer.mk0 crc ⟨[], true⟩) ps).filter
              (fun e => decide (initial_offset ≤ e.1))).map (fun e => e.2.2)).length + 1)
          (Reader.mk0 ⟨w.dest_.contents, true⟩ (some []) checksum initial_offset)
        = some (((Writer.recordExtents crc (Writer.mk0 crc ⟨[], true⟩) ps).filter
              (fun e => decide (initial_offset ≤ e.1))).map (fun e => e.2.2), true, r) ∧
      r.reporter_ = some calls ∧
      (∀ c ∈ calls, c.2 = Status.Corruption "missing start of fragmented record(1)" ∨
        c.2 = Status.Corruption "missing start of fragmented record(2)") ∧
      (calls ≠ [] → ∃ e ∈ Writer.recordExtents crc (Writer.mk0 crc ⟨[], true⟩) ps,
        e.1 < initial_offset ∧ initial_offset < e.2.1) := by
  obtain ⟨w1, X, items, hrun, hcont, hrec, _⟩ :=
    addRecords_records crc ps (Writer.mk0 crc ⟨[], true⟩) (WriterInv_mk0 crc)
  rw [hw] at hrun
  cases hrun
  have hX : w.dest_.contents = X := by simpa [Writer.mk0] using hcont
  have hrec0 : Records crc 0 w.dest_.contents items
      (Writer.recordExtents crc (Writer.mk0 crc ⟨[], true⟩) ps) := by
    rw [hX]; exact hrec
  exact read_from_offset crc hc _ items _ hrec0 initial_offset checksum hinit hsize

/-- Witness for C2: four records at offsets 0, 8, 18 and 25; a reader with
`initial_offset = 9` returns the last two. -/
theorem C2_wal_read_from_offset_witness :
    ∃ r calls,
      Reader.ReadRecords sampleCrc 3
          (Reader.mk0 ⟨[216, 234, 194, 163, 1, 0, 1, 97, 220, 234, 4, 116, 3, 0, 1, 98, 98, 98,
            216, 234, 134, 162, 0, 0, 1, 216, 234, 134, 202, 2, 0, 1, 99, 99], true⟩
            (some []) true 9)
        = some ([[], [99, 99]], true, r) ∧
      r.reporter_ = some calls ∧
      (∀ c ∈ calls, c.2 = Status.Corruption "missing start of fragmented record(1)" ∨
        c.2 = Status.Corruption "missing start of fragmented record(2)") ∧
      (calls ≠ [] → ∃ e ∈ Writer.recordExtents sampleCrc (Writer.mk0 sampleCrc ⟨[], true⟩)
          [[97], [98, 98, 98], [], [99, 99]],
        e.1 < 9 ∧ 9 < e.2.1) :=
  C2_wal_read_from_offset sampleCrc sampleCrc_lawful [[97], [98, 98, 98], [], [99, 99]]
    ⟨⟨[216, 234, 194, 163, 1, 0, 1, 97, 220, 234, 4, 116, 3, 0, 1, 98, 98, 98,
        216, 234, 134, 162, 0, 0, 1, 216, 234, 134, 202, 2, 0, 1, 99, 99], true⟩, 34,
      [1, 2, 3, 4, 5]⟩ 9 true (by decide) (by norm_num) (by decide)

end log
end leveldb

namespace leveldb
namespace log

theorem emit_block_offset (crc : Crc32c) (w : Writer) (t : Nat) (ptr : List Nat) :
    (w.EmitPhysicalRecord crc t ptr).2.block_offset_ = w.block_offset_ + kHeaderSize + ptr.length :=
  rfl

/-- Every call of `EmitPhysicalRecord` in the loop of `AddRecord` satisfies the
assertions, and the loop leaves `block_offset_` within the block. -/
theorem addRecordLoop_calls (crc : Crc32c) :
    ∀ (fuel : Nat) (w : Writer) (left : List Nat) (begin : Bool),
      w.block_offset_ ≤ kBlockSize →
      (∀ c ∈ Writer.AddRecordLoopCalls crc fuel w left begin, c.Asserted) ∧
      (∀ res, Writer.AddRecordLoop crc fuel w left begin = some res →
        res.2.block_offset_ ≤ kBlockSize) := by
  intro fuel
  induction fuel with
  | zero =>
    intro w left begin _
    exact ⟨fun c hc => (by cases hc), fun res h => (by cases h)⟩
  | succ fuel ih =>
    intro w left begin hw
    rw [Writer.AddRecordLoopCalls, Writer.AddRecordLoop]
    simp only []
    generalize hw1 : (if kBlockSize - w.block_offset_ < kHeaderSize then
        ({ w with
           dest_ := if kBlockSize - w.block_offset_ > 0 then
               (w.dest_.Append ((List.replicate 6 0).take (kBlockSize - w.block_offset_))).2
             else w.dest_
           block_offset_ := 0 } : Writer)
      else w) = w1
    have hb1 : w1.block_offset_ + kHeaderSize ≤ kBlockSize := by
      rw [← hw1]
      by_cases h7 : kBlockSize - w.block_offset_ < kHeaderSize
      · rw [if_pos h7]
        simp [kHeaderSize, kBlockSize]
      · rw [if_neg h7]
        omega
    generalize hfl : (if left.length < kBlockSize - w1.block_offset_ - kHeaderSize then left.length
        else kBlockSize - w1.block_offset_ - kHeaderSize) = fl
    have hfl2 : fl ≤ kBlockSize - w1.block_offset_ - kHeaderSize := by
      rw [← hfl]; split <;> omega
    have hlen : (left.take fl).length ≤ fl := by
      rw [List.length_take]; omega
    generalize ht : (if (begin && (left.length == fl)) = true then kFullType
        else if begin = true then kFirstType
        else if (left.length == fl) = true then kLastType else kMiddleType) = t
    have hcall : EmitCall.Asserted ⟨w1.block_offset_, t, (left.take fl).length⟩ := by
      refine ⟨?_, ?_⟩
      · show (left.take fl).length ≤ 0xffff
        simp only [kBlockSize, kHeaderSize] at hfl2
        omega
      · show w1.block_offset_ + kHeaderSize + (left.take fl).length ≤ kBlockSize
        omega
    have hnext : (w1.EmitPhysicalRecord crc t (left.take fl)).2.block_offset_ ≤ kBlockSize := by
      rw [emit_block_offset]
      omega
    by_cases hcont : ((w1.EmitPhysicalRecord crc t (left.take fl)).1.ok
        && decide ((left.drop fl).length > 0)) = true
    · rw [if_pos hcont, if_pos hcont]
      obtain ⟨ih1, ih2⟩ := ih (w1.EmitPhysicalRecord crc t (left.take fl)).2 (left.drop fl) false
        hnext
      refine ⟨?_, ih2⟩
      intro c hc
      rcases List.mem_cons.mp hc with h | h
      · rw [h]; exact hcall
      · exact ih1 c h
    · rw [if_neg hcont, if_neg hcont]
      refine ⟨?_, ?_⟩
      · intro c hc
        rw [List.mem_singleton.mp hc]
        exact hcall
      · intro res hres
        cases hres
        exact hnext

theorem addRecords_calls (crc : Crc32c) (ps : List (List Nat)) :
    ∀ (w : Writer), w.block_offset_ ≤ kBlockSize →
      ∀ c ∈ Writer.AddRecordsCalls crc w ps, c.Asserted := by
  induction ps with
  | nil => intro w _ c hc; cases hc
  | cons p ps ih =>
    intro w hw c hc
    obtain ⟨h1, h2⟩ := addRecordLoop_calls crc (p.length + 1) w p true hw
    rw [Writer.AddRecordsCalls] at hc
    rcases List.mem_append.mp hc with h | h
    · exact h1 c h
    · cases hr : w.AddRecord crc p with
      | none => rw [hr] at h; cases h
      | some res =>
        rw [hr] at h
        exact ih res.2 (h2 res hr) c h

theorem Layout_fit (crc : Crc32c) {o : Nat} {X : List Nat} {items : List PhysRec}
    (h : Layout crc o X items) :
    ∀ it ∈ items, it.offset % kBlockSize + 7 + it.payload.length ≤ kBlockSize := by
  induction h with
  | nil o => intro it hit; cases hit
  | cons o p t frag X items hp ht1 ht4 hfit hrest ih =>
    intro it hit
    rcases List.mem_cons.mp hit with h | h
    · subst h
      exact hfit
    · exact ih it h

theorem WriterInv_mkAt (crc : Crc32c) (data : List Nat) :
    WriterInv crc (Writer.mkAt crc ⟨data, true⟩ data.length) :=
  ⟨rfl, rfl, Nat.le_of_lt (Nat.mod_lt _ (by simp [kBlockSize])),
    by show data.length % kBlockSize % kBlockSize = _; rw [Nat.mod_mod]; rfl⟩

/-- C18 (WAL records never cross a block): for a writer created on an empty file at
offset 0, or on an existing file with its length as `dest_length`, and every sequence of
`AddRecord` calls, every call of `EmitPhysicalRecord` satisfies the assertions
`length <= 0xffff` and `block_offset_ + kHeaderSize + length <= kBlockSize`; and when
the file operations succeed the bytes appended are laid out as physical records
(`Layout`): each record, header and fragment, lies inside one 32768-byte block of the
file, and only a block tail shorter than seven bytes is skipped, filled with zero bytes. -/
theorem C18_wal_records_in_block (crc : Crc32c) (data : List Nat) (healthy : Bool)
    (w0 : Writer)
    (hw0 : (data = [] ∧ w0 = Writer.mk0 crc ⟨data, healthy⟩) ∨
      w0 = Writer.mkAt crc ⟨data, healthy⟩ data.length)
    (ps : List (List Nat)) :
    (∀ c ∈ Writer.AddRecordsCalls crc w0 ps,
      c.length ≤ 0xffff ∧ c.block_offset + kHeaderSize + c.length ≤ kBlockSize) ∧
    (healthy = true →
      ∃ w X items, Writer.AddRecords crc w0 ps = some w ∧ w.dest_.contents = data ++ X ∧
        Layout crc data.length X items ∧ Groups items ps ∧
        ∀ it ∈ items, it.offset / kBlockSize
          = (it.offset + kHeaderSize + it.payload.length - 1) / kBlockSize) := by
  have hw : w0 = Writer.mkAt crc ⟨data, healthy⟩ data.length := by
    rcases hw0 with ⟨h1, h2⟩ | h
    · rw [h2, h1]; rfl
    · exact h
  subst hw
  refine ⟨?_, ?_⟩
  · exact addRecords_calls crc ps _
      (Nat.le_of_lt (Nat.mod_lt _ (by simp [kBlockSize])))
  · intro hh
    subst hh
    obtain ⟨w, X, items, hrun, hcont, hlay, hgr, _⟩ :=
      addRecords_ok crc ps _ (WriterInv_mkAt crc data)
    refine ⟨w, X, items, hrun, hcont, hlay, hgr, ?_⟩
    intro it hit
    have hb := (Layout_bounds crc hlay it hit).2.2
    have hfit := Layout_fit crc hlay it hit
    simp only [kBlockSize, kHeaderSize] at *
    omega

/-- Witness for C18: two records written by a fresh writer on an empty file. -/
theorem C18_wal_records_in_block_witness :
    (∀ c ∈ Writer.AddRecordsCalls sampleCrc (Writer.mk0 sampleCrc ⟨[], true⟩) [[97], [98, 98, 98]],
      c.length ≤ 0xffff ∧ c.block_offset + kHeaderSize + c.length ≤ kBlockSize) ∧
    (true = true →
      ∃ w X items, Writer.AddRecords sampleCrc (Writer.mk0 sampleCrc ⟨[], true⟩)
          [[97], [98, 98, 98]] = some w ∧
        w.dest_.contents = [] ++ X ∧
        Layout sampleCrc ([] : List Nat).length X items ∧ Groups items [[97], [98, 98, 98]] ∧
        ∀ it ∈ items, it.offset / kBlockSize
          = (it.offset + kHeaderSize + it.payload.length - 1) / kBlockSize) :=
  C18_wal_records_in_block sampleCrc [] true (Writer.mk0 sampleCrc ⟨[], true⟩)
    (Or.inl ⟨rfl, rfl⟩) [[97], [98, 98, 98]]

end log
end leveldb

namespace leveldb
namespace log

/-- The fragments of one logical record: their payloads give the record back and their
types are `FULL`, or `FIRST`, `MIDDLE`s, `LAST`. -/
theorem Frag_shape {b : Bool} {g : List PhysRec} {P : List Nat} (h : Frag b g P) :
    (g.map (fun it => it.payload)).foldr (fun f acc => f ++ acc) [] = P ∧
    (b = true → g.length = 1 → g.map (fun it => it.type) = [kFullType]) ∧
    (b = true → 2 ≤ g.length →
      g.map (fun it => it.type)
        = kFirstType :: (List.replicate (g.length - 2) kMiddleType ++ [kLastType])) ∧
    (b = false →
      g.map (fun it => it.type) = List.replicate (g.length - 1) kMiddleType ++ [kLastType]) := by
  induction h with
  | full o P => simp
  | last o P => simp
  | first o f rest P hrest ih =>
    obtain ⟨ih1, _, _, ih4⟩ := ih
    have hpos := Frag_length_pos hrest
    refine ⟨by simp [ih1], ?_, ?_, by simp⟩
    · intro _ hl
      simp only [List.length_cons] at hl
      omega
    · intro _ _
      simp only [List.map_cons, List.length_cons, ih4 rfl]
      congr 2
  | middle o f rest P hrest ih =>
    obtain ⟨ih1, _, _, ih4⟩ := ih
    have hpos := Frag_length_pos hrest
    refine ⟨by simp [ih1], by simp, by simp, ?_⟩
    intro _
    simp only [List.map_cons, List.length_cons, ih4 rfl, Nat.add_sub_cancel]
    obtain ⟨n, hn⟩ : ∃ n, rest.length = n + 1 := ⟨rest.length - 1, by omega⟩
    rw [hn]
    simp [List.replicate_succ]

/-- `AddRecord` of the empty payload appends at most six padding bytes and one header. -/
theorem addRecord_empty (crc : Crc32c) (w : Writer) (hw : WriterInv crc w) :
    ∃ w1, w.AddRecord crc [] = some (Status.OK, w1) ∧
      w1.dest_.contents.length ≤ w.dest_.contents.length + 13 := by
  unfold Writer.AddRecord
  rw [show ([] : List Nat).length + 1 = 0 + 1 from rfl, addRecordLoop_unfold crc 0 w [] true hw]
  simp only [List.drop_nil, List.length_nil, Nat.lt_irrefl, gt_iff_lt, if_false]
  refine ⟨_, rfl, ?_⟩
  simp only [List.length_append, List.length_replicate, recordHeader_length, List.take_nil,
    List.length_nil]
  split <;> simp only [kHeaderSize] at * <;> omega

/-- C19 (WAL fragmentation): for every payload `P` and every writer state whose file
operations succeed, `AddRecord(P)` returns OK and appends `k ≥ 1` physical records
(`Layout`) whose fragments concatenate to `P` and whose types are `[FULL]` when `k = 1`
and `[FIRST, MIDDLE × (k - 2), LAST]` when `k ≥ 2`; for the empty payload it is exactly
one `FULL` record of length 0; and on a file that was empty before, a reader from offset
0 returns `P` (also when empty) as its one record, then false, without reports. -/
theorem C19_wal_fragmentation (crc : Crc32c) (hc : crc.Lawful) (w : Writer)
    (hw : WriterInv crc w) (P : List Nat) :
    ∃ w1 X items, w.AddRecord crc P = some (Status.OK, w1) ∧
      w1.dest_.contents = w.dest_.contents ++ X ∧
      Layout crc w.dest_.contents.length X items ∧
      1 ≤ items.length ∧
      (items.map (fun it => it.payload)).foldr (fun f acc => f ++ acc) [] = P ∧
      (items.length = 1 → items.map (fun it => it.type) = [kFullType]) ∧
      (2 ≤ items.length →
        items.map (fun it => it.type)
          = kFirstType :: (List.replicate (items.length - 2) kMiddleType ++ [kLastType])) ∧
      (P = [] → items.map (fun it => (it.type, it.payload)) = [(kFullType, [])]) ∧
      (w.dest_.contents = [] →
        ∃ r, Reader.ReadRecords crc 2 (Reader.mk0 ⟨w1.dest_.contents, true⟩ (some []) true 0)
            = some ([P], true, r) ∧ r.reporter_ = some []) := by
  obtain ⟨w1, X, items, hrun, hcont, hlay, hfrag, hw1, _⟩ := addRecord_ok crc w P hw
  obtain ⟨hs1, hs2, hs3, _⟩ := Frag_shape hfrag
  have hpos := Frag_length_pos hfrag
  refine ⟨w1, X, items, hrun, hcont, hlay, hpos, hs1, hs2 rfl, hs3 rfl, ?_, ?_⟩
  · intro hP
    subst hP
    obtain ⟨w2, hrun2, hlen2⟩ := addRecord_empty crc w hw
    rw [hrun] at hrun2
    cases hrun2
    have hX : X.length ≤ 13 := by
      have := congrArg List.length hcont
      rw [List.length_append] at this
      omega
    have h7 := Layout_length_le crc hlay
    have h1 : items.length = 1 := by omega
    have ht := hs2 rfl h1
    cases items with
    | nil => cases h1
    | cons it rest =>
      have hr : rest = [] := List.length_eq_zero.mp (by simpa using h1)
      subst hr
      simp only [List.map_cons, List.map_nil, List.foldr_cons, List.foldr_nil,
        List.append_nil, List.cons.injEq, and_true] at hs1 ht ⊢
      rw [ht, hs1]
  · intro hempty
    have hX : w1.dest_.contents = X := by rw [hcont, hempty]; rfl
    have hlay0 : Layout crc 0 X items := by
      have := hlay
      rw [hempty] at this
      exact this
    have hgr : Groups items [P] := by
      have := Groups.cons items [] P [] hfrag Groups.nil
      simpa using this
    obtain ⟨r, hread, hrep⟩ :=
      readRecords_groups crc hc items [P] hgr
        (Reader.mk0 ⟨w1.dest_.contents, true⟩ (some []) true 0) 0
        (Aligned_mk0 _ _ _ _) (by rw [hX]; exact hlay0) (Nat.not_lt_zero _)
        (fun _ _ => Nat.not_lt_zero _)
    exact ⟨r, hread, hrep⟩

/-- Witness for C19: the empty payload written by a fresh writer on an empty file. -/
theorem C19_wal_fragmentation_witness :
    ∃ w1 X items, (Writer.mk0 sampleCrc ⟨[], true⟩).AddRecord sampleCrc [] = some (Status.OK, w1) ∧
      w1.dest_.contents = (Writer.mk0 sampleCrc ⟨[], true⟩).dest_.contents ++ X ∧
      Layout sampleCrc (Writer.mk0 sampleCrc ⟨[], true⟩).dest_.contents.length X items ∧
      1 ≤ items.length ∧
      (items.map (fun it => it.payload)).foldr (fun f acc => f ++ acc) [] = [] ∧
      (items.length = 1 → items.map (fun it => it.type) = [kFullType]) ∧
      (2 ≤ items.length →
        items.map (fun it => it.type)
          = kFirstType :: (List.replicate (items.length - 2) kMiddleType ++ [kLastType])) ∧
      (([] : List Nat) = [] → items.map (fun it => (it.type, it.payload)) = [(kFullType, [])]) ∧
      ((Writer.mk0 sampleCrc ⟨[], true⟩).dest_.contents = [] →
        ∃ r, Reader.ReadRecords sampleCrc 2
            (Reader.mk0 ⟨w1.dest_.contents, true⟩ (some []) true 0)
            = some ([[]], true, r) ∧ r.reporter_ = some []) :=
  C19_wal_fragmentation sampleCrc sampleCrc_lawful (Writer.mk0 sampleCrc ⟨[], true⟩)
    (WriterInv_mk0 sampleCrc) []

end log
end leveldb

namespace leveldb
namespace log

end log
end leveldb

namespace leveldb
namespace log

end log
end leveldb

namespace leveldb
namespace log

theorem readRecords_more (crc : Crc32c) :
    ∀ (m : Nat) (r : Reader) (l : List (List Nat)) (r1 : Reader),
      Reader.ReadRecords crc m r = some (l, true, r1) →
      ∀ k, Reader.ReadRecords crc (m + k) r = some (l, true, r1) := by
  intro m
  induction m with
  | zero =>
    intro r l r1 h
    simp [Reader.ReadRecords] at h
  | succ m ih =>
    intro r l r1 h k
    rw [show m + 1 + k = (m + k) + 1 by omega]
    rw [Reader.ReadRecords] at h ⊢
    cases hrr : r.ReadRecord crc with
    | none => rw [hrr] at h; cases h
    | some res =>
      rw [hrr] at h
      simp only [] at h ⊢
      by_cases hok : res.ok = true
      · rw [if_pos hok] at h ⊢
        cases hrec : Reader.ReadRecords crc m res.reader with
        | none => rw [hrec] at h; cases h
        | some v =>
          obtain ⟨recs, done, r2⟩ := v
          rw [hrec] at h
          simp only [Option.some.injEq, Prod.mk.injEq] at h
          obtain ⟨h1, h2, h3⟩ := h
          subst h2
          rw [ih res.reader recs r2 hrec k]
          simp [h1, h3]
      · rw [if_neg hok] at h ⊢
        exact h

end log
end leveldb

namespace leveldb
namespace log

theorem Frag_prefix {b : Bool} {g : List PhysRec} {P : List Nat} (h : Frag b g P) :
    ∀ (g1 : List PhysRec) (it : PhysRec) (rest : List PhysRec), g = g1 ++ it :: rest →
      FragPre b g1 := by
  induction h with
  | full o P =>
    intro g1 it rest hg
    cases g1 with
    | nil => exact FragPre.nil _
    | cons a g2 =>
      simp only [List.cons_append, List.cons.injEq] at hg
      have := congrArg List.length hg.2
      simp at this
      omega
  | last o P =>
    intro g1 it rest hg
    cases g1 with
    | nil => exact FragPre.nil _
    | cons a g2 =>
      simp only [List.cons_append, List.cons.injEq] at hg
      have := congrArg List.length hg.2
      simp at this
      omega
  | first o f rest0 P hrest ih =>
    intro g1 it rest hg
    cases g1 with
    | nil => exact FragPre.nil _
    | cons a g2 =>
      simp only [List.cons_append, List.cons.injEq] at hg
      rw [← hg.1]
      exact FragPre.first o f g2 (ih g2 it rest hg.2)
  | middle o f rest0 P hrest ih =>
    intro g1 it rest hg
    cases g1 with
    | nil => exact FragPre.nil _
    | cons a g2 =>
      simp only [List.cons_append, List.cons.injEq] at hg
      rw [← hg.1]
      exact FragPre.middle o f g2 (ih g2 it rest hg.2)

theorem Records_ends_gt (crc : Crc32c) {o : Nat} {X : List Nat} {items : List PhysRec}
    {exts : List (Nat × Nat × List Nat)} (h : Records crc o X items exts) :
    ∀ e ∈ exts, o < e.2.1 := by
  induction h with
  | nil o => intro e he; cases he
  | cons o X1 g s P X2 items exts hl hf hh hr ih =>
    intro e he
    have h7 := Layout_length_le crc hl
    have hpos := Frag_length_pos hf
    rcases List.mem_cons.mp he with h | h
    · rw [h]
      show o < o + X1.length
      omega
    · have := ih e h
      omega

theorem filter_ends (exts1 exts2 : List (Nat × Nat × List Nat)) (n : Nat)
    (h1 : ∀ e ∈ exts1, e.2.1 ≤ n) (h2 : ∀ e ∈ exts2, n < e.2.1) :
    (exts1 ++ exts2).filter (fun e => decide (e.2.1 ≤ n)) = exts1 := by
  rw [List.filter_append]
  have e1 : exts1.filter (fun e => decide (e.2.1 ≤ n)) = exts1 :=
    List.filter_eq_self.mpr (fun e he => by simpa using h1 e he)
  have e2 : exts2.filter (fun e => decide (e.2.1 ≤ n)) = [] :=
    List.filter_eq_nil_iff.mpr (fun e he => by simpa using h2 e he)
  rw [e1, e2, List.append_nil]

end log
end leveldb

namespace leveldb
namespace log

end log
end leveldb

namespace leveldb
namespace SkipList

variable {K : Type} [Inhabited K]

theorem getD_set_list {α : Type} (l : List α) (i j : Nat) (a d : α) :
    (l.set i a).getD j d = if i = j ∧ i < l.length then a else l.getD j d := by
  simp only [List.getD_eq_getElem?_getD, List.getElem?_set]
  by_cases h : i = j
  · subst h
    by_cases h2 : i < l.length
    · simp [h2]
    · simp [h2]
      rw [List.getElem?_eq_none (by omega)]
      rfl
  · simp [h]

theorem node_SetNext (s : SkipList K) (x n : Nat) (v : Option Nat) (y : Nat) :
    (s.SetNext x n v).node y =
      if x = y ∧ x < s.nodes.length then { s.node x with next_ := (s.node x).next_.set n v }
      else s.node y := by
  unfold SetNext node
  exact getD_set_list _ _ _ _ _

theorem keyOf_SetNext (s : SkipList K) (x n : Nat) (v : Option Nat) (y : Nat) :
    (s.SetNext x n v).keyOf y = s.keyOf y := by
  unfold keyOf
  rw [node_SetNext]
  split
  · rename_i h; rw [h.1]
  · rfl

theorem height_SetNext (s : SkipList K) (x n : Nat) (v : Option Nat) (y : Nat) :
    (s.SetNext x n v).height y = s.height y := by
  unfold height
  rw [node_SetNext]
  split
  · rename_i h; rw [← h.1]; simp
  · rfl

theorem length_SetNext (s : SkipList K) (x n : Nat) (v : Option Nat) :
    (s.SetNext x n v).nodes.length = s.nodes.length := by
  simp [SetNext]

theorem Next_SetNext (s : SkipList K) (x n : Nat) (v : Option Nat) (y m : Nat) :
    (s.SetNext x n v).Next y m =
      if x = y ∧ n = m ∧ x < s.nodes.length ∧ n < s.height x then v else s.Next y m := by
  unfold Next
  rw [node_SetNext]
  by_cases h : x = y ∧ x < s.nodes.length
  · rw [if_pos h]
    obtain ⟨rfl, h2⟩ := h
    simp only [getD_set_list, height]
    by_cases h3 : n = m ∧ n < (s.node x).next_.length
    · rw [if_pos h3, if_pos ⟨trivial, h3.1, h2, h3.2⟩]
    · rw [if_neg h3, if_neg (fun hh => h3 ⟨hh.2.1, hh.2.2.2⟩)]
  · rw [if_neg h, if_neg (fun hh => h ⟨hh.1, hh.2.2.1⟩)]

theorem node_NewNode_old (s : SkipList K) (key : K) (h : Nat) (y : Nat)
    (hy : y < s.nodes.length) : (s.NewNode key h).2.node y = s.node y := by
  unfold NewNode node
  simp only [List.getD_eq_getElem?_getD]
  rw [List.getElem?_append_left hy]

theorem node_NewNode_new (s : SkipList K) (key : K) (h : Nat) :
    (s.NewNode key h).2.node s.nodes.length = ⟨key, List.replicate h none⟩ := by
  unfold NewNode node
  simp [List.getD_eq_getElem?_getD]

theorem node_out_of_range (s : SkipList K) (y : Nat) (hy : s.nodes.length ≤ y) :
    s.node y = ⟨default, []⟩ := by
  unfold node
  rw [List.getD_eq_getElem?_getD, List.getElem?_eq_none hy]
  rfl

end SkipList
end leveldb

namespace leveldb

theorem CmpLawful_refl {K : Type} {cmp : K → K → Int} (h : CmpLawful cmp) (a : K) :
    cmp a a = 0 := by
  have h1 := h.antisymm a a
  omega

theorem CmpLawful_lt_of_lt_of_not_lt {K : Type} {cmp : K → K → Int} (h : CmpLawful cmp)
    (a b c : K) (hab : cmp a b < 0) (hcb : ¬ cmp c b < 0) : cmp a c < 0 := by
  by_cases h0 : cmp c b = 0
  · exact (h.eq_right c b a h0).mpr hab
  · have : cmp c b > 0 := by omega
    exact h.trans a b c hab ((h.antisymm b c).mpr this)

theorem CmpLawful_lt_of_not_lt_of_lt {K : Type} {cmp : K → K → Int} (h : CmpLawful cmp)
    (a b c : K) (hba : ¬ cmp b a < 0) (hbc : cmp b c < 0) : cmp a c < 0 := by
  by_cases h0 : cmp b a = 0
  · exact (h.eq_left b a c h0).mp hbc
  · have : cmp b a > 0 := by omega
    exact h.trans a b c ((h.antisymm a b).mpr this) hbc

theorem CmpLawful_symm_zero {K : Type} {cmp : K → K → Int} (h : CmpLawful cmp)
    (a b : K) (hab : cmp a b = 0) : cmp b a = 0 := by
  have h1 := h.antisymm a b
  have h2 := h.antisymm b a
  omega

theorem natCompare_lawful : CmpLawful natCompare where
  antisymm := fun a b => by unfold natCompare; omega
  trans := fun a b c => by unfold natCompare; omega
  eq_left := fun a b c => by unfold natCompare; omega
  eq_right := fun a b c => by unfold natCompare; omega

namespace SkipList

variable {K : Type} [Inhabited K]

theorem Chain_suffix (s : SkipList K) (l : Nat) :
    ∀ (A : List Nat) (x y : Nat) (B : List Nat), Chain s l x (A ++ y :: B) → Chain s l y B := by
  intro A
  induction A with
  | nil => intro x y B h; exact h.2
  | cons a A ih => intro x y B h; exact ih a y B h.2

theorem Chain_frame (s t : SkipList K) (l : Nat) :
    ∀ (C : List Nat) (x : Nat), (∀ y ∈ x :: C, t.Next y l = s.Next y l) →
      Chain s l x C → Chain t l x C := by
  intro C
  induction C with
  | nil =>
    intro x hf h
    show t.Next x l = none
    rw [hf x (List.mem_cons_self _ _)]; exact h
  | cons c C ih =>
    intro x hf h
    refine ⟨?_, ih c (fun y hy => hf y (List.mem_cons_of_mem _ hy)) h.2⟩
    rw [hf x (List.mem_cons_self _ _)]; exact h.1

theorem Chain_next_none_or (s : SkipList K) (l x : Nat) (C : List Nat) (h : Chain s l x C) :
    s.Next x l = C.head? := by
  cases C with
  | nil => exact h
  | cons c C => exact h.1

/-- Linking a new node `n` after the last node of `A`. -/
theorem Chain_insert (s t : SkipList K) (l n : Nat) (B : List Nat) :
    ∀ (A : List Nat) (x : Nat),
      Chain s l x (A ++ B) → (x :: (A ++ B)).Nodup → n ∉ x :: (A ++ B) →
      (∀ y ∈ x :: (A ++ B), y ≠ (x :: A).getLast (List.cons_ne_nil _ _) →
        t.Next y l = s.Next y l) →
      t.Next ((x :: A).getLast (List.cons_ne_nil _ _)) l = some n →
      t.Next n l = s.Next ((x :: A).getLast (List.cons_ne_nil _ _)) l →
      Chain t l x (A ++ n :: B) := by
  intro A
  induction A with
  | nil =>
    intro x hch hnd hn hfr hp hnn
    simp only [List.getLast_singleton, List.nil_append] at *
    refine ⟨hp, ?_⟩
    -- the rest of the chain is untouched
    cases B with
    | nil =>
      show t.Next n l = none
      rw [hnn]; exact hch
    | cons b B =>
      refine ⟨by rw [hnn]; exact hch.1, ?_⟩
      apply Chain_frame s t l B b _ hch.2
      intro y hy
      apply hfr y (List.mem_cons_of_mem _ hy)
      intro hyx
      subst hyx
      exact (List.nodup_cons.mp hnd).1 hy
  | cons a A ih =>
    intro x hch hnd hn hfr hp hnn
    have hlast : (x :: a :: A).getLast (List.cons_ne_nil _ _)
        = (a :: A).getLast (List.cons_ne_nil _ _) := List.getLast_cons (List.cons_ne_nil _ _)
    rw [hlast] at hfr hp hnn
    have hnd2 : (a :: (A ++ B)).Nodup := (List.nodup_cons.mp hnd).2
    have hxne : x ≠ (a :: A).getLast (List.cons_ne_nil _ _) := by
      intro hx
      have hmem : (a :: A).getLast (List.cons_ne_nil _ _) ∈ a :: A := List.getLast_mem _
      have : x ∈ a :: (A ++ B) := by
        rw [hx]
        rcases List.mem_cons.mp hmem with h | h
        · rw [h]; exact List.mem_cons_self _ _
        · exact List.mem_cons_of_mem _ (List.mem_append_left _ h)
      exact (List.nodup_cons.mp hnd).1 this
    refine ⟨?_, ?_⟩
    · rw [hfr x (List.mem_cons_self _ _) hxne]
      exact hch.1
    · apply ih a hch.2 hnd2
      · intro hmem
        exact hn (List.mem_cons_of_mem _ hmem)
      · intro y hy hne
        exact hfr y (List.mem_cons_of_mem _ hy) hne
      · exact hp
      · exact hnn

theorem fillPrev_length (pred : Nat → Nat) (level : Nat) :
    ∀ (p : List (Option Nat)), (fillPrev pred p level).length = p.length := by
  induction level with
  | zero => intro p; simp [fillPrev]
  | succ l ih => intro p; rw [fillPrev, ih]; simp

theorem fillPrev_getD (pred : Nat → Nat) (level : Nat) :
    ∀ (p : List (Option Nat)) (i : Nat),
      (fillPrev pred p level).getD i none =
        if i ≤ level ∧ i < p.length then some (pred i) else p.getD i none := by
  induction level with
  | zero =>
    intro p i
    rw [fillPrev, getD_set_list]
    by_cases h : 0 = i ∧ 0 < p.length
    · rw [if_pos h, if_pos ⟨by omega, by omega⟩, ← h.1]
    · rw [if_neg h, if_neg (by omega)]
  | succ l ih =>
    intro p i
    rw [fillPrev, ih, List.length_set, getD_set_list]
    by_cases h1 : i ≤ l ∧ i < p.length
    · rw [if_pos h1, if_pos ⟨by omega, h1.2⟩]
    · rw [if_neg h1]
      by_cases h2 : l + 1 = i ∧ l + 1 < p.length
      · rw [if_pos h2, if_pos ⟨by omega, by omega⟩, ← h2.1]
      · rw [if_neg h2, if_neg (by omega)]

end SkipList
end leveldb

namespace leveldb
namespace SkipList

variable {K : Type} [Inhabited K]

theorem before_append_notBefore (cmp : K → K → Int) (s : SkipList K) (k : K)
    (order : List Nat) : before cmp s k order ++ notBefore cmp s k order = order :=
  List.takeWhile_append_dropWhile _ _

theorem before_lt (cmp : K → K → Int) (s : SkipList K) (k : K) (order : List Nat) :
    ∀ y ∈ before cmp s k order, cmp (s.keyOf y) k < 0 := by
  intro y hy
  have := List.mem_takeWhile_imp hy
  simpa using this

theorem notBefore_not_lt (cmp : K → K → Int) (hc : CmpLawful cmp) (s : SkipList K) (k : K) :
    ∀ (order : List Nat), order.Pairwise (fun a b => ¬ cmp (s.keyOf b) (s.keyOf a) < 0) →
      ∀ y ∈ notBefore cmp s k order, ¬ cmp (s.keyOf y) k < 0 := by
  intro order
  induction order with
  | nil => intro _ y hy; cases hy
  | cons a rest ih =>
    intro hs y hy
    unfold notBefore at hy
    rw [List.dropWhile_cons] at hy
    by_cases hp : cmp (s.keyOf a) k < 0
    · simp only [hp, decide_True, if_true] at hy
      exact ih (List.pairwise_cons.mp hs).2 y hy
    · simp only [hp, decide_False, Bool.false_eq_true, if_false] at hy
      rcases List.mem_cons.mp hy with h | h
      · rw [h]; exact hp
      · intro hlt
        have h1 := (List.pairwise_cons.mp hs).1 y h
        exact hp (CmpLawful_lt_of_not_lt_of_lt hc _ _ _ h1 hlt)

theorem getLast?_filter_of_last {α : Type} (p : α → Bool) :
    ∀ (L : List α) (x : α), L.getLast? = some x → p x = true →
      (L.filter p).getLast? = some x := by
  intro L x hl hp
  obtain ⟨L1, rfl⟩ : ∃ L1, L = L1 ++ [x] := by
    rcases List.getLast?_eq_some_iff.mp hl with ⟨ys, h⟩
    exact ⟨ys, h⟩
  rw [List.filter_append, List.filter_cons_of_pos hp, List.filter_nil]
  simp

/-- The level-`l` chain seen from a node `x` reached by the search: it continues
through the nodes after `x` of height above `l`. -/
theorem Chain_from (cmp : K → K → Int) (s : SkipList K) (order : List Nat)
    (hinv : Inv cmp s order) (L1 L2 : List Nat) (hsplit : order = L1 ++ L2)
    (x l : Nat) (hx : x = L1.getLast?.getD 0) (hh : L1 ≠ [] → l < s.height x)
    (hl : l < kMaxHeight) :
    Chain s l x (L2.filter (fun y => decide (l < s.height y))) := by
  have hch := hinv.chain l hl
  rw [hsplit, List.filter_append] at hch
  by_cases hnil : L1 = []
  · subst hnil
    simp at hx
    subst hx
    simpa using hch
  · obtain ⟨L0, z, rfl⟩ : ∃ L0 z, L1 = L0 ++ [z] := by
      rcases List.eq_nil_or_concat L1 with h | ⟨L0, z, h⟩
      · exact absurd h hnil
      · exact ⟨L0, z, by simpa using h⟩
    have hxz : x = z := by simpa using hx
    subst hxz
    rw [List.filter_append, List.filter_cons_of_pos (by simpa using hh hnil), List.filter_nil,
      List.append_assoc] at hch
    exact Chain_suffix s l _ 0 x _ hch

theorem FGELoop_after (cmp : K → K → Int) (s : SkipList K) (key : K) (fuel x level y : Nat)
    (prev : Option (List (Option Nat))) (hn : s.Next x level = some y)
    (hlt : cmp (s.keyOf y) key < 0) :
    FindGreaterOrEqualLoop cmp s key (fuel + 1) x level prev =
      FindGreaterOrEqualLoop cmp s key fuel y level prev := by
  rw [FindGreaterOrEqualLoop]
  have hk : KeyIsAfterNode cmp s key (some y) = true := by
    simpa [KeyIsAfterNode, keyOf] using hlt
  simp only [hn, hk]

theorem FGELoop_down (cmp : K → K → Int) (s : SkipList K) (key : K) (fuel x level : Nat)
    (prev : Option (List (Option Nat)))
    (hk : KeyIsAfterNode cmp s key (s.Next x level) = false) :
    FindGreaterOrEqualLoop cmp s key (fuel + 1) x level prev =
      if level = 0 then some (s.Next x level, prev.map (fun p => p.set level (some x)))
      else FindGreaterOrEqualLoop cmp s key fuel x (level - 1)
        (prev.map (fun p => p.set level (some x))) := by
  rw [FindGreaterOrEqualLoop]
  cases hn : s.Next x level with
  | none => simp
  | some y =>
    rw [hn] at hk
    simp [hk]

end SkipList
end leveldb

namespace leveldb
namespace SkipList

variable {K : Type} [Inhabited K]

theorem FGELoop_spec (cmp : K → K → Int) (hc : CmpLawful cmp) (s : SkipList K)
    (order : List Nat) (hinv : Inv cmp s order) (k : K) :
    ∀ (fuel level x : Nat) (L1 L2 : List Nat) (prev : Option (List (Option Nat))),
      before cmp s k order = L1 ++ L2 → x = L1.getLast?.getD 0 →
      (L1 ≠ [] → level < s.height x) → level < s.max_height_ →
      L2.length + level + 1 ≤ fuel →
      FindGreaterOrEqualLoop cmp s k fuel x level prev =
        some ((notBefore cmp s k order).head?,
          prev.map (fun p => fillPrev (predAt s (before cmp s k order)) p level)) := by
  intro fuel
  induction fuel with
  | zero => intro level x L1 L2 prev _ _ _ _ hf; omega
  | succ fuel ih =>
    intro level x L1 L2 prev hsplit hx hh hlev hfuel
    have hord : order = L1 ++ (L2 ++ notBefore cmp s k order) := by
      rw [← List.append_assoc, ← hsplit, before_append_notBefore]
    have hlevK : level < kMaxHeight := Nat.lt_of_lt_of_le hlev hinv.mh_le
    have hch := Chain_from cmp s order hinv L1 _ hord x level hx hh hlevK
    rw [List.filter_append] at hch
    have hge := notBefore_not_lt cmp hc s k order hinv.sorted
    cases hf2 : L2.filter (fun y => decide (level < s.height y)) with
    | cons y rest =>
      -- the next node on this level is still before the key
      rw [hf2] at hch
      obtain ⟨a, b, hL2, ha, hy, hb⟩ := List.filter_eq_cons_iff.mp hf2
      have hylt : cmp (s.keyOf y) k < 0 := by
        apply before_lt cmp s k order
        rw [hsplit, hL2]
        exact List.mem_append_right _ (List.mem_append_right _ (List.mem_cons_self _ _))
      rw [FGELoop_after cmp s k fuel x level y prev hch.1 hylt]
      apply ih level y (L1 ++ a ++ [y]) b prev
      · rw [hsplit, hL2]; simp
      · simp
      · intro _; simpa using hy
      · exact hlev
      · rw [hL2] at hfuel
        simp only [List.length_append, List.length_cons] at hfuel
        omega
    | nil =>
      -- the next node on this level is not before the key: go down
      rw [hf2, List.nil_append] at hch
      have hnext := Chain_next_none_or s level x _ hch
      have hk : KeyIsAfterNode cmp s k (s.Next x level) = false := by
        rw [hnext]
        cases hhd : (List.filter (fun y => decide (level < s.height y))
            (notBefore cmp s k order)).head? with
        | none => rfl
        | some g =>
          have hg : g ∈ notBefore cmp s k order :=
            (List.mem_filter.mp (List.mem_of_mem_head? hhd)).1
          simpa [KeyIsAfterNode, keyOf] using hge g hg
      have hpred : predAt s (before cmp s k order) level = x := by
        unfold predAt
        rw [hsplit, List.filter_append, hf2, List.append_nil]
        by_cases hnil : L1 = []
        · subst hnil
          simp [hx]
        · have hl : L1.getLast? = some x := by
            rcases List.eq_nil_or_concat L1 with h | ⟨L0, z, h⟩
            · exact absurd h hnil
            · subst h
              simp at hx ⊢
              exact hx.symm
          rw [getLast?_filter_of_last _ L1 x hl (by simpa using hh hnil)]
          rfl
      rw [FGELoop_down cmp s k fuel x level prev hk]
      by_cases h0 : level = 0
      · subst h0
        rw [if_pos rfl, hnext]
        have hall : (notBefore cmp s k order).filter (fun y => decide (0 < s.height y))
            = notBefore cmp s k order := by
          apply List.filter_eq_self.mpr
          intro y hy
          have hmem : y ∈ order := by
            rw [← before_append_notBefore cmp s k order]
            exact List.mem_append_right _ hy
          have := (hinv.height_ok y hmem).1
          simp only [decide_eq_true_eq]
          omega
        rw [hall]
        congr 2
        cases prev with
        | none => rfl
        | some p => simp [fillPrev, hpred]
      · rw [if_neg h0]
        obtain ⟨l, rfl⟩ : ∃ l, level = l + 1 := ⟨level - 1, by omega⟩
        rw [Nat.add_sub_cancel, ih l x L1 L2 _ hsplit hx (fun hn => by have := hh hn; omega) (by omega)
          (by omega)]
        congr 2
        cases prev with
        | none => rfl
        | some p => simp [fillPrev, hpred]

end SkipList
end leveldb

namespace leveldb
namespace SkipList

variable {K : Type} [Inhabited K]

theorem Inv_order_length (cmp : K → K → Int) (s : SkipList K) (order : List Nat)
    (hinv : Inv cmp s order) : order.length + 1 ≤ s.nodes.length := by
  have hsub : order ⊆ (List.range s.nodes.length).tail := by
    intro y hy
    have := (hinv.mem_order y).mp hy
    have hpos := hinv.nodes_pos
    obtain ⟨n, hn⟩ : ∃ n, s.nodes.length = n + 1 := ⟨s.nodes.length - 1, by omega⟩
    rw [hn, List.range_succ_eq_map, List.tail_cons]
    exact List.mem_map.mpr ⟨y - 1, List.mem_range.mpr (by omega), by omega⟩
  have h1 := (hinv.nodup.subperm hsub).length_le
  simp at h1
  have hpos := hinv.nodes_pos
  omega

theorem before_length_le (cmp : K → K → Int) (s : SkipList K) (k : K) (order : List Nat) :
    (before cmp s k order).length ≤ order.length := by
  have := congrArg List.length (before_append_notBefore cmp s k order)
  simp only [List.length_append] at this
  omega

/-- `FindGreaterOrEqual` returns the first node whose key is not before `key`, and
fills `prev` (when given) with the last node before `key` on every level in use. -/
theorem FGE_spec (cmp : K → K → Int) (hc : CmpLawful cmp) (s : SkipList K)
    (order : List Nat) (hinv : Inv cmp s order) (k : K) (prev : Option (List (Option Nat))) :
    FindGreaterOrEqual cmp s k prev =
      some ((notBefore cmp s k order).head?,
        prev.map (fun p => fillPrev (predAt s (before cmp s k order)) p (s.max_height_ - 1))) := by
  unfold FindGreaterOrEqual GetMaxHeight
  have h1 := Inv_order_length cmp s order hinv
  have h2 := before_length_le cmp s k order
  have h3 := hinv.mh_pos
  exact FGELoop_spec cmp hc s order hinv k _ _ 0 [] (before cmp s k order) prev rfl rfl
    (fun h => absurd rfl h) (by omega) (by omega)

theorem FLTLoop_eq_FGELoop (cmp : K → K → Int) (s : SkipList K) (k : K) :
    ∀ (fuel x level : Nat) (p : List (Option Nat)), 0 < p.length →
      FindLessThanLoop cmp s k fuel x level =
        (FindGreaterOrEqualLoop cmp s k fuel x level (some p)).bind
          (fun r => (r.2.getD []).getD 0 none) := by
  intro fuel
  induction fuel with
  | zero => intro x level p _; rfl
  | succ fuel ih =>
    intro x level p hp
    rw [FindLessThanLoop]
    cases hn : s.Next x level with
    | none =>
      have hk : KeyIsAfterNode cmp s k (s.Next x level) = false := by rw [hn]; rfl
      rw [FGELoop_down cmp s k fuel x level (some p) hk]
      by_cases h0 : level = 0
      · subst h0
        show some x = (p.set 0 (some x)).getD 0 none
        rw [getD_set_list, if_pos ⟨rfl, hp⟩]
      · simp only [if_neg h0, Option.map_some']
        exact ih x (level - 1) _ (by simpa using hp)
    | some y =>
      by_cases hge : cmp (s.node y).key k ≥ 0
      · have hk : KeyIsAfterNode cmp s k (s.Next x level) = false := by
          rw [hn]
          simp only [KeyIsAfterNode, decide_eq_false_iff_not]
          omega
        rw [FGELoop_down cmp s k fuel x level (some p) hk]
        simp only [if_pos hge]
        by_cases h0 : level = 0
        · subst h0
          show some x = (p.set 0 (some x)).getD 0 none
          rw [getD_set_list, if_pos ⟨rfl, hp⟩]
        · simp only [if_neg h0, Option.map_some']
          exact ih x (level - 1) _ (by simpa using hp)
      · simp only [if_neg hge]
        rw [FGELoop_after cmp s k fuel x level y (some p) hn (by unfold keyOf; omega)]
        exact ih y level p hp

/-- `FindLessThan` returns the last node whose key is before `key`, or the head. -/
theorem FLT_spec (cmp : K → K → Int) (hc : CmpLawful cmp) (s : SkipList K)
    (order : List Nat) (hinv : Inv cmp s order) (k : K) :
    FindLessThan cmp s k = some ((before cmp s k order).getLast?.getD 0) := by
  unfold FindLessThan
  rw [FLTLoop_eq_FGELoop cmp s k _ _ _ (List.replicate kMaxHeight none) (by simp [kMaxHeight])]
  have h := FGE_spec cmp hc s order hinv k (some (List.replicate kMaxHeight none))
  unfold FindGreaterOrEqual at h
  unfold GetMaxHeight at h ⊢
  rw [h]
  show (fillPrev (s.predAt (before cmp s k order)) (List.replicate kMaxHeight none)
    (s.max_height_ - 1)).getD 0 none = _
  rw [fillPrev_getD, if_pos ⟨Nat.zero_le _, by simp [kMaxHeight]⟩]
  unfold predAt
  have hall : (before cmp s k order).filter (fun y => decide (0 < s.height y))
      = before cmp s k order := by
    apply List.filter_eq_self.mpr
    intro y hy
    have hmem : y ∈ order := by
      rw [← before_append_notBefore cmp s k order]
      exact List.mem_append_left _ hy
    have := (hinv.height_ok y hmem).1
    simp only [decide_eq_true_eq]
    omega
  rw [hall]

end SkipList
end leveldb

namespace leveldb
namespace SkipList

variable {K : Type} [Inhabited K]

theorem RandomHeightLoop_bounds (rnd : Random) :
    ∀ (fuel height st : Nat), height ≤ kMaxHeight →
      height ≤ (RandomHeightLoop rnd fuel height st).1 ∧
      (RandomHeightLoop rnd fuel height st).1 ≤ kMaxHeight := by
  intro fuel
  induction fuel with
  | zero => intro height st h; exact ⟨Nat.le_refl _, h⟩
  | succ fuel ih =>
    intro height st h
    rw [RandomHeightLoop]
    split
    · rename_i hlt
      simp only []
      split
      · have := ih (height + 1) (rnd.OneIn st kBranching).2 hlt
        exact ⟨by omega, this.2⟩
      · exact ⟨Nat.le_refl _, h⟩
    · exact ⟨Nat.le_refl _, h⟩

omit [Inhabited K] in
theorem RandomHeight_bounds (rnd : Random) (s : SkipList K) :
    1 ≤ (s.RandomHeight rnd).1 ∧ (s.RandomHeight rnd).1 ≤ kMaxHeight :=
  RandomHeightLoop_bounds rnd kMaxHeight 1 s.rnd_ (by simp [kMaxHeight])

theorem seed_getD (a : Nat) :
    ∀ (n : Nat) (p : List (Option Nat)) (i : Nat),
      ((List.range' a n).foldl (fun p i => p.set i (some 0)) p).getD i none =
        if a ≤ i ∧ i < a + n ∧ i < p.length then some 0 else p.getD i none := by
  intro n
  induction n generalizing a with
  | zero =>
    intro p i
    simp only [List.range'_zero, List.foldl_nil]
    rw [if_neg (by omega)]
  | succ n ih =>
    intro p i
    rw [List.range'_succ, List.foldl_cons, ih, List.length_set, getD_set_list]
    by_cases h1 : a + 1 ≤ i ∧ i < a + 1 + n ∧ i < p.length
    · rw [if_pos h1, if_pos (by omega)]
    · rw [if_neg h1]
      by_cases h2 : a = i ∧ a < p.length
      · rw [if_pos h2, if_pos (by omega)]
      · rw [if_neg h2, if_neg (by omega)]

theorem linkLevels_spec (x : Nat) (prev : List (Option Nat)) (pv : Nat → Nat) :
    ∀ (levels : List Nat) (s : SkipList K), levels.Nodup → x < s.nodes.length →
      (∀ i ∈ levels, prev.getD i none = some (pv i) ∧ pv i ≠ x ∧ pv i < s.nodes.length ∧
        i < s.height (pv i) ∧ i < s.height x) →
      ∃ t, linkLevels s x prev levels = some t ∧ t.nodes.length = s.nodes.length ∧
        t.max_height_ = s.max_height_ ∧
        (∀ y, t.keyOf y = s.keyOf y) ∧ (∀ y, t.height y = s.height y) ∧
        (∀ y l, t.Next y l =
          if l ∈ levels then
            (if y = x then s.Next (pv l) l else if y = pv l then some x else s.Next y l)
          else s.Next y l) := by
  intro levels
  induction levels with
  | nil =>
    intro s _ _ _
    exact ⟨s, rfl, rfl, rfl, fun _ => rfl, fun _ => rfl, fun y l => by simp⟩
  | cons i rest ih =>
    intro s hnd hx hlev
    obtain ⟨hpi, hpx, hplt, hih, hix⟩ := hlev i (List.mem_cons_self _ _)
    have hnd' := List.nodup_cons.mp hnd
    let s1 := s.SetNext x i (s.Next (pv i) i)
    let s2 := s1.SetNext (pv i) i (some x)
    have hlen2 : s2.nodes.length = s.nodes.length := by
      simp only [s2, s1, length_SetNext]
    have hkey2 : ∀ y, s2.keyOf y = s.keyOf y := by
      intro y; simp only [s2, s1, keyOf_SetNext]
    have hht2 : ∀ y, s2.height y = s.height y := by
      intro y; simp only [s2, s1, height_SetNext]
    have hnext2 : ∀ y l, s2.Next y l =
        if l = i then (if y = pv i then some x else if y = x then s.Next (pv i) i
          else s.Next y l) else s.Next y l := by
      intro y l
      simp only [s2, s1, Next_SetNext, length_SetNext, height_SetNext]
      by_cases hl : l = i
      · subst hl
        by_cases hy : y = pv l
        · subst hy
          rw [if_pos ⟨rfl, rfl, hplt, hih⟩]
          simp
        · rw [if_neg (fun h => hy h.1.symm)]
          by_cases hy2 : y = x
          · subst hy2
            rw [if_pos ⟨rfl, rfl, hx, hix⟩]
            simp [hy]
          · rw [if_neg (fun h => hy2 h.1.symm)]
            simp [hy, hy2]
      · rw [if_neg (fun h => hl h.2.1.symm), if_neg (fun h => hl h.2.1.symm), if_neg hl]
    obtain ⟨t, hrun, hlen, hmh, hkey, hht, hnext⟩ := ih s2 hnd'.2 (by rw [hlen2]; exact hx)
      (fun j hj => by
        obtain ⟨h1, h2, h3, h4, h5⟩ := hlev j (List.mem_cons_of_mem _ hj)
        exact ⟨h1, h2, by rw [hlen2]; exact h3, by rw [hht2]; exact h4, by rw [hht2]; exact h5⟩)
    refine ⟨t, ?_, hlen.trans hlen2, hmh, fun y => (hkey y).trans (hkey2 y),
      fun y => (hht y).trans (hht2 y), ?_⟩
    · rw [linkLevels, hpi]
      exact hrun
    · intro y l
      rw [hnext y l]
      by_cases hl : l ∈ rest
      · have hli : l ≠ i := fun h => hnd'.1 (h ▸ hl)
        rw [if_pos hl, if_pos (List.mem_cons_of_mem _ hl)]
        rw [hnext2, hnext2, if_neg hli, if_neg hli]
      · rw [if_neg hl, hnext2]
        by_cases hli : l = i
        · subst hli
          rw [if_pos rfl, if_pos (List.mem_cons_self _ _)]
          by_cases hy : y = x
          · have hxp : ¬ x = pv l := fun h => hpx h.symm
            simp [hy, hxp]
          · by_cases hy2 : y = pv l
            · simp [hy2, hpx]
            · simp [hy, hy2]
        · rw [if_neg hli, if_neg (by simp [hl, hli])]

end SkipList
end leveldb

namespace leveldb
namespace SkipList

variable {K : Type} [Inhabited K]

theorem node_congr (s t : SkipList K) (h : t.nodes = s.nodes) (y : Nat) : t.node y = s.node y := by
  unfold node; rw [h]

theorem predAt_mem (s : SkipList K) (ids : List Nat) (l : Nat) :
    predAt s ids l = 0 ∨ (predAt s ids l ∈ ids ∧ l < s.height (predAt s ids l)) := by
  unfold predAt
  cases h : (ids.filter (fun y => decide (l < s.height y))).getLast? with
  | none => left; rfl
  | some z =>
    right
    have hm := List.mem_of_getLast?_eq_some h
    have := List.mem_filter.mp hm
    exact ⟨this.1, by simpa using this.2⟩

theorem predAt_eq_getLast (s : SkipList K) (ids : List Nat) (l : Nat) :
    (0 :: ids.filter (fun y => decide (l < s.height y))).getLast (List.cons_ne_nil _ _)
      = predAt s ids l := by
  unfold predAt
  rcases List.eq_nil_or_concat (ids.filter (fun y => decide (l < s.height y))) with h | ⟨L, z, h⟩
  · rw [h]; rfl
  · rw [h]; simp

/-- The state in which `Insert` links the new node and the array `prev` it uses. -/
theorem Insert_unfold (cmp : K → K → Int) (hc : CmpLawful cmp) (rnd : Random) (s : SkipList K)
    (order : List Nat) (hinv : Inv cmp s order) (k : K) :
    ∃ (s3 : SkipList K) (prev2 : List (Option Nat)),
      s.Insert cmp rnd k = linkLevels s3 s.nodes.length prev2
        (List.range (s.RandomHeight rnd).1) ∧
      s3.nodes = s.nodes ++ [⟨k, List.replicate (s.RandomHeight rnd).1 none⟩] ∧
      s3.max_height_ = max s.max_height_ (s.RandomHeight rnd).1 ∧
      (∀ i, i < (s.RandomHeight rnd).1 →
        prev2.getD i none = some (predAt s (before cmp s k order) i)) := by
  have hfge := FGE_spec cmp hc s order hinv k (some (List.replicate kMaxHeight none))
  have hb := RandomHeight_bounds rnd s
  have hmh1 : (s.RandomHeight rnd).2.GetMaxHeight = s.max_height_ := rfl
  have hn1 : (s.RandomHeight rnd).2.nodes = s.nodes := rfl
  have hprev1 : ∀ i, (fillPrev (predAt s (before cmp s k order))
      (List.replicate kMaxHeight none) (s.max_height_ - 1)).getD i none
      = if i < s.max_height_ then some (predAt s (before cmp s k order) i) else none := by
    intro i
    rw [fillPrev_getD]
    have h1 := hinv.mh_pos
    have h2 := hinv.mh_le
    by_cases hi : i < s.max_height_
    · rw [if_pos hi, if_pos ⟨by omega, by simp; omega⟩]
    · rw [if_neg hi, if_neg (by omega)]
      simp only [List.getD_eq_getElem?_getD, List.getElem?_replicate]
      split <;> rfl
  unfold Insert
  rw [hfge]
  simp only [Option.map_some', hmh1]
  by_cases hgt : (s.RandomHeight rnd).1 > s.max_height_
  · simp only [if_pos hgt]
    refine ⟨_, _, rfl, ?_, ?_, ?_⟩
    · simp [NewNode, hn1]
    · show (s.RandomHeight rnd).1 = max s.max_height_ (s.RandomHeight rnd).1
      omega
    · intro i hi
      rw [seed_getD, fillPrev_length, hprev1]
      by_cases h1 : i < s.max_height_
      · rw [if_neg (by omega), if_pos h1]
      · rw [if_pos ⟨by omega, by omega, by simp [kMaxHeight] at hb ⊢; omega⟩]
        congr 1
        rcases predAt_mem s (before cmp s k order) i with h | ⟨hm, hh⟩
        · exact h.symm
        · exfalso
          have hmem : predAt s (before cmp s k order) i ∈ order := by
            have := List.mem_append_left (notBefore cmp s k order) hm
            rwa [before_append_notBefore cmp s k order] at this
          have := (hinv.height_ok _ hmem).2
          omega
  · simp only [if_neg hgt]
    refine ⟨_, _, rfl, ?_, ?_, ?_⟩
    · simp [NewNode, hn1]
    · show s.max_height_ = max s.max_height_ (s.RandomHeight rnd).1
      omega
    · intro i hi
      rw [hprev1, if_pos (by omega)]

end SkipList
end leveldb

namespace leveldb
namespace SkipList

variable {K : Type} [Inhabited K]

/-- `Insert` keeps the structural invariant: the new node is put, in key order, between
the nodes whose key is before the new key and the others. -/
theorem Insert_inv (cmp : K → K → Int) (hc : CmpLawful cmp) (rnd : Random) (s : SkipList K)
    (order : List Nat) (hinv : Inv cmp s order) (k : K) :
    ∃ t, s.Insert cmp rnd k = some t ∧
      Inv cmp t (before cmp s k order ++ s.nodes.length :: notBefore cmp s k order) ∧
      t.nodes.length = s.nodes.length + 1 ∧
      t.keyOf s.nodes.length = k ∧ (∀ y, y < s.nodes.length → t.keyOf y = s.keyOf y) ∧
      s.max_height_ ≤ t.max_height_ ∧ t.max_height_ ≤ kMaxHeight := by
  obtain ⟨s3, prev2, hins, hnodes3, hmh3, hprev2⟩ := Insert_unfold cmp hc rnd s order hinv k
  have hb := RandomHeight_bounds rnd s
  generalize hh : (s.RandomHeight rnd).1 = h at hins hnodes3 hmh3 hprev2 hb
  have happ := before_append_notBefore cmp s k order
  generalize hlt : before cmp s k order = lt at hprev2 happ ⊢
  generalize hge : notBefore cmp s k order = ge at happ ⊢
  have hltlt : ∀ y ∈ lt, cmp (s.keyOf y) k < 0 := by
    rw [← hlt]; exact before_lt cmp s k order
  have hgege : ∀ y ∈ ge, ¬ cmp (s.keyOf y) k < 0 := by
    rw [← hge]; exact notBefore_not_lt cmp hc s k order hinv.sorted
  have hnpos := hinv.nodes_pos
  have hlen3 : s3.nodes.length = s.nodes.length + 1 := by rw [hnodes3]; simp
  have hord_lt : ∀ y ∈ order, y < s.nodes.length := fun y hy => ((hinv.mem_order y).mp hy).2
  have hord_pos : ∀ y ∈ order, 1 ≤ y := fun y hy => ((hinv.mem_order y).mp hy).1
  have hlt_ord : ∀ y ∈ lt, y ∈ order := fun y hy => by
    rw [← happ]; exact List.mem_append_left _ hy
  have hge_ord : ∀ y ∈ ge, y ∈ order := fun y hy => by
    rw [← happ]; exact List.mem_append_right _ hy
  -- the nodes of `s3`
  have hnode_old : ∀ y, y < s.nodes.length → s3.node y = s.node y := by
    intro y hy
    unfold node
    rw [hnodes3]
    simp only [List.getD_eq_getElem?_getD]
    rw [List.getElem?_append_left hy]
  have hnode_new : s3.node s.nodes.length = ⟨k, List.replicate h none⟩ := by
    unfold node
    rw [hnodes3]
    simp [List.getD_eq_getElem?_getD]
  have hnext3 : ∀ y l, y < s.nodes.length → s3.Next y l = s.Next y l := by
    intro y l hy; unfold Next; rw [hnode_old y hy]
  have hheight3 : ∀ y, y < s.nodes.length → s3.height y = s.height y := by
    intro y hy; unfold height; rw [hnode_old y hy]
  have hkey3 : ∀ y, y < s.nodes.length → s3.keyOf y = s.keyOf y := by
    intro y hy; unfold keyOf; rw [hnode_old y hy]
  have hheight3n : s3.height s.nodes.length = h := by
    unfold height; rw [hnode_new]; simp
  have hkey3n : s3.keyOf s.nodes.length = k := by
    unfold keyOf; rw [hnode_new]
  -- the predecessors
  have hpv : ∀ i, i < h → predAt s lt i ≠ s.nodes.length ∧ predAt s lt i < s.nodes.length ∧
      i < s.height (predAt s lt i) := by
    intro i hi
    rcases predAt_mem s lt i with h0 | ⟨hm, hht⟩
    · rw [h0]
      have := hinv.head_height
      exact ⟨by omega, by omega, by omega⟩
    · have := hord_lt _ (hlt_ord _ hm)
      exact ⟨by omega, this, hht⟩
  obtain ⟨t, hrun, hlent, hmht, hkeyt, hheightt, hnextt⟩ :=
    linkLevels_spec s.nodes.length prev2 (predAt s lt) (List.range h) s3 (List.nodup_range h)
      (by omega)
      (fun i hi => by
        have hi' := List.mem_range.mp hi
        obtain ⟨h1, h2, h3⟩ := hpv i hi'
        exact ⟨hprev2 i hi', h1, by omega, by rw [hheight3 _ h2]; exact h3,
          by rw [hheight3n]; exact hi'⟩)
  have hkeyt_old : ∀ y, y < s.nodes.length → t.keyOf y = s.keyOf y :=
    fun y hy => (hkeyt y).trans (hkey3 y hy)
  have hkeyt_new : t.keyOf s.nodes.length = k := (hkeyt _).trans hkey3n
  have hheightt_old : ∀ y, y < s.nodes.length → t.height y = s.height y :=
    fun y hy => (hheightt y).trans (hheight3 y hy)
  have hheightt_new : t.height s.nodes.length = h := (hheightt _).trans hheight3n
  refine ⟨t, hins.trans hrun, ?_, hlent.trans hlen3, hkeyt_new, hkeyt_old,
    by rw [hmht, hmh3]; omega, by rw [hmht, hmh3]; have := hinv.mh_le; omega⟩
  have hsorted := hinv.sorted
  rw [← happ, List.pairwise_append] at hsorted
  have hnodup := hinv.nodup
  rw [← happ] at hnodup
  have hn_notin : s.nodes.length ∉ lt ++ ge := by
    intro hm
    rw [happ] at hm
    have := hord_lt _ hm
    omega
  refine
    { head_height := by rw [hheightt_old 0 hnpos]; exact hinv.head_height
      nodes_pos := by rw [hlent, hlen3]; omega
      mh_pos := by rw [hmht, hmh3]; have := hinv.mh_pos; omega
      mh_le := by rw [hmht, hmh3]; have := hinv.mh_le; omega
      mem_order := ?_
      nodup := ?_
      sorted := ?_
      height_ok := ?_
      chain := ?_ }
  · intro y
    rw [hlent, hlen3, List.mem_append, List.mem_cons]
    constructor
    · rintro (h1 | h1 | h1)
      · have := hord_lt _ (hlt_ord _ h1); have := hord_pos _ (hlt_ord _ h1); omega
      · omega
      · have := hord_lt _ (hge_ord _ h1); have := hord_pos _ (hge_ord _ h1); omega
    · rintro ⟨h1, h2⟩
      by_cases hy : y = s.nodes.length
      · exact Or.inr (Or.inl hy)
      · have hmem : y ∈ lt ++ ge := by
          rw [happ]; exact (hinv.mem_order y).mpr ⟨h1, by omega⟩
        rcases List.mem_append.mp hmem with h3 | h3
        · exact Or.inl h3
        · exact Or.inr (Or.inr h3)
  · exact List.nodup_middle.mpr (List.nodup_cons.mpr ⟨hn_notin, hnodup⟩)
  · rw [List.pairwise_append]
    refine ⟨?_, ?_, ?_⟩
    · apply hsorted.1.imp_of_mem
      intro a b ha hb hab
      rw [hkeyt_old a (hord_lt _ (hlt_ord _ ha)), hkeyt_old b (hord_lt _ (hlt_ord _ hb))]
      exact hab
    · rw [List.pairwise_cons]
      refine ⟨?_, ?_⟩
      · intro b hb
        rw [hkeyt_new, hkeyt_old b (hord_lt _ (hge_ord _ hb))]
        exact hgege b hb
      · apply hsorted.2.1.imp_of_mem
        intro a b ha hb hab
        rw [hkeyt_old a (hord_lt _ (hge_ord _ ha)), hkeyt_old b (hord_lt _ (hge_ord _ hb))]
        exact hab
    · intro a ha b hb
      rw [hkeyt_old a (hord_lt _ (hlt_ord _ ha))]
      rcases List.mem_cons.mp hb with h1 | h1
      · rw [h1, hkeyt_new]
        have h2 := hltlt a ha
        have h3 := hc.antisymm (s.keyOf a) k
        omega
      · rw [hkeyt_old b (hord_lt _ (hge_ord _ h1))]
        exact hsorted.2.2 a ha b h1
  · intro y hy
    rw [hmht, hmh3]
    rcases List.mem_append.mp hy with h1 | h1
    · rw [hheightt_old y (hord_lt _ (hlt_ord _ h1))]
      have := hinv.height_ok y (hlt_ord _ h1)
      omega
    · rcases List.mem_cons.mp h1 with h2 | h2
      · rw [h2, hheightt_new]; omega
      · rw [hheightt_old y (hord_lt _ (hge_ord _ h2))]
        have := hinv.height_ok y (hge_ord _ h2)
        omega
  · intro l hl
    have hfl : lt.filter (fun y => decide (l < t.height y))
        = lt.filter (fun y => decide (l < s.height y)) := by
      apply List.filter_congr
      intro y hy
      rw [hheightt_old y (hord_lt _ (hlt_ord _ hy))]
    have hfg : ge.filter (fun y => decide (l < t.height y))
        = ge.filter (fun y => decide (l < s.height y)) := by
      apply List.filter_congr
      intro y hy
      rw [hheightt_old y (hord_lt _ (hge_ord _ hy))]
    have hold := hinv.chain l hl
    rw [← happ, List.filter_append] at hold
    have hmemAB : ∀ y ∈ (0 : Nat) :: (lt.filter (fun y => decide (l < s.height y))
        ++ ge.filter (fun y => decide (l < s.height y))), y < s.nodes.length := by
      intro y hy
      rcases List.mem_cons.mp hy with h1 | h1
      · omega
      · rcases List.mem_append.mp h1 with h2 | h2
        · exact hord_lt _ (hlt_ord _ (List.mem_filter.mp h2).1)
        · exact hord_lt _ (hge_ord _ (List.mem_filter.mp h2).1)
    rw [List.filter_append, hfl]
    by_cases hlh : l < h
    · rw [List.filter_cons_of_pos (by rw [hheightt_new]; simpa using hlh), hfg]
      have hpvl := hpv l hlh
      apply Chain_insert s t l s.nodes.length _ _ 0 hold
      · apply List.nodup_cons.mpr
        refine ⟨?_, ?_⟩
        · intro h0
          rcases List.mem_append.mp h0 with h2 | h2
          · have := hord_pos _ (hlt_ord _ (List.mem_filter.mp h2).1); omega
          · have := hord_pos _ (hge_ord _ (List.mem_filter.mp h2).1); omega
        · rw [← List.filter_append]
          exact hnodup.sublist (List.filter_sublist _)
      · intro hm
        have := hmemAB _ hm
        omega
      · intro y hy hyne
        rw [predAt_eq_getLast] at hyne
        have hyn := hmemAB y hy
        rw [hnextt, if_pos (List.mem_range.mpr hlh), if_neg (by omega), if_neg hyne]
        exact hnext3 y l hyn
      · rw [predAt_eq_getLast, hnextt, if_pos (List.mem_range.mpr hlh), if_neg hpvl.1,
          if_pos rfl]
      · rw [predAt_eq_getLast, hnextt, if_pos (List.mem_range.mpr hlh), if_pos rfl]
        exact hnext3 _ l hpvl.2.1
    · rw [List.filter_cons_of_neg (by rw [hheightt_new]; simpa using hlh), hfg]
      apply Chain_frame s t l _ 0 _ hold
      intro y hy
      rw [hnextt, if_neg (by simpa using hlh)]
      exact hnext3 y l (hmemAB y hy)

end SkipList
end leveldb

namespace leveldb
namespace SkipList

variable {K : Type} [Inhabited K]

theorem mk0_eq (rnd : Random) :
    (mk0 rnd : SkipList K) =
      { nodes := [⟨default, List.replicate kMaxHeight none⟩], max_height_ := 1,
        rnd_ := rnd.init 0xdeadbeef } := by
  simp [mk0, NewNode, SetNext, node, kMaxHeight, List.range, List.range.loop, List.replicate]

theorem mk0_inv (cmp : K → K → Int) (rnd : Random) : Inv cmp (mk0 rnd : SkipList K) [] := by
  rw [mk0_eq]
  refine
    { head_height := by simp [height, node]
      nodes_pos := by simp
      mh_pos := Nat.le_refl _
      mh_le := by simp [kMaxHeight]
      mem_order := by intro y; simp; omega
      nodup := List.nodup_nil
      sorted := List.Pairwise.nil
      height_ok := by intro y hy; cases hy
      chain := ?_ }
  intro l hl
  show Next _ 0 l = none
  simp only [Next, node, List.getD_eq_getElem?_getD, List.getElem?_replicate,
    List.getElem?_cons_zero, Option.getD_some]
  split <;> rfl

theorem InsertAll_inv (cmp : K → K → Int) (hc : CmpLawful cmp) (rnd : Random) :
    ∀ (ks : List K) (s : SkipList K) (order : List Nat), Inv cmp s order →
      ∃ t order1, InsertAll cmp rnd s ks = some t ∧ Inv cmp t order1 ∧
        (order1.map t.keyOf).Perm (order.map s.keyOf ++ ks) := by
  intro ks
  induction ks with
  | nil =>
    intro s order hinv
    exact ⟨s, order, rfl, hinv, by simp⟩
  | cons k ks ih =>
    intro s order hinv
    obtain ⟨t1, hins, hinv1, hlen1, hkn, hkold, _, _⟩ := Insert_inv cmp hc rnd s order hinv k
    obtain ⟨t, order2, hrun, hinv2, hperm⟩ := ih t1 _ hinv1
    refine ⟨t, order2, ?_, hinv2, hperm.trans ?_⟩
    · rw [InsertAll, hins]
      exact hrun
    · have happ := before_append_notBefore cmp s k order
      have hlt : ∀ y ∈ order, y < s.nodes.length := fun y hy => ((hinv.mem_order y).mp hy).2
      have hmapB : (before cmp s k order).map t1.keyOf = (before cmp s k order).map s.keyOf := by
        apply List.map_congr_left
        intro y hy
        exact hkold y (hlt y (by rw [← happ]; exact List.mem_append_left _ hy))
      have hmapN : (notBefore cmp s k order).map t1.keyOf
          = (notBefore cmp s k order).map s.keyOf := by
        apply List.map_congr_left
        intro y hy
        exact hkold y (hlt y (by rw [← happ]; exact List.mem_append_right _ hy))
      rw [List.map_append, List.map_cons, hmapB, hmapN, hkn]
      have h1 : order.map s.keyOf = (before cmp s k order).map s.keyOf
          ++ (notBefore cmp s k order).map s.keyOf := by
        rw [← List.map_append, happ]
      rw [h1]
      simp only [List.append_assoc]
      apply List.Perm.append_left
      exact List.perm_middle.symm

end SkipList

namespace SkipIterator

variable {K : Type} [Inhabited K]

theorem collect_chain (s : SkipList K) :
    ∀ (ids : List Nat) (x fuel : Nat), SkipList.Chain s 0 x ids → ids.length < fuel →
      collect s fuel ⟨s.Next x 0⟩ = (ids.map s.keyOf, ⟨none⟩) := by
  intro ids
  induction ids with
  | nil =>
    intro x fuel hch hf
    obtain ⟨f, rfl⟩ : ∃ f, fuel = f + 1 := ⟨fuel - 1, by simp at hf; omega⟩
    have : s.Next x 0 = none := hch
    rw [this]
    rfl
  | cons y ys ih =>
    intro x fuel hch hf
    obtain ⟨f, rfl⟩ : ∃ f, fuel = f + 1 := ⟨fuel - 1, by simp at hf; omega⟩
    rw [hch.1, collect]
    have h := ih y f hch.2 (by simp at hf; omega)
    simp only [Valid, Option.isSome_some, if_true, Next, h, key, List.map_cons]
    rfl

end SkipIterator
end leveldb

namespace leveldb
namespace SkipList

variable {K : Type} [Inhabited K]

theorem built_inv (cmp : K → K → Int) (hc : CmpLawful cmp) (rnd : Random) (ks : List K) :
    ∃ s order, InsertAll cmp rnd (mk0 rnd) ks = some s ∧ Inv cmp s order ∧
      (order.map s.keyOf).Perm ks := by
  obtain ⟨t, order, hrun, hinv, hperm⟩ := InsertAll_inv cmp hc rnd ks (mk0 rnd) [] (mk0_inv cmp rnd)
  exact ⟨t, order, hrun, hinv, by simpa using hperm⟩

theorem Inv_level0 (cmp : K → K → Int) (s : SkipList K) (order : List Nat)
    (hinv : Inv cmp s order) (L : List Nat) (hL : ∀ y ∈ L, y ∈ order) :
    L.filter (fun y => decide (0 < s.height y)) = L := by
  apply List.filter_eq_self.mpr
  intro y hy
  have := (hinv.height_ok y (hL y hy)).1
  simp only [decide_eq_true_eq]
  omega

theorem collect_inv (cmp : K → K → Int) (s : SkipList K) (order : List Nat)
    (hinv : Inv cmp s order) (fuel : Nat) (hf : order.length < fuel) :
    SkipIterator.collect s fuel (SkipIterator.SeekToFirst s) = (order.map s.keyOf, ⟨none⟩) := by
  have hch := hinv.chain 0 (by simp [kMaxHeight])
  rw [Inv_level0 cmp s order hinv order (fun _ h => h)] at hch
  exact SkipIterator.collect_chain s order 0 fuel hch hf

end SkipList

/-- C4 (skip-list iteration is sorted and complete): after `Insert` calls with keys `ks`
that are pairwise non-equal under a lawful comparator, the keys visited from
`SeekToFirst` by repeated `Next` are a permutation of `ks` (every inserted key exactly
once), are strictly increasing under the comparator, and the iterator ends invalid
(for `ks = []` this says that `SeekToFirst` leaves it invalid). -/
theorem C4_skiplist_iteration {K : Type} [Inhabited K] (cmp : K → K → Int)
    (hc : CmpLawful cmp) (rnd : Random) (ks : List K)
    (hks : ks.Pairwise (fun a b => cmp a b ≠ 0)) :
    ∃ s, SkipList.InsertAll cmp rnd (SkipList.mk0 rnd) ks = some s ∧
      (SkipIterator.collect s (ks.length + 1) (SkipIterator.SeekToFirst s)).1.Perm ks ∧
      (SkipIterator.collect s (ks.length + 1) (SkipIterator.SeekToFirst s)).1.Pairwise
        (fun a b => cmp a b < 0) ∧
      (SkipIterator.collect s (ks.length + 1) (SkipIterator.SeekToFirst s)).2.Valid = false := by
  obtain ⟨s, order, hrun, hinv, hperm⟩ := SkipList.built_inv cmp hc rnd ks
  have hlen : order.length = ks.length := by
    have := hperm.length_eq
    simpa using this
  have hcol := SkipList.collect_inv cmp s order hinv (ks.length + 1) (by omega)
  refine ⟨s, hrun, ?_, ?_, ?_⟩
  · rw [hcol]; exact hperm
  · rw [hcol]
    have hsym : ∀ a b : K, cmp a b ≠ 0 → cmp b a ≠ 0 :=
      fun a b h h2 => h (CmpLawful_symm_zero hc b a h2)
    have hne : (order.map s.keyOf).Pairwise (fun a b => cmp a b ≠ 0) :=
      (hperm.pairwise_iff (fun {a b} h => hsym a b h)).mpr hks
    have hle : (order.map s.keyOf).Pairwise (fun a b => ¬ cmp b a < 0) :=
      List.pairwise_map.mpr hinv.sorted
    apply (hne.and hle).imp
    intro a b hab
    have := hc.antisymm a b
    have := hc.antisymm b a
    omega
  · rw [hcol]; rfl

/-- Witness for C4 with the comparison of natural numbers and the sample generator. -/
theorem C4_skiplist_iteration_witness :
    ∃ s, SkipList.InsertAll natCompare sampleRandom (SkipList.mk0 sampleRandom) [5, 3, 9, 1]
        = some s ∧
      (SkipIterator.collect s 5 (SkipIterator.SeekToFirst s)).1.Perm [5, 3, 9, 1] ∧
      (SkipIterator.collect s 5 (SkipIterator.SeekToFirst s)).1.Pairwise
        (fun a b => natCompare a b < 0) ∧
      (SkipIterator.collect s 5 (SkipIterator.SeekToFirst s)).2.Valid = false :=
  C4_skiplist_iteration natCompare natCompare_lawful sampleRandom [5, 3, 9, 1]
    (by simp [natCompare])

end leveldb

namespace leveldb
namespace SkipList

variable {K : Type} [Inhabited K]

theorem notBefore_head_le (cmp : K → K → Int) (s : SkipList K) (order : List Nat)
    (hinv : Inv cmp s order) (k : K) (x : Nat)
    (hx : (notBefore cmp s k order).head? = some x) :
    ∀ y ∈ notBefore cmp s k order, y = x ∨ ¬ cmp (s.keyOf y) (s.keyOf x) < 0 := by
  intro y hy
  have hsorted : (notBefore cmp s k order).Pairwise
      (fun a b => ¬ cmp (s.keyOf b) (s.keyOf a) < 0) :=
    hinv.sorted.sublist (List.dropWhile_sublist _)
  cases hge : notBefore cmp s k order with
  | nil => rw [hge] at hx; cases hx
  | cons g rest =>
    rw [hge] at hx hy hsorted
    simp only [List.head?_cons, Option.some.injEq] at hx
    subst hx
    rcases List.mem_cons.mp hy with h | h
    · exact Or.inl h
    · exact Or.inr ((List.pairwise_cons.mp hsorted).1 y h)

theorem mem_before_or_notBefore (cmp : K → K → Int) (s : SkipList K) (k : K)
    (order : List Nat) (y : Nat) (hy : y ∈ order) :
    y ∈ before cmp s k order ∨ y ∈ notBefore cmp s k order := by
  rw [← before_append_notBefore cmp s k order] at hy
  exact List.mem_append.mp hy

theorem notBefore_mem_order (cmp : K → K → Int) (s : SkipList K) (k : K)
    (order : List Nat) (y : Nat) (hy : y ∈ notBefore cmp s k order) : y ∈ order := by
  rw [← before_append_notBefore cmp s k order]
  exact List.mem_append_right _ hy

theorem before_mem_order (cmp : K → K → Int) (s : SkipList K) (k : K)
    (order : List Nat) (y : Nat) (hy : y ∈ before cmp s k order) : y ∈ order := by
  rw [← before_append_notBefore cmp s k order]
  exact List.mem_append_left _ hy

/-- `Contains` under the invariant. -/
theorem Contains_spec (cmp : K → K → Int) (hc : CmpLawful cmp) (s : SkipList K)
    (order : List Nat) (hinv : Inv cmp s order) (k : K) :
    ∃ b, s.Contains cmp k = some b ∧ (b = true ↔ ∃ y ∈ order, cmp k (s.keyOf y) = 0) := by
  have hfge := FGE_spec cmp hc s order hinv k none
  have hge := notBefore_not_lt cmp hc s k order hinv.sorted
  unfold Contains
  rw [hfge]
  cases hhd : (notBefore cmp s k order).head? with
  | none =>
    refine ⟨false, rfl, ?_⟩
    constructor
    · intro h; cases h
    · rintro ⟨y, hy, hyk⟩
      exfalso
      have hnil : notBefore cmp s k order = [] := List.head?_eq_none_iff.mp hhd
      rcases mem_before_or_notBefore cmp s k order y hy with h | h
      · have h1 := before_lt cmp s k order y h
        have h2 := CmpLawful_symm_zero hc _ _ hyk
        omega
      · rw [hnil] at h; cases h
  | some x =>
    refine ⟨Equal cmp k (s.node x).key, rfl, ?_⟩
    have hxm : x ∈ notBefore cmp s k order := List.mem_of_mem_head? hhd
    constructor
    · intro h
      refine ⟨x, notBefore_mem_order cmp s k order x hxm, ?_⟩
      simpa [Equal, keyOf] using h
    · rintro ⟨y, hy, hyk⟩
      have hyk' := CmpLawful_symm_zero hc _ _ hyk
      have hxk := hge x hxm
      have hkx : ¬ cmp k (s.keyOf x) < 0 := by
        rcases mem_before_or_notBefore cmp s k order y hy with h | h
        · have h1 := before_lt cmp s k order y h
          omega
        · rcases notBefore_head_le cmp s order hinv k x hhd y h with h1 | h1
          · subst h1; omega
          · intro h2
            exact h1 ((hc.eq_left _ _ _ hyk').mpr h2)
      have h3 := hc.antisymm (s.keyOf x) k
      have h4 := hc.antisymm k (s.keyOf x)
      have : cmp k (s.keyOf x) = 0 := by omega
      simpa [Equal, keyOf] using this

end SkipList

/-- C5 (skip-list membership): after any sequence of `Insert` calls with keys `ks`,
`Contains(k)` returns true if and only if some inserted key compares equal to `k`
(the keys need not even be pairwise non-equal for this). -/
theorem C5_skiplist_contains {K : Type} [Inhabited K] (cmp : K → K → Int)
    (hc : CmpLawful cmp) (rnd : Random) (ks : List K) (k : K) :
    ∃ s b, SkipList.InsertAll cmp rnd (SkipList.mk0 rnd) ks = some s ∧
      s.Contains cmp k = some b ∧ (b = true ↔ ∃ a ∈ ks, cmp k a = 0) := by
  obtain ⟨s, order, hrun, hinv, hperm⟩ := SkipList.built_inv cmp hc rnd ks
  obtain ⟨b, hb, hiff⟩ := SkipList.Contains_spec cmp hc s order hinv k
  refine ⟨s, b, hrun, hb, hiff.trans ?_⟩
  constructor
  · rintro ⟨y, hy, hyk⟩
    exact ⟨s.keyOf y, hperm.mem_iff.mp (List.mem_map_of_mem _ hy), hyk⟩
  · rintro ⟨a, ha, hak⟩
    obtain ⟨y, hy, rfl⟩ := List.mem_map.mp (hperm.mem_iff.mpr ha)
    exact ⟨y, hy, hak⟩

/-- Witness for C5: the keys 5, 3, 9, 1 and the lookup of 9. -/
theorem C5_skiplist_contains_witness :
    ∃ s b, SkipList.InsertAll natCompare sampleRandom (SkipList.mk0 sampleRandom) [5, 3, 9, 1]
        = some s ∧
      s.Contains natCompare 9 = some b ∧ (b = true ↔ ∃ a ∈ [5, 3, 9, 1], natCompare 9 a = 0) :=
  C5_skiplist_contains natCompare natCompare_lawful sampleRandom [5, 3, 9, 1] 9

end leveldb

namespace leveldb

/-- C6 (skip-list Seek): for a list built by `Insert` calls with keys `ks` and every
target, `Seek(target)` leaves the iterator at an inserted key that is not before the
target and is not after any other inserted key that is not before the target (the
smallest inserted key `≥ target`); it leaves the iterator invalid exactly when every
inserted key is before the target. -/
theorem C6_skiplist_seek {K : Type} [Inhabited K] (cmp : K → K → Int)
    (hc : CmpLawful cmp) (rnd : Random) (ks : List K) (target : K) :
    ∃ s it, SkipList.InsertAll cmp rnd (SkipList.mk0 rnd) ks = some s ∧
      SkipIterator.Seek cmp s target = some it ∧
      (it.Valid = true →
        it.key s ∈ ks ∧ ¬ cmp (it.key s) target < 0 ∧
        ∀ a ∈ ks, ¬ cmp a target < 0 → ¬ cmp a (it.key s) < 0) ∧
      (it.Valid = false ↔ ∀ a ∈ ks, cmp a target < 0) := by
  obtain ⟨s, order, hrun, hinv, hperm⟩ := SkipList.built_inv cmp hc rnd ks
  have hfge := SkipList.FGE_spec cmp hc s order hinv target none
  have hge := SkipList.notBefore_not_lt cmp hc s target order hinv.sorted
  have hseek : SkipIterator.Seek cmp s target
      = some ⟨(SkipList.notBefore cmp s target order).head?⟩ := by
    unfold SkipIterator.Seek
    rw [hfge]
  refine ⟨s, _, hrun, hseek, ?_, ?_⟩
  · intro hv
    cases hhd : (SkipList.notBefore cmp s target order).head? with
    | none => rw [hhd] at hv; cases hv
    | some x =>
      have hxm : x ∈ SkipList.notBefore cmp s target order := List.mem_of_mem_head? hhd
      have hxo := SkipList.notBefore_mem_order cmp s target order x hxm
      refine ⟨hperm.mem_iff.mp (List.mem_map_of_mem _ hxo), hge x hxm, ?_⟩
      intro a ha hat
      obtain ⟨y, hy, rfl⟩ := List.mem_map.mp (hperm.mem_iff.mpr ha)
      show ¬ cmp (s.keyOf y) (s.keyOf x) < 0
      rcases SkipList.mem_before_or_notBefore cmp s target order y hy with h | h
      · exact absurd (SkipList.before_lt cmp s target order y h) hat
      · rcases SkipList.notBefore_head_le cmp s order hinv target x hhd y h with h1 | h1
        · subst h1
          rw [CmpLawful_refl hc]
          omega
        · exact h1
  · constructor
    · intro hv a ha
      have hnil : SkipList.notBefore cmp s target order = [] := by
        cases hhd : (SkipList.notBefore cmp s target order).head? with
        | none => exact List.head?_eq_none_iff.mp hhd
        | some x => rw [hhd] at hv; cases hv
      obtain ⟨y, hy, rfl⟩ := List.mem_map.mp (hperm.mem_iff.mpr ha)
      rcases SkipList.mem_before_or_notBefore cmp s target order y hy with h | h
      · exact SkipList.before_lt cmp s target order y h
      · rw [hnil] at h; cases h
    · intro hall
      cases hhd : (SkipList.notBefore cmp s target order).head? with
      | none => rfl
      | some x =>
        exfalso
        have hxm : x ∈ SkipList.notBefore cmp s target order := List.mem_of_mem_head? hhd
        have hxo := SkipList.notBefore_mem_order cmp s target order x hxm
        exact hge x hxm (hall _ (hperm.mem_iff.mp (List.mem_map_of_mem _ hxo)))

/-- Witness for C6: the keys 5, 3, 9, 1 and the target 4. -/
theorem C6_skiplist_seek_witness :
    ∃ s it, SkipList.InsertAll natCompare sampleRandom (SkipList.mk0 sampleRandom) [5, 3, 9, 1]
        = some s ∧
      SkipIterator.Seek natCompare s 4 = some it ∧
      (it.Valid = true →
        it.key s ∈ [5, 3, 9, 1] ∧ ¬ natCompare (it.key s) 4 < 0 ∧
        ∀ a ∈ [5, 3, 9, 1], ¬ natCompare a 4 < 0 → ¬ natCompare a (it.key s) < 0) ∧
      (it.Valid = false ↔ ∀ a ∈ [5, 3, 9, 1], natCompare a 4 < 0) :=
  C6_skiplist_seek natCompare natCompare_lawful sampleRandom [5, 3, 9, 1] 4

end leveldb

namespace leveldb
namespace SkipList

variable {K : Type} [Inhabited K]

theorem pairwise_last {α : Type} (R : α → α → Prop) (L : List α) (hp : L.Pairwise R)
    (y : α) (hy : L.getLast? = some y) : ∀ z ∈ L, z = y ∨ R z y := by
  obtain ⟨L0, rfl⟩ : ∃ L0, L = L0 ++ [y] := by
    rcases List.getLast?_eq_some_iff.mp hy with ⟨ys, h⟩
    exact ⟨ys, h⟩
  intro z hz
  rcases List.mem_append.mp hz with h | h
  · exact Or.inr ((List.pairwise_append.mp hp).2.2 z h y (List.mem_singleton.mpr rfl))
  · exact Or.inl (List.mem_singleton.mp h)

/-- `Prev` from a node of the list, under the invariant and with pairwise non-equal keys. -/
theorem Prev_spec (cmp : K → K → Int) (hc : CmpLawful cmp) (s : SkipList K)
    (order : List Nat) (hinv : Inv cmp s order)
    (hne : order.Pairwise (fun a b => cmp (s.keyOf a) (s.keyOf b) ≠ 0))
    (x : Nat) (hx : x ∈ order) :
    ∃ it, SkipIterator.Prev cmp s ⟨some x⟩ = some it ∧
      (it.Valid = true →
        (∃ y ∈ order, it.node_ = some y) ∧ cmp (it.key s) (s.keyOf x) < 0 ∧
        (∀ z ∈ order, cmp (s.keyOf z) (s.keyOf x) < 0 → ¬ cmp (it.key s) (s.keyOf z) < 0) ∧
        it.Next s = ⟨some x⟩) ∧
      (it.Valid = false ↔ ∀ z ∈ order, ¬ cmp (s.keyOf z) (s.keyOf x) < 0) := by
  have hflt := FLT_spec cmp hc s order hinv (s.keyOf x)
  have hge := notBefore_not_lt cmp hc s (s.keyOf x) order hinv.sorted
  have hlt := before_lt cmp s (s.keyOf x) order
  have hprev : SkipIterator.Prev cmp s ⟨some x⟩
      = some ⟨if (before cmp s (s.keyOf x) order).getLast?.getD 0 = 0 then none
          else some ((before cmp s (s.keyOf x) order).getLast?.getD 0)⟩ := by
    unfold SkipIterator.Prev
    simp only []
    have : (s.node x).key = s.keyOf x := rfl
    rw [this, hflt]
  refine ⟨_, hprev, ?_⟩
  cases hl : (before cmp s (s.keyOf x) order).getLast? with
  | none =>
    have hnil : before cmp s (s.keyOf x) order = [] := List.getLast?_eq_none_iff.mp hl
    simp only [Option.getD_none, if_true]
    refine ⟨fun h => (by cases h), ?_⟩
    constructor
    · intro _ z hz
      rcases mem_before_or_notBefore cmp s (s.keyOf x) order z hz with h | h
      · rw [hnil] at h; cases h
      · exact hge z h
    · intro _; rfl
  | some y =>
    have hym : y ∈ before cmp s (s.keyOf x) order := List.mem_of_getLast?_eq_some hl
    have hyo := before_mem_order cmp s _ order y hym
    have hy1 : 1 ≤ y := ((hinv.mem_order y).mp hyo).1
    have hy0 : ¬ y = 0 := by omega
    simp only [Option.getD_some, if_neg hy0]
    refine ⟨fun _ => ⟨⟨y, hyo, rfl⟩, hlt y hym, ?_, ?_⟩, ?_⟩
    · intro z hz hzx
      show ¬ cmp (s.keyOf y) (s.keyOf z) < 0
      rcases mem_before_or_notBefore cmp s (s.keyOf x) order z hz with h | h
      · have hsorted : (before cmp s (s.keyOf x) order).Pairwise
            (fun a b => ¬ cmp (s.keyOf b) (s.keyOf a) < 0) :=
          hinv.sorted.sublist (List.takeWhile_sublist _)
        rcases pairwise_last _ _ hsorted y hl z h with h1 | h1
        · rw [h1, CmpLawful_refl hc]; omega
        · exact h1
      · exact absurd hzx (hge z h)
    · -- `Next` leads back to `x`
      show (⟨s.Next y 0⟩ : SkipIterator) = ⟨some x⟩
      have hch := Chain_from cmp s order hinv (before cmp s (s.keyOf x) order)
        (notBefore cmp s (s.keyOf x) order) (before_append_notBefore cmp s _ order).symm
        y 0 (by rw [hl]; rfl) (fun _ => by have := (hinv.height_ok y hyo).1; omega)
        (by simp [kMaxHeight])
      rw [Inv_level0 cmp s order hinv _ (notBefore_mem_order cmp s _ order)] at hch
      rw [Chain_next_none_or s 0 y _ hch]
      congr 1
      -- `x` is the first node that is not before its own key
      have hxge : x ∈ notBefore cmp s (s.keyOf x) order := by
        rcases mem_before_or_notBefore cmp s (s.keyOf x) order x hx with h | h
        · have := hlt x h
          rw [CmpLawful_refl hc] at this
          omega
        · exact h
      have hsortedge : (notBefore cmp s (s.keyOf x) order).Pairwise
          (fun a b => ¬ cmp (s.keyOf b) (s.keyOf a) < 0) :=
        hinv.sorted.sublist (List.dropWhile_sublist _)
      have hnege : (notBefore cmp s (s.keyOf x) order).Pairwise
          (fun a b => cmp (s.keyOf a) (s.keyOf b) ≠ 0) :=
        hne.sublist (List.dropWhile_sublist _)
      cases hg : notBefore cmp s (s.keyOf x) order with
      | nil => rw [hg] at hxge; cases hxge
      | cons g rest =>
        rw [hg] at hxge hsortedge hnege
        rcases List.mem_cons.mp hxge with h | h
        · rw [h]; rfl
        · exfalso
          have h1 := (List.pairwise_cons.mp hsortedge).1 x h
          have h2 := (List.pairwise_cons.mp hnege).1 x h
          have h3 := hge g (by rw [hg]; exact List.mem_cons_self _ _)
          have h4 := hc.antisymm (s.keyOf g) (s.keyOf x)
          have h5 := hc.antisymm (s.keyOf x) (s.keyOf g)
          omega
    · constructor
      · intro h; cases h
      · intro hall
        exact absurd (hlt y hym) (hall y hyo)

end SkipList

/-- C7 (skip-list Prev): in a list `s` built by `Insert` calls with pairwise non-equal
keys `ks`, for an iterator at a node `x` of the list (key `c`), `Prev` positions the
iterator at an inserted key before `c` that no inserted key before `c` exceeds (the
greatest inserted key `< c`), and then `Next` returns it to `x`; `Prev` makes the
iterator invalid exactly when no inserted key is before `c`. -/
theorem C7_skiplist_prev {K : Type} [Inhabited K] (cmp : K → K → Int)
    (hc : CmpLawful cmp) (rnd : Random) (ks : List K)
    (hks : ks.Pairwise (fun a b => cmp a b ≠ 0)) (s : SkipList K)
    (hs : SkipList.InsertAll cmp rnd (SkipList.mk0 rnd) ks = some s)
    (x : Nat) (hx1 : 1 ≤ x) (hx2 : x < s.nodes.length) :
    ∃ it, SkipIterator.Prev cmp s ⟨some x⟩ = some it ∧
      (it.Valid = true →
        it.key s ∈ ks ∧ cmp (it.key s) (SkipIterator.key s ⟨some x⟩) < 0 ∧
        (∀ a ∈ ks, cmp a (SkipIterator.key s ⟨some x⟩) < 0 → ¬ cmp (it.key s) a < 0) ∧
        it.Next s = ⟨some x⟩) ∧
      (it.Valid = false ↔ ∀ a ∈ ks, ¬ cmp a (SkipIterator.key s ⟨some x⟩) < 0) := by
  obtain ⟨s1, order, hrun, hinv, hperm⟩ := SkipList.built_inv cmp hc rnd ks
  rw [hs] at hrun
  cases hrun
  have hsym : ∀ a b : K, cmp a b ≠ 0 → cmp b a ≠ 0 :=
    fun a b h h2 => h (CmpLawful_symm_zero hc b a h2)
  have hne : order.Pairwise (fun a b => cmp (s.keyOf a) (s.keyOf b) ≠ 0) :=
    List.pairwise_map.mp ((hperm.pairwise_iff (fun {a b} h => hsym a b h)).mpr hks)
  have hx : x ∈ order := (hinv.mem_order x).mpr ⟨hx1, hx2⟩
  obtain ⟨it, hprev, hvalid, hinvalid⟩ := SkipList.Prev_spec cmp hc s order hinv hne x hx
  have hkx : SkipIterator.key s ⟨some x⟩ = s.keyOf x := rfl
  rw [hkx]
  refine ⟨it, hprev, ?_, ?_⟩
  · intro hv
    obtain ⟨⟨y, hy, hity⟩, h2, h3, h4⟩ := hvalid hv
    refine ⟨?_, h2, ?_, h4⟩
    · have : it.key s = s.keyOf y := by
        unfold SkipIterator.key; rw [hity]; rfl
      rw [this]
      exact hperm.mem_iff.mp (List.mem_map_of_mem _ hy)
    · intro a ha hax
      obtain ⟨z, hz, rfl⟩ := List.mem_map.mp (hperm.mem_iff.mpr ha)
      exact h3 z hz hax
  · rw [hinvalid]
    constructor
    · intro h a ha
      obtain ⟨z, hz, rfl⟩ := List.mem_map.mp (hperm.mem_iff.mpr ha)
      exact h z hz
    · intro h z hz
      exact h _ (hperm.mem_iff.mp (List.mem_map_of_mem _ hz))

/-- Witness for C7: the list built from the keys 5, 3, 9, 1 and the iterator at node 1
(key 5). -/
theorem C7_skiplist_prev_witness :
    ∃ it, SkipIterator.Prev natCompare
        (⟨[⟨0, [some 4, some 1, none, none, none, none, none, none, none, none, none, none]⟩,
           ⟨5, [some 3, none]⟩, ⟨3, [some 1]⟩, ⟨9, [none]⟩, ⟨1, [some 2]⟩], 2, 31973901⟩ :
          SkipList Nat) ⟨some 1⟩ = some it ∧
      (it.Valid = true →
        it.key (⟨[⟨0, [some 4, some 1, none, none, none, none, none, none, none, none, none,
             none]⟩, ⟨5, [some 3, none]⟩, ⟨3, [some 1]⟩, ⟨9, [none]⟩, ⟨1, [some 2]⟩], 2,
             31973901⟩ : SkipList Nat) ∈ [5, 3, 9, 1] ∧
        natCompare (it.key (⟨[⟨0, [some 4, some 1, none, none, none, none, none, none, none,
             none, none, none]⟩, ⟨5, [some 3, none]⟩, ⟨3, [some 1]⟩, ⟨9, [none]⟩,
             ⟨1, [some 2]⟩], 2, 31973901⟩ : SkipList Nat)) 5 < 0 ∧
        (∀ a ∈ [5, 3, 9, 1], natCompare a 5 < 0 →
          ¬ natCompare (it.key (⟨[⟨0, [some 4, some 1, none, none, none, none, none, none,
             none, none, none, none]⟩, ⟨5, [some 3, none]⟩, ⟨3, [some 1]⟩, ⟨9, [none]⟩,
             ⟨1, [some 2]⟩], 2, 31973901⟩ : SkipList Nat)) a < 0) ∧
        it.Next (⟨[⟨0, [some 4, some 1, none, none, none, none, none, none, none, none, none,
             none]⟩, ⟨5, [some 3, none]⟩, ⟨3, [some 1]⟩, ⟨9, [none]⟩, ⟨1, [some 2]⟩], 2,
             31973901⟩ : SkipList Nat) = ⟨some 1⟩) ∧
      (it.Valid = false ↔ ∀ a ∈ [5, 3, 9, 1], ¬ natCompare a 5 < 0) :=
  C7_skiplist_prev natCompare natCompare_lawful sampleRandom [5, 3, 9, 1]
    (by simp [natCompare]) _ (by decide) 1 (by decide) (by decide)

end leveldb

namespace leveldb

theorem DecodeFixed64_EncodeFixed64 (v : Nat) (rest : List Nat) :
    DecodeFixed64 (EncodeFixed64 v ++ rest) = v % 2 ^ 64 := by
  simp only [DecodeFixed64, EncodeFixed64, List.cons_append, List.getD_cons_zero,
    List.getD_cons_succ, Nat.mod_mod]
  omega

theorem EncodeFixed64_length (v : Nat) : (EncodeFixed64 v).length = 8 := by
  simp [EncodeFixed64]

theorem EncodeVarint32_length_pos (v : Nat) : 1 ≤ (EncodeVarint32 v).length := by
  unfold EncodeVarint32
  split_ifs <;> simp

theorem VarintLength_eq (v : Nat) (hv : v < 2 ^ 32) :
    VarintLength v = (EncodeVarint32 v).length := by
  have h64 : v % 2 ^ 64 = v := Nat.mod_eq_of_lt (by omega)
  unfold VarintLength EncodeVarint32
  rw [h64]
  split_ifs with h1 h2 h3 h4
  · rw [VarintLengthLoop, if_neg (by omega)]; rfl
  · rw [VarintLengthLoop, if_pos (by omega), VarintLengthLoop, if_neg (by omega)]; rfl
  · rw [VarintLengthLoop, if_pos (by omega), VarintLengthLoop, if_pos (by omega),
      VarintLengthLoop, if_neg (by omega)]; rfl
  · rw [VarintLengthLoop, if_pos (by omega), VarintLengthLoop, if_pos (by omega),
      VarintLengthLoop, if_pos (by omega), VarintLengthLoop, if_neg (by omega)]; rfl
  · rw [VarintLengthLoop, if_pos (by omega), VarintLengthLoop, if_pos (by omega),
      VarintLengthLoop, if_pos (by omega), VarintLengthLoop, if_pos (by omega),
      VarintLengthLoop, if_neg (by omega)]; rfl

theorem GetVarint32PtrLoop_more (limit : Nat) (b : Nat) (p : List Nat) (shift result r : Nat)
    (hs : shift ≤ 28) (hb1 : 128 ≤ b) (hb2 : b < 256)
    (hr : (result + (b - 128) * 2 ^ shift) % 2 ^ 32 = r) :
    GetVarint32PtrLoop (limit + 1) (b :: p) shift result
      = GetVarint32PtrLoop limit p (shift + 7) r := by
  have h1 : b % 256 = b := Nat.mod_eq_of_lt hb2
  have h2 : b % 128 = b - 128 := by omega
  rw [GetVarint32PtrLoop, if_pos hs]
  simp only [List.headD_cons, List.tail_cons, h1, h2]
  rw [if_pos (by omega), hr]

theorem GetVarint32PtrLoop_last (limit : Nat) (b : Nat) (p : List Nat) (shift result r : Nat)
    (hs : shift ≤ 28) (hb : b < 128) (hr : (result + b * 2 ^ shift) % 2 ^ 32 = r) :
    GetVarint32PtrLoop (limit + 1) (b :: p) shift result = some (p, r) := by
  have h1 : b % 256 = b := Nat.mod_eq_of_lt (by omega)
  rw [GetVarint32PtrLoop, if_pos hs]
  simp only [List.headD_cons, List.tail_cons, h1]
  rw [if_neg (by omega), hr]

theorem GetVarint32Ptr_EncodeVarint32 (v : Nat) (hv : v < 2 ^ 32) (rest : List Nat) :
    GetVarint32Ptr (EncodeVarint32 v ++ rest) 5 = some (rest, v) := by
  have e1 : (0 + (v % 128 + 128 - 128) * 2 ^ 0) % 2 ^ 32 = v % 2 ^ 7 := by omega
  have e2 : (v % 2 ^ 7 + (v / 2 ^ 7 % 128 + 128 - 128) * 2 ^ (0 + 7)) % 2 ^ 32 = v % 2 ^ 14 := by
    omega
  have e3 : (v % 2 ^ 14 + (v / 2 ^ 14 % 128 + 128 - 128) * 2 ^ (0 + 7 + 7)) % 2 ^ 32
      = v % 2 ^ 21 := by omega
  have e4 : (v % 2 ^ 21 + (v / 2 ^ 21 % 128 + 128 - 128) * 2 ^ (0 + 7 + 7 + 7)) % 2 ^ 32
      = v % 2 ^ 28 := by omega
  unfold GetVarint32Ptr EncodeVarint32
  split_ifs with h1 h2 h3 h4
  · simp only [List.cons_append, List.nil_append]
    exact GetVarint32PtrLoop_last _ _ _ _ _ _ (by omega) (by omega) (by omega)
  · simp only [List.cons_append, List.nil_append]
    rw [GetVarint32PtrLoop_more _ _ _ _ _ _ (by omega) (by omega) (by omega) e1]
    exact GetVarint32PtrLoop_last _ _ _ _ _ _ (by omega) (by omega) (by omega)
  · simp only [List.cons_append, List.nil_append]
    rw [GetVarint32PtrLoop_more _ _ _ _ _ _ (by omega) (by omega) (by omega) e1,
      GetVarint32PtrLoop_more _ _ _ _ _ _ (by omega) (by omega) (by omega) e2]
    exact GetVarint32PtrLoop_last _ _ _ _ _ _ (by omega) (by omega) (by omega)
  · simp only [List.cons_append, List.nil_append]
    rw [GetVarint32PtrLoop_more _ _ _ _ _ _ (by omega) (by omega) (by omega) e1,
      GetVarint32PtrLoop_more _ _ _ _ _ _ (by omega) (by omega) (by omega) e2,
      GetVarint32PtrLoop_more _ _ _ _ _ _ (by omega) (by omega) (by omega) e3]
    exact GetVarint32PtrLoop_last _ _ _ _ _ _ (by omega) (by omega) (by omega)
  · simp only [List.cons_append, List.nil_append]
    rw [GetVarint32PtrLoop_more _ _ _ _ _ _ (by omega) (by omega) (by omega) e1,
      GetVarint32PtrLoop_more _ _ _ _ _ _ (by omega) (by omega) (by omega) e2,
      GetVarint32PtrLoop_more _ _ _ _ _ _ (by omega) (by omega) (by omega) e3,
      GetVarint32PtrLoop_more _ _ _ _ _ _ (by omega) (by omega) (by omega) e4]
    exact GetVarint32PtrLoop_last _ _ _ _ _ _ (by omega) (by omega) (by omega)

theorem PackSequenceAndType_eq (s : Nat) (t : ValueType) (hs : s < 2 ^ 56) :
    ((s <<< 8) % 2 ^ 64) ||| t.toNat = s * 256 + t.toNat := by
  have ht : t.toNat < 2 ^ 8 := by cases t <;> simp [ValueType.toNat]
  rw [Nat.shiftLeft_eq, Nat.mod_eq_of_lt (by omega), Nat.mul_comm]
  exact (Nat.mul_add_lt_is_or ht s).symm

end leveldb

namespace leveldb

theorem CmpLawful_comap {K L : Type} (cmp : L → L → Int) (f : K → L) (h : CmpLawful cmp) :
    CmpLawful (fun a b => cmp (f a) (f b)) where
  antisymm := fun a b => h.antisymm (f a) (f b)
  trans := fun a b c => h.trans (f a) (f b) (f c)
  eq_left := fun a b c => h.eq_left (f a) (f b) (f c)
  eq_right := fun a b c => h.eq_right (f a) (f b) (f c)

theorem Compare_lt (ucmp : List Nat → List Nat → Int) (a b : List Nat) :
    InternalKeyComparator.Compare ucmp a b < 0 ↔
      ucmp (ExtractUserKey a) (ExtractUserKey b) < 0 ∨
      (ucmp (ExtractUserKey a) (ExtractUserKey b) = 0 ∧
        DecodeFixed64 (b.drop (b.length - 8)) < DecodeFixed64 (a.drop (a.length - 8))) := by
  unfold InternalKeyComparator.Compare
  simp only []
  split_ifs with h1 h2 h3 <;> omega

theorem Compare_gt (ucmp : List Nat → List Nat → Int) (a b : List Nat) :
    InternalKeyComparator.Compare ucmp a b > 0 ↔
      ucmp (ExtractUserKey a) (ExtractUserKey b) > 0 ∨
      (ucmp (ExtractUserKey a) (ExtractUserKey b) = 0 ∧
        DecodeFixed64 (a.drop (a.length - 8)) < DecodeFixed64 (b.drop (b.length - 8))) := by
  unfold InternalKeyComparator.Compare
  simp only []
  split_ifs with h1 h2 h3 <;> omega

theorem Compare_eq (ucmp : List Nat → List Nat → Int) (a b : List Nat) :
    InternalKeyComparator.Compare ucmp a b = 0 ↔
      (ucmp (ExtractUserKey a) (ExtractUserKey b) = 0 ∧
        DecodeFixed64 (a.drop (a.length - 8)) = DecodeFixed64 (b.drop (b.length - 8))) := by
  unfold InternalKeyComparator.Compare
  simp only []
  split_ifs with h1 h2 h3
  · exact ⟨fun h => h.elim, fun h => by omega⟩
  · exact ⟨fun h => by omega, fun h => by omega⟩
  · exact ⟨fun _ => ⟨h1, by omega⟩, fun _ => h1⟩
  · exact ⟨fun h => absurd h h1, fun h => absurd h.1 h1⟩

theorem Compare_lawful (ucmp : List Nat → List Nat → Int) (hu : CmpLawful ucmp) :
    CmpLawful (InternalKeyComparator.Compare ucmp) where
  antisymm := by
    intro a b
    rw [Compare_lt, Compare_gt]
    have h1 := hu.antisymm (ExtractUserKey a) (ExtractUserKey b)
    have h2 := hu.antisymm (ExtractUserKey b) (ExtractUserKey a)
    constructor
    · rintro (h | ⟨h, h3⟩)
      · exact Or.inl (h1.mp h)
      · exact Or.inr ⟨by omega, h3⟩
    · rintro (h | ⟨h, h3⟩)
      · exact Or.inl (h1.mpr h)
      · exact Or.inr ⟨by omega, h3⟩
  trans := by
    intro a b c
    rw [Compare_lt, Compare_lt, Compare_lt]
    rintro (h | ⟨h, h3⟩) (h' | ⟨h', h3'⟩)
    · exact Or.inl (hu.trans _ _ _ h h')
    · exact Or.inl ((hu.eq_right _ _ _ h').mp h)
    · exact Or.inl ((hu.eq_left _ _ _ h).mpr h')
    · refine Or.inr ⟨?_, by omega⟩
      have h4 := (hu.eq_left _ _ (ExtractUserKey c) h)
      have h5 := (hu.eq_right _ _ (ExtractUserKey a) h')
      have h6 := hu.antisymm (ExtractUserKey a) (ExtractUserKey c)
      have h7 := hu.antisymm (ExtractUserKey c) (ExtractUserKey a)
      have h8 := hu.antisymm (ExtractUserKey b) (ExtractUserKey c)
      have h9 := hu.antisymm (ExtractUserKey c) (ExtractUserKey b)
      have h10 := (hu.eq_right _ _ (ExtractUserKey c) h)
      omega
  eq_left := by
    intro a b c
    rw [Compare_eq, Compare_lt, Compare_lt]
    rintro ⟨h, h3⟩
    rw [h3]
    have h4 := hu.eq_left _ _ (ExtractUserKey c) h
    have h0 := CmpLawful_symm_zero hu _ _ h
    have h5 := hu.eq_right _ _ (ExtractUserKey c) h
    have h6 := hu.antisymm (ExtractUserKey a) (ExtractUserKey c)
    have h7 := hu.antisymm (ExtractUserKey c) (ExtractUserKey a)
    have h8 := hu.antisymm (ExtractUserKey b) (ExtractUserKey c)
    have h9 := hu.antisymm (ExtractUserKey c) (ExtractUserKey b)
    constructor
    · rintro (h' | ⟨h', h''⟩)
      · exact Or.inl (h4.mp h')
      · exact Or.inr ⟨by omega, h''⟩
    · rintro (h' | ⟨h', h''⟩)
      · exact Or.inl (h4.mpr h')
      · exact Or.inr ⟨by omega, h''⟩
  eq_right := by
    intro a b c
    rw [Compare_eq, Compare_lt, Compare_lt]
    rintro ⟨h, h3⟩
    rw [h3]
    have h4 := hu.eq_left _ _ (ExtractUserKey c) h
    have h5 := hu.eq_right _ _ (ExtractUserKey c) h
    have h6 := hu.antisymm (ExtractUserKey a) (ExtractUserKey c)
    have h7 := hu.antisymm (ExtractUserKey c) (ExtractUserKey a)
    have h8 := hu.antisymm (ExtractUserKey b) (ExtractUserKey c)
    have h9 := hu.antisymm (ExtractUserKey c) (ExtractUserKey b)
    constructor
    · rintro (h' | ⟨h', h''⟩)
      · exact Or.inl (h5.mp h')
      · exact Or.inr ⟨by omega, h''⟩
    · rintro (h' | ⟨h', h''⟩)
      · exact Or.inl (h5.mpr h')
      · exact Or.inr ⟨by omega, h''⟩

theorem KeyComparator_lawful (ucmp : List Nat → List Nat → Int) (hu : CmpLawful ucmp) :
    CmpLawful (KeyComparator ucmp) :=
  CmpLawful_comap (InternalKeyComparator.Compare ucmp)
    (fun a => (GetLengthPrefixedSlice a).bytes) (Compare_lawful ucmp hu)

theorem bytewiseCompare_neg : ∀ (a b : List Nat), bytewiseCompare a b = - bytewiseCompare b a
  | [], [] => by simp [bytewiseCompare]
  | [], _ :: _ => by simp [bytewiseCompare]
  | _ :: _, [] => by simp [bytewiseCompare]
  | a :: as, b :: bs => by
    have ih := bytewiseCompare_neg as bs
    simp only [bytewiseCompare]
    split_ifs <;> first | rfl | exact ih | omega

theorem bytewiseCompare_eq : ∀ (a b : List Nat), bytewiseCompare a b = 0 → a = b
  | [], [] => fun _ => rfl
  | [], _ :: _ => by simp [bytewiseCompare]
  | _ :: _, [] => by simp [bytewiseCompare]
  | a :: as, b :: bs => by
    have ih := bytewiseCompare_eq as bs
    simp only [bytewiseCompare]
    split_ifs with h1 h2
    · intro h; exact h.elim
    · intro h; omega
    · intro h
      have : a = b := by omega
      rw [this, ih h]

theorem bytewiseCompare_trans : ∀ (a b c : List Nat),
    bytewiseCompare a b < 0 → bytewiseCompare b c < 0 → bytewiseCompare a c < 0
  | [], [], _ => by simp [bytewiseCompare]
  | [], _ :: _, [] => by simp [bytewiseCompare]
  | [], _ :: _, _ :: _ => by simp [bytewiseCompare]
  | _ :: _, [], _ => by simp [bytewiseCompare]
  | _ :: _, _ :: _, [] => by simp [bytewiseCompare]
  | a :: as, b :: bs, c :: cs => by
    have ih := bytewiseCompare_trans as bs cs
    simp only [bytewiseCompare]
    split_ifs <;> first | exact ih | (intros; omega)

theorem bytewiseCompare_lawful : CmpLawful bytewiseCompare where
  antisymm := fun a b => by
    have := bytewiseCompare_neg a b
    omega
  trans := bytewiseCompare_trans
  eq_left := fun a b c h => by rw [bytewiseCompare_eq a b h]
  eq_right := fun a b c h => by rw [bytewiseCompare_eq a b h]

end leveldb

namespace leveldb

namespace MemTable

theorem entryOf_eq (a : AddCall) (h : InRange a) :
    entryOf a = EncodeVarint32 (a.key.length + 8)
      ++ (internalKey a ++ (EncodeVarint32 a.value.length ++ a.value)) := by
  obtain ⟨h1, h2, h3⟩ := h
  unfold entryOf AddBuffer internalKey
  simp only []
  rw [Nat.mod_eq_of_lt h2, Nat.mod_eq_of_lt h3, PackSequenceAndType_eq _ _ h1]
  simp only [List.append_assoc]

theorem internalKey_length (a : AddCall) : (internalKey a).length = a.key.length + 8 := by
  simp [internalKey, EncodeFixed64_length]

theorem ExtractUserKey_internalKey (a : AddCall) : ExtractUserKey (internalKey a) = a.key := by
  unfold ExtractUserKey
  rw [internalKey_length]
  simp [internalKey]

theorem tag_internalKey (a : AddCall) (h : InRange a) :
    DecodeFixed64 ((internalKey a).drop ((internalKey a).length - 8))
      = a.seq * 256 + a.type.toNat := by
  rw [internalKey_length]
  have ht : a.type.toNat < 256 := by cases a.type <;> simp [ValueType.toNat]
  have := DecodeFixed64_EncodeFixed64 (a.seq * 256 + a.type.toNat) []
  simp only [List.append_nil] at this
  simp only [internalKey, Nat.add_sub_cancel, List.drop_left]
  rw [this]
  exact Nat.mod_eq_of_lt (by have := h.1; omega)

theorem GetVarint32Ptr_entryOf (a : AddCall) (h : InRange a) :
    GetVarint32Ptr (entryOf a) 5
      = some (internalKey a ++ (EncodeVarint32 a.value.length ++ a.value), a.key.length + 8) := by
  rw [entryOf_eq a h]
  exact GetVarint32Ptr_EncodeVarint32 _ h.2.1 _

theorem GetLengthPrefixedSlice_entryOf (a : AddCall) (h : InRange a) :
    GetLengthPrefixedSlice (entryOf a)
      = ⟨internalKey a ++ (EncodeVarint32 a.value.length ++ a.value), a.key.length + 8⟩ := by
  unfold GetLengthPrefixedSlice
  rw [GetVarint32Ptr_entryOf a h]

theorem key_entryOf (a : AddCall) (h : InRange a) :
    (GetLengthPrefixedSlice (entryOf a)).bytes = internalKey a := by
  rw [GetLengthPrefixedSlice_entryOf a h]
  unfold Slice.bytes
  simp only []
  rw [← internalKey_length a, List.take_left]

theorem value_entryOf (a : AddCall) (h : InRange a) :
    (GetLengthPrefixedSlice ((GetLengthPrefixedSlice (entryOf a)).data_.drop
      (GetLengthPrefixedSlice (entryOf a)).size_)).bytes = a.value := by
  rw [GetLengthPrefixedSlice_entryOf a h]
  simp only []
  rw [← internalKey_length a, List.drop_left]
  unfold GetLengthPrefixedSlice
  have := GetVarint32Ptr_EncodeVarint32 a.value.length h.2.2 a.value
  rw [this]
  simp [Slice.bytes]

theorem AddBuffer_length (a : AddCall) (h : InRange a) :
    (AddBuffer a.seq a.type a.key a.value).1 = (entryOf a).length := by
  rw [entryOf_eq a h]
  unfold AddBuffer
  simp only [List.length_append, internalKey_length]
  rw [VarintLength_eq _ h.2.1, VarintLength_eq _ h.2.2]
  omega

end MemTable

theorem key_memtable_key (k : LookupKey) (h1 : k.sequence_ < 2 ^ 56)
    (h2 : k.user_key_.length + 8 < 2 ^ 32) :
    (GetLengthPrefixedSlice k.memtable_key).bytes
      = MemTable.internalKey ⟨k.sequence_, kValueTypeForSeek, k.user_key_, []⟩ := by
  unfold LookupKey.memtable_key PackSequenceAndType GetLengthPrefixedSlice
  rw [Nat.mod_eq_of_lt h2, PackSequenceAndType_eq _ _ h1, List.append_assoc,
    GetVarint32Ptr_EncodeVarint32 _ h2]
  unfold Slice.bytes MemTable.internalKey
  simp only []
  apply List.take_of_length_le
  simp [EncodeFixed64_length]

end leveldb

namespace leveldb

end leveldb

namespace leveldb

theorem perm_map_inv {α β : Type} (f : α → β) {l l1 : List β} (h : l.Perm l1) :
    ∀ (xs : List α), l1 = xs.map f → ∃ ys : List α, ys.Perm xs ∧ ys.map f = l := by
  induction h with
  | nil =>
    intro xs hxs
    cases xs with
    | nil => exact ⟨[], List.Perm.refl _, rfl⟩
    | cons x xs => cases hxs
  | cons b _ ih =>
    intro xs hxs
    cases xs with
    | nil => cases hxs
    | cons x xs =>
      simp only [List.map_cons, List.cons.injEq] at hxs
      obtain ⟨ys, hp, hm⟩ := ih xs hxs.2
      exact ⟨x :: ys, hp.cons x, by simp [hm, hxs.1]⟩
  | swap b c l =>
    intro xs hxs
    cases xs with
    | nil => cases hxs
    | cons x xs =>
      cases xs with
      | nil => simp at hxs
      | cons y xs =>
        simp only [List.map_cons, List.cons.injEq] at hxs
        exact ⟨y :: x :: xs, List.Perm.swap _ _ _, by simp [hxs.1, hxs.2.1, hxs.2.2]⟩
  | trans _ _ ih1 ih2 =>
    intro xs hxs
    obtain ⟨ys, hp, hm⟩ := ih2 xs hxs
    obtain ⟨zs, hp2, hm2⟩ := ih1 ys hm.symm
    exact ⟨zs, hp2.trans hp, hm2⟩

namespace MemTable

theorem Add_eq_Insert (ucmp : List Nat → List Nat → Int) (rnd : Random) (m : MemTable)
    (a : AddCall) (h : InRange a) :
    m.Add ucmp rnd a.seq a.type a.key a.value
      = (m.table_.Insert (KeyComparator ucmp) rnd (entryOf a)).map (fun t => { table_ := t }) := by
  have hl : (AddBuffer a.seq a.type a.key a.value).2.length
      = (AddBuffer a.seq a.type a.key a.value).1 := (AddBuffer_length a h).symm
  unfold Add
  simp only []
  rw [if_pos hl]
  show (match m.table_.Insert (KeyComparator ucmp) rnd (entryOf a) with
    | some t => some ({ table_ := t } : MemTable)
    | none => none) = _
  cases m.table_.Insert (KeyComparator ucmp) rnd (entryOf a) <;> rfl

theorem AddAll_eq_InsertAll (ucmp : List Nat → List Nat → Int) (rnd : Random) :
    ∀ (adds : List AddCall) (m : MemTable), (∀ a ∈ adds, InRange a) →
      AddAll ucmp rnd m adds
        = (SkipList.InsertAll (KeyComparator ucmp) rnd m.table_ (adds.map entryOf)).map
            (fun t => { table_ := t }) := by
  intro adds
  induction adds with
  | nil => intro m _; rfl
  | cons a rest ih =>
    intro m h
    unfold AddAll
    rw [Add_eq_Insert ucmp rnd m a (h a (List.mem_cons_self _ _))]
    simp only [List.map_cons, SkipList.InsertAll]
    cases hI : m.table_.Insert (KeyComparator ucmp) rnd (entryOf a) with
    | none => rfl
    | some t =>
      simp only [Option.map_some']
      exact ih { table_ := t } (fun b hb => h b (List.mem_cons_of_mem _ hb))

theorem KeyComparator_entryOf_lt (ucmp : List Nat → List Nat → Int) (a b : AddCall)
    (ha : InRange a) (hb : InRange b) :
    KeyComparator ucmp (entryOf a) (entryOf b) < 0 ↔
      ucmp a.key b.key < 0 ∨
      (ucmp a.key b.key = 0 ∧ b.seq * 256 + b.type.toNat < a.seq * 256 + a.type.toNat) := by
  unfold KeyComparator
  simp only []
  rw [Compare_lt, key_entryOf a ha, key_entryOf b hb, ExtractUserKey_internalKey,
    ExtractUserKey_internalKey, tag_internalKey a ha, tag_internalKey b hb]

theorem KeyComparator_entryOf_eq (ucmp : List Nat → List Nat → Int) (a b : AddCall)
    (ha : InRange a) (hb : InRange b) :
    KeyComparator ucmp (entryOf a) (entryOf b) = 0 ↔
      (ucmp a.key b.key = 0 ∧ a.seq * 256 + a.type.toNat = b.seq * 256 + b.type.toNat) := by
  unfold KeyComparator
  simp only []
  rw [Compare_eq, key_entryOf a ha, key_entryOf b hb, ExtractUserKey_internalKey,
    ExtractUserKey_internalKey, tag_internalKey a ha, tag_internalKey b hb]

theorem toNat_lt (t : ValueType) : t.toNat < 256 := by
  cases t <;> simp [ValueType.toNat]

/-- The memtable built from in-range calls: its table satisfies the skip list invariant
and its nodes in key order hold the entries of a permutation of the calls. -/
theorem built_entries (ucmp : List Nat → List Nat → Int) (hu : CmpLawful ucmp) (rnd : Random)
    (adds : List AddCall) (hr : ∀ a ∈ adds, InRange a) :
    ∃ (m : MemTable) (order : List Nat) (sorted : List AddCall),
      AddAll ucmp rnd (mk0 rnd) adds = some m ∧
      SkipList.Inv (KeyComparator ucmp) m.table_ order ∧
      sorted.Perm adds ∧ order.map m.table_.keyOf = sorted.map entryOf := by
  obtain ⟨s, order, hrun, hinv, hperm⟩ :=
    SkipList.built_inv (KeyComparator ucmp) (KeyComparator_lawful ucmp hu) rnd (adds.map entryOf)
  obtain ⟨sorted, hp, hm⟩ := perm_map_inv entryOf hperm adds rfl
  refine ⟨{ table_ := s }, order, sorted, ?_, hinv, hp, hm.symm⟩
  rw [AddAll_eq_InsertAll ucmp rnd adds (mk0 rnd) hr]
  show (SkipList.InsertAll (KeyComparator ucmp) rnd (SkipList.mk0 rnd) (adds.map entryOf)).map _ = _
  rw [hrun]
  rfl

end MemTable

theorem MemTableIterator_collect_eq (m : MemTable) :
    ∀ (fuel : Nat) (it : SkipIterator),
      MemTableIterator.collect m fuel { iter_ := it }
        = ((SkipIterator.collect m.table_ fuel it).1.map
            (fun e => ((GetLengthPrefixedSlice e).bytes,
              (GetLengthPrefixedSlice ((GetLengthPrefixedSlice e).data_.drop
                (GetLengthPrefixedSlice e).size_)).bytes)),
           { iter_ := (SkipIterator.collect m.table_ fuel it).2 }) := by
  intro fuel
  induction fuel with
  | zero => intro it; rfl
  | succ f ih =>
    intro it
    unfold MemTableIterator.collect SkipIterator.collect
    by_cases hv : it.Valid = true
    · have hv2 : MemTableIterator.Valid { iter_ := it } = true := hv
      rw [if_pos hv2, if_pos hv]
      have hn : MemTableIterator.Next m { iter_ := it } = { iter_ := it.Next m.table_ } := rfl
      rw [hn, ih]
      rfl
    · have hv2 : ¬ MemTableIterator.Valid { iter_ := it } = true := hv
      rw [if_neg hv2, if_neg hv]
      rfl

end leveldb

namespace leveldb

theorem shift_or_tag (s : Nat) (t : ValueType) : (s <<< 8) ||| t.toNat = s * 256 + t.toNat := by
  have ht : t.toNat < 2 ^ 8 := MemTable.toNat_lt t
  rw [Nat.shiftLeft_eq, Nat.mul_comm]
  exact (Nat.mul_add_lt_is_or ht s).symm

namespace MemTable

theorem sorted_calls (ucmp : List Nat → List Nat → Int) (hu : CmpLawful ucmp)
    (m : MemTable) (order : List Nat) (sorted : List AddCall)
    (hinv : SkipList.Inv (KeyComparator ucmp) m.table_ order)
    (hm : order.map m.table_.keyOf = sorted.map entryOf)
    (hr : ∀ a ∈ sorted, InRange a)
    (hd : sorted.Pairwise (fun a b => ucmp a.key b.key ≠ 0 ∨ a.seq ≠ b.seq)) :
    sorted.Pairwise
      (fun a b => ucmp a.key b.key < 0 ∨ (ucmp a.key b.key = 0 ∧ b.seq < a.seq)) := by
  have h1 : (order.map m.table_.keyOf).Pairwise
      (fun e1 e2 => ¬ KeyComparator ucmp e2 e1 < 0) := List.pairwise_map.mpr hinv.sorted
  rw [hm] at h1
  have h2 : sorted.Pairwise (fun a b => ¬ KeyComparator ucmp (entryOf b) (entryOf a) < 0) :=
    List.pairwise_map.mp h1
  refine (h2.and hd).imp_of_mem ?_
  intro a b ha hb hab
  obtain ⟨h3, h4⟩ := hab
  rw [KeyComparator_entryOf_lt ucmp b a (hr b hb) (hr a ha)] at h3
  have h5 := hu.antisymm a.key b.key
  have h6 := hu.antisymm b.key a.key
  have h7 := toNat_lt a.type
  have h8 := toNat_lt b.type
  by_cases h0 : ucmp a.key b.key = 0
  · right
    refine ⟨h0, ?_⟩
    have h9 : ucmp b.key a.key = 0 := by omega
    have h10 : ¬ (a.seq * 256 + a.type.toNat < b.seq * 256 + b.type.toNat) :=
      fun h => h3 (Or.inr ⟨h9, h⟩)
    have h11 : a.seq ≠ b.seq := by
      rcases h4 with h | h
      · exact absurd h0 h
      · exact h
    omega
  · left
    by_contra hlt
    have h9 : ucmp b.key a.key < 0 := by omega
    exact h3 (Or.inl h9)

end MemTable

/-- C8 (memtable iteration): for `Add` calls with arguments in range (56-bit sequence
numbers, lengths that fit `varint32`) and pairwise distinct (user key, sequence) pairs,
in any order, every `Add` returns, and iterating the memtable from `SeekToFirst` with
`Next` yields exactly one entry per `Add` (the entries of a permutation `sorted` of the
calls) in internal-key order (user key ascending under the user comparator, then
sequence descending), where `key()` is `user_key || fixed64_le((sequence << 8) | type)`
and `value()` is the value passed to `Add`; the iterator then is invalid. -/
theorem C8_memtable_iteration (ucmp : List Nat → List Nat → Int) (hu : CmpLawful ucmp)
    (rnd : Random) (adds : List MemTable.AddCall)
    (hr : ∀ a ∈ adds, MemTable.InRange a)
    (hd : adds.Pairwise (fun a b => ucmp a.key b.key ≠ 0 ∨ a.seq ≠ b.seq)) :
    ∃ (m : MemTable) (sorted : List MemTable.AddCall),
      MemTable.AddAll ucmp rnd (MemTable.mk0 rnd) adds = some m ∧
      sorted.Perm adds ∧
      sorted.Pairwise
        (fun a b => ucmp a.key b.key < 0 ∨ (ucmp a.key b.key = 0 ∧ b.seq < a.seq)) ∧
      MemTableIterator.collect m (adds.length + 1) (MemTableIterator.SeekToFirst m)
        = (sorted.map (fun a =>
            (a.key ++ EncodeFixed64 ((a.seq <<< 8) ||| a.type.toNat), a.value)),
           { iter_ := { node_ := none } }) := by
  obtain ⟨m, order, sorted, hrun, hinv, hp, hm⟩ := MemTable.built_entries ucmp hu rnd adds hr
  have hr2 : ∀ a ∈ sorted, MemTable.InRange a := fun a ha => hr a (hp.mem_iff.mp ha)
  have hsym : ∀ a b : MemTable.AddCall,
      (ucmp a.key b.key ≠ 0 ∨ a.seq ≠ b.seq) → (ucmp b.key a.key ≠ 0 ∨ b.seq ≠ a.seq) := by
    intro a b h
    rcases h with h | h
    · exact Or.inl (fun h2 => h (CmpLawful_symm_zero hu _ _ h2))
    · exact Or.inr (fun h2 => h h2.symm)
  have hd2 : sorted.Pairwise (fun a b => ucmp a.key b.key ≠ 0 ∨ a.seq ≠ b.seq) :=
    (hp.pairwise_iff (fun {a b} h => hsym a b h)).mpr hd
  refine ⟨m, sorted, hrun, hp, MemTable.sorted_calls ucmp hu m order sorted hinv hm hr2 hd2, ?_⟩
  have hlen : order.length = adds.length := by
    have h1 := congrArg List.length hm
    simp only [List.length_map] at h1
    rw [h1, hp.length_eq]
  have hcol := SkipList.collect_inv (KeyComparator ucmp) m.table_ order hinv (adds.length + 1)
    (by omega)
  show MemTableIterator.collect m (adds.length + 1)
    { iter_ := SkipIterator.SeekToFirst m.table_ } = _
  rw [MemTableIterator_collect_eq, hcol]
  simp only []
  rw [hm, List.map_map]
  congr 1
  apply List.map_congr_left
  intro a ha
  simp only [Function.comp]
  rw [MemTable.key_entryOf a (hr2 a ha), MemTable.value_entryOf a (hr2 a ha), shift_or_tag]
  rfl

/-- Witness for C8: three versions of the key `k` and one of the key `a`, added out of
order, with the bytewise user comparator. -/
theorem C8_memtable_iteration_witness :
    ∃ (m : MemTable) (sorted : List MemTable.AddCall),
      MemTable.AddAll bytewiseCompare sampleRandom (MemTable.mk0 sampleRandom)
        [⟨101, ValueType.kTypeValue, [107], [118, 50]⟩,
         ⟨100, ValueType.kTypeValue, [107], [118, 49]⟩,
         ⟨7, ValueType.kTypeValue, [97], [120]⟩,
         ⟨102, ValueType.kTypeDeletion, [107], []⟩] = some m ∧
      sorted.Perm
        [⟨101, ValueType.kTypeValue, [107], [118, 50]⟩,
         ⟨100, ValueType.kTypeValue, [107], [118, 49]⟩,
         ⟨7, ValueType.kTypeValue, [97], [120]⟩,
         ⟨102, ValueType.kTypeDeletion, [107], []⟩] ∧
      sorted.Pairwise
        (fun a b => bytewiseCompare a.key b.key < 0 ∨
          (bytewiseCompare a.key b.key = 0 ∧ b.seq < a.seq)) ∧
      MemTableIterator.collect m 5 (MemTableIterator.SeekToFirst m)
        = (sorted.map (fun a =>
            (a.key ++ EncodeFixed64 ((a.seq <<< 8) ||| a.type.toNat), a.value)),
           { iter_ := { node_ := none } }) :=
  C8_memtable_iteration bytewiseCompare bytewiseCompare_lawful sampleRandom
    [⟨101, ValueType.kTypeValue, [107], [118, 50]⟩,
     ⟨100, ValueType.kTypeValue, [107], [118, 49]⟩,
     ⟨7, ValueType.kTypeValue, [97], [120]⟩,
     ⟨102, ValueType.kTypeDeletion, [107], []⟩]
    (by simp [MemTable.InRange]) (by simp [bytewiseCompare])

end leveldb

namespace leveldb

namespace MemTable

theorem lookupCall_inRange (k : LookupKey) (h1 : k.sequence_ < 2 ^ 56)
    (h2 : k.user_key_.length + 8 < 2 ^ 32) : InRange (lookupCall k) :=
  ⟨h1, h2, by simp [lookupCall]⟩

theorem beforeLookup_iff (ucmp : List Nat → List Nat → Int) (k : LookupKey)
    (h1 : k.sequence_ < 2 ^ 56) (h2 : k.user_key_.length + 8 < 2 ^ 32)
    (a : AddCall) (ha : InRange a) :
    beforeLookup ucmp k a = true ↔
      ucmp a.key k.user_key_ < 0 ∨ (ucmp a.key k.user_key_ = 0 ∧ k.sequence_ < a.seq) := by
  have hl := lookupCall_inRange k h1 h2
  unfold beforeLookup KeyComparator
  simp only [decide_eq_true_eq]
  rw [Compare_lt, key_entryOf a ha, key_memtable_key k h1 h2]
  have e : ({ seq := k.sequence_, type := kValueTypeForSeek, key := k.user_key_, value := [] }
      : AddCall) = lookupCall k := rfl
  rw [e, ExtractUserKey_internalKey, ExtractUserKey_internalKey, tag_internalKey a ha,
    tag_internalKey _ hl]
  have h3 := toNat_lt a.type
  have h4 : (lookupCall k).type.toNat = 1 := rfl
  have h5 : (lookupCall k).seq = k.sequence_ := rfl
  have h6 : (lookupCall k).key = k.user_key_ := rfl
  rw [h4, h5, h6]
  have h7 : a.type.toNat ≤ 1 := by cases a.type <;> simp [ValueType.toNat]
  constructor
  · rintro (h | ⟨h, h'⟩)
    · exact Or.inl h
    · exact Or.inr ⟨h, by omega⟩
  · rintro (h | ⟨h, h'⟩)
    · exact Or.inl h
    · exact Or.inr ⟨h, by omega⟩

/-- The evaluation of `Get` on a table that satisfies the skip list invariant and holds
the entries of the calls `sorted` in key order: the seek stops at the first call that is
not before the lookup key. -/
theorem Get_eval (ucmp : List Nat → List Nat → Int) (hu : CmpLawful ucmp)
    (m : MemTable) (order : List Nat) (sorted : List AddCall)
    (hinv : SkipList.Inv (KeyComparator ucmp) m.table_ order)
    (hm : order.map m.table_.keyOf = sorted.map entryOf)
    (hr : ∀ a ∈ sorted, InRange a) (k : LookupKey) (value : List Nat) (s : Status) :
    m.Get ucmp k value s
      = some (resultFor ucmp k value s ((sorted.dropWhile (beforeLookup ucmp k)).head?)) := by
  have hseek : SkipIterator.Seek (KeyComparator ucmp) m.table_ k.memtable_key
      = some ⟨(SkipList.notBefore (KeyComparator ucmp) m.table_ k.memtable_key order).head?⟩ := by
    unfold SkipIterator.Seek
    rw [SkipList.FGE_spec (KeyComparator ucmp) (KeyComparator_lawful ucmp hu) m.table_ order hinv
      k.memtable_key none]
  have hrel : ((SkipList.notBefore (KeyComparator ucmp) m.table_ k.memtable_key order).head?).map
      m.table_.keyOf = ((sorted.dropWhile (beforeLookup ucmp k)).head?).map entryOf := by
    rw [← List.head?_map, ← List.head?_map]
    congr 1
    have h1 := List.dropWhile_map m.table_.keyOf
      (fun e => decide (KeyComparator ucmp e k.memtable_key < 0)) order
    have h2 := List.dropWhile_map entryOf
      (fun e => decide (KeyComparator ucmp e k.memtable_key < 0)) sorted
    rw [hm] at h1
    rw [h2] at h1
    exact h1.symm
  unfold Get
  simp only []
  rw [hseek]
  simp only []
  cases hhd : (SkipList.notBefore (KeyComparator ucmp) m.table_ k.memtable_key order).head? with
  | none =>
    rw [hhd] at hrel
    cases hs : (sorted.dropWhile (beforeLookup ucmp k)).head? with
    | none => rfl
    | some X => rw [hs] at hrel; cases hrel
  | some x =>
    rw [hhd] at hrel
    cases hs : (sorted.dropWhile (beforeLookup ucmp k)).head? with
    | none => rw [hs] at hrel; cases hrel
    | some X =>
      rw [hs] at hrel
      have hkey : m.table_.keyOf x = entryOf X := by
        simpa using hrel
      have hX : InRange X := hr X (List.mem_of_mem_head? hs |> fun h =>
        (List.dropWhile_sublist _).subset h)
      have hv : SkipIterator.Valid ⟨some x⟩ = true := rfl
      rw [if_pos hv]
      have hk2 : SkipIterator.key m.table_ ⟨some x⟩ = entryOf X := hkey
      rw [hk2, GetVarint32Ptr_entryOf X hX]
      simp only [Nat.add_sub_cancel]
      have e1 : (internalKey X ++ (EncodeVarint32 X.value.length ++ X.value)).take X.key.length
          = X.key := by
        unfold internalKey
        rw [List.append_assoc, List.take_left]
      have e2 : DecodeFixed64 ((internalKey X ++ (EncodeVarint32 X.value.length ++ X.value)).drop
          X.key.length) = X.seq * 256 + X.type.toNat := by
        unfold internalKey
        rw [List.append_assoc, List.drop_left, DecodeFixed64_EncodeFixed64]
        have := hX.1
        have := toNat_lt X.type
        omega
      have e3 : (GetLengthPrefixedSlice
          ((internalKey X ++ (EncodeVarint32 X.value.length ++ X.value)).drop
            (X.key.length + 8))).bytes = X.value := by
        rw [← internalKey_length X, List.drop_left]
        unfold GetLengthPrefixedSlice
        rw [GetVarint32Ptr_EncodeVarint32 X.value.length hX.2.2 X.value]
        simp [Slice.bytes]
      rw [e1, e2, e3]
      have e4 : (X.seq * 256 + X.type.toNat) % 256 = X.type.toNat := by
        have := toNat_lt X.type
        omega
      rw [e4]
      unfold resultFor LookupKey.user_key
      simp only []
      by_cases hc : ucmp X.key k.user_key_ = 0
      · rw [if_pos hc, if_pos hc]
        cases X.type <;> simp [ValueType.toNat]
      · rw [if_neg hc, if_neg hc]

end MemTable

end leveldb

namespace leveldb

namespace MemTable

/-- In a list of calls in internal-key order, the first call that is not before the
lookup key is the entry of the user key with the largest sequence number not above the
snapshot, when there is one. -/
theorem lookup_finds (ucmp : List Nat → List Nat → Int) (hu : CmpLawful ucmp)
    (sorted : List AddCall) (hr : ∀ a ∈ sorted, InRange a)
    (hsorted : sorted.Pairwise
      (fun a b => ucmp a.key b.key < 0 ∨ (ucmp a.key b.key = 0 ∧ b.seq < a.seq)))
    (k : LookupKey) (h1 : k.sequence_ < 2 ^ 56) (h2 : k.user_key_.length + 8 < 2 ^ 32)
    (e : AddCall) (he : e ∈ sorted) (hek : ucmp e.key k.user_key_ = 0)
    (hes : e.seq ≤ k.sequence_)
    (hmax : ∀ a ∈ sorted, ucmp a.key k.user_key_ = 0 → a.seq ≤ k.sequence_ → a.seq ≤ e.seq) :
    (sorted.dropWhile (beforeLookup ucmp k)).head? = some e := by
  have hnot : ¬ beforeLookup ucmp k e = true := by
    rw [beforeLookup_iff ucmp k h1 h2 e (hr e he)]
    rintro (h | ⟨_, h⟩) <;> omega
  have hmem : e ∈ sorted.dropWhile (beforeLookup ucmp k) := by
    have h3 : e ∈ sorted.takeWhile (beforeLookup ucmp k) ++ sorted.dropWhile (beforeLookup ucmp k) := by
      rw [List.takeWhile_append_dropWhile]; exact he
    rcases List.mem_append.mp h3 with h | h
    · exact absurd (List.mem_takeWhile_imp h) hnot
    · exact h
  have hsub : (sorted.dropWhile (beforeLookup ucmp k)).Sublist sorted := List.dropWhile_sublist _
  have hs2 := hsorted.sublist hsub
  cases hd : sorted.dropWhile (beforeLookup ucmp k) with
  | nil => rw [hd] at hmem; cases hmem
  | cons X rest =>
    have hXd : (sorted.dropWhile (beforeLookup ucmp k)).head? = some X := by rw [hd]; rfl
    have hXnot : ¬ beforeLookup ucmp k X = true := by
      have := List.head?_dropWhile_not (beforeLookup ucmp k) sorted
      rw [hXd] at this
      simpa using this
    have hXm : X ∈ sorted := hsub.subset (by rw [hd]; exact List.mem_cons_self _ _)
    rw [beforeLookup_iff ucmp k h1 h2 X (hr X hXm)] at hXnot
    rw [hd] at hmem hs2
    rcases List.mem_cons.mp hmem with h | h
    · rw [h]; rfl
    · exfalso
      have hR := (List.pairwise_cons.mp hs2).1 e h
      rcases hR with h3 | ⟨h3, h4⟩
      · exact hXnot (Or.inl ((hu.eq_right _ _ X.key hek).mp h3))
      · have h5 : ucmp X.key k.user_key_ = 0 := by
          have h6 := hu.eq_left _ _ k.user_key_ h3
          have h7 := hu.eq_right _ _ k.user_key_ h3
          have h8 := hu.antisymm X.key k.user_key_
          have h9 := hu.antisymm k.user_key_ X.key
          have h10 := hu.antisymm e.key k.user_key_
          have h11 := hu.antisymm k.user_key_ e.key
          have h12 := hu.eq_right _ _ k.user_key_ h3
          omega
        have h6 : X.seq ≤ k.sequence_ := by
          by_contra h7
          exact hXnot (Or.inr ⟨h5, by omega⟩)
        have := hmax X hXm h5 h6
        omega

/-- In a list of calls, when no call for the user key has a sequence number up to the
snapshot, the first call that is not before the lookup key has another user key. -/
theorem lookup_misses (ucmp : List Nat → List Nat → Int)
    (sorted : List AddCall) (hr : ∀ a ∈ sorted, InRange a)
    (k : LookupKey) (h1 : k.sequence_ < 2 ^ 56) (h2 : k.user_key_.length + 8 < 2 ^ 32)
    (hno : ∀ a ∈ sorted, ucmp a.key k.user_key_ = 0 → ¬ a.seq ≤ k.sequence_)
    (value : List Nat) (s : Status) :
    resultFor ucmp k value s ((sorted.dropWhile (beforeLookup ucmp k)).head?)
      = (false, value, s) := by
  cases hd : (sorted.dropWhile (beforeLookup ucmp k)).head? with
  | none => rfl
  | some X =>
    have hXnot : ¬ beforeLookup ucmp k X = true := by
      have := List.head?_dropWhile_not (beforeLookup ucmp k) sorted
      rw [hd] at this
      simpa using this
    have hXm : X ∈ sorted := (List.dropWhile_sublist _).subset (List.mem_of_mem_head? hd)
    rw [beforeLookup_iff ucmp k h1 h2 X (hr X hXm)] at hXnot
    unfold resultFor
    simp only []
    have hc : ¬ ucmp X.key k.user_key_ = 0 := by
      intro hc
      have := hno X hXm hc
      exact hXnot (Or.inr ⟨hc, by omega⟩)
    rw [if_neg hc]

end MemTable

/-- C3 (memtable snapshot lookup): for a memtable built by `Add` calls with arguments in
range and pairwise distinct sequence numbers, and a lookup of user key `k` at snapshot
sequence `s`, `Get` returns; if `e` is the entry for user key `k` with the largest
sequence `≤ s`, then for a PUT `Get` returns true and stores the value of `e` in `*value`,
and for a DELETE it returns true and sets `*status` to NotFound; if there is no entry
for `k` with a sequence `≤ s`, `Get` returns false (and leaves `*value`, `*status`). -/
theorem C3_memtable_get (ucmp : List Nat → List Nat → Int) (hu : CmpLawful ucmp)
    (rnd : Random) (adds : List MemTable.AddCall)
    (hr : ∀ a ∈ adds, MemTable.InRange a)
    (hd : adds.Pairwise (fun a b => a.seq ≠ b.seq))
    (k : List Nat) (s : Nat) (hs : s < 2 ^ 56) (hk : k.length + 8 < 2 ^ 32)
    (value : List Nat) (status : Status) :
    ∃ (m : MemTable) (r : Bool × List Nat × Status),
      MemTable.AddAll ucmp rnd (MemTable.mk0 rnd) adds = some m ∧
      m.Get ucmp { user_key_ := k, sequence_ := s } value status = some r ∧
      (∀ e ∈ adds, ucmp e.key k = 0 → e.seq ≤ s →
        (∀ a ∈ adds, ucmp a.key k = 0 → a.seq ≤ s → a.seq ≤ e.seq) →
        (e.type = ValueType.kTypeValue → r = (true, e.value, status)) ∧
        (e.type = ValueType.kTypeDeletion → r = (true, value, Status.NotFound ""))) ∧
      ((∀ a ∈ adds, ucmp a.key k = 0 → ¬ a.seq ≤ s) → r = (false, value, status)) := by
  obtain ⟨m, order, sorted, hrun, hinv, hp, hm⟩ := MemTable.built_entries ucmp hu rnd adds hr
  have hr2 : ∀ a ∈ sorted, MemTable.InRange a := fun a ha => hr a (hp.mem_iff.mp ha)
  have hd1 : adds.Pairwise (fun a b => ucmp a.key b.key ≠ 0 ∨ a.seq ≠ b.seq) :=
    hd.imp (fun h => Or.inr h)
  have hsym : ∀ a b : MemTable.AddCall,
      (ucmp a.key b.key ≠ 0 ∨ a.seq ≠ b.seq) → (ucmp b.key a.key ≠ 0 ∨ b.seq ≠ a.seq) := by
    intro a b h
    rcases h with h | h
    · exact Or.inl (fun h2 => h (CmpLawful_symm_zero hu _ _ h2))
    · exact Or.inr (fun h2 => h h2.symm)
  have hd2 : sorted.Pairwise (fun a b => ucmp a.key b.key ≠ 0 ∨ a.seq ≠ b.seq) :=
    (hp.pairwise_iff (fun {a b} h => hsym a b h)).mpr hd1
  have hsorted := MemTable.sorted_calls ucmp hu m order sorted hinv hm hr2 hd2
  have hget := MemTable.Get_eval ucmp hu m order sorted hinv hm hr2
    { user_key_ := k, sequence_ := s } value status
  refine ⟨m, _, hrun, hget, ?_, ?_⟩
  · intro e he hek hes hmax
    have hfind := MemTable.lookup_finds ucmp hu sorted hr2 hsorted
      { user_key_ := k, sequence_ := s } hs hk e (hp.mem_iff.mpr he) hek hes
      (fun a ha => hmax a (hp.mem_iff.mp ha))
    rw [hfind]
    unfold MemTable.resultFor
    simp only []
    rw [if_pos hek]
    constructor
    · intro ht; rw [ht]
    · intro ht; rw [ht]
  · intro hno
    exact MemTable.lookup_misses ucmp sorted hr2 { user_key_ := k, sequence_ := s } hs hk
      (fun a ha => hno a (hp.mem_iff.mp ha)) value status

/-- Witness for C3: `Add(100, PUT, k, v1)`, `Add(101, PUT, k, v2)`, `Add(102, DELETE, k, "")`
and the lookup of `k` at snapshot 101. -/
theorem C3_memtable_get_witness :
    ∃ (m : MemTable) (r : Bool × List Nat × Status),
      MemTable.AddAll bytewiseCompare sampleRandom (MemTable.mk0 sampleRandom)
        [⟨100, ValueType.kTypeValue, [107], [118, 49]⟩,
         ⟨101, ValueType.kTypeValue, [107], [118, 50]⟩,
         ⟨102, ValueType.kTypeDeletion, [107], []⟩] = some m ∧
      m.Get bytewiseCompare { user_key_ := [107], sequence_ := 101 } [] Status.OK = some r ∧
      (∀ e ∈ ([⟨100, ValueType.kTypeValue, [107], [118, 49]⟩,
               ⟨101, ValueType.kTypeValue, [107], [118, 50]⟩,
               ⟨102, ValueType.kTypeDeletion, [107], []⟩] : List MemTable.AddCall),
        bytewiseCompare e.key [107] = 0 → e.seq ≤ 101 →
        (∀ a ∈ ([⟨100, ValueType.kTypeValue, [107], [118, 49]⟩,
                 ⟨101, ValueType.kTypeValue, [107], [118, 50]⟩,
                 ⟨102, ValueType.kTypeDeletion, [107], []⟩] : List MemTable.AddCall),
          bytewiseCompare a.key [107] = 0 → a.seq ≤ 101 → a.seq ≤ e.seq) →
        (e.type = ValueType.kTypeValue → r = (true, e.value, Status.OK)) ∧
        (e.type = ValueType.kTypeDeletion → r = (true, [], Status.NotFound ""))) ∧
      ((∀ a ∈ ([⟨100, ValueType.kTypeValue, [107], [118, 49]⟩,
                ⟨101, ValueType.kTypeValue, [107], [118, 50]⟩,
                ⟨102, ValueType.kTypeDeletion, [107], []⟩] : List MemTable.AddCall),
          bytewiseCompare a.key [107] = 0 → ¬ a.seq ≤ 101) → r = (false, [], Status.OK)) :=
  C3_memtable_get bytewiseCompare bytewiseCompare_lawful sampleRandom
    [⟨100, ValueType.kTypeValue, [107], [118, 49]⟩,
     ⟨101, ValueType.kTypeValue, [107], [118, 50]⟩,
     ⟨102, ValueType.kTypeDeletion, [107], []⟩]
    (by simp [MemTable.InRange]) (by simp) [107] 101 (by decide) (by decide) [] Status.OK

end leveldb

namespace leveldb

namespace FilterBlockBuilder

theorem resultOf_append (policy : FilterPolicy) (d1 d2 : List (List (List Nat))) :
    resultOf policy (d1 ++ d2) = resultOf policy d1 ++ resultOf policy d2 := by
  induction d1 with
  | nil => rfl
  | cons a rest ih => simp [resultOf, ih]

theorem offsetsOf_append (policy : FilterPolicy) (d1 d2 : List (List (List Nat))) :
    ∀ base, offsetsOf policy base (d1 ++ d2)
      = offsetsOf policy base d1 ++ offsetsOf policy (base + (resultOf policy d1).length) d2 := by
  induction d1 with
  | nil => intro base; simp [offsetsOf, resultOf]
  | cons a rest ih =>
    intro base
    simp [offsetsOf, resultOf, ih, Nat.add_assoc]

theorem offsetsOf_length (policy : FilterPolicy) (d : List (List (List Nat))) :
    ∀ base, (offsetsOf policy base d).length = d.length := by
  induction d with
  | nil => intro _; rfl
  | cons a rest ih => intro base; simp [offsetsOf, ih]

theorem flat_append (p1 p2 : List (List Nat)) : flat (p1 ++ p2) = flat p1 ++ flat p2 := by
  induction p1 with
  | nil => rfl
  | cons a rest ih => simp [flat, ih]

theorem startsOf_append (p1 p2 : List (List Nat)) :
    ∀ base, startsOf base (p1 ++ p2)
      = startsOf base p1 ++ startsOf (base + (flat p1).length) p2 := by
  induction p1 with
  | nil => intro base; simp [startsOf, flat]
  | cons a rest ih =>
    intro base
    simp [startsOf, flat, ih, Nat.add_assoc]

theorem startsOf_length (p : List (List Nat)) :
    ∀ base, (startsOf base p).length = p.length := by
  induction p with
  | nil => intro _; rfl
  | cons a rest ih => intro base; simp [startsOf, ih]

/-- Splitting the flattened keys at the start indexes gives the keys back. -/
theorem resplit (pending : List (List Nat)) :
    ∀ (pre : List Nat),
      (List.range pending.length).map (fun i =>
        ((pre ++ flat pending).drop
            ((startsOf pre.length pending ++ [pre.length + (flat pending).length]).getD i 0)).take
          ((startsOf pre.length pending ++ [pre.length + (flat pending).length]).getD (i + 1) 0
            - (startsOf pre.length pending ++ [pre.length + (flat pending).length]).getD i 0))
        = pending := by
  induction pending with
  | nil => intro pre; rfl
  | cons k rest ih =>
    intro pre
    rw [List.length_cons, List.range_succ_eq_map, List.map_cons, List.map_map]
    have h1 : (startsOf pre.length (k :: rest) ++ [pre.length + (flat (k :: rest)).length])
        = pre.length :: (startsOf (pre ++ k).length rest
            ++ [(pre ++ k).length + (flat rest).length]) := by
      simp only [startsOf, flat, List.length_append, List.cons_append, Nat.add_assoc]
    rw [h1]
    have h2 : (pre ++ flat (k :: rest)) = (pre ++ k) ++ flat rest := by
      simp [flat]
    rw [h2]
    congr 1
    · simp only [List.getD_cons_zero, List.getD_cons_succ]
      have h4 : (startsOf (pre ++ k).length rest ++ [(pre ++ k).length + (flat rest).length]).getD
          0 0 - pre.length = k.length := by
        cases rest with
        | nil => simp [startsOf, flat]
        | cons r rs => simp [startsOf]
      rw [h4, List.append_assoc, List.drop_left, List.take_left]
    · have := ih (pre ++ k)
      simp only [Function.comp, List.getD_cons_succ]
      exact this

end FilterBlockBuilder

end leveldb

namespace leveldb

namespace FilterBlockBuilder

theorem Rel_mk0 (policy : FilterPolicy) : Rel policy mk0 [] [] :=
  ⟨rfl, rfl, rfl, rfl, rfl⟩

theorem Rel_AddKey (policy : FilterPolicy) (b : FilterBlockBuilder)
    (done : List (List (List Nat))) (pending : List (List Nat)) (h : Rel policy b done pending)
    (k : List Nat) : Rel policy (b.AddKey k) done (pending ++ [k]) := by
  refine ⟨?_, ?_, h.result_eq, h.offsets_eq, h.tmp_eq⟩
  · show b.keys_ ++ k = _
    rw [h.keys_eq, flat_append]
    simp [flat]
  · show b.start_ ++ [b.keys_.length] = _
    rw [h.start_eq, h.keys_eq, startsOf_append]
    simp [startsOf]

theorem Rel_GenerateFilter (policy : FilterPolicy) (b : FilterBlockBuilder)
    (done : List (List (List Nat))) (pending : List (List Nat)) (h : Rel policy b done pending) :
    Rel policy (GenerateFilter policy b) (done ++ [pending]) [] := by
  have hlen : b.start_.length = pending.length := by rw [h.start_eq, startsOf_length]
  have hoff : b.filter_offsets_ ++ [b.result_.length % 2 ^ 32]
      = offsetsOf policy 0 (done ++ [pending]) := by
    rw [offsetsOf_append, h.offsets_eq, h.result_eq]
    simp [offsetsOf]
  unfold GenerateFilter
  simp only []
  by_cases h0 : b.start_.length = 0
  · rw [if_pos h0]
    have hp : pending = [] := List.length_eq_zero.mp (by omega)
    have hs : b.start_ = [] := List.length_eq_zero.mp h0
    refine ⟨?_, ?_, ?_, hoff, h.tmp_eq⟩
    · show b.keys_ = _
      rw [h.keys_eq, hp]
    · show b.start_ = _
      rw [hs]; rfl
    · show b.result_ = _
      rw [resultOf_append, h.result_eq, hp]
      simp [resultOf, filterBytes]
  · rw [if_neg h0]
    have hp : pending ≠ [] := by
      intro hp; rw [hp] at hlen; exact h0 hlen
    refine ⟨rfl, rfl, ?_, hoff, rfl⟩
    show b.result_ ++ policy.CreateFilter _ = _
    have hsplit := resplit pending []
    simp only [List.nil_append, List.length_nil, Nat.zero_add] at hsplit
    rw [h.start_eq, h.keys_eq, startsOf_length, hsplit, resultOf_append, h.result_eq]
    simp [resultOf, filterBytes, hp]

theorem Holds_AddKey (done : List (List (List Nat))) (pending : List (List Nat)) (i : Nat)
    (k k1 : List Nat) (h : Holds done pending i k) : Holds done (pending ++ [k1]) i k := by
  rcases h with ⟨h1, h2⟩ | h
  · exact Or.inl ⟨h1, List.mem_append_left _ h2⟩
  · exact Or.inr h

theorem mem_getD_lt {α : Type} (l : List (List α)) (i : Nat) (k : α) (h : k ∈ l.getD i []) :
    i < l.length := by
  by_contra hn
  rw [List.getD_eq_default _ _ (by omega)] at h
  cases h

theorem Holds_GenerateFilter (done : List (List (List Nat))) (pending : List (List Nat))
    (i : Nat) (k : List Nat) (h : Holds done pending i k) :
    Holds (done ++ [pending]) [] i k := by
  rcases h with ⟨h1, h2⟩ | h
  · right
    rw [← h1, List.getD_eq_getElem?_getD, List.getElem?_append_right (Nat.le_refl _)]
    simpa using h2
  · right
    have hlt := mem_getD_lt done i k h
    rw [List.getD_eq_getElem?_getD, List.getElem?_append_left hlt,
      ← List.getD_eq_getElem?_getD]
    exact h

/-- The loop of `StartBlock` generates filters until there are `idx` of them. -/
theorem StartBlockLoop_rel (policy : FilterPolicy) (idx : Nat) :
    ∀ (fuel : Nat) (b : FilterBlockBuilder) (done : List (List (List Nat)))
      (pending : List (List Nat)), Rel policy b done pending → done.length ≤ idx →
      idx - done.length ≤ fuel →
      ∃ b1 done1 pending1, StartBlockLoop policy idx fuel b = some b1 ∧
        Rel policy b1 done1 pending1 ∧ done1.length = idx ∧
        (∀ i k, Holds done pending i k → Holds done1 pending1 i k) := by
  intro fuel
  induction fuel with
  | zero =>
    intro b done pending h hle hf
    have hsz : b.filter_offsets_.length = done.length := by
      rw [h.offsets_eq, offsetsOf_length]
    refine ⟨b, done, pending, ?_, h, by omega, fun _ _ hh => hh⟩
    unfold StartBlockLoop
    rw [if_neg (by omega)]
  | succ f ih =>
    intro b done pending h hle hf
    have hsz : b.filter_offsets_.length = done.length := by
      rw [h.offsets_eq, offsetsOf_length]
    unfold StartBlockLoop
    by_cases hgt : idx > b.filter_offsets_.length
    · rw [if_pos hgt]
      obtain ⟨b1, done1, pending1, hrun, hrel, hlen, hholds⟩ :=
        ih (GenerateFilter policy b) (done ++ [pending]) [] (Rel_GenerateFilter policy b done
          pending h) (by simp; omega) (by simp; omega)
      exact ⟨b1, done1, pending1, hrun, hrel, hlen,
        fun i k hh => hholds i k (Holds_GenerateFilter done pending i k hh)⟩
    · rw [if_neg hgt]
      exact ⟨b, done, pending, rfl, h, by omega, fun _ _ hh => hh⟩

theorem StartBlock_rel (policy : FilterPolicy) (b : FilterBlockBuilder)
    (done : List (List (List Nat))) (pending : List (List Nat)) (h : Rel policy b done pending)
    (o : Nat) (hle : done.length ≤ o / kFilterBase) :
    ∃ b1 done1 pending1, b.StartBlock policy o = some b1 ∧
      Rel policy b1 done1 pending1 ∧ done1.length = o / kFilterBase ∧
      (∀ i k, Holds done pending i k → Holds done1 pending1 i k) := by
  have hsz : b.filter_offsets_.length = done.length := by
    rw [h.offsets_eq, offsetsOf_length]
  unfold StartBlock
  simp only []
  rw [if_pos (by omega), hsz]
  exact StartBlockLoop_rel policy _ _ b done pending h hle (Nat.le_refl _)

/-- A sequence of calls with non-decreasing block offsets, none below the number of
filters generated so far, runs through; keys stay with the filter they were added for. -/
theorem run_rel (policy : FilterPolicy) :
    ∀ (calls : List Call) (b : FilterBlockBuilder) (done : List (List (List Nat)))
      (pending : List (List Nat)), Rel policy b done pending →
      (∀ o ∈ offsets calls, done.length ≤ o / kFilterBase) →
      (offsets calls).Pairwise (fun a c => a ≤ c) →
      ∃ b1 done1 pending1, run policy b calls = some b1 ∧
        Rel policy b1 done1 pending1 ∧
        (∀ i k, Holds done pending i k → Holds done1 pending1 i k) ∧
        (∀ o1, (∀ o ∈ offsets calls, o ≤ o1) → done.length ≤ o1 / kFilterBase →
          done1.length ≤ o1 / kFilterBase) ∧
        (∀ o, (offsets calls).getLast? = some o → done1.length = o / kFilterBase) ∧
        done.length ≤ done1.length := by
  intro calls
  induction calls with
  | nil =>
    intro b done pending h _ _
    exact ⟨b, done, pending, rfl, h, fun _ _ hh => hh, fun _ _ hh => hh,
      fun o ho => by simp [offsets] at ho, Nat.le_refl _⟩
  | cons c rest ih =>
    intro b done pending h hbound hmono
    cases c with
    | StartBlock o =>
      simp only [offsets, List.pairwise_cons] at hbound hmono
      obtain ⟨b1, done1, pending1, hsb, hrel1, hlen1, hh1⟩ :=
        StartBlock_rel policy b done pending h o (hbound o (List.mem_cons_self _ _))
      have hk : kFilterBase = 2048 := rfl
      obtain ⟨b2, done2, pending2, hrun, hrel2, hh2, hub, hlast, hge⟩ :=
        ih b1 done1 pending1 hrel1
          (fun o2 ho2 => by
            rw [hlen1]
            exact Nat.div_le_div_right (hmono.1 o2 ho2))
          hmono.2
      have hle0 := hbound o (List.mem_cons_self _ _)
      refine ⟨b2, done2, pending2, ?_, hrel2, fun i k hh => hh2 i k (hh1 i k hh), ?_, ?_,
        by omega⟩
      · unfold run
        rw [hsb]
        exact hrun
      · intro o1 hall hle
        simp only [offsets, List.mem_cons] at hall
        refine hub o1 (fun o2 ho2 => hall o2 (Or.inr ho2)) ?_
        rw [hlen1]
        exact Nat.div_le_div_right (hall o (Or.inl rfl))
      · intro o2 ho2
        simp only [offsets] at ho2
        cases hr : offsets rest with
        | nil =>
          rw [hr] at ho2
          simp at ho2
          have hb := hub o (by rw [hr]; intro _ hx; cases hx) (by omega)
          rw [← ho2]
          omega
        | cons x xs =>
          rw [hr] at ho2
          apply hlast
          rw [hr]
          simpa [List.getLast?_cons_cons] using ho2
    | AddKey k =>
      simp only [offsets] at hbound hmono
      obtain ⟨b2, done2, pending2, hrun, hrel2, hh2, hub, hlast, hge⟩ :=
        ih (b.AddKey k) done (pending ++ [k]) (Rel_AddKey policy b done pending h k) hbound hmono
      exact ⟨b2, done2, pending2, hrun, hrel2,
        fun i k1 hh => hh2 i k1 (Holds_AddKey done pending i k1 k hh), hub, hlast, hge⟩

end FilterBlockBuilder

end leveldb

namespace leveldb

namespace FilterBlockBuilder

theorem EncodeFixed32_length (v : Nat) : (EncodeFixed32 v).length = 4 := rfl

theorem encodeWords_length (ws : List Nat) : (encodeWords ws).length = 4 * ws.length := by
  induction ws with
  | nil => rfl
  | cons w rest ih => simp [encodeWords, ih, EncodeFixed32_length]; omega

theorem encodeWords_append (w1 w2 : List Nat) :
    encodeWords (w1 ++ w2) = encodeWords w1 ++ encodeWords w2 := by
  induction w1 with
  | nil => rfl
  | cons w rest ih => simp [encodeWords, ih]

theorem foldl_encode (ws : List Nat) :
    ∀ (r : List Nat), ws.foldl (fun r off => r ++ EncodeFixed32 off) r = r ++ encodeWords ws := by
  induction ws with
  | nil => intro r; simp [encodeWords]
  | cons w rest ih => intro r; simp [encodeWords, ih]

theorem decode_words (tail : List Nat) :
    ∀ (ws : List Nat) (i : Nat), i < ws.length →
      DecodeFixed32 ((encodeWords ws ++ tail).drop (i * 4)) = ws.getD i 0 % 2 ^ 32 := by
  intro ws
  induction ws with
  | nil => intro i hi; cases hi
  | cons w rest ih =>
    intro i hi
    cases i with
    | zero =>
      simp only [Nat.zero_mul, List.drop_zero, encodeWords, List.append_assoc,
        List.getD_cons_zero]
      exact log.DecodeFixed32_EncodeFixed32 w _
    | succ j =>
      have h4 : (j + 1) * 4 = (EncodeFixed32 w).length + j * 4 := by
        rw [EncodeFixed32_length]; omega
      simp only [encodeWords, List.append_assoc, List.getD_cons_succ]
      rw [h4, List.drop_append]
      exact ih j (by simpa using hi)

theorem offsetsOf_getD (policy : FilterPolicy) :
    ∀ (d : List (List (List Nat))) (base i : Nat), i < d.length →
      (offsetsOf policy base d).getD i 0 = (base + (resultOf policy (d.take i)).length) % 2 ^ 32 := by
  intro d
  induction d with
  | nil => intro _ i hi; cases hi
  | cons a rest ih =>
    intro base i hi
    cases i with
    | zero => simp [offsetsOf, resultOf]
    | succ j =>
      simp only [offsetsOf, List.getD_cons_succ, List.take_succ_cons, resultOf,
        List.length_append]
      rw [ih _ j (by simpa using hi), Nat.add_assoc]

theorem resultOf_take_le (policy : FilterPolicy) (d : List (List (List Nat))) (i : Nat) :
    (resultOf policy (d.take i)).length ≤ (resultOf policy d).length := by
  have h := resultOf_append policy (d.take i) (d.drop i)
  rw [List.take_append_drop] at h
  rw [h, List.length_append]
  omega

theorem resultOf_split (policy : FilterPolicy) (d : List (List (List Nat))) (i : Nat)
    (hi : i < d.length) :
    resultOf policy d = resultOf policy (d.take i)
      ++ (filterBytes policy (d.getD i []) ++ resultOf policy (d.drop (i + 1))) := by
  have h := resultOf_append policy (d.take i) (d.drop i)
  rw [List.take_append_drop] at h
  rw [h]
  congr 1
  have hd : d.drop i = d.getD i [] :: d.drop (i + 1) := by
    rw [List.getD_eq_getElem _ _ hi]
    exact List.drop_eq_getElem_cons hi
  rw [hd]
  rfl

theorem resultOf_take_succ (policy : FilterPolicy) (d : List (List (List Nat))) (i : Nat)
    (hi : i < d.length) :
    (resultOf policy (d.take (i + 1))).length
      = (resultOf policy (d.take i)).length + (filterBytes policy (d.getD i [])).length := by
  have h : d.take (i + 1) = d.take i ++ [d.getD i []] := by
    rw [List.getD_eq_getElem _ _ hi]
    exact (List.take_concat_get' d i hi).symm
  rw [h, resultOf_append]
  simp [resultOf]

end FilterBlockBuilder

end leveldb

namespace leveldb

namespace FilterBlockBuilder

/-- The filter block of the key sets `done`. -/
theorem Finish_eq (policy : FilterPolicy) (b : FilterBlockBuilder)
    (done : List (List (List Nat))) (pending : List (List Nat)) (h : Rel policy b done pending) :
    ∃ done1, (∀ i k, Holds done pending i k → k ∈ done1.getD i []) ∧
      (Finish policy b).2 = resultOf policy done1
        ++ (encodeWords (offsetsOf policy 0 done1 ++ [(resultOf policy done1).length % 2 ^ 32])
          ++ [kFilterBaseLg]) := by
  have hlen : b.start_.length = pending.length := by rw [h.start_eq, startsOf_length]
  by_cases hs : b.start_ = []
  · have hp : pending = [] := by
      rw [hs] at hlen
      exact List.length_eq_zero.mp hlen.symm
    refine ⟨done, ?_, ?_⟩
    · intro i k hh
      rcases hh with ⟨_, h2⟩ | h2
      · rw [hp] at h2; cases h2
      · exact h2
    · unfold Finish
      simp only []
      rw [if_neg (by simpa using hs), foldl_encode, h.result_eq, h.offsets_eq, encodeWords_append]
      simp [encodeWords]
  · have hrel := Rel_GenerateFilter policy b done pending h
    refine ⟨done ++ [pending], ?_, ?_⟩
    · intro i k hh
      rcases Holds_GenerateFilter done pending i k hh with ⟨_, h2⟩ | h2
      · cases h2
      · exact h2
    · unfold Finish
      simp only []
      rw [if_pos (by simpa using hs), foldl_encode, hrel.result_eq, hrel.offsets_eq,
        encodeWords_append]
      simp [encodeWords]

end FilterBlockBuilder

namespace FilterBlockReader

open FilterBlockBuilder

/-- The reader of a filter block of the key sets `done` asks the policy about the filter
of the index of the block offset. -/
theorem KeyMayMatch_block (policy : FilterPolicy) (done : List (List (List Nat)))
    (hsize : (resultOf policy done).length < 2 ^ 32) (o : Nat) (ho : o < 2 ^ 64)
    (hi : o / kFilterBase < done.length) (key : List Nat) :
    (mk0 (resultOf policy done
        ++ (encodeWords (offsetsOf policy 0 done ++ [(resultOf policy done).length % 2 ^ 32])
          ++ [kFilterBaseLg]))).KeyMayMatch policy o key
      = policy.KeyMayMatch key (filterBytes policy (done.getD (o / kFilterBase) [])) := by
  generalize hR : resultOf policy done = R at hsize
  generalize hW : offsetsOf policy 0 done ++ [R.length % 2 ^ 32] = W
  have hWlen : W.length = done.length + 1 := by
    rw [← hW, List.length_append, offsetsOf_length]; rfl
  have hWget : ∀ i, i ≤ done.length →
      W.getD i 0 = (resultOf policy (done.take i)).length := by
    intro i hi2
    have hle := resultOf_take_le policy done i
    rw [hR] at hle
    rw [← hW]
    by_cases hlt : i < done.length
    · rw [List.getD_eq_getElem?_getD, List.getElem?_append_left (by rw [offsetsOf_length]; exact hlt),
        ← List.getD_eq_getElem?_getD, offsetsOf_getD policy done 0 i hlt, Nat.zero_add]
      exact Nat.mod_eq_of_lt (by omega)
    · have hie : i = done.length := by omega
      rw [List.getD_eq_getElem?_getD, List.getElem?_append_right (by rw [offsetsOf_length]; omega),
        offsetsOf_length, hie, Nat.sub_self]
      simp only [List.getElem?_cons_zero, Option.getD_some, List.take_length]
      rw [hR]
      exact Nat.mod_eq_of_lt hsize
  generalize hout : R ++ (encodeWords W ++ [kFilterBaseLg]) = out
  have hn : out.length = R.length + 4 * done.length + 5 := by
    rw [← hout]
    simp only [List.length_append, encodeWords_length, hWlen, List.length_singleton]
    omega
  have hdrop : ∀ i, i < W.length →
      DecodeFixed32 (out.drop (R.length + i * 4)) = W.getD i 0 % 2 ^ 32 := by
    intro i hi2
    rw [← hout, List.drop_append, decode_words [kFilterBaseLg] W i hi2]
  have hlastw : DecodeFixed32 (out.drop (out.length - 5)) = R.length := by
    have h1 : out.length - 5 = R.length + done.length * 4 := by omega
    rw [h1, hdrop done.length (by omega), hWget done.length (Nat.le_refl _), List.take_length, hR]
    exact Nat.mod_eq_of_lt hsize
  have hlastb : out.getD (out.length - 1) 0 = kFilterBaseLg := by
    rw [← hout]
    have h2 : (R ++ (encodeWords W ++ [kFilterBaseLg])).length - 1 = (R ++ encodeWords W).length := by
      simp only [List.length_append, List.length_singleton]
      omega
    rw [h2, ← List.append_assoc, List.getD_eq_getElem?_getD,
      List.getElem?_append_right (Nat.le_refl _), Nat.sub_self]
    rfl
  have hmk : mk0 out = ⟨out, R.length, done.length, kFilterBaseLg⟩ := by
    unfold mk0
    simp only []
    rw [if_neg (by omega), hlastw, if_neg (by omega), hlastb]
    congr 1
    omega
  rw [hmk]
  unfold KeyMayMatch
  simp only []
  have hidx : (o % 2 ^ 64) >>> (kFilterBaseLg % 64) = o / kFilterBase := by
    rw [Nat.mod_eq_of_lt ho, Nat.shiftRight_eq_div_pow]
    rfl
  rw [hidx, if_pos hi]
  generalize o / kFilterBase = i at hi
  have hstart : DecodeFixed32 (out.drop (R.length + i * 4))
      = (resultOf policy (done.take i)).length := by
    rw [hdrop i (by omega), hWget i (by omega)]
    have := resultOf_take_le policy done i
    rw [hR] at this
    exact Nat.mod_eq_of_lt (by omega)
  have hlimit : DecodeFixed32 (out.drop (R.length + i * 4 + 4))
      = (resultOf policy (done.take (i + 1))).length := by
    have h1 : R.length + i * 4 + 4 = R.length + (i + 1) * 4 := by omega
    rw [h1, hdrop (i + 1) (by omega), hWget (i + 1) (by omega)]
    have := resultOf_take_le policy done (i + 1)
    rw [hR] at this
    exact Nat.mod_eq_of_lt (by omega)
  rw [hstart, hlimit, resultOf_take_succ policy done i hi]
  have hle := resultOf_take_le policy done (i + 1)
  rw [resultOf_take_succ policy done i hi, hR] at hle
  rw [if_pos ⟨by omega, hle⟩]
  congr 1
  rw [← hout, ← hR, resultOf_split policy done i hi, List.append_assoc, List.drop_left,
    Nat.add_sub_cancel_left, List.append_assoc, List.take_left]

end FilterBlockReader

end leveldb

namespace leveldb

namespace FilterBlockBuilder

theorem run_append (policy : FilterPolicy) :
    ∀ (l1 l2 : List Call) (b : FilterBlockBuilder),
      run policy b (l1 ++ l2) = (run policy b l1).bind (fun b1 => run policy b1 l2) := by
  intro l1
  induction l1 with
  | nil => intro l2 b; rfl
  | cons c rest ih =>
    intro l2 b
    cases c with
    | StartBlock o =>
      simp only [List.cons_append, run]
      cases b.StartBlock policy o with
      | none => rfl
      | some b1 => exact ih l2 b1
    | AddKey k =>
      simp only [List.cons_append, run]
      exact ih l2 _

theorem offsets_append (l1 l2 : List Call) : offsets (l1 ++ l2) = offsets l1 ++ offsets l2 := by
  induction l1 with
  | nil => rfl
  | cons c rest ih => cases c <;> simp [offsets, ih]

theorem offsets_AddKeys (ks : List (List Nat)) : offsets (ks.map Call.AddKey) = [] := by
  induction ks with
  | nil => rfl
  | cons k rest ih => simp [offsets, ih]

/-- A key added under the block offset `o` is in the filter of index `o / kFilterBase` of
the finished block. -/
theorem run_key (policy : FilterPolicy) (pre post : List Call) (o : Nat)
    (ks : List (List Nat)) (k : List Nat)
    (hmono : (offsets (pre ++ Call.StartBlock o :: (ks.map Call.AddKey ++ Call.AddKey k :: post))).Pairwise
      (fun a c => a ≤ c)) :
    ∃ b done1, run policy mk0 (pre ++ Call.StartBlock o :: (ks.map Call.AddKey ++ Call.AddKey k :: post))
        = some b ∧
      k ∈ done1.getD (o / kFilterBase) [] ∧
      (Finish policy b).2 = resultOf policy done1
        ++ (encodeWords (offsetsOf policy 0 done1 ++ [(resultOf policy done1).length % 2 ^ 32])
          ++ [kFilterBaseLg]) := by
  have hsplit : pre ++ Call.StartBlock o :: (ks.map Call.AddKey ++ Call.AddKey k :: post)
      = (pre ++ [Call.StartBlock o]) ++ (ks.map Call.AddKey ++ ([Call.AddKey k] ++ post)) := by
    simp
  rw [hsplit] at hmono ⊢
  have hoff : offsets ((pre ++ [Call.StartBlock o]) ++ (ks.map Call.AddKey ++ ([Call.AddKey k] ++ post)))
      = (offsets pre ++ [o]) ++ offsets post := by
    simp [offsets_append, offsets_AddKeys, offsets]
  rw [hoff] at hmono
  obtain ⟨hm1, hm2, hm3⟩ := List.pairwise_append.mp hmono
  -- the calls up to `StartBlock(o)`
  obtain ⟨b1, d1, p1, hrun1, hrel1, _, _, hlast1, _⟩ :=
    run_rel policy (pre ++ [Call.StartBlock o]) mk0 [] [] (Rel_mk0 policy)
      (fun _ _ => Nat.zero_le _)
      (by rw [offsets_append]; simpa [offsets] using hm1)
  have hlen1 : d1.length = o / kFilterBase :=
    hlast1 o (by rw [offsets_append]; simp [offsets])
  -- the keys added before `k`
  obtain ⟨b2, d2, p2, hrun2, hrel2, _, hub2, _, hge2⟩ :=
    run_rel policy (ks.map Call.AddKey) b1 d1 p1 hrel1
      (by rw [offsets_AddKeys]; intro _ hx; cases hx)
      (by rw [offsets_AddKeys]; exact List.Pairwise.nil)
  have hlen2 : d2.length = o / kFilterBase := by
    have := hub2 o (by rw [offsets_AddKeys]; intro _ hx; cases hx) (by omega)
    omega
  -- the key `k` and the calls after it
  have hrel3 := Rel_AddKey policy b2 d2 p2 hrel2 k
  have hholds3 : Holds d2 (p2 ++ [k]) (o / kFilterBase) k :=
    Or.inl ⟨hlen2, List.mem_append_right _ (List.mem_singleton.mpr rfl)⟩
  obtain ⟨b4, d4, p4, hrun4, hrel4, hh4, _, _, _⟩ :=
    run_rel policy post (b2.AddKey k) d2 (p2 ++ [k]) hrel3
      (fun o1 ho1 => by
        rw [hlen2]
        exact Nat.div_le_div_right
          (hm3 o (List.mem_append_right _ (List.mem_singleton.mpr rfl)) o1 ho1))
      hm2
  obtain ⟨done1, hmem, hfin⟩ := Finish_eq policy b4 d4 p4 hrel4
  refine ⟨b4, done1, ?_, hmem _ _ (hh4 _ _ hholds3), hfin⟩
  rw [run_append, hrun1]
  show run policy b1 (ks.map Call.AddKey ++ ([Call.AddKey k] ++ post)) = some b4
  rw [run_append, hrun2]
  show run policy b2 ([Call.AddKey k] ++ post) = some b4
  exact hrun4

end FilterBlockBuilder

theorem sampleFilterPolicy_sound : sampleFilterPolicy.Sound := by
  intro keys k hk
  simp only [sampleFilterPolicy, decide_eq_true_eq]
  exact List.mem_map_of_mem _ hk

/-- C10 (filter soundness, no false negatives): for every sequence of `StartBlock` and
`AddKey` calls with non-decreasing 64-bit block offsets and a filter policy without false
negatives, the calls run through, and if the block that `Finish` returns is smaller than
2^32 bytes (its offsets are 32-bit words), a `FilterBlockReader` over it returns true
from `KeyMayMatch(o, k)` for every key `k` added after `StartBlock(o)` and before the
next `StartBlock`. -/
theorem C10_filter_soundness (policy : FilterPolicy) (hp : policy.Sound)
    (calls : List FilterBlockBuilder.Call)
    (hmono : (FilterBlockBuilder.offsets calls).Pairwise (fun a c => a ≤ c))
    (h64 : ∀ o ∈ FilterBlockBuilder.offsets calls, o < 2 ^ 64) :
    ∃ b, FilterBlockBuilder.run policy FilterBlockBuilder.mk0 calls = some b ∧
      ((FilterBlockBuilder.Finish policy b).2.length < 2 ^ 32 →
        ∀ (pre post : List FilterBlockBuilder.Call) (o : Nat) (ks : List (List Nat))
          (k : List Nat),
          calls = pre ++ FilterBlockBuilder.Call.StartBlock o ::
            (ks.map FilterBlockBuilder.Call.AddKey ++ FilterBlockBuilder.Call.AddKey k :: post) →
          (FilterBlockReader.mk0 (FilterBlockBuilder.Finish policy b).2).KeyMayMatch policy o k
            = true) := by
  obtain ⟨b, _, _, hrun, _, _, _, _, _⟩ :=
    FilterBlockBuilder.run_rel policy calls FilterBlockBuilder.mk0 [] []
      (FilterBlockBuilder.Rel_mk0 policy) (fun _ _ => Nat.zero_le _) hmono
  refine ⟨b, hrun, ?_⟩
  intro hsize pre post o ks k hcalls
  subst hcalls
  obtain ⟨b4, done1, hrun4, hmem, hfin⟩ :=
    FilterBlockBuilder.run_key policy pre post o ks k hmono
  rw [hrun] at hrun4
  cases hrun4
  have ho : o < 2 ^ 64 := by
    apply h64
    rw [FilterBlockBuilder.offsets_append]
    simp [FilterBlockBuilder.offsets]
  have hi := FilterBlockBuilder.mem_getD_lt done1 _ k hmem
  have hsz : (FilterBlockBuilder.resultOf policy done1).length < 2 ^ 32 := by
    rw [hfin, List.length_append] at hsize
    omega
  rw [hfin, FilterBlockReader.KeyMayMatch_block policy done1 hsz o ho hi k]
  have hne : done1.getD (o / kFilterBase) [] ≠ [] := by
    intro h0
    rw [h0] at hmem
    cases hmem
  unfold FilterBlockBuilder.filterBytes
  rw [if_neg hne]
  exact hp _ k hmem

/-- Witness for C10: two keys for the block at offset 0, one for the block at offset
3000 and one for the block at offset 9000, with the sample policy. -/
theorem C10_filter_soundness_witness :
    ∃ b, FilterBlockBuilder.run sampleFilterPolicy FilterBlockBuilder.mk0
        [FilterBlockBuilder.Call.StartBlock 0, FilterBlockBuilder.Call.AddKey [1, 2],
         FilterBlockBuilder.Call.AddKey [3], FilterBlockBuilder.Call.StartBlock 3000,
         FilterBlockBuilder.Call.AddKey [9, 9, 9], FilterBlockBuilder.Call.StartBlock 9000,
         FilterBlockBuilder.Call.AddKey [7]] = some b ∧
      ((FilterBlockBuilder.Finish sampleFilterPolicy b).2.length < 2 ^ 32 →
        ∀ (pre post : List FilterBlockBuilder.Call) (o : Nat) (ks : List (List Nat))
          (k : List Nat),
          [FilterBlockBuilder.Call.StartBlock 0, FilterBlockBuilder.Call.AddKey [1, 2],
           FilterBlockBuilder.Call.AddKey [3], FilterBlockBuilder.Call.StartBlock 3000,
           FilterBlockBuilder.Call.AddKey [9, 9, 9], FilterBlockBuilder.Call.StartBlock 9000,
           FilterBlockBuilder.Call.AddKey [7]]
            = pre ++ FilterBlockBuilder.Call.StartBlock o ::
              (ks.map FilterBlockBuilder.Call.AddKey ++ FilterBlockBuilder.Call.AddKey k :: post) →
          (FilterBlockReader.mk0 (FilterBlockBuilder.Finish sampleFilterPolicy b).2).KeyMayMatch
            sampleFilterPolicy o k = true) :=
  C10_filter_soundness sampleFilterPolicy sampleFilterPolicy_sound
    [FilterBlockBuilder.Call.StartBlock 0, FilterBlockBuilder.Call.AddKey [1, 2],
     FilterBlockBuilder.Call.AddKey [3], FilterBlockBuilder.Call.StartBlock 3000,
     FilterBlockBuilder.Call.AddKey [9, 9, 9], FilterBlockBuilder.Call.StartBlock 9000,
     FilterBlockBuilder.Call.AddKey [7]]
    (by decide) (by decide)

end leveldb

namespace leveldb

namespace TableBuilder

/-- C17: `ChangeOptions` is atomic on error. When the comparator of the new options is
not the builder's comparator it returns `InvalidArgument` and the builder is unchanged;
when it is the same comparator it returns `OK`, the new options are installed, every
other field of the builder is unchanged, and the options of the index block are the new
options with restart interval 1. -/
theorem C17_change_options (r : TableBuilder) (options : Options) :
    (options.comparator.id ≠ r.options.comparator.id →
      (∃ msg, (r.ChangeOptions options).1 = Status.InvalidArgument msg) ∧
      (r.ChangeOptions options).2 = r) ∧
    (options.comparator.id = r.options.comparator.id →
      (r.ChangeOptions options).1 = Status.OK ∧
      (r.ChangeOptions options).2 =
        { r with options := options
                 index_block_options := { options with block_restart_interval := 1 } } ∧
      (r.ChangeOptions options).2.options = options ∧
      (r.ChangeOptions options).2.index_block_options.block_restart_interval = 1) := by
  constructor
  · intro h
    simp [ChangeOptions, h]
  · intro h
    simp [ChangeOptions, h]

/-- C17, an instance: on a new builder the sample options with another comparator are
refused, and with the same comparator and another block size they are installed. -/
theorem C17_change_options_witness :
    ((Rep (sampleOptions 1) ⟨[], []⟩).ChangeOptions
        { sampleOptions 1 with comparator := { sampleComparator with id := 2 } }).2
      = Rep (sampleOptions 1) ⟨[], []⟩ ∧
    ((Rep (sampleOptions 1) ⟨[], []⟩).ChangeOptions (sampleOptions 7)).1 = Status.OK ∧
    ((Rep (sampleOptions 1) ⟨[], []⟩).ChangeOptions (sampleOptions 7)).2.options
      = sampleOptions 7 ∧
    ((Rep (sampleOptions 1) ⟨[], []⟩).ChangeOptions
      (sampleOptions 7)).2.index_block_options.block_restart_interval = 1 :=
  ⟨((C17_change_options (Rep (sampleOptions 1) ⟨[], []⟩)
      { sampleOptions 1 with comparator := { sampleComparator with id := 2 } }).1
      (by decide)).2,
   ((C17_change_options (Rep (sampleOptions 1) ⟨[], []⟩) (sampleOptions 7)).2 rfl).1,
   ((C17_change_options (Rep (sampleOptions 1) ⟨[], []⟩) (sampleOptions 7)).2 rfl).2.2.1,
   ((C17_change_options (Rep (sampleOptions 1) ⟨[], []⟩) (sampleOptions 7)).2 rfl).2.2.2⟩

end TableBuilder

end leveldb

namespace leveldb

namespace TableBuilder

theorem Add_not_ok (crc : Crc32c) (port : Port) (r : TableBuilder) (key value : List Nat)
    (hc : r.closed = false) (hs : r.status.ok = false) : r.Add crc port key value = some r := by
  simp [Add, hc, ok, hs]

theorem Flush_not_ok (crc : Crc32c) (port : Port) (r : TableBuilder)
    (hc : r.closed = false) (hs : r.status.ok = false) : r.Flush crc port = some r := by
  simp [Flush, hc, ok, hs]

theorem Finish_not_ok (crc : Crc32c) (port : Port) (r : TableBuilder)
    (hc : r.closed = false) (hs : r.status.ok = false) :
    r.Finish crc port = some (r.status, { r with closed := true }) := by
  have h1 : FinishFilter crc { r with closed := true } = ({ r with closed := true }, BlockHandle.mk0) := by
    unfold FinishFilter
    cases hf : r.filter_block with
    | none => simp [hf]
    | some pf => simp [hf, ok, hs]
  simp [Finish, Flush_not_ok crc port r hc hs, hc, h1, FinishMetaindex, FinishIndex,
    FinishFooter, ok, hs]

theorem Frozen_refl (r : TableBuilder) : Frozen r r :=
  ⟨rfl, rfl, rfl, rfl, rfl, rfl, rfl, rfl⟩

theorem Frozen_trans {r r1 r2 : TableBuilder} (h1 : Frozen r r1) (h2 : Frozen r1 r2) :
    Frozen r r2 :=
  ⟨h2.status_eq.trans h1.status_eq, h2.file_eq.trans h1.file_eq,
    h2.num_entries_eq.trans h1.num_entries_eq, h2.offset_eq.trans h1.offset_eq,
    h2.last_key_eq.trans h1.last_key_eq, h2.index_block_eq.trans h1.index_block_eq,
    h2.pending_eq.trans h1.pending_eq, h2.pending_handle_eq.trans h1.pending_handle_eq⟩

theorem step_not_ok (crc : Crc32c) (port : Port) (r r1 : TableBuilder) (op : Op)
    (hs : r.status.ok = false) (h : step crc port r op = some r1) : Frozen r r1 := by
  cases hc : r.closed with
  | true =>
    cases op with
    | Add key value => simp [step, Add, hc] at h
    | Flush => simp [step, Flush, hc] at h
    | ChangeOptions options =>
      simp only [step, Option.some.injEq] at h
      subst h
      unfold ChangeOptions
      split <;> exact ⟨rfl, rfl, rfl, rfl, rfl, rfl, rfl, rfl⟩
    | Finish => simp [step, Finish, Flush, hc] at h
    | Abandon => simp [step, Abandon, hc] at h
  | false =>
    cases op with
    | Add key value =>
      simp only [step, Add_not_ok crc port r key value hc hs, Option.some.injEq] at h
      subst h
      exact Frozen_refl r
    | Flush =>
      simp only [step, Flush_not_ok crc port r hc hs, Option.some.injEq] at h
      subst h
      exact Frozen_refl r
    | ChangeOptions options =>
      simp only [step, Option.some.injEq] at h
      subst h
      unfold ChangeOptions
      split <;> exact ⟨rfl, rfl, rfl, rfl, rfl, rfl, rfl, rfl⟩
    | Finish =>
      simp only [step, Finish_not_ok crc port r hc hs, Option.map_some', Option.some.injEq] at h
      subst h
      exact ⟨rfl, rfl, rfl, rfl, rfl, rfl, rfl, rfl⟩
    | Abandon =>
      simp only [step, Abandon, hc, Bool.false_eq_true, if_false, Option.some.injEq] at h
      subst h
      exact ⟨rfl, rfl, rfl, rfl, rfl, rfl, rfl, rfl⟩

theorem run_not_ok (crc : Crc32c) (port : Port) (ops : List Op) :
    ∀ (r r1 : TableBuilder), r.status.ok = false → run crc port r ops = some r1 →
      Frozen r r1 := by
  induction ops with
  | nil =>
    intro r r1 _ h
    simp only [run, Option.some.injEq] at h
    subst h
    exact Frozen_refl r
  | cons op rest ih =>
    intro r r1 hs h
    unfold run at h
    cases hst : step crc port r op with
    | none => simp [hst] at h
    | some r2 =>
      rw [hst] at h
      have f1 := step_not_ok crc port r r2 op hs hst
      have hs2 : r2.status.ok = false := by rw [f1.status_eq]; exact hs
      exact Frozen_trans f1 (ih r2 r1 hs2 h)

/-- C16: the error of a table builder is sticky. Once `status()` is not ok, `Add` and
`Flush` leave the whole builder, its file included, unchanged; `Finish` returns the same
error, appends nothing and only marks the builder closed; and after any further sequence
of calls the status is still that error and the file, `num_entries`, `offset`,
`last_key`, the index block and `pending_index_entry` are unchanged. -/
theorem C16_sticky_error (crc : Crc32c) (port : Port) (r : TableBuilder)
    (hs : r.status.ok = false) (hc : r.closed = false) :
    (∀ key value, r.Add crc port key value = some r) ∧
    r.Flush crc port = some r ∧
    r.Finish crc port = some (r.status, { r with closed := true }) ∧
    (∀ ops r1, run crc port r ops = some r1 →
      r1.status = r.status ∧ r1.status.ok = false ∧ r1.file = r.file ∧
      r1.num_entries = r.num_entries ∧ r1.offset = r.offset ∧ r1.last_key = r.last_key ∧
      r1.index_block = r.index_block ∧ r1.pending_index_entry = r.pending_index_entry) := by
  refine ⟨fun key value => Add_not_ok crc port r key value hc hs, Flush_not_ok crc port r hc hs,
    Finish_not_ok crc port r hc hs, ?_⟩
  intro ops r1 h
  have f := run_not_ok crc port ops r r1 hs h
  exact ⟨f.status_eq, by rw [f.status_eq]; exact hs, f.file_eq, f.num_entries_eq, f.offset_eq,
    f.last_key_eq, f.index_block_eq, f.pending_eq⟩

/-- C16, an instance: the builder whose first file operation failed during
`Add("a", "1")` holds an I/O error and is not changed by further calls, although the
file would accept them. -/
theorem C16_sticky_error_witness :
    failedBuilder.status = Status.IOError "append" ∧ failedBuilder.file = ⟨[], []⟩ ∧
    failedBuilder.Add sampleCrc samplePort [98] [50] = some failedBuilder ∧
    failedBuilder.Flush sampleCrc samplePort = some failedBuilder ∧
    (failedBuilder.Finish sampleCrc samplePort).map (fun x => (x.1, x.2.file.contents))
      = some (Status.IOError "append", []) :=
  ⟨rfl, rfl, (C16_sticky_error sampleCrc samplePort failedBuilder rfl rfl).1 [98] [50],
    (C16_sticky_error sampleCrc samplePort failedBuilder rfl rfl).2.1,
    by rw [(C16_sticky_error sampleCrc samplePort failedBuilder rfl rfl).2.2.1]; rfl⟩

end TableBuilder

end leveldb

namespace leveldb

theorem AppendFile.Append_cases (f : AppendFile) (d : List Nat) :
    ((f.Append d).1 = Status.OK ∧ (f.Append d).2.contents = f.contents ++ d) ∨
    ((f.Append d).1.ok = false ∧ (f.Append d).2.contents = f.contents) := by
  unfold AppendFile.Append
  split
  · left; exact ⟨rfl, rfl⟩
  · left; exact ⟨rfl, rfl⟩
  · right; exact ⟨rfl, rfl⟩

theorem AppendFile.Append_reliable (f : AppendFile) (d : List Nat) (h : f.Reliable) :
    (f.Append d).1 = Status.OK ∧ (f.Append d).2.contents = f.contents ++ d ∧
      (f.Append d).2.Reliable := by
  unfold AppendFile.Append
  split
  · exact ⟨rfl, rfl, h⟩
  · next rest hs =>
    refine ⟨rfl, rfl, ?_⟩
    intro x hx
    exact h x (by rw [hs]; exact List.mem_cons_of_mem _ hx)
  · next rest hs =>
    have := h false (by rw [hs]; exact List.mem_cons_self _ _)
    cases this

theorem AppendFile.Flush_contents (f : AppendFile) : f.Flush.2.contents = f.contents := by
  unfold AppendFile.Flush
  split <;> rfl

theorem AppendFile.Flush_reliable (f : AppendFile) (h : f.Reliable) :
    f.Flush.1 = Status.OK ∧ f.Flush.2.Reliable := by
  unfold AppendFile.Flush
  split
  · exact ⟨rfl, h⟩
  · next rest hs =>
    refine ⟨rfl, ?_⟩
    intro x hx
    exact h x (by rw [hs]; exact List.mem_cons_of_mem _ hx)
  · next rest hs =>
    have := h false (by rw [hs]; exact List.mem_cons_self _ _)
    cases this

namespace TableBuilder

/-- The fields that `WriteRawBlock` does not touch. -/
theorem WriteRawBlock_fields (crc : Crc32c) (r : TableBuilder) (c : List Nat)
    (t : CompressionType) :
    (WriteRawBlock crc r c t).1 =
      { r with status := (WriteRawBlock crc r c t).1.status
               file := (WriteRawBlock crc r c t).1.file
               offset := (WriteRawBlock crc r c t).1.offset } ∧
    (WriteRawBlock crc r c t).2 = ⟨r.offset, c.length % 2 ^ 64⟩ := by
  unfold WriteRawBlock
  simp only
  split
  · split <;> exact ⟨rfl, rfl⟩
  · exact ⟨rfl, rfl⟩

theorem WriteRawBlock_reliable (crc : Crc32c) (r : TableBuilder) (c : List Nat)
    (t : CompressionType) (h : r.file.Reliable) :
    (WriteRawBlock crc r c t).1.status = Status.OK ∧
    (WriteRawBlock crc r c t).1.file.Reliable ∧
    (WriteRawBlock crc r c t).1.file.contents = r.file.contents ++ c ++
      (t.toNat :: EncodeFixed32 (crc.Mask (crc.Extend (crc.Value c) [t.toNat]))) ∧
    (WriteRawBlock crc r c t).1.offset = (r.offset + c.length + kBlockTrailerSize) % 2 ^ 64 := by
  obtain ⟨a1, a2, a3⟩ := AppendFile.Append_reliable r.file c h
  obtain ⟨b1, b2, b3⟩ := AppendFile.Append_reliable (r.file.Append c).2
    (t.toNat :: EncodeFixed32 (crc.Mask (crc.Extend (crc.Value c) [t.toNat]))) a3
  unfold WriteRawBlock
  simp only [a1, b1, Status.ok, if_true]
  exact ⟨trivial, b3, by rw [b2, a2], trivial⟩


theorem StartFilterBlock_fields (r r1 : TableBuilder) (o : Nat)
    (h : StartFilterBlock r o = some r1) : r1 = { r with filter_block := r1.filter_block } := by
  unfold StartFilterBlock at h
  split at h
  · simp only [Option.some.injEq] at h
    subst h
    rfl
  · split at h
    · simp only [Option.some.injEq] at h
      subst h
      rfl
    · cases h

/-- The builder after the write of `Flush`, before `StartBlock` is called. -/
theorem Flush_some (crc : Crc32c) (port : Port) (r r1 : TableBuilder)
    (h : r.Flush crc port = some r1) :
    ((r.status.ok = false ∨ r.data_block.empty = true) ∧ r1 = r) ∨
    (r.closed = false ∧ r.status.ok = true ∧ r.data_block.empty = false ∧
      r.pending_index_entry = false ∧
      ∃ w r3,
        w = (WriteRawBlock crc r (chooseContents port r.options r.data_block.Finish.2).1
          (chooseContents port r.options r.data_block.Finish.2).2).1 ∧
        StartFilterBlock r3 r3.offset = some r1 ∧
        ((w.status.ok = true ∧
          r3 = { r with status := w.file.Flush.1, file := w.file.Flush.2, offset := w.offset
                        data_block := BlockBuilder.mk0
                        pending_handle := ⟨r.offset,
                          (chooseContents port r.options r.data_block.Finish.2).1.length % 2 ^ 64⟩
                        pending_index_entry := true, compressed_output := [] }) ∨
         (w.status.ok = false ∧
          r3 = { r with status := w.status, file := w.file, offset := w.offset
                        data_block := BlockBuilder.mk0
                        pending_handle := ⟨r.offset,
                          (chooseContents port r.options r.data_block.Finish.2).1.length % 2 ^ 64⟩
                        compressed_output := [] }))) := by
  unfold Flush at h
  split at h
  · cases h
  · next hc =>
    split at h
    · next hok =>
      left; simp only [Option.some.injEq] at h
      exact ⟨Or.inl (by simpa [ok] using hok), h.symm⟩
    · next hok =>
      split at h
      · next hem => left; simp only [Option.some.injEq] at h; exact ⟨Or.inr hem, h.symm⟩
      · next hem =>
        split at h
        · cases h
        · next hp =>
          right
          simp only [ok, Bool.not_eq_true', Bool.not_eq_false] at hok
          simp only [Bool.not_eq_true] at hc hem hp
          refine ⟨hc, by simpa using hok, hem, hp, ?_⟩
          simp only [WriteBlock, ok] at h
          simp only [show r.status.ok = true by simpa using hok] at h
          simp only [Bool.not_true, Bool.false_eq_true, if_false] at h
          have hf := WriteRawBlock_fields crc r
            (chooseContents port r.options r.data_block.Finish.2).1
            (chooseContents port r.options r.data_block.Finish.2).2
          refine ⟨_, _, rfl, h, ?_⟩
          by_cases hw : (WriteRawBlock crc r (chooseContents port r.options r.data_block.Finish.2).1
            (chooseContents port r.options r.data_block.Finish.2).2).1.status.ok = true
          · left
            refine ⟨hw, ?_⟩
            simp only [hw, if_true]
            rw [hf.2]
            conv => lhs; rw [hf.1]
            rfl
          · right
            simp only [Bool.not_eq_true] at hw
            refine ⟨hw, ?_⟩
            simp only [hw, Bool.false_eq_true, if_false]
            rw [hf.2]
            conv => lhs; rw [hf.1]
            rfl



theorem Flush_fields (crc : Crc32c) (port : Port) (r r1 : TableBuilder)
    (h : r.Flush crc port = some r1) :
    r1 = { r with status := r1.status, file := r1.file, offset := r1.offset
                  data_block := r1.data_block, pending_handle := r1.pending_handle
                  pending_index_entry := r1.pending_index_entry
                  compressed_output := r1.compressed_output
                  filter_block := r1.filter_block } := by
  rcases Flush_some crc port r r1 h with ⟨_, h1⟩ | ⟨_, _, _, _, w, r3, _, hs, h3⟩
  · subst h1; rfl
  · have hf := StartFilterBlock_fields r3 r1 _ hs
    rcases h3 with ⟨_, h3⟩ | ⟨_, h3⟩
    · rw [h3] at hf
      conv => lhs; rw [hf]
      rw [hf]
    · rw [h3] at hf
      conv => lhs; rw [hf]
      rw [hf]

theorem AddPendingIndexEntry_some (r r0 : TableBuilder) (key : List Nat)
    (h : AddPendingIndexEntry r key = some r0) :
    (r.pending_index_entry = false ∧ r0 = r) ∨
    (r.pending_index_entry = true ∧ r.data_block.empty = true ∧
      r0 = { r with last_key := r.options.comparator.FindShortestSeparator r.last_key key
                    index_block := r.index_block.Add r.index_block_options
                      (r.options.comparator.FindShortestSeparator r.last_key key)
                      r.pending_handle.EncodeTo
                    pending_index_entry := false }) := by
  unfold AddPendingIndexEntry at h
  split at h
  · next hp =>
    split at h
    · cases h
    · next he =>
      right
      simp only [Option.some.injEq] at h
      refine ⟨hp, by simpa using he, h.symm⟩
  · next hp =>
    left
    simp only [Option.some.injEq] at h
    exact ⟨by simpa using hp, h.symm⟩

/-- The builder after the part of `Add` that precedes the size test. -/
theorem Add_some (crc : Crc32c) (port : Port) (r r1 : TableBuilder) (key value : List Nat)
    (h : r.Add crc port key value = some r1) :
    (r.status.ok = false ∧ r1 = r) ∨
    (r.closed = false ∧ r.status.ok = true ∧
      (r.num_entries > 0 → r.options.comparator.Compare key r.last_key > 0) ∧
      ∃ r0 r3, AddPendingIndexEntry r key = some r0 ∧
        r3 = { r0 with filter_block := r0.filter_block.map (fun pf => (pf.1, pf.2.AddKey key))
                       last_key := key
                       num_entries := r0.num_entries + 1
                       data_block := r0.data_block.Add r0.options key value } ∧
        ((r3.data_block.CurrentSizeEstimate ≥ r3.options.block_size ∧
            Flush crc port r3 = some r1) ∨
         (r3.data_block.CurrentSizeEstimate < r3.options.block_size ∧ r1 = r3))) := by
  unfold Add at h
  split at h
  · cases h
  · next hc =>
    split at h
    · next hok =>
      left
      simp only [Option.some.injEq] at h
      exact ⟨by simpa [ok] using hok, h.symm⟩
    · next hok =>
      split at h
      · cases h
      · next hcmp =>
        right
        refine ⟨by simpa using hc, by simpa [ok] using hok, ?_, ?_⟩
        · intro hn
          by_contra hcon
          exact hcmp ⟨hn, hcon⟩
        · cases hp : AddPendingIndexEntry r key with
          | none => simp [hp] at h
          | some r0 =>
            rw [hp] at h
            simp only at h
            simp only [AddFilterKey] at h
            refine ⟨r0, _, rfl, rfl, ?_⟩
            split at h
            · next hge => left; exact ⟨hge, h⟩
            · next hlt =>
              right
              simp only [Option.some.injEq] at h
              exact ⟨by simpa using hlt, h.symm⟩


end TableBuilder

end leveldb

namespace leveldb
namespace TableBuilder

theorem Good_congr {c0 : List Nat} {r r1 : TableBuilder} (h : Good c0 r)
    (h1 : r1.status = r.status) (h2 : r1.file = r.file) (h3 : r1.offset = r.offset) :
    Good c0 r1 :=
  ⟨by rw [h2]; exact h.reliable, by rw [h1]; exact h.status_eq, by rw [h2, h3]; exact h.sized⟩

theorem WriteRawBlock_good (crc : Crc32c) (c0 : List Nat) (r : TableBuilder) (c : List Nat)
    (t : CompressionType) (h : Good c0 r) : Good c0 (WriteRawBlock crc r c t).1 := by
  obtain ⟨h1, h2, h3, h4⟩ := WriteRawBlock_reliable crc r c t h.reliable
  obtain ⟨out, ho, hoff⟩ := h.sized
  refine ⟨h2, h1, out ++ c ++ (t.toNat ::
    EncodeFixed32 (crc.Mask (crc.Extend (crc.Value c) [t.toNat]))), ?_, ?_⟩
  · rw [h3, ho]; simp only [List.append_assoc]
  · rw [h4, hoff]
    simp only [List.length_append, List.length_cons, EncodeFixed32, List.length_nil,
      kBlockTrailerSize]
    omega

theorem Status_ok_OK : Status.OK.ok = true := rfl

theorem Flush_good (crc : Crc32c) (port : Port) (c0 : List Nat) (r r1 : TableBuilder)
    (h : r.Flush crc port = some r1) (hg : Good c0 r) : Good c0 r1 := by
  rcases Flush_some crc port r r1 h with ⟨_, h1⟩ | ⟨_, _, _, _, w, r3, hw, hs, h3⟩
  · subst h1; exact hg
  · have hf := StartFilterBlock_fields r3 r1 _ hs
    have gw : Good c0 w := by rw [hw]; exact WriteRawBlock_good crc c0 r _ _ hg
    rcases h3 with ⟨_, h3⟩ | ⟨hbad, _⟩
    · have g3 : Good c0 r3 := by
        rw [h3]
        refine ⟨(AppendFile.Flush_reliable w.file gw.reliable).2,
          (AppendFile.Flush_reliable w.file gw.reliable).1, ?_⟩
        show ∃ out, w.file.Flush.2.contents = c0 ++ out ∧ w.offset = out.length % 2 ^ 64
        rw [AppendFile.Flush_contents]
        exact gw.sized
      rw [hf]
      exact Good_congr g3 rfl rfl rfl
    · rw [gw.status_eq] at hbad
      cases hbad

theorem Add_good (crc : Crc32c) (port : Port) (c0 : List Nat) (r r1 : TableBuilder)
    (key value : List Nat) (h : r.Add crc port key value = some r1) (hg : Good c0 r) :
    Good c0 r1 ∧ r1.num_entries = r.num_entries + 1 := by
  rcases Add_some crc port r r1 key value h with ⟨hbad, _⟩ | ⟨_, _, _, r0, r3, h0, h3, h4⟩
  · rw [hg.status_eq] at hbad
    cases hbad
  · have g0 : Good c0 r0 ∧ r0.num_entries = r.num_entries := by
      rcases AddPendingIndexEntry_some r r0 key h0 with ⟨_, e⟩ | ⟨_, _, e⟩
      · rw [e]; exact ⟨hg, rfl⟩
      · rw [e]; exact ⟨Good_congr hg rfl rfl rfl, rfl⟩
    have g3 : Good c0 r3 ∧ r3.num_entries = r.num_entries + 1 := by
      rw [h3]
      exact ⟨Good_congr g0.1 rfl rfl rfl, by rw [← g0.2]⟩
    rcases h4 with ⟨_, hfl⟩ | ⟨_, e⟩
    · refine ⟨Flush_good crc port c0 r3 r1 hfl g3.1, ?_⟩
      rw [Flush_fields crc port r3 r1 hfl]
      exact g3.2
    · rw [e]; exact g3

theorem WriteBlock_some (crc : Crc32c) (port : Port) (r : TableBuilder) (block : BlockBuilder)
    (x : TableBuilder × BlockBuilder × BlockHandle) (h : WriteBlock crc port r block = some x) :
    r.status.ok = true ∧
    x = ({ (WriteRawBlock crc r (chooseContents port r.options block.Finish.2).1
            (chooseContents port r.options block.Finish.2).2).1 with compressed_output := [] },
          BlockBuilder.mk0,
          ⟨r.offset, (chooseContents port r.options block.Finish.2).1.length % 2 ^ 64⟩) := by
  unfold WriteBlock at h
  split at h
  · cases h
  · next hok =>
    simp only [Option.some.injEq] at h
    refine ⟨by simpa [ok] using hok, ?_⟩
    rw [← h, (WriteRawBlock_fields crc r _ _).2]
    rfl

theorem WriteBlock_good (crc : Crc32c) (port : Port) (c0 : List Nat) (r : TableBuilder)
    (block : BlockBuilder) (x : TableBuilder × BlockBuilder × BlockHandle)
    (h : WriteBlock crc port r block = some x) (hg : Good c0 r) :
    Good c0 x.1 ∧ x.1.num_entries = r.num_entries := by
  obtain ⟨_, hx⟩ := WriteBlock_some crc port r block x h
  rw [hx]
  refine ⟨Good_congr (WriteRawBlock_good crc c0 r _ _ hg) rfl rfl rfl, ?_⟩
  show (WriteRawBlock crc r _ _).1.num_entries = r.num_entries
  rw [(WriteRawBlock_fields crc r _ _).1]

theorem FinishFilter_good (crc : Crc32c) (c0 : List Nat) (r : TableBuilder) (hg : Good c0 r) :
    Good c0 (FinishFilter crc r).1 ∧ (FinishFilter crc r).1.num_entries = r.num_entries := by
  unfold FinishFilter
  split
  · next policy fb hfb =>
    split
    · refine ⟨WriteRawBlock_good crc c0 _ _ _ (Good_congr hg rfl rfl rfl), ?_⟩
      rw [(WriteRawBlock_fields crc _ _ _).1]
    · exact ⟨hg, rfl⟩
  · exact ⟨hg, rfl⟩

theorem FinishMetaindex_good (crc : Crc32c) (port : Port) (c0 : List Nat) (r : TableBuilder)
    (fh : BlockHandle) (m : TableBuilder × BlockHandle)
    (h : FinishMetaindex crc port r fh = some m) (hg : Good c0 r) :
    Good c0 m.1 ∧ m.1.num_entries = r.num_entries := by
  unfold FinishMetaindex at h
  split at h
  · split at h
    · cases h
    · next block hb =>
      split at h
      · next r1 b1 handle hw =>
        simp only [Option.some.injEq] at h
        rw [← h]
        exact WriteBlock_good crc port c0 r block _ hw hg
      · cases h
  · simp only [Option.some.injEq] at h
    rw [← h]
    exact ⟨hg, rfl⟩

theorem AddLastIndexEntry_fields (r : TableBuilder) :
    AddLastIndexEntry r = { r with last_key := (AddLastIndexEntry r).last_key
                                   index_block := (AddLastIndexEntry r).index_block
                                   pending_index_entry := false } ∨
    AddLastIndexEntry r = r := by
  unfold AddLastIndexEntry
  split
  · left; rfl
  · right; rfl

theorem FinishIndex_good (crc : Crc32c) (port : Port) (c0 : List Nat) (r : TableBuilder)
    (i : TableBuilder × BlockHandle)
    (h : FinishIndex crc port r = some i) (hg : Good c0 r) :
    Good c0 i.1 ∧ i.1.num_entries = r.num_entries := by
  unfold FinishIndex at h
  split at h
  · simp only at h
    split at h
    · next r2 block handle hw =>
      simp only [Option.some.injEq] at h
      rw [← h]
      have g1 : Good c0 (AddLastIndexEntry r) ∧
          (AddLastIndexEntry r).num_entries = r.num_entries := by
        rcases AddLastIndexEntry_fields r with e | e
        · rw [e]; exact ⟨Good_congr hg rfl rfl rfl, rfl⟩
        · rw [e]; exact ⟨hg, rfl⟩
      have := WriteBlock_good crc port c0 _ _ _ hw g1.1
      exact ⟨Good_congr this.1 rfl rfl rfl, this.2.trans g1.2⟩
    · cases h
  · simp only [Option.some.injEq] at h
    rw [← h]
    exact ⟨hg, rfl⟩

theorem FinishFooter_good (c0 : List Nat) (r : TableBuilder) (mh ih : BlockHandle)
    (hg : Good c0 r) :
    Good c0 (FinishFooter r mh ih) ∧ (FinishFooter r mh ih).num_entries = r.num_entries := by
  obtain ⟨a1, a2, a3⟩ := AppendFile.Append_reliable r.file
    (Footer.EncodeTo ⟨mh, ih⟩) hg.reliable
  obtain ⟨out, ho, hoff⟩ := hg.sized
  unfold FinishFooter
  simp only [ok, hg.status_eq, Status_ok_OK, if_true, a1]
  refine ⟨⟨a3, rfl, out ++ Footer.EncodeTo ⟨mh, ih⟩, ?_, ?_⟩, trivial⟩
  · show (r.file.Append _).2.contents = _
    rw [a2, ho, List.append_assoc]
  · show (r.offset + _) % 2 ^ 64 = _
    rw [hoff, List.length_append]
    omega

theorem Finish_good (crc : Crc32c) (port : Port) (c0 : List Nat) (r r1 : TableBuilder)
    (s : Status) (h : r.Finish crc port = some (s, r1)) (hg : Good c0 r) :
    s = Status.OK ∧ Good c0 r1 ∧ r1.num_entries = r.num_entries := by
  unfold Finish at h
  split at h
  · cases h
  · next rf hfl =>
    split at h
    · cases h
    · simp only at h
      split at h
      · cases h
      · next m hm =>
        split at h
        · cases h
        · next i hi =>
          simp only [Option.some.injEq, Prod.mk.injEq] at h
          have gf := Flush_good crc port c0 r rf hfl hg
          have nf : rf.num_entries = r.num_entries := by
            rw [Flush_fields crc port r rf hfl]
          have g2 : Good c0 { rf with closed := true } := Good_congr gf rfl rfl rfl
          have g3 := FinishFilter_good crc c0 _ g2
          have g4 := FinishMetaindex_good crc port c0 _ _ m hm g3.1
          have g5 := FinishIndex_good crc port c0 _ i hi g4.1
          have g6 := FinishFooter_good c0 i.1 m.2 i.2 g5.1
          rw [← h.1, ← h.2]
          exact ⟨g6.1.status_eq, g6.1, by rw [g6.2, g5.2, g4.2, g3.2]; exact nf⟩

theorem mk0_fields (options : Options) (f0 : AppendFile) (b : TableBuilder)
    (h : mk0 options f0 = some b) :
    b = { Rep options f0 with filter_block := b.filter_block } :=
  StartFilterBlock_fields (Rep options f0) b 0 h

theorem mk0_good (options : Options) (f0 : AppendFile) (b : TableBuilder)
    (h : mk0 options f0 = some b) (hf : f0.Reliable) :
    Good f0.contents b ∧ b.num_entries = 0 := by
  rw [mk0_fields options f0 b h]
  exact ⟨⟨hf, rfl, [], by simp [Rep], rfl⟩, rfl⟩

theorem step_good (crc : Crc32c) (port : Port) (c0 : List Nat) (r r1 : TableBuilder) (op : Op)
    (h : step crc port r op = some r1) (hg : Good c0 r) :
    Good c0 r1 ∧ r1.num_entries = r.num_entries + addCalls [op] := by
  cases op with
  | Add key value => exact Add_good crc port c0 r r1 key value h hg
  | Flush =>
    refine ⟨Flush_good crc port c0 r r1 h hg, ?_⟩
    rw [Flush_fields crc port r r1 h]
    rfl
  | ChangeOptions options =>
    simp only [step, Option.some.injEq] at h
    subst h
    unfold ChangeOptions
    split
    · exact ⟨hg, rfl⟩
    · exact ⟨Good_congr hg rfl rfl rfl, rfl⟩
  | Finish =>
    simp only [step, Option.map_eq_some'] at h
    obtain ⟨x, hx, e⟩ := h
    subst e
    have := Finish_good crc port c0 r x.2 x.1 hx hg
    exact ⟨this.2.1, this.2.2⟩
  | Abandon =>
    simp only [step, Abandon] at h
    split at h
    · cases h
    · simp only [Option.some.injEq] at h
      subst h
      exact ⟨Good_congr hg rfl rfl rfl, rfl⟩

theorem addCalls_cons (op : Op) (rest : List Op) :
    addCalls (op :: rest) = addCalls [op] + addCalls rest := by
  cases op <;> simp [addCalls, Nat.add_comm]

theorem run_good (crc : Crc32c) (port : Port) (c0 : List Nat) (ops : List Op) :
    ∀ (r r1 : TableBuilder), run crc port r ops = some r1 → Good c0 r →
      Good c0 r1 ∧ r1.num_entries = r.num_entries + addCalls ops := by
  induction ops with
  | nil =>
    intro r r1 h hg
    simp only [run, Option.some.injEq] at h
    subst h
    exact ⟨hg, rfl⟩
  | cons op rest ih =>
    intro r r1 h hg
    unfold run at h
    cases hst : step crc port r op with
    | none => simp [hst] at h
    | some r2 =>
      rw [hst] at h
      have s1 := step_good crc port c0 r r2 op hst hg
      have s2 := ih r2 r1 h s1.1
      refine ⟨s2.1, ?_⟩
      rw [s2.2, s1.2, addCalls_cons op rest, Nat.add_assoc]

end TableBuilder
end leveldb

namespace leveldb

namespace TableBuilder

/-- C14: `FileSize()` is the number of bytes appended. For a builder constructed over a
file all of whose operations succeed, after any sequence of calls (`Add`, `Flush`, and
also `ChangeOptions`, `Finish`, `Abandon`) the status is `OK`, the file holds its initial
contents followed by the bytes `out` appended so far, and `FileSize()` is the length of
`out` as long as that fits 64 bits; a following `Finish` returns `OK` and leaves
`FileSize()` equal to the number of bytes of the complete generated file. -/
theorem C14_file_size (crc : Crc32c) (port : Port) (options : Options) (f0 : AppendFile)
    (ops : List Op) (b r : TableBuilder) (hf : f0.Reliable)
    (hb : mk0 options f0 = some b) (hr : run crc port b ops = some r) :
    r.status = Status.OK ∧
    (∃ out, r.file.contents = f0.contents ++ out ∧
      (out.length < 2 ^ 64 → r.FileSize = out.length)) ∧
    (∀ s r2, r.Finish crc port = some (s, r2) →
      s = Status.OK ∧
      ∃ out2, r2.file.contents = f0.contents ++ out2 ∧
        (out2.length < 2 ^ 64 → r2.FileSize = out2.length)) := by
  have g0 := (mk0_good options f0 b hb hf).1
  have g1 := (run_good crc port f0.contents ops b r hr g0).1
  refine ⟨g1.status_eq, ?_, ?_⟩
  · obtain ⟨out, ho, hoff⟩ := g1.sized
    exact ⟨out, ho, fun hl => by rw [FileSize, hoff, Nat.mod_eq_of_lt hl]⟩
  · intro s r2 hfin
    obtain ⟨hs, g2, _⟩ := Finish_good crc port f0.contents r r2 s hfin g1
    obtain ⟨out, ho, hoff⟩ := g2.sized
    exact ⟨hs, out, ho, fun hl => by rw [FileSize, hoff, Nat.mod_eq_of_lt hl]⟩

/-- C14, an instance: after `Add("a", "1")`, `Add("b", "2")` and `Flush` with
`block_size = 1` two blocks of 13 + 5 bytes are in the file and `FileSize()` is 36; after
`Finish` it is 126, the size of the file. -/
theorem C14_file_size_witness :
    (run sampleCrc samplePort (Rep (sampleOptions 1) ⟨[], []⟩)
      [Op.Add [97] [49], Op.Add [98] [50], Op.Flush]).map
        (fun r => (r.FileSize, r.file.contents.length)) = some (36, 36) ∧
    ((run sampleCrc samplePort (Rep (sampleOptions 1) ⟨[], []⟩)
      [Op.Add [97] [49], Op.Add [98] [50], Op.Flush]).bind
        (fun r => r.Finish sampleCrc samplePort)).map
        (fun x => (x.2.FileSize, x.2.file.contents.length)) = some (126, 126) ∧
    ((run sampleCrc samplePort (Rep (sampleOptions 1) ⟨[], []⟩)
      [Op.Add [97] [49], Op.Add [98] [50], Op.Flush]).getD
        (Rep (sampleOptions 1) ⟨[], []⟩)).status = Status.OK :=
  ⟨by decide, by decide,
    (C14_file_size sampleCrc samplePort (sampleOptions 1) ⟨[], []⟩
      [Op.Add [97] [49], Op.Add [98] [50], Op.Flush] (Rep (sampleOptions 1) ⟨[], []⟩)
      ((run sampleCrc samplePort (Rep (sampleOptions 1) ⟨[], []⟩)
        [Op.Add [97] [49], Op.Add [98] [50], Op.Flush]).getD (Rep (sampleOptions 1) ⟨[], []⟩))
      (fun _ hx => by cases hx) rfl rfl).1⟩

end TableBuilder

end leveldb

namespace leveldb

namespace TableBuilder

theorem WriteBlock_num_entries (crc : Crc32c) (port : Port) (r : TableBuilder)
    (block : BlockBuilder) (x : TableBuilder × BlockBuilder × BlockHandle)
    (h : WriteBlock crc port r block = some x) : x.1.num_entries = r.num_entries := by
  obtain ⟨_, hx⟩ := WriteBlock_some crc port r block x h
  rw [hx]
  show (WriteRawBlock crc r _ _).1.num_entries = r.num_entries
  rw [(WriteRawBlock_fields crc r _ _).1]

theorem Finish_num_entries (crc : Crc32c) (port : Port) (r r1 : TableBuilder) (s : Status)
    (h : r.Finish crc port = some (s, r1)) : r1.num_entries = r.num_entries := by
  unfold Finish at h
  split at h
  · cases h
  · next rf hfl =>
    split at h
    · cases h
    · simp only at h
      split at h
      · cases h
      · next m hm =>
        split at h
        · cases h
        · next i hi =>
          simp only [Option.some.injEq, Prod.mk.injEq] at h
          have nf : rf.num_entries = r.num_entries := by
            rw [Flush_fields crc port r rf hfl]
          have n3 : (FinishFilter crc { rf with closed := true }).1.num_entries
              = rf.num_entries := by
            unfold FinishFilter
            split
            · split
              · rw [(WriteRawBlock_fields crc _ _ _).1]
              · rfl
            · rfl
          have n4 : m.1.num_entries
              = (FinishFilter crc { rf with closed := true }).1.num_entries := by
            unfold FinishMetaindex at hm
            split at hm
            · split at hm
              · cases hm
              · split at hm
                · next r1 b1 handle hw =>
                  simp only [Option.some.injEq] at hm
                  rw [← hm]
                  exact WriteBlock_num_entries crc port _ _ _ hw
                · cases hm
            · simp only [Option.some.injEq] at hm
              rw [← hm]
          have n5 : i.1.num_entries = m.1.num_entries := by
            unfold FinishIndex at hi
            split at hi
            · simp only at hi
              split at hi
              · next r2 block handle hw =>
                simp only [Option.some.injEq] at hi
                rw [← hi]
                have := WriteBlock_num_entries crc port _ _ _ hw
                show r2.num_entries = _
                rw [show r2.num_entries = _ from this]
                rcases AddLastIndexEntry_fields m.1 with e | e <;> rw [e]
              · cases hi
            · simp only [Option.some.injEq] at hi
              rw [← hi]
          have n6 : (FinishFooter i.1 m.2 i.2).num_entries = i.1.num_entries := by
            unfold FinishFooter
            split
            · simp only
              split <;> rfl
            · rfl
          rw [← h.2, n6, n5, n4, n3, nf]

theorem step_num_entries (crc : Crc32c) (port : Port) (r r1 : TableBuilder) (op : Op)
    (h : step crc port r op = some r1) :
    r1.num_entries = r.num_entries + okAdds crc port r [op] := by
  cases op with
  | Add key value =>
    simp only [okAdds, h, Nat.add_zero]
    simp only [step] at h
    rcases Add_some crc port r r1 key value h with ⟨hbad, e⟩ | ⟨_, hok, _, r0, r3, h0, h3, h4⟩
    · simp [ok, hbad, e]
    · simp only [ok, hok, if_true]
      have n0 : r0.num_entries = r.num_entries := by
        rcases AddPendingIndexEntry_some r r0 key h0 with ⟨_, e⟩ | ⟨_, _, e⟩
        · rw [e]
        · rw [e]
      have n3 : r3.num_entries = r.num_entries + 1 := by rw [h3, ← n0]
      rcases h4 with ⟨_, hfl⟩ | ⟨_, e⟩
      · rw [Flush_fields crc port r3 r1 hfl]
        exact n3
      · rw [e]; exact n3
  | Flush =>
    simp only [okAdds, h, Nat.add_zero]
    simp only [step] at h
    rw [Flush_fields crc port r r1 h]
  | ChangeOptions options =>
    simp only [okAdds, h, Nat.add_zero]
    simp only [step, Option.some.injEq] at h
    subst h
    unfold ChangeOptions
    split <;> rfl
  | Finish =>
    simp only [okAdds, h, Nat.add_zero]
    simp only [step, Option.map_eq_some'] at h
    obtain ⟨x, hx, e⟩ := h
    subst e
    exact Finish_num_entries crc port r x.2 x.1 hx
  | Abandon =>
    simp only [okAdds, h, Nat.add_zero]
    simp only [step, Abandon] at h
    split at h
    · cases h
    · simp only [Option.some.injEq] at h
      subst h
      rfl

theorem run_num_entries (crc : Crc32c) (port : Port) (ops : List Op) :
    ∀ (r r1 : TableBuilder), run crc port r ops = some r1 →
      r1.num_entries = r.num_entries + okAdds crc port r ops := by
  induction ops with
  | nil =>
    intro r r1 h
    simp only [run, Option.some.injEq] at h
    subst h
    rfl
  | cons op rest ih =>
    intro r r1 h
    unfold run at h
    cases hst : step crc port r op with
    | none => simp [hst] at h
    | some r2 =>
      rw [hst] at h
      have s1 := step_num_entries crc port r r2 op hst
      have s2 := ih r2 r1 h
      rw [s2, s1]
      simp only [okAdds, hst, Nat.add_zero, Nat.add_assoc]

/-- `NumEntries()` after every sequence of calls on a new table builder is the number of
calls to `Add()` that were made while `status()` was ok; when no file operation fails,
that is the number of all calls to `Add()` made so far. -/
theorem NumEntries_counts_ok_adds (crc : Crc32c) (port : Port) (options : Options)
    (f0 : AppendFile) (ops : List Op) (b r : TableBuilder)
    (hb : mk0 options f0 = some b) (hr : run crc port b ops = some r) :
    r.NumEntries = okAdds crc port b ops ∧
    (f0.Reliable → r.NumEntries = addCalls ops) := by
  have n0 : b.num_entries = 0 := by rw [mk0_fields options f0 b hb]; rfl
  constructor
  · rw [NumEntries, run_num_entries crc port ops b r hr, n0, Nat.zero_add]
  · intro hf
    have g0 := (mk0_good options f0 b hb hf).1
    rw [NumEntries, (run_good crc port f0.contents ops b r hr g0).2, n0, Nat.zero_add]

/-- An instance of `NumEntries_counts_ok_adds`: over the file whose first operation
fails, one of the two `Add` calls was made while the status was ok. -/
theorem NumEntries_counts_ok_adds_example :
    okAdds sampleCrc samplePort (Rep (sampleOptions 1) ⟨[], [false]⟩)
      [Op.Add [97] [49], Op.Add [98] [50]] = 1 ∧
    ((run sampleCrc samplePort (Rep (sampleOptions 1) ⟨[], [false]⟩)
      [Op.Add [97] [49], Op.Add [98] [50]]).getD (Rep (sampleOptions 1) ⟨[], []⟩)).NumEntries
      = okAdds sampleCrc samplePort (Rep (sampleOptions 1) ⟨[], [false]⟩)
        [Op.Add [97] [49], Op.Add [98] [50]] :=
  ⟨by decide,
    (NumEntries_counts_ok_adds sampleCrc samplePort (sampleOptions 1) ⟨[], [false]⟩
      [Op.Add [97] [49], Op.Add [98] [50]] (Rep (sampleOptions 1) ⟨[], [false]⟩)
      ((run sampleCrc samplePort (Rep (sampleOptions 1) ⟨[], [false]⟩)
        [Op.Add [97] [49], Op.Add [98] [50]]).getD (Rep (sampleOptions 1) ⟨[], []⟩))
      rfl rfl).1⟩

/-- C15: `NumEntries()` against the number of calls to `Add()`, evaluated on a builder
over a file whose first operation fails, with `block_size = 1`, after the two calls
`Add("a", "1")` and `Add("b", "2")`: the first call flushes a block and the write
fails, the second call returns at `if (!ok()) return;` before `num_entries++`, so
`NumEntries()` is 1 after 2 calls to `Add()`. -/
theorem C15_num_entries_failing_input :
    ((mk0 (sampleOptions 1) ⟨[], [false]⟩).bind
      (fun b => run sampleCrc samplePort b [Op.Add [97] [49], Op.Add [98] [50]])).map
        NumEntries = some 1 ∧
    addCalls [Op.Add [97] [49], Op.Add [98] [50]] = 2 := by
  decide

end TableBuilder

end leveldb

namespace leveldb

namespace Table

theorem Status_ok_eq (s : Status) (h : s.ok = true) : s = Status.OK := by
  cases s <;> first | rfl | cases h

theorem ReadFilter_filter (crc : Crc32c) (port : Port) (t : Table) (v : List Nat)
    (ht : t.filter = none)
    (h : (BlockHandle.DecodeFrom v).1.ok = false ∨
      (ReadBlock crc port t.file (metaReadOptions t.options)
        (BlockHandle.DecodeFrom v).2.1).1.ok = false) :
    (ReadFilter crc port t v).filter = none := by
  unfold ReadFilter
  simp only
  split
  · exact ht
  · split
    · exact ht
    · next h1 h2 =>
      rcases h with h | h
      · rw [h] at h1; exact absurd rfl h1
      · rw [h] at h2; exact absurd rfl h2

/-- C13: the failure condition of `Table::Open`. With `rd` the read of the last 48 bytes,
`fd` the decoded footer and `rb` the read of the index block: `Open` returns a non-ok
status exactly when `size < 48`, or `rd` fails, or decoding the footer fails, or `rb`
fails; `*table` is `nullptr` exactly when the status is non-ok; for `size < 48` the status
is `Corruption` and no `Read` call is made on the file; and when `Open` succeeds the
status is `OK` and a failure to read the metaindex block, to decode the filter handle or
to read the filter block leaves the table without a filter. -/
theorem C13_open_failure (crc : Crc32c) (port : Port) (seek : BlockSeek) (options : Options)
    (file : RandomAccessFile) (size : Nat) :
    let o := Open crc port seek options file size
    let rd := file.Read (size - Footer.kEncodedLength) Footer.kEncodedLength
    let fd := Footer.DecodeFrom rd.2.1
    let rb := ReadBlock crc port rd.2.2 (metaReadOptions options) fd.2.index_handle_
    (o.1.ok = false ↔
      (size < 48 ∨ rd.1.ok = false ∨ fd.1.ok = false ∨ rb.1.ok = false)) ∧
    (o.2.1 = none ↔ o.1.ok = false) ∧
    (size < 48 → (∃ msg, o.1 = Status.Corruption msg) ∧ o.2.2.reads = file.reads) ∧
    (∀ t, o.2.1 = some t →
      o.1 = Status.OK ∧
      ∀ policy, options.filter_policy = some policy →
        let mb := ReadBlock crc port rb.2.2 (metaReadOptions options) fd.2.metaindex_handle_
        let iter := seek bytewiseCompare mb.2.1 (TableBuilder.filterPrefix ++ policy.Name)
        let d := BlockHandle.DecodeFrom iter.value
        (mb.1.ok = false → t.filter = none) ∧
        (d.1.ok = false → t.filter = none) ∧
        ((ReadBlock crc port mb.2.2 (metaReadOptions options) d.2.1).1.ok = false →
          t.filter = none)) := by
  intro o rd fd rb
  have h48 : Footer.kEncodedLength = 48 := rfl
  by_cases h1 : size < 48
  · have e : o = (Status.Corruption "file is too short to be an sstable", none, file) := by
      show Open crc port seek options file size = _
      unfold Open
      rw [if_pos (by rw [h48]; exact h1)]
    rw [e]
    refine ⟨by simp [h1, Status.ok], by simp [Status.ok], fun _ => ⟨⟨_, rfl⟩, rfl⟩, ?_⟩
    intro t ht
    cases ht
  · by_cases h2 : rd.1.ok = false
    · have e : o = (rd.1, none, rd.2.2) := by
        show Open crc port seek options file size = _
        unfold Open
        rw [if_neg (by rw [h48]; exact h1)]
        simp only
        rw [if_pos (by simp only [Bool.not_eq_true']; exact h2)]
      rw [e]
      refine ⟨by simp [h2], by simp [h2], fun h => absurd h h1, ?_⟩
      intro t ht
      cases ht
    · by_cases h3 : fd.1.ok = false
      · have e : o = (fd.1, none, rd.2.2) := by
          show Open crc port seek options file size = _
          unfold Open
          rw [if_neg (by rw [h48]; exact h1)]
          simp only
          rw [if_neg (by simp only [Bool.not_eq_true']; exact h2),
            if_pos (by simp only [Bool.not_eq_true']; exact h3)]
        rw [e]
        refine ⟨by simp [h3], by simp [h3], fun h => absurd h h1, ?_⟩
        intro t ht
        cases ht
      · by_cases h4 : rb.1.ok = false
        · have e : o = (rb.1, none, rb.2.2) := by
            show Open crc port seek options file size = _
            unfold Open
            rw [if_neg (by rw [h48]; exact h1)]
            simp only
            rw [if_neg (by simp only [Bool.not_eq_true']; exact h2),
              if_neg (by simp only [Bool.not_eq_true']; exact h3),
              if_neg (by simp only [Bool.not_eq_true]; exact h4)]
          rw [e]
          refine ⟨by simp [h4], by simp [h4], fun h => absurd h h1, ?_⟩
          intro t ht
          cases ht
        · have h4t : rb.1.ok = true := by simpa using h4
          have e : o = (rb.1, some (ReadMeta crc port seek
              { options := options, status := Status.OK, file := rb.2.2, cache_id := 0,
                filter := none, metaindex_handle := fd.2.metaindex_handle_,
                index_block := rb.2.1 } fd.2),
              (ReadMeta crc port seek
              { options := options, status := Status.OK, file := rb.2.2, cache_id := 0,
                filter := none, metaindex_handle := fd.2.metaindex_handle_,
                index_block := rb.2.1 } fd.2).file) := by
            show Open crc port seek options file size = _
            unfold Open
            rw [if_neg (by rw [h48]; exact h1)]
            simp only
            rw [if_neg (by simp only [Bool.not_eq_true']; exact h2),
              if_neg (by simp only [Bool.not_eq_true']; exact h3),
              if_pos h4t]
          rw [e]
          refine ⟨by simp [h1, h2, h3, h4], by simp [h4t], fun h => absurd h h1, ?_⟩
          intro t ht
          simp only [Option.some.injEq] at ht
          refine ⟨Status_ok_eq _ h4t, ?_⟩
          intro policy hp mb iter d
          rw [← ht]
          unfold ReadMeta
          simp only [hp]
          refine ⟨?_, ?_, ?_⟩
          · intro hm
            rw [if_pos (by simp only [Bool.not_eq_true']; exact hm)]
          · intro hd
            split
            · rfl
            · split
              · exact ReadFilter_filter crc port _ _ rfl (Or.inl hd)
              · rfl
          · intro hr
            split
            · rfl
            · split
              · exact ReadFilter_filter crc port _ _ rfl (Or.inr hr)
              · rfl

/-- C13, an instance: a file of ten bytes is refused as too short without being read. -/
theorem C13_open_failure_witness :
    (Open sampleCrc samplePort linearBlockSeek (sampleOptions 1)
      ⟨[1, 2, 3, 4, 5, 6, 7, 8, 9, 10], fun _ _ => false, []⟩ 10).1.ok = false ∧
    (Open sampleCrc samplePort linearBlockSeek (sampleOptions 1)
      ⟨[1, 2, 3, 4, 5, 6, 7, 8, 9, 10], fun _ _ => false, []⟩ 10).2.2.reads = [] :=
  ⟨(C13_open_failure sampleCrc samplePort linearBlockSeek (sampleOptions 1)
      ⟨[1, 2, 3, 4, 5, 6, 7, 8, 9, 10], fun _ _ => false, []⟩ 10).1.2 (Or.inl (by decide)),
    ((C13_open_failure sampleCrc samplePort linearBlockSeek (sampleOptions 1)
      ⟨[1, 2, 3, 4, 5, 6, 7, 8, 9, 10], fun _ _ => false, []⟩ 10).2.2.1 (by decide)).2⟩

end Table

end leveldb

namespace leveldb

namespace BlockBuilder

theorem addAll_append (options : Options) (b : BlockBuilder) (es es' : List Entry) :
    addAll options b (es ++ es') = addAll options (addAll options b es) es' := by
  simp [addAll, List.foldl_append]

theorem addAll_snoc (options : Options) (b : BlockBuilder) (es : List Entry) (e : Entry) :
    addAll options b (es ++ [e]) = (addAll options b es).Add options e.1 e.2 := by
  simp [addAll, List.foldl_append]

theorem Add_buffer_ne (options : Options) (b : BlockBuilder) (k v : List Nat) :
    (b.Add options k v).buffer_ ≠ [] := by
  intro h
  have hl := congrArg List.length h
  have := EncodeVarint32_length_pos ((if ¬ b.counter_ < options.block_restart_interval then 0
    else common_prefix_len b.last_key_ k) % 2 ^ 32)
  simp only [Add, List.length_append, List.length_nil] at hl
  omega

theorem empty_addAll (options : Options) (es : List Entry) :
    (addAll options mk0 es).empty = decide (es = []) := by
  rcases List.eq_nil_or_concat es with h | ⟨es0, e, h⟩
  · subst h; rfl
  · subst h
    rw [List.concat_eq_append, addAll_snoc]
    have := Add_buffer_ne options (addAll options mk0 es0) e.1 e.2
    simp [empty, List.isEmpty_iff, this]

end BlockBuilder

namespace TableBuilder

theorem dataImage_append (crc : Crc32c) (port : Port) (options : Options)
    (gs gs' : List (List Entry)) :
    dataImage crc port options (gs ++ gs')
      = dataImage crc port options gs ++ dataImage crc port options gs' := by
  induction gs with
  | nil => rfl
  | cons g rest ih => simp [dataImage, ih]

theorem dataImage_snoc (crc : Crc32c) (port : Port) (options : Options)
    (gs : List (List Entry)) (g : List Entry) :
    dataImage crc port options (gs ++ [g])
      = dataImage crc port options gs
        ++ rawImage crc port options (BlockBuilder.build options g) := by
  rw [dataImage_append]
  simp [dataImage]

theorem indexEntries_single (crc : Crc32c) (port : Port) (options : Options) (off : Nat)
    (g : List Entry) : indexEntries crc port options off [g] = [] := rfl

theorem indexEntries_cons (crc : Crc32c) (port : Port) (options : Options) (off : Nat)
    (g : List Entry) (rest : List (List Entry)) :
    indexEntries crc port options off (g :: rest)
      = (rest.head?.map (fun g' =>
          (options.comparator.FindShortestSeparator (lastKeyOf g) (firstKeyOf g'),
            (handleAt port options off g).EncodeTo))).toList
        ++ indexEntries crc port options
            (off + (rawImage crc port options (BlockBuilder.build options g)).length) rest :=
  rfl

theorem indexEntries_snoc (crc : Crc32c) (port : Port) (options : Options) :
    ∀ (gs0 : List (List Entry)) (off : Nat) (g g' : List Entry),
      indexEntries crc port options off (gs0 ++ [g] ++ [g'])
        = indexEntries crc port options off (gs0 ++ [g])
          ++ [(options.comparator.FindShortestSeparator (lastKeyOf g) (firstKeyOf g'),
              (handleAt port options (off + (dataImage crc port options gs0).length)
                g).EncodeTo)] := by
  intro gs0
  induction gs0 with
  | nil =>
    intro off g g'
    simp [indexEntries, dataImage]
  | cons a rest ih =>
    intro off g g'
    have := ih (off + (rawImage crc port options (BlockBuilder.build options a)).length) g g'
    rw [List.cons_append, List.cons_append, indexEntries_cons, this, indexEntries_cons]
    cases rest <;> simp [dataImage, Nat.add_assoc]

theorem indexEntries_last_congr (crc : Crc32c) (port : Port) (options : Options) :
    ∀ (gs : List (List Entry)) (off : Nat) (c1 c2 : List Entry),
      firstKeyOf c1 = firstKeyOf c2 →
      indexEntries crc port options off (gs ++ [c1])
        = indexEntries crc port options off (gs ++ [c2]) := by
  intro gs
  induction gs with
  | nil => intro off c1 c2 _; rfl
  | cons a rest ih =>
    intro off c1 c2 h
    have := ih (off + (rawImage crc port options (BlockBuilder.build options a)).length)
      c1 c2 h
    rw [List.cons_append, List.cons_append, indexEntries_cons, indexEntries_cons, this]
    cases rest <;> simp [h]

theorem filterCalls_append (crc : Crc32c) (port : Port) (options : Options) :
    ∀ (gs gs' : List (List Entry)) (off : Nat),
      filterCalls crc port options off (gs ++ gs')
        = filterCalls crc port options off gs
          ++ filterCalls crc port options (off + (dataImage crc port options gs).length)
              gs' := by
  intro gs
  induction gs with
  | nil => intro gs' off; simp [filterCalls, dataImage]
  | cons g rest ih =>
    intro gs' off
    simp [filterCalls, ih, dataImage, Nat.add_assoc]

theorem lastKeyOf_snoc (l : List Entry) (e : Entry) : lastKeyOf (l ++ [e]) = e.1 := by
  simp [lastKeyOf]

theorem firstKeyOf_snoc (l : List Entry) (e : Entry) (h : l ≠ []) :
    firstKeyOf (l ++ [e]) = firstKeyOf l := by
  cases l with
  | nil => exact absurd rfl h
  | cons a rest => rfl

theorem lastKeyOf_append (l g : List Entry) (h : g ≠ []) : lastKeyOf (l ++ g) = lastKeyOf g := by
  rcases List.eq_nil_or_concat g with h0 | ⟨g0, e, h0⟩
  · exact absurd h0 h
  · subst h0
    rw [List.concat_eq_append, ← List.append_assoc, lastKeyOf_snoc, lastKeyOf_snoc]

theorem groupsOf_nil (gs : List (List Entry)) : groupsOf gs [] = gs := rfl

theorem groupsOf_ne (gs : List (List Entry)) (cur : List Entry) (h : cur ≠ []) :
    groupsOf gs cur = gs ++ [cur] := by
  simp [groupsOf, h]

end TableBuilder

end leveldb

namespace leveldb

namespace TableBuilder

theorem trailerOf_length (crc : Crc32c) (c : List Nat) (t : CompressionType) :
    (trailerOf crc c t).length = 5 := rfl

theorem rawImage_length (crc : Crc32c) (port : Port) (options : Options) (raw : List Nat) :
    (rawImage crc port options raw).length
      = (chooseContents port options raw).1.length + 5 := by
  simp [rawImage, trailerOf_length]

theorem WriteRawBlock_eq (crc : Crc32c) (r : TableBuilder) (c : List Nat)
    (t : CompressionType) (h : r.file.Reliable) :
    ∃ f, f.Reliable ∧ f.contents = r.file.contents ++ (c ++ trailerOf crc c t) ∧
      (WriteRawBlock crc r c t).1
        = { r with status := Status.OK, file := f
                   offset := (r.offset + c.length + 5) % 2 ^ 64 } := by
  obtain ⟨h1, h2, h3, h4⟩ := WriteRawBlock_reliable crc r c t h
  refine ⟨(WriteRawBlock crc r c t).1.file, h2, ?_, ?_⟩
  · rw [h3, List.append_assoc]; rfl
  · conv => lhs; rw [(WriteRawBlock_fields crc r c t).1]
    rw [h1, h4]
    rfl

theorem StartFilterBlock_some (r r1 : TableBuilder) (o : Nat)
    (h : StartFilterBlock r o = some r1) :
    (r.filter_block = none ∧ r1 = r) ∨
    (∃ policy fb fb1, r.filter_block = some (policy, fb) ∧
      fb.StartBlock policy o = some fb1 ∧
      r1 = { r with filter_block := some (policy, fb1) }) := by
  unfold StartFilterBlock at h
  split at h
  · next hf =>
    simp only [Option.some.injEq] at h
    exact Or.inl ⟨hf, h.symm⟩
  · next policy fb hf =>
    split at h
    · next fb1 hs =>
      simp only [Option.some.injEq] at h
      exact Or.inr ⟨policy, fb, fb1, hf, hs, h.symm⟩
    · cases h

theorem run_snoc_StartBlock (policy : FilterPolicy) (calls : List FilterBlockBuilder.Call)
    (fb fb1 : FilterBlockBuilder) (o : Nat)
    (h : FilterBlockBuilder.run policy FilterBlockBuilder.mk0 calls = some fb)
    (hs : fb.StartBlock policy o = some fb1) :
    FilterBlockBuilder.run policy FilterBlockBuilder.mk0
      (calls ++ [FilterBlockBuilder.Call.StartBlock o]) = some fb1 := by
  rw [FilterBlockBuilder.run_append, h]
  simp [FilterBlockBuilder.run, hs]

theorem run_snoc_AddKey (policy : FilterPolicy) (calls : List FilterBlockBuilder.Call)
    (fb : FilterBlockBuilder) (k : List Nat)
    (h : FilterBlockBuilder.run policy FilterBlockBuilder.mk0 calls = some fb) :
    FilterBlockBuilder.run policy FilterBlockBuilder.mk0
      (calls ++ [FilterBlockBuilder.Call.AddKey k]) = some (fb.AddKey k) := by
  rw [FilterBlockBuilder.run_append, h]
  simp [FilterBlockBuilder.run]

theorem BuiltCore_set_filter {crc : Crc32c} {port : Port} {options : Options}
    {gs : List (List Entry)} {cur : List Entry} {r : TableBuilder}
    (h : BuiltCore crc port options gs cur r) (x : Option (FilterPolicy × FilterBlockBuilder)) :
    BuiltCore crc port options gs cur { r with filter_block := x } :=
  ⟨h.options_eq, h.index_options_eq, h.reliable, h.status_eq, h.closed_eq, h.contents_eq,
    h.offset_eq, h.data_eq, h.index_eq, h.pending_eq, h.handle_eq, h.last_key_eq, h.num_eq,
    h.nonempty⟩

theorem mk0_Built (crc : Crc32c) (port : Port) (options : Options) (f0 : AppendFile)
    (b : TableBuilder) (hf : f0.Reliable) (h0 : f0.contents = [])
    (h : mk0 options f0 = some b) : Built crc port options [] [] b := by
  unfold mk0 at h
  have hr : (Rep options f0).filter_block
      = options.filter_policy.map (fun policy => (policy, FilterBlockBuilder.mk0)) := rfl
  have hcore : BuiltCore crc port options [] [] (Rep options f0) := by
    refine ⟨rfl, rfl, hf, rfl, rfl, h0, rfl, rfl, rfl, by simp [Rep], ?_, ?_, rfl, ?_⟩
    · intro gs0 g _ hg
      cases gs0 <;> cases hg
    · intro hne; exact absurd rfl hne
    · intro g hg; cases hg
  rcases StartFilterBlock_some _ _ _ h with ⟨hn, e⟩ | ⟨policy, fb, fb1, hfb, hs, e⟩
  · rw [hr] at hn
    have hp : options.filter_policy = none := by
      cases hq : options.filter_policy with
      | none => rfl
      | some p => rw [hq] at hn; cases hn
    subst e
    refine ⟨hcore, ?_⟩
    unfold FilterOk
    rw [hp]; exact hn
  · rw [hr] at hfb
    cases hq : options.filter_policy with
    | none => rw [hq] at hfb; cases hfb
    | some p =>
      rw [hq] at hfb
      simp only [Option.map_some', Option.some.injEq, Prod.mk.injEq] at hfb
      obtain ⟨hp, hfb0⟩ := hfb
      subst hp hfb0 e
      refine ⟨BuiltCore_set_filter hcore _, ?_⟩
      unfold FilterOk
      rw [hq]
      refine ⟨fb1, rfl, ?_⟩
      simp [filterCalls, FilterBlockBuilder.run, hs]

theorem Built_Flush (crc : Crc32c) (port : Port) (options : Options) (gs : List (List Entry))
    (cur : List Entry) (r r1 : TableBuilder) (hb : Built crc port options gs cur r)
    (h : r.Flush crc port = some r1) : Built crc port options (groupsOf gs cur) [] r1 := by
  have hc := hb.core
  have hem := BlockBuilder.empty_addAll options cur
  rw [← hc.data_eq] at hem
  rcases Flush_some crc port r r1 h with ⟨hor, e⟩ | ⟨_, _, hne, _, w, r3, hw, hs, h3⟩
  · have hcur : cur = [] := by
      rcases hor with hbad | he
      · rw [hc.status_eq] at hbad; cases hbad
      · rw [he] at hem; simpa using hem
    subst hcur e
    exact hb
  · have hcur : cur ≠ [] := by
      rw [hne] at hem
      simpa using hem
    rw [groupsOf_ne gs cur hcur]
    obtain ⟨f, hf1, hf2, hf3⟩ := WriteRawBlock_eq crc r
      (chooseContents port r.options r.data_block.Finish.2).1
      (chooseContents port r.options r.data_block.Finish.2).2 hc.reliable
    rw [← hw] at hf3
    have hraw : r.data_block.Finish.2 = BlockBuilder.build options cur := by
      rw [hc.data_eq]; rfl
    rw [hc.options_eq, hraw] at hf2 hf3 h3
    have hwok : w.status.ok = true := by rw [hf3]; rfl
    rcases h3 with ⟨_, h3⟩ | ⟨hbad, _⟩
    swap
    · rw [hwok] at hbad; cases hbad
    have hwf : w.file = f := by rw [hf3]
    have hwo : w.offset = (r.offset + (chooseContents port options
        (BlockBuilder.build options cur)).1.length + 5) % 2 ^ 64 := by rw [hf3]
    rw [hwf, hwo] at h3
    have hfl := AppendFile.Flush_reliable f hf1
    have hfc := AppendFile.Flush_contents f
    have hoff : (r.offset + (chooseContents port options
        (BlockBuilder.build options cur)).1.length + 5) % 2 ^ 64
        = (dataImage crc port options (gs ++ [cur])).length % 2 ^ 64 := by
      rw [dataImage_snoc, List.length_append, rawImage_length, hc.offset_eq]
      omega
    have key : BuiltCore crc port options (gs ++ [cur]) [] r3 := by
      rw [h3]
      refine ⟨rfl, hc.index_options_eq, hfl.2, hfl.1, hc.closed_eq, ?_, hoff, rfl, ?_,
        ?_, ?_, ?_, ?_, ?_⟩
      · show f.Flush.2.contents = _
        rw [hfc, hf2, hc.contents_eq, dataImage_snoc]
        rfl
      · show r.index_block = _
        rw [hc.index_eq, groupsOf_ne gs cur hcur, groupsOf_nil]
      · show true = _
        simp
      · intro gs0 g _ hg
        obtain ⟨e1, e2⟩ := List.append_inj' hg rfl
        simp only [List.cons.injEq, and_true] at e2
        subst e1 e2
        show (⟨r.offset, _⟩ : BlockHandle) = _
        rw [hc.offset_eq]
        simp [handleAt]
      · intro _
        show r.last_key = _
        rw [hc.last_key_eq (by simp [hcur])]
        simp
      · show r.num_entries = _
        rw [hc.num_eq]
        simp
      · intro g hg
        rcases List.mem_append.mp hg with hg | hg
        · exact hc.nonempty g hg
        · simp only [List.mem_singleton] at hg
          rw [hg]; exact hcur
    have hfb3 : r3.filter_block = r.filter_block := by rw [h3]
    have ho3 : r3.offset = (dataImage crc port options (gs ++ [cur])).length % 2 ^ 64 :=
      key.offset_eq
    have hfo := hb.filter_eq
    unfold FilterOk at hfo
    rcases StartFilterBlock_some _ _ _ hs with ⟨hn, e⟩ | ⟨policy, fb, fb1, hfb, hsb, e⟩
    · subst e
      refine ⟨key, ?_⟩
      unfold FilterOk
      rw [hfb3] at hn ⊢
      cases hq : options.filter_policy with
      | none => exact hn
      | some p =>
        rw [hq] at hfo
        obtain ⟨fb, hfb, _⟩ := hfo
        rw [hfb] at hn; cases hn
    · subst e
      refine ⟨BuiltCore_set_filter key _, ?_⟩
      unfold FilterOk
      rw [hfb3] at hfb
      cases hq : options.filter_policy with
      | none => rw [hq] at hfo; rw [hfo] at hfb; cases hfb
      | some p =>
        rw [hq] at hfo
        obtain ⟨fb0, hfb0, hrun⟩ := hfo
        rw [hfb0] at hfb
        simp only [Option.some.injEq, Prod.mk.injEq] at hfb
        obtain ⟨hp, hfbe⟩ := hfb
        subst hp hfbe
        refine ⟨fb1, rfl, ?_⟩
        have := run_snoc_StartBlock p _ fb0 fb1 _ hrun hsb
        rw [ho3] at this
        rw [← this]
        congr 1
        simp [filterCalls_append, filterCalls, dataImage_snoc]

theorem Built_Add_core (crc : Crc32c) (port : Port) (options : Options)
    (gs : List (List Entry)) (cur : List Entry) (r r0 : TableBuilder) (k v : List Nat)
    (hb : Built crc port options gs cur r) (h0 : AddPendingIndexEntry r k = some r0) :
    Built crc port options gs (cur ++ [(k, v)])
      { r0 with filter_block := r0.filter_block.map (fun pf => (pf.1, pf.2.AddKey k))
                last_key := k
                num_entries := r0.num_entries + 1
                data_block := r0.data_block.Add r0.options k v } := by
  have hc := hb.core
  have hne : cur ++ [(k, v)] ≠ [] := by simp
  have hfilter : FilterOk crc port options gs (cur ++ [(k, v)])
      (r.filter_block.map (fun pf => (pf.1, pf.2.AddKey k))) := by
    have hfo := hb.filter_eq
    unfold FilterOk at hfo ⊢
    cases hq : options.filter_policy with
    | none => rw [hq] at hfo; rw [hfo]; rfl
    | some p =>
      rw [hq] at hfo
      obtain ⟨fb, hfb, hrun⟩ := hfo
      refine ⟨fb.AddKey k, by rw [hfb]; rfl, ?_⟩
      have := run_snoc_AddKey p _ fb k hrun
      rw [← this]
      simp
  have hcore : BuiltCore crc port options gs (cur ++ [(k, v)])
      { r0 with last_key := k
                num_entries := r0.num_entries + 1
                data_block := r0.data_block.Add r0.options k v } := by
    rcases AddPendingIndexEntry_some r r0 k h0 with ⟨hp, e⟩ | ⟨hp, _, e⟩
    · subst e
      have hnp : ¬ (cur = [] ∧ gs ≠ []) := by
        have := hc.pending_eq
        rw [hp] at this
        simpa using this.symm
      refine ⟨hc.options_eq, hc.index_options_eq, hc.reliable, hc.status_eq, hc.closed_eq,
        hc.contents_eq, hc.offset_eq, ?_, ?_, ?_, ?_, ?_, ?_, hc.nonempty⟩
      · show r0.data_block.Add r0.options k v = _
        rw [BlockBuilder.addAll_snoc, hc.data_eq, hc.options_eq]
      · show r0.index_block = _
        rw [hc.index_eq, groupsOf_ne gs _ hne]
        by_cases hcur : cur = []
        · subst hcur
          have hgs : gs = [] := by
            by_contra hg
            exact hnp ⟨rfl, hg⟩
          subst hgs
          rfl
        · rw [groupsOf_ne gs cur hcur]
          rw [indexEntries_last_congr crc port options gs 0 _ _
            (firstKeyOf_snoc cur (k, v) hcur).symm]
      · show r0.pending_index_entry = _
        rw [hp]; simp
      · intro gs0 g hcur _
        exact absurd hcur hne
      · intro _
        show k = _
        rw [← List.append_assoc, lastKeyOf_snoc]
      · show r0.num_entries + 1 = _
        rw [hc.num_eq]
        simp only [List.length_append, List.length_cons, List.length_nil]
        omega
    · subst e
      have hpe : cur = [] ∧ gs ≠ [] := by
        have := hc.pending_eq
        rw [hp] at this
        simpa using this.symm
      obtain ⟨hcur, hgs⟩ := hpe
      subst hcur
      rcases List.eq_nil_or_concat gs with hg0 | ⟨gs0, g, hg0⟩
      · exact absurd hg0 hgs
      rw [List.concat_eq_append] at hg0
      have hgne : g ≠ [] := hc.nonempty g (by rw [hg0]; simp)
      refine ⟨hc.options_eq, hc.index_options_eq, hc.reliable, hc.status_eq, hc.closed_eq,
        hc.contents_eq, hc.offset_eq, ?_, ?_, ?_, ?_, ?_, ?_, hc.nonempty⟩
      · show r.data_block.Add r.options k v = _
        rw [BlockBuilder.addAll_snoc, hc.data_eq, hc.options_eq]
      · show r.index_block.Add r.index_block_options
          (r.options.comparator.FindShortestSeparator r.last_key k) r.pending_handle.EncodeTo = _
        rw [groupsOf_ne gs _ hne, hc.index_eq, groupsOf_nil, hc.index_options_eq, hc.options_eq,
          hc.handle_eq gs0 g rfl hg0, hc.last_key_eq (by
            rw [hg0]; simp [hgne])]
        subst hg0
        rw [List.nil_append, indexEntries_snoc, BlockBuilder.addAll_snoc]
        simp only [List.append_nil, Nat.zero_add]
        rw [List.flatten_append, List.flatten_singleton, lastKeyOf_append _ g hgne]
        rfl
      · show false = _
        simp
      · intro gs0 g hcur _
        exact absurd hcur hne
      · intro _
        show k = _
        rw [← List.append_assoc, lastKeyOf_snoc]
      · show r.num_entries + 1 = _
        rw [hc.num_eq]
        simp
  have hfb0 : r0.filter_block = r.filter_block := by
    rcases AddPendingIndexEntry_some r r0 k h0 with ⟨_, e⟩ | ⟨_, _, e⟩ <;> rw [e]
  rw [← hfb0] at hfilter
  exact ⟨BuiltCore_set_filter hcore _, hfilter⟩

theorem Built_Add (crc : Crc32c) (port : Port) (options : Options) (gs : List (List Entry))
    (cur : List Entry) (r r1 : TableBuilder) (k v : List Nat)
    (hb : Built crc port options gs cur r) (h : r.Add crc port k v = some r1) :
    Built crc port options gs (cur ++ [(k, v)]) r1 ∨
    Built crc port options (gs ++ [cur ++ [(k, v)]]) [] r1 := by
  rcases Add_some crc port r r1 k v h with ⟨hbad, _⟩ | ⟨_, _, _, r0, r3, h0, h3, h4⟩
  · rw [hb.core.status_eq] at hbad; cases hbad
  · have hb3 := Built_Add_core crc port options gs cur r r0 k v hb h0
    rw [← h3] at hb3
    rcases h4 with ⟨_, hfl⟩ | ⟨_, e⟩
    · right
      have := Built_Flush crc port options gs _ r3 r1 hb3 hfl
      rw [groupsOf_ne gs _ (by simp)] at this
      exact this
    · left
      rw [e]; exact hb3

theorem Built_AddAll (crc : Crc32c) (port : Port) (options : Options) (es : List Entry) :
    ∀ (gs : List (List Entry)) (cur : List Entry) (r r1 : TableBuilder),
      Built crc port options gs cur r → AddAll crc port r es = some r1 →
      ∃ gs1 cur1, Built crc port options gs1 cur1 r1 ∧
        gs1.flatten ++ cur1 = gs.flatten ++ cur ++ es := by
  induction es with
  | nil =>
    intro gs cur r r1 hb h
    simp only [AddAll, Option.some.injEq] at h
    subst h
    exact ⟨gs, cur, hb, by simp⟩
  | cons e rest ih =>
    intro gs cur r r1 hb h
    unfold AddAll at h
    cases ha : r.Add crc port e.1 e.2 with
    | none => simp [ha] at h
    | some r2 =>
      rw [ha] at h
      rcases Built_Add crc port options gs cur r r2 e.1 e.2 hb ha with hb2 | hb2
      · obtain ⟨gs1, cur1, hb1, he⟩ := ih gs _ r2 r1 hb2 h
        exact ⟨gs1, cur1, hb1, by rw [he]; simp⟩
      · obtain ⟨gs1, cur1, hb1, he⟩ := ih _ _ r2 r1 hb2 h
        exact ⟨gs1, cur1, hb1, by rw [he]; simp⟩

end TableBuilder

end leveldb

namespace leveldb

namespace TableBuilder

theorem WriteBlock_eq (crc : Crc32c) (port : Port) (r : TableBuilder) (block : BlockBuilder)
    (hrel : r.file.Reliable) (hok : r.status = Status.OK) :
    ∃ f, f.Reliable ∧
      f.contents = r.file.contents ++ rawImage crc port r.options block.Finish.2 ∧
      WriteBlock crc port r block
        = some ({ r with status := Status.OK, file := f
                         offset := (r.offset + storedLength port r.options block.Finish.2 + 5)
                           % 2 ^ 64
                         compressed_output := [] },
            BlockBuilder.mk0,
            ⟨r.offset, storedLength port r.options block.Finish.2 % 2 ^ 64⟩) := by
  obtain ⟨f, hf1, hf2, hf3⟩ := WriteRawBlock_eq crc r
    (chooseContents port r.options block.Finish.2).1
    (chooseContents port r.options block.Finish.2).2 hrel
  refine ⟨f, hf1, hf2, ?_⟩
  unfold WriteBlock
  simp only [ok, hok, Status_ok_OK, Bool.not_true, Bool.false_eq_true, if_false]
  rw [(WriteRawBlock_fields crc r _ _).2, hf3]
  rfl

theorem FinishFilter_none (crc : Crc32c) (r : TableBuilder) (h : r.filter_block = none) :
    FinishFilter crc r = (r, BlockHandle.mk0) := by
  unfold FinishFilter
  rw [h]

theorem FinishFilter_some (crc : Crc32c) (r : TableBuilder) (policy : FilterPolicy)
    (fb : FilterBlockBuilder) (h : r.filter_block = some (policy, fb))
    (hrel : r.file.Reliable) (hok : r.status = Status.OK) :
    ∃ f, f.Reliable ∧
      f.contents = r.file.contents ++ filterImage crc (some (fb.Finish policy).2) ∧
      FinishFilter crc r
        = ({ r with filter_block := some (policy, (fb.Finish policy).1)
                    status := Status.OK, file := f
                    offset := (r.offset + (fb.Finish policy).2.length + 5) % 2 ^ 64 },
            ⟨r.offset, (fb.Finish policy).2.length % 2 ^ 64⟩) := by
  obtain ⟨f, hf1, hf2, hf3⟩ := WriteRawBlock_eq crc
    { r with filter_block := some (policy, (fb.Finish policy).1) } (fb.Finish policy).2
    CompressionType.kNoCompression hrel
  refine ⟨f, hf1, hf2, ?_⟩
  unfold FinishFilter
  rw [h]
  simp only [ok, hok, Status_ok_OK, if_true]
  rw [Prod.ext_iff]
  exact ⟨hf3, (WriteRawBlock_fields crc _ _ _).2⟩

theorem FinishMetaindex_eq (crc : Crc32c) (port : Port) (r : TableBuilder)
    (fh : BlockHandle) (block : BlockBuilder)
    (hrel : r.file.Reliable) (hok : r.status = Status.OK)
    (hblock : metaIndexBlock r fh = some block) :
    ∃ f, f.Reliable ∧
      f.contents = r.file.contents ++ rawImage crc port r.options block.Finish.2 ∧
      FinishMetaindex crc port r fh
        = some ({ r with status := Status.OK, file := f
                         offset := (r.offset + storedLength port r.options block.Finish.2 + 5)
                           % 2 ^ 64
                         compressed_output := [] },
            ⟨r.offset, storedLength port r.options block.Finish.2 % 2 ^ 64⟩) := by
  obtain ⟨f, hf1, hf2, hf3⟩ := WriteBlock_eq crc port r block hrel hok
  refine ⟨f, hf1, hf2, ?_⟩
  unfold FinishMetaindex
  simp only [ok, hok, Status_ok_OK, if_true]
  rw [hblock]
  simp only [hf3]

theorem FinishIndex_eq (crc : Crc32c) (port : Port) (r : TableBuilder)
    (hrel : r.file.Reliable) (hok : r.status = Status.OK) :
    ∃ f, f.Reliable ∧
      f.contents = r.file.contents
        ++ rawImage crc port r.options (AddLastIndexEntry r).index_block.Finish.2 ∧
      FinishIndex crc port r
        = some ({ AddLastIndexEntry r with
                    status := Status.OK, file := f
                    offset := (r.offset + storedLength port r.options
                      (AddLastIndexEntry r).index_block.Finish.2 + 5) % 2 ^ 64
                    compressed_output := []
                    index_block := BlockBuilder.mk0 },
            ⟨r.offset, storedLength port r.options
              (AddLastIndexEntry r).index_block.Finish.2 % 2 ^ 64⟩) := by
  have e1 : (AddLastIndexEntry r).file = r.file := by
    rcases AddLastIndexEntry_fields r with e | e <;> rw [e]
  have e2 : (AddLastIndexEntry r).status = r.status := by
    rcases AddLastIndexEntry_fields r with e | e <;> rw [e]
  have e3 : (AddLastIndexEntry r).options = r.options := by
    rcases AddLastIndexEntry_fields r with e | e <;> rw [e]
  have e4 : (AddLastIndexEntry r).offset = r.offset := by
    rcases AddLastIndexEntry_fields r with e | e <;> rw [e]
  obtain ⟨f, hf1, hf2, hf3⟩ := WriteBlock_eq crc port (AddLastIndexEntry r)
    (AddLastIndexEntry r).index_block (by rw [e1]; exact hrel) (by rw [e2]; exact hok)
  rw [e1, e3] at hf2
  rw [e3, e4] at hf3
  refine ⟨f, hf1, hf2, ?_⟩
  unfold FinishIndex
  simp only [ok, hok, Status_ok_OK, if_true]
  rw [hf3]
  simp only [e3]

theorem FinishFooter_eq (r : TableBuilder) (mh ih : BlockHandle)
    (hrel : r.file.Reliable) (hok : r.status = Status.OK) :
    (FinishFooter r mh ih).status = Status.OK ∧
    (FinishFooter r mh ih).file.contents = r.file.contents ++ Footer.EncodeTo ⟨mh, ih⟩ := by
  obtain ⟨a1, a2, _⟩ := AppendFile.Append_reliable r.file (Footer.EncodeTo ⟨mh, ih⟩) hrel
  unfold FinishFooter
  simp only [ok, hok, Status_ok_OK, if_true, a1]
  exact ⟨trivial, a2⟩

end TableBuilder

end leveldb

namespace leveldb

namespace TableBuilder

theorem finalIndex_nil (crc : Crc32c) (port : Port) (options : Options) :
    finalIndex crc port options [] = [] := rfl

theorem finalIndex_snoc (crc : Crc32c) (port : Port) (options : Options)
    (G0 : List (List Entry)) (g : List Entry) :
    finalIndex crc port options (G0 ++ [g])
      = indexEntries crc port options 0 (G0 ++ [g])
        ++ [lastIndexEntry port options (dataImage crc port options G0).length g] := by
  unfold finalIndex
  simp

theorem AddLastIndexEntry_index (crc : Crc32c) (port : Port) (options : Options)
    (G : List (List Entry)) (c : List Nat) (r : TableBuilder)
    (hc : Closing crc port options G c r) (hne : ∀ g ∈ G, g ≠ []) :
    (AddLastIndexEntry r).index_block
      = BlockBuilder.addAll (indexOptions options) BlockBuilder.mk0
          (finalIndex crc port options G) := by
  rcases List.eq_nil_or_concat G with h0 | ⟨G0, g, h0⟩
  · subst h0
    unfold AddLastIndexEntry
    rw [hc.pending_eq]
    simp only [ne_eq, not_true_eq_false, decide_False, Bool.false_eq_true, if_false]
    rw [hc.index_eq, finalIndex_nil]
    rfl
  · rw [List.concat_eq_append] at h0
    subst h0
    have hgne : g ≠ [] := hne g (by simp)
    unfold AddLastIndexEntry
    rw [hc.pending_eq]
    simp only [ne_eq, List.append_eq_nil, List.cons_ne_self, and_false, not_false_eq_true,
      decide_True, if_true]
    rw [hc.index_eq, hc.index_options_eq, hc.options_eq, hc.handle_eq G0 g rfl,
      hc.last_key_eq (by simp [hgne]), finalIndex_snoc,
      BlockBuilder.addAll_snoc, List.flatten_append, List.flatten_singleton,
      lastKeyOf_append _ g hgne]
    rfl

theorem Closing_of_Built (crc : Crc32c) (port : Port) (options : Options)
    (G : List (List Entry)) (r : TableBuilder) (hb : BuiltCore crc port options G [] r) :
    Closing crc port options G (dataImage crc port options G) { r with closed := true } := by
  refine ⟨hb.options_eq, hb.index_options_eq, hb.reliable, hb.status_eq, hb.contents_eq,
    hb.offset_eq, ?_, ?_, ?_, ?_⟩
  · show r.index_block = _
    rw [hb.index_eq, groupsOf_nil]
  · show r.pending_index_entry = _
    rw [hb.pending_eq]; simp
  · intro G0 g hg
    exact hb.handle_eq G0 g rfl hg
  · intro hne
    have := hb.last_key_eq (by simpa using hne)
    simpa using this

theorem Closing_filter (crc : Crc32c) (port : Port) (options : Options)
    (G : List (List Entry)) (c : List Nat) (r : TableBuilder) (policy : FilterPolicy)
    (fb : FilterBlockBuilder) (hc : Closing crc port options G c r)
    (hfb : r.filter_block = some (policy, fb)) :
    Closing crc port options G (c ++ filterImage crc (some (fb.Finish policy).2))
      (FinishFilter crc r).1 ∧
    (FinishFilter crc r).2 = ⟨c.length % 2 ^ 64, (fb.Finish policy).2.length % 2 ^ 64⟩ ∧
    (FinishFilter crc r).1.filter_block = some (policy, (fb.Finish policy).1) := by
  obtain ⟨f, hf1, hf2, hf3⟩ := FinishFilter_some crc r policy fb hfb hc.reliable hc.status_eq
  rw [hf3]
  refine ⟨⟨hc.options_eq, hc.index_options_eq, hf1, rfl, ?_, ?_, hc.index_eq, hc.pending_eq,
    hc.handle_eq, hc.last_key_eq⟩, ?_, rfl⟩
  · show f.contents = _
    rw [hf2, hc.contents_eq]
  · show (r.offset + _ + 5) % 2 ^ 64 = _
    rw [hc.offset_eq]
    simp only [filterImage, List.length_append, trailerOf_length]
    omega
  · show (⟨r.offset, _⟩ : BlockHandle) = _
    rw [hc.offset_eq]

theorem Closing_meta (crc : Crc32c) (port : Port) (options : Options)
    (G : List (List Entry)) (c : List Nat) (r : TableBuilder) (fh : BlockHandle)
    (block : BlockBuilder) (hc : Closing crc port options G c r)
    (hblock : metaIndexBlock r fh = some block) :
    ∃ m, FinishMetaindex crc port r fh = some m ∧
      Closing crc port options G (c ++ rawImage crc port options block.Finish.2) m.1 ∧
      m.2 = ⟨c.length % 2 ^ 64, storedLength port options block.Finish.2 % 2 ^ 64⟩ := by
  obtain ⟨f, hf1, hf2, hf3⟩ := FinishMetaindex_eq crc port r fh block hc.reliable
    hc.status_eq hblock
  refine ⟨_, hf3, ⟨hc.options_eq, hc.index_options_eq, hf1, rfl, ?_, ?_, hc.index_eq,
    hc.pending_eq, hc.handle_eq, hc.last_key_eq⟩, ?_⟩
  · show f.contents = _
    rw [hf2, hc.contents_eq, hc.options_eq]
  · show (r.offset + _ + 5) % 2 ^ 64 = _
    rw [hc.offset_eq, hc.options_eq, List.length_append, rawImage_length]
    unfold storedLength
    omega
  · show (⟨r.offset, _⟩ : BlockHandle) = _
    rw [hc.offset_eq, hc.options_eq]

theorem Closing_index (crc : Crc32c) (port : Port) (options : Options)
    (G : List (List Entry)) (c : List Nat) (r : TableBuilder)
    (hc : Closing crc port options G c r) (hne : ∀ g ∈ G, g ≠ []) :
    ∃ i, FinishIndex crc port r = some i ∧ i.1.file.Reliable ∧ i.1.status = Status.OK ∧
      i.1.file.contents = c ++ rawImage crc port options (indexRaw crc port options G) ∧
      i.2 = ⟨c.length % 2 ^ 64,
        storedLength port options (indexRaw crc port options G) % 2 ^ 64⟩ := by
  obtain ⟨f, hf1, hf2, hf3⟩ := FinishIndex_eq crc port r hc.reliable hc.status_eq
  have hidx := AddLastIndexEntry_index crc port options G c r hc hne
  refine ⟨_, hf3, hf1, rfl, ?_, ?_⟩
  · show f.contents = _
    rw [hf2, hc.contents_eq, hc.options_eq, hidx]
    rfl
  · show (⟨r.offset, _⟩ : BlockHandle) = _
    rw [hc.offset_eq, hc.options_eq, hidx]
    rfl

theorem build_nil (options : Options) :
    BlockBuilder.build options [] = BlockBuilder.mk0.Finish.2 := rfl

theorem build_single (options : Options) (k v : List Nat) :
    BlockBuilder.build options [(k, v)] = (BlockBuilder.mk0.Add options k v).Finish.2 := rfl

theorem Finish_Built (crc : Crc32c) (port : Port) (options : Options)
    (gs : List (List Entry)) (cur : List Entry) (r r1 : TableBuilder) (s : Status)
    (hb : Built crc port options gs cur r) (h : r.Finish crc port = some (s, r1)) :
    s = Status.OK ∧
    ∃ fbytes, FilterDone crc port options (groupsOf gs cur) fbytes ∧
      r1.file.contents = tableImage crc port options (groupsOf gs cur) fbytes := by
  unfold Finish at h
  cases hfl : r.Flush crc port with
  | none => rw [hfl] at h; cases h
  | some rf =>
    rw [hfl] at h
    have hbf := Built_Flush crc port options gs cur r rf hb hfl
    generalize groupsOf gs cur = G at hbf ⊢
    have hc := hbf.core
    simp only [hc.closed_eq, Bool.false_eq_true, if_false] at h
    have hfo := hbf.filter_eq
    unfold FilterOk at hfo
    have hcl := Closing_of_Built crc port options G rf hc
    cases hq : options.filter_policy with
    | none =>
      rw [hq] at hfo
      have e1 := FinishFilter_none crc { rf with closed := true } hfo
      rw [e1] at h
      have hblock : metaIndexBlock { rf with closed := true } BlockHandle.mk0
          = some BlockBuilder.mk0 := by
        unfold metaIndexBlock
        rw [show ({ rf with closed := true } : TableBuilder).filter_block = none from hfo]
      obtain ⟨m, hm, hcm, hmh⟩ := Closing_meta crc port options G _ _ _ _ hcl hblock
      rw [hm] at h
      obtain ⟨i, hi, hir, his, hic, hih⟩ := Closing_index crc port options G _ m.1 hcm hc.nonempty
      simp only at h
      rw [hi] at h
      simp only [Option.some.injEq, Prod.mk.injEq] at h
      obtain ⟨hs, hr1⟩ := h
      have hfoot := FinishFooter_eq i.1 m.2 i.2 hir his
      rw [← hs, ← hr1]
      refine ⟨hfoot.1, none, by unfold FilterDone; rw [hq], ?_⟩
      rw [hfoot.2, hic, hmh, hih]
      have hmr : metaRaw crc port options G none = BlockBuilder.mk0.Finish.2 := by
        unfold metaRaw metaEntries
        cases options.filter_policy <;> rfl
      unfold tableImage footerOf indexOffset metaOffset
      rw [hmr]
      simp only [filterImage, List.append_nil, List.length_nil, Nat.add_zero,
        List.length_append]
    | some p =>
      rw [hq] at hfo
      obtain ⟨fb, hfb, hrun⟩ := hfo
      simp only [List.map_nil, List.append_nil] at hrun
      obtain ⟨hcf, hfh, hff⟩ := Closing_filter crc port options G _ { rf with closed := true }
        p fb hcl hfb
      have hblock : metaIndexBlock (FinishFilter crc { rf with closed := true }).1
          (FinishFilter crc { rf with closed := true }).2
          = some (BlockBuilder.mk0.Add options (filterPrefix ++ p.Name)
              (FinishFilter crc { rf with closed := true }).2.EncodeTo) := by
        unfold metaIndexBlock
        rw [hff, hcf.options_eq, hq]
      obtain ⟨m, hm, hcm, hmh⟩ := Closing_meta crc port options G _ _ _ _ hcf hblock
      rw [hm] at h
      obtain ⟨i, hi, hir, his, hic, hih⟩ := Closing_index crc port options G _ m.1 hcm hc.nonempty
      simp only at h
      rw [hi] at h
      simp only [Option.some.injEq, Prod.mk.injEq] at h
      obtain ⟨hs, hr1⟩ := h
      have hfoot := FinishFooter_eq i.1 m.2 i.2 hir his
      rw [← hs, ← hr1]
      refine ⟨hfoot.1, some (fb.Finish p).2, by
        unfold FilterDone; rw [hq]; exact ⟨fb, hrun, rfl⟩, ?_⟩
      rw [hfoot.2, hic, hmh, hih, hfh]
      have hmr : metaRaw crc port options G (some (fb.Finish p).2)
          = (BlockBuilder.mk0.Add options (filterPrefix ++ p.Name)
              (⟨(dataImage crc port options G).length % 2 ^ 64,
                (fb.Finish p).2.length % 2 ^ 64⟩ : BlockHandle).EncodeTo).Finish.2 := by
        unfold metaRaw metaEntries
        rw [hq]
        rfl
      unfold tableImage footerOf indexOffset metaOffset
      rw [hmr]
      simp only [List.length_append]

end TableBuilder

end leveldb

namespace leveldb

theorem EncodeVarint64Loop_length (fuel : Nat) :
    ∀ v, (EncodeVarint64Loop fuel v).length ≤ fuel + 1 := by
  induction fuel with
  | zero => intro v; simp [EncodeVarint64Loop]
  | succ n ih =>
    intro v
    unfold EncodeVarint64Loop
    split
    · simp only [List.length_cons]
      have := ih (v / 128)
      omega
    · simp

theorem EncodeVarint64_length (v : Nat) : (EncodeVarint64 v).length ≤ 10 :=
  EncodeVarint64Loop_length 9 _

theorem BlockHandle_EncodeTo_length (h : BlockHandle) : h.EncodeTo.length ≤ 20 := by
  unfold BlockHandle.EncodeTo
  rw [List.length_append]
  have := EncodeVarint64_length h.offset_
  have := EncodeVarint64_length h.size_
  omega

theorem Footer_EncodeTo_length (f : Footer) : f.EncodeTo.length = 48 := by
  unfold Footer.EncodeTo
  have h1 := BlockHandle_EncodeTo_length f.metaindex_handle_
  have h2 := BlockHandle_EncodeTo_length f.index_handle_
  simp only [List.length_append, List.length_replicate, EncodeFixed32, List.length_cons,
    List.length_nil, BlockHandle.kMaxEncodedLength]
  omega

end leveldb

namespace leveldb

namespace TableBuilder

end TableBuilder

end leveldb

namespace leveldb

namespace Table

theorem bytewiseCompare_self (a : List Nat) : bytewiseCompare a a = 0 := by
  have := bytewiseCompare_neg a a
  omega

end Table

end leveldb

namespace leveldb

theorem CmpLawful_le_lt {K : Type} {cmp : K → K → Int} (h : CmpLawful cmp) (a b c : K)
    (hab : cmp a b ≤ 0) (hbc : cmp b c < 0) : cmp a c < 0 :=
  CmpLawful_lt_of_not_lt_of_lt h a b c (by have := h.antisymm b a; omega) hbc

theorem CmpLawful_lt_le {K : Type} {cmp : K → K → Int} (h : CmpLawful cmp) (a b c : K)
    (hab : cmp a b < 0) (hbc : cmp b c ≤ 0) : cmp a c < 0 :=
  CmpLawful_lt_of_lt_of_not_lt h a b c hab (by have := h.antisymm c b; omega)

theorem CmpLawful_le_le {K : Type} {cmp : K → K → Int} (h : CmpLawful cmp) (a b c : K)
    (hab : cmp a b ≤ 0) (hbc : cmp b c ≤ 0) : cmp a c ≤ 0 := by
  by_cases h1 : cmp a b < 0
  · have := CmpLawful_lt_le h a b c h1 hbc
    omega
  · have h0 : cmp a b = 0 := by omega
    by_contra hcon
    have hpos : cmp a c > 0 := by omega
    have h2 : cmp c a < 0 := (h.antisymm c a).mpr hpos
    have h3 : cmp c b < 0 := (h.eq_right a b c h0).mp h2
    have h4 := (h.antisymm c b).mp h3
    omega

namespace TableBuilder

theorem finalIndexFrom_eq (crc : Crc32c) (port : Port) (options : Options) :
    ∀ (G : List (List Entry)) (off : Nat),
      finalIndexFrom crc port options off G
        = indexEntries crc port options off G
          ++ (match G.getLast? with
              | some g => [lastIndexEntry port options
                  (off + (dataImage crc port options G.dropLast).length) g]
              | none => []) := by
  intro G
  induction G with
  | nil => intro off; rfl
  | cons g rest ih =>
    intro off
    cases rest with
    | nil => simp [finalIndexFrom, indexEntries, dataImage]
    | cons g' rest2 =>
      have := ih (off + (rawImage crc port options (BlockBuilder.build options g)).length)
      rw [finalIndexFrom, this, indexEntries_cons crc port options off g (g' :: rest2)]
      simp [dataImage, List.getLast?_cons_cons, Nat.add_assoc]

theorem finalIndex_eq (crc : Crc32c) (port : Port) (options : Options)
    (G : List (List Entry)) :
    finalIndex crc port options G = finalIndexFrom crc port options 0 G := by
  rw [finalIndexFrom_eq]
  unfold finalIndex
  cases G.getLast? <;> simp

theorem mem_lastKeyOf (g : List Entry) (h : g ≠ []) : ∃ e ∈ g, e.1 = lastKeyOf g := by
  rcases List.eq_nil_or_concat g with h0 | ⟨g0, e, h0⟩
  · exact absurd h0 h
  · subst h0
    refine ⟨e, by simp, ?_⟩
    rw [List.concat_eq_append, lastKeyOf_snoc]

theorem mem_firstKeyOf (g : List Entry) (h : g ≠ []) : ∃ e ∈ g, e.1 = firstKeyOf g := by
  cases g with
  | nil => exact absurd rfl h
  | cons e rest => exact ⟨e, by simp, rfl⟩

theorem firstKeyOf_le {cmp : List Nat → List Nat → Int} (hl : CmpLawful cmp) (g : List Entry)
    (hs : g.Pairwise (fun a b => cmp a.1 b.1 < 0)) :
    ∀ e ∈ g, cmp (firstKeyOf g) e.1 ≤ 0 := by
  intro e he
  cases g with
  | nil => cases he
  | cons a rest =>
    show cmp a.1 e.1 ≤ 0
    rcases List.mem_cons.mp he with h1 | h1
    · subst h1
      rw [CmpLawful_refl hl]
    · have := (List.pairwise_cons.mp hs).1 e h1
      omega


theorem finalIndexFrom_cons (crc : Crc32c) (port : Port) (options : Options) (off : Nat)
    (g : List Entry) (rest : List (List Entry)) :
    finalIndexFrom crc port options off (g :: rest)
      = (match rest.head? with
          | some g' =>
            (options.comparator.FindShortestSeparator (lastKeyOf g) (firstKeyOf g'),
              (handleAt port options off g).EncodeTo)
          | none => lastIndexEntry port options off g)
        :: finalIndexFrom crc port options
            (off + (rawImage crc port options (BlockBuilder.build options g)).length) rest :=
  rfl

end TableBuilder

end leveldb

namespace leveldb

namespace TableBuilder

end TableBuilder

end leveldb

namespace leveldb

namespace TableBuilder

end TableBuilder

end leveldb

namespace leveldb

namespace Table

end Table

end leveldb

namespace leveldb

theorem bytewiseSeparator_spec :
    ∀ (start limit : List Nat), bytewiseCompare start limit < 0 →
      bytewiseCompare start (bytewiseSeparator start limit) ≤ 0 ∧
      bytewiseCompare (bytewiseSeparator start limit) limit < 0 := by
  intro start
  induction start with
  | nil =>
    intro limit h
    cases limit with
    | nil => simp [bytewiseCompare] at h
    | cons b bs => simp [bytewiseSeparator, bytewiseCompare]
  | cons a as ih =>
    intro limit h
    cases limit with
    | nil => simp [bytewiseCompare] at h
    | cons b bs =>
      unfold bytewiseSeparator
      by_cases hab : a = b
      · subst hab
        rw [if_pos rfl]
        simp only [bytewiseCompare, lt_self_iff_false, if_false] at h ⊢
        exact ih bs h
      · rw [if_neg hab]
        have hlt : a < b := by
          simp only [bytewiseCompare] at h
          by_contra hcon
          rw [if_neg hcon, if_pos (by omega)] at h
          omega
        by_cases hc : a < 255 ∧ a + 1 < b
        · rw [if_pos hc]
          constructor
          · simp [bytewiseCompare]
          · simp [bytewiseCompare, hc.2]
        · rw [if_neg hc]
          exact ⟨by rw [Table.bytewiseCompare_self], h⟩

theorem bytewiseSeparator_length :
    ∀ (start limit : List Nat), (bytewiseSeparator start limit).length ≤ start.length := by
  intro start
  induction start with
  | nil => intro limit; cases limit <;> simp [bytewiseSeparator]
  | cons a as ih =>
    intro limit
    cases limit with
    | nil => simp [bytewiseSeparator]
    | cons b bs =>
      unfold bytewiseSeparator
      split
      · simp only [List.length_cons]
        have := ih bs
        omega
      · split <;> simp

theorem bytewiseSuccessor_spec :
    ∀ (key : List Nat), bytewiseCompare key (bytewiseSuccessor key) ≤ 0 ∧
      (bytewiseSuccessor key).length ≤ key.length := by
  intro key
  induction key with
  | nil => simp [bytewiseSuccessor, bytewiseCompare]
  | cons a as ih =>
    unfold bytewiseSuccessor
    split
    · simp only [bytewiseCompare, lt_self_iff_false, if_false, List.length_cons]
      exact ⟨ih.1, by omega⟩
    · simp [bytewiseCompare]

theorem sampleComparator_lawful : sampleComparator.Lawful where
  cmp := bytewiseCompare_lawful
  separator := bytewiseSeparator_spec
  successor := fun key => (bytewiseSuccessor_spec key).1
  separator_length := bytewiseSeparator_length
  successor_length := fun key => (bytewiseSuccessor_spec key).2

end leveldb

namespace leveldb

namespace BlockBuilder

end BlockBuilder

end leveldb

namespace leveldb

namespace Table

set_option maxRecDepth 100000

end Table

end leveldb

namespace leveldb

namespace Table

set_option maxRecDepth 100000

end Table

end leveldb

namespace leveldb
namespace log

/-- The loop of `AddRecord` returns: `slice.length + 1` iterations are enough, whether
the file operations succeed or not. -/
theorem addRecordLoop_returns (crc : Crc32c) :
    ∀ (fuel : Nat) (w : Writer) (left : List Nat) (begin : Bool),
      w.block_offset_ ≤ kBlockSize →
      (left.length + 1 ≤ fuel ∨
        (w.block_offset_ = kBlockSize ∧ 0 < left.length ∧ left.length ≤ fuel)) →
      ∃ res, Writer.AddRecordLoop crc fuel w left begin = some res := by
  intro fuel
  induction fuel with
  | zero =>
    intro w left begin _ hf
    rcases hf with hf | ⟨_, h1, h2⟩ <;> omega
  | succ fuel ih =>
    intro w left begin hw hf
    rw [Writer.AddRecordLoop]
    simp only []
    generalize hw1 : (if kBlockSize - w.block_offset_ < kHeaderSize then
        ({ w with
           dest_ := if kBlockSize - w.block_offset_ > 0 then
               (w.dest_.Append ((List.replicate 6 0).take (kBlockSize - w.block_offset_))).2
             else w.dest_
           block_offset_ := 0 } : Writer)
      else w) = w1
    have hb1 : w1.block_offset_ + kHeaderSize ≤ kBlockSize ∧
        (w.block_offset_ = kBlockSize → w1.block_offset_ = 0) := by
      rw [← hw1]
      by_cases h7 : kBlockSize - w.block_offset_ < kHeaderSize
      · rw [if_pos h7]
        simp [kHeaderSize, kBlockSize]
      · rw [if_neg h7]
        simp only [kHeaderSize, kBlockSize] at h7 ⊢
        omega
    generalize hfl : (if left.length < kBlockSize - w1.block_offset_ - kHeaderSize then left.length
        else kBlockSize - w1.block_offset_ - kHeaderSize) = fl
    generalize (if (begin && (left.length == fl)) = true then kFullType
        else if begin = true then kFirstType
        else if (left.length == fl) = true then kLastType else kMiddleType) = t
    by_cases hcont : ((w1.EmitPhysicalRecord crc t (left.take fl)).1.ok
        && decide ((left.drop fl).length > 0)) = true
    · rw [if_pos hcont]
      have hd : 0 < (left.drop fl).length := by
        simp only [Bool.and_eq_true, decide_eq_true_eq] at hcont
        exact hcont.2
      rw [List.length_drop] at hd
      have hfl2 : fl = kBlockSize - w1.block_offset_ - kHeaderSize := by
        rw [← hfl] at hd ⊢
        split
        · next h => rw [if_pos h] at hd; omega
        · rfl
      apply ih
      · rw [emit_block_offset, List.length_take]
        omega
      · right
        refine ⟨?_, ?_, ?_⟩
        · rw [emit_block_offset, List.length_take]
          omega
        · rw [List.length_drop]; exact hd
        · rw [List.length_drop]
          rcases hf with hf | ⟨h1, h2, h3⟩
          · omega
          · have := hb1.2 h1
            simp only [kBlockSize, kHeaderSize] at hfl2 this
            omega
    · rw [if_neg hcont]
      exact ⟨_, rfl⟩

/-- A record that fits into what is left of the current block is written as one
physical record, and `block_offset_` advances by the header and the payload. -/
theorem addRecord_fits (crc : Crc32c) (w : Writer) (slice : List Nat)
    (h : w.block_offset_ + kHeaderSize + slice.length ≤ kBlockSize) :
    ∃ res, w.AddRecord crc slice = some res ∧
      res.2.block_offset_ = w.block_offset_ + kHeaderSize + slice.length := by
  unfold Writer.AddRecord
  rw [Writer.AddRecordLoop]
  simp only []
  have h7 : ¬ kBlockSize - w.block_offset_ < kHeaderSize := by omega
  simp only [if_neg h7]
  have hfl : (if slice.length < kBlockSize - w.block_offset_ - kHeaderSize then slice.length
      else kBlockSize - w.block_offset_ - kHeaderSize) = slice.length := by
    split <;> omega
  rw [hfl]
  simp only [List.drop_length, List.length_nil, gt_iff_lt, Nat.lt_irrefl, decide_False,
    Bool.and_false, Bool.false_eq_true, if_false, List.take_length]
  exact ⟨_, rfl, emit_block_offset crc w _ slice⟩

/-- C29, counterexample: a new writer that is given a record of 32761 bytes writes one
`FULL` record that fills the first block, and `block_offset_` is then `kBlockSize`,
which is not below `kBlockSize`. -/
theorem C29_writer_cursor_counterexample :
    ((Writer.mk0 sampleCrc ⟨[], true⟩).AddRecord sampleCrc (List.replicate 32761 0)).map
      (fun res => res.2.block_offset_) = some kBlockSize ∧
    ¬ kBlockSize < kBlockSize := by
  refine ⟨?_, Nat.lt_irrefl _⟩
  have hlen : (List.replicate 32761 0).length = 32761 := List.length_replicate _ _
  generalize List.replicate 32761 0 = P at hlen ⊢
  obtain ⟨res, h1, h2⟩ := addRecord_fits sampleCrc (Writer.mk0 sampleCrc ⟨[], true⟩) P
    (by rw [hlen]; decide)
  rw [h1, Option.map_some', h2, hlen]
  rfl

/-- C29, amended: in every state of a writer, after construction and after every
`AddRecord` call, `0 <= block_offset_ <= kBlockSize` (the value `kBlockSize` is taken when
a record ends at the end of a block), and every `AddRecord` call returns. -/
theorem C29_writer_cursor (crc : Crc32c) (w : Writer) (h : Writer.Reachable crc w) :
    0 ≤ w.block_offset_ ∧ w.block_offset_ ≤ kBlockSize ∧
    ∀ slice, ∃ s w1, w.AddRecord crc slice = some (s, w1) ∧ w1.block_offset_ ≤ kBlockSize := by
  have hle : w.block_offset_ ≤ kBlockSize := by
    induction h with
    | mk0 dest => simp [Writer.mk0, kBlockSize]
    | mkAt dest dest_length =>
      show dest_length % kBlockSize ≤ kBlockSize
      exact Nat.le_of_lt (Nat.mod_lt _ (by simp [kBlockSize]))
    | addRecord w0 slice s w1 _ hadd ih =>
      exact (addRecordLoop_calls crc _ w0 slice true ih).2 (s, w1) hadd
  refine ⟨Nat.zero_le _, hle, ?_⟩
  intro slice
  obtain ⟨res, hres⟩ := addRecordLoop_returns crc (slice.length + 1) w slice true hle
    (Or.inl (Nat.le_refl _))
  exact ⟨res.1, res.2, hres, (addRecordLoop_calls crc _ w slice true hle).2 res hres⟩

/-- C29 amended, an instance: the writer after the record `"a"` is a state of the writer,
with `block_offset_ = 8`. -/
theorem C29_writer_cursor_witness :
    Writer.Reachable sampleCrc
      (((Writer.mk0 sampleCrc ⟨[], true⟩).AddRecord sampleCrc [97]).getD
        (Status.OK, Writer.mk0 sampleCrc ⟨[], true⟩)).2 ∧
    (((Writer.mk0 sampleCrc ⟨[], true⟩).AddRecord sampleCrc [97]).getD
        (Status.OK, Writer.mk0 sampleCrc ⟨[], true⟩)).2.block_offset_ = 8 ∧
    (0 ≤ (((Writer.mk0 sampleCrc ⟨[], true⟩).AddRecord sampleCrc [97]).getD
        (Status.OK, Writer.mk0 sampleCrc ⟨[], true⟩)).2.block_offset_ ∧
     (((Writer.mk0 sampleCrc ⟨[], true⟩).AddRecord sampleCrc [97]).getD
        (Status.OK, Writer.mk0 sampleCrc ⟨[], true⟩)).2.block_offset_ ≤ kBlockSize ∧
     ∀ slice, ∃ s w1,
      (((Writer.mk0 sampleCrc ⟨[], true⟩).AddRecord sampleCrc [97]).getD
        (Status.OK, Writer.mk0 sampleCrc ⟨[], true⟩)).2.AddRecord sampleCrc slice
          = some (s, w1) ∧ w1.block_offset_ ≤ kBlockSize) :=
  ⟨Writer.Reachable.addRecord (Writer.mk0 sampleCrc ⟨[], true⟩) [97] Status.OK _
      (Writer.Reachable.mk0 _) (by decide),
    by decide,
    C29_writer_cursor sampleCrc _
      (Writer.Reachable.addRecord (Writer.mk0 sampleCrc ⟨[], true⟩) [97] Status.OK _
        (Writer.Reachable.mk0 _) (by decide))⟩

end log
end leveldb

namespace leveldb
namespace log

/-- The block that `SkipToInitialBlock` selects. For every `initial_offset` and a file whose
operations succeed, `SkipToInitialBlock` returns true and leaves the file at the block
start `B` (with `end_of_buffer_offset_ = B`), where `B` is the start of the block
containing `initial_offset`, except that when the offset within the block is greater than
`kBlockSize - 6` (the last 5 bytes of the block) `B` is the start of the next block, in
64-bit arithmetic; the first `ReadRecord` runs its loop from that state. -/
theorem SkipToInitialBlock_start (crc : Crc32c) (data : List Nat)
    (reporter : Option (List (Nat × Status))) (checksum : Bool) (initial_offset : Nat)
    (h64 : initial_offset < 2 ^ 64) :
    ∃ B, (if initial_offset % kBlockSize > kBlockSize - 6
          then B = (initial_offset - initial_offset % kBlockSize + kBlockSize) % 2 ^ 64
          else B = initial_offset - initial_offset % kBlockSize) ∧
      (Reader.mk0 ⟨data, true⟩ reporter checksum initial_offset).SkipToInitialBlock
        = (true, { Reader.mk0 ⟨data, true⟩ reporter checksum initial_offset with
                   file_ := ⟨data.drop B, true⟩, end_of_buffer_offset_ := B }) ∧
      (Reader.mk0 ⟨data, true⟩ reporter checksum initial_offset).ReadRecord crc
        = Reader.ReadRecordLoop crc ((data.drop B).length + 1)
            { Reader.mk0 ⟨data, true⟩ reporter checksum initial_offset with
              file_ := ⟨data.drop B, true⟩, end_of_buffer_offset_ := B } [] false 0 [] := by
  refine ⟨initialBlockStart initial_offset, ?_, ?_, readRecord_fresh crc data reporter checksum
    initial_offset h64⟩
  · unfold initialBlockStart add64
    split <;> rfl
  · unfold Reader.SkipToInitialBlock
    simp only [Reader.mk0, SequentialFile.Skip, Status.ok, if_true]
    by_cases hb : initialBlockStart initial_offset > 0
    · have hb' : (if initial_offset % kBlockSize > kBlockSize - 6 then
          add64 (initial_offset - initial_offset % kBlockSize) kBlockSize
          else initial_offset - initial_offset % kBlockSize) > 0 := hb
      simp only [if_pos hb']
      simp [initialBlockStart]
    · have hb' : ¬ (if initial_offset % kBlockSize > kBlockSize - 6 then
          add64 (initial_offset - initial_offset % kBlockSize) kBlockSize
          else initial_offset - initial_offset % kBlockSize) > 0 := hb
      have hz : initialBlockStart initial_offset = 0 := by omega
      simp only [if_neg hb']
      have hz' : (if initial_offset % kBlockSize > kBlockSize - 6 then
          add64 (initial_offset - initial_offset % kBlockSize) kBlockSize
          else initial_offset - initial_offset % kBlockSize) = 0 := hz
      simp [hz, hz']

/-- An instance of `SkipToInitialBlock_start`: `initial_offset = 32763` lies in the last 5 bytes of block
0, and the file is left at the start of block 1. -/
theorem SkipToInitialBlock_start_example :
    32763 < 2 ^ 64 ∧
    ∃ B, (if 32763 % kBlockSize > kBlockSize - 6
          then B = (32763 - 32763 % kBlockSize + kBlockSize) % 2 ^ 64
          else B = 32763 - 32763 % kBlockSize) ∧
      (Reader.mk0 ⟨[1, 2, 3], true⟩ (some []) true 32763).SkipToInitialBlock
        = (true, { Reader.mk0 ⟨[1, 2, 3], true⟩ (some []) true 32763 with
                   file_ := ⟨([1, 2, 3] : List Nat).drop B, true⟩,
                   end_of_buffer_offset_ := B }) ∧
      (Reader.mk0 ⟨[1, 2, 3], true⟩ (some []) true 32763).ReadRecord sampleCrc
        = Reader.ReadRecordLoop sampleCrc ((([1, 2, 3] : List Nat).drop B).length + 1)
            { Reader.mk0 ⟨[1, 2, 3], true⟩ (some []) true 32763 with
              file_ := ⟨([1, 2, 3] : List Nat).drop B, true⟩,
              end_of_buffer_offset_ := B } [] false 0 [] :=
  ⟨by decide, SkipToInitialBlock_start sampleCrc [1, 2, 3] (some []) true 32763 (by decide)⟩

/-- C30: initial block selection, evaluated at `initial_offset = 32762`, whose offset
within its block is `kBlockSize - 6`, the first of the last 6 bytes of the block:
`SkipToInitialBlock` leaves the file at the start of block 0 (the test
`offset_in_block > kBlockSize - 6` fails and `Skip` is not called), not at the start of
the next block. -/
theorem C30_initial_block_failing_input :
    32762 % kBlockSize ≥ kBlockSize - 6 ∧
    (Reader.mk0 ⟨[1, 2, 3], true⟩ (some []) true 32762).SkipToInitialBlock
      = (true, { Reader.mk0 ⟨[1, 2, 3], true⟩ (some []) true 32762 with
                 file_ := ⟨[1, 2, 3], true⟩, end_of_buffer_offset_ := 0 }) ∧
    ([1, 2, 3] : List Nat).drop 32768 ≠ [1, 2, 3] := by
  decide

end log
end leveldb

namespace leveldb

namespace Table

set_option maxRecDepth 100000

/-- C27: the filter short-circuit of a point get. When the table has a filter, the index
iterator is valid after `Seek(k)`, its value decodes to a block handle and
`KeyMayMatch(handle.offset(), k)` is false, `InternalGet` returns the status of the index
iterator, invokes the handler not at all, and leaves the table with its file unchanged
(no `Read` call is made, so no data block is read); and in every case the handler is
invoked at most once. -/
theorem C27_filter_short_circuit (crc : Crc32c) (port : Port) (seek : BlockSeek) (t : Table)
    (options : ReadOptions) (k : List Nat) (policy : FilterPolicy)
    (filter : FilterBlockReader)
    (hf : t.filter = some (policy, filter))
    (hv : (seek t.options.comparator.Compare t.index_block k).valid = true)
    (hd : (BlockHandle.DecodeFrom
      (seek t.options.comparator.Compare t.index_block k).value).1.ok = true)
    (hk : filter.KeyMayMatch policy (BlockHandle.DecodeFrom
      (seek t.options.comparator.Compare t.index_block k).value).2.1.offset_ k = false) :
    InternalGet crc port seek t options k
      = ((seek t.options.comparator.Compare t.index_block k).status, [], t) ∧
    (InternalGet crc port seek t options k).2.2.file.reads = t.file.reads ∧
    ∀ (t1 : Table) (options1 : ReadOptions) (k1 : List Nat),
      (InternalGet crc port seek t1 options1 k1).2.1.length ≤ 1 := by
  have hx : filterExcludes t (seek t.options.comparator.Compare t.index_block k).value k
      = true := by
    unfold filterExcludes
    rw [hf]
    simp only [hd, hk, Bool.not_false, Bool.and_self]
  have h1 : InternalGet crc port seek t options k
      = ((seek t.options.comparator.Compare t.index_block k).status, [], t) := by
    unfold InternalGet
    simp only [hv, hx, if_true, Status.ok]
  refine ⟨h1, by rw [h1], ?_⟩
  intro t1 options1 k1
  unfold InternalGet
  simp only
  split
  · split
    · simp
    · simp only
      split <;> simp
  · simp

/-- C27, an instance: in the sample table with the sample filter policy the index seek
for `d` lands on the last block, the filter (the first bytes `a`, `b`, `c` of the keys)
excludes `d`, and the get reads nothing and delivers nothing. -/
theorem C27_filter_short_circuit_witness :
    (sampleTable.InternalGet sampleCrc samplePort linearBlockSeek ReadOptions.mk0 [100]).1
      = Status.OK ∧
    (InternalGet sampleCrc samplePort linearBlockSeek sampleTable ReadOptions.mk0 [100]
      = ((linearBlockSeek sampleTable.options.comparator.Compare sampleTable.index_block
          [100]).status, [], sampleTable) ∧
    (InternalGet sampleCrc samplePort linearBlockSeek sampleTable ReadOptions.mk0
      [100]).2.2.file.reads = sampleTable.file.reads ∧
    ∀ (t1 : Table) (options1 : ReadOptions) (k1 : List Nat),
      (InternalGet sampleCrc samplePort linearBlockSeek t1 options1 k1).2.1.length ≤ 1) :=
  ⟨by decide,
    C27_filter_short_circuit sampleCrc samplePort linearBlockSeek sampleTable ReadOptions.mk0
      [100] sampleFilterPolicy
      ⟨[97, 98, 99, 0, 0, 0, 0, 3, 0, 0, 0, 11], 3, 1, 11⟩ (by rfl) (by decide) (by decide)
      (by decide)⟩

end Table

end leveldb

namespace leveldb
namespace FilterBlockReader

/-- C28, counterexample to "for every filter policy": with a policy whose `KeyMayMatch`
accepts the empty filter, the filter block of the calls `StartBlock(2048)`, `Finish()`
holds one filter that received no key (`start == limit == 0` in the offset array), and
`KeyMayMatch(0, "a")` returns true: the test `start <= limit && limit <= offset_ - data_`
comes first and hands the empty filter to the policy. -/
theorem C28_empty_filter_counterexample :
    (FilterBlockBuilder.mk0.StartBlock permissivePolicy 2048).map
      (fun b => (b.Finish permissivePolicy).2) = some [0, 0, 0, 0, 0, 0, 0, 0, 11] ∧
    DecodeFixed32 ((mk0 [0, 0, 0, 0, 0, 0, 0, 0, 11]).data_.drop
      ((mk0 [0, 0, 0, 0, 0, 0, 0, 0, 11]).offset_ + 0 * 4))
      = DecodeFixed32 ((mk0 [0, 0, 0, 0, 0, 0, 0, 0, 11]).data_.drop
        ((mk0 [0, 0, 0, 0, 0, 0, 0, 0, 11]).offset_ + 0 * 4 + 4)) ∧
    (mk0 [0, 0, 0, 0, 0, 0, 0, 0, 11]).KeyMayMatch permissivePolicy 0 [97] = true := by
  decide

/-- C28, amended: empty filters. For every filter block reader, every policy, every key
and every block offset whose index is below `num_`, with `start` and `limit` the two
words read from the offset array: when `start == limit`, `KeyMayMatch` returns what the
policy answers for the key on the empty filter if `limit` is not beyond the start of
the offset array, and false otherwise; so for every policy that matches no key against
the empty filter it returns false. -/
theorem C28_empty_filter (policy : FilterPolicy) (r : FilterBlockReader) (block_offset : Nat)
    (key : List Nat) (index start limit : Nat)
    (hindex : index = (block_offset % 2 ^ 64) >>> (r.base_lg_ % 64))
    (hidx : index < r.num_)
    (hstart : start = DecodeFixed32 (r.data_.drop (r.offset_ + index * 4)))
    (hlimit : limit = DecodeFixed32 (r.data_.drop (r.offset_ + index * 4 + 4)))
    (heq : start = limit) :
    r.KeyMayMatch policy block_offset key
      = (if limit ≤ r.offset_ then policy.KeyMayMatch key [] else false) ∧
    ((∀ k, policy.KeyMayMatch k [] = false) →
      r.KeyMayMatch policy block_offset key = false) := by
  have hmain : r.KeyMayMatch policy block_offset key
      = (if limit ≤ r.offset_ then policy.KeyMayMatch key [] else false) := by
    unfold KeyMayMatch
    simp only [← hindex, if_pos hidx, ← hstart, ← hlimit]
    by_cases hl : limit ≤ r.offset_
    · rw [if_pos ⟨Nat.le_of_eq heq, hl⟩, if_pos hl, heq, Nat.sub_self, List.take_zero]
    · rw [if_neg (fun h => hl h.2), if_pos heq, if_neg hl]
  refine ⟨hmain, fun hp => ?_⟩
  rw [hmain]
  split
  · exact hp key
  · rfl

/-- C28 amended, an instance: on the filter block of the calls `StartBlock(2048)`,
`Finish()`, whose one filter received no key, `KeyMayMatch(0, "a")` returns false with
a policy that accepts a key on non-empty filters only. -/
theorem C28_empty_filter_witness :
    (0 = (0 % 2 ^ 64) >>> ((mk0 [0, 0, 0, 0, 0, 0, 0, 0, 11]).base_lg_ % 64) ∧
      0 < (mk0 [0, 0, 0, 0, 0, 0, 0, 0, 11]).num_ ∧
      0 = DecodeFixed32 ((mk0 [0, 0, 0, 0, 0, 0, 0, 0, 11]).data_.drop
        ((mk0 [0, 0, 0, 0, 0, 0, 0, 0, 11]).offset_ + 0 * 4)) ∧
      0 = DecodeFixed32 ((mk0 [0, 0, 0, 0, 0, 0, 0, 0, 11]).data_.drop
        ((mk0 [0, 0, 0, 0, 0, 0, 0, 0, 11]).offset_ + 0 * 4 + 4))) ∧
    (mk0 [0, 0, 0, 0, 0, 0, 0, 0, 11]).KeyMayMatch
      ⟨[], fun _ => [], fun _ filter => !filter.isEmpty⟩ 0 [97] = false :=
  ⟨by decide,
    (C28_empty_filter ⟨[], fun _ => [], fun _ filter => !filter.isEmpty⟩
      (mk0 [0, 0, 0, 0, 0, 0, 0, 0, 11]) 0 [97] 0 0 0 (by decide) (by decide) (by decide)
      (by decide) rfl).2 (fun _ => rfl)⟩

end FilterBlockReader
end leveldb

namespace leveldb

namespace TableBuilder

/-- The handle stored by `WriteRawBlock`. -/
theorem WriteRawBlock_handle (crc : Crc32c) (r : TableBuilder) (c : List Nat)
    (t : CompressionType) :
    (WriteRawBlock crc r c t).2 = ⟨r.offset, c.length % 2 ^ 64⟩ := by
  unfold WriteRawBlock
  simp only
  split
  · split <;> rfl
  · rfl

/-- C25: block handles locate their blocks. Part one: in a builder whose file operations
succeed and whose `offset` is the number of bytes it has appended to the file (the file
held `n0` bytes before), `WriteRawBlock(contents, type, handle)` sets the handle to
`(offset, |contents|)`, appends `contents` and the 5-byte trailer
`type || fixed32_le(mask(crc32c(contents || type)))`, advances `offset` by
`|contents| + 5`, keeps the status ok and the relation of `offset` to the file; the bytes
appended to the file at `[handle.offset, handle.offset + handle.size)` are `contents`.
Part two: that relation holds in every builder reached by calls from the constructor
over a file whose operations succeed, while the file is below 2^64 bytes. -/
theorem C25_block_handle (crc : Crc32c) (hc : crc.Lawful) (port : Port) :
    (∀ (r : TableBuilder) (contents : List Nat) (type : CompressionType) (n0 : Nat),
      r.file.Reliable → r.file.contents.length = n0 + r.offset →
      r.offset + contents.length + 5 < 2 ^ 64 →
      (WriteRawBlock crc r contents type).2 = ⟨r.offset, contents.length⟩ ∧
      (WriteRawBlock crc r contents type).1.file.contents
        = r.file.contents ++ contents
          ++ (type.toNat :: EncodeFixed32 (crc.Mask (crc.Value (contents ++ [type.toNat])))) ∧
      (WriteRawBlock crc r contents type).1.offset = r.offset + contents.length + 5 ∧
      (WriteRawBlock crc r contents type).1.status = Status.OK ∧
      (WriteRawBlock crc r contents type).1.file.Reliable ∧
      (WriteRawBlock crc r contents type).1.file.contents.length
        = n0 + (WriteRawBlock crc r contents type).1.offset ∧
      (((WriteRawBlock crc r contents type).1.file.contents.drop
          (n0 + (WriteRawBlock crc r contents type).2.offset_)).take
        (WriteRawBlock crc r contents type).2.size_) = contents) ∧
    (∀ (options : Options) (f0 : AppendFile) (ops : List Op) (b r : TableBuilder),
      f0.Reliable → mk0 options f0 = some b → run crc port b ops = some r →
      r.file.contents.length < f0.contents.length + 2 ^ 64 →
      r.file.Reliable ∧ r.status = Status.OK ∧
      r.file.contents.length = f0.contents.length + r.offset) := by
  constructor
  · intro r contents type n0 hrel hoff h64
    obtain ⟨h1, h2, h3, h4⟩ := WriteRawBlock_reliable crc r contents type hrel
    have h5 : (WriteRawBlock crc r contents type).1.offset = r.offset + contents.length + 5 := by
      rw [h4]
      exact Nat.mod_eq_of_lt h64
    have h6 := WriteRawBlock_handle crc r contents type
    have hsz : contents.length % 2 ^ 64 = contents.length := Nat.mod_eq_of_lt (by omega)
    rw [hsz] at h6
    refine ⟨h6, ?_, h5, h1, h2, ?_, ?_⟩
    · rw [h3, hc.extend_value]
    · rw [h3, h5]
      simp only [List.length_append, List.length_cons, FilterBlockBuilder.EncodeFixed32_length]
      omega
    · rw [h6, h3]
      simp only
      rw [← hoff, List.append_assoc, List.drop_left, List.take_left]
  · intro options f0 ops b r hf hb hr hlt
    have g0 := (mk0_good options f0 b hb hf).1
    have g1 := (run_good crc port f0.contents ops b r hr g0).1
    obtain ⟨out, ho, hoff⟩ := g1.sized
    have hol : out.length < 2 ^ 64 := by
      rw [ho, List.length_append] at hlt
      omega
    refine ⟨g1.reliable, g1.status_eq, ?_⟩
    rw [ho, hoff, Nat.mod_eq_of_lt hol, List.length_append]

/-- C25, an instance: the first block of a new builder, with the contents `abc`, gets the
handle `(0, 3)`, the file then holds the three bytes and their trailer, and `offset` is 8. -/
theorem C25_block_handle_witness :
    (WriteRawBlock sampleCrc (Rep (sampleOptions 1) ⟨[], []⟩) [97, 98, 99]
      CompressionType.kNoCompression).2 = ⟨0, 3⟩ ∧
    (WriteRawBlock sampleCrc (Rep (sampleOptions 1) ⟨[], []⟩) [97, 98, 99]
      CompressionType.kNoCompression).1.file.contents
      = [97, 98, 99] ++ (0 :: EncodeFixed32 (sampleCrc.Mask (sampleCrc.Value [97, 98, 99, 0]))) ∧
    (WriteRawBlock sampleCrc (Rep (sampleOptions 1) ⟨[], []⟩) [97, 98, 99]
      CompressionType.kNoCompression).1.offset = 8 :=
  have h := (C25_block_handle sampleCrc sampleCrc_lawful samplePort).1
    (Rep (sampleOptions 1) ⟨[], []⟩) [97, 98, 99] CompressionType.kNoCompression 0
    (fun _ hx => by cases hx) rfl (by decide)
  ⟨h.1, h.2.1, h.2.2.1⟩

end TableBuilder

end leveldb

namespace leveldb

namespace FilterBlockBuilder

theorem encodeWords_flatten (ws : List Nat) :
    encodeWords ws = (ws.map EncodeFixed32).flatten := by
  induction ws with
  | nil => rfl
  | cons a rest ih => simp [encodeWords, ih]

theorem flatten_map_encode_length (ws : List Nat) :
    ((ws.map EncodeFixed32).flatten).length = 4 * ws.length := by
  rw [← encodeWords_flatten, encodeWords_length]

end FilterBlockBuilder

end leveldb

namespace leveldb

namespace TableBuilder

theorem finalIndexFrom_length (crc : Crc32c) (port : Port) (options : Options) :
    ∀ (G : List (List Entry)) (off : Nat),
      (finalIndexFrom crc port options off G).length = G.length := by
  intro G
  induction G with
  | nil => intro off; rfl
  | cons g rest ih =>
    intro off
    rw [finalIndexFrom_cons, List.length_cons, ih, List.length_cons]

/-- The key of the index entry of a block is not below the last key of the block, and it
is below every key of the blocks that follow. -/
theorem index_head_order (crc : Crc32c) (port : Port) (options : Options)
    (hl : options.comparator.Separating) (off : Nat) (g : List Entry)
    (rest : List (List Entry)) (hne : ∀ x ∈ g :: rest, x ≠ [])
    (hs : (g :: rest).flatten.Pairwise
      (fun a b => options.comparator.Compare a.1 b.1 < 0)) :
    ∃ x, finalIndexFrom crc port options off (g :: rest)
        = x :: finalIndexFrom crc port options
            (off + (rawImage crc port options (BlockBuilder.build options g)).length) rest ∧
      x.2 = (handleAt port options off g).EncodeTo ∧
      options.comparator.Compare (lastKeyOf g) x.1 ≤ 0 ∧
      (∀ e ∈ rest.flatten, options.comparator.Compare x.1 e.1 < 0) ∧
      (∀ g', rest.head? = some g' →
        options.comparator.Compare x.1 (firstKeyOf g') < 0) := by
  cases rest with
  | nil =>
    refine ⟨_, rfl, rfl, hl.successor _, ?_, ?_⟩
    · intro e he
      cases he
    · intro g' hg'
      cases hg'
  | cons g' rest2 =>
    refine ⟨_, rfl, rfl, ?_⟩
    have hgne : g ≠ [] := hne g (by simp)
    have hg'ne : g' ≠ [] := hne g' (by simp)
    obtain ⟨l, hlm, hle⟩ := mem_lastKeyOf g hgne
    obtain ⟨f, hfm, hfe⟩ := mem_firstKeyOf g' hg'ne
    simp only [List.flatten_cons] at hs
    have hs1 := List.pairwise_append.mp hs
    have hlt : options.comparator.Compare (lastKeyOf g) (firstKeyOf g') < 0 := by
      rw [← hle, ← hfe]
      exact hs1.2.2 l hlm f (List.mem_append_left _ hfm)
    have hsep := hl.separator _ _ hlt
    refine ⟨hsep.1, ?_, ?_⟩
    · intro e he
      simp only [List.flatten_cons] at he
      have hs2 := hs1.2.1
      have hfle : options.comparator.Compare (firstKeyOf g') e.1 ≤ 0 := by
        rcases List.mem_append.mp he with h1 | h1
        · exact firstKeyOf_le hl.cmp g' (List.pairwise_append.mp hs2).1 e h1
        · have := (List.pairwise_append.mp hs2).2.2 f hfm e h1
          rw [hfe] at this
          omega
      exact CmpLawful_lt_le hl.cmp _ _ _ hsep.2 hfle
    · intro g0 hg0
      simp only [List.head?_cons, Option.some.injEq] at hg0
      subst hg0
      exact hsep.2

/-- The keys of the index entries are strictly increasing. -/
theorem finalIndexFrom_increasing (crc : Crc32c) (port : Port) (options : Options)
    (hl : options.comparator.Separating) :
    ∀ (G : List (List Entry)) (off : Nat), (∀ g ∈ G, g ≠ []) →
      G.flatten.Pairwise (fun a b => options.comparator.Compare a.1 b.1 < 0) →
      (finalIndexFrom crc port options off G).Pairwise
        (fun a b => options.comparator.Compare a.1 b.1 < 0) ∧
      (∀ x ∈ finalIndexFrom crc port options off G, ∀ g0, G.head? = some g0 →
        options.comparator.Compare (firstKeyOf g0) x.1 ≤ 0) := by
  intro G
  induction G with
  | nil =>
    intro off _ _
    exact ⟨List.Pairwise.nil, fun x hx => (by cases hx)⟩
  | cons g rest ih =>
    intro off hne hs
    obtain ⟨x, hx, _, hx3, hx4, _⟩ := index_head_order crc port options hl off g rest hne hs
    rw [hx]
    have hs1 := List.pairwise_append.mp (by simpa only [List.flatten_cons] using hs)
    have hih := ih (off + (rawImage crc port options (BlockBuilder.build options g)).length)
      (fun g' hg' => hne g' (List.mem_cons_of_mem _ hg')) hs1.2.1
    have hgne : g ≠ [] := hne g (by simp)
    obtain ⟨l, hlm, hle⟩ := mem_lastKeyOf g hgne
    have hfl : options.comparator.Compare (firstKeyOf g) (lastKeyOf g) ≤ 0 := by
      rw [← hle]; exact firstKeyOf_le hl.cmp g hs1.1 l hlm
    have hlater : ∀ y ∈ finalIndexFrom crc port options
        (off + (rawImage crc port options (BlockBuilder.build options g)).length) rest,
        options.comparator.Compare x.1 y.1 < 0 := by
      intro y hy
      cases rest with
      | nil => cases hy
      | cons g' rest2 =>
        have h1 := hih.2 y hy g' rfl
        have hg'ne : g' ≠ [] := hne g' (by simp)
        obtain ⟨f, hfm, hfe⟩ := mem_firstKeyOf g' hg'ne
        have h2 := hx4 f (by simp only [List.flatten_cons]; exact List.mem_append_left _ hfm)
        rw [hfe] at h2
        exact CmpLawful_lt_le hl.cmp _ _ _ h2 h1
    refine ⟨List.pairwise_cons.mpr ⟨hlater, hih.1⟩, ?_⟩
    intro y hy g0 hg0
    simp only [List.head?_cons, Option.some.injEq] at hg0
    subst hg0
    rcases List.mem_cons.mp hy with h1 | h1
    · rw [h1]; exact CmpLawful_le_le hl.cmp _ _ _ hfl hx3
    · have := hlater y h1
      have h2 := CmpLawful_le_le hl.cmp _ _ _ hfl hx3
      have := CmpLawful_le_lt hl.cmp _ _ _ h2 this
      omega

/-- The index entry of the block of index `i`: its value is the handle of the block, its
key is not below the last key of the block and is below the first key of the next block. -/
theorem finalIndexFrom_entry (crc : Crc32c) (port : Port) (options : Options)
    (hl : options.comparator.Separating) :
    ∀ (G : List (List Entry)) (off i : Nat), (∀ g ∈ G, g ≠ []) →
      G.flatten.Pairwise (fun a b => options.comparator.Compare a.1 b.1 < 0) →
      i < G.length →
      ((finalIndexFrom crc port options off G).getD i ([], [])).2
        = (handleAt port options (off + (dataImage crc port options (G.take i)).length)
            (G.getD i [])).EncodeTo ∧
      options.comparator.Compare (lastKeyOf (G.getD i []))
        ((finalIndexFrom crc port options off G).getD i ([], [])).1 ≤ 0 ∧
      (i + 1 < G.length →
        options.comparator.Compare ((finalIndexFrom crc port options off G).getD i ([], [])).1
          (firstKeyOf (G.getD (i + 1) [])) < 0) := by
  intro G
  induction G with
  | nil => intro off i _ _ hi; cases hi
  | cons g rest ih =>
    intro off i hne hs hi
    obtain ⟨x, hx, hx2, hx3, _, hx5⟩ := index_head_order crc port options hl off g rest hne hs
    rw [hx]
    cases i with
    | zero =>
      simp only [List.getD_cons_zero, List.take_zero, dataImage, List.length_nil, Nat.add_zero]
      refine ⟨hx2, hx3, ?_⟩
      intro h1
      cases rest with
      | nil => simp at h1
      | cons g' rest2 =>
        simp only [Nat.zero_add, List.getD_cons_succ, List.getD_cons_zero]
        exact hx5 g' rfl
    | succ j =>
      have hs1 := List.pairwise_append.mp (by simpa only [List.flatten_cons] using hs)
      have hj : j < rest.length := by simpa using hi
      obtain ⟨h1, h2, h3⟩ := ih
        (off + (rawImage crc port options (BlockBuilder.build options g)).length) j
        (fun g' hg' => hne g' (List.mem_cons_of_mem _ hg')) hs1.2.1 hj
      simp only [List.getD_cons_succ, List.take_succ_cons, dataImage, List.length_append,
        List.length_cons]
      refine ⟨?_, h2, ?_⟩
      · rw [h1, Nat.add_assoc]
      · intro h4
        exact h3 (by omega)

end TableBuilder

end leveldb

namespace leveldb

namespace TableBuilder

/-- C26: index separators. For a table built over an empty file without failing
operations from entries with strictly increasing keys, under a comparator whose
`FindShortestSeparator(start, limit)` yields a key in `[start, limit)` and whose
`FindShortSuccessor(key)` yields a key not below `key`: `Finish` returns OK, the file
holds the data blocks with the entries `G` (block `i` with the entries `G[i]`), and its
index block is the block built from the entries `ents`, one per data block in block
order; the value of `ents[i]` is the encoded handle (offset, size) of data block `i`, its
key is not below the last key of block `i` and, when another block follows, below the
first key of block `i + 1`; the keys of `ents` are strictly increasing. -/
theorem C26_index_separators (crc : Crc32c) (port : Port) (options : Options)
    (hl : options.comparator.Separating) (es : List Entry)
    (hs : es.Pairwise (fun a b => options.comparator.Compare a.1 b.1 < 0))
    (f0 : AppendFile) (hf0 : f0.Reliable) (h0 : f0.contents = [])
    (b r r1 : TableBuilder) (s : Status)
    (hb : mk0 options f0 = some b) (hr : AddAll crc port b es = some r)
    (hfin : r.Finish crc port = some (s, r1)) :
    s = Status.OK ∧
    ∃ (G : List (List Entry)) (ents : List Entry) (fbytes : Option (List Nat)),
      G.flatten = es ∧ (∀ g ∈ G, g ≠ []) ∧
      r1.file.contents = dataImage crc port options G ++ filterImage crc fbytes
        ++ rawImage crc port options (metaRaw crc port options G fbytes)
        ++ rawImage crc port options (BlockBuilder.build (indexOptions options) ents)
        ++ (footerOf crc port options G fbytes).EncodeTo ∧
      ents.length = G.length ∧
      (∀ i, i < G.length →
        (ents.getD i ([], [])).2
          = (⟨(dataImage crc port options (G.take i)).length % 2 ^ 64,
              (chooseContents port options
                (BlockBuilder.build options (G.getD i []))).1.length % 2 ^ 64⟩
              : BlockHandle).EncodeTo ∧
        options.comparator.Compare (lastKeyOf (G.getD i [])) (ents.getD i ([], [])).1 ≤ 0 ∧
        (i + 1 < G.length →
          options.comparator.Compare (ents.getD i ([], [])).1
            (firstKeyOf (G.getD (i + 1) [])) < 0)) ∧
      ents.Pairwise (fun a b => options.comparator.Compare a.1 b.1 < 0) := by
  have hb0 := mk0_Built crc port options f0 b hf0 h0 hb
  obtain ⟨gs, cur, hbr, hes⟩ := Built_AddAll crc port options es [] [] b r hb0 hr
  simp only [List.flatten_nil, List.nil_append] at hes
  obtain ⟨hs1, fbytes, hfd, hcont⟩ := Finish_Built crc port options gs cur r r1 s hbr hfin
  have hGf : (groupsOf gs cur).flatten = es := by
    rw [← hes]
    unfold groupsOf
    split
    · next h => rw [h, List.append_nil]
    · simp
  have hGne : ∀ g ∈ groupsOf gs cur, g ≠ [] := by
    intro g hg
    unfold groupsOf at hg
    split at hg
    · exact hbr.core.nonempty g hg
    · next h =>
      rcases List.mem_append.mp hg with h1 | h1
      · exact hbr.core.nonempty g h1
      · simp only [List.mem_singleton] at h1
        rw [h1]; exact h
  generalize groupsOf gs cur = G at hGf hGne hfd hcont
  subst hGf
  refine ⟨hs1, G, finalIndexFrom crc port options 0 G, fbytes, rfl, hGne, ?_,
    finalIndexFrom_length crc port options G 0, ?_,
    (finalIndexFrom_increasing crc port options hl G 0 hGne hs).1⟩
  · rw [hcont, ← finalIndex_eq]
    rfl
  · intro i hi
    have := finalIndexFrom_entry crc port options hl G 0 i hGne hs hi
    rw [Nat.zero_add] at this
    exact this

end TableBuilder

end leveldb

namespace leveldb

namespace TableBuilder

set_option maxRecDepth 100000

/-- C26, an instance: the table `a -> 1, b -> 2, c -> 3` built with `block_size = 1`
under the bytewise comparator. -/
theorem C26_index_separators_witness :
    (sampleBuild (sampleOptions 1) sampleEntries).map
      (fun x : Status × TableBuilder => x.1) = some Status.OK ∧
    ∃ (G : List (List Entry)) (ents : List Entry) (fbytes : Option (List Nat)),
      G.flatten = sampleEntries ∧ (∀ g ∈ G, g ≠ []) ∧
      (((sampleBuild (sampleOptions 1) sampleEntries).map
          (fun x : Status × TableBuilder => x.2)).getD
            (Rep (sampleOptions 1) ⟨[], []⟩)).file.contents
        = dataImage sampleCrc samplePort (sampleOptions 1) G ++ filterImage sampleCrc fbytes
        ++ rawImage sampleCrc samplePort (sampleOptions 1)
            (metaRaw sampleCrc samplePort (sampleOptions 1) G fbytes)
        ++ rawImage sampleCrc samplePort (sampleOptions 1)
            (BlockBuilder.build (indexOptions (sampleOptions 1)) ents)
        ++ (footerOf sampleCrc samplePort (sampleOptions 1) G fbytes).EncodeTo ∧
      ents.length = G.length ∧
      (∀ i, i < G.length →
        (ents.getD i ([], [])).2
          = (⟨(dataImage sampleCrc samplePort (sampleOptions 1) (G.take i)).length % 2 ^ 64,
              (chooseContents samplePort (sampleOptions 1)
                (BlockBuilder.build (sampleOptions 1) (G.getD i []))).1.length % 2 ^ 64⟩
              : BlockHandle).EncodeTo ∧
        (sampleOptions 1).comparator.Compare (lastKeyOf (G.getD i []))
          (ents.getD i ([], [])).1 ≤ 0 ∧
        (i + 1 < G.length →
          (sampleOptions 1).comparator.Compare (ents.getD i ([], [])).1
            (firstKeyOf (G.getD (i + 1) [])) < 0)) ∧
      ents.Pairwise (fun a b => (sampleOptions 1).comparator.Compare a.1 b.1 < 0) :=
  ⟨rfl,
    (C26_index_separators sampleCrc samplePort (sampleOptions 1)
      ⟨sampleComparator_lawful.cmp, sampleComparator_lawful.separator,
        sampleComparator_lawful.successor⟩
      sampleEntries (by decide) ⟨[], []⟩ (fun _ h => by cases h) rfl
      ((mk0 (sampleOptions 1) ⟨[], []⟩).getD (Rep (sampleOptions 1) ⟨[], []⟩))
      ((AddAll sampleCrc samplePort
        ((mk0 (sampleOptions 1) ⟨[], []⟩).getD (Rep (sampleOptions 1) ⟨[], []⟩))
          sampleEntries).getD (Rep (sampleOptions 1) ⟨[], []⟩))
      (((sampleBuild (sampleOptions 1) sampleEntries).map
          (fun x : Status × TableBuilder => x.2)).getD (Rep (sampleOptions 1) ⟨[], []⟩))
      Status.OK (by rfl) (by rfl) (by rfl)).2⟩

end TableBuilder

end leveldb

namespace leveldb
namespace log

/-- The offsets of the physical records of a layout increase strictly. -/
theorem Layout_sorted (crc : Crc32c) {o : Nat} {X : List Nat} {items : List PhysRec}
    (h : Layout crc o X items) : items.Pairwise (fun a b => a.offset < b.offset) := by
  induction h with
  | nil o => exact List.Pairwise.nil
  | cons o p t frag X items hp ht1 ht4 hfit hrest ih =>
    refine List.pairwise_cons.mpr ⟨?_, ih⟩
    intro it hit
    have := (Layout_bounds crc hrest it hit).1
    simp only
    omega

/-- A list with increasing offsets splits at a threshold. -/
theorem split_at_offset (init : Nat) :
    ∀ (l : List PhysRec), l.Pairwise (fun a b => a.offset < b.offset) →
      ∃ la lb, l = la ++ lb ∧ (∀ it ∈ la, it.offset < init) ∧
        (∀ it ∈ lb, init ≤ it.offset) := by
  intro l
  induction l with
  | nil => intro _; exact ⟨[], [], rfl, fun _ h => (by cases h), fun _ h => (by cases h)⟩
  | cons a rest ih =>
    intro hs
    obtain ⟨h1, h2⟩ := List.pairwise_cons.mp hs
    by_cases ha : a.offset < init
    · obtain ⟨la, lb, hl, hla, hlb⟩ := ih h2
      refine ⟨a :: la, lb, by rw [hl]; rfl, ?_, hlb⟩
      intro it hit
      rcases List.mem_cons.mp hit with h | h
      · rw [h]; exact ha
      · exact hla it h
    · refine ⟨[], a :: rest, rfl, fun _ h => (by cases h), ?_⟩
      intro it hit
      rcases List.mem_cons.mp hit with h | h
      · rw [h]; omega
      · have := h1 it h
        omega

/-- What follows the first fragments of a logical record are its `MIDDLE` fragments and
its `LAST` fragment. -/
theorem Frag_suffix {b : Bool} {g : List PhysRec} {P : List Nat} (h : Frag b g P) :
    ∀ (ga gb : List PhysRec), g = ga ++ gb → ga ≠ [] → gb ≠ [] → ∃ P1, Frag false gb P1 := by
  induction h with
  | full o P =>
    intro ga gb hg ha hb
    cases ga with
    | nil => exact absurd rfl ha
    | cons a ga1 =>
      simp only [List.cons_append, List.cons.injEq] at hg
      have := hg.2
      cases ga1 with
      | nil => simp only [List.nil_append] at this; exact absurd this.symm hb
      | cons _ _ => cases this
  | last o P =>
    intro ga gb hg ha hb
    cases ga with
    | nil => exact absurd rfl ha
    | cons a ga1 =>
      simp only [List.cons_append, List.cons.injEq] at hg
      have := hg.2
      cases ga1 with
      | nil => simp only [List.nil_append] at this; exact absurd this.symm hb
      | cons _ _ => cases this
  | first o f rest P hrest ih =>
    intro ga gb hg ha hb
    cases ga with
    | nil => exact absurd rfl ha
    | cons a ga1 =>
      simp only [List.cons_append, List.cons.injEq] at hg
      cases ga1 with
      | nil =>
        simp only [List.nil_append] at hg
        rw [← hg.2]
        exact ⟨P, hrest⟩
      | cons a2 ga2 => exact ih (a2 :: ga2) gb hg.2 (by simp) hb
  | middle o f rest P hrest ih =>
    intro ga gb hg ha hb
    cases ga with
    | nil => exact absurd rfl ha
    | cons a ga1 =>
      simp only [List.cons_append, List.cons.injEq] at hg
      cases ga1 with
      | nil =>
        simp only [List.nil_append] at hg
        rw [← hg.2]
        exact ⟨P, hrest⟩
      | cons a2 ga2 => exact ih (a2 :: ga2) gb hg.2 (by simp) hb

theorem Records_groupsAt (crc : Crc32c) {o : Nat} {X : List Nat} {items : List PhysRec}
    {exts : List (Nat × Nat × List Nat)} (h : Records crc o X items exts) :
    GroupsAt items (exts.map (fun e => (e.1, e.2.2))) := by
  induction h with
  | nil o => exact GroupsAt.nil
  | cons o X1 g s P X2 items exts hl hf hh hr ih =>
    exact GroupsAt.cons g items s P _ hf hh ih

theorem GroupsAt_groups {items : List PhysRec} {ps : List (Nat × List Nat)}
    (h : GroupsAt items ps) : Groups items (ps.map (fun e => e.2)) := by
  induction h with
  | nil => exact Groups.nil
  | cons g rest s P ps hf hh hr ih => exact Groups.cons g rest P _ hf ih

/-- The physical records of a log, seen from an offset `init`: records before `init`,
then the last fragments of the logical record that `init` cuts, then the logical records
that start at or after `init`. -/
theorem Records_split_tail (crc : Crc32c) (init : Nat) {o : Nat} {X : List Nat}
    {items : List PhysRec} {exts : List (Nat × Nat × List Nat)}
    (h : Records crc o X items exts) :
    ∃ itemsA tailA itemsB, items = itemsA ++ (tailA ++ itemsB) ∧
      (∀ it ∈ itemsA, it.offset < init) ∧
      (tailA = [] ∨ ∃ P, Frag false tailA P) ∧
      (∀ it ∈ tailA, init ≤ it.offset) ∧
      GroupsAt itemsB
        ((exts.filter (fun e => decide (init ≤ e.1))).map (fun e => (e.1, e.2.2))) ∧
      (∀ it ∈ itemsB, init ≤ it.offset) ∧
      (tailA ≠ [] → ∃ e ∈ exts, e.1 < init ∧ init < e.2.1) := by
  induction h with
  | nil o =>
    exact ⟨[], [], [], rfl, fun it hit => (by cases hit), Or.inl rfl,
      fun it hit => (by cases hit), GroupsAt.nil, fun it hit => (by cases hit),
      fun h => absurd rfl h⟩
  | cons o X1 g s P X2 items exts hl hf hh hr ih =>
    cases g with
    | nil => cases hh
    | cons it0 g1 =>
      have hh' := hh
      simp only [List.head?_cons, Option.map_some', Option.some.injEq] at hh
      have hb0 := Layout_bounds crc hl
      have hhead := Layout_head_le crc hl
      have hbr := Layout_bounds crc (Records_layout crc hr)
      by_cases hs : init ≤ s
      · refine ⟨[], [], (it0 :: g1) ++ items, rfl, fun it hit => (by cases hit), Or.inl rfl,
          fun it hit => (by cases hit), ?_, ?_, fun h => absurd rfl h⟩
        · have hkeep : (exts.filter (fun e => decide (init ≤ e.1))) = exts := by
            apply List.filter_eq_self.mpr
            intro e he
            have h1 := Records_starts_ge crc hr e he
            have h2 := (hb0 it0 (List.mem_cons_self _ _)).2.1
            simp only [decide_eq_true_eq]
            omega
          rw [List.filter_cons_of_pos (by simpa using hs), hkeep]
          exact GroupsAt.cons _ items s P _ hf hh' (Records_groupsAt crc hr)
        · intro it hit
          rcases List.mem_append.mp hit with h1 | h1
          · have := hhead it h1
            omega
          · have h2 := (hbr it h1).1
            have h3 := (hb0 it0 (List.mem_cons_self _ _)).2.1
            omega
      · obtain ⟨itemsA, tailA, itemsB, hsplit, hA, hT, hTge, hB, hBge, hstr⟩ := ih
        obtain ⟨ga, gb, hg, hga, hgb⟩ := split_at_offset init (it0 :: g1) (Layout_sorted crc hl)
        have hfil : (((s, o + X1.length, P) :: exts).filter (fun e => decide (init ≤ e.1)))
            = exts.filter (fun e => decide (init ≤ e.1)) :=
          List.filter_cons_of_neg (by simpa using hs)
        rw [hfil]
        cases gb with
        | nil =>
          -- the whole record lies before `init`
          rw [List.append_nil] at hg
          refine ⟨(it0 :: g1) ++ itemsA, tailA, itemsB, by rw [hsplit, List.append_assoc], ?_,
            hT, hTge, hB, hBge, ?_⟩
          · intro it hit
            rcases List.mem_append.mp hit with h1 | h1
            · exact hga it (by rw [← hg]; exact h1)
            · exact hA it h1
          · intro hne
            obtain ⟨e, he, h2⟩ := hstr hne
            exact ⟨e, List.mem_cons_of_mem _ he, h2⟩
        | cons b gb1 =>
          -- `init` cuts this record
          have hbge : init ≤ b.offset := hgb b (List.mem_cons_self _ _)
          have hbin : b ∈ it0 :: g1 := by rw [hg]; exact List.mem_append_right _ (List.mem_cons_self _ _)
          have hbend := (hb0 b hbin).2.1
          have hgane : ga ≠ [] := by
            intro h0
            rw [h0, List.nil_append] at hg
            have : it0 = b := by
              simp only [List.cons.injEq] at hg
              exact hg.1
            rw [this] at hh
            omega
          have hA0 : itemsA = [] := by
            cases itemsA with
            | nil => rfl
            | cons a _ =>
              exfalso
              have h1 := hA a (List.mem_cons_self _ _)
              have h2 := (hbr a (by rw [hsplit]; exact List.mem_append_left _ (List.mem_cons_self _ _))).1
              omega
          have hT0 : tailA = [] := by
            by_contra hne
            obtain ⟨e, he, h2, _⟩ := hstr hne
            have := Records_starts_ge crc hr e he
            omega
          obtain ⟨P1, hP1⟩ := Frag_suffix hf ga (b :: gb1) hg hgane (by simp)
          refine ⟨ga, b :: gb1, itemsB, ?_, hga, Or.inr ⟨P1, hP1⟩, hgb, hB, hBge, ?_⟩
          · rw [hg, hsplit, hA0, hT0]
            simp
          · intro _
            exact ⟨_, List.mem_cons_self _ _, by simp only; omega, by simp only; omega⟩

/-- While resynchronising, the last fragments of a logical record are skipped without a
report. -/
theorem rrl_resync_tail (crc : Crc32c) (hc : crc.Lawful) (g : List PhysRec) (P : List Nat)
    (hg : Frag false g P) :
    ∀ (fuel : Nat) (r : Reader) (o : Nat) (rest : List PhysRec) (scratch fragment : List Nat)
      (pro : Nat) (inf : Bool),
      Aligned r o → Layout crc o (r.buffer_ ++ r.file_.data) (g ++ rest) →
      r.resyncing_ = true →
      (∀ it ∈ g, ¬ it.offset % 2 ^ 64 < r.initial_offset_) →
      ∃ r1 o1 frag1,
        Reader.ReadRecordLoop crc (fuel + g.length) r scratch inf pro fragment
          = Reader.ReadRecordLoop crc fuel r1 scratch inf pro frag1 ∧
        Aligned r1 o1 ∧
        Layout crc o1 (r1.buffer_ ++ r1.file_.data) rest ∧
        r1.initial_offset_ = r.initial_offset_ ∧ r1.checksum_ = r.checksum_ ∧
        r1.last_record_offset_ = r.last_record_offset_ ∧
        r1.reporter_ = r.reporter_ ∧ r1.resyncing_ = false := by
  generalize hb : false = b at hg
  induction hg with
  | full o P => cases hb
  | first o f rest P hrest ih => cases hb
  | last o0 P =>
    intro fuel r o rest scratch fragment pro inf hal hlay hrs hoff
    obtain ⟨r1, hstep, hal1, hlay1, hsc⟩ := rpr_step crc hc r fragment o _ rest _ hal rfl hlay
    rw [if_neg (hoff _ (List.mem_singleton.mpr rfl))] at hstep
    have hrs1 : r1.resyncing_ = true := by rw [hsc.2.2.2.2]; exact hrs
    refine ⟨{ r1 with resyncing_ := false }, _, P, ?_, hal1, hlay1, hsc.2.2.2.1, hsc.2.1,
      hsc.2.2.1, hsc.1, rfl⟩
    exact rrl_resync_last crc fuel r r1 scratch fragment P inf pro hstep hrs1
  | middle o0 f g1 P1 hrest ih =>
    intro fuel r o rest scratch fragment pro inf hal hlay hrs hoff
    obtain ⟨r1, hstep, hal1, hlay1, hsc⟩ := rpr_step crc hc r fragment o _ (g1 ++ rest) _ hal rfl
      hlay
    rw [if_neg (hoff _ (List.mem_cons_self _ _))] at hstep
    have hrs1 : r1.resyncing_ = true := by rw [hsc.2.2.2.2]; exact hrs
    obtain ⟨r2, o2, frag2, hloop, hal2, hlay2, h1, h2, h3, h4, h5⟩ :=
      ih hb fuel r1 _ rest scratch f pro inf hal1 hlay1 hrs1
        (fun it hit => by rw [hsc.2.2.2.1]; exact hoff it (List.mem_cons_of_mem _ hit))
    refine ⟨r2, o2, frag2, ?_, hal2, hlay2, h1.trans hsc.2.2.2.1, h2.trans hsc.2.1,
      h3.trans hsc.2.2.1, h4.trans hsc.1, h5⟩
    rw [List.length_cons, ← Nat.add_assoc,
      rrl_resync_middle crc (fuel + g1.length) r r1 scratch fragment f inf pro hstep hrs1]
    exact hloop

end log
end leveldb

namespace leveldb
namespace log

/-- Reading the logical records of a well-formed log, with the value of
`LastRecordOffset()` after every record. -/
theorem readRecordsOff_groups (crc : Crc32c) (hc : crc.Lawful) (items : List PhysRec)
    (ps : List (Nat × List Nat)) (hg : GroupsAt items ps) :
    ∀ (r : Reader) (o : Nat),
      Aligned r o → Layout crc o (r.buffer_ ++ r.file_.data) items →
      ¬ r.last_record_offset_ < r.initial_offset_ →
      (∀ it ∈ items, ¬ it.offset % 2 ^ 64 < r.initial_offset_) →
      ∃ r1, Reader.ReadRecordsWithOffsets crc (ps.length + 1) r
          = some (ps.map (fun e => (e.2, e.1 % 2 ^ 64)), true, r1) ∧
        r1.reporter_ = r.reporter_ := by
  induction hg with
  | nil =>
    intro r o hal hlay hlro hoff
    have hU : r.buffer_ ++ r.file_.data = [] := Layout_nil_inv crc hlay rfl
    obtain ⟨r1, hstep, hal1, hU1, hsc⟩ := rpr_eof crc r [] o hal hU
    refine ⟨{ r1 with resyncing_ := false }, ?_, hsc.1⟩
    rw [Reader.ReadRecordsWithOffsets, Reader.ReadRecord]
    simp only [if_neg hlro, Bool.not_true, Bool.false_eq_true, if_false]
    rw [Reader.ReadRecordLoop, hstep]
    simp [kEof, kMaxRecordType, kLastType, kFullType, kFirstType, kMiddleType]
  | cons g rest s P ps hf hh hgr ih =>
    intro r o hal hlay hlro hoff
    have hlen := Layout_length_le crc hlay
    have hfuel : g.length ≤ r.file_.data.length + r.buffer_.length + 1 := by
      simp only [List.length_append] at hlen
      omega
    obtain ⟨res, o1, hloop, hok, hrec, hal1, hlay1, hrep1, hck1, hio1, hrs1, hlro1⟩ :=
      rrl_group crc hc true g P hf _ r o rest [] 0 [] hal hlay (fun h => by cases h)
        (fun it hit => hoff it (List.mem_append_left _ hit)) hfuel
    have hhead : ∃ it, it ∈ g ∧ g.head? = some it := by
      cases hf with
      | full o0 P => exact ⟨_, List.mem_singleton.mpr rfl, rfl⟩
      | first o0 f g1 P1 h1 => exact ⟨_, List.mem_cons_self _ _, rfl⟩
    obtain ⟨it0, hit0, hh0⟩ := hhead
    have hs0 : it0.offset = s := by
      rw [hh0] at hh
      simpa using hh
    have hlro2 : ¬ res.reader.last_record_offset_ < res.reader.initial_offset_ := by
      rw [hlro1, hio1, hh0]
      exact hoff it0 (List.mem_append_left _ hit0)
    have hoff2 : ∀ it ∈ rest, ¬ it.offset % 2 ^ 64 < res.reader.initial_offset_ := by
      intro it hit
      rw [hio1]
      exact hoff it (List.mem_append_right _ hit)
    obtain ⟨r2, hrun2, hrep2⟩ := ih res.reader o1 hal1 hlay1 hlro2 hoff2
    refine ⟨r2, ?_, hrep2.trans hrep1⟩
    have hRR : r.ReadRecord crc = some res := by
      rw [Reader.ReadRecord]
      simp only [if_neg hlro, Bool.not_true, Bool.false_eq_true, if_false]
      exact hloop
    have hlo : res.reader.LastRecordOffset = s % 2 ^ 64 := by
      show res.reader.last_record_offset_ = _
      rw [hlro1, hh0, ← hs0]
      rfl
    rw [List.length_cons, Reader.ReadRecordsWithOffsets, hRR]
    simp only [hok, if_true, hrun2, hrec, hlo, List.map_cons]

theorem GroupsAt_starts {items : List PhysRec} {ps : List (Nat × List Nat)}
    (h : GroupsAt items ps) : ∀ e ∈ ps, ∃ it ∈ items, it.offset = e.1 := by
  induction h with
  | nil => intro e he; cases he
  | cons g rest s P ps hf hh hr ih =>
    intro e he
    rcases List.mem_cons.mp he with h | h
    · subst h
      cases g with
      | nil => cases hh
      | cons it0 g1 =>
        simp only [List.head?_cons, Option.map_some', Option.some.injEq] at hh
        exact ⟨it0, List.mem_append_left _ (List.mem_cons_self _ _), hh⟩
    · obtain ⟨it, hit, h2⟩ := ih e h
      exact ⟨it, List.mem_append_right _ hit, h2⟩

/-- A reader with any initial offset over a well-formed log: the records returned are
those that start at or after the initial offset, `LastRecordOffset()` is the start of
the record returned last, and reports are made only when the initial offset cuts a
logical record and is not a block boundary. -/
theorem read_offsets (crc : Crc32c) (hc : crc.Lawful) (data : List Nat)
    (items : List PhysRec) (exts : List (Nat × Nat × List Nat))
    (hrec : Records crc 0 data items exts) (init : Nat) (checksum : Bool)
    (hinit : init < 2 ^ 64) (hsize : data.length < 2 ^ 64) :
    ∃ r calls,
      Reader.ReadRecordsWithOffsets crc
          ((exts.filter (fun e => decide (init ≤ e.1))).length + 1)
          (Reader.mk0 ⟨data, true⟩ (some []) checksum init)
        = some ((exts.filter (fun e => decide (init ≤ e.1))).map (fun e => (e.2.2, e.1)),
            true, r) ∧
      r.reporter_ = some calls ∧
      (∀ c ∈ calls, c.2 = Status.Corruption "missing start of fragmented record(1)" ∨
        c.2 = Status.Corruption "missing start of fragmented record(2)") ∧
      (calls ≠ [] → (∃ e ∈ exts, e.1 < init ∧ init < e.2.1) ∧ init % kBlockSize ≠ 0) := by
  have hlay0 := Records_layout crc hrec
  have hbnd := Layout_bounds crc hlay0
  obtain ⟨itemsA, tailA, itemsB, hsplit, hA, hT, hTge, hB, hBge, hstr⟩ :=
    Records_split_tail crc init hrec
  obtain ⟨hB0mod, hB0lt, hB0le, _⟩ := initialBlockStart_props init hinit
  -- the expected result
  have hexpect : ((exts.filter (fun e => decide (init ≤ e.1))).map
        (fun e => (e.1, e.2.2))).map (fun e => (e.2, e.1 % 2 ^ 64))
      = (exts.filter (fun e => decide (init ≤ e.1))).map (fun e => (e.2.2, e.1)) := by
    rw [List.map_map]
    apply List.map_congr_left
    intro e he
    obtain ⟨it, hit, h2⟩ := GroupsAt_starts hB (e.1, e.2.2) (List.mem_map.mpr ⟨e, he, rfl⟩)
    have h3 := hbnd it (by
      rw [hsplit]
      exact List.mem_append_right _ (List.mem_append_right _ hit))
    simp only [Function.comp]
    rw [Nat.mod_eq_of_lt]
    simp only at h2
    omega
  have hexplen : ((exts.filter (fun e => decide (init ≤ e.1))).map
      (fun e => (e.1, e.2.2))).length = (exts.filter (fun e => decide (init ≤ e.1))).length :=
    List.length_map _ _
  rw [← hexpect, ← hexplen]
  generalize (exts.filter (fun e => decide (init ≤ e.1))).map (fun e => (e.1, e.2.2)) = expected
    at hB ⊢
  have hB0al : init % kBlockSize = 0 → initialBlockStart init = init := by
    intro h
    unfold initialBlockStart
    rw [if_neg (by rw [h]; simp [kBlockSize]), h, Nat.sub_zero]
  generalize hB0 : initialBlockStart init = B0 at hB0mod hB0lt hB0le hB0al
  -- the layout seen from the block start
  have hlayB := Layout_drop_block crc hlay0 B0 hB0mod (Nat.zero_le _)
  have hge : ∀ it ∈ tailA ++ itemsB, init ≤ it.offset := by
    intro it hit
    rcases List.mem_append.mp hit with h | h
    · exact hTge it h
    · exact hBge it h
  have hfiltB : (tailA ++ itemsB).filter (fun it => decide (B0 ≤ it.offset))
      = tailA ++ itemsB := by
    apply List.filter_eq_self.mpr
    intro it hit
    have h1 := hbnd it (by rw [hsplit]; exact List.mem_append_right _ hit)
    simp only [decide_eq_true_eq]
    exact hB0le it.offset h1.2.2.1 (hge it hit) (by omega)
  rw [hsplit, List.filter_append, hfiltB, Nat.sub_zero] at hlayB
  generalize hpre : itemsA.filter (fun it => decide (B0 ≤ it.offset)) = pre at hlayB
  have hpreA : ∀ it ∈ pre, it ∈ itemsA := by
    intro it hit
    rw [← hpre] at hit
    exact (List.mem_filter.mp hit).1
  have hlen := Layout_length_le crc hlayB
  -- the reader after `SkipToInitialBlock`
  let r1 : Reader :=
    { Reader.mk0 ⟨data, true⟩ (some []) checksum init with
      file_ := ⟨data.drop B0, true⟩
      end_of_buffer_offset_ := B0 }
  have hal1 : Aligned r1 B0 := by
    refine AlignedAt.mk rfl ?_ ?_ ?_
    · show B0 = (B0 + 0) % 2 ^ 64
      rw [Nat.add_zero, Nat.mod_eq_of_lt hB0lt]
    · intro h; cases h
    · intro _
      show B0 + 0 = roundUp B0
      rw [roundUp_self B0 hB0mod]; rfl
  have hlay1 : Layout crc B0 (r1.buffer_ ++ r1.file_.data) ((pre ++ tailA) ++ itemsB) := by
    rw [List.append_assoc]; exact hlayB
  have hfresh := readRecord_fresh crc data (some []) checksum init hinit
  rw [hB0] at hfresh
  obtain ⟨fuel, hfuel⟩ : ∃ fuel, (data.drop B0).length + 1 = fuel + (pre ++ tailA).length ∧
      itemsB.length + 1 ≤ fuel := by
    refine ⟨(data.drop B0).length + 1 - (pre ++ tailA).length, ?_, ?_⟩
    · simp only [List.length_append] at hlen ⊢; omega
    · simp only [List.length_append] at hlen ⊢; omega
  rw [hfuel.1] at hfresh
  -- skipping what lies before the first record to return
  have hskip : ∃ r2 o2 frag2 calls,
      Reader.ReadRecordLoop crc (fuel + (pre ++ tailA).length) r1 [] false 0 []
        = Reader.ReadRecordLoop crc fuel r2 [] false 0 frag2 ∧
      Aligned r2 o2 ∧ Layout crc o2 (r2.buffer_ ++ r2.file_.data) itemsB ∧
      r2.initial_offset_ = init ∧ r2.reporter_ = some calls ∧
      (∀ c ∈ calls, c.2 = Status.Corruption "missing start of fragmented record(1)" ∨
        c.2 = Status.Corruption "missing start of fragmented record(2)") ∧
      (calls ≠ [] → (∃ e ∈ exts, e.1 < init ∧ init < e.2.1) ∧ init % kBlockSize ≠ 0) := by
    by_cases hcase : tailA ≠ [] ∧ init % kBlockSize = 0
    · -- the initial offset is a block boundary inside a logical record
      obtain ⟨hTne, hal0⟩ := hcase
      have hB0i : B0 = init := hB0al hal0
      have hpre0 : pre = [] := by
        rw [← hpre]
        apply List.filter_eq_nil_iff.mpr
        intro it hit
        have := hA it hit
        simp only [decide_eq_true_eq]
        omega
      obtain ⟨P, hP⟩ : ∃ P, Frag false tailA P := by
        rcases hT with h | h
        · exact absurd h hTne
        · exact h
      have hpos : 0 < init := by
        obtain ⟨e, _, h1, _⟩ := hstr hTne
        omega
      rw [hpre0, List.nil_append] at hlay1 ⊢
      obtain ⟨r2, o2, frag2, hloop, hal2, hlay2, hio2, _, _, hrep2, _⟩ :=
        rrl_resync_tail crc hc tailA P hP fuel r1 B0 itemsB [] [] 0 false hal1 hlay1
          (by show decide (init > 0) = true; simpa using hpos)
          (fun it hit => by
            have h1 := hbnd it (by
              rw [hsplit]
              exact List.mem_append_right _ (List.mem_append_left _ hit))
            have h2 := hTge it hit
            rw [Nat.mod_eq_of_lt (by omega)]
            show ¬ it.offset < init
            omega)
      exact ⟨r2, o2, frag2, [], hloop, hal2, hlay2, hio2, hrep2, fun c h => (by cases h),
        fun h => absurd rfl h⟩
    · obtain ⟨r2, o2, frag2, calls, hloop2, hal2, hlay2, hio2, hck2, hlro2, hrep2, hcalls, hne⟩ :=
        rrl_skip crc hc (pre ++ tailA) fuel r1 B0 itemsB [] [] 0 hal1 hlay1
          (fun it hit => by
            have : it ∈ items := by
              rw [hsplit]
              rcases List.mem_append.mp hit with h | h
              · exact List.mem_append_left _ (hpreA it h)
              · exact List.mem_append_right _ (List.mem_append_left _ h)
            have := hbnd it this
            omega)
          (fun it hit => by
            rcases List.mem_append.mp hit with h | h
            · left
              exact hA it (hpreA it h)
            · right
              rcases hT with h0 | ⟨P, hP⟩
              · rw [h0] at h; cases h
              · exact (Frag_tail_types hP).1 rfl it h)
      refine ⟨r2, o2, frag2, calls, hloop2, hal2, hlay2, hio2, by rw [hrep2]; rfl, hcalls, ?_⟩
      intro hcne
      obtain ⟨it, hit, hge2⟩ := hne hcne
      have hitT : it ∈ tailA := by
        rcases List.mem_append.mp hit with h | h
        · have := hA it (hpreA it h)
          have : init ≤ it.offset := hge2
          omega
        · exact h
      have hTne : tailA ≠ [] := by
        intro h0; rw [h0] at hitT; cases hitT
      exact ⟨hstr hTne, fun h0 => hcase ⟨hTne, h0⟩⟩
  obtain ⟨r2, o2, frag2, calls, hloop2, hal2, hlay2, hio2, hrep2, hcalls, hcne⟩ := hskip
  rw [hloop2] at hfresh
  have hoffB : ∀ it ∈ itemsB, ¬ it.offset % 2 ^ 64 < r2.initial_offset_ := by
    intro it hit
    have h1 := hbnd it (by
      rw [hsplit]
      exact List.mem_append_right _ (List.mem_append_right _ hit))
    have h2 := hBge it hit
    rw [hio2, Nat.mod_eq_of_lt (by omega)]
    omega
  cases hB with
  | nil =>
    -- nothing starts at or after the initial offset
    have hU : r2.buffer_ ++ r2.file_.data = [] := Layout_nil_inv crc hlay2 rfl
    obtain ⟨r3, hstep, hal3, hU3, hsc⟩ := rpr_eof crc r2 frag2 o2 hal2 hU
    obtain ⟨fuel1, rfl⟩ : ∃ k, fuel = k + 1 := ⟨fuel - 1, by omega⟩
    refine ⟨{ r3 with resyncing_ := false }, calls, ?_, hsc.1.trans hrep2, hcalls, hcne⟩
    rw [List.length_nil, Reader.ReadRecordsWithOffsets, hfresh, Reader.ReadRecordLoop, hstep]
    simp [kEof, kMaxRecordType, kLastType, kFullType, kFirstType, kMiddleType]
  | cons g rest s P ps hf hh hgr =>
    obtain ⟨res, o3, hloop3, hok, hrecd, hal3, hlay3, hrep3, hck3, hio3, hrs3, hlro3⟩ :=
      rrl_group crc hc true g P hf fuel r2 o2 rest [] 0 frag2 hal2 hlay2 (fun h => by cases h)
        (fun it hit => hoffB it (List.mem_append_left _ hit))
        (by simp only [List.length_append] at hfuel; omega)
    have hhead : ∃ it, it ∈ g ∧ g.head? = some it := by
      cases hf with
      | full o0 P => exact ⟨_, List.mem_singleton.mpr rfl, rfl⟩
      | first o0 f g1 P1 h1 => exact ⟨_, List.mem_cons_self _ _, rfl⟩
    obtain ⟨it0, hit0, hh0⟩ := hhead
    have hs0 : it0.offset = s := by
      rw [hh0] at hh
      simpa using hh
    have hlro4 : ¬ res.reader.last_record_offset_ < res.reader.initial_offset_ := by
      rw [hlro3, hio3, hh0]
      exact hoffB it0 (List.mem_append_left _ hit0)
    obtain ⟨r4, hrun4, hrep4⟩ := readRecordsOff_groups crc hc rest ps hgr res.reader o3 hal3
      hlay3 hlro4 (fun it hit => by rw [hio3]; exact hoffB it (List.mem_append_right _ hit))
    refine ⟨r4, calls, ?_, (hrep4.trans hrep3).trans hrep2, hcalls, hcne⟩
    have hloop3' : Reader.ReadRecordLoop crc fuel r2 [] false 0 frag2 = some res := hloop3
    have hlo : res.reader.LastRecordOffset = s % 2 ^ 64 := by
      show res.reader.last_record_offset_ = _
      rw [hlro3, hh0, ← hs0]
      rfl
    rw [List.length_cons, Reader.ReadRecordsWithOffsets, hfresh, hloop3']
    simp only [hok, if_true, hrun4, hrecd, hlo, List.map_cons]

end log
end leveldb

namespace leveldb
namespace log

theorem ReportDrop_fields (r : Reader) (n : Nat) (st : Status) :
    r.ReportDrop n st = { r with reporter_ := (r.ReportDrop n st).reporter_ } := by
  unfold Reader.ReportDrop
  split
  · split <;> rfl
  · rfl

theorem TracksAt_congr {D : List Nat} {r r1 : Reader} {o : Nat} (h : Reader.TracksAt D r o)
    (hb : r1.buffer_ = r.buffer_) (hf : r1.file_ = r.file_)
    (he : r1.end_of_buffer_offset_ = r.end_of_buffer_offset_) : Reader.TracksAt D r1 o :=
  ⟨by rw [hb]; exact h.buffer_eq, by rw [hb, hf]; exact h.rest_eq,
    by rw [hb, he]; exact h.eob_eq⟩

theorem TracksAt_report {D : List Nat} {r : Reader} {o : Nat} (h : Reader.TracksAt D r o)
    (n : Nat) (st : Status) : Reader.TracksAt D (r.ReportDrop n st) o := by
  rw [ReportDrop_fields]
  exact TracksAt_congr h rfl rfl rfl

theorem TracksAt_clear {D : List Nat} {r : Reader} {o : Nat} (h : Reader.TracksAt D r o) :
    Reader.TracksAt D { r with buffer_ := [] } (o + r.buffer_.length) :=
  ⟨by simp, by simpa using h.rest_eq, by simpa using h.eob_eq⟩

theorem TracksAt_length {D : List Nat} {r : Reader} {o : Nat} (h : Reader.TracksAt D r o) :
    r.buffer_.length ≤ D.length - o := by
  have h1 := congrArg List.length h.buffer_eq
  rw [List.length_take, List.length_drop] at h1
  omega

theorem TracksAt_getD {D : List Nat} {r : Reader} {o : Nat} (h : Reader.TracksAt D r o)
    (i : Nat) (hi : i < r.buffer_.length) : r.buffer_.getD i 0 = D.getD (o + i) 0 := by
  rw [h.buffer_eq]
  simp only [List.getD_eq_getElem?_getD, List.getElem?_take, List.getElem?_drop]
  rw [if_pos hi]

theorem TracksAt_drop {D : List Nat} {r : Reader} {o : Nat} (h : Reader.TracksAt D r o)
    (k : Nat) (hk : k ≤ r.buffer_.length) :
    Reader.TracksAt D { r with buffer_ := r.buffer_.drop k } (o + k) := by
  refine ⟨?_, ?_, ?_⟩
  · show r.buffer_.drop k = (D.drop (o + k)).take (r.buffer_.drop k).length
    rw [List.length_drop]
    conv => lhs; rw [h.buffer_eq]
    rw [List.drop_take, List.drop_drop]
  · show r.file_.data = D.drop (o + k + (r.buffer_.drop k).length)
    rw [List.length_drop, h.rest_eq]
    congr 1
    omega
  · show r.end_of_buffer_offset_ = (o + k + (r.buffer_.drop k).length) % 2 ^ 64
    rw [List.length_drop, h.eob_eq]
    congr 1
    omega

theorem TracksAt_payload {D : List Nat} {r : Reader} {o : Nat} (h : Reader.TracksAt D r o)
    (L : Nat) (hL : kHeaderSize + L ≤ r.buffer_.length) :
    (r.buffer_.drop kHeaderSize).take L = (D.drop (o + kHeaderSize)).take L := by
  conv => lhs; rw [h.buffer_eq]
  rw [List.drop_take, List.take_take, List.drop_drop, Nat.min_eq_left (by omega)]

end log
end leveldb

namespace leveldb
namespace log

/-! ## Reading a file of arbitrary bytes -/

theorem ReportCorruption_fields (r : Reader) (n : Nat) (s : String) :
    r.ReportCorruption n s = { r with reporter_ := (r.ReportCorruption n s).reporter_ } :=
  ReportDrop_fields r n (Status.Corruption s)

theorem PhysStep_clear (D : List Nat) (r : Reader) (o : Nat) (htr : Reader.TracksAt D r o)
    (hlen : 7 ≤ r.buffer_.length) (r1 : Reader) (frag : List Nat)
    (h1 : r1 = { { r with buffer_ := [] } with reporter_ := r1.reporter_ }) :
    Reader.PhysStep D r r1 kBadRecord frag := by
  have hb : r1.buffer_ = [] := by rw [h1]
  have hf : r1.file_ = r.file_ := by rw [h1]
  refine ⟨⟨o + r.buffer_.length, ?_⟩, by rw [h1], by rw [h1], by rw [h1], ?_, Or.inr (Or.inl ⟨rfl, ?_⟩)⟩
  · exact TracksAt_congr (TracksAt_clear htr) hb hf (by rw [h1])
  · rw [hb, hf]; simp
  · rw [hb, hf]; simp; omega

theorem rpr_parse_general (crc : Crc32c) (D : List Nat) (fuel : Nat) (r : Reader)
    (result : List Nat) (o : Nat) (htr : Reader.TracksAt D r o)
    (hlen : 7 ≤ r.buffer_.length) :
    ∃ t frag r1, Reader.ReadPhysicalRecordLoop crc (fuel + 1) r result = some (t, frag, r1) ∧
      Reader.PhysStep D r r1 t frag := by
  have hnlt : ¬ r.buffer_.length < kHeaderSize := by simp only [kHeaderSize]; omega
  rw [Reader.ReadPhysicalRecordLoop]
  simp only [if_neg hnlt]
  generalize hL : (r.buffer_.getD 4 0 % 256 ||| (r.buffer_.getD 5 0 % 256) <<< 8) = L
  split
  · -- the record does not fit in the buffer
    split
    · refine ⟨_, _, _, rfl, PhysStep_clear D r o htr hlen _ _ ?_⟩
      exact ReportCorruption_fields _ _ _
    · refine ⟨_, _, _, rfl, ⟨⟨o + r.buffer_.length, TracksAt_clear htr⟩, rfl, rfl, rfl, ?_,
        Or.inl rfl⟩⟩
      simp
  · next hfit =>
    split
    · exact ⟨_, _, _, rfl, PhysStep_clear D r o htr hlen _ _ rfl⟩
    · split
      · refine ⟨_, _, _, rfl, PhysStep_clear D r o htr hlen _ _ ?_⟩
        exact ReportCorruption_fields _ _ _
      · have hfit2 : kHeaderSize + L ≤ r.buffer_.length := by omega
        have htr1 := TracksAt_drop htr (kHeaderSize + L) hfit2
        have hmeas : ({ r with buffer_ := r.buffer_.drop (kHeaderSize + L) } : Reader).buffer_.length
            + r.file_.data.length + 7 ≤ r.buffer_.length + r.file_.data.length := by
          show (r.buffer_.drop (kHeaderSize + L)).length + _ + 7 ≤ _
          rw [List.length_drop]
          simp only [kHeaderSize] at hfit2 ⊢
          omega
        split
        · refine ⟨_, _, _, rfl, ⟨⟨_, htr1⟩, rfl, rfl, rfl, Nat.le_trans (Nat.le_add_right _ 7) hmeas,
            Or.inr (Or.inl ⟨rfl, hmeas⟩)⟩⟩
        · next hnot =>
          refine ⟨_, _, _, rfl, ⟨⟨_, htr1⟩, rfl, rfl, rfl, Nat.le_trans (Nat.le_add_right _ 7) hmeas,
            Or.inr (Or.inr ?_)⟩⟩
          have hfl : ((r.buffer_.drop kHeaderSize).take L).length = L := by
            rw [List.length_take, List.length_drop]
            omega
          have hoff : sub64 (sub64 (sub64 r.end_of_buffer_offset_
              (r.buffer_.drop (kHeaderSize + L)).length) kHeaderSize) L = o % 2 ^ 64 := by
            rw [htr.eob_eq, List.length_drop]
            have := sub64_chain2 o L (r.buffer_.length - (kHeaderSize + L))
            rw [show o + 7 + L + (r.buffer_.length - (kHeaderSize + L)) = o + r.buffer_.length by
              simp only [kHeaderSize] at hfit2 ⊢; omega] at this
            exact this
          refine ⟨o, r.buffer_.getD 6 0, ?_, rfl, hmeas, ?_, ?_⟩
          · have hbl := TracksAt_length htr
            refine ⟨?_, ?_, ?_, ?_⟩
            · rw [hfl]; omega
            · rw [hfl, ← TracksAt_getD htr 4 (by omega), ← TracksAt_getD htr 5 (by omega)]
              exact hL
            · rw [← TracksAt_getD htr 6 (by omega)]
            · rw [hfl, ← TracksAt_payload htr L hfit2]
          · rw [hfl]; exact hoff
          · rw [← hoff]
            intro hlt
            apply hnot
            show sub64 (sub64 (sub64 r.end_of_buffer_offset_
              (r.buffer_.drop (kHeaderSize + L)).length) kHeaderSize) L < r.initial_offset_
            exact hlt

theorem PhysStep_of (D : List Nat) (r r2 r1 : Reader) (t : Nat) (frag : List Nat)
    (h : Reader.PhysStep D r2 r1 t frag)
    (hi : r2.initial_offset_ = r.initial_offset_)
    (hl : r2.last_record_offset_ = r.last_record_offset_)
    (hr : r2.resyncing_ = r.resyncing_)
    (hm : r2.buffer_.length + r2.file_.data.length ≤ r.buffer_.length + r.file_.data.length) :
    Reader.PhysStep D r r1 t frag := by
  refine ⟨h.tracks, h.init_eq.trans hi, h.last_eq.trans hl, h.resync_eq.trans hr,
    Nat.le_trans h.measure_le hm, ?_⟩
  rcases h.kind with h1 | ⟨h1, h2⟩ | ⟨s, b, h1, h2, h3, h4, h5⟩
  · exact Or.inl h1
  · exact Or.inr (Or.inl ⟨h1, by omega⟩)
  · exact Or.inr (Or.inr ⟨s, b, h1, h2, by omega, h4, by rw [← hi]; exact h5⟩)

theorem PhysStep_eof (D : List Nat) (r : Reader) (o : Nat) (htr : Reader.TracksAt D r o)
    (r1 : Reader) (frag : List Nat) (hb : r1.buffer_ = []) (hf : r1.file_ = r.file_)
    (he : r1.end_of_buffer_offset_ = r.end_of_buffer_offset_ % 2 ^ 64)
    (hi : r1.initial_offset_ = r.initial_offset_)
    (hl : r1.last_record_offset_ = r.last_record_offset_)
    (hr : r1.resyncing_ = r.resyncing_) :
    Reader.PhysStep D r r1 kEof frag := by
  refine ⟨⟨o + r.buffer_.length, ?_, ?_, ?_⟩, hi, hl, hr, ?_, Or.inl rfl⟩
  · rw [hb]; rfl
  · rw [hb, hf]; simpa using htr.rest_eq
  · rw [hb, he, htr.eob_eq]; simp
  · rw [hb, hf]; simp

theorem rpr_general (crc : Crc32c) (D : List Nat) (r : Reader) (result : List Nat) (o : Nat)
    (htr : Reader.TracksAt D r o) :
    ∃ t frag r1, r.ReadPhysicalRecord crc result = some (t, frag, r1) ∧
      Reader.PhysStep D r r1 t frag := by
  unfold Reader.ReadPhysicalRecord
  by_cases hb : 7 ≤ r.buffer_.length
  · exact rpr_parse_general crc D 1 r result o htr hb
  · have hlt : r.buffer_.length < kHeaderSize := by simp only [kHeaderSize]; omega
    rw [Reader.ReadPhysicalRecordLoop]
    simp only [if_pos hlt]
    by_cases he : r.eof_ = true
    · simp only [he, Bool.not_true, Bool.false_eq_true, if_false]
      exact ⟨_, _, _, rfl, PhysStep_eof D r o htr _ _ rfl rfl
        (by rw [htr.eob_eq]; simp) rfl rfl rfl⟩
    · have he : r.eof_ = false := by simpa using he
      simp only [he, Bool.not_false, if_true]
      cases hh : r.file_.healthy with
      | false =>
        have hrd : r.file_.Read kBlockSize = (Status.IOError "read", [], r.file_) := by
          unfold SequentialFile.Read
          rw [hh]
          rfl
        simp only [hrd, Status.ok, Bool.not_false, if_true]
        refine ⟨_, _, _, rfl, PhysStep_eof D r o htr _ _ ?_ ?_ ?_ ?_ ?_ ?_⟩
        · show (Reader.ReportDrop _ kBlockSize (Status.IOError "read")).buffer_ = _
          rw [ReportDrop_fields]
        · show (Reader.ReportDrop _ kBlockSize (Status.IOError "read")).file_ = _
          rw [ReportDrop_fields]
        · show (Reader.ReportDrop _ kBlockSize (Status.IOError "read")).end_of_buffer_offset_ = _
          rw [ReportDrop_fields]
          show add64 r.end_of_buffer_offset_ 0 = _
          simp [add64]
        · show (Reader.ReportDrop _ kBlockSize (Status.IOError "read")).initial_offset_ = _
          rw [ReportDrop_fields]
        · show (Reader.ReportDrop _ kBlockSize (Status.IOError "read")).last_record_offset_ = _
          rw [ReportDrop_fields]
        · show (Reader.ReportDrop _ kBlockSize (Status.IOError "read")).resyncing_ = _
          rw [ReportDrop_fields]
      | true =>
        have hrd := Read_of_healthy r.file_ kBlockSize hh
        simp only [hrd, Status.ok, Bool.not_true, Bool.false_eq_true, if_false]
        have htr2 : ∀ e : Bool, Reader.TracksAt D
            { r with file_ := { r.file_ with data := r.file_.data.drop kBlockSize },
                     buffer_ := r.file_.data.take kBlockSize,
                     end_of_buffer_offset_ :=
                       add64 r.end_of_buffer_offset_ (r.file_.data.take kBlockSize).length,
                     eof_ := e } (o + r.buffer_.length) := by
          intro e
          refine ⟨?_, ?_, ?_⟩
          · show r.file_.data.take kBlockSize
              = (D.drop (o + r.buffer_.length)).take (r.file_.data.take kBlockSize).length
            rw [← htr.rest_eq, List.length_take]
            by_cases hk : kBlockSize ≤ r.file_.data.length
            · rw [Nat.min_eq_left hk]
            · rw [Nat.min_eq_right (by omega), List.take_of_length_le (by omega),
                List.take_of_length_le (Nat.le_refl _)]
          · show r.file_.data.drop kBlockSize
              = D.drop (o + r.buffer_.length + (r.file_.data.take kBlockSize).length)
            rw [← List.drop_drop, ← htr.rest_eq, List.length_take]
            by_cases hk : kBlockSize ≤ r.file_.data.length
            · rw [Nat.min_eq_left hk]
            · rw [Nat.min_eq_right (by omega), List.drop_of_length_le (by omega),
                List.drop_of_length_le (Nat.le_refl _)]
          · show add64 r.end_of_buffer_offset_ (r.file_.data.take kBlockSize).length
              = (o + r.buffer_.length + (r.file_.data.take kBlockSize).length) % 2 ^ 64
            rw [htr.eob_eq]
            simp only [add64]
            omega
        have hm2 : (r.file_.data.take kBlockSize).length + (r.file_.data.drop kBlockSize).length
            ≤ r.buffer_.length + r.file_.data.length := by
          rw [List.length_take, List.length_drop]
          omega
        by_cases hshort : (r.file_.data.take kBlockSize).length < kBlockSize
        · simp only [if_pos hshort]
          by_cases h7 : 7 ≤ (r.file_.data.take kBlockSize).length
          · obtain ⟨t, frag, r1, h1, h2⟩ := rpr_parse_general crc D 0 _ result _ (htr2 true) h7
            exact ⟨t, frag, r1, h1, PhysStep_of D r _ r1 t frag h2 rfl rfl rfl hm2⟩
          · have hlt2 : (r.file_.data.take kBlockSize).length < kHeaderSize := by
              simp only [kHeaderSize]; omega
            rw [Reader.ReadPhysicalRecordLoop]
            simp only [if_pos hlt2, Bool.not_true, Bool.false_eq_true, if_false]
            refine ⟨_, _, _, rfl, ⟨⟨_, TracksAt_congr (TracksAt_clear (htr2 true)) rfl rfl rfl⟩,
              rfl, rfl, rfl, ?_, Or.inl rfl⟩⟩
            show ([] : List Nat).length + (r.file_.data.drop kBlockSize).length ≤ _
            rw [List.length_drop]
            simp
            omega
        · simp only [if_neg hshort]
          have h7 : 7 ≤ (r.file_.data.take kBlockSize).length := by
            simp only [kBlockSize] at hshort ⊢
            omega
          obtain ⟨t, frag, r1, h1, h2⟩ := rpr_parse_general crc D 0 _ result _ (htr2 false) h7
          exact ⟨t, frag, r1, h1, PhysStep_of D r _ r1 t frag h2 rfl rfl rfl hm2⟩

theorem charToUnsigned_inj_small (b t : Nat) (h : t = charToUnsigned b) (ht : t < 128) :
    b = t := by
  unfold charToUnsigned at h
  split at h <;> omega

theorem same_pos_ite (r1 : Reader) (c : Prop) [Decidable c] (n : Nat) (s : String) :
    (if c then Reader.ReportCorruption { r1 with resyncing_ := false } n s
      else { r1 with resyncing_ := false })
    = { r1 with
        reporter_ := (if c then Reader.ReportCorruption { r1 with resyncing_ := false } n s
          else { r1 with resyncing_ := false }).reporter_,
        resyncing_ := false } := by
  split
  · rw [ReportCorruption_fields]
  · rfl

theorem PhysStep_dec {D : List Nat} {r r1 : Reader} {t : Nat} {frag : List Nat}
    (h : Reader.PhysStep D r r1 t frag) (hne : t ≠ kEof) :
    r1.buffer_.length + r1.file_.data.length + 7 ≤ r.buffer_.length + r.file_.data.length := by
  rcases h.kind with h1 | ⟨_, h2⟩ | ⟨_, _, _, _, h3, _⟩
  · exact absurd h1 hne
  · exact h2
  · exact h3

theorem PhysStep_record {D : List Nat} (hD : D.length < 2 ^ 64) {r r1 : Reader} {t : Nat}
    {frag : List Nat} (h : Reader.PhysStep D r r1 t frag) (h1 : 1 ≤ t) (h4 : t ≤ 4) :
    PhysAt D
      (sub64 (sub64 (sub64 r1.end_of_buffer_offset_ r1.buffer_.length) kHeaderSize) frag.length)
      t frag ∧
    ¬ sub64 (sub64 (sub64 r1.end_of_buffer_offset_ r1.buffer_.length) kHeaderSize) frag.length
      < r.initial_offset_ := by
  rcases h.kind with h1' | ⟨h2, _⟩ | ⟨s, b, hp, hb, _, hoff, hge⟩
  · simp only [kEof, kMaxRecordType, kLastType] at h1'; omega
  · simp only [kBadRecord, kMaxRecordType, kLastType] at h2; omega
  · have hbt := charToUnsigned_inj_small b t hb (by omega)
    have hs : s % 2 ^ 64 = s := Nat.mod_eq_of_lt (by have := hp.inside; omega)
    rw [hoff, hs]
    rw [hs] at hge
    rw [← hbt]
    exact ⟨hp, hge⟩

/-- A reader that differs from `r1` in the reporter and the resync flag only. -/
theorem cont_state {D : List Nat} {r r1 r2 : Reader} {t : Nat} {frag : List Nat} {fuel : Nat}
    (h : Reader.PhysStep D r r1 t frag) (hne : t ≠ kEof)
    (hr2 : r2 = { r1 with reporter_ := r2.reporter_, resyncing_ := r2.resyncing_ })
    (hfuel : r.buffer_.length + r.file_.data.length + 1 ≤ fuel + 1) :
    (∃ o, Reader.TracksAt D r2 o) ∧ r2.buffer_.length + r2.file_.data.length + 1 ≤ fuel ∧
      r2.initial_offset_ = r.initial_offset_ ∧
      r2.last_record_offset_ = r.last_record_offset_ := by
  have hdec := PhysStep_dec h hne
  obtain ⟨o1, ho1⟩ := h.tracks
  have e1 : r2.buffer_ = r1.buffer_ := by rw [hr2]
  have e2 : r2.file_ = r1.file_ := by rw [hr2]
  have e3 : r2.end_of_buffer_offset_ = r1.end_of_buffer_offset_ := by rw [hr2]
  have e4 : r2.initial_offset_ = r1.initial_offset_ := by rw [hr2]
  have e5 : r2.last_record_offset_ = r1.last_record_offset_ := by rw [hr2]
  refine ⟨⟨o1, TracksAt_congr ho1 e1 e2 e3⟩, ?_, e4.trans h.init_eq, e5.trans h.last_eq⟩
  rw [e1, e2]
  omega

theorem Outcome_of_cont {D : List Nat} {r r2 : Reader} {res : ReadResult}
    (h : Reader.Outcome D r2.initial_offset_ r2.last_record_offset_ res)
    (hi : r2.initial_offset_ = r.initial_offset_)
    (hl : r2.last_record_offset_ = r.last_record_offset_) :
    Reader.Outcome D r.initial_offset_ r.last_record_offset_ res := by
  rw [← hi, ← hl]
  exact h

theorem FragState_false (D : List Nat) (i : Nat) (scratch : List Nat) (p : Nat) :
    FragState D i false scratch p := by
  intro h
  cases h

/-- Every run of the loop of `ReadRecord` on a reader that tracks a file of fewer than
`2^64` bytes returns, and what it leaves is an `Outcome`. -/
theorem rrl_general (crc : Crc32c) (D : List Nat) (hD : D.length < 2 ^ 64) :
    ∀ (fuel : Nat) (r : Reader) (scratch : List Nat) (infrag : Bool) (pro : Nat)
      (fragment : List Nat),
      (∃ o, Reader.TracksAt D r o) → FragState D r.initial_offset_ infrag scratch pro →
      r.buffer_.length + r.file_.data.length + 1 ≤ fuel →
      ∃ res, Reader.ReadRecordLoop crc fuel r scratch infrag pro fragment = some res ∧
        Reader.Outcome D r.initial_offset_ r.last_record_offset_ res := by
  intro fuel
  induction fuel with
  | zero => intro r scratch infrag pro fragment _ _ h; omega
  | succ fuel ih =>
    intro r scratch infrag pro fragment ⟨o, htr⟩ hfs hfuel
    obtain ⟨t, frag, r1, h1, hstep⟩ := rpr_general crc D r fragment o htr
    rw [Reader.ReadRecordLoop, h1]
    dsimp only
    -- a loop iteration that goes on with the reader `r2`
    have cont : ∀ (r2 : Reader) (scratch2 : List Nat) (infrag2 : Bool) (pro2 : Nat),
        t ≠ kEof →
        r2 = { r1 with reporter_ := r2.reporter_, resyncing_ := r2.resyncing_ } →
        FragState D r.initial_offset_ infrag2 scratch2 pro2 →
        ∃ res, Reader.ReadRecordLoop crc fuel r2 scratch2 infrag2 pro2 frag = some res ∧
          Reader.Outcome D r.initial_offset_ r.last_record_offset_ res := by
      intro r2 scratch2 infrag2 pro2 hne hr2 hfs2
      obtain ⟨c1, c2, c3, c4⟩ := cont_state hstep hne hr2 hfuel
      obtain ⟨res, hres, hout⟩ := ih r2 scratch2 infrag2 pro2 frag c1 (by rw [c3]; exact hfs2) c2
      exact ⟨res, hres, Outcome_of_cont hout c3 c4⟩
    -- a return with the reader `r2`
    have tracks2 : ∀ (r2 : Reader),
        r2.buffer_ = r1.buffer_ → r2.file_ = r1.file_ →
        r2.end_of_buffer_offset_ = r1.end_of_buffer_offset_ →
        ∃ o, Reader.TracksAt D r2 o := by
      intro r2 e1 e2 e3
      obtain ⟨o1, ho1⟩ := hstep.tracks
      exact ⟨o1, TracksAt_congr ho1 e1 e2 e3⟩
    by_cases hc1 : (r1.resyncing_ && t == kMiddleType) = true
    · rw [if_pos hc1]
      have ht : t = kMiddleType := by simp at hc1; exact hc1.2
      exact cont r1 scratch infrag pro (by rw [ht]; decide) rfl hfs
    rw [if_neg hc1]
    by_cases hc2 : (r1.resyncing_ && t == kLastType) = true
    · rw [if_pos hc2]
      have ht : t = kLastType := by simp at hc2; exact hc2.2
      exact cont { r1 with resyncing_ := false } scratch infrag pro (by rw [ht]; decide) rfl hfs
    rw [if_neg hc2]
    by_cases hc3 : (t == kFullType) = true
    · rw [if_pos hc3]
      have ht : t = kFullType := by simpa using hc3
      have hrec := PhysStep_record hD hstep (by rw [ht]; decide) (by rw [ht]; decide)
      have hsame := same_pos_ite r1 ((infrag && !scratch.isEmpty) = true) scratch.length
        "partial record without end(1)"
      refine ⟨_, rfl, ?_, ?_, ?_, ?_⟩
      · exact tracks2 _ (by show Reader.buffer_ _ = _; rw [hsame])
          (by show Reader.file_ _ = _; rw [hsame])
          (by show Reader.end_of_buffer_offset_ _ = _; rw [hsame])
      · show Reader.initial_offset_ _ = _
        rw [hsame]
        exact hstep.init_eq
      · intro _
        exact ⟨_, t, frag, rfl, hrec.1, hrec.2, Or.inl ⟨ht, rfl⟩⟩
      · intro h
        cases h
    rw [if_neg hc3]
    by_cases hc4 : (t == kFirstType) = true
    · rw [if_pos hc4]
      have ht : t = kFirstType := by simpa using hc4
      have hrec := PhysStep_record hD hstep (by rw [ht]; decide) (by rw [ht]; decide)
      have hsame := same_pos_ite r1 ((infrag && !scratch.isEmpty) = true) scratch.length
        "partial record without end(2)"
      refine cont _ frag true _ (by rw [ht]; decide) ?_ ?_
      · rw [hsame]
      · intro _
        exact ⟨frag, [], by rw [← ht]; exact hrec.1, by simp, hrec.2⟩
    rw [if_neg hc4]
    by_cases hc5 : (t == kMiddleType) = true
    · rw [if_pos hc5]
      have ht : t = kMiddleType := by simpa using hc5
      by_cases hin : (!infrag) = true
      · rw [if_pos hin]
        exact cont _ scratch infrag pro (by rw [ht]; decide)
          (by rw [ReportCorruption_fields]) hfs
      · rw [if_neg hin]
        refine cont _ (scratch ++ frag) infrag pro (by rw [ht]; decide) rfl ?_
        intro hi
        obtain ⟨F, rest, hp, hs, hge⟩ := hfs hi
        exact ⟨F, rest ++ frag, hp, by rw [hs, List.append_assoc], hge⟩
    rw [if_neg hc5]
    by_cases hc6 : (t == kLastType) = true
    · rw [if_pos hc6]
      have ht : t = kLastType := by simpa using hc6
      by_cases hin : (!infrag) = true
      · rw [if_pos hin]
        exact cont _ scratch infrag pro (by rw [ht]; decide)
          (by rw [ReportCorruption_fields]) hfs
      · rw [if_neg hin]
        have hi : infrag = true := by simpa using hin
        obtain ⟨F, rest, hp, hs, hge⟩ := hfs hi
        refine ⟨_, rfl, tracks2 _ rfl rfl rfl, hstep.init_eq, ?_, ?_⟩
        · intro _
          exact ⟨_, kFirstType, F, rfl, hp, hge,
            Or.inr ⟨rfl, rest ++ frag, by
              show scratch ++ frag = _
              rw [hs, List.append_assoc]⟩⟩
        · intro h
          cases h
    rw [if_neg hc6]
    by_cases hc7 : (t == kEof) = true
    · rw [if_pos hc7]
      refine ⟨_, rfl, tracks2 _ rfl rfl rfl, hstep.init_eq, ?_, ?_⟩
      · intro h
        cases h
      · intro _
        exact hstep.last_eq
    rw [if_neg hc7]
    have hne : t ≠ kEof := by simpa using hc7
    by_cases hc8 : (t == kBadRecord) = true
    · rw [if_pos hc8]
      by_cases hin : infrag = true
      · rw [if_pos hin]
        exact cont _ [] false pro hne (by rw [ReportCorruption_fields])
          (FragState_false _ _ _ _)
      · rw [if_neg hin]
        exact cont _ scratch infrag pro hne rfl hfs
    rw [if_neg hc8]
    exact cont _ [] false pro hne (by rw [ReportCorruption_fields])
      (FragState_false _ _ _ _)

theorem SkipToInitialBlock_init (r : Reader) :
    r.SkipToInitialBlock.2.initial_offset_ = r.initial_offset_ := by
  simp only [Reader.SkipToInitialBlock]
  generalize (if r.initial_offset_ % kBlockSize > kBlockSize - 6
      then add64 (r.initial_offset_ - r.initial_offset_ % kBlockSize) kBlockSize
      else r.initial_offset_ - r.initial_offset_ % kBlockSize) = B
  split
  · split
    · rw [ReportDrop_fields]
    · rfl
  · rfl

theorem SkipToInitialBlock_tracks (D : List Nat) (r : Reader) (hb : r.buffer_ = [])
    (hf : r.file_.data = D) (hi : r.initial_offset_ < 2 ^ 64)
    (hok : r.SkipToInitialBlock.1 = true) :
    (∃ o, Reader.TracksAt D r.SkipToInitialBlock.2 o) ∧
      r.SkipToInitialBlock.2.initial_offset_ = r.initial_offset_ ∧
      r.SkipToInitialBlock.2.last_record_offset_ = r.last_record_offset_ := by
  simp only [Reader.SkipToInitialBlock] at hok ⊢
  generalize hB : (if r.initial_offset_ % kBlockSize > kBlockSize - 6
      then add64 (r.initial_offset_ - r.initial_offset_ % kBlockSize) kBlockSize
      else r.initial_offset_ - r.initial_offset_ % kBlockSize) = B at hok ⊢
  have hB64 : B % 2 ^ 64 = B := by
    apply Nat.mod_eq_of_lt
    rw [← hB]
    split
    · unfold add64
      exact Nat.mod_lt _ (by norm_num)
    · omega
  by_cases hpos : B > 0
  · simp only [if_pos hpos] at hok ⊢
    cases hh : r.file_.healthy with
    | false =>
      have hs : r.file_.Skip B = (Status.IOError "skip", r.file_) := by
        unfold SequentialFile.Skip
        rw [hh]
        rfl
      rw [hs] at hok
      simp [Status.ok] at hok
    | true =>
      have hs : r.file_.Skip B = (Status.OK, ⟨r.file_.data.drop B, true⟩) := by
        simp [SequentialFile.Skip, hh]
      rw [hs]
      simp only [Status.ok, Bool.not_true, Bool.false_eq_true, if_false]
      refine ⟨⟨B, ?_, ?_, ?_⟩, trivial, trivial⟩
      · show r.buffer_ = _
        rw [hb]
        rfl
      · show r.file_.data.drop B = D.drop (B + r.buffer_.length)
        rw [hb, hf]
        rfl
      · show B = (B + r.buffer_.length) % 2 ^ 64
        rw [hb]
        exact hB64.symm
  · simp only [if_neg hpos]
    have hB0 : B = 0 := by omega
    refine ⟨⟨0, ?_, ?_, ?_⟩, trivial, trivial⟩
    · show r.buffer_ = _
      rw [hb]
      rfl
    · show r.file_.data = D.drop (0 + r.buffer_.length)
      rw [hb, hf]
      rfl
    · show B = (0 + r.buffer_.length) % 2 ^ 64
      rw [hb, hB0]
      rfl

/-- Every `ReadRecord` call on a reader of a file of fewer than `2^64` bytes returns.
When the reader is fresh or has returned a record before (`Reads`), a call that returns
true leaves in `LastRecordOffset()` the file offset of a `FULL` physical record holding
the record returned or of a `FIRST` physical record holding its beginning, and the
reader stays in such a state after every call that returns true and after every call
made once a record was returned. -/
theorem ReadRecord_general (crc : Crc32c) (D : List Nat) (hD : D.length < 2 ^ 64)
    (r : Reader) (hi : r.initial_offset_ < 2 ^ 64) (hr : Reader.Reads D r) :
    ∃ res, r.ReadRecord crc = some res ∧
      res.reader.initial_offset_ = r.initial_offset_ ∧
      (res.ok = true →
        ∃ s b F, res.reader.LastRecordOffset = s ∧ PhysAt D s b F ∧
          ¬ s < r.initial_offset_ ∧
          ((b = kFullType ∧ res.record = F) ∨
            (b = kFirstType ∧ ∃ rest, res.record = F ++ rest))) ∧
      (res.ok = true ∨ ¬ r.last_record_offset_ < r.initial_offset_ →
        Reader.Reads D res.reader ∧
          ¬ res.reader.last_record_offset_ < res.reader.initial_offset_) := by
  have fin : ∀ (r2 : Reader), r2.initial_offset_ = r.initial_offset_ →
      r2.last_record_offset_ = r.last_record_offset_ → (∃ o, Reader.TracksAt D r2 o) →
      ∃ res,
        Reader.ReadRecordLoop crc (r2.file_.data.length + r2.buffer_.length + 1) r2 [] false 0 []
          = some res ∧
        res.reader.initial_offset_ = r.initial_offset_ ∧
        (res.ok = true →
          ∃ s b F, res.reader.LastRecordOffset = s ∧ PhysAt D s b F ∧
            ¬ s < r.initial_offset_ ∧
            ((b = kFullType ∧ res.record = F) ∨
              (b = kFirstType ∧ ∃ rest, res.record = F ++ rest))) ∧
        (res.ok = true ∨ ¬ r.last_record_offset_ < r.initial_offset_ →
          Reader.Reads D res.reader ∧
            ¬ res.reader.last_record_offset_ < res.reader.initial_offset_) := by
    intro r2 e1 e2 htr
    obtain ⟨res, hres, hout⟩ := rrl_general crc D hD
      (r2.file_.data.length + r2.buffer_.length + 1) r2 [] false 0 [] htr
      (FragState_false _ _ _ _) (by omega)
    rw [e1, e2] at hout
    refine ⟨res, hres, hout.init_eq, hout.found, ?_⟩
    intro h
    have hge : ¬ res.reader.last_record_offset_ < res.reader.initial_offset_ := by
      rw [hout.init_eq]
      cases hok : res.ok with
      | true =>
        obtain ⟨s, _, _, hs, _, hge, _⟩ := hout.found hok
        rw [hs]
        exact hge
      | false =>
        rw [hout.kept hok]
        rcases h with h | h
        · rw [hok] at h
          cases h
        · exact h
    exact ⟨⟨fun hlt => absurd hlt hge, fun _ => hout.tracks⟩, hge⟩
  unfold Reader.ReadRecord
  by_cases hlt : r.last_record_offset_ < r.initial_offset_
  · simp only [if_pos hlt]
    obtain ⟨hb, hf⟩ := hr.fresh hlt
    cases hok : r.SkipToInitialBlock.1 with
    | false =>
      simp only [Bool.not_false, if_true]
      refine ⟨_, rfl, ?_, ?_, ?_⟩
      · exact SkipToInitialBlock_init r
      · intro h
        cases h
      · intro h
        rcases h with h | h
        · cases h
        · exact absurd hlt h
    | true =>
      simp only [Bool.not_true, Bool.false_eq_true, if_false]
      obtain ⟨htr, e1, e2⟩ := SkipToInitialBlock_tracks D r hb hf hi hok
      exact fin _ e1 e2 htr
  · simp only [if_neg hlt, Bool.not_true, Bool.false_eq_true, if_false]
    exact fin r rfl rfl (hr.tracked hlt)

theorem Reads_mk0 (D : List Nat) (healthy : Bool) (reporter : Option (List (Nat × Status)))
    (checksum : Bool) (initial_offset : Nat) :
    Reader.Reads D (Reader.mk0 ⟨D, healthy⟩ reporter checksum initial_offset) :=
  ⟨fun _ => ⟨rfl, rfl⟩, fun _ => ⟨0, rfl, rfl, rfl⟩⟩

end log
end leveldb

namespace leveldb
namespace log

/-- The offsets `LastRecordOffset()` reports on a written log. For a log `w` produced by `AddRecord` calls from the
payloads `ps` on an empty file (all operations succeeding) and a reader with any 64-bit
`initial_offset`, every `ReadRecord` call that returns true returns the next payload
that starts at or after `initial_offset`, and `LastRecordOffset()` is then the file
offset at which the writer put the header of the first physical record (the `FULL` or
the `FIRST` fragment) of that logical record; after the last such record `ReadRecord`
returns false. -/
theorem ReadRecordsWithOffsets_written (crc : Crc32c) (hc : crc.Lawful) (ps : List (List Nat))
    (w : Writer) (initial_offset : Nat) (checksum : Bool)
    (hw : Writer.AddRecords crc (Writer.mk0 crc ⟨[], true⟩) ps = some w)
    (hinit : initial_offset < 2 ^ 64) (hsize : w.dest_.contents.length < 2 ^ 64) :
    ∃ r,
      Reader.ReadRecordsWithOffsets crc
          (((Writer.recordExtents crc (Writer.mk0 crc ⟨[], true⟩) ps).filter
              (fun e => decide (initial_offset ≤ e.1))).length + 1)
          (Reader.mk0 ⟨w.dest_.contents, true⟩ (some []) checksum initial_offset)
        = some (((Writer.recordExtents crc (Writer.mk0 crc ⟨[], true⟩) ps).filter
              (fun e => decide (initial_offset ≤ e.1))).map (fun e => (e.2.2, e.1)), true, r) := by
  obtain ⟨w1, X, items, hrun, hcont, hrec, _⟩ :=
    addRecords_records crc ps (Writer.mk0 crc ⟨[], true⟩) (WriterInv_mk0 crc)
  rw [hw] at hrun
  cases hrun
  have hX : w.dest_.contents = X := by simpa [Writer.mk0] using hcont
  have hrec0 : Records crc 0 w.dest_.contents items
      (Writer.recordExtents crc (Writer.mk0 crc ⟨[], true⟩) ps) := by
    rw [hX]; exact hrec
  obtain ⟨r, _, h, _⟩ := read_offsets crc hc _ items _ hrec0 initial_offset checksum hinit hsize
  exact ⟨r, h⟩

/-- An instance of `ReadRecordsWithOffsets_written`: four records at the offsets 0, 8, 18 and 25; a reader with
`initial_offset = 9` returns the last two, with `LastRecordOffset()` 18 and then 25. -/
theorem ReadRecordsWithOffsets_written_example :
    Writer.recordExtents sampleCrc (Writer.mk0 sampleCrc ⟨[], true⟩)
        [[97], [98, 98, 98], [], [99, 99]]
      = [(0, 8, [97]), (8, 18, [98, 98, 98]), (18, 25, []), (25, 34, [99, 99])] ∧
    ∃ r,
      Reader.ReadRecordsWithOffsets sampleCrc
          (((Writer.recordExtents sampleCrc (Writer.mk0 sampleCrc ⟨[], true⟩)
              [[97], [98, 98, 98], [], [99, 99]]).filter
              (fun e => decide (9 ≤ e.1))).length + 1)
          (Reader.mk0 ⟨[216, 234, 194, 163, 1, 0, 1, 97, 220, 234, 4, 116, 3, 0, 1, 98, 98, 98,
            216, 234, 134, 162, 0, 0, 1, 216, 234, 134, 202, 2, 0, 1, 99, 99], true⟩
            (some []) true 9)
        = some (((Writer.recordExtents sampleCrc (Writer.mk0 sampleCrc ⟨[], true⟩)
              [[97], [98, 98, 98], [], [99, 99]]).filter
              (fun e => decide (9 ≤ e.1))).map (fun e => (e.2.2, e.1)), true, r) :=
  ⟨by decide,
    ReadRecordsWithOffsets_written sampleCrc sampleCrc_lawful [[97], [98, 98, 98], [], [99, 99]]
      ⟨⟨[216, 234, 194, 163, 1, 0, 1, 97, 220, 234, 4, 116, 3, 0, 1, 98, 98, 98,
          216, 234, 134, 162, 0, 0, 1, 216, 234, 134, 202, 2, 0, 1, 99, 99], true⟩, 34,
        [1, 2, 3, 4, 5]⟩ 9 true (by decide) (by norm_num) (by decide)⟩

/-- An instance of `ReadRecord_general`: on the file with a `FULL` record with an empty
payload at offset 0, a physical record with the type byte 5 at offset 7 and a `FULL`
record with the payload `c` at offset 14, read from `initial_offset = 0`, the first call
returns the empty record with `LastRecordOffset() = 0`, the second call returns false,
and the third call returns the record `c` with `LastRecordOffset() = 14`. -/
theorem ReadRecord_general_example :
    (∃ res, (Reader.mk0 ⟨[0, 0, 0, 0, 0, 0, 1, 0, 0, 0, 0, 0, 0, 5, 0, 0, 0, 0, 1, 0, 1, 99], true⟩
        (some []) false 0).ReadRecord sampleCrc = some res ∧
      Reader.Reads [0, 0, 0, 0, 0, 0, 1, 0, 0, 0, 0, 0, 0, 5, 0, 0, 0, 0, 1, 0, 1, 99]
        res.reader) ∧
    (((Reader.mk0 ⟨[0, 0, 0, 0, 0, 0, 1, 0, 0, 0, 0, 0, 0, 5, 0, 0, 0, 0, 1, 0, 1, 99], true⟩
        (some []) false 0).ReadRecord sampleCrc).bind
      (fun res1 => (res1.reader.ReadRecord sampleCrc).bind
        (fun res2 => (res2.reader.ReadRecord sampleCrc).map
          (fun res3 => ((res1.ok, res1.record, res1.reader.LastRecordOffset), res2.ok,
            (res3.ok, res3.record, res3.reader.LastRecordOffset))))))
      = some ((true, [], 0), false, (true, [99], 14)) := by
  constructor
  swap
  · decide
  obtain ⟨res, h, _, _, hr⟩ := ReadRecord_general sampleCrc
    [0, 0, 0, 0, 0, 0, 1, 0, 0, 0, 0, 0, 0, 5, 0, 0, 0, 0, 1, 0, 1, 99] (by norm_num [List.length])
    (Reader.mk0 ⟨[0, 0, 0, 0, 0, 0, 1, 0, 0, 0, 0, 0, 0, 5, 0, 0, 0, 0, 1, 0, 1, 99], true⟩
      (some []) false 0) (by norm_num [Reader.mk0]) (Reads_mk0 _ _ _ _ _)
  exact ⟨res, h, (hr (Or.inr (by simp [Reader.mk0]))).1⟩

/-- C22: `LastRecordOffset()` after a `ReadRecord` call that returned true, evaluated on
the 22-byte file that holds a `FULL` record with an empty payload at offset 0, a physical
record with the type byte 5 and an empty payload at offset 7, and a `FULL` record with
the payload `c` at offset 14, read without checksum verification from
`initial_offset = 7`. The first `ReadRecord` call returns false (the type byte 5 is the
value of `kEof`) and leaves the last record in the buffer; the second call runs
`SkipToInitialBlock` again, which sets `end_of_buffer_offset_` to 0, and returns true
with the record `c`; `LastRecordOffset()` is then `2^64 - 8`, not the offset 14 of the
header of that record. -/
theorem C22_last_record_offset_failing_input :
    ((Reader.mk0 ⟨[0, 0, 0, 0, 0, 0, 1, 0, 0, 0, 0, 0, 0, 5, 0, 0, 0, 0, 1, 0, 1, 99], true⟩
        (some []) false 7).ReadRecord sampleCrc).bind
      (fun res => (res.reader.ReadRecord sampleCrc).map
        (fun res2 => (res.ok, res2.ok, res2.record, res2.reader.LastRecordOffset)))
      = some (false, true, [99], 18446744073709551608) := by
  decide

end log
end leveldb

namespace leveldb
namespace log

/-- A record that fits into what is left of the current block: the writer afterwards. -/
theorem addRecord_small (crc : Crc32c) (w : Writer) (P : List Nat) (hw : WriterInv crc w)
    (hfit : w.block_offset_ + 7 + P.length ≤ kBlockSize) :
    ∃ w1, w.AddRecord crc P = some (Status.OK, w1) ∧ WriterInv crc w1 ∧
      w1.dest_.contents.length = w.dest_.contents.length + 7 + P.length ∧
      w1.block_offset_ = w.block_offset_ + 7 + P.length ∧
      w.recordStart = w.dest_.contents.length := by
  obtain ⟨w1, X, items, hadd, hcont, hlay, hfrag, hinv, hhead⟩ := addRecord_ok crc w P hw
  have h7 : ¬ kBlockSize - w.block_offset_ < kHeaderSize := by
    simp only [kHeaderSize, kBlockSize] at hfit ⊢
    omega
  have hfl : (if P.length < kBlockSize - w.block_offset_ - kHeaderSize then P.length
      else kBlockSize - w.block_offset_ - kHeaderSize) = P.length := by
    simp only [kHeaderSize, kBlockSize] at hfit ⊢
    split <;> omega
  have hadd2 := hadd
  unfold Writer.AddRecord at hadd2
  rw [addRecordLoop_unfold crc _ w P true hw] at hadd2
  simp only [if_neg h7, hfl, List.drop_length, List.length_nil, gt_iff_lt, Nat.lt_irrefl,
    if_false, List.take_length, Option.some.injEq, Prod.mk.injEq, true_and] at hadd2
  refine ⟨w1, hadd, hinv, ?_, ?_, ?_⟩
  · rw [← hadd2]
    simp [recordHeader_length]
    omega
  · rw [← hadd2]
    simp [kHeaderSize]
  · unfold Writer.recordStart
    rw [if_neg h7, Nat.add_zero]

theorem recordExtents_cons (crc : Crc32c) (w w1 : Writer) (s : Status) (p : List Nat)
    (ps : List (List Nat)) (h : w.AddRecord crc p = some (s, w1)) :
    Writer.recordExtents crc w (p :: ps)
      = (w.recordStart, w1.dest_.contents.length, p) :: Writer.recordExtents crc w1 ps := by
  simp only [Writer.recordExtents, h]

theorem addRecords_cons (crc : Crc32c) (w w1 : Writer) (p : List Nat)
    (ps : List (List Nat)) (h : w.AddRecord crc p = some (Status.OK, w1)) :
    Writer.AddRecords crc w (p :: ps) = Writer.AddRecords crc w1 ps := by
  simp only [Writer.AddRecords, h, Status.ok, if_true]

/-- The last iteration of the loop of `AddRecord`, at the start of a block. -/
theorem addRecordLoop_last (crc : Crc32c) (w2 : Writer) (Q : List Nat) (fuel : Nat)
    (w5 : Writer) (hh : w2.dest_.healthy = true) (htc : w2.type_crc_ = InitTypeCrc crc)
    (hb : w2.block_offset_ = kBlockSize) (hcl : w2.dest_.contents.length % kBlockSize = 0)
    (hq : Q.length ≤ kBlockSize - 7)
    (h : Writer.AddRecordLoop crc (fuel + 1) w2 Q false = some (Status.OK, w5)) :
    w5.dest_.contents.length = w2.dest_.contents.length + 7 + Q.length := by
  have hinv2 : WriterInv crc w2 := by
    refine ⟨hh, htc, by rw [hb], ?_⟩
    rw [hb, hcl]
    rfl
  rw [addRecordLoop_unfold crc _ w2 Q false hinv2] at h
  have hlt7 : kBlockSize - w2.block_offset_ < kHeaderSize := by
    rw [hb]; simp [kHeaderSize]
  have hfl2 : (if Q.length < kBlockSize - 0 - kHeaderSize then Q.length
      else kBlockSize - 0 - kHeaderSize) = Q.length := by
    simp only [kHeaderSize, kBlockSize] at hq ⊢
    split <;> omega
  simp only [if_pos hlt7, hfl2, List.drop_length, List.length_nil, gt_iff_lt, Nat.lt_irrefl,
    if_false, List.take_length, Option.some.injEq, Prod.mk.injEq, true_and] at h
  rw [← h]
  simp only [List.length_append, List.length_replicate, recordHeader_length, hb]
  omega

/-- A record that needs the rest of the current block and a part of the next block: the
length of the file afterwards. -/
theorem addRecord_two (crc : Crc32c) (w : Writer) (P : List Nat) (hw : WriterInv crc w)
    (h7 : w.block_offset_ + 7 ≤ kBlockSize)
    (h1 : kBlockSize - w.block_offset_ - 7 < P.length)
    (h2 : P.length ≤ kBlockSize - w.block_offset_ - 7 + (kBlockSize - 7)) :
    ∃ w1, w.AddRecord crc P = some (Status.OK, w1) ∧
      w1.dest_.contents.length = w.dest_.contents.length + 14 + P.length := by
  obtain ⟨w1, X, items, hadd, hcont, hlay, hfrag, hinv, hhead⟩ := addRecord_ok crc w P hw
  refine ⟨w1, hadd, ?_⟩
  have hn7 : ¬ kBlockSize - w.block_offset_ < kHeaderSize := by
    simp only [kHeaderSize, kBlockSize] at h7 ⊢
    omega
  have hfl : (if P.length < kBlockSize - w.block_offset_ - kHeaderSize then P.length
      else kBlockSize - w.block_offset_ - kHeaderSize) = kBlockSize - w.block_offset_ - 7 := by
    simp only [kHeaderSize, kBlockSize] at h1 ⊢
    split <;> omega
  generalize hfl0 : kBlockSize - w.block_offset_ - 7 = fl at hfl h1 h2
  have htake : (P.take fl).length = fl := by
    rw [List.length_take]; omega
  have hdrop : (P.drop fl).length = P.length - fl := List.length_drop _ _
  have hadd2 := hadd
  unfold Writer.AddRecord at hadd2
  rw [addRecordLoop_unfold crc _ w P true hw] at hadd2
  simp only [if_neg hn7, hfl] at hadd2
  rw [if_pos (by rw [hdrop]; omega)] at hadd2
  obtain ⟨n, hn⟩ : ∃ n, P.length = n + 1 := ⟨P.length - 1, by omega⟩
  rw [hn] at hadd2
  have hk : kBlockSize = 32768 := rfl
  have key : w1.dest_.contents.length = _ := addRecordLoop_last crc _ _ _ w1
    (by exact hw.healthy) (by exact hw.type_crc)
    (by
      show w.block_offset_ + kHeaderSize + (P.take fl).length = kBlockSize
      rw [htake, kHeaderSize]
      omega)
    (by
      show (w.dest_.contents ++ (List.replicate 0 0
        ++ (recordHeader crc _ (P.take fl) ++ P.take fl))).length % kBlockSize = 0
      have := hw.congr_len
      simp only [List.length_append, List.length_replicate, recordHeader_length, htake]
      simp only [kBlockSize] at this h7 hfl0 ⊢
      omega)
    (by rw [hdrop]; omega) hadd2
  rw [key]
  simp only [List.length_append, List.length_replicate, recordHeader_length, htake, hdrop]
  omega

/-- The records `"a"`, `"b"*1000`, `""`, `"c"*33000` written from offset 0 start at the
offsets 0, 8, 1015 and 1022, and the file has 34036 bytes. -/
theorem scenario_extents (crc : Crc32c) :
    ∃ w, Writer.AddRecords crc (Writer.mk0 crc ⟨[], true⟩)
        [[97], List.replicate 1000 98, [], List.replicate 33000 99] = some w ∧
      w.dest_.contents.length = 34036 ∧
      Writer.recordExtents crc (Writer.mk0 crc ⟨[], true⟩)
        [[97], List.replicate 1000 98, [], List.replicate 33000 99]
        = [(0, 8, [97]), (8, 1015, List.replicate 1000 98), (1015, 1022, []),
            (1022, 34036, List.replicate 33000 99)] := by
  have hb : (List.replicate 1000 98).length = 1000 := List.length_replicate _ _
  have hc : (List.replicate 33000 99).length = 33000 := List.length_replicate _ _
  generalize List.replicate 1000 98 = B at hb ⊢
  generalize List.replicate 33000 99 = C at hc ⊢
  obtain ⟨w1, ha1, hi1, hl1, hb1, hs1⟩ := addRecord_small crc (Writer.mk0 crc ⟨[], true⟩) [97]
    (WriterInv_mk0 crc) (by simp [Writer.mk0, kBlockSize])
  have hl1' : w1.dest_.contents.length = 8 := by rw [hl1]; rfl
  have hb1' : w1.block_offset_ = 8 := by rw [hb1]; rfl
  obtain ⟨w2, ha2, hi2, hl2, hb2, hs2⟩ := addRecord_small crc w1 B hi1
    (by rw [hb1', hb]; simp [kBlockSize])
  rw [hl1', hb] at hl2
  rw [hb1', hb] at hb2
  obtain ⟨w3, ha3, hi3, hl3, hb3, hs3⟩ := addRecord_small crc w2 [] hi2
    (by rw [hb2]; simp [kBlockSize])
  rw [hl2] at hl3
  rw [hb2] at hb3
  obtain ⟨w4, ha4, hl4⟩ := addRecord_two crc w3 C hi3
    (by rw [hb3]; simp [kBlockSize]) (by rw [hb3, hc]; simp [kBlockSize])
    (by rw [hb3, hc]; simp [kBlockSize])
  rw [hl3, hc] at hl4
  have hs4 : w3.recordStart = 1022 := by
    unfold Writer.recordStart
    rw [hb3, hl3]
    simp [kBlockSize, kHeaderSize]
  refine ⟨w4, ?_, hl4, ?_⟩
  · rw [addRecords_cons crc _ w1 _ _ ha1, addRecords_cons crc _ w2 _ _ ha2,
      addRecords_cons crc _ w3 _ _ ha3, addRecords_cons crc _ w4 _ _ ha4]
    rfl
  · rw [recordExtents_cons crc _ w1 _ _ _ ha1, recordExtents_cons crc _ w2 _ _ _ ha2,
      recordExtents_cons crc _ w3 _ _ _ ha3, recordExtents_cons crc _ w4 _ _ _ ha4,
      hs1, hs2, hs3, hs4, hl1', hl2, hl3, hl4]
    rfl

/-- A run of `ReadRecord` calls that returns no record consists of one call, which
returns false. -/
theorem readRecordsOff_none (crc : Crc32c) (r r1 : Reader)
    (h : Reader.ReadRecordsWithOffsets crc 1 r = some ([], true, r1)) :
    ∃ res, r.ReadRecord crc = some res ∧ res.ok = false ∧ res.reader = r1 := by
  unfold Reader.ReadRecordsWithOffsets at h
  cases hr : r.ReadRecord crc with
  | none => rw [hr] at h; cases h
  | some res =>
    rw [hr] at h
    simp only at h
    cases hok : res.ok with
    | true =>
      rw [hok] at h
      simp [Reader.ReadRecordsWithOffsets] at h
    | false =>
      rw [hok] at h
      simp only [Bool.false_eq_true, if_false, Option.some.injEq, Prod.mk.injEq, true_and] at h
      exact ⟨res, rfl, hok, h⟩

/-- The scenario of C23 for a reader: what it returns with the initial offsets 32768 and
1022. -/
theorem scenario_read (crc : Crc32c) (hc : crc.Lawful) :
    ∃ w, Writer.AddRecords crc (Writer.mk0 crc ⟨[], true⟩)
        [[97], List.replicate 1000 98, [], List.replicate 33000 99] = some w ∧
      w.dest_.contents.length = 34036 ∧
      (∃ r, Reader.ReadRecordsWithOffsets crc 1
          (Reader.mk0 ⟨w.dest_.contents, true⟩ (some []) true 32768) = some ([], true, r) ∧
        r.reporter_ = some []) ∧
      (∃ r, Reader.ReadRecordsWithOffsets crc 2
          (Reader.mk0 ⟨w.dest_.contents, true⟩ (some []) true 1022)
          = some ([(List.replicate 33000 99, 1022)], true, r) ∧
        r.reporter_ = some []) := by
  obtain ⟨w, hw, hlen, hext⟩ := scenario_extents crc
  obtain ⟨w1, X, items, hrun, hcont, hrec, _⟩ :=
    addRecords_records crc _ (Writer.mk0 crc ⟨[], true⟩) (WriterInv_mk0 crc)
  rw [hw] at hrun
  cases hrun
  have hX : w.dest_.contents = X := by simpa [Writer.mk0] using hcont
  rw [hext] at hrec
  have hrec0 : Records crc 0 w.dest_.contents items
      [(0, 8, [97]), (8, 1015, List.replicate 1000 98), (1015, 1022, []),
        (1022, 34036, List.replicate 33000 99)] := by
    rw [hX]; exact hrec
  generalize List.replicate 1000 98 = B at hw hrec0 ⊢
  generalize List.replicate 33000 99 = C at hw hrec0 ⊢
  refine ⟨w, hw, hlen, ?_, ?_⟩
  · obtain ⟨r, calls, h1, h2, _, h4⟩ := read_offsets crc hc _ items _ hrec0 32768 true
      (by norm_num) (by rw [hlen]; norm_num)
    have hf : ([(0, 8, [97]), (8, 1015, B), (1015, 1022, []), (1022, 34036, C)] :
        List (Nat × Nat × List Nat)).filter (fun e => decide (32768 ≤ e.1)) = [] := by
      simp [List.filter]
    rw [hf] at h1
    have hcalls : calls = [] := by
      by_contra hne
      exact (h4 hne).2 (by decide)
    rw [hcalls] at h2
    exact ⟨r, h1, h2⟩
  · obtain ⟨r, calls, h1, h2, _, h4⟩ := read_offsets crc hc _ items _ hrec0 1022 true
      (by norm_num) (by rw [hlen]; norm_num)
    have hf : ([(0, 8, [97]), (8, 1015, B), (1015, 1022, []), (1022, 34036, C)] :
        List (Nat × Nat × List Nat)).filter (fun e => decide (1022 ≤ e.1))
        = [(1022, 34036, C)] := by
      simp [List.filter]
    rw [hf] at h1
    have hcalls : calls = [] := by
      by_contra hne
      obtain ⟨⟨e, he, h5, h6⟩, _⟩ := h4 hne
      simp only [List.mem_cons, List.mem_singleton, List.not_mem_nil, or_false] at he
      rcases he with h | h | h | h <;> subst h <;> simp only at h5 h6 <;> omega
    rw [hcalls] at h2
    exact ⟨r, h1, h2⟩

/-- C23, counterexample: after writing `"a"`, `"b"*1000`, `""`, `"c"*33000` from offset
0, the first `ReadRecord` of a reader constructed with `initial_offset = 32768` returns
false: it does not return `"c"*33000`, whose first fragment starts at offset 1022. -/
theorem C23_wal_scenario_counterexample :
    ((Writer.AddRecords sampleCrc (Writer.mk0 sampleCrc ⟨[], true⟩)
        [[97], List.replicate 1000 98, [], List.replicate 33000 99]).bind
      (fun w => (Reader.mk0 ⟨w.dest_.contents, true⟩ (some []) true 32768).ReadRecord
        sampleCrc)).map (fun res => res.ok) = some false := by
  obtain ⟨w, hw, _, ⟨r, h1, _⟩, _⟩ := scenario_read sampleCrc sampleCrc_lawful
  obtain ⟨res, hres, hok, _⟩ := readRecordsOff_none sampleCrc _ r h1
  rw [hw, Option.some_bind, hres, Option.map_some', hok]

/-- C23, amended: after writing the records `"a"`, `"b"*1000`, `""`, `"c"*33000` from
offset 0 (the file then has 34036 bytes and the records start at the offsets 0, 8, 1015
and 1022), a reader constructed with `initial_offset = 32768` returns no record (its
first `ReadRecord` returns false) and makes no corruption report, and a reader
constructed with `initial_offset = 1022` returns `"c"*33000` as its first record, with
`LastRecordOffset() = 1022`, then false, and makes no corruption report. -/
theorem C23_wal_scenario (crc : Crc32c) (hc : crc.Lawful) :
    ∃ w, Writer.AddRecords crc (Writer.mk0 crc ⟨[], true⟩)
        [[97], List.replicate 1000 98, [], List.replicate 33000 99] = some w ∧
      w.dest_.contents.length = 34036 ∧
      Writer.recordExtents crc (Writer.mk0 crc ⟨[], true⟩)
        [[97], List.replicate 1000 98, [], List.replicate 33000 99]
        = [(0, 8, [97]), (8, 1015, List.replicate 1000 98), (1015, 1022, []),
            (1022, 34036, List.replicate 33000 99)] ∧
      (∃ res, (Reader.mk0 ⟨w.dest_.contents, true⟩ (some []) true 32768).ReadRecord crc
          = some res ∧ res.ok = false ∧ res.reader.reporter_ = some []) ∧
      (∃ r, Reader.ReadRecordsWithOffsets crc 2
          (Reader.mk0 ⟨w.dest_.contents, true⟩ (some []) true 1022)
          = some ([(List.replicate 33000 99, 1022)], true, r) ∧
        r.reporter_ = some []) := by
  obtain ⟨w, hw, hlen, ⟨r, h1, h2⟩, h3⟩ := scenario_read crc hc
  obtain ⟨w', hw', _, hext⟩ := scenario_extents crc
  obtain ⟨res, hres, hok, hr⟩ := readRecordsOff_none crc _ r h1
  exact ⟨w, hw, hlen, hext, ⟨res, hres, hok, by rw [hr]; exact h2⟩, h3⟩

/-- C23 amended, an instance: the scenario with the sample checksum. -/
theorem C23_wal_scenario_witness :
    ∃ w, Writer.AddRecords sampleCrc (Writer.mk0 sampleCrc ⟨[], true⟩)
        [[97], List.replicate 1000 98, [], List.replicate 33000 99] = some w ∧
      w.dest_.contents.length = 34036 ∧
      Writer.recordExtents sampleCrc (Writer.mk0 sampleCrc ⟨[], true⟩)
        [[97], List.replicate 1000 98, [], List.replicate 33000 99]
        = [(0, 8, [97]), (8, 1015, List.replicate 1000 98), (1015, 1022, []),
            (1022, 34036, List.replicate 33000 99)] ∧
      (∃ res, (Reader.mk0 ⟨w.dest_.contents, true⟩ (some []) true 32768).ReadRecord sampleCrc
          = some res ∧ res.ok = false ∧ res.reader.reporter_ = some []) ∧
      (∃ r, Reader.ReadRecordsWithOffsets sampleCrc 2
          (Reader.mk0 ⟨w.dest_.contents, true⟩ (some []) true 1022)
          = some ([(List.replicate 33000 99, 1022)], true, r) ∧
        r.reporter_ = some []) :=
  C23_wal_scenario sampleCrc sampleCrc_lawful

end log
end leveldb

namespace leveldb
namespace log

theorem LayoutThen_of_layout (crc : Crc32c) (T : List Nat) {o : Nat} {X : List Nat}
    {items : List PhysRec} (h : Layout crc o X items) :
    LayoutThen crc T (o + X.length) o (X ++ T) items := by
  induction h with
  | nil o => simpa using LayoutThen.nil
  | cons o p t frag X items hp ht1 ht4 hfit hrest ih =>
    have hl : o + (List.replicate p 0 ++ (recordHeader crc t frag ++ (frag ++ X))).length
        = o + p + 7 + frag.length + X.length := by
      simp [recordHeader_length]; omega
    rw [hl]
    simp only [List.append_assoc]
    exact LayoutThen.cons o p t frag (X ++ T) items hp ht1 ht4 hfit ih

theorem LayoutThen_prepend (crc : Crc32c) (T : List Nat) (e : Nat) {o : Nat} {X : List Nat}
    {items : List PhysRec} (h : Layout crc o X items) {Y : List Nat} {items2 : List PhysRec}
    (h2 : LayoutThen crc T e (o + X.length) Y items2) :
    LayoutThen crc T e o (X ++ Y) (items ++ items2) := by
  induction h with
  | nil o => simpa using h2
  | cons o p t frag X items hp ht1 ht4 hfit hrest ih =>
    have hl : o + (List.replicate p 0 ++ (recordHeader crc t frag ++ (frag ++ X))).length
        = o + p + 7 + frag.length + X.length := by
      simp [recordHeader_length]; omega
    rw [hl] at h2
    simp only [List.append_assoc, List.cons_append]
    exact LayoutThen.cons o p t frag (X ++ Y) (items ++ items2) hp ht1 ht4 hfit (ih h2)

theorem LayoutThen_length_le (crc : Crc32c) {T : List Nat} {e o : Nat} {U : List Nat}
    {items : List PhysRec} (h : LayoutThen crc T e o U items) :
    7 * items.length + T.length ≤ U.length := by
  induction h with
  | nil => simp
  | cons o p t frag X items hp ht1 ht4 hfit hrest ih =>
    simp [recordHeader_length]; omega

theorem rpr_step_then (crc : Crc32c) (hc : crc.Lawful) (T : List Nat) (e : Nat) (r : Reader)
    (result : List Nat) (o : Nat) (it : PhysRec) (items : List PhysRec) (U : List Nat)
    (hal : Aligned r o) (hU : r.buffer_ ++ r.file_.data = U)
    (hlay : LayoutThen crc T e o U (it :: items)) :
    ∃ r1, r.ReadPhysicalRecord crc result =
        some (if it.offset % 2 ^ 64 < r.initial_offset_ then (kBadRecord, [], r1)
              else (it.type, it.payload, r1)) ∧
      Aligned r1 (it.offset + 7 + it.payload.length) ∧
      LayoutThen crc T e (it.offset + 7 + it.payload.length) (r1.buffer_ ++ r1.file_.data)
        items ∧
      SameControl r r1 := by
  cases hlay with
  | cons _ p t frag X _ hp ht1 ht4 hfit hrest =>
    obtain ⟨r1, h1, h2, h3, h4⟩ :=
      rpr_step_raw crc hc r result o p t frag X hal hU hp ht1 ht4 hfit
    exact ⟨r1, h1, h2, by rw [h3]; exact hrest, h4⟩

/-- Reading the fragments of one logical record that are followed by other bytes. -/
theorem rrl_group_then (crc : Crc32c) (hc : crc.Lawful) (T : List Nat) (e : Nat)
    (begin : Bool) (g : List PhysRec) (P : List Nat) (hg : Frag begin g P) :
    ∀ (fuel : Nat) (r : Reader) (o : Nat) (rest : List PhysRec) (scratch : List Nat) (pro : Nat)
      (fragment : List Nat),
      Aligned r o → LayoutThen crc T e o (r.buffer_ ++ r.file_.data) (g ++ rest) →
      (begin = false → r.resyncing_ = false) →
      (∀ it ∈ g, ¬ it.offset % 2 ^ 64 < r.initial_offset_) →
      g.length ≤ fuel →
      ∃ res o1, Reader.ReadRecordLoop crc fuel r scratch (!begin) pro fragment = some res ∧
        res.ok = true ∧
        res.record = (if begin then P else scratch ++ P) ∧
        Aligned res.reader o1 ∧
        LayoutThen crc T e o1 (res.reader.buffer_ ++ res.reader.file_.data) rest ∧
        res.reader.reporter_ = r.reporter_ ∧
        res.reader.checksum_ = r.checksum_ ∧
        res.reader.initial_offset_ = r.initial_offset_ ∧
        res.reader.resyncing_ = false ∧
        res.reader.last_record_offset_
          = (if begin then (g.head?.map (fun it => it.offset % 2 ^ 64)).getD 0 else pro) := by
  induction hg with
  | full o0 P =>
    intro fuel r o rest scratch pro fragment hal hlay hres hoff hfuel
    obtain ⟨r1, hstep, hal1, hlay1, hsc⟩ :=
      rpr_step_then crc hc T e r fragment o _ _ _ hal rfl hlay
    rw [if_neg (hoff _ (List.mem_singleton.mpr rfl))] at hstep
    obtain ⟨fuel1, rfl⟩ : ∃ k, fuel = k + 1 := ⟨fuel - 1, by simp at hfuel; omega⟩
    obtain ⟨hrep, hck, hlro, hio, hrs⟩ := hsc
    refine ⟨_, _, rrl_full crc fuel1 r r1 scratch fragment P pro hstep,
      rfl, rfl, hal1, hlay1, hrep, hck, hio, rfl, ?_⟩
    show sub64 (sub64 (sub64 r1.end_of_buffer_offset_ r1.buffer_.length) kHeaderSize) P.length
      = o0 % 2 ^ 64
    rw [hal1.eob_eq]
    exact sub64_chain2 _ _ _
  | last o0 P =>
    intro fuel r o rest scratch pro fragment hal hlay hres hoff hfuel
    obtain ⟨r1, hstep, hal1, hlay1, hsc⟩ :=
      rpr_step_then crc hc T e r fragment o _ _ _ hal rfl hlay
    rw [if_neg (hoff _ (List.mem_singleton.mpr rfl))] at hstep
    obtain ⟨fuel1, rfl⟩ : ∃ k, fuel = k + 1 := ⟨fuel - 1, by simp at hfuel; omega⟩
    obtain ⟨hrep, hck, hlro, hio, hrs⟩ := hsc
    exact ⟨_, _, rrl_last crc fuel1 r r1 scratch fragment P pro hstep (hrs.trans (hres rfl)),
      rfl, rfl, hal1, hlay1, hrep, hck, hio, rfl, rfl⟩
  | first o0 f g1 P hg1 ih =>
    intro fuel r o rest scratch pro fragment hal hlay hres hoff hfuel
    obtain ⟨r1, hstep, hal1, hlay1, hsc⟩ :=
      rpr_step_then crc hc T e r fragment o _ _ _ hal rfl hlay
    rw [if_neg (hoff _ (List.mem_cons_self _ _))] at hstep
    obtain ⟨fuel1, rfl⟩ : ∃ k, fuel = k + 1 := ⟨fuel - 1, by simp at hfuel; omega⟩
    obtain ⟨hrep, hck, hlro, hio, hrs⟩ := hsc
    have hoff1 : ∀ it ∈ g1, ¬ it.offset % 2 ^ 64 < r1.initial_offset_ := by
      intro it hit
      rw [hio]
      exact hoff it (List.mem_cons_of_mem _ hit)
    obtain ⟨res, o1, hloop, hok, hrec, hal2, hlay2, hrep2, hck2, hio2, hrs2, hlro2⟩ :=
      ih fuel1 { r1 with resyncing_ := false } _ rest f
        (sub64 (sub64 (sub64 r1.end_of_buffer_offset_ r1.buffer_.length) kHeaderSize) f.length)
        f hal1 hlay1 (fun _ => rfl) hoff1 (by simp at hfuel; omega)
    refine ⟨res, o1, ?_, hok, ?_, hal2, hlay2, hrep2.trans hrep, hck2.trans hck,
      hio2.trans hio, hrs2, ?_⟩
    · rw [← hloop]
      exact rrl_first crc fuel1 r r1 scratch fragment f pro hstep
    · rw [hrec]; rfl
    · rw [hlro2]
      show sub64 (sub64 (sub64 r1.end_of_buffer_offset_ r1.buffer_.length) kHeaderSize) f.length
        = o0 % 2 ^ 64
      rw [hal1.eob_eq]
      exact sub64_chain2 _ _ _
  | middle o0 f g1 P hg1 ih =>
    intro fuel r o rest scratch pro fragment hal hlay hres hoff hfuel
    obtain ⟨r1, hstep, hal1, hlay1, hsc⟩ :=
      rpr_step_then crc hc T e r fragment o _ _ _ hal rfl hlay
    rw [if_neg (hoff _ (List.mem_cons_self _ _))] at hstep
    obtain ⟨fuel1, rfl⟩ : ∃ k, fuel = k + 1 := ⟨fuel - 1, by simp at hfuel; omega⟩
    obtain ⟨hrep, hck, hlro, hio, hrs⟩ := hsc
    have hoff1 : ∀ it ∈ g1, ¬ it.offset % 2 ^ 64 < r1.initial_offset_ := by
      intro it hit
      rw [hio]
      exact hoff it (List.mem_cons_of_mem _ hit)
    obtain ⟨res, o1, hloop, hok, hrec, hal2, hlay2, hrep2, hck2, hio2, hrs2, hlro2⟩ :=
      ih fuel1 { r1 with resyncing_ := false } _ rest (scratch ++ f) pro
        f hal1 hlay1 (fun _ => rfl) hoff1 (by simp at hfuel; omega)
    refine ⟨res, o1, ?_, hok, ?_, hal2, hlay2, hrep2.trans hrep, hck2.trans hck,
      hio2.trans hio, hrs2, ?_⟩
    · rw [← hloop]
      exact rrl_middle crc fuel1 r r1 scratch fragment f pro hstep (hrs.trans (hres rfl))
    · rw [hrec]; simp
    · rw [hlro2]; rfl

end log
end leveldb

namespace leveldb
namespace log

/-- Reading the first fragments of a logical record that are followed by other bytes:
the loop goes on at these bytes, inside a fragmented record unless nothing was read. -/
theorem rrl_pre_then (crc : Crc32c) (hc : crc.Lawful) (T : List Nat) (e : Nat) (begin : Bool)
    (g : List PhysRec) (hg : FragPre begin g) :
    ∀ (fuel : Nat) (r : Reader) (o : Nat) (scratch : List Nat) (pro : Nat)
      (fragment : List Nat),
      Aligned r o → LayoutThen crc T e o (r.buffer_ ++ r.file_.data) g →
      r.resyncing_ = false →
      (∀ it ∈ g, ¬ it.offset % 2 ^ 64 < r.initial_offset_) →
      ∃ r1 scratch1 pro1 frag1,
        Reader.ReadRecordLoop crc (fuel + g.length) r scratch (!begin) pro fragment
          = Reader.ReadRecordLoop crc fuel r1 scratch1 (!begin || !g.isEmpty) pro1 frag1 ∧
        Aligned r1 e ∧ r1.buffer_ ++ r1.file_.data = T ∧
        r1.reporter_ = r.reporter_ ∧ r1.checksum_ = r.checksum_ ∧
        r1.initial_offset_ = r.initial_offset_ ∧ r1.resyncing_ = false ∧
        r1.last_record_offset_ = r.last_record_offset_ := by
  induction hg with
  | nil b =>
    intro fuel r o scratch pro fragment hal hlay hres hoff
    generalize hU : r.buffer_ ++ r.file_.data = U at hlay
    cases hlay with
    | nil =>
      refine ⟨r, scratch, pro, fragment, ?_, hal, hU, rfl, rfl, rfl, hres, rfl⟩
      simp
  | first o0 f g1 hg1 ih =>
    intro fuel r o scratch pro fragment hal hlay hres hoff
    obtain ⟨r1, hstep, hal1, hlay1, hsc⟩ :=
      rpr_step_then crc hc T e r fragment o _ _ _ hal rfl hlay
    rw [if_neg (hoff _ (List.mem_cons_self _ _))] at hstep
    obtain ⟨hrep, hck, hlro, hio, hrs⟩ := hsc
    have hoff1 : ∀ it ∈ g1, ¬ it.offset % 2 ^ 64 < r1.initial_offset_ := by
      intro it hit
      rw [hio]
      exact hoff it (List.mem_cons_of_mem _ hit)
    obtain ⟨r2, scratch2, pro2, frag2, hloop, hal2, hU2, hrep2, hck2, hio2, hrs2, hlro2⟩ :=
      ih fuel { r1 with resyncing_ := false } _ f
        (sub64 (sub64 (sub64 r1.end_of_buffer_offset_ r1.buffer_.length) kHeaderSize) f.length)
        f hal1 hlay1 rfl hoff1
    refine ⟨r2, scratch2, pro2, frag2, ?_, hal2, hU2, hrep2.trans hrep, hck2.trans hck,
      hio2.trans hio, hrs2, hlro2.trans hlro⟩
    have h1 := rrl_first crc (fuel + g1.length) r r1 scratch fragment f pro hstep
    simp only [Bool.not_false, Bool.true_or] at hloop
    simp only [Bool.not_true, List.isEmpty_cons, Bool.not_false, Bool.or_true, List.length_cons]
    rw [← hloop]
    exact h1
  | middle o0 f g1 hg1 ih =>
    intro fuel r o scratch pro fragment hal hlay hres hoff
    obtain ⟨r1, hstep, hal1, hlay1, hsc⟩ :=
      rpr_step_then crc hc T e r fragment o _ _ _ hal rfl hlay
    rw [if_neg (hoff _ (List.mem_cons_self _ _))] at hstep
    obtain ⟨hrep, hck, hlro, hio, hrs⟩ := hsc
    have hoff1 : ∀ it ∈ g1, ¬ it.offset % 2 ^ 64 < r1.initial_offset_ := by
      intro it hit
      rw [hio]
      exact hoff it (List.mem_cons_of_mem _ hit)
    obtain ⟨r2, scratch2, pro2, frag2, hloop, hal2, hU2, hrep2, hck2, hio2, hrs2, hlro2⟩ :=
      ih fuel { r1 with resyncing_ := false } _ (scratch ++ f) pro
        f hal1 hlay1 rfl hoff1
    refine ⟨r2, scratch2, pro2, frag2, ?_, hal2, hU2, hrep2.trans hrep, hck2.trans hck,
      hio2.trans hio, hrs2, hlro2.trans hlro⟩
    have h1 := rrl_middle crc (fuel + g1.length) r r1 scratch fragment f pro hstep
      (hrs.trans hres)
    simp only [Bool.not_false, Bool.true_or] at hloop
    simp only [Bool.not_false, Bool.true_or, List.length_cons]
    rw [← hloop]
    exact h1

/-- Reading the logical records that lie in front of other bytes: they are returned one
after the other, and the reader arrives at these bytes. -/
theorem readRecords_then (crc : Crc32c) (hc : crc.Lawful) (T : List Nat) (e : Nat)
    (items : List PhysRec) (ps : List (List Nat)) (hg : Groups items ps) :
    ∀ (r : Reader) (o : Nat),
      Aligned r o → LayoutThen crc T e o (r.buffer_ ++ r.file_.data) items →
      ¬ r.last_record_offset_ < r.initial_offset_ →
      (∀ it ∈ items, ¬ it.offset % 2 ^ 64 < r.initial_offset_) →
      r.resyncing_ = false →
      ∃ r1, Aligned r1 e ∧ r1.buffer_ ++ r1.file_.data = T ∧
        r1.reporter_ = r.reporter_ ∧ r1.checksum_ = r.checksum_ ∧
        r1.initial_offset_ = r.initial_offset_ ∧ r1.resyncing_ = false ∧
        ¬ r1.last_record_offset_ < r1.initial_offset_ ∧
        ∀ m, Reader.ReadRecords crc (ps.length + m) r
          = (Reader.ReadRecords crc m r1).map (fun x => (ps ++ x.1, x.2)) := by
  induction hg with
  | nil =>
    intro r o hal hlay hlro hoff hres
    generalize hU : r.buffer_ ++ r.file_.data = U at hlay
    cases hlay with
    | nil =>
      refine ⟨r, hal, hU, rfl, rfl, rfl, hres, hlro, ?_⟩
      intro m
      simp
  | cons g rest P ps hf hgr ih =>
    intro r o hal hlay hlro hoff hres
    have hlen := LayoutThen_length_le crc hlay
    have hfuel : g.length ≤ r.file_.data.length + r.buffer_.length + 1 := by
      simp only [List.length_append] at hlen
      omega
    obtain ⟨res, o1, hloop, hok, hrec, hal1, hlay1, hrep1, hck1, hio1, hrs1, hlro1⟩ :=
      rrl_group_then crc hc T e true g P hf _ r o rest [] 0 [] hal hlay (fun h => by cases h)
        (fun it hit => hoff it (List.mem_append_left _ hit)) hfuel
    have hhead : ∃ it, it ∈ g ∧ g.head? = some it := by
      cases hf with
      | full o0 P => exact ⟨_, List.mem_singleton.mpr rfl, rfl⟩
      | first o0 f g1 P1 h1 => exact ⟨_, List.mem_cons_self _ _, rfl⟩
    obtain ⟨it0, hit0, hh0⟩ := hhead
    have hlro2 : ¬ res.reader.last_record_offset_ < res.reader.initial_offset_ := by
      rw [hlro1, hio1, hh0]
      exact hoff it0 (List.mem_append_left _ hit0)
    have hoff2 : ∀ it ∈ rest, ¬ it.offset % 2 ^ 64 < res.reader.initial_offset_ := by
      intro it hit
      rw [hio1]
      exact hoff it (List.mem_append_right _ hit)
    obtain ⟨r2, hal2, hU2, hrep2, hck2, hio2, hrs2, hlro3, hrun⟩ :=
      ih res.reader o1 hal1 hlay1 hlro2 hoff2 hrs1
    refine ⟨r2, hal2, hU2, hrep2.trans hrep1, hck2.trans hck1, hio2.trans hio1, hrs2, hlro3, ?_⟩
    intro m
    have hRR : r.ReadRecord crc = some res := by
      rw [Reader.ReadRecord]
      simp only [if_neg hlro, Bool.not_true, Bool.false_eq_true, if_false]
      exact hloop
    rw [List.length_cons, show ps.length + 1 + m = (ps.length + m) + 1 by omega,
      Reader.ReadRecords, hRR]
    simp only [hok, if_true, hrun m, hrec]
    cases Reader.ReadRecords crc m r2 with
    | none => rfl
    | some v => rfl

end log
end leveldb

namespace leveldb
namespace log

/-- Finding the header of the physical record at the head of the unread bytes, whatever
its seven header bytes `H` are: after at most one refill the buffer starts with them. -/
theorem rpr_locate (crc : Crc32c) (r : Reader) (result : List Nat)
    (o p : Nat) (H frag X : List Nat) (hH : H.length = 7) (hal : Aligned r o)
    (hU : r.buffer_ ++ r.file_.data = List.replicate p 0 ++ (H ++ (frag ++ X)))
    (hp : p = 0 ∨ (p < 7 ∧ (o + p) % kBlockSize = 0))
    (hfit : (o + p) % kBlockSize + 7 + frag.length ≤ kBlockSize) :
    ∃ k r2 rest, r.ReadPhysicalRecord crc result
        = Reader.ReadPhysicalRecordLoop crc (k + 1) r2 result ∧
      r2.buffer_ = H ++ (frag ++ rest) ∧
      rest ++ r2.file_.data = X ∧
      AlignedAt r2.file_ rest r2.eof_ r2.end_of_buffer_offset_ (o + p + 7 + frag.length) ∧
      SameControl r r2 := by
  have h7 : H.length = 7 := hH
  have hflen : frag.length < 65536 := by simp only [kBlockSize] at hfit; omega
  have hUlen : r.buffer_.length + r.file_.data.length = p + (7 + (frag.length + X.length)) := by
    have := congrArg List.length hU
    simpa [h7] using this
  by_cases hb : r.buffer_.length < kHeaderSize
  · -- the buffer holds only padding: refill from the file
    have hne : r.eof_ = false := by
      cases he : r.eof_ with
      | false => rfl
      | true =>
        have := (hal.at_eof he).1
        rw [this] at hUlen
        simp only [kHeaderSize, List.length_nil] at hb hUlen
        omega
    have hblen : r.buffer_.length = p := by
      have h1 := hal.not_eof hne
      rcases hp with hp0 | ⟨hp7, hp0⟩
      · subst hp0
        by_cases hz : o % kBlockSize = 0
        · rw [roundUp_self o hz] at h1; omega
        · rw [roundUp_sub o hz] at h1
          simp only [kHeaderSize, kBlockSize] at *
          omega
      · rw [roundUp_of_pad o p hp7 hp0] at h1; omega
    have hsplit := List.append_inj hU (by simpa using hblen)
    have hfile : r.file_.data = H ++ (frag ++ X) := hsplit.2
    have hzero : (o + p) % kBlockSize = 0 := by
      rcases hp with hp0 | ⟨_, hp0⟩
      · subst hp0
        by_contra hz
        have h1 := hal.not_eof hne
        rw [roundUp_sub o hz] at h1
        simp only [kHeaderSize, kBlockSize] at *
        omega
      · exact hp0
    have hfitB : 7 + frag.length ≤ kBlockSize := by omega
    have htakeB : r.file_.data.take kBlockSize
        = H ++ (frag ++ X.take (kBlockSize - 7 - frag.length)) := by
      rw [hfile, List.take_append_eq_append_take, List.take_append_eq_append_take, h7]
      rw [List.take_of_length_le (by omega), List.take_of_length_le (by omega)]
    have hdropB : r.file_.data.drop kBlockSize = X.drop (kBlockSize - 7 - frag.length) := by
      rw [hfile, List.drop_append_eq_append_drop, List.drop_append_eq_append_drop, h7]
      rw [List.drop_of_length_le (by omega), List.drop_of_length_le (by omega)]
      simp only [List.nil_append]
    let rest := X.take (kBlockSize - 7 - frag.length)
    let r2 : Reader :=
      { r with file_ := { r.file_ with data := r.file_.data.drop kBlockSize },
               buffer_ := r.file_.data.take kBlockSize,
               end_of_buffer_offset_ :=
                 add64 r.end_of_buffer_offset_ (r.file_.data.take kBlockSize).length,
               eof_ := decide ((r.file_.data.take kBlockSize).length < kBlockSize) }
    have hloop : r.ReadPhysicalRecord crc result
        = Reader.ReadPhysicalRecordLoop crc 1 r2 result := by
      unfold Reader.ReadPhysicalRecord
      rw [Reader.ReadPhysicalRecordLoop]
      simp only [if_pos hb, hne, Read_of_healthy _ _ hal.healthy, Status.ok]
      simp only [Bool.not_false, if_true, Bool.not_true, Bool.false_eq_true, if_false]
      by_cases hl : (r.file_.data.take kBlockSize).length < kBlockSize
      · simp only [r2, hl, decide_True, if_true]
      · simp only [r2, hl, decide_False, if_false]
    have htl : (r.file_.data.take kBlockSize).length = 7 + (frag.length + rest.length) := by
      rw [htakeB]; simp [h7, rest]
    have hrl : rest.length = min (kBlockSize - 7 - frag.length) X.length := by
      simp [rest]
    have heob2 : r2.end_of_buffer_offset_ = (o + p + (7 + (frag.length + rest.length))) % 2 ^ 64 := by
      show add64 r.end_of_buffer_offset_ (r.file_.data.take kBlockSize).length = _
      rw [htl, hal.eob_eq, hblen, add64]
      omega
    refine ⟨0, r2, rest, hloop, htakeB, ?_, ?_, ⟨rfl, rfl, rfl, rfl, rfl⟩⟩
    · show rest ++ r.file_.data.drop kBlockSize = X
      rw [hdropB]
      simp only [rest, List.take_append_drop]
    · refine AlignedAt.mk hal.healthy ?_ ?_ ?_
      · show r2.end_of_buffer_offset_ = (o + p + 7 + frag.length + rest.length) % 2 ^ 64
        rw [heob2]
        congr 1
        omega
      · intro he
        have he2 : (r.file_.data.take kBlockSize).length < kBlockSize := by
          simpa [r2] using he
        have hshort : r.file_.data.length < kBlockSize := by
          rw [List.length_take] at he2
          omega
        refine ⟨?_, ?_⟩
        · show r.file_.data.drop kBlockSize = []
          exact List.drop_of_length_le (by omega)
        · show o + p + 7 + frag.length + rest.length ≤ roundUp (o + p + 7 + frag.length)
          have := roundUp_next (o + p) (7 + frag.length) hzero (by omega) hfitB
          rw [show o + p + 7 + frag.length = o + p + (7 + frag.length) by omega, this]
          omega
      · intro he
        have he2 : ¬ (r.file_.data.take kBlockSize).length < kBlockSize := by
          simpa [r2] using he
        show o + p + 7 + frag.length + rest.length = roundUp (o + p + 7 + frag.length)
        have := roundUp_next (o + p) (7 + frag.length) hzero (by omega) hfitB
        rw [show o + p + 7 + frag.length = o + p + (7 + frag.length) by omega, this]
        omega
  · -- the buffer already holds the header
    have hp0 : p = 0 := by
      rcases hp with hp0 | ⟨hp7, hp0⟩
      · exact hp0
      · exfalso
        have h1 := roundUp_of_pad o p hp7 hp0
        cases he : r.eof_ with
        | false =>
          have := hal.not_eof he
          simp only [kHeaderSize] at hb
          omega
        | true =>
          have := (hal.at_eof he).2
          simp only [kHeaderSize] at hb
          omega
    subst hp0
    have hbl : 7 + frag.length ≤ r.buffer_.length := by
      cases he : r.eof_ with
      | false =>
        have h1 := hal.not_eof he
        have hz : o % kBlockSize ≠ 0 := by
          intro hz
          rw [roundUp_self o hz] at h1
          simp only [kHeaderSize] at hb
          omega
        rw [roundUp_sub o hz] at h1
        simp only [Nat.add_zero] at hfit
        omega
      | true =>
        have := (hal.at_eof he).1
        rw [this] at hUlen
        simp only [List.length_nil] at hUlen
        omega
    simp only [List.replicate_zero, List.nil_append, Nat.add_zero] at hU hfit ⊢
    let rest := r.buffer_.drop (7 + frag.length)
    have hU2 : r.buffer_.take (7 + frag.length) ++ (rest ++ r.file_.data)
        = (H ++ frag) ++ X := by
      rw [← List.append_assoc, List.take_append_drop, hU, List.append_assoc]
    have hinj := List.append_inj hU2 (by rw [List.length_take]; simp [h7]; omega)
    have hbuf : r.buffer_ = H ++ (frag ++ rest) := by
      rw [← List.append_assoc, ← hinj.1]
      exact (List.take_append_drop _ _).symm
    have hX : X = rest ++ r.file_.data := hinj.2.symm
    have hblen : r.buffer_.length = 7 + (frag.length + rest.length) := by
      rw [hbuf]; simp [h7]
    have hz : o % kBlockSize ≠ 0 := by
      intro hz
      cases he : r.eof_ with
      | false =>
        have h1 := hal.not_eof he
        rw [roundUp_self o hz] at h1
        omega
      | true =>
        have h1 := (hal.at_eof he).2
        rw [roundUp_self o hz] at h1
        omega
    have hru : roundUp (o + 7 + frag.length) = roundUp o := by
      rw [show o + 7 + frag.length = o + (7 + frag.length) by omega]
      exact roundUp_within o _ (by omega) hz
    refine ⟨1, r, rest, rfl, hbuf, hX.symm, ?_, ⟨rfl, rfl, rfl, rfl, rfl⟩⟩
    · refine AlignedAt.mk hal.healthy ?_ ?_ ?_
      · show r.end_of_buffer_offset_ = (o + 7 + frag.length + rest.length) % 2 ^ 64
        rw [hal.eob_eq, hblen]
        congr 1
        omega
      · intro he
        have h1 := hal.at_eof he
        refine ⟨h1.1, ?_⟩
        show o + 7 + frag.length + rest.length ≤ roundUp (o + 7 + frag.length)
        rw [hru]
        omega
      · intro he
        have h1 := hal.not_eof he
        show o + 7 + frag.length + rest.length = roundUp (o + 7 + frag.length)
        rw [hru]
        omega

theorem rpr_parse_bad (crc : Crc32c) (fuel : Nat) (r : Reader) (result : List Nat)
    (c t : Nat) (frag rest : List Nat) (hnz : 1 ≤ t ∨ frag ≠ []) (hlen : frag.length < 65536)
    (hbuf : r.buffer_
      = (EncodeFixed32 c ++ [frag.length % 256, frag.length / 256 % 256, t]) ++ (frag ++ rest))
    (hck : r.checksum_ = true)
    (hbad : crc.Value (t :: frag) ≠ crc.Unmask (c % 2 ^ 32)) :
    Reader.ReadPhysicalRecordLoop crc (fuel + 1) r result =
      some (kBadRecord, result,
        Reader.ReportCorruption { r with buffer_ := [] } r.buffer_.length
          "checksum mismatch") := by
  have hblen : r.buffer_.length = 7 + frag.length + rest.length := by
    rw [hbuf]; simp [EncodeFixed32]; omega
  have hg4 : r.buffer_.getD 4 0 = frag.length % 256 := by
    rw [hbuf]; simp [EncodeFixed32, List.getD]
  have hg5 : r.buffer_.getD 5 0 = frag.length / 256 % 256 := by
    rw [hbuf]; simp [EncodeFixed32, List.getD]
  have hg6 : r.buffer_.getD 6 0 = t := by
    rw [hbuf]; simp [EncodeFixed32, List.getD]
  have hlenEq : (frag.length % 256 % 256) ||| ((frag.length / 256 % 256 % 256) <<< 8)
      = frag.length := by
    rw [or_shift8 _ _ (by omega)]; omega
  have hdrop6 : (r.buffer_.drop 6).take (1 + frag.length) = t :: frag := by
    rw [hbuf]
    simp [EncodeFixed32, Nat.add_comm 1]
  have hdec : DecodeFixed32 r.buffer_ = c % 2 ^ 32 := by
    rw [hbuf, List.append_assoc, DecodeFixed32_EncodeFixed32]
  have hnlt : ¬ r.buffer_.length < kHeaderSize := by rw [hblen, kHeaderSize]; omega
  have hngt : ¬ kHeaderSize + frag.length > r.buffer_.length := by rw [hblen, kHeaderSize]; omega
  have htz : (charToUnsigned t == kZeroType && frag.length == 0) = false := by
    rcases hnz with h | h
    · have h1 : (charToUnsigned t == kZeroType) = false := by
        have := charToUnsigned_eq_zero t
        simp [kZeroType]; omega
      rw [h1]; rfl
    · have h1 : (frag.length == 0) = false := by simpa using h
      rw [h1, Bool.and_false]
  unfold Reader.ReadPhysicalRecordLoop
  have hbad2 : crc.Value (t :: frag) ≠ crc.Unmask (c % 4294967296) := hbad
  simp only [hg4, hg5, hg6, hlenEq, hdrop6, hdec, if_neg hnlt, if_neg hngt, htz, hck]
  simp [hbad2]

/-- Reading a physical record whose stored checksum does not fit its type and fragment,
with verification on, in any state of the reader: the rest of the buffered block is
dropped and `ReportCorruption` is called once, with the number of bytes dropped. -/
theorem rpr_bad_call (crc : Crc32c) (r : Reader) (result : List Nat) (o p c t : Nat)
    (frag X : List Nat) (hal : Aligned r o)
    (hU : r.buffer_ ++ r.file_.data = List.replicate p 0 ++
      ((EncodeFixed32 c ++ [frag.length % 256, frag.length / 256 % 256, t]) ++ (frag ++ X)))
    (hp : p = 0 ∨ (p < 7 ∧ (o + p) % kBlockSize = 0)) (ht1 : 1 ≤ t)
    (hfit : (o + p) % kBlockSize + 7 + frag.length ≤ kBlockSize)
    (hck : r.checksum_ = true)
    (hbad : crc.Value (t :: frag) ≠ crc.Unmask (c % 2 ^ 32)) :
    ∃ r2 n, r.ReadPhysicalRecord crc result
        = some (kBadRecord, result, Reader.ReportCorruption r2 n "checksum mismatch") ∧
      r2.buffer_ = [] ∧ Aligned r2 (o + p + n) ∧
      r2.file_.data = X.drop (n - 7 - frag.length) ∧
      7 + frag.length ≤ n ∧ n ≤ 7 + frag.length + X.length ∧
      (o + p + n = nextBlock (o + p) ∨
        (n = 7 + frag.length + X.length ∧ o + p + n ≤ nextBlock (o + p))) ∧
      SameControl r r2 := by
  have hflen : frag.length < 65536 := by simp only [kBlockSize] at hfit; omega
  obtain ⟨k, r2, rest, hloop, hbuf, hX, hal2, hsc⟩ :=
    rpr_locate crc r result o p
      (EncodeFixed32 c ++ [frag.length % 256, frag.length / 256 % 256, t]) frag X
      (by simp [EncodeFixed32]) hal hU hp hfit
  have hparse := rpr_parse_bad crc k r2 result c t frag rest (Or.inl ht1) hflen hbuf (hsc.2.1.trans hck)
    hbad
  have hblen : r2.buffer_.length = 7 + frag.length + rest.length := by
    rw [hbuf]; simp [EncodeFixed32]; omega
  have hXlen : X.length = rest.length + r2.file_.data.length := by
    rw [← hX]; simp
  refine ⟨{ r2 with buffer_ := [] }, r2.buffer_.length, hloop.trans hparse, rfl, ?_, ?_,
    by omega, by omega, ?_, hsc⟩
  · refine AlignedAt.mk hal2.healthy ?_ ?_ ?_
    · show r2.end_of_buffer_offset_ = (o + p + r2.buffer_.length + 0) % 2 ^ 64
      rw [hal2.eob_eq, hblen]
      congr 1
      omega
    · intro he
      refine ⟨(hal2.at_eof he).1, ?_⟩
      show o + p + r2.buffer_.length + 0 ≤ roundUp (o + p + r2.buffer_.length)
      simp only [roundUp, kBlockSize]
      omega
    · intro he
      have h1 := hal2.not_eof he
      show o + p + r2.buffer_.length + 0 = roundUp (o + p + r2.buffer_.length)
      rw [hblen]
      simp only [roundUp, kBlockSize] at h1 ⊢
      omega
  · show r2.file_.data = X.drop (r2.buffer_.length - 7 - frag.length)
    rw [hblen, ← hX, show 7 + frag.length + rest.length - 7 - frag.length = rest.length by omega,
      List.drop_left]
  · cases he : r2.eof_ with
    | false =>
      left
      have h1 := hal2.not_eof he
      rw [hblen]
      simp only [roundUp, nextBlock, kBlockSize] at h1 hfit ⊢
      omega
    | true =>
      right
      have h1 := hal2.at_eof he
      rw [h1.1] at hXlen
      rw [hblen]
      have h2 := h1.2
      simp only [roundUp, nextBlock, kBlockSize, List.length_nil] at h2 hfit hXlen ⊢
      omega

/-- The same with no initial offset and a reporter: the reporter receives the call. -/
theorem rpr_bad_crc (crc : Crc32c) (r : Reader) (result : List Nat) (o p c t : Nat)
    (frag X : List Nat) (cs : List (Nat × Status)) (hal : Aligned r o)
    (hU : r.buffer_ ++ r.file_.data = List.replicate p 0 ++
      ((EncodeFixed32 c ++ [frag.length % 256, frag.length / 256 % 256, t]) ++ (frag ++ X)))
    (hp : p = 0 ∨ (p < 7 ∧ (o + p) % kBlockSize = 0)) (ht1 : 1 ≤ t)
    (hfit : (o + p) % kBlockSize + 7 + frag.length ≤ kBlockSize)
    (hck : r.checksum_ = true) (hinit : r.initial_offset_ = 0) (hrep : r.reporter_ = some cs)
    (hbad : crc.Value (t :: frag) ≠ crc.Unmask (c % 2 ^ 32)) :
    ∃ r1 n, r.ReadPhysicalRecord crc result = some (kBadRecord, result, r1) ∧
      r1.buffer_ = [] ∧ Aligned r1 (o + p + n) ∧
      r1.file_.data = X.drop (n - 7 - frag.length) ∧
      7 + frag.length ≤ n ∧ n ≤ 7 + frag.length + X.length ∧
      (o + p + n = nextBlock (o + p) ∨
        (n = 7 + frag.length + X.length ∧ o + p + n ≤ nextBlock (o + p))) ∧
      r1.reporter_ = some (cs ++ [(n, Status.Corruption "checksum mismatch")]) ∧
      r1.checksum_ = true ∧ r1.initial_offset_ = 0 ∧
      r1.last_record_offset_ = r.last_record_offset_ ∧ r1.resyncing_ = r.resyncing_ := by
  obtain ⟨r2, n, hstep, hbuf2, hal2, hdata2, hn1, hn2, hdisj, hsc⟩ :=
    rpr_bad_call crc r result o p c t frag X hal hU hp ht1 hfit hck hbad
  obtain ⟨hrep2, hck2, hlro2, hio2, hrs2⟩ := hsc
  have hreport : Reader.ReportCorruption r2 n "checksum mismatch"
      = { r2 with reporter_ := some (cs ++ [(n, Status.Corruption "checksum mismatch")]) } := by
    unfold Reader.ReportCorruption Reader.ReportDrop
    simp only [hrep2, hrep, hio2, hinit]
    simp
  rw [hreport] at hstep
  exact ⟨_, n, hstep, hbuf2, hal2, hdata2, hn1, hn2, hdisj, rfl, hck2.trans hck,
    hio2.trans hinit, hlro2, hrs2⟩

theorem rrl_bad_infrag (crc : Crc32c) (fuel : Nat) (r r1 : Reader)
    (scratch fragment frag : List Nat) (pro : Nat)
    (hstep : r.ReadPhysicalRecord crc fragment = some (kBadRecord, frag, r1)) :
    Reader.ReadRecordLoop crc (fuel + 1) r scratch true pro fragment =
      Reader.ReadRecordLoop crc fuel
        (Reader.ReportCorruption { r1 with resyncing_ := false } scratch.length
          "error in middle of record") [] false pro frag := by
  rw [Reader.ReadRecordLoop, hstep]
  simp [kBadRecord, kEof, kMaxRecordType, kLastType, kFullType, kFirstType, kMiddleType]

/-- One turn of the loop of `ReadRecord` at a physical record whose stored checksum does
not fit, with verification on and no initial offset. -/
theorem rrl_bad_crc (crc : Crc32c) (fuel : Nat) (r : Reader) (inf : Bool)
    (scratch fragment : List Nat) (pro : Nat) (o p c t : Nat) (frag X : List Nat)
    (hal : Aligned r o)
    (hU : r.buffer_ ++ r.file_.data = List.replicate p 0 ++
      ((EncodeFixed32 c ++ [frag.length % 256, frag.length / 256 % 256, t]) ++ (frag ++ X)))
    (hp : p = 0 ∨ (p < 7 ∧ (o + p) % kBlockSize = 0)) (ht1 : 1 ≤ t)
    (hfit : (o + p) % kBlockSize + 7 + frag.length ≤ kBlockSize)
    (hck : r.checksum_ = true) (hinit : r.initial_offset_ = 0) (hrep : r.reporter_ = some [])
    (hbad : crc.Value (t :: frag) ≠ crc.Unmask (c % 2 ^ 32)) :
    ∃ r1 n scratch1 frag1 calls,
      Reader.ReadRecordLoop crc (fuel + 1) r scratch inf pro fragment
        = Reader.ReadRecordLoop crc fuel r1 scratch1 false pro frag1 ∧
      r1.buffer_ = [] ∧ Aligned r1 (o + p + n) ∧
      r1.file_.data = X.drop (n - 7 - frag.length) ∧
      7 + frag.length ≤ n ∧ n ≤ 7 + frag.length + X.length ∧
      (o + p + n = nextBlock (o + p) ∨
        (n = 7 + frag.length + X.length ∧ o + p + n ≤ nextBlock (o + p))) ∧
      r1.reporter_ = some ((n, Status.Corruption "checksum mismatch") :: calls) ∧
      (∀ c1 ∈ calls, c1.2 = Status.Corruption "error in middle of record") ∧
      r1.checksum_ = true ∧ r1.initial_offset_ = 0 ∧
      r1.last_record_offset_ = r.last_record_offset_ ∧ r1.resyncing_ = false := by
  obtain ⟨r3, n, hstep, hbuf3, hal3, hdata3, hn1, hn2, hdisj, hrep3, hck3, hio3, hlro3, hrs3⟩ :=
    rpr_bad_crc crc r fragment o p c t frag X [] hal hU hp ht1 hfit hck hinit hrep hbad
  cases inf with
  | false =>
    refine ⟨{ r3 with resyncing_ := false }, n, scratch, fragment, [],
      rrl_bad crc fuel r r3 scratch fragment fragment pro hstep, hbuf3, hal3, hdata3, hn1, hn2,
      hdisj, ?_, (fun c1 h1 => absurd h1 (List.not_mem_nil c1)), hck3, hio3, hlro3, rfl⟩
    show r3.reporter_ = _
    rw [hrep3]; rfl
  | true =>
    have hreport : Reader.ReportCorruption { r3 with resyncing_ := false } scratch.length
        "error in middle of record"
        = { r3 with resyncing_ := false,
                    reporter_ := some ([(n, Status.Corruption "checksum mismatch")] ++
                      [(scratch.length, Status.Corruption "error in middle of record")]) } := by
      unfold Reader.ReportCorruption Reader.ReportDrop
      simp only [hrep3, hio3]
      simp
    refine ⟨{ r3 with resyncing_ := false,
                      reporter_ := some ([(n, Status.Corruption "checksum mismatch")] ++
                        [(scratch.length, Status.Corruption "error in middle of record")]) },
      n, [], fragment, [(scratch.length, Status.Corruption "error in middle of record")],
      (rrl_bad_infrag crc fuel r r3 scratch fragment fragment pro hstep).trans (by rw [hreport]),
      hbuf3, hal3, hdata3, hn1, hn2, hdisj, rfl, ?_, hck3, hio3, hlro3, rfl⟩
    intro c1 h1
    rw [List.mem_singleton.mp h1]

end log
end leveldb

namespace leveldb
namespace log

theorem Layout_split_item (crc : Crc32c) :
    ∀ (pre : List PhysRec) {o : Nat} {X : List Nat} (it : PhysRec) (post : List PhysRec),
      Layout crc o X (pre ++ it :: post) →
      ∃ Xpre p Xpost,
        X = Xpre ++ (List.replicate p 0 ++
          (recordHeader crc it.type it.payload ++ (it.payload ++ Xpost))) ∧
        Layout crc o Xpre pre ∧ it.offset = o + Xpre.length + p ∧
        (p = 0 ∨ (p < 7 ∧ it.offset % kBlockSize = 0)) ∧ 1 ≤ it.type ∧
        it.offset % kBlockSize + 7 + it.payload.length ≤ kBlockSize ∧
        Layout crc (it.offset + 7 + it.payload.length) Xpost post := by
  intro pre
  induction pre with
  | nil =>
    intro o X it post h
    rw [List.nil_append] at h
    cases h with
    | cons _ p t frag X1 _ hp ht1 ht4 hfit hrest =>
      exact ⟨[], p, X1, rfl, Layout.nil o, by simp, hp, ht1, hfit, hrest⟩
  | cons a pre ih =>
    intro o X it post h
    rw [List.cons_append] at h
    cases h with
    | cons _ pa ta fa X1 _ hpa hta1 hta4 hfita hrest =>
      obtain ⟨Xpre, p, Xpost, hX, hlpre, hoff, hp, ht1, hfit, hlpost⟩ := ih it post hrest
      refine ⟨List.replicate pa 0 ++ (recordHeader crc ta fa ++ (fa ++ Xpre)), p, Xpost, ?_,
        Layout.cons o pa ta fa Xpre pre hpa hta1 hta4 hfita hlpre, ?_, hp, ht1, hfit, hlpost⟩
      · rw [hX]; simp only [List.append_assoc]
      · rw [hoff]; simp [recordHeader_length]; omega

/-- A log of whole records seen from one of its physical records: the records that end
before it, the earlier fragments of its own record, the padding in front of it. -/
theorem Records_at_item (crc : Crc32c) {o : Nat} {X : List Nat} {items : List PhysRec}
    {exts : List (Nat × Nat × List Nat)} (h : Records crc o X items exts) :
    ∀ it ∈ items, ∃ (X1 : List Nat) (items1 : List PhysRec)
        (exts1 exts2 : List (Nat × Nat × List Nat)) (Xg : List Nat) (g1 : List PhysRec)
        (p : Nat) (Xpost : List Nat),
      X = X1 ++ (Xg ++ (List.replicate p 0 ++
        (recordHeader crc it.type it.payload ++ (it.payload ++ Xpost)))) ∧
      Records crc o X1 items1 exts1 ∧ exts = exts1 ++ exts2 ∧
      Layout crc (o + X1.length) Xg g1 ∧ FragPre true g1 ∧
      it.offset = o + X1.length + Xg.length + p ∧
      (p = 0 ∨ (p < 7 ∧ it.offset % kBlockSize = 0)) ∧ 1 ≤ it.type ∧
      it.offset % kBlockSize + 7 + it.payload.length ≤ kBlockSize ∧
      (∀ e ∈ exts1, e.2.1 ≤ it.offset) ∧ (∀ e ∈ exts2, it.offset < e.2.1) := by
  induction h with
  | nil o => intro it hit; cases hit
  | cons o X1 g s P X2 items exts hl hf hh hr ih =>
    intro it hit
    rcases List.mem_append.mp hit with hg | hi
    · obtain ⟨ga, gb, rfl⟩ := List.append_of_mem hg
      obtain ⟨Xpre, p, Xpost, hX1, hlpre, hoff, hp, ht1, hfit, hlpost⟩ :=
        Layout_split_item crc ga it gb hl
      have hlen : X1.length = Xpre.length + p + 7 + it.payload.length + Xpost.length := by
        rw [hX1]; simp [recordHeader_length]; omega
      refine ⟨[], [], [], (s, o + X1.length, P) :: exts, Xpre, ga, p, Xpost ++ X2, ?_,
        Records.nil o, rfl, by simpa using hlpre, Frag_prefix hf ga it gb rfl, by simpa using hoff,
        hp, ht1, hfit, (fun e he => absurd he (List.not_mem_nil e)), ?_⟩
      · rw [hX1]; simp only [List.append_assoc, List.nil_append]
      · intro e he
        rcases List.mem_cons.mp he with rfl | he
        · show it.offset < o + X1.length
          omega
        · have := Records_ends_gt crc hr e he
          omega
    · obtain ⟨X1b, items1, exts1, exts2, Xg, g1, p, Xpost, hX2, hrec1, hexts, hlg, hfp, hoff,
        hp, ht1, hfit, h1, h2⟩ := ih it hi
      refine ⟨X1 ++ X1b, g ++ items1, (s, o + X1.length, P) :: exts1, exts2, Xg, g1, p, Xpost,
        ?_, Records.cons o X1 g s P X1b items1 exts1 hl hf hh hrec1, by rw [hexts]; rfl, ?_, hfp,
        ?_, hp, ht1, hfit, ?_, h2⟩
      · rw [hX2]; simp only [List.append_assoc]
      · rw [List.length_append, ← Nat.add_assoc]; exact hlg
      · rw [hoff, List.length_append]; omega
      · intro e he
        rcases List.mem_cons.mp he with rfl | he
        · show o + X1.length ≤ it.offset
          omega
        · exact h1 e he

theorem corruptCrc_at (crc : Crc32c) (A : List Nat) (t : Nat) (frag B : List Nat) (c : Nat) :
    corruptCrc (A ++ (recordHeader crc t frag ++ B)) A.length c
      = A ++ ((EncodeFixed32 c ++ [frag.length % 256, frag.length / 256 % 256, t]) ++ B) := by
  unfold corruptCrc
  rw [List.take_left, List.drop_append]
  simp [recordHeader, EncodeFixed32]


theorem recordHeader_inj (crc : Crc32c) {t t1 : Nat} {frag frag1 : List Nat}
    (hl : frag.length < 65536) (hl1 : frag1.length < 65536)
    (h : recordHeader crc t frag = recordHeader crc t1 frag1) :
    t = t1 ∧ frag.length = frag1.length := by
  unfold recordHeader at h
  have h2 := (List.append_inj h (by simp [EncodeFixed32])).2
  simp only [List.cons.injEq, and_true] at h2
  obtain ⟨ha, hb, hc⟩ := h2
  exact ⟨hc, by omega⟩

/-- The bytes of a log determine its physical records. -/
theorem Layout_unique (crc : Crc32c) {o : Nat} {X : List Nat} {items : List PhysRec}
    (h : Layout crc o X items) :
    ∀ {items1 : List PhysRec}, Layout crc o X items1 → items = items1 := by
  induction h with
  | nil o =>
    intro items1 h1
    generalize hX : ([] : List Nat) = X at h1
    cases h1 with
    | nil => rfl
    | cons _ p t frag X1 _ hp ht1 ht4 hfit hrest =>
      have := congrArg List.length hX
      simp [recordHeader_length] at this
      omega
  | cons o p t frag X items hp ht1 ht4 hfit hrest ih =>
    intro items1 h1
    generalize hX : List.replicate p 0 ++ (recordHeader crc t frag ++ (frag ++ X)) = U at h1
    cases h1 with
    | nil =>
      have := congrArg List.length hX
      simp [recordHeader_length] at this
    | cons _ p1 t1 frag1 X1 items2 hp1 ht11 ht41 hfit1 hrest1 =>
      have hpp : p = p1 := by
        simp only [kBlockSize] at hp hp1 hfit hfit1
        omega
      subst hpp
      have h2 := List.append_cancel_left hX
      have h3 := List.append_inj h2 (by simp [recordHeader_length])
      obtain ⟨htt, hll⟩ := recordHeader_inj crc (by simp only [kBlockSize] at hfit; omega)
        (by simp only [kBlockSize] at hfit1; omega) h3.1
      subst htt
      have h4 := List.append_inj h3.2 hll
      obtain ⟨hf, hx⟩ := h4
      subst hf
      subst hx
      rw [ih hrest1]

end log
end leveldb

namespace leveldb
namespace log

/-- Reading a log of whole records in which the stored checksum of one physical record
was replaced by another value. -/
theorem read_corrupt (crc : Crc32c) (hc : crc.Lawful)
    (hm : ∀ x, x < 2 ^ 32 → crc.Mask (crc.Unmask x) = x)
    (data : List Nat) (items : List PhysRec) (exts : List (Nat × Nat × List Nat))
    (hrec : Records crc 0 data items exts) (hsize : data.length < 2 ^ 64)
    (it : PhysRec) (hit : it ∈ items) (c : Nat) (hc32 : c < 2 ^ 32)
    (hne : c ≠ crc.Mask (crc.Value (it.type :: it.payload))) :
    ∃ r calls,
      (∀ k, Reader.ReadRecords crc
          (((exts.filter (fun e => decide (e.2.1 ≤ it.offset))).map (fun e => e.2.2) ++
            (exts.filter (fun e => decide (nextBlock it.offset ≤ e.1))).map
              (fun e => e.2.2)).length + 1 + k)
          (Reader.mk0 ⟨corruptCrc data it.offset c, true⟩ (some []) true 0)
        = some ((exts.filter (fun e => decide (e.2.1 ≤ it.offset))).map (fun e => e.2.2) ++
            (exts.filter (fun e => decide (nextBlock it.offset ≤ e.1))).map (fun e => e.2.2),
            true, r)) ∧
      r.reporter_ = some ((min (nextBlock it.offset) data.length - it.offset,
          Status.Corruption "checksum mismatch") :: calls) ∧
      (∀ c1 ∈ calls, c1.2 = Status.Corruption "error in middle of record" ∨
        c1.2 = Status.Corruption "missing start of fragmented record(1)" ∨
        c1.2 = Status.Corruption "missing start of fragmented record(2)") := by
  have hlay0 := Records_layout crc hrec
  have hbnd := Layout_bounds crc hlay0
  obtain ⟨X1, items1, exts1, exts2, Xg, g1, p, Xpost, hX, hrec1, hexts, hlg, hfp, hoff, hp,
    ht1, hfit, he1, he2⟩ := Records_at_item crc hrec it hit
  simp only [Nat.zero_add] at hlg hoff
  have hkept : exts.filter (fun e => decide (e.2.1 ≤ it.offset)) = exts1 := by
    rw [hexts]
    exact filter_ends exts1 exts2 it.offset he1 he2
  rw [hkept]
  have hdlen : data.length = it.offset + 7 + it.payload.length + Xpost.length := by
    rw [hX, hoff]; simp [recordHeader_length]; omega
  generalize hB : nextBlock it.offset = B
  have hBmod : B % kBlockSize = 0 := by
    rw [← hB]; simp only [nextBlock, kBlockSize]; omega
  have hBge : it.offset + 7 + it.payload.length ≤ B := by
    rw [← hB]; simp only [nextBlock, kBlockSize] at hfit ⊢; omega
  have hbad : crc.Value (it.type :: it.payload) ≠ crc.Unmask (c % 2 ^ 32) := by
    intro h
    apply hne
    rw [h, Nat.mod_eq_of_lt hc32, hm c hc32]
  generalize hH : EncodeFixed32 c ++ [it.payload.length % 256, it.payload.length / 256 % 256,
    it.type] = H
  -- the bytes of the file whose checksum was replaced
  have hcor : corruptCrc data it.offset c
      = X1 ++ (Xg ++ (List.replicate p 0 ++ (H ++ (it.payload ++ Xpost)))) := by
    have hl : it.offset = (X1 ++ (Xg ++ List.replicate p 0)).length := by
      rw [hoff]; simp; omega
    rw [hX, show X1 ++ (Xg ++ (List.replicate p 0 ++
        (recordHeader crc it.type it.payload ++ (it.payload ++ Xpost))))
        = (X1 ++ (Xg ++ List.replicate p 0)) ++
          (recordHeader crc it.type it.payload ++ (it.payload ++ Xpost)) by
        simp only [List.append_assoc], hl, corruptCrc_at, hH]
    simp only [List.append_assoc]
  -- the records at or after the next block
  obtain ⟨itemsA, itemsB, hsplit, hA, hgrB, hBle, _⟩ := Records_split crc B hrec
  generalize hexp : (exts.filter (fun e => decide (B ≤ e.1))).map (fun e => e.2.2) = psB
    at hgrB ⊢
  have hlayB := Layout_drop_block crc hlay0 B hBmod (Nat.zero_le _)
  have hfiltB : itemsB.filter (fun it => decide (B ≤ it.offset)) = itemsB := by
    apply List.filter_eq_self.mpr
    intro it1 hit1
    simp only [decide_eq_true_eq]
    exact hBle it1 hit1
  rw [hsplit, List.filter_append, hfiltB, Nat.sub_zero] at hlayB
  generalize hpre : itemsA.filter (fun it => decide (B ≤ it.offset)) = pre at hlayB
  have hpreA : ∀ it1 ∈ pre, it1 ∈ itemsA ∧ B ≤ it1.offset := by
    intro it1 hit1
    rw [← hpre] at hit1
    have := List.mem_filter.mp hit1
    exact ⟨this.1, by simpa using this.2⟩
  have hlenB := Layout_length_le crc hlayB
  have hlenG := Layout_length_le crc hlg
  -- the complete records in front
  have hal0 : Aligned (Reader.mk0 ⟨corruptCrc data it.offset c, true⟩ (some []) true 0) 0 :=
    Aligned_mk0 _ _ _ _
  generalize hr0 : Reader.mk0 ⟨corruptCrc data it.offset c, true⟩ (some []) true 0 = r0
    at hal0 ⊢
  have hr0U : r0.buffer_ ++ r0.file_.data = corruptCrc data it.offset c := by
    rw [← hr0]; rfl
  have hr0rep : r0.reporter_ = some [] := by rw [← hr0]; rfl
  have hr0ck : r0.checksum_ = true := by rw [← hr0]; rfl
  have hr0io : r0.initial_offset_ = 0 := by rw [← hr0]; rfl
  have hr0rs : r0.resyncing_ = false := by rw [← hr0]; rfl
  generalize hT : List.replicate p 0 ++ (H ++ (it.payload ++ Xpost)) = Tbad at hcor
  have hlayT1 : LayoutThen crc (Xg ++ Tbad) X1.length 0 (r0.buffer_ ++ r0.file_.data) items1 := by
    have := LayoutThen_of_layout crc (Xg ++ Tbad) (Records_layout crc hrec1)
    simp only [Nat.zero_add] at this
    rw [hr0U, hcor]
    exact this
  obtain ⟨r1, hal1, hU1, hrep1, hck1, hio1, hrs1, hlro1, hrun1⟩ :=
    readRecords_then crc hc (Xg ++ Tbad) X1.length items1 (exts1.map (fun e => e.2.2))
      (Records_groups crc hrec1) r0 0 hal0 hlayT1 (by rw [hr0io]; omega)
      (fun it1 _ => by rw [hr0io]; omega) hr0rs
  rw [hr0io] at hio1
  rw [hr0rep] at hrep1
  rw [hr0ck] at hck1
  -- the call of `ReadRecord` that meets the record
  have hTlen : Tbad.length = p + 7 + it.payload.length + Xpost.length := by
    rw [← hT, ← hH]; simp [EncodeFixed32]; omega
  have hlen1 : r1.file_.data.length + r1.buffer_.length
      = Xg.length + (p + 7 + it.payload.length + Xpost.length) := by
    have := congrArg List.length hU1
    simp only [List.length_append, hTlen] at this
    omega
  have hlenB2 : (data.drop B).length ≤ Xpost.length := by
    rw [List.length_drop]; omega
  obtain ⟨fuelD, hF, hFge⟩ : ∃ f, r1.file_.data.length + r1.buffer_.length + 1
      = f + pre.length + 1 + g1.length ∧ itemsB.length + 1 ≤ f := by
    refine ⟨r1.file_.data.length + r1.buffer_.length + 1 - (pre.length + 1 + g1.length), ?_, ?_⟩
    · simp only [List.length_append] at hlenB; omega
    · simp only [List.length_append] at hlenB; omega
  have hRR1 : r1.ReadRecord crc
      = Reader.ReadRecordLoop crc (fuelD + pre.length + 1 + g1.length) r1 [] false 0 [] := by
    rw [Reader.ReadRecord]
    simp only [if_neg hlro1, Bool.not_true, Bool.false_eq_true, if_false]
    rw [hF]
  have hlayG : LayoutThen crc Tbad (X1.length + Xg.length) X1.length
      (r1.buffer_ ++ r1.file_.data) g1 := by
    rw [hU1]
    exact LayoutThen_of_layout crc Tbad hlg
  obtain ⟨r2, scratch2, pro2, frag2, hloop2, hal2, hU2, hrep2, hck2, hio2, hrs2, hlro2⟩ :=
    rrl_pre_then crc hc Tbad (X1.length + Xg.length) true g1 hfp (fuelD + pre.length + 1) r1
      X1.length [] 0 [] hal1 hlayG hrs1 (fun it1 _ => by rw [hio1]; omega)
  simp only [Bool.not_true, Bool.false_or] at hloop2
  rw [hloop2] at hRR1
  rw [hio1] at hio2
  rw [hrep1] at hrep2
  rw [hck1] at hck2
  -- the record itself
  have hoff2 : X1.length + Xg.length + p = it.offset := hoff.symm
  obtain ⟨r4, n, scratch4, frag4, calls4, hloop4, hbuf4, hal4, hdata4, hn1, hn2, hdisj, hrep4,
    hcalls4, hck4, hio4, hlro4, hrs4⟩ :=
    rrl_bad_crc crc (fuelD + pre.length) r2 (!g1.isEmpty) scratch2 frag2 pro2
      (X1.length + Xg.length) p c it.type it.payload Xpost hal2
      (by rw [hU2, ← hT, hH]) (by rw [hoff2]; exact hp) ht1 (by rw [hoff2]; exact hfit) hck2 hio2
      hrep2 hbad
  rw [hloop4] at hRR1
  rw [hoff2] at hal4 hdisj
  rw [hB] at hdisj
  have hn : min B data.length - it.offset = n := by
    rcases hdisj with h | ⟨h, _⟩
    · rw [Nat.min_eq_left (by omega)]; omega
    · rw [Nat.min_eq_right (by omega)]; omega
  rw [hn]
  have hrem : r4.buffer_ ++ r4.file_.data = data.drop (it.offset + n) := by
    rw [hbuf4, List.nil_append, hdata4, hX]
    have hl : it.offset + n = (X1 ++ (Xg ++ (List.replicate p 0 ++
        (recordHeader crc it.type it.payload ++ it.payload)))).length
          + (n - 7 - it.payload.length) := by
      rw [hoff]; simp [recordHeader_length]; omega
    rw [hl, show X1 ++ (Xg ++ (List.replicate p 0 ++
        (recordHeader crc it.type it.payload ++ (it.payload ++ Xpost))))
        = (X1 ++ (Xg ++ (List.replicate p 0 ++
          (recordHeader crc it.type it.payload ++ it.payload)))) ++ Xpost by
        simp only [List.append_assoc], List.drop_append]
  have hlay4 : Layout crc (it.offset + n) (r4.buffer_ ++ r4.file_.data) (pre ++ itemsB) := by
    rcases hdisj with h | ⟨h, h2⟩
    · rw [hrem, h]; exact hlayB
    · have hd : data.drop B = [] := List.drop_of_length_le (by omega)
      rw [hd] at hlenB
      have hnil : pre ++ itemsB = [] := by
        apply List.eq_nil_of_length_eq_zero
        simp only [List.length_nil] at hlenB
        omega
      rw [hrem, hnil, List.drop_of_length_le (by omega)]
      exact Layout.nil _
  -- the fragments without a start that follow in the next block
  obtain ⟨r5, o5, frag5, calls5, hloop5, hal5, hlay5, hio5, hck5, hlro5, hrep5, hcalls5, _⟩ :=
    rrl_skip crc hc pre fuelD r4 (it.offset + n) itemsB scratch4 frag4 pro2 hal4 hlay4
      (fun it1 hit1 => by
        have := hbnd it1 (by rw [hsplit]; exact List.mem_append_left _ (hpreA it1 hit1).1)
        omega)
      (fun it1 hit1 => by
        have h1 := hpreA it1 hit1
        rcases hA it1 h1.1 with h | h
        · omega
        · exact Or.inr h)
  rw [hloop5] at hRR1
  rw [hio4] at hio5
  have hrep5b : r5.reporter_
      = some ((n, Status.Corruption "checksum mismatch") :: (calls4 ++ calls5)) := by
    rw [hrep5, hrep4]; rfl
  have hcalls : ∀ c1 ∈ calls4 ++ calls5,
      c1.2 = Status.Corruption "error in middle of record" ∨
      c1.2 = Status.Corruption "missing start of fragmented record(1)" ∨
      c1.2 = Status.Corruption "missing start of fragmented record(2)" := by
    intro c1 h1
    rcases List.mem_append.mp h1 with h | h
    · exact Or.inl (hcalls4 c1 h)
    · exact Or.inr (hcalls5 c1 h)
  have hoffB : ∀ it1 ∈ itemsB, ¬ it1.offset % 2 ^ 64 < r5.initial_offset_ := by
    intro it1 _
    rw [hio5]; omega
  -- the records of the later blocks
  have hfinal : ∃ rF, Reader.ReadRecords crc (psB.length + 1) r1 = some (psB, true, rF) ∧
      rF.reporter_ = r5.reporter_ := by
    cases hgrB with
    | nil =>
      have hU : r5.buffer_ ++ r5.file_.data = [] := Layout_nil_inv crc hlay5 rfl
      obtain ⟨r6, hstep, hal6, hU6, hsc⟩ := rpr_eof crc r5 frag5 o5 hal5 hU
      obtain ⟨fuel1, rfl⟩ : ∃ k, fuelD = k + 1 := ⟨fuelD - 1, by omega⟩
      refine ⟨{ r6 with resyncing_ := false }, ?_, hsc.1⟩
      rw [List.length_nil, Reader.ReadRecords, hRR1, Reader.ReadRecordLoop, hstep]
      simp [kEof, kMaxRecordType, kLastType, kFullType, kFirstType, kMiddleType]
    | cons g rest P ps hf hgr =>
      obtain ⟨res, o6, hloop6, hok, hrecd, hal6, hlay6, hrep6, hck6, hio6, hrs6, hlro6⟩ :=
        rrl_group crc hc true g P hf fuelD r5 o5 rest scratch4 pro2 frag5 hal5 hlay5
          (fun h => by cases h)
          (fun it1 hit1 => hoffB it1 (List.mem_append_left _ hit1))
          (by simp only [List.length_append] at hFge; omega)
      obtain ⟨r7, hrun7, hrep7⟩ := readRecords_groups crc hc rest ps hgr res.reader o6 hal6 hlay6
        (by rw [hio6, hio5]; omega) (fun it1 hit1 => by rw [hio6, hio5]; omega)
      refine ⟨r7, ?_, hrep7.trans hrep6⟩
      have hloop6b : Reader.ReadRecordLoop crc fuelD r5 scratch4 false pro2 frag5 = some res :=
        hloop6
      rw [List.length_cons, Reader.ReadRecords, hRR1, hloop6b]
      simp only [hok, if_true, hrun7, hrecd]
  obtain ⟨rF, hrunF, hrepF⟩ := hfinal
  refine ⟨rF, calls4 ++ calls5, ?_, hrepF.trans hrep5b, hcalls⟩
  intro k
  have h1 := hrun1 (psB.length + 1)
  rw [hrunF] at h1
  have h2 : Reader.ReadRecords crc
      ((exts1.map (fun e => e.2.2) ++ psB).length + 1) r0
      = some (exts1.map (fun e => e.2.2) ++ psB, true, rF) := by
    rw [List.length_append, Nat.add_assoc]
    exact h1
  exact readRecords_more crc _ r0 _ rF h2 k

end log
end leveldb

namespace leveldb

theorem crcMask_crcUnmask (m : Nat) (hm : m < 2 ^ 32) : crcMask (crcUnmask m) = m := by
  have hu : crcUnmask m
      = (m + (2 ^ 32 - 0xa282ead8)) % 2 ^ 32 / 2 ^ 17
        + 2 ^ 15 * ((m + (2 ^ 32 - 0xa282ead8)) % 2 ^ 32 % 2 ^ 17) := by
    unfold crcUnmask
    simp only []
    rw [Nat.mod_eq_of_lt hm, Nat.shiftRight_eq_div_pow, Nat.shiftLeft_eq]
    have h1 : (m + (2 ^ 32 - 0xa282ead8)) % 2 ^ 32 * 2 ^ 15 % 2 ^ 32
        = 2 ^ 15 * ((m + (2 ^ 32 - 0xa282ead8)) % 2 ^ 32 % 2 ^ 17) := by omega
    rw [h1, or_mul_pow _ _ _ (by omega)]
    omega
  unfold crcMask
  rw [hu]
  generalize hrot : (m + (2 ^ 32 - 0xa282ead8)) % 2 ^ 32 = rot
  have hlt : rot / 2 ^ 17 + 2 ^ 15 * (rot % 2 ^ 17) < 2 ^ 32 := by omega
  rw [Nat.mod_eq_of_lt hlt, Nat.shiftRight_eq_div_pow, Nat.shiftLeft_eq]
  have h2 : (rot / 2 ^ 17 + 2 ^ 15 * (rot % 2 ^ 17)) / 2 ^ 15 = rot % 2 ^ 17 := by omega
  have h3 : (rot / 2 ^ 17 + 2 ^ 15 * (rot % 2 ^ 17)) * 2 ^ 17 % 2 ^ 32
      = 2 ^ 17 * (rot / 2 ^ 17) := by omega
  rw [h2, h3, or_mul_pow _ _ _ (by omega)]
  omega

end leveldb
namespace leveldb
namespace log

theorem corruptCrc_stored (crc : Crc32c) {data : List Nat} {items : List PhysRec}
    {exts : List (Nat × Nat × List Nat)} (hrec : Records crc 0 data items exts)
    (it : PhysRec) (hit : it ∈ items) (c : Nat) :
    ∃ rest, (corruptCrc data it.offset c).drop it.offset
      = EncodeFixed32 c ++ [it.payload.length % 256, it.payload.length / 256 % 256, it.type]
        ++ (it.payload ++ rest) := by
  obtain ⟨X1, items1, exts1, exts2, Xg, g1, p, Xpost, hX, hrec1, hexts, hlg, hfp, hoff, hp,
    ht1, hfit, he1, he2⟩ := Records_at_item crc hrec it hit
  refine ⟨Xpost, ?_⟩
  have hl : it.offset = (X1 ++ (Xg ++ List.replicate p 0)).length := by
    rw [hoff]; simp; omega
  rw [hX, show X1 ++ (Xg ++ (List.replicate p 0 ++
      (recordHeader crc it.type it.payload ++ (it.payload ++ Xpost))))
      = (X1 ++ (Xg ++ List.replicate p 0)) ++
        (recordHeader crc it.type it.payload ++ (it.payload ++ Xpost)) by
      simp only [List.append_assoc], hl, corruptCrc_at, List.drop_left]

/-- C21 (WAL checksum mismatch), with checksum verification on. First, in every state
of the reader whose buffer starts with a header that stores the checksum `c`, the length
and the type of the fragment that follows it, `c` being different from
`Mask (Value (type :: fragment))`: `ReadPhysicalRecord` returns `kBadRecord`, empties the
buffer and calls `ReportCorruption` once, with the reason "checksum mismatch" and the
number of bytes the buffer held, from the header on. Second, for a log written by
`AddRecord` calls on an empty file in which the stored checksum of one physical record
`it` is replaced by such a `c`: a reader from offset 0 returns the logical records that
end before the header of `it`, then those that start in a later block, and nothing
else; its reporter receives first the call "checksum mismatch" with the number of bytes
from the header of `it` to the end of its block (or of the file, when that comes first),
and apart from it only "error in middle of record" and "missing start of fragmented
record" calls, for the fragments of the logical records that the drop has cut. -/
theorem C21_wal_checksum_mismatch (crc : Crc32c) (hc : crc.Lawful)
    (hm : ∀ x, x < 2 ^ 32 → crc.Mask (crc.Unmask x) = x) :
    (∀ (r : Reader) (result : List Nat) (c t : Nat) (frag rest : List Nat),
      (1 ≤ t ∨ frag ≠ []) → frag.length < 65536 →
      r.buffer_ = EncodeFixed32 c ++ [frag.length % 256, frag.length / 256 % 256, t]
        ++ (frag ++ rest) →
      r.checksum_ = true → c < 2 ^ 32 → c ≠ crc.Mask (crc.Value (t :: frag)) →
      r.ReadPhysicalRecord crc result
        = some (kBadRecord, result,
            Reader.ReportCorruption { r with buffer_ := [] } r.buffer_.length
              "checksum mismatch")) ∧
    (∀ (ps : List (List Nat)) (w : Writer) (items : List PhysRec) (it : PhysRec) (c : Nat),
      Writer.AddRecords crc (Writer.mk0 crc ⟨[], true⟩) ps = some w →
      w.dest_.contents.length < 2 ^ 64 →
      Layout crc 0 w.dest_.contents items → it ∈ items →
      c < 2 ^ 32 → c ≠ crc.Mask (crc.Value (it.type :: it.payload)) →
      (∃ rest, (corruptCrc w.dest_.contents it.offset c).drop it.offset
        = EncodeFixed32 c ++ [it.payload.length % 256, it.payload.length / 256 % 256, it.type]
          ++ (it.payload ++ rest)) ∧
      ∃ r calls,
        (∀ k, Reader.ReadRecords crc
            ((((Writer.recordExtents crc (Writer.mk0 crc ⟨[], true⟩) ps).filter
                (fun e => decide (e.2.1 ≤ it.offset))).map (fun e => e.2.2) ++
              ((Writer.recordExtents crc (Writer.mk0 crc ⟨[], true⟩) ps).filter
                (fun e => decide (nextBlock it.offset ≤ e.1))).map (fun e => e.2.2)).length
              + 1 + k)
            (Reader.mk0 ⟨corruptCrc w.dest_.contents it.offset c, true⟩ (some []) true 0)
          = some (((Writer.recordExtents crc (Writer.mk0 crc ⟨[], true⟩) ps).filter
                (fun e => decide (e.2.1 ≤ it.offset))).map (fun e => e.2.2) ++
              ((Writer.recordExtents crc (Writer.mk0 crc ⟨[], true⟩) ps).filter
                (fun e => decide (nextBlock it.offset ≤ e.1))).map (fun e => e.2.2),
              true, r)) ∧
        r.reporter_ = some ((min (nextBlock it.offset) w.dest_.contents.length - it.offset,
            Status.Corruption "checksum mismatch") :: calls) ∧
        (∀ c1 ∈ calls, c1.2 = Status.Corruption "error in middle of record" ∨
          c1.2 = Status.Corruption "missing start of fragmented record(1)" ∨
          c1.2 = Status.Corruption "missing start of fragmented record(2)")) := by
  refine ⟨?_, ?_⟩
  · intro r result c t frag rest hnz hlen hbuf hck hc32 hne
    have hbad : crc.Value (t :: frag) ≠ crc.Unmask (c % 2 ^ 32) := by
      intro h
      apply hne
      rw [h, Nat.mod_eq_of_lt hc32, hm c hc32]
    exact rpr_parse_bad crc 1 r result c t frag rest hnz hlen hbuf hck hbad
  · intro ps w items it c hw hsize hlay hit hc32 hne
    obtain ⟨w1, X, items1, hrun, hcont, hrec, _⟩ :=
      addRecords_records crc ps (Writer.mk0 crc ⟨[], true⟩) (WriterInv_mk0 crc)
    rw [hw] at hrun
    cases hrun
    have hX : w.dest_.contents = X := by simpa [Writer.mk0] using hcont
    have hrec0 : Records crc 0 w.dest_.contents items1
        (Writer.recordExtents crc (Writer.mk0 crc ⟨[], true⟩) ps) := by
      rw [hX]; exact hrec
    have hitems : items1 = items := Layout_unique crc (Records_layout crc hrec0) hlay
    rw [hitems] at hrec0
    exact ⟨corruptCrc_stored crc hrec0 it hit c,
      read_corrupt crc hc hm _ items _ hrec0 hsize it hit c hc32 hne⟩

/-- C21, an instance: a buffer whose first record stores the checksum 0 is dropped as a
whole; in the log of four records at the offsets 0, 8, 18 and 25 with the checksum of
the record at offset 8 set to 0, the reader returns the first record only and its
reporter receives a drop of 26 bytes. -/
theorem C21_wal_checksum_mismatch_witness :
    Writer.recordExtents sampleCrc (Writer.mk0 sampleCrc ⟨[], true⟩)
        [[97], [98, 98, 98], [], [99, 99]]
      = [(0, 8, [97]), (8, 18, [98, 98, 98]), (18, 25, []), (25, 34, [99, 99])] ∧
    nextBlock 8 = 32768 ∧
    ((Writer.recordExtents sampleCrc (Writer.mk0 sampleCrc ⟨[], true⟩)
        [[97], [98, 98, 98], [], [99, 99]]).filter
        (fun e => decide (e.2.1 ≤ 8))).map (fun e => e.2.2) ++
      ((Writer.recordExtents sampleCrc (Writer.mk0 sampleCrc ⟨[], true⟩)
        [[97], [98, 98, 98], [], [99, 99]]).filter
        (fun e => decide (nextBlock 8 ≤ e.1))).map (fun e => e.2.2) = [[97]] ∧
    min (nextBlock 8) 34 - 8 = 26 ∧
    ({ Reader.mk0 ⟨[], true⟩ (some []) true 0 with
        buffer_ := [0, 0, 0, 0, 1, 0, 1, 97, 5, 5], eof_ := true,
        end_of_buffer_offset_ := 10 } : Reader).ReadPhysicalRecord sampleCrc []
      = some (kBadRecord, [],
          Reader.ReportCorruption
            { ({ Reader.mk0 ⟨[], true⟩ (some []) true 0 with
                  buffer_ := [0, 0, 0, 0, 1, 0, 1, 97, 5, 5], eof_ := true,
                  end_of_buffer_offset_ := 10 } : Reader) with buffer_ := [] }
            ({ Reader.mk0 ⟨[], true⟩ (some []) true 0 with
                  buffer_ := [0, 0, 0, 0, 1, 0, 1, 97, 5, 5], eof_ := true,
                  end_of_buffer_offset_ := 10 } : Reader).buffer_.length
            "checksum mismatch") ∧
    ((∃ rest, (corruptCrc [216, 234, 194, 163, 1, 0, 1, 97, 220, 234, 4, 116, 3, 0, 1, 98, 98,
          98, 216, 234, 134, 162, 0, 0, 1, 216, 234, 134, 202, 2, 0, 1, 99, 99] 8 0).drop 8
        = EncodeFixed32 0 ++ [3 % 256, 3 / 256 % 256, 1] ++ ([98, 98, 98] ++ rest)) ∧
      ∃ r calls,
        (∀ k, Reader.ReadRecords sampleCrc
            ((((Writer.recordExtents sampleCrc (Writer.mk0 sampleCrc ⟨[], true⟩)
                [[97], [98, 98, 98], [], [99, 99]]).filter
                (fun e => decide (e.2.1 ≤ 8))).map (fun e => e.2.2) ++
              ((Writer.recordExtents sampleCrc (Writer.mk0 sampleCrc ⟨[], true⟩)
                [[97], [98, 98, 98], [], [99, 99]]).filter
                (fun e => decide (nextBlock 8 ≤ e.1))).map (fun e => e.2.2)).length + 1 + k)
            (Reader.mk0 ⟨corruptCrc [216, 234, 194, 163, 1, 0, 1, 97, 220, 234, 4, 116, 3, 0, 1,
              98, 98, 98, 216, 234, 134, 162, 0, 0, 1, 216, 234, 134, 202, 2, 0, 1, 99, 99] 8 0,
              true⟩ (some []) true 0)
          = some (((Writer.recordExtents sampleCrc (Writer.mk0 sampleCrc ⟨[], true⟩)
                [[97], [98, 98, 98], [], [99, 99]]).filter
                (fun e => decide (e.2.1 ≤ 8))).map (fun e => e.2.2) ++
              ((Writer.recordExtents sampleCrc (Writer.mk0 sampleCrc ⟨[], true⟩)
                [[97], [98, 98, 98], [], [99, 99]]).filter
                (fun e => decide (nextBlock 8 ≤ e.1))).map (fun e => e.2.2), true, r)) ∧
        r.reporter_ = some ((min (nextBlock 8) 34 - 8,
            Status.Corruption "checksum mismatch") :: calls) ∧
        (∀ c1 ∈ calls, c1.2 = Status.Corruption "error in middle of record" ∨
          c1.2 = Status.Corruption "missing start of fragmented record(1)" ∨
          c1.2 = Status.Corruption "missing start of fragmented record(2)")) :=
  ⟨by decide, by decide, by decide, by decide,
    (C21_wal_checksum_mismatch sampleCrc sampleCrc_lawful crcMask_crcUnmask).1
      { Reader.mk0 ⟨[], true⟩ (some []) true 0 with
        buffer_ := [0, 0, 0, 0, 1, 0, 1, 97, 5, 5], eof_ := true,
        end_of_buffer_offset_ := 10 } [] 0 1 [97] [5, 5]
      (Or.inl (by decide)) (by decide) (by decide) rfl (by decide) (by decide),
    (C21_wal_checksum_mismatch sampleCrc sampleCrc_lawful crcMask_crcUnmask).2
      [[97], [98, 98, 98], [], [99, 99]]
      ⟨⟨[216, 234, 194, 163, 1, 0, 1, 97, 220, 234, 4, 116, 3, 0, 1, 98, 98, 98,
          216, 234, 134, 162, 0, 0, 1, 216, 234, 134, 202, 2, 0, 1, 99, 99], true⟩, 34,
        [1, 2, 3, 4, 5]⟩
      [⟨0, 1, [97]⟩, ⟨8, 1, [98, 98, 98]⟩, ⟨18, 1, []⟩, ⟨25, 1, [99, 99]⟩]
      ⟨8, 1, [98, 98, 98]⟩ 0 (by decide) (by norm_num)
      (Layout.cons 0 0 1 [97] _ _ (Or.inl rfl) (by decide) (by decide) (by decide)
        (Layout.cons 8 0 1 [98, 98, 98] _ _ (Or.inl rfl) (by decide) (by decide) (by decide)
          (Layout.cons 18 0 1 [] _ _ (Or.inl rfl) (by decide) (by decide) (by decide)
            (Layout.cons 25 0 1 [99, 99] _ _ (Or.inl rfl) (by decide) (by decide) (by decide)
              (Layout.nil 34)))))
      (by decide) (by decide) (by decide)⟩

end log
end leveldb

namespace leveldb
namespace TableBuilder

theorem threshold_iff (c r : Nat) : c < r - r / 8 ↔ 8 * c < 7 * r := by omega

/-- C34: the compression threshold. When the options ask for Snappy or Zstd and the
compression of the raw block (of any size `r`) succeeds with an output of any size `c`,
`WriteBlock` stores the compressed form, with the type of the compression, if and only if
`8c < 7r`, and otherwise the raw bytes with type 0; the test of the code,
`c < r - r / 8` in integer arithmetic, is equivalent to `8c < 7r`. The stored form is
followed by its trailer in the file, and the handle has its size. -/
theorem C34_compression_threshold (crc : Crc32c) (port : Port) (r : TableBuilder)
    (block : BlockBuilder) (c : List Nat)
    (hrel : r.file.Reliable) (hok : r.status = Status.OK)
    (hcomp : (r.options.compression = CompressionType.kSnappyCompression ∧
        port.Snappy_Compress block.Finish.2 = some c) ∨
      (r.options.compression = CompressionType.kZstdCompression ∧
        port.Zstd_Compress r.options.zstd_compression_level block.Finish.2 = some c)) :
    (c.length < block.Finish.2.length - block.Finish.2.length / 8
      ↔ 8 * c.length < 7 * block.Finish.2.length) ∧
    chooseContents port r.options block.Finish.2
      = (if 8 * c.length < 7 * block.Finish.2.length then (c, r.options.compression)
         else (block.Finish.2, CompressionType.kNoCompression)) ∧
    CompressionType.kNoCompression.toNat = 0 ∧
    ∃ r1 b1 h, WriteBlock crc port r block = some (r1, b1, h) ∧
      r1.file.contents = r.file.contents
        ++ (chooseContents port r.options block.Finish.2).1
        ++ trailerOf crc (chooseContents port r.options block.Finish.2).1
            (chooseContents port r.options block.Finish.2).2 ∧
      h = ⟨r.offset, (chooseContents port r.options block.Finish.2).1.length % 2 ^ 64⟩ := by
  refine ⟨threshold_iff _ _, ?_, rfl, ?_⟩
  · rcases hcomp with ⟨h1, h2⟩ | ⟨h1, h2⟩
    · unfold chooseContents
      rw [h1]
      simp only [h2, threshold_iff]
    · unfold chooseContents
      rw [h1]
      simp only [h2, threshold_iff]
  · obtain ⟨f, _, hf2, hf3⟩ := WriteBlock_eq crc port r block hrel hok
    refine ⟨_, _, _, hf3, ?_, rfl⟩
    show f.contents = _
    rw [hf2, rawImage, List.append_assoc]

/-- C34, an instance: a raw block of 8 bytes whose Snappy output has 6 bytes is stored
compressed (48 < 56), and raw when the output has 7 bytes (56 < 56 fails). -/
theorem C34_compression_threshold_witness :
    (BlockBuilder.mk0.Finish.2.length = 8 ∧
      chooseContents (truncPort 6)
        { sampleOptions 1 with compression := CompressionType.kSnappyCompression }
        BlockBuilder.mk0.Finish.2
        = (BlockBuilder.mk0.Finish.2.take 6, CompressionType.kSnappyCompression) ∧
      chooseContents (truncPort 7)
        { sampleOptions 1 with compression := CompressionType.kSnappyCompression }
        BlockBuilder.mk0.Finish.2
        = (BlockBuilder.mk0.Finish.2, CompressionType.kNoCompression)) ∧
    ((BlockBuilder.mk0.Finish.2.take 6).length
        < BlockBuilder.mk0.Finish.2.length - BlockBuilder.mk0.Finish.2.length / 8
      ↔ 8 * (BlockBuilder.mk0.Finish.2.take 6).length < 7 * BlockBuilder.mk0.Finish.2.length) ∧
    chooseContents (truncPort 6)
        (Rep { sampleOptions 1 with compression := CompressionType.kSnappyCompression }
          ⟨[], []⟩).options BlockBuilder.mk0.Finish.2
      = (if 8 * (BlockBuilder.mk0.Finish.2.take 6).length < 7 * BlockBuilder.mk0.Finish.2.length
         then (BlockBuilder.mk0.Finish.2.take 6,
           (Rep { sampleOptions 1 with compression := CompressionType.kSnappyCompression }
             ⟨[], []⟩).options.compression)
         else (BlockBuilder.mk0.Finish.2, CompressionType.kNoCompression)) :=
  have h := C34_compression_threshold sampleCrc (truncPort 6)
    (Rep { sampleOptions 1 with compression := CompressionType.kSnappyCompression } ⟨[], []⟩)
    BlockBuilder.mk0 (BlockBuilder.mk0.Finish.2.take 6)
    (fun _ hx => by cases hx) rfl (Or.inl ⟨rfl, rfl⟩)
  ⟨by decide, h.1, h.2.1⟩

end TableBuilder
end leveldb

namespace leveldb
namespace FilterBlockReader

/-- C35, counterexample: in the filter block of 13 bytes whose offset array starts at 0
and holds the entries 100 and 100, the entry of index 0 has `start == limit == 100`, a
limit beyond the start of the offset array, and `KeyMayMatch(0, "a")` returns false. -/
theorem C35_out_of_range_counterexample :
    mk0 [100, 0, 0, 0, 100, 0, 0, 0, 0, 0, 0, 0, 11] = ⟨[100, 0, 0, 0, 100, 0, 0, 0, 0, 0, 0, 0,
      11], 0, 2, 11⟩ ∧
    (0 % 2 ^ 64) >>> ((mk0 [100, 0, 0, 0, 100, 0, 0, 0, 0, 0, 0, 0, 11]).base_lg_ % 64) = 0 ∧
    DecodeFixed32 ((mk0 [100, 0, 0, 0, 100, 0, 0, 0, 0, 0, 0, 0, 11]).data_.drop (0 + 0 * 4))
      = 100 ∧
    DecodeFixed32 ((mk0 [100, 0, 0, 0, 100, 0, 0, 0, 0, 0, 0, 0, 11]).data_.drop
      (0 + 0 * 4 + 4)) = 100 ∧
    (100 : Nat) > (mk0 [100, 0, 0, 0, 100, 0, 0, 0, 0, 0, 0, 0, 11]).offset_ ∧
    (mk0 [100, 0, 0, 0, 100, 0, 0, 0, 0, 0, 0, 0, 11]).KeyMayMatch permissivePolicy 0 [97]
      = false := by
  decide

/-- C35, amended: out-of-range filter offsets. For every filter block reader and every
block offset whose index `block_offset >> base_lg_` is below `num_`, with `start` and
`limit` the two words read from the offset array at that index: if `start > limit`, or
`limit` is greater than the start of the offset array and `start != limit`,
`KeyMayMatch` returns true for every key and every policy; if `start == limit` and
`limit` is greater than the start of the offset array, it returns false. -/
theorem C35_out_of_range (policy : FilterPolicy) (r : FilterBlockReader) (block_offset : Nat)
    (key : List Nat) (index start limit : Nat)
    (hindex : index = (block_offset % 2 ^ 64) >>> (r.base_lg_ % 64))
    (hidx : index < r.num_)
    (hstart : start = DecodeFixed32 (r.data_.drop (r.offset_ + index * 4)))
    (hlimit : limit = DecodeFixed32 (r.data_.drop (r.offset_ + index * 4 + 4))) :
    ((start > limit ∨ (limit > r.offset_ ∧ start ≠ limit)) →
      r.KeyMayMatch policy block_offset key = true) ∧
    (start = limit → limit > r.offset_ → r.KeyMayMatch policy block_offset key = false) := by
  constructor
  · intro h
    unfold KeyMayMatch
    simp only [← hindex, if_pos hidx, ← hstart, ← hlimit]
    have h1 : ¬ (start ≤ limit ∧ limit ≤ r.offset_) := by omega
    have h2 : ¬ start = limit := by omega
    rw [if_neg h1, if_neg h2]
  · intro h1 h2
    unfold KeyMayMatch
    simp only [← hindex, if_pos hidx, ← hstart, ← hlimit]
    have h3 : ¬ (start ≤ limit ∧ limit ≤ r.offset_) := by omega
    rw [if_neg h3, if_pos h1]

/-- C35 amended, an instance: in the filter block of 13 bytes whose offset array starts
at 0 and holds the entries 100 and 7, the entry of index 0 has `start > limit` and
`KeyMayMatch(0, "a")` returns true, also with a policy that rejects every key. -/
theorem C35_out_of_range_witness :
    (0 = (0 % 2 ^ 64) >>> ((mk0 [100, 0, 0, 0, 7, 0, 0, 0, 0, 0, 0, 0, 11]).base_lg_ % 64) ∧
      0 < (mk0 [100, 0, 0, 0, 7, 0, 0, 0, 0, 0, 0, 0, 11]).num_ ∧
      100 = DecodeFixed32 ((mk0 [100, 0, 0, 0, 7, 0, 0, 0, 0, 0, 0, 0, 11]).data_.drop
        ((mk0 [100, 0, 0, 0, 7, 0, 0, 0, 0, 0, 0, 0, 11]).offset_ + 0 * 4)) ∧
      7 = DecodeFixed32 ((mk0 [100, 0, 0, 0, 7, 0, 0, 0, 0, 0, 0, 0, 11]).data_.drop
        ((mk0 [100, 0, 0, 0, 7, 0, 0, 0, 0, 0, 0, 0, 11]).offset_ + 0 * 4 + 4))) ∧
    (mk0 [100, 0, 0, 0, 7, 0, 0, 0, 0, 0, 0, 0, 11]).KeyMayMatch
      ⟨[], fun _ => [], fun _ _ => false⟩ 0 [97] = true :=
  ⟨by decide,
    (C35_out_of_range ⟨[], fun _ => [], fun _ _ => false⟩
      (mk0 [100, 0, 0, 0, 7, 0, 0, 0, 0, 0, 0, 0, 11]) 0 [97] 0 100 7 (by decide) (by decide)
      (by decide) (by decide)).1 (Or.inl (by decide))⟩

end FilterBlockReader
end leveldb

namespace leveldb
namespace log

theorem sub64_sub64_int (e b n : Nat) :
    ((sub64 (sub64 e b) n : Nat) : Int) = ((e : Int) - b - n) % 2 ^ 64 := by
  unfold sub64
  omega

/-- C31, counterexample: a reader from offset 0 whose first `Read` fails calls
`ReportDrop(kBlockSize, status)` with `end_of_buffer_offset_ = 0` and an empty buffer; the
start position of the drop is `0 - 0 - 32768`, below `initial_offset = 0` as an integer,
and the reporter is invoked. -/
theorem C31_report_filter_counterexample :
    ((Reader.mk0 ⟨[], false⟩ (some []) true 0).ReadRecord sampleCrc).map
      (fun res => (res.ok, res.reader.reporter_))
      = some (false, some [(kBlockSize, Status.IOError "read")]) ∧
    ((Reader.mk0 ⟨[], false⟩ (some []) true 0).ReportDrop kBlockSize
      (Status.IOError "read")).reporter_ = some [(kBlockSize, Status.IOError "read")] ∧
    ((Reader.mk0 ⟨[], false⟩ (some []) true 0).end_of_buffer_offset_ : Int)
        - ((Reader.mk0 ⟨[], false⟩ (some []) true 0).buffer_.length : Int) - (kBlockSize : Int)
      < ((Reader.mk0 ⟨[], false⟩ (some []) true 0).initial_offset_ : Int) := by
  decide

/-- C31, amended: the filter of the corruption reports. For every reader state and every
drop of `bytes` bytes (64-bit values), with `p = end_of_buffer_offset_ - b - bytes` the
start position of the drop as an integer and `b` the size of the buffer: `ReportDrop`
invokes the reporter, when one is present, if and only if `p mod 2^64 >= initial_offset`,
and changes nothing else. Hence for `p >= 0` the reporter is invoked if and only if
`p >= initial_offset`, and for `-2^64 <= p < 0` if and only if
`p + 2^64 >= initial_offset`.
`ReportCorruption(bytes, reason)` is `ReportDrop(bytes, Status::Corruption(reason))`. -/
theorem C31_report_filter (r : Reader) (bytes : Nat) (reason : Status)
    (he : r.end_of_buffer_offset_ < 2 ^ 64) :
    r.ReportDrop bytes reason
      = (if ((r.end_of_buffer_offset_ : Int) - r.buffer_.length - bytes) % 2 ^ 64
            ≥ (r.initial_offset_ : Int)
         then { r with reporter_ := r.reporter_.map (fun calls => calls ++ [(bytes, reason)]) }
         else r) ∧
    ((0 : Int) ≤ (r.end_of_buffer_offset_ : Int) - r.buffer_.length - bytes →
      ((r.end_of_buffer_offset_ : Int) - r.buffer_.length - bytes < (r.initial_offset_ : Int) →
        r.ReportDrop bytes reason = r) ∧
      ((r.initial_offset_ : Int) ≤ (r.end_of_buffer_offset_ : Int) - r.buffer_.length - bytes →
        r.ReportDrop bytes reason
          = { r with reporter_ :=
                r.reporter_.map (fun calls => calls ++ [(bytes, reason)]) })) ∧
    ((r.end_of_buffer_offset_ : Int) - r.buffer_.length - bytes < 0 →
      -(2 ^ 64 : Int) ≤ (r.end_of_buffer_offset_ : Int) - r.buffer_.length - bytes →
      ((r.end_of_buffer_offset_ : Int) - r.buffer_.length - bytes + 2 ^ 64
          < (r.initial_offset_ : Int) →
        r.ReportDrop bytes reason = r) ∧
      ((r.initial_offset_ : Int)
          ≤ (r.end_of_buffer_offset_ : Int) - r.buffer_.length - bytes + 2 ^ 64 →
        r.ReportDrop bytes reason
          = { r with reporter_ :=
                r.reporter_.map (fun calls => calls ++ [(bytes, reason)]) })) ∧
    (∀ s : String, r.ReportCorruption bytes s = r.ReportDrop bytes (Status.Corruption s)) := by
  have key := sub64_sub64_int r.end_of_buffer_offset_ r.buffer_.length bytes
  have hform : r.ReportDrop bytes reason
      = (if ((r.end_of_buffer_offset_ : Int) - r.buffer_.length - bytes) % 2 ^ 64
            ≥ (r.initial_offset_ : Int)
         then { r with reporter_ := r.reporter_.map (fun calls => calls ++ [(bytes, reason)]) }
         else r) := by
    unfold Reader.ReportDrop
    by_cases hge : sub64 (sub64 r.end_of_buffer_offset_ r.buffer_.length) bytes
        ≥ r.initial_offset_
    · have hge2 : ((r.end_of_buffer_offset_ : Int) - r.buffer_.length - bytes) % 2 ^ 64
          ≥ (r.initial_offset_ : Int) := by rw [← key]; exact_mod_cast hge
      rw [if_pos hge2]
      cases hrep : r.reporter_ with
      | none =>
        cases r
        simp only at hrep
        simp [hrep]
      | some calls => simp only [if_pos hge, Option.map_some']
    · have hge2 : ¬ ((r.end_of_buffer_offset_ : Int) - r.buffer_.length - bytes) % 2 ^ 64
          ≥ (r.initial_offset_ : Int) := by
        rw [← key]
        intro h
        exact hge (by exact_mod_cast h)
      rw [if_neg hge2]
      cases hrep : r.reporter_ with
      | none => rfl
      | some calls => simp only [if_neg hge]
  refine ⟨hform, ?_, ?_, fun _ => rfl⟩
  · intro h0
    have hmod : ((r.end_of_buffer_offset_ : Int) - r.buffer_.length - bytes) % 2 ^ 64
        = (r.end_of_buffer_offset_ : Int) - r.buffer_.length - bytes := by omega
    constructor
    · intro hlt
      rw [hform, if_neg (by rw [hmod]; omega)]
    · intro hle
      rw [hform, if_pos (by rw [hmod]; omega)]
  · intro h0 h1
    have hmod : ((r.end_of_buffer_offset_ : Int) - r.buffer_.length - bytes) % 2 ^ 64
        = (r.end_of_buffer_offset_ : Int) - r.buffer_.length - bytes + 2 ^ 64 := by omega
    constructor
    · intro hlt
      rw [hform, if_neg (by rw [hmod]; omega)]
    · intro hle
      rw [hform, if_pos (by rw [hmod]; omega)]

/-- C31 amended, an instance: with `end_of_buffer_offset_ = 100`, 10 bytes in the buffer
and `initial_offset = 60`, a drop of 20 bytes starts at 70 and is reported, and a drop of
40 bytes starts at 50 and is not. -/
theorem C31_report_filter_witness :
    ({ Reader.mk0 ⟨[], true⟩ (some []) true 60 with
        buffer_ := List.replicate 10 0, end_of_buffer_offset_ := 100 } : Reader).ReportDrop 20
      (Status.Corruption "x")
      = { Reader.mk0 ⟨[], true⟩ (some [(20, Status.Corruption "x")]) true 60 with
          buffer_ := List.replicate 10 0, end_of_buffer_offset_ := 100 } ∧
    ({ Reader.mk0 ⟨[], true⟩ (some []) true 60 with
        buffer_ := List.replicate 10 0, end_of_buffer_offset_ := 100 } : Reader).ReportDrop 40
      (Status.Corruption "x")
      = { Reader.mk0 ⟨[], true⟩ (some []) true 60 with
          buffer_ := List.replicate 10 0, end_of_buffer_offset_ := 100 } :=
  ⟨((C31_report_filter
      { Reader.mk0 ⟨[], true⟩ (some []) true 60 with
        buffer_ := List.replicate 10 0, end_of_buffer_offset_ := 100 } 20
      (Status.Corruption "x") (by decide)).2.1 (by decide)).2
      (by decide),
    ((C31_report_filter
      { Reader.mk0 ⟨[], true⟩ (some []) true 60 with
        buffer_ := List.replicate 10 0, end_of_buffer_offset_ := 100 } 40
      (Status.Corruption "x") (by decide)).2.1 (by decide)).1
      (by decide)⟩

end log
end leveldb

namespace leveldb
namespace log

/-- C32: an empty `FIRST` fragment is tolerated silently. When `ReadPhysicalRecord`
returns a `FULL` or a `FIRST` record while a fragmented record is in progress,
`ReadRecord` calls `ReportCorruption(scratch.size(), "partial record without end(1)")`
(for `FULL`, `(2)` for `FIRST`) if and only if `scratch` is not empty, and then handles the
record as usual: for `FULL` it returns true with the fragment as the record, an empty
scratch and `last_record_offset_` at the record; for `FIRST` its loop goes on with the
fragment as the new scratch, inside a fragmented record that starts at this record. With
a reporter and `initial_offset = 0` the call of `ReportCorruption` reaches the
reporter. -/
theorem C32_empty_first_tolerated (crc : Crc32c) (fuel : Nat) (r r1 : Reader)
    (scratch fragment frag : List Nat) (pro type : Nat)
    (htype : type = kFullType ∨ type = kFirstType)
    (hstep : r.ReadPhysicalRecord crc fragment = some (type, frag, r1)) :
    Reader.ReadRecordLoop crc (fuel + 1) r scratch true pro fragment
      = (if type = kFullType then
          some { ok := true, record := frag, scratch := [],
                 reader :=
                   { (if scratch.isEmpty then { r1 with resyncing_ := false }
                      else Reader.ReportCorruption { r1 with resyncing_ := false }
                        scratch.length "partial record without end(1)") with
                     last_record_offset_ :=
                       sub64 (sub64 (sub64 r1.end_of_buffer_offset_ r1.buffer_.length)
                         kHeaderSize) frag.length } }
         else
          Reader.ReadRecordLoop crc fuel
            (if scratch.isEmpty then { r1 with resyncing_ := false }
             else Reader.ReportCorruption { r1 with resyncing_ := false }
               scratch.length "partial record without end(2)")
            frag true
            (sub64 (sub64 (sub64 r1.end_of_buffer_offset_ r1.buffer_.length) kHeaderSize)
              frag.length) frag) ∧
    (∀ (x : Reader) (cs : List (Nat × Status)) (n : Nat) (s : String),
      x.reporter_ = some cs → x.initial_offset_ = 0 →
      x.ReportCorruption n s = { x with reporter_ := some (cs ++ [(n, Status.Corruption s)]) }) := by
  constructor
  · rcases htype with rfl | rfl
    · rw [Reader.ReadRecordLoop, hstep]
      cases hs : scratch.isEmpty <;>
        simp [hs, kFullType, kMiddleType, kLastType]
    · rw [Reader.ReadRecordLoop, hstep]
      cases hs : scratch.isEmpty <;>
        simp [hs, kFullType, kFirstType, kMiddleType, kLastType]
  · intro x cs n s hrep hio
    unfold Reader.ReportCorruption Reader.ReportDrop
    simp only [hrep, hio]
    simp

/-- C32, an instance: the log of an empty `FIRST` record followed by the `FULL` record
`"a"` is read without a report; with the `FIRST` record `"x"` instead the reader reports
"partial record without end(1)" for 1 byte; both times it returns `"a"`. The step of the
theorem is the one at the `FULL` record, with the scratch `"x"`. -/
theorem C32_empty_first_tolerated_witness :
    ((Reader.mk0 ⟨[216, 234, 136, 162, 0, 0, 2, 216, 234, 194, 163, 1, 0, 1, 97], true⟩
        (some []) true 0).ReadRecord sampleCrc).map
      (fun res => (res.ok, res.record, res.reader.reporter_))
      = some (true, [97], some []) ∧
    ((Reader.mk0 ⟨[216, 234, 46, 164, 1, 0, 2, 120, 216, 234, 194, 163, 1, 0, 1, 97], true⟩
        (some []) true 0).ReadRecord sampleCrc).map
      (fun res => (res.ok, res.record, res.reader.reporter_))
      = some (true, [97],
          some [(1, Status.Corruption "partial record without end(1)")]) ∧
    (Reader.mk0 ⟨[216, 234, 194, 163, 1, 0, 1, 97], true⟩ (some []) true 0).ReadPhysicalRecord
      sampleCrc [] = some (kFullType, [97],
        { Reader.mk0 ⟨[], true⟩ (some []) true 0 with
          eof_ := true, end_of_buffer_offset_ := 8 }) ∧
    Reader.ReadRecordLoop sampleCrc (0 + 1)
        (Reader.mk0 ⟨[216, 234, 194, 163, 1, 0, 1, 97], true⟩ (some []) true 0)
        [120] true 0 []
      = (if kFullType = kFullType then
          some { ok := true, record := [97], scratch := [],
                 reader :=
                   { (if [120].isEmpty then
                        { ({ Reader.mk0 ⟨[], true⟩ (some []) true 0 with
                              eof_ := true, end_of_buffer_offset_ := 8 } : Reader) with
                          resyncing_ := false }
                      else Reader.ReportCorruption
                        { ({ Reader.mk0 ⟨[], true⟩ (some []) true 0 with
                              eof_ := true, end_of_buffer_offset_ := 8 } : Reader) with
                          resyncing_ := false }
                        [120].length "partial record without end(1)") with
                     last_record_offset_ :=
                       sub64 (sub64 (sub64
                         ({ Reader.mk0 ⟨[], true⟩ (some []) true 0 with
                              eof_ := true, end_of_buffer_offset_ := 8 } :
                           Reader).end_of_buffer_offset_
                         ({ Reader.mk0 ⟨[], true⟩ (some []) true 0 with
                              eof_ := true, end_of_buffer_offset_ := 8 } :
                           Reader).buffer_.length) kHeaderSize) [97].length } }
         else
          Reader.ReadRecordLoop sampleCrc 0
            (if [120].isEmpty then
               { ({ Reader.mk0 ⟨[], true⟩ (some []) true 0 with
                     eof_ := true, end_of_buffer_offset_ := 8 } : Reader) with
                 resyncing_ := false }
             else Reader.ReportCorruption
               { ({ Reader.mk0 ⟨[], true⟩ (some []) true 0 with
                     eof_ := true, end_of_buffer_offset_ := 8 } : Reader) with
                 resyncing_ := false }
               [120].length "partial record without end(2)")
            [97] true
            (sub64 (sub64 (sub64
              ({ Reader.mk0 ⟨[], true⟩ (some []) true 0 with
                   eof_ := true, end_of_buffer_offset_ := 8 } : Reader).end_of_buffer_offset_
              ({ Reader.mk0 ⟨[], true⟩ (some []) true 0 with
                   eof_ := true, end_of_buffer_offset_ := 8 } : Reader).buffer_.length)
              kHeaderSize) [97].length) [97]) :=
  ⟨by decide, by decide, by decide,
    (C32_empty_first_tolerated sampleCrc 0
      (Reader.mk0 ⟨[216, 234, 194, 163, 1, 0, 1, 97], true⟩ (some []) true 0)
      { Reader.mk0 ⟨[], true⟩ (some []) true 0 with eof_ := true, end_of_buffer_offset_ := 8 }
      [120] [] [97] 0 kFullType (Or.inl rfl) (by decide)).1⟩

end log
end leveldb

namespace leveldb
namespace SkipList

variable {K : Type} [Inhabited K]

theorem FindLastLoop_spec (cmp : K → K → Int) (s : SkipList K)
    (order : List Nat) (hinv : Inv cmp s order) :
    ∀ (fuel level x : Nat) (L1 L2 : List Nat),
      order = L1 ++ L2 → x = L1.getLast?.getD 0 →
      (L1 ≠ [] → level < s.height x) → level < s.max_height_ →
      L2.length + level + 1 ≤ fuel →
      FindLastLoop s fuel x level = some (order.getLast?.getD 0) := by
  intro fuel
  induction fuel with
  | zero => intro level x L1 L2 _ _ _ _ hf; omega
  | succ fuel ih =>
    intro level x L1 L2 hsplit hx hh hlev hfuel
    have hlevK : level < kMaxHeight := Nat.lt_of_lt_of_le hlev hinv.mh_le
    have hch := Chain_from cmp s order hinv L1 L2 hsplit x level hx hh hlevK
    cases hf2 : L2.filter (fun y => decide (level < s.height y)) with
    | cons y rest =>
      rw [hf2] at hch
      obtain ⟨a, b, hL2, ha, hy, hb⟩ := List.filter_eq_cons_iff.mp hf2
      have hn : s.Next x level = some y := hch.1
      rw [FindLastLoop, hn]
      apply ih level y (L1 ++ a ++ [y]) b
      · rw [hsplit, hL2]; simp
      · simp
      · intro _; simpa using hy
      · exact hlev
      · rw [hL2] at hfuel
        simp only [List.length_append, List.length_cons] at hfuel
        omega
    | nil =>
      rw [hf2] at hch
      have hn : s.Next x level = none := hch
      rw [FindLastLoop, hn]
      by_cases h0 : level = 0
      · subst h0
        simp only [if_true]
        have hall : L2.filter (fun y => decide (0 < s.height y)) = L2 :=
          Inv_level0 cmp s order hinv L2
            (fun y hy => by rw [hsplit]; exact List.mem_append_right _ hy)
        rw [hall] at hf2
        subst hf2
        rw [hsplit, List.append_nil, hx]
      · simp only [if_neg h0]
        exact ih (level - 1) x L1 L2 hsplit hx (fun hne => by have := hh hne; omega)
          (by omega) (by omega)

theorem FindLast_spec (cmp : K → K → Int) (s : SkipList K) (order : List Nat)
    (hinv : Inv cmp s order) : s.FindLast = some (order.getLast?.getD 0) := by
  unfold FindLast GetMaxHeight
  have h1 := Inv_order_length cmp s order hinv
  have h3 := hinv.mh_pos
  exact FindLastLoop_spec cmp s order hinv _ _ 0 [] order rfl rfl
    (fun h => absurd rfl h) (by omega) (by omega)

theorem InsertAll_append (cmp : K → K → Int) (rnd : Random) :
    ∀ (ks1 ks2 : List K) (s : SkipList K),
      InsertAll cmp rnd s (ks1 ++ ks2) =
        (InsertAll cmp rnd s ks1).bind (fun t => InsertAll cmp rnd t ks2) := by
  intro ks1
  induction ks1 with
  | nil => intro ks2 s; rfl
  | cons k ks ih =>
    intro ks2 s
    rw [List.cons_append, InsertAll, InsertAll]
    cases s.Insert cmp rnd k with
    | none => rfl
    | some s1 => exact ih ks2 s1

theorem InsertAll_mono (cmp : K → K → Int) (hc : CmpLawful cmp) (rnd : Random) :
    ∀ (ks : List K) (s : SkipList K) (order : List Nat), Inv cmp s order →
      ∃ t order1, InsertAll cmp rnd s ks = some t ∧ Inv cmp t order1 ∧
        s.max_height_ ≤ t.max_height_ := by
  intro ks
  induction ks with
  | nil =>
    intro s order hinv
    exact ⟨s, order, rfl, hinv, Nat.le_refl _⟩
  | cons k ks ih =>
    intro s order hinv
    obtain ⟨t1, hins, hinv1, _, _, _, hmono, _⟩ := Insert_inv cmp hc rnd s order hinv k
    obtain ⟨t, order2, hrun, hinv2, hle⟩ := ih t1 _ hinv1
    refine ⟨t, order2, ?_, hinv2, Nat.le_trans hmono hle⟩
    rw [InsertAll, hins]
    exact hrun

theorem LevelInv_of_Inv (cmp : K → K → Int) (hc : CmpLawful cmp) (s : SkipList K)
    (order : List Nat) (hinv : Inv cmp s order) (ks : List K)
    (hperm : (order.map s.keyOf).Perm ks) (hks : ks.Pairwise (fun a b => cmp a b ≠ 0)) :
    LevelInv cmp s ks (fun i => order.filter (fun y => decide (i < s.height y))) := by
  have hsym : ∀ a b : K, cmp a b ≠ 0 → cmp b a ≠ 0 :=
    fun a b h h2 => h (CmpLawful_symm_zero hc b a h2)
  have hne : (order.map s.keyOf).Pairwise (fun a b => cmp a b ≠ 0) :=
    (hperm.pairwise_iff (fun {a b} h => hsym a b h)).mpr hks
  have hle : (order.map s.keyOf).Pairwise (fun a b => ¬ cmp b a < 0) :=
    List.pairwise_map.mpr hinv.sorted
  have hlt : (order.map s.keyOf).Pairwise (fun a b => cmp a b < 0) := by
    apply (hne.and hle).imp
    intro a b hab
    have := hc.antisymm a b
    have := hc.antisymm b a
    omega
  refine
    { chain := fun i hi => hinv.chain i hi
      increasing := fun i _ => ?_
      sub := fun i _ => ?_
      keys_eq := ?_
      above := fun i hi hk => ?_ }
  · exact hlt.sublist (List.Sublist.map _ (List.filter_sublist _))
  · have h : order.filter (fun y => decide (i + 1 < s.height y))
        = (order.filter (fun y => decide (i < s.height y))).filter
            (fun y => decide (i + 1 < s.height y)) := by
      rw [List.filter_filter]
      apply List.filter_congr
      intro y _
      by_cases h1 : i + 1 < s.height y
      · have h2 : i < s.height y := by omega
        simp [h1, h2]
      · simp [h1]
    show (order.filter (fun y => decide (i + 1 < s.height y))).Sublist _
    rw [h]
    exact List.filter_sublist _
  · show ((order.filter (fun y => decide (0 < s.height y))).map s.keyOf).Perm ks
    rw [Inv_level0 cmp s order hinv order (fun _ h => h)]
    exact hperm
  · have hch := hinv.chain i hk
    have hnil : order.filter (fun y => decide (i < s.height y)) = [] := by
      apply List.filter_eq_nil_iff.mpr
      intro y hy
      have := (hinv.height_ok y hy).2
      simp only [decide_eq_true_eq]
      omega
    rw [hnil] at hch
    exact hch

end SkipList
end leveldb

namespace leveldb

/-- C40 (skip-list structural invariant): after `Insert` calls with keys `ks` that are
pairwise non-equal under a lawful comparator, there are chains `chains i` of the level-`i`
links from the head, for every level below 12, each ending in `nullptr` (so finite) with
strictly increasing keys, the chain of level `i + 1` a subsequence of the chain of level
`i`, the chain of level 0 holding exactly the keys `ks`, and the head's links from
`max_height_` on null; a further `Insert` of a key not equal to any of them returns and
gives a list with the same structure for `ks ++ [k]`; and `FindGreaterOrEqual` (with or
without a `prev` array), `FindLessThan` and `FindLast` return, `FindLast` giving the last
node of the level-0 chain or the head. -/
theorem C40_skiplist_structure {K : Type} [Inhabited K] (cmp : K → K → Int)
    (hc : CmpLawful cmp) (rnd : Random) (ks : List K)
    (hks : ks.Pairwise (fun a b => cmp a b ≠ 0)) :
    ∃ s chains, SkipList.InsertAll cmp rnd (SkipList.mk0 rnd) ks = some s ∧
      SkipList.LevelInv cmp s ks chains ∧
      (∀ k, (∀ a ∈ ks, cmp a k ≠ 0) →
        ∃ t chains1, s.Insert cmp rnd k = some t ∧
          SkipList.LevelInv cmp t (ks ++ [k]) chains1) ∧
      (∀ k prev, ∃ res, s.FindGreaterOrEqual cmp k prev = some res) ∧
      (∀ k, ∃ x, s.FindLessThan cmp k = some x) ∧
      s.FindLast = some ((chains 0).getLast?.getD 0) := by
  obtain ⟨s, order, hrun, hinv, hperm⟩ := SkipList.built_inv cmp hc rnd ks
  refine ⟨s, _, hrun, SkipList.LevelInv_of_Inv cmp hc s order hinv ks hperm hks, ?_, ?_, ?_, ?_⟩
  · intro k hk
    obtain ⟨t, hins, hinv1, hlen1, hkn, hkold, _, _⟩ :=
      SkipList.Insert_inv cmp hc rnd s order hinv k
    refine ⟨t, _, hins, SkipList.LevelInv_of_Inv cmp hc t _ hinv1 (ks ++ [k]) ?_ ?_⟩
    · have happ := SkipList.before_append_notBefore cmp s k order
      have hlt : ∀ y ∈ order, y < s.nodes.length := fun y hy => ((hinv.mem_order y).mp hy).2
      have hmapB : (SkipList.before cmp s k order).map t.keyOf
          = (SkipList.before cmp s k order).map s.keyOf := by
        apply List.map_congr_left
        intro y hy
        exact hkold y (hlt y (by rw [← happ]; exact List.mem_append_left _ hy))
      have hmapN : (SkipList.notBefore cmp s k order).map t.keyOf
          = (SkipList.notBefore cmp s k order).map s.keyOf := by
        apply List.map_congr_left
        intro y hy
        exact hkold y (hlt y (by rw [← happ]; exact List.mem_append_right _ hy))
      rw [List.map_append, List.map_cons, hmapB, hmapN, hkn]
      have h1 : (SkipList.before cmp s k order).map s.keyOf
          ++ (SkipList.notBefore cmp s k order).map s.keyOf = order.map s.keyOf := by
        rw [← List.map_append, happ]
      refine List.perm_middle.trans ?_
      refine (List.perm_append_singleton _ _).symm.trans ?_
      rw [h1]
      exact List.Perm.append_right _ hperm
    · rw [List.pairwise_append]
      exact ⟨hks, List.pairwise_singleton _ _, fun a ha b hb => by
        rw [List.mem_singleton] at hb
        subst hb
        exact hk a ha⟩
  · intro k prev
    exact ⟨_, SkipList.FGE_spec cmp hc s order hinv k prev⟩
  · intro k
    exact ⟨_, SkipList.FLT_spec cmp hc s order hinv k⟩
  · rw [SkipList.FindLast_spec cmp s order hinv]
    show _ = some ((order.filter (fun y => decide (0 < s.height y))).getLast?.getD 0)
    rw [SkipList.Inv_level0 cmp s order hinv order (fun _ h => h)]

/-- Witness for C40 with the comparison of natural numbers and the sample generator. -/
theorem C40_skiplist_structure_witness :
    ∃ s chains, SkipList.InsertAll natCompare sampleRandom (SkipList.mk0 sampleRandom)
        [5, 3, 9, 1] = some s ∧
      SkipList.LevelInv natCompare s [5, 3, 9, 1] chains ∧
      (∀ k, (∀ a ∈ [5, 3, 9, 1], natCompare a k ≠ 0) →
        ∃ t chains1, s.Insert natCompare sampleRandom k = some t ∧
          SkipList.LevelInv natCompare t ([5, 3, 9, 1] ++ [k]) chains1) ∧
      (∀ k prev, ∃ res, s.FindGreaterOrEqual natCompare k prev = some res) ∧
      (∀ k, ∃ x, s.FindLessThan natCompare k = some x) ∧
      s.FindLast = some ((chains 0).getLast?.getD 0) :=
  C40_skiplist_structure natCompare natCompare_lawful sampleRandom [5, 3, 9, 1]
    (by simp [natCompare])

end leveldb

namespace leveldb

/-- The assertion of `Insert` holds for a key that compares equal to no key of the
list: the node that `FindGreaterOrEqual` returns is null or holds another key. -/
theorem SkipList.InsertAssert_of_distinct {K : Type} [Inhabited K] (cmp : K → K → Int)
    (hc : CmpLawful cmp) (s : SkipList K) (order : List Nat) (ks : List K)
    (hperm : (order.map s.keyOf).Perm ks) (k : K) (hk : ∀ a ∈ ks, cmp a k ≠ 0) :
    SkipList.InsertAssert cmp s k (SkipList.notBefore cmp s k order).head? = true := by
  cases hx : (SkipList.notBefore cmp s k order).head? with
  | none => rfl
  | some y =>
    have hy : y ∈ SkipList.notBefore cmp s k order := List.mem_of_mem_head? hx
    have hyo := SkipList.notBefore_mem_order cmp s k order y hy
    have hmem : s.keyOf y ∈ ks := hperm.subset (List.mem_map_of_mem _ hyo)
    have hne : cmp k (s.keyOf y) ≠ 0 :=
      fun h => hk _ hmem (CmpLawful_symm_zero hc _ _ h)
    show (!SkipList.Equal cmp k (s.keyOf y)) = true
    simp [SkipList.Equal, hne]

/-- C36 (skip-list height bounds): `RandomHeight` returns a value in [1, 12] for every
list and generator. For a sequence `ks` of `Insert` calls on the empty list that meets
the requirement of `Insert` (no two keys compare equal), `max_height_` is in [1, 12]
after the sequence, and at every call `Insert(k)` of the sequence, made after the calls
`pre`: `max_height_` is in [1, 12] before the call, the assertion of `Insert` holds for
the node that `FindGreaterOrEqual` returns, the array `prev` of 12 entries it fills has
the entries `0 .. max_height_ - 1` written and the others not, the head-seeding loop
writes the entries `max_height_ .. height - 1` without changing the ones below, every
index below `height` lies inside the array, the linking loop finds every entry it reads
written (`Insert` returns), and `max_height_` after the call is not smaller and at
most 12. -/
theorem C36_height_bounds {K : Type} [Inhabited K] (cmp : K → K → Int)
    (hc : CmpLawful cmp) (rnd : Random) (ks : List K)
    (hks : ks.Pairwise (fun a b => cmp a b ≠ 0)) :
    (∀ s : SkipList K, 1 ≤ (s.RandomHeight rnd).1 ∧ (s.RandomHeight rnd).1 ≤ 12) ∧
    (∃ s, SkipList.InsertAll cmp rnd (SkipList.mk0 rnd) ks = some s ∧
      1 ≤ s.max_height_ ∧ s.max_height_ ≤ 12) ∧
    ∀ pre k post, ks = pre ++ k :: post →
      ∃ s x prev t,
        SkipList.InsertAll cmp rnd (SkipList.mk0 rnd) pre = some s ∧
        1 ≤ s.max_height_ ∧ s.max_height_ ≤ 12 ∧
        s.FindGreaterOrEqual cmp k (some (List.replicate kMaxHeight none))
          = some (x, some prev) ∧
        SkipList.InsertAssert cmp s k x = true ∧
        prev.length = 12 ∧
        (∀ i, i < s.max_height_ → (prev.getD i none).isSome = true) ∧
        (∀ i, s.max_height_ ≤ i → prev.getD i none = none) ∧
        (∀ i, s.max_height_ ≤ i → i < (s.RandomHeight rnd).1 →
          ((List.range' s.max_height_ ((s.RandomHeight rnd).1 - s.max_height_)).foldl
            (fun p i => p.set i (some 0)) prev).getD i none = some 0) ∧
        (∀ i, i < s.max_height_ →
          ((List.range' s.max_height_ ((s.RandomHeight rnd).1 - s.max_height_)).foldl
            (fun p i => p.set i (some 0)) prev).getD i none = prev.getD i none) ∧
        (∀ i, i < (s.RandomHeight rnd).1 → i < prev.length) ∧
        s.Insert cmp rnd k = some t ∧
        SkipList.InsertAll cmp rnd (SkipList.mk0 rnd) (pre ++ [k]) = some t ∧
        s.max_height_ ≤ t.max_height_ ∧ t.max_height_ ≤ 12 := by
  refine ⟨fun s => ?_, ?_, ?_⟩
  · have h := SkipList.RandomHeight_bounds rnd s
    simpa [kMaxHeight] using h
  · obtain ⟨s, order, hrun, hinv, _⟩ := SkipList.built_inv cmp hc rnd ks
    exact ⟨s, hrun, hinv.mh_pos, hinv.mh_le⟩
  intro pre k post hsplit
  have hk : ∀ a ∈ pre, cmp a k ≠ 0 := by
    rw [hsplit] at hks
    exact fun a ha =>
      (List.pairwise_append.mp hks).2.2 a ha k (List.mem_cons_self _ _)
  obtain ⟨s, order, hrun, hinv, hperm⟩ := SkipList.built_inv cmp hc rnd pre
  have hmp := hinv.mh_pos
  have hml : s.max_height_ ≤ 12 := hinv.mh_le
  obtain ⟨t, hins, _, _, _, _, hmono, hle⟩ := SkipList.Insert_inv cmp hc rnd s order hinv k
  have hfge := SkipList.FGE_spec cmp hc s order hinv k (some (List.replicate kMaxHeight none))
  have hb := SkipList.RandomHeight_bounds rnd s
  have hlen : (SkipList.fillPrev (SkipList.predAt s (SkipList.before cmp s k order))
      (List.replicate kMaxHeight none) (s.max_height_ - 1)).length = 12 := by
    rw [SkipList.fillPrev_length]
    simp [kMaxHeight]
  have hprev1 : ∀ i, (SkipList.fillPrev (SkipList.predAt s (SkipList.before cmp s k order))
      (List.replicate kMaxHeight none) (s.max_height_ - 1)).getD i none
      = if i < s.max_height_ then some (SkipList.predAt s (SkipList.before cmp s k order) i)
        else none := by
    intro i
    rw [SkipList.fillPrev_getD]
    by_cases hi : i < s.max_height_
    · rw [if_pos hi, if_pos ⟨by omega, by simp [kMaxHeight]; omega⟩]
    · rw [if_neg hi, if_neg (by omega)]
      simp only [List.getD_eq_getElem?_getD, List.getElem?_replicate]
      split <;> rfl
  have hall : SkipList.InsertAll cmp rnd (SkipList.mk0 rnd) (pre ++ [k]) = some t := by
    rw [SkipList.InsertAll_append, hrun]
    show SkipList.InsertAll cmp rnd s [k] = some t
    rw [SkipList.InsertAll, hins]
    rfl
  refine ⟨s, _, _, t, hrun, hmp, hml, hfge,
    SkipList.InsertAssert_of_distinct cmp hc s order pre hperm k hk, hlen,
    ?_, ?_, ?_, ?_, ?_, hins, hall, hmono, by simpa [kMaxHeight] using hle⟩
  · intro i hi
    rw [hprev1, if_pos hi]
    rfl
  · intro i hi
    rw [hprev1, if_neg (by omega)]
  · intro i hi hih
    rw [SkipList.seed_getD, hlen, if_pos ⟨hi, by omega, by simp [kMaxHeight] at hb; omega⟩]
  · intro i hi
    rw [SkipList.seed_getD, if_neg (by omega)]
  · intro i hi
    rw [hlen]
    simp [kMaxHeight] at hb
    omega

/-- Witness for C36 with the comparison of natural numbers and the sample generator:
the keys 5, 3, 9, 1 are distinct. -/
theorem C36_height_bounds_witness :
    [5, 3, 9, 1].Pairwise (fun a b => natCompare a b ≠ 0) ∧
    (∀ s : SkipList Nat, 1 ≤ (s.RandomHeight sampleRandom).1 ∧
      (s.RandomHeight sampleRandom).1 ≤ 12) ∧
    (∃ s, SkipList.InsertAll natCompare sampleRandom (SkipList.mk0 sampleRandom) [5, 3, 9, 1]
        = some s ∧ 1 ≤ s.max_height_ ∧ s.max_height_ ≤ 12) ∧
    ∀ pre k post, [5, 3, 9, 1] = pre ++ k :: post →
      ∃ s x prev t,
        SkipList.InsertAll natCompare sampleRandom (SkipList.mk0 sampleRandom) pre = some s ∧
        1 ≤ s.max_height_ ∧ s.max_height_ ≤ 12 ∧
        s.FindGreaterOrEqual natCompare k (some (List.replicate kMaxHeight none))
          = some (x, some prev) ∧
        SkipList.InsertAssert natCompare s k x = true ∧
        prev.length = 12 ∧
        (∀ i, i < s.max_height_ → (prev.getD i none).isSome = true) ∧
        (∀ i, s.max_height_ ≤ i → prev.getD i none = none) ∧
        (∀ i, s.max_height_ ≤ i → i < (s.RandomHeight sampleRandom).1 →
          ((List.range' s.max_height_ ((s.RandomHeight sampleRandom).1 - s.max_height_)).foldl
            (fun p i => p.set i (some 0)) prev).getD i none = some 0) ∧
        (∀ i, i < s.max_height_ →
          ((List.range' s.max_height_ ((s.RandomHeight sampleRandom).1 - s.max_height_)).foldl
            (fun p i => p.set i (some 0)) prev).getD i none = prev.getD i none) ∧
        (∀ i, i < (s.RandomHeight sampleRandom).1 → i < prev.length) ∧
        s.Insert natCompare sampleRandom k = some t ∧
        SkipList.InsertAll natCompare sampleRandom (SkipList.mk0 sampleRandom) (pre ++ [k])
          = some t ∧
        s.max_height_ ≤ t.max_height_ ∧ t.max_height_ ≤ 12 :=
  ⟨by decide, C36_height_bounds natCompare natCompare_lawful sampleRandom [5, 3, 9, 1]
    (by decide)⟩

end leveldb

namespace leveldb
namespace TableBuilder

theorem mk0_returns (options : Options) (f0 : AppendFile) : ∃ b, mk0 options f0 = some b := by
  unfold mk0 StartFilterBlock
  cases hq : options.filter_policy with
  | none => simp [Rep, hq]
  | some p =>
    simp [Rep, hq, FilterBlockBuilder.StartBlock, FilterBlockBuilder.StartBlockLoop,
      FilterBlockBuilder.mk0]

theorem Finish_returns (crc : Crc32c) (port : Port) (options : Options)
    (gs : List (List Entry)) (cur : List Entry) (r rf : TableBuilder)
    (hb : Built crc port options gs cur r) (hfl : r.Flush crc port = some rf) :
    ∃ s r1, r.Finish crc port = some (s, r1) := by
  have hbf := Built_Flush crc port options gs cur r rf hb hfl
  generalize groupsOf gs cur = G at hbf
  have hc := hbf.core
  have hfo := hbf.filter_eq
  unfold FilterOk at hfo
  have hcl := Closing_of_Built crc port options G rf hc
  unfold Finish
  rw [hfl]
  simp only [hc.closed_eq, Bool.false_eq_true, if_false]
  cases hq : options.filter_policy with
  | none =>
    rw [hq] at hfo
    have e1 := FinishFilter_none crc { rf with closed := true } hfo
    rw [e1]
    have hblock : metaIndexBlock { rf with closed := true } BlockHandle.mk0
        = some BlockBuilder.mk0 := by
      unfold metaIndexBlock
      rw [show ({ rf with closed := true } : TableBuilder).filter_block = none from hfo]
    obtain ⟨m, hm, hcm, hmh⟩ := Closing_meta crc port options G _ _ _ _ hcl hblock
    rw [hm]
    obtain ⟨i, hi, _⟩ := Closing_index crc port options G _ m.1 hcm hc.nonempty
    simp only
    rw [hi]
    exact ⟨_, _, rfl⟩
  | some p =>
    rw [hq] at hfo
    obtain ⟨fb, hfb, hrun⟩ := hfo
    obtain ⟨hcf, hfh, hff⟩ := Closing_filter crc port options G _ { rf with closed := true }
      p fb hcl hfb
    have hblock : metaIndexBlock (FinishFilter crc { rf with closed := true }).1
        (FinishFilter crc { rf with closed := true }).2
        = some (BlockBuilder.mk0.Add options (filterPrefix ++ p.Name)
            (FinishFilter crc { rf with closed := true }).2.EncodeTo) := by
      unfold metaIndexBlock
      rw [hff, hcf.options_eq, hq]
    obtain ⟨m, hm, hcm, hmh⟩ := Closing_meta crc port options G _ _ _ _ hcf hblock
    rw [hm]
    obtain ⟨i, hi, _⟩ := Closing_index crc port options G _ m.1 hcm hc.nonempty
    simp only
    rw [hi]
    exact ⟨_, _, rfl⟩

theorem Flush_empty (crc : Crc32c) (port : Port) (r : TableBuilder)
    (hc : r.closed = false) (he : r.data_block.empty = true) : r.Flush crc port = some r := by
  unfold Flush
  rw [hc, he]
  simp

/-- C37 (table with zero entries): over an empty file whose operations succeed, the
constructor returns a builder and `Finish` on it returns `OK`. The file then holds, in
this order, the filter block `[0, 0, 0, 0, 11]` with its trailer (only with a filter
policy), the metaindex block (empty without a policy, and with a policy the one entry
from `"filter." ++ Name()` to the handle of the filter block at offset 0 with 5 bytes),
the index block without entries, and the footer with the handles of the last two; there
is no data block in front. A trailer has 5 bytes and the footer 48, and `FileSize()` is
the sum of the lengths of these parts (as a 64-bit number). -/
theorem C37_empty_table (crc : Crc32c) (port : Port) (options : Options) (f0 : AppendFile)
    (hf : f0.Reliable) (h0 : f0.contents = []) :
    ∃ b r1 fbytes, mk0 options f0 = some b ∧
      b.Finish crc port = some (Status.OK, r1) ∧
      fbytes = options.filter_policy.map (fun _ => [0, 0, 0, 0, 11]) ∧
      r1.file.contents =
        filterImage crc fbytes
          ++ rawImage crc port options (metaRaw crc port options [] fbytes)
          ++ rawImage crc port options (indexRaw crc port options [])
          ++ (footerOf crc port options [] fbytes).EncodeTo ∧
      filterImage crc fbytes =
        (match options.filter_policy with
          | none => []
          | some _ => [0, 0, 0, 0, 11]
              ++ trailerOf crc [0, 0, 0, 0, 11] CompressionType.kNoCompression) ∧
      metaRaw crc port options [] fbytes =
        (match options.filter_policy with
          | none => BlockBuilder.build options []
          | some policy => BlockBuilder.build options
              [(filterPrefix ++ policy.Name, (⟨0, 5⟩ : BlockHandle).EncodeTo)]) ∧
      indexRaw crc port options [] = BlockBuilder.build (indexOptions options) [] ∧
      BlockBuilder.build (indexOptions options) [] = [0, 0, 0, 0, 1, 0, 0, 0] ∧
      (∀ raw, rawImage crc port options raw
        = (chooseContents port options raw).1
          ++ trailerOf crc (chooseContents port options raw).1
              (chooseContents port options raw).2) ∧
      (∀ c t, (trailerOf crc c t).length = 5) ∧
      (footerOf crc port options [] fbytes).EncodeTo.length = 48 ∧
      r1.FileSize =
        ((filterImage crc fbytes).length
          + (storedLength port options (metaRaw crc port options [] fbytes) + 5)
          + (storedLength port options (indexRaw crc port options []) + 5)
          + 48) % 2 ^ 64 := by
  obtain ⟨b, hb⟩ := mk0_returns options f0
  have hbuilt := mk0_Built crc port options f0 b hf h0 hb
  have hfl : b.Flush crc port = some b := by
    apply Flush_empty crc port b hbuilt.core.closed_eq
    rw [hbuilt.core.data_eq]
    rfl
  obtain ⟨s, r1, hfin⟩ := Finish_returns crc port options [] [] b b hbuilt hfl
  obtain ⟨hs, fbytes, hdone, hcont⟩ := Finish_Built crc port options [] [] b r1 s hbuilt hfin
  have hgood := (Finish_good crc port f0.contents b r1 s hfin (mk0_good options f0 b hb hf).1).2.1
  obtain ⟨out, hout, hoff⟩ := hgood.sized
  rw [h0, List.nil_append] at hout
  subst hs
  have hfb : fbytes = options.filter_policy.map (fun _ => [0, 0, 0, 0, 11]) := by
    unfold FilterDone at hdone
    cases hq : options.filter_policy with
    | none => rw [hq] at hdone; exact hdone
    | some p =>
      rw [hq] at hdone
      obtain ⟨fb, hrun, hfbytes⟩ := hdone
      have : fb = FilterBlockBuilder.mk0 := by
        simp [groupsOf, filterCalls, FilterBlockBuilder.run, FilterBlockBuilder.StartBlock,
          FilterBlockBuilder.StartBlockLoop, FilterBlockBuilder.mk0] at hrun
        exact hrun.symm
      rw [hfbytes, this]
      simp [FilterBlockBuilder.Finish, FilterBlockBuilder.mk0, EncodeFixed32, kFilterBaseLg]
  rw [show groupsOf ([] : List (List Entry)) [] = [] from rfl] at hcont
  refine ⟨b, r1, fbytes, hb, hfin, hfb, ?_, ?_, ?_, rfl,
    (by simp [BlockBuilder.build, BlockBuilder.addAll, BlockBuilder.mk0, BlockBuilder.Finish,
      EncodeFixed32]), fun _ => rfl, fun _ _ => rfl,
    Footer_EncodeTo_length _, ?_⟩
  · rw [hcont]
    simp [tableImage, dataImage]
  · rw [hfb]
    cases options.filter_policy <;> rfl
  · rw [hfb]
    unfold metaRaw metaEntries
    cases options.filter_policy <;> rfl
  · show r1.offset = _
    rw [hoff, ← hout, hcont]
    simp only [tableImage, dataImage, List.nil_append, List.length_append, rawImage_length,
      Footer_EncodeTo_length, storedLength]

/-- Witness for C37 with the sample filter policy over an empty file without failures. -/
theorem C37_empty_table_witness :
    AppendFile.Reliable ⟨[], []⟩ ∧
    (∃ b r1 fbytes, mk0 (sampleFilterOptions 4096) ⟨[], []⟩ = some b ∧
      b.Finish sampleCrc samplePort = some (Status.OK, r1) ∧
      fbytes = (sampleFilterOptions 4096).filter_policy.map (fun _ => [0, 0, 0, 0, 11]) ∧
      r1.file.contents =
        filterImage sampleCrc fbytes
          ++ rawImage sampleCrc samplePort (sampleFilterOptions 4096)
              (metaRaw sampleCrc samplePort (sampleFilterOptions 4096) [] fbytes)
          ++ rawImage sampleCrc samplePort (sampleFilterOptions 4096)
              (indexRaw sampleCrc samplePort (sampleFilterOptions 4096) [])
          ++ (footerOf sampleCrc samplePort (sampleFilterOptions 4096) [] fbytes).EncodeTo ∧
      filterImage sampleCrc fbytes =
        (match (sampleFilterOptions 4096).filter_policy with
          | none => []
          | some _ => [0, 0, 0, 0, 11]
              ++ trailerOf sampleCrc [0, 0, 0, 0, 11] CompressionType.kNoCompression) ∧
      metaRaw sampleCrc samplePort (sampleFilterOptions 4096) [] fbytes =
        (match (sampleFilterOptions 4096).filter_policy with
          | none => BlockBuilder.build (sampleFilterOptions 4096) []
          | some policy => BlockBuilder.build (sampleFilterOptions 4096)
              [(filterPrefix ++ policy.Name, (⟨0, 5⟩ : BlockHandle).EncodeTo)]) ∧
      indexRaw sampleCrc samplePort (sampleFilterOptions 4096) []
          = BlockBuilder.build (indexOptions (sampleFilterOptions 4096)) [] ∧
      BlockBuilder.build (indexOptions (sampleFilterOptions 4096)) [] = [0, 0, 0, 0, 1, 0, 0, 0] ∧
      (∀ raw, rawImage sampleCrc samplePort (sampleFilterOptions 4096) raw
        = (chooseContents samplePort (sampleFilterOptions 4096) raw).1
          ++ trailerOf sampleCrc (chooseContents samplePort (sampleFilterOptions 4096) raw).1
              (chooseContents samplePort (sampleFilterOptions 4096) raw).2) ∧
      (∀ c t, (trailerOf sampleCrc c t).length = 5) ∧
      (footerOf sampleCrc samplePort (sampleFilterOptions 4096) [] fbytes).EncodeTo.length = 48 ∧
      r1.FileSize =
        ((filterImage sampleCrc fbytes).length
          + (storedLength samplePort (sampleFilterOptions 4096)
              (metaRaw sampleCrc samplePort (sampleFilterOptions 4096) [] fbytes) + 5)
          + (storedLength samplePort (sampleFilterOptions 4096)
              (indexRaw sampleCrc samplePort (sampleFilterOptions 4096) []) + 5)
          + 48) % 2 ^ 64) :=
  ⟨by simp [AppendFile.Reliable],
    C37_empty_table sampleCrc samplePort (sampleFilterOptions 4096) ⟨[], []⟩
      (by simp [AppendFile.Reliable]) rfl⟩

end TableBuilder
end leveldb

namespace leveldb
namespace TableBuilder

theorem AddLastIndexEntry_pending (r : TableBuilder) :
    (AddLastIndexEntry r).pending_index_entry = false := by
  unfold AddLastIndexEntry
  split
  · rfl
  · next h => simpa using h

theorem FinishFooter_pending (r : TableBuilder) (mh ih : BlockHandle) :
    (FinishFooter r mh ih).pending_index_entry = r.pending_index_entry := by
  unfold FinishFooter
  simp only
  split
  · split <;> rfl
  · rfl

theorem WriteRawBlock_closed (crc : Crc32c) (r : TableBuilder) (c : List Nat)
    (t : CompressionType) : (WriteRawBlock crc r c t).1.closed = r.closed := by
  unfold WriteRawBlock
  simp only
  split
  · split <;> rfl
  · rfl

theorem WriteBlock_closed (crc : Crc32c) (port : Port) (r r1 : TableBuilder)
    (block b1 : BlockBuilder) (hd : BlockHandle)
    (h : WriteBlock crc port r block = some (r1, b1, hd)) : r1.closed = r.closed := by
  unfold WriteBlock at h
  split at h
  · cases h
  · simp only [Option.some.injEq, Prod.mk.injEq] at h
    rw [← h.1]
    exact WriteRawBlock_closed crc r _ _

theorem FinishFilter_closed (crc : Crc32c) (r : TableBuilder) :
    (FinishFilter crc r).1.closed = r.closed := by
  unfold FinishFilter
  split
  · split
    · rw [WriteRawBlock_closed]
    · rfl
  · rfl

theorem FinishMetaindex_closed (crc : Crc32c) (port : Port) (r : TableBuilder)
    (fh : BlockHandle) (m : TableBuilder × BlockHandle)
    (h : FinishMetaindex crc port r fh = some m) : m.1.closed = r.closed := by
  unfold FinishMetaindex at h
  split at h
  · split at h
    · cases h
    · split at h
      · next r1 b1 hd hw =>
        simp only [Option.some.injEq] at h
        rw [← h]
        exact WriteBlock_closed crc port r r1 _ b1 hd hw
      · cases h
  · simp only [Option.some.injEq] at h
    rw [← h]

theorem FinishIndex_closed (crc : Crc32c) (port : Port) (r : TableBuilder)
    (i : TableBuilder × BlockHandle)
    (h : FinishIndex crc port r = some i) : i.1.closed = r.closed := by
  have e : (AddLastIndexEntry r).closed = r.closed := by
    unfold AddLastIndexEntry
    split <;> rfl
  unfold FinishIndex at h
  split at h
  · simp only at h
    split at h
    · next r2 b1 hd hw =>
      simp only [Option.some.injEq] at h
      rw [← h]
      show r2.closed = r.closed
      rw [WriteBlock_closed crc port _ r2 _ b1 hd hw, e]
    · cases h
  · simp only [Option.some.injEq] at h
    rw [← h]

theorem FinishFooter_closed (r : TableBuilder) (mh ih : BlockHandle) :
    (FinishFooter r mh ih).closed = r.closed := by
  unfold FinishFooter
  simp only
  split
  · split <;> rfl
  · rfl

theorem Finish_pending (crc : Crc32c) (port : Port) (c0 : List Nat) (r r1 : TableBuilder)
    (s : Status) (h : r.Finish crc port = some (s, r1)) (hg : Good c0 r) :
    r1.pending_index_entry = false ∧ r1.closed = true := by
  unfold Finish at h
  split at h
  · cases h
  · next rf hfl =>
    split at h
    · cases h
    · simp only at h
      split at h
      · cases h
      · next m hm =>
        split at h
        · cases h
        · next i hi =>
          simp only [Option.some.injEq, Prod.mk.injEq] at h
          have gf := Flush_good crc port c0 r rf hfl hg
          have g2 : Good c0 { rf with closed := true } := Good_congr gf rfl rfl rfl
          have g3 := FinishFilter_good crc c0 _ g2
          have g4 := FinishMetaindex_good crc port c0 _ _ m hm g3.1
          have hcl : i.1.closed = true := by
            rw [FinishIndex_closed crc port _ i hi, FinishMetaindex_closed crc port _ _ m hm,
              FinishFilter_closed]
          obtain ⟨f, _, _, hfi⟩ := FinishIndex_eq crc port m.1 g4.1.reliable g4.1.status_eq
          rw [hfi] at hi
          simp only [Option.some.injEq] at hi
          rw [← h.2, FinishFooter_pending, FinishFooter_closed]
          refine ⟨?_, hcl⟩
          rw [← hi]
          exact AddLastIndexEntry_pending m.1

theorem closed_step_none (crc : Crc32c) (port : Port) (r : TableBuilder) (op : Op)
    (hc : r.closed = true) (hop : op.isChangeOptions = false) : step crc port r op = none := by
  cases op with
  | Add k v => simp [step, Add, hc]
  | Flush => simp [step, Flush, hc]
  | ChangeOptions o => cases hop
  | Finish => simp [step, Finish, Flush, hc]
  | Abandon => simp [step, Abandon, hc]

theorem closed_run (crc : Crc32c) (port : Port) (r r1 : TableBuilder) (ops : List Op)
    (hc : r.closed = true) (hops : ∀ op ∈ ops, op.isChangeOptions = false)
    (h : run crc port r ops = some r1) : ops = [] ∧ r1 = r := by
  cases ops with
  | nil =>
    simp only [run, Option.some.injEq] at h
    exact ⟨rfl, h.symm⟩
  | cons op rest =>
    rw [run, closed_step_none crc port r op hc (hops op (List.mem_cons_self _ _))] at h
    cases h

theorem Good_of_Built (crc : Crc32c) (port : Port) (options : Options)
    (gs : List (List Entry)) (cur : List Entry) (r : TableBuilder)
    (hb : Built crc port options gs cur r) : Good [] r :=
  ⟨hb.core.reliable, hb.core.status_eq, dataImage crc port options gs,
    by rw [hb.core.contents_eq]; rfl, hb.core.offset_eq⟩

theorem run_pending (crc : Crc32c) (port : Port) (options : Options) (ops : List Op) :
    ∀ (gs : List (List Entry)) (cur : List Entry) (r r1 : TableBuilder),
      Built crc port options gs cur r → (∀ op ∈ ops, op.isChangeOptions = false) →
      run crc port r ops = some r1 →
      (ops.any Op.isFinish = true → r1.pending_index_entry = false) ∧
      (ops.any Op.isFinish = false →
        ∃ gs1 cur1, r1.file.contents = dataImage crc port options gs1 ∧
          r1.data_block = BlockBuilder.addAll options BlockBuilder.mk0 cur1 ∧
          r1.pending_index_entry = decide (cur1 = [] ∧ gs1 ≠ [])) := by
  induction ops with
  | nil =>
    intro gs cur r r1 hb _ h
    simp only [run, Option.some.injEq] at h
    subst h
    refine ⟨fun hf => by simp at hf, fun _ => ?_⟩
    exact ⟨gs, cur, hb.core.contents_eq, hb.core.data_eq, hb.core.pending_eq⟩
  | cons op rest ih =>
    intro gs cur r r1 hb hops h
    have hrest : ∀ o ∈ rest, o.isChangeOptions = false :=
      fun o ho => hops o (List.mem_cons_of_mem _ ho)
    rw [run] at h
    cases hstep : step crc port r op with
    | none => rw [hstep] at h; cases h
    | some r2 =>
      rw [hstep] at h
      simp only at h
      cases op with
      | Add k v =>
        have hany : (Op.Add k v :: rest).any Op.isFinish = rest.any Op.isFinish := by
          simp [Op.isFinish]
        rw [hany]
        rcases Built_Add crc port options gs cur r r2 k v hb hstep with hb2 | hb2
        · exact ih _ _ r2 r1 hb2 hrest h
        · exact ih _ _ r2 r1 hb2 hrest h
      | Flush =>
        have hany : (Op.Flush :: rest).any Op.isFinish = rest.any Op.isFinish := by
          simp [Op.isFinish]
        rw [hany]
        exact ih _ _ r2 r1 (Built_Flush crc port options gs cur r r2 hb hstep) hrest h
      | ChangeOptions o =>
        have := hops (Op.ChangeOptions o) (List.mem_cons_self _ _)
        cases this
      | Finish =>
        have hfin : ∃ s, r.Finish crc port = some (s, r2) := by
          simp only [step, Option.map_eq_some'] at hstep
          obtain ⟨x, hx, hx2⟩ := hstep
          exact ⟨x.1, by rw [hx, ← hx2]⟩
        obtain ⟨s, hfin⟩ := hfin
        obtain ⟨hp, hcl⟩ := Finish_pending crc port [] r r2 s hfin
          (Good_of_Built crc port options gs cur r hb)
        obtain ⟨_, hr1⟩ := closed_run crc port r2 r1 rest hcl hrest h
        subst hr1
        exact ⟨fun _ => hp, fun hf => by simp [Op.isFinish] at hf⟩
      | Abandon =>
        have hr2 : r2 = { r with closed := true } := by
          simp only [step, Abandon, hb.core.closed_eq, Bool.false_eq_true, if_false,
            Option.some.injEq] at hstep
          exact hstep.symm
        have hcl : r2.closed = true := by rw [hr2]
        obtain ⟨hnil, hr1⟩ := closed_run crc port r2 r1 rest hcl hrest h
        subst hr1
        subst hnil
        refine ⟨fun hf => by simp [Op.isFinish] at hf, fun _ => ?_⟩
        rw [hr2]
        exact ⟨gs, cur, hb.core.contents_eq, hb.core.data_eq, hb.core.pending_eq⟩

theorem dataImage_eq_nil (crc : Crc32c) (port : Port) (options : Options)
    (gs : List (List Entry)) : dataImage crc port options gs = [] ↔ gs = [] := by
  cases gs with
  | nil => simp [dataImage]
  | cons g rest =>
    have h := rawImage_length crc port options (BlockBuilder.build options g)
    constructor
    · intro h2
      have h3 := congrArg List.length h2
      simp only [dataImage, List.length_append, List.length_nil] at h3
      omega
    · intro h2
      cases h2

/-- C33, counterexample: after `Add("a", "1")` and `Finish()` on a builder over an empty
file without failures, `pending_index_entry` is false although `data_block` is empty and
the data block with the entry was written: the file starts with its image. -/
theorem C33_pending_index_entry_counterexample :
    ∃ r, (mk0 (sampleOptions 4096) ⟨[], []⟩).bind
        (fun b => run sampleCrc samplePort b [Op.Add [97] [49], Op.Finish]) = some r ∧
      r.pending_index_entry = false ∧ r.data_block.empty = true ∧
      r.file.contents.take 18
        = dataImage sampleCrc samplePort (sampleOptions 4096) [[([97], [49])]] ∧
      (dataImage sampleCrc samplePort (sampleOptions 4096) [[([97], [49])]]).length = 18 ∧
      ¬ (r.pending_index_entry = true ↔
        (r.data_block.empty = true ∧ ([[([97], [49])]] : List (List Entry)) ≠ [])) := by
  refine ⟨_, rfl, ?_, ?_, ?_, ?_, ?_⟩ <;> decide

/-- C33 (pending index entry), amended: in every state of a builder reached from the
constructor over an empty file whose operations succeed through a sequence of `Add`,
`Flush`, `Finish` and `Abandon` calls, `pending_index_entry` is false if `Finish` was
called, and otherwise the file holds exactly the images of the data blocks written, with
the entries `gs`, and `pending_index_entry` is true if and only if `data_block` is empty
and at least one data block has been written (`gs` is not empty, which is to say that the
file is not empty). -/
theorem C33_pending_index_entry (crc : Crc32c) (port : Port) (options : Options)
    (f0 : AppendFile) (ops : List Op) (b r : TableBuilder)
    (hf : f0.Reliable) (h0 : f0.contents = [])
    (hops : ∀ op ∈ ops, op.isChangeOptions = false)
    (hb : mk0 options f0 = some b) (hr : run crc port b ops = some r) :
    (ops.any Op.isFinish = true → r.pending_index_entry = false) ∧
    (ops.any Op.isFinish = false →
      ∃ gs, r.file.contents = dataImage crc port options gs ∧
        (gs ≠ [] ↔ r.file.contents ≠ []) ∧
        (r.pending_index_entry = true ↔ (r.data_block.empty = true ∧ gs ≠ []))) := by
  have hbuilt := mk0_Built crc port options f0 b hf h0 hb
  obtain ⟨h1, h2⟩ := run_pending crc port options ops [] [] b r hbuilt hops hr
  refine ⟨h1, fun hfin => ?_⟩
  obtain ⟨gs, cur, hc, hd, hp⟩ := h2 hfin
  refine ⟨gs, hc, ?_, ?_⟩
  · rw [hc]
    exact not_congr (dataImage_eq_nil crc port options gs).symm
  · rw [hp, hd, BlockBuilder.empty_addAll]
    simp

/-- Witness for C33: the calls `Add("a", "1")`, `Flush()`, and the same followed by
`Finish()`, with the sample options over an empty file without failures. -/
theorem C33_pending_index_entry_witness :
    (((mk0 (sampleOptions 4096) ⟨[], []⟩).bind
      (fun b => run sampleCrc samplePort b [Op.Add [97] [49], Op.Flush])).map
        (fun r => (r.pending_index_entry, r.data_block.empty, r.file.contents.length))
      = some (true, true, 18)) ∧
    ([Op.Add [97] [49], Op.Flush].any Op.isFinish = false →
      ∃ gs, ((run sampleCrc samplePort (Rep (sampleOptions 4096) ⟨[], []⟩)
          [Op.Add [97] [49], Op.Flush]).getD (Rep (sampleOptions 4096) ⟨[], []⟩)).file.contents
          = dataImage sampleCrc samplePort (sampleOptions 4096) gs ∧
        (gs ≠ [] ↔ ((run sampleCrc samplePort (Rep (sampleOptions 4096) ⟨[], []⟩)
          [Op.Add [97] [49], Op.Flush]).getD
            (Rep (sampleOptions 4096) ⟨[], []⟩)).file.contents ≠ []) ∧
        (((run sampleCrc samplePort (Rep (sampleOptions 4096) ⟨[], []⟩)
          [Op.Add [97] [49], Op.Flush]).getD
            (Rep (sampleOptions 4096) ⟨[], []⟩)).pending_index_entry = true ↔
          (((run sampleCrc samplePort (Rep (sampleOptions 4096) ⟨[], []⟩)
            [Op.Add [97] [49], Op.Flush]).getD
              (Rep (sampleOptions 4096) ⟨[], []⟩)).data_block.empty = true ∧ gs ≠ []))) :=
  ⟨by decide,
    (C33_pending_index_entry sampleCrc samplePort (sampleOptions 4096) ⟨[], []⟩
      [Op.Add [97] [49], Op.Flush] (Rep (sampleOptions 4096) ⟨[], []⟩)
      ((run sampleCrc samplePort (Rep (sampleOptions 4096) ⟨[], []⟩)
        [Op.Add [97] [49], Op.Flush]).getD (Rep (sampleOptions 4096) ⟨[], []⟩))
      (fun _ hx => by cases hx) rfl (by decide) rfl rfl).2⟩

end TableBuilder
end leveldb

namespace leveldb

namespace FilterBlockBuilder

theorem GenerateFilter_offsets_length (policy : FilterPolicy) (b : FilterBlockBuilder) :
    (GenerateFilter policy b).filter_offsets_.length = b.filter_offsets_.length + 1 := by
  unfold GenerateFilter
  simp only
  split <;> simp

theorem StartBlockLoop_length (policy : FilterPolicy) (idx : Nat) :
    ∀ (fuel : Nat) (b : FilterBlockBuilder), b.filter_offsets_.length ≤ idx →
      idx - b.filter_offsets_.length ≤ fuel →
      ∃ b1, StartBlockLoop policy idx fuel b = some b1 ∧ b1.filter_offsets_.length = idx := by
  intro fuel
  induction fuel with
  | zero =>
    intro b h1 h2
    have : b.filter_offsets_.length = idx := by omega
    refine ⟨b, ?_, this⟩
    rw [StartBlockLoop, if_neg (by omega)]
  | succ fuel ih =>
    intro b h1 h2
    rw [StartBlockLoop]
    by_cases h : idx > b.filter_offsets_.length
    · rw [if_pos h]
      apply ih
      · rw [GenerateFilter_offsets_length]; omega
      · rw [GenerateFilter_offsets_length]; omega
    · rw [if_neg h]
      exact ⟨b, rfl, by omega⟩

theorem StartBlock_length (policy : FilterPolicy) (b : FilterBlockBuilder) (o : Nat)
    (h : b.filter_offsets_.length ≤ o / kFilterBase) :
    ∃ b1, b.StartBlock policy o = some b1 ∧ b1.filter_offsets_.length = o / kFilterBase := by
  unfold StartBlock
  simp only [ge_iff_le, h, if_true]
  exact StartBlockLoop_length policy _ _ b h (Nat.le_refl _)

end FilterBlockBuilder

namespace TableBuilder

theorem WriteRawBlock_growth (crc : Crc32c) (r : TableBuilder) (c : List Nat)
    (t : CompressionType) :
    r.file.contents.length ≤ (WriteRawBlock crc r c t).1.file.contents.length ∧
    (WriteRawBlock crc r c t).1.file.contents.length ≤ r.file.contents.length + c.length + 5 ∧
    ((WriteRawBlock crc r c t).1.offset = r.offset ∨
      ((WriteRawBlock crc r c t).1.offset = (r.offset + c.length + 5) % 2 ^ 64 ∧
        (WriteRawBlock crc r c t).1.file.contents.length
          = r.file.contents.length + c.length + 5)) := by
  have hA := AppendFile.Append_cases r.file c
  have hB := AppendFile.Append_cases (r.file.Append c).2
    (t.toNat :: EncodeFixed32 (crc.Mask (crc.Extend (crc.Value c) [t.toNat])))
  have hlen : (t.toNat :: EncodeFixed32 (crc.Mask (crc.Extend (crc.Value c) [t.toNat]))).length
      = 5 := rfl
  unfold WriteRawBlock
  simp only
  generalize (t.toNat :: EncodeFixed32 (crc.Mask (crc.Extend (crc.Value c) [t.toNat])))
    = tr at hB hlen ⊢
  split
  · next h1 =>
    have a2 : (r.file.Append c).2.contents = r.file.contents ++ c := by
      rcases hA with ⟨_, a2⟩ | ⟨a1, _⟩
      · exact a2
      · rw [a1] at h1; cases h1
    split
    · next h2 =>
      have b2 : ((r.file.Append c).2.Append tr).2.contents
          = (r.file.Append c).2.contents ++ tr := by
        rcases hB with ⟨_, b2⟩ | ⟨b1, _⟩
        · exact b2
        · rw [b1] at h2; cases h2
      simp only [b2, a2, List.length_append, hlen, kBlockTrailerSize]
      exact ⟨by omega, by omega, Or.inr ⟨trivial, trivial⟩⟩
    · have b2 : ((r.file.Append c).2.Append tr).2.contents.length
          ≤ (r.file.Append c).2.contents.length + 5 ∧
          (r.file.Append c).2.contents.length
            ≤ ((r.file.Append c).2.Append tr).2.contents.length := by
        rcases hB with ⟨_, b2⟩ | ⟨_, b2⟩
        · rw [b2, List.length_append, hlen]; omega
        · rw [b2]; omega
      rw [a2, List.length_append] at b2
      simp only
      exact ⟨by omega, by omega, Or.inl trivial⟩
  · have a2 : (r.file.Append c).2.contents.length ≤ r.file.contents.length + c.length ∧
        r.file.contents.length ≤ (r.file.Append c).2.contents.length := by
      rcases hA with ⟨_, a2⟩ | ⟨_, a2⟩
      · rw [a2, List.length_append]; omega
      · rw [a2]; omega
    simp only
    exact ⟨by omega, by omega, Or.inl trivial⟩

theorem WriteRawBlock_offset_le (crc : Crc32c) (r : TableBuilder) (c : List Nat)
    (t : CompressionType) (hle : r.offset ≤ r.file.contents.length)
    (hs : (WriteRawBlock crc r c t).1.file.contents.length < 2 ^ 64) :
    r.offset ≤ (WriteRawBlock crc r c t).1.offset ∧
    (WriteRawBlock crc r c t).1.offset ≤ (WriteRawBlock crc r c t).1.file.contents.length := by
  obtain ⟨h1, h2, h3⟩ := WriteRawBlock_growth crc r c t
  rcases h3 with h | ⟨h, h4⟩
  · rw [h]; exact ⟨Nat.le_refl _, by omega⟩
  · rw [h, Nat.mod_eq_of_lt (by omega)]
    exact ⟨by omega, by omega⟩

theorem chooseContents_length_le (port : Port) (options : Options) (raw : List Nat) :
    (chooseContents port options raw).1.length ≤ raw.length := by
  unfold chooseContents
  split
  · exact Nat.le_refl _
  · split
    · split
      · simp only; omega
      · exact Nat.le_refl _
    · exact Nat.le_refl _
  · split
    · split
      · simp only; omega
      · exact Nat.le_refl _
    · exact Nat.le_refl _

end TableBuilder
end leveldb

namespace leveldb
namespace TableBuilder

theorem StartFilterBlock_FInv (r3 : TableBuilder) (hc : r3.closed = false)
    (hle : r3.offset ≤ r3.file.contents.length)
    (hp : r3.pending_index_entry = true → r3.data_block.empty = true)
    (hfil : ∀ policy fb, r3.filter_block = some (policy, fb) →
      fb.filter_offsets_.length ≤ r3.offset / kFilterBase) :
    ∃ r1, StartFilterBlock r3 r3.offset = some r1 ∧ FInv r1 ∧ r1.file = r3.file := by
  unfold StartFilterBlock
  cases hfb : r3.filter_block with
  | none =>
    refine ⟨r3, rfl, ⟨hc, hle, hp, ?_⟩, rfl⟩
    intro policy fb h
    rw [hfb] at h
    cases h
  | some pf =>
    obtain ⟨policy, fb⟩ := pf
    obtain ⟨fb1, h1, h2⟩ := FilterBlockBuilder.StartBlock_length policy fb r3.offset
      (hfil policy fb hfb)
    simp only [h1]
    refine ⟨_, rfl, ⟨hc, hle, hp, ?_⟩, rfl⟩
    intro policy2 fb2 h
    simp only [Option.some.injEq, Prod.mk.injEq] at h
    rw [← h.2]
    exact h2

theorem Flush_FInv (crc : Crc32c) (port : Port) (r : TableBuilder) (hi : FInv r)
    (hs : r.status.ok = true → r.data_block.empty = false →
      (WriteRawBlock crc r (chooseContents port r.options r.data_block.Finish.2).1
        (chooseContents port r.options r.data_block.Finish.2).2).1.file.contents.length
        < 2 ^ 64) :
    ∃ r1, r.Flush crc port = some r1 ∧ FInv r1 ∧
      r1.file.contents.length =
        if r.status.ok = true ∧ r.data_block.empty = false then
          (WriteRawBlock crc r (chooseContents port r.options r.data_block.Finish.2).1
            (chooseContents port r.options r.data_block.Finish.2).2).1.file.contents.length
        else r.file.contents.length := by
  unfold Flush
  simp only [hi.closed_eq, Bool.false_eq_true, if_false, ok]
  by_cases hok : r.status.ok = true
  · by_cases hem : r.data_block.empty = true
    · simp only [hok, hem, Bool.not_true, Bool.false_eq_true, if_false, if_true, and_false]
      exact ⟨r, rfl, hi, rfl⟩
    · have hem2 : r.data_block.empty = false := by simpa using hem
      have hpe : r.pending_index_entry = false := by
        cases hp : r.pending_index_entry with
        | false => rfl
        | true => rw [hi.pending_empty hp] at hem2; cases hem2
      have hs2 := hs hok hem2
      simp only [hok, hem2, hpe, Bool.not_true, Bool.false_eq_true, if_false, WriteBlock, ok,
        and_self, if_true]
      generalize hw : WriteRawBlock crc r (chooseContents port r.options r.data_block.Finish.2).1
        (chooseContents port r.options r.data_block.Finish.2).2 = w at hs2 ⊢
      have hf := (WriteRawBlock_fields crc r
        (chooseContents port r.options r.data_block.Finish.2).1
        (chooseContents port r.options r.data_block.Finish.2).2).1
      have ho := WriteRawBlock_offset_le crc r
        (chooseContents port r.options r.data_block.Finish.2).1
        (chooseContents port r.options r.data_block.Finish.2).2 hi.offset_le (by rw [hw]; exact hs2)
      rw [hw] at hf ho
      have hcl : w.1.closed = false := by rw [hf]; exact hi.closed_eq
      have hfil : w.1.filter_block = r.filter_block := by rw [hf]
      have hdiv : r.offset / kFilterBase ≤ w.1.offset / kFilterBase :=
        Nat.div_le_div_right ho.1
      by_cases hwok : w.1.status.ok = true
      · simp only [hwok, if_true]
        obtain ⟨r1, h1, h2, h3⟩ := StartFilterBlock_FInv
          { w.1 with compressed_output := [], data_block := r.data_block.Finish.1.Reset
                     pending_handle := w.2, pending_index_entry := true
                     status := w.1.file.Flush.1, file := w.1.file.Flush.2 }
          hcl (by simpa [AppendFile.Flush_contents] using ho.2) (fun _ => rfl)
          (fun policy fb h => by
            have h' : r.filter_block = some (policy, fb) := by rw [← hfil]; exact h
            rw [hi.filter_eq policy fb h']
            exact hdiv)
        refine ⟨r1, h1, h2, ?_⟩
        rw [h3]
        show w.1.file.Flush.2.contents.length = _
        rw [AppendFile.Flush_contents]
      · simp only [hwok, Bool.false_eq_true, if_false]
        obtain ⟨r1, h1, h2, h3⟩ := StartFilterBlock_FInv
          { w.1 with compressed_output := [], data_block := r.data_block.Finish.1.Reset
                     pending_handle := w.2 }
          hcl ho.2 (fun _ => rfl)
          (fun policy fb h => by
            have h' : r.filter_block = some (policy, fb) := by rw [← hfil]; exact h
            rw [hi.filter_eq policy fb h']
            exact hdiv)
        refine ⟨r1, h1, h2, ?_⟩
        rw [h3]
  · have hok2 : r.status.ok = false := by simpa using hok
    simp only [hok2, Bool.not_false, if_true, Bool.false_eq_true, false_and, if_false]
    exact ⟨r, rfl, hi, rfl⟩

end TableBuilder
end leveldb

namespace leveldb
namespace TableBuilder

theorem Flush_length (crc : Crc32c) (port : Port) (r r1 : TableBuilder)
    (h : r.Flush crc port = some r1) :
    r1.file.contents.length =
      if r.status.ok = true ∧ r.data_block.empty = false then
        (WriteRawBlock crc r (chooseContents port r.options r.data_block.Finish.2).1
          (chooseContents port r.options r.data_block.Finish.2).2).1.file.contents.length
      else r.file.contents.length := by
  rcases Flush_some crc port r r1 h with ⟨h0, h1⟩ | ⟨_, hok, hem, _, w, r3, hw, hs, h3⟩
  · subst h1
    rw [if_neg]
    rintro ⟨h2, h3⟩
    rcases h0 with h0 | h0
    · rw [h0] at h2; cases h2
    · rw [h0] at h3; cases h3
  · rw [if_pos ⟨hok, hem⟩, ← hw]
    have hf := StartFilterBlock_fields r3 r1 _ hs
    have hfile : r1.file = r3.file := by rw [hf]
    rw [hfile]
    rcases h3 with ⟨_, h3⟩ | ⟨_, h3⟩
    · rw [h3]
      show w.file.Flush.2.contents.length = _
      rw [AppendFile.Flush_contents]
    · rw [h3]

theorem Flush_FInv_of (crc : Crc32c) (port : Port) (r r1 : TableBuilder) (hi : FInv r)
    (h : r.Flush crc port = some r1) (hs : r1.file.contents.length < 2 ^ 64) :
    FInv r1 ∧ r.file.contents.length ≤ r1.file.contents.length := by
  have hl := Flush_length crc port r r1 h
  have hg := (WriteRawBlock_growth crc r (chooseContents port r.options r.data_block.Finish.2).1
    (chooseContents port r.options r.data_block.Finish.2).2).1
  obtain ⟨r2, h2, hi2, _⟩ := Flush_FInv crc port r hi (fun hok hem => by
    rw [if_pos ⟨hok, hem⟩] at hl
    rw [← hl]
    exact hs)
  rw [h] at h2
  simp only [Option.some.injEq] at h2
  subst h2
  refine ⟨hi2, ?_⟩
  rw [hl]
  split
  · exact hg
  · exact Nat.le_refl _

theorem Flush_returns (crc : Crc32c) (port : Port) (r : TableBuilder) (hi : FInv r)
    (hs : r.file.contents.length + r.data_block.Finish.2.length + 5 < 2 ^ 64) :
    ∃ r1, r.Flush crc port = some r1 ∧ FInv r1 := by
  have hg := (WriteRawBlock_growth crc r (chooseContents port r.options r.data_block.Finish.2).1
    (chooseContents port r.options r.data_block.Finish.2).2).2.1
  have hc := chooseContents_length_le port r.options r.data_block.Finish.2
  obtain ⟨r1, h1, h2, _⟩ := Flush_FInv crc port r hi (fun _ _ => by omega)
  exact ⟨r1, h1, h2⟩

theorem FInv_addCore (r r0 : TableBuilder) (k v : List Nat) (hi : FInv r)
    (h0 : AddPendingIndexEntry r k = some r0) :
    FInv { r0 with filter_block := r0.filter_block.map (fun pf => (pf.1, pf.2.AddKey k))
                   last_key := k
                   num_entries := r0.num_entries + 1
                   data_block := r0.data_block.Add r0.options k v } ∧
    r0.file = r.file ∧ r0.options = r.options ∧ r0.data_block = r.data_block := by
  have hr0 : r0.closed = r.closed ∧ r0.offset = r.offset ∧ r0.file = r.file ∧
      r0.filter_block = r.filter_block ∧ r0.pending_index_entry = false ∧
      r0.options = r.options ∧ r0.data_block = r.data_block := by
    rcases AddPendingIndexEntry_some r r0 k h0 with ⟨hp, h⟩ | ⟨_, _, h⟩
    · subst h; exact ⟨rfl, rfl, rfl, rfl, hp, rfl, rfl⟩
    · subst h; exact ⟨rfl, rfl, rfl, rfl, rfl, rfl, rfl⟩
  obtain ⟨e1, e2, e3, e4, e5, e6, e7⟩ := hr0
  refine ⟨⟨?_, ?_, ?_, ?_⟩, e3, e6, e7⟩
  · show r0.closed = false
    rw [e1]; exact hi.closed_eq
  · show r0.offset ≤ r0.file.contents.length
    rw [e2, e3]; exact hi.offset_le
  · intro hp
    have : r0.pending_index_entry = true := hp
    rw [e5] at this
    cases this
  · intro policy fb h
    have h' : r0.filter_block.map (fun pf => (pf.1, pf.2.AddKey k)) = some (policy, fb) := h
    rw [e4] at h'
    show fb.filter_offsets_.length = r0.offset / kFilterBase
    rw [e2]
    cases hfb : r.filter_block with
    | none => rw [hfb] at h'; cases h'
    | some pf =>
      rw [hfb] at h'
      simp only [Option.map_some', Option.some.injEq, Prod.mk.injEq] at h'
      rw [← h'.2]
      exact hi.filter_eq pf.1 pf.2 (by rw [hfb])

theorem Add_FInv_of (crc : Crc32c) (port : Port) (r r1 : TableBuilder) (k v : List Nat)
    (hi : FInv r) (h : r.Add crc port k v = some r1)
    (hs : r1.file.contents.length < 2 ^ 64) :
    FInv r1 ∧ r.file.contents.length ≤ r1.file.contents.length := by
  rcases Add_some crc port r r1 k v h with ⟨_, h1⟩ | ⟨_, _, _, r0, r3, h0, h3, h4⟩
  · subst h1
    exact ⟨hi, Nat.le_refl _⟩
  · obtain ⟨hi3, hfile, _, _⟩ := FInv_addCore r r0 k v hi h0
    rw [← h3] at hi3
    have hf3 : r3.file = r.file := by rw [h3]; exact hfile
    rw [← hf3]
    rcases h4 with ⟨_, hfl⟩ | ⟨_, h5⟩
    · exact Flush_FInv_of crc port r3 r1 hi3 hfl hs
    · subst h5
      exact ⟨hi3, Nat.le_refl _⟩

theorem Add_returns (crc : Crc32c) (port : Port) (r : TableBuilder) (k v : List Nat)
    (hi : FInv r)
    (hkey : r.num_entries > 0 → r.options.comparator.Compare k r.last_key > 0)
    (hs : r.file.contents.length + (r.data_block.Add r.options k v).Finish.2.length + 5
      < 2 ^ 64) :
    ∃ r1, r.Add crc port k v = some r1 ∧ FInv r1 := by
  unfold Add
  simp only [hi.closed_eq, Bool.false_eq_true, if_false]
  by_cases hok : r.ok = true
  · simp only [hok, Bool.not_true, Bool.false_eq_true, if_false]
    rw [if_neg (fun hcon => hcon.2 (hkey hcon.1))]
    have h0 : ∃ r0, AddPendingIndexEntry r k = some r0 := by
      unfold AddPendingIndexEntry
      by_cases hp : r.pending_index_entry = true
      · simp only [hp, if_true, hi.pending_empty hp, Bool.not_true, Bool.false_eq_true, if_false]
        exact ⟨_, rfl⟩
      · simp only [hp, Bool.false_eq_true, if_false]
        exact ⟨_, rfl⟩
    obtain ⟨r0, h0⟩ := h0
    obtain ⟨hi3, hfile, hopt, hdata⟩ := FInv_addCore r r0 k v hi h0
    rw [h0]
    simp only [AddFilterKey]
    split
    · apply Flush_returns crc port _ hi3
      show r0.file.contents.length + (r0.data_block.Add r0.options k v).Finish.2.length + 5 < _
      rw [hfile, hopt, hdata]
      exact hs
    · exact ⟨_, rfl, hi3⟩
  · simp only [hok, Bool.not_false, if_true]
    exact ⟨r, rfl, hi⟩

theorem mk0_FInv (options : Options) (f0 : AppendFile) :
    ∃ b, mk0 options f0 = some b ∧ FInv b := by
  obtain ⟨b, h1, h2, _⟩ := StartFilterBlock_FInv (Rep options f0) rfl (Nat.zero_le _)
    (fun h => by cases h)
    (fun policy fb h => by
      have h' : options.filter_policy.map (fun policy => (policy, FilterBlockBuilder.mk0))
          = some (policy, fb) := h
      cases hq : options.filter_policy with
      | none => rw [hq] at h'; cases h'
      | some p =>
        rw [hq] at h'
        simp only [Option.map_some', Option.some.injEq, Prod.mk.injEq] at h'
        rw [← h'.2]
        exact Nat.zero_le _)
  exact ⟨b, h1, h2⟩

theorem run_FInv (crc : Crc32c) (port : Port) (ops : List Op) :
    ∀ (r r1 : TableBuilder), FInv r → (∀ op ∈ ops, op.isAddOrFlush = true) →
      run crc port r ops = some r1 → r1.file.contents.length < 2 ^ 64 → FInv r1 := by
  have hmono : ∀ (ops : List Op) (r r1 : TableBuilder),
      (∀ op ∈ ops, op.isAddOrFlush = true) → run crc port r ops = some r1 →
      r.file.contents.length ≤ r1.file.contents.length := by
    intro ops
    induction ops with
    | nil =>
      intro r r1 _ h
      simp only [run, Option.some.injEq] at h
      subst h
      exact Nat.le_refl _
    | cons op rest ih =>
      intro r r1 hops h
      rw [run] at h
      cases hstep : step crc port r op with
      | none => rw [hstep] at h; cases h
      | some r2 =>
        rw [hstep] at h
        have h2 := ih r2 r1 (fun o ho => hops o (List.mem_cons_of_mem _ ho)) h
        refine Nat.le_trans ?_ h2
        cases op with
        | Add k v =>
          rcases Add_some crc port r r2 k v hstep with ⟨_, h1⟩ | ⟨_, _, _, r0, r3, h0, h3, h4⟩
          · subst h1; exact Nat.le_refl _
          · have hfile : r3.file = r.file := by
              rw [h3]
              rcases AddPendingIndexEntry_some r r0 k h0 with ⟨_, e⟩ | ⟨_, _, e⟩
              · rw [e]
              · rw [e]
            rw [← hfile]
            rcases h4 with ⟨_, hfl⟩ | ⟨_, h5⟩
            · rw [Flush_length crc port r3 r2 hfl]
              split
              · exact (WriteRawBlock_growth crc r3 _ _).1
              · exact Nat.le_refl _
            · subst h5; exact Nat.le_refl _
        | Flush =>
          rw [Flush_length crc port r r2 hstep]
          split
          · exact (WriteRawBlock_growth crc r _ _).1
          · exact Nat.le_refl _
        | ChangeOptions o => cases hops (Op.ChangeOptions o) (List.mem_cons_self _ _)
        | Finish => cases hops Op.Finish (List.mem_cons_self _ _)
        | Abandon => cases hops Op.Abandon (List.mem_cons_self _ _)
  induction ops with
  | nil =>
    intro r r1 hi _ h _
    simp only [run, Option.some.injEq] at h
    subst h
    exact hi
  | cons op rest ih =>
    intro r r1 hi hops h hs
    have hrest : ∀ o ∈ rest, o.isAddOrFlush = true :=
      fun o ho => hops o (List.mem_cons_of_mem _ ho)
    rw [run] at h
    cases hstep : step crc port r op with
    | none => rw [hstep] at h; cases h
    | some r2 =>
      rw [hstep] at h
      have hm := hmono rest r2 r1 hrest h
      have hs2 : r2.file.contents.length < 2 ^ 64 := Nat.lt_of_le_of_lt hm hs
      apply ih r2 r1 ?_ hrest h hs
      cases op with
      | Add k v => exact (Add_FInv_of crc port r r2 k v hi hstep hs2).1
      | Flush => exact (Flush_FInv_of crc port r r2 hi hstep hs2).1
      | ChangeOptions o => cases hops (Op.ChangeOptions o) (List.mem_cons_self _ _)
      | Finish => cases hops Op.Finish (List.mem_cons_self _ _)
      | Abandon => cases hops Op.Abandon (List.mem_cons_self _ _)

end TableBuilder
end leveldb

namespace leveldb
namespace TableBuilder

/-- C38 (the precondition of `StartBlock` inside the table builder): over any file,
whether or not its writes succeed, the constructor returns (its call `StartBlock(0)`
passes the assertion) and leaves `filter_offsets_.size() == 0 / 2048`; and in every state
reached from it by `Add` and `Flush` calls, the file being below 2^64 bytes, the filter
block builder has `offset / 2048` filter offsets, so a call `StartBlock(o)` with an offset
`o` not below `offset` has `o / 2048 >= filter_offsets_.size()`, returns, and leaves
`filter_offsets_.size() == o / 2048`; a further `Flush` returns (no assertion fails in
it, the one of `StartBlock` included), and a further `Add` returns unless its own
assertion on the order of the keys fails, each leaving
`filter_offsets_.size() == offset / 2048` for the offset passed to `StartBlock`. -/
theorem C38_startblock_precondition (crc : Crc32c) (port : Port) (options : Options)
    (f0 : AppendFile) :
    ∃ b, mk0 options f0 = some b ∧
      (∀ policy fb, b.filter_block = some (policy, fb) →
        fb.filter_offsets_.length = 0 / kFilterBase) ∧
      ∀ ops r, (∀ op ∈ ops, op.isAddOrFlush = true) → run crc port b ops = some r →
        r.file.contents.length < 2 ^ 64 →
        (∀ policy fb, r.filter_block = some (policy, fb) →
          fb.filter_offsets_.length = r.offset / kFilterBase) ∧
        (∀ policy fb o, r.filter_block = some (policy, fb) → r.offset ≤ o →
          o / kFilterBase ≥ fb.filter_offsets_.length ∧
          ∃ fb1, fb.StartBlock policy o = some fb1 ∧
            fb1.filter_offsets_.length = o / kFilterBase) ∧
        (r.file.contents.length + r.data_block.Finish.2.length + 5 < 2 ^ 64 →
          ∃ r1, r.Flush crc port = some r1 ∧
            ∀ policy fb1, r1.filter_block = some (policy, fb1) →
              fb1.filter_offsets_.length = r1.offset / kFilterBase) ∧
        (∀ k v, (r.num_entries > 0 → r.options.comparator.Compare k r.last_key > 0) →
          r.file.contents.length + (r.data_block.Add r.options k v).Finish.2.length + 5
            < 2 ^ 64 →
          ∃ r1, r.Add crc port k v = some r1 ∧
            ∀ policy fb1, r1.filter_block = some (policy, fb1) →
              fb1.filter_offsets_.length = r1.offset / kFilterBase) := by
  obtain ⟨b, hb, hib⟩ := mk0_FInv options f0
  refine ⟨b, hb, ?_, ?_⟩
  · intro policy fb h
    have := hib.filter_eq policy fb h
    have h0 : b.offset = 0 := by rw [mk0_fields options f0 b hb]; rfl
    rw [this, h0]
  · intro ops r hops hr hs
    have hi := run_FInv crc port ops b r hib hops hr hs
    refine ⟨hi.filter_eq, ?_, ?_, ?_⟩
    · intro policy fb o h ho
      have hle : fb.filter_offsets_.length ≤ o / kFilterBase := by
        rw [hi.filter_eq policy fb h]
        exact Nat.div_le_div_right ho
      exact ⟨hle, FilterBlockBuilder.StartBlock_length policy fb o hle⟩
    · intro hsz
      obtain ⟨r1, h1, h2⟩ := Flush_returns crc port r hi hsz
      exact ⟨r1, h1, h2.filter_eq⟩
    · intro k v hkey hsz
      obtain ⟨r1, h1, h2⟩ := Add_returns crc port r k v hi hkey hsz
      exact ⟨r1, h1, h2.filter_eq⟩

/-- Witness for C38 with the sample filter policy, blocks of one byte, and a file whose
third operation fails. -/
theorem C38_startblock_precondition_witness :
    ∃ b, mk0 (sampleFilterOptions 1) ⟨[], [true, true, false]⟩ = some b ∧
      (∀ policy fb, b.filter_block = some (policy, fb) →
        fb.filter_offsets_.length = 0 / kFilterBase) ∧
      ∀ ops r, (∀ op ∈ ops, op.isAddOrFlush = true) → run sampleCrc samplePort b ops = some r →
        r.file.contents.length < 2 ^ 64 →
        (∀ policy fb, r.filter_block = some (policy, fb) →
          fb.filter_offsets_.length = r.offset / kFilterBase) ∧
        (∀ policy fb o, r.filter_block = some (policy, fb) → r.offset ≤ o →
          o / kFilterBase ≥ fb.filter_offsets_.length ∧
          ∃ fb1, fb.StartBlock policy o = some fb1 ∧
            fb1.filter_offsets_.length = o / kFilterBase) ∧
        (r.file.contents.length + r.data_block.Finish.2.length + 5 < 2 ^ 64 →
          ∃ r1, r.Flush sampleCrc samplePort = some r1 ∧
            ∀ policy fb1, r1.filter_block = some (policy, fb1) →
              fb1.filter_offsets_.length = r1.offset / kFilterBase) ∧
        (∀ k v, (r.num_entries > 0 → r.options.comparator.Compare k r.last_key > 0) →
          r.file.contents.length + (r.data_block.Add r.options k v).Finish.2.length + 5
            < 2 ^ 64 →
          ∃ r1, r.Add sampleCrc samplePort k v = some r1 ∧
            ∀ policy fb1, r1.filter_block = some (policy, fb1) →
              fb1.filter_offsets_.length = r1.offset / kFilterBase) :=
  C38_startblock_precondition sampleCrc samplePort (sampleFilterOptions 1)
    ⟨[], [true, true, false]⟩

end TableBuilder
end leveldb

namespace leveldb
namespace log

theorem AddRecordLoop_congr (crc : Crc32c) (fuel : Nat) (w w1 : Writer) (left : List Nat)
    (begin : Bool) (hd : w1.dest_ = w.dest_) (ht : w1.type_crc_ = w.type_crc_)
    (hb : w1.block_offset_ = w.block_offset_ ∨
      (w.block_offset_ = kBlockSize ∧ w1.block_offset_ = 0)) :
    Writer.AddRecordLoop crc fuel w1 left begin = Writer.AddRecordLoop crc fuel w left begin := by
  obtain ⟨d, b, t⟩ := w
  obtain ⟨d1, b1, t1⟩ := w1
  simp only at hd ht hb
  subst hd ht
  rcases hb with hb | ⟨hb, hb1⟩
  · subst hb; rfl
  · subst hb hb1
    cases fuel with
    | zero => rfl
    | succ fuel =>
      simp [Writer.AddRecordLoop, kBlockSize, kHeaderSize]

theorem AddRecords_congr (crc : Crc32c) (w w1 : Writer) (ps : List (List Nat))
    (hd : w1.dest_ = w.dest_) (ht : w1.type_crc_ = w.type_crc_)
    (hb : w1.block_offset_ = w.block_offset_ ∨
      (w.block_offset_ = kBlockSize ∧ w1.block_offset_ = 0)) :
    (Writer.AddRecords crc w1 ps).map (fun x => x.dest_.contents)
      = (Writer.AddRecords crc w ps).map (fun x => x.dest_.contents) := by
  cases ps with
  | nil =>
    simp only [Writer.AddRecords, Option.map_some', hd]
  | cons p rest =>
    simp only [Writer.AddRecords, Writer.AddRecord,
      AddRecordLoop_congr crc _ w w1 p true hd ht hb]

theorem AddRecords_append (crc : Crc32c) :
    ∀ (ps qs : List (List Nat)) (w : Writer),
      Writer.AddRecords crc w (ps ++ qs)
        = (Writer.AddRecords crc w ps).bind (fun w1 => Writer.AddRecords crc w1 qs) := by
  intro ps
  induction ps with
  | nil => intro qs w; rfl
  | cons p rest ih =>
    intro qs w
    rw [List.cons_append, Writer.AddRecords, Writer.AddRecords]
    cases w.AddRecord crc p with
    | none => rfl
    | some x =>
      obtain ⟨s, w1⟩ := x
      simp only
      split
      · exact ih qs w1
      · rfl

/-- C39 (resuming a log): a writer from offset 0 on an empty file whose operations
succeed writes the payloads `ps`, giving the file `L`; for every sequence of payloads
`qs`, the original writer going on and a new writer constructed on the file with
`dest_length = |L|` both write them all and append the same bytes `X` to `L`; and a
reader from offset 0 over the file of the new writer, with a reporter and checksum
verification, returns the payloads `ps` followed by `qs`, then false, and its reporter
has received no call. -/
theorem C39_log_resume (crc : Crc32c) (hc : crc.Lawful) (ps qs : List (List Nat)) :
    ∃ w w2 w3 X r,
      Writer.AddRecords crc (Writer.mk0 crc ⟨[], true⟩) ps = some w ∧
      Writer.AddRecords crc w qs = some w2 ∧
      Writer.AddRecords crc (Writer.mkAt crc w.dest_ w.dest_.contents.length) qs = some w3 ∧
      w2.dest_.contents = w.dest_.contents ++ X ∧
      w3.dest_.contents = w.dest_.contents ++ X ∧
      Reader.ReadRecords crc ((ps ++ qs).length + 1)
          (Reader.mk0 ⟨w3.dest_.contents, true⟩ (some []) true 0)
        = some (ps ++ qs, true, r) ∧
      r.reporter_ = some [] := by
  obtain ⟨w, X0, items0, hrun, hcont, hlay, hgr, hinv⟩ :=
    addRecords_ok crc ps (Writer.mk0 crc ⟨[], true⟩) (WriterInv_mk0 crc)
  obtain ⟨w2, X, items, hrun2, hcont2, hlay2, hgr2, hinv2⟩ := addRecords_ok crc qs w hinv
  have hb : (Writer.mkAt crc w.dest_ w.dest_.contents.length).block_offset_ = w.block_offset_ ∨
      (w.block_offset_ = kBlockSize ∧
        (Writer.mkAt crc w.dest_ w.dest_.contents.length).block_offset_ = 0) := by
    have h1 := hinv.le_block
    have h2 := hinv.congr_len
    show w.dest_.contents.length % kBlockSize = w.block_offset_ ∨
      (w.block_offset_ = kBlockSize ∧ w.dest_.contents.length % kBlockSize = 0)
    rw [← h2]
    by_cases h3 : w.block_offset_ = kBlockSize
    · right
      refine ⟨h3, ?_⟩
      rw [h3]
      exact Nat.mod_self _
    · left
      exact Nat.mod_eq_of_lt (by omega)
  have hcg := AddRecords_congr crc w (Writer.mkAt crc w.dest_ w.dest_.contents.length) qs rfl
    hinv.type_crc.symm hb
  rw [hrun2] at hcg
  obtain ⟨w3, hrun3, hcont3⟩ : ∃ w3,
      Writer.AddRecords crc (Writer.mkAt crc w.dest_ w.dest_.contents.length) qs = some w3 ∧
      w3.dest_.contents = w2.dest_.contents := by
    cases h : Writer.AddRecords crc (Writer.mkAt crc w.dest_ w.dest_.contents.length) qs with
    | none => rw [h] at hcg; cases hcg
    | some w3 =>
      rw [h] at hcg
      simp only [Option.map_some', Option.some.injEq] at hcg
      exact ⟨w3, rfl, hcg⟩
  have hall : Writer.AddRecords crc (Writer.mk0 crc ⟨[], true⟩) (ps ++ qs) = some w2 := by
    rw [AddRecords_append, hrun]
    exact hrun2
  obtain ⟨w4, X4, items4, hrun4, hcont4, hlay4, hgr4, _⟩ :=
    addRecords_ok crc (ps ++ qs) (Writer.mk0 crc ⟨[], true⟩) (WriterInv_mk0 crc)
  rw [hall] at hrun4
  simp only [Option.some.injEq] at hrun4
  subst hrun4
  have hX : w2.dest_.contents = X4 := by simpa [Writer.mk0] using hcont4
  have hlay0 : Layout crc 0 X4 items4 := hlay4
  obtain ⟨r, hread, hrep⟩ :=
    readRecords_groups crc hc items4 (ps ++ qs) hgr4
      (Reader.mk0 ⟨w3.dest_.contents, true⟩ (some []) true 0) 0
      (Aligned_mk0 _ _ _ _) (by rw [hcont3, hX]; exact hlay0) (Nat.not_lt_zero _)
      (fun _ _ => Nat.not_lt_zero _)
  exact ⟨w, w2, w3, X, r, hrun, hrun2, hrun3, hcont2, by rw [hcont3]; exact hcont2, hread, hrep⟩

/-- Witness for C39 with the sample checksum: two payloads, then one more after the
writer is constructed again. -/
theorem C39_log_resume_witness :
    ∃ w w2 w3 X r,
      Writer.AddRecords sampleCrc (Writer.mk0 sampleCrc ⟨[], true⟩) [[97], [98, 98]] = some w ∧
      Writer.AddRecords sampleCrc w [[99]] = some w2 ∧
      Writer.AddRecords sampleCrc (Writer.mkAt sampleCrc w.dest_ w.dest_.contents.length) [[99]]
        = some w3 ∧
      w2.dest_.contents = w.dest_.contents ++ X ∧
      w3.dest_.contents = w.dest_.contents ++ X ∧
      Reader.ReadRecords sampleCrc (([[97], [98, 98]] ++ [[99]]).length + 1)
          (Reader.mk0 ⟨w3.dest_.contents, true⟩ (some []) true 0)
        = some ([[97], [98, 98]] ++ [[99]], true, r) ∧
      r.reporter_ = some [] :=
  C39_log_resume sampleCrc sampleCrc_lawful [[97], [98, 98]] [[99]]

end log
end leveldb

